import Mathlib

/-! Irregexp orchestration and compiler core (`src/regexp/jsregexp.cc`).

A shallow embedding of the parts of `jsregexp.cc` that the verified
properties talk about, followed by the theorems.

Conventions of the embedding:

* `uint32_t` values are natural numbers below `2 ^ 32`; every operation that
  can leave that range is reduced with `% 2 ^ 32` (see `u32`), and the
  complement `~x` is `x ^^^ 0xFFFFFFFF`.
* `uc16` values are natural numbers below `2 ^ 16`; an assignment of a wider
  value to a `uc16` variable is the explicit truncation `toUc16`.
* `uc32` code points and plain `int` values that are never negative are
  natural numbers; `int` values that can be negative (`-1` results, register
  contents) are integers.
* Heap arrays are lists; a store is `List.set`.
* Loops that the source leaves only by `return` take a `fuel` argument and
  give `none` when it runs out; the theorems show how much fuel is enough.
-/

set_option autoImplicit false
set_option maxRecDepth 100000

namespace V8

/-! ## Machine words -/

/-- Reduction of a natural number to an unsigned 32-bit word. -/
def u32 (n : Nat) : Nat := n % 2 ^ 32

/-- Conversion to `uc16` (an unsigned 16-bit code unit): the value is truncated. -/
def toUc16 (n : Nat) : Nat := n % 2 ^ 16

/-- Bitwise complement of a `uint32_t`. -/
def not32 (n : Nat) : Nat := u32 n ^^^ 0xFFFFFFFF

/-- The constant `String::kMaxOneByteCharCode`. -/
def String.kMaxOneByteCharCode : Nat := 0xFF

/-- The constant `String::kMaxUtf16CodeUnit`. -/
def String.kMaxUtf16CodeUnit : Nat := 0xFFFF

/-- The constant `String::kMaxCodePoint`. -/
def String.kMaxCodePoint : Nat := 0x10FFFF

/-! ## Quick-check details of a character class (`TextNode::GetQuickCheckDetails`) -/

/-- A `CharacterRange`: the closed interval `[from, to]` of `uc32` code points. -/
structure CharacterRange where
  from_ : Nat
  to_ : Nat
  deriving DecidableEq, Repr

/-- The test `CharacterRange::Contains`. -/
def CharacterRange.Contains (r : CharacterRange) (c : Nat) : Bool :=
  decide (r.from_ ≤ c) && decide (c ≤ r.to_)

/-- One `QuickCheckDetails::Position`. -/
structure QuickCheckDetails.Position where
  mask : Nat
  value : Nat
  determines_perfectly : Bool
  deriving DecidableEq, Repr

/-- The function `SmearBitsRight`: takes the left-most 1-bit and sets all bits
to its right. -/
def SmearBitsRight (v : Nat) : Nat :=
  let v := u32 v
  let v := v ||| (v >>> 1)
  let v := v ||| (v >>> 2)
  let v := v ||| (v >>> 4)
  let v := v ||| (v >>> 8)
  let v := v ||| (v >>> 16)
  v

/-- The `char_mask` chosen at the top of `TextNode::GetQuickCheckDetails`. -/
def TextNode.char_mask (one_byte : Bool) : Nat :=
  if one_byte then String.kMaxOneByteCharCode else String.kMaxUtf16CodeUnit

/-- The loop `while (ranges->at(first_range).from() > char_mask)`: skips the
leading ranges that start above `char_mask`.  The result is the first range
that does not, with the ranges after it, or `none` when the list is used up
(the `set_cannot_match` exit).  The comparison is on the full `uc32` bound. -/
def TextNode.firstRange (char_mask : Nat) :
    List CharacterRange → Option (CharacterRange × List CharacterRange)
  | [] => none
  | r :: rest =>
    if r.from_ > char_mask then TextNode.firstRange char_mask rest else some (r, rest)

/-- The body of the loop `for (int i = first_range + 1; ...)` for one range:
`common_bits`, `bits` and `pos->determines_perfectly` are updated with the
range.  Both bounds go through `uc16` locals before the comparisons with
`char_mask`. -/
def TextNode.mergeRange (char_mask : Nat) (acc : Nat × Nat × Bool) (range : CharacterRange) :
    Nat × Nat × Bool :=
  let common_bits := acc.1
  let bits := acc.2.1
  let from_ := toUc16 range.from_
  let to_ := toUc16 range.to_
  if from_ > char_mask then acc
  else
    let to_ := if to_ > char_mask then char_mask else to_
    let new_common_bits := not32 (SmearBitsRight (from_ ^^^ to_))
    let common_bits := common_bits &&& new_common_bits
    let bits := bits &&& new_common_bits
    let differing_bits := (from_ &&& common_bits) ^^^ bits
    let common_bits := common_bits ^^^ differing_bits
    let bits := bits &&& common_bits
    (common_bits, bits, false)

/-- Result of the character-class branch of `TextNode::GetQuickCheckDetails`
for one position: the position record and the `cannot_match` flag of the
details. -/
structure TextNode.ClassResult where
  pos : QuickCheckDetails.Position
  cannot_match : Bool
  deriving DecidableEq, Repr

/-- The character-class branch of `TextNode::GetQuickCheckDetails` (the `else`
of `elm.text_type() == TextElement::ATOM`), for the position `pos` it fills
in. -/
def TextNode.GetQuickCheckDetails_class (one_byte : Bool) (is_negated : Bool)
    (ranges : List CharacterRange) (pos : QuickCheckDetails.Position) :
    TextNode.ClassResult :=
  let char_mask := TextNode.char_mask one_byte
  if is_negated then
    { pos := { pos with mask := 0, value := 0 }, cannot_match := false }
  else
    match TextNode.firstRange char_mask ranges with
    | none => { pos := { pos with determines_perfectly := false }, cannot_match := true }
    | some (range, rest) =>
      let from_ := toUc16 range.from_
      let to_ := toUc16 range.to_
      let to_ := if to_ > char_mask then char_mask else to_
      let differing_bits := u32 (from_ ^^^ to_)
      let perfect :=
        if differing_bits &&& u32 (differing_bits + 1) = 0 ∧ u32 (from_ + differing_bits) = to_
        then true else pos.determines_perfectly
      let common_bits := not32 (SmearBitsRight differing_bits)
      let bits := from_ &&& common_bits
      let acc := rest.foldl (TextNode.mergeRange char_mask) (common_bits, bits, perfect)
      { pos := { mask := acc.1, value := acc.2.1, determines_perfectly := acc.2.2 },
        cannot_match := false }

/-- A cleared position, as left by `QuickCheckDetails::Clear`. -/
def QuickCheckDetails.Position.cleared : QuickCheckDetails.Position :=
  { mask := 0, value := 0, determines_perfectly := false }

/-- The masked compare a quick check performs on one code unit. -/
def QuickCheckDetails.Position.accepts (pos : QuickCheckDetails.Position) (c : Nat) : Bool :=
  decide (c &&& pos.mask = pos.value)

/-- Membership of a code unit in a (non-negated) class: some range contains it. -/
def classContains (ranges : List CharacterRange) (c : Nat) : Bool :=
  ranges.any (fun r => r.Contains c)

/-- The upper bound of a range survives the conversion to `uc16` and the
clamp to `char_mask` for the code units up to `char_mask`: it fits in 16
bits, or its low 16 bits are all set (as for `String::kMaxCodePoint`). -/
def CharacterRange.clampsCorrectly (r : CharacterRange) : Prop :=
  r.to_ ≤ 0xFFFF ∨ r.to_ % 2 ^ 16 = 0xFFFF

/-! ## Boyer-Moore lookahead (`BoyerMooreLookahead::GetSkipTable`) -/

/-- The constant `RegExpMacroAssembler::kTableSize`
(equal to `BoyerMoorePositionInfo::kMapSize` by the `STATIC_ASSERT` of the
source). -/
def RegExpMacroAssembler.kTableSize : Nat := 128

/-- The constant `RegExpMacroAssembler::kTableMask`. -/
def RegExpMacroAssembler.kTableMask : Nat := 127

/-- The values of the enumeration `ContainedInLattice`, by which a position
info summarises how its characters lie in a character class. The
enumeration is declared in the header of the file, outside the sources at
hand; `kNotYet` is the value that a new position info starts with. -/
inductive ContainedInLattice where
  | kNotYet
  | kLatticeIn
  | kLatticeOut
  | kLatticeUnknown
  deriving DecidableEq, Repr

/-- A `BoyerMoorePositionInfo`: the `kMapSize`-entry boolean map that the
skip table reads, the number of its set entries, and the four summary
lattice values for the classes of white space, word characters, digits and
surrogates. -/
structure BoyerMoorePositionInfo where
  map_ : List Bool
  map_count_ : Nat
  s_ : ContainedInLattice := .kNotYet
  w_ : ContainedInLattice := .kNotYet
  d_ : ContainedInLattice := .kNotYet
  surrogate_ : ContainedInLattice := .kNotYet
  deriving DecidableEq, Repr

/-- The accessor `BoyerMoorePositionInfo::at`. -/
def BoyerMoorePositionInfo.at_ (info : BoyerMoorePositionInfo) (j : Nat) : Bool :=
  info.map_.getD j false

/-- A `BoyerMooreLookahead`: one position info per offset in `[0, length_)`. -/
structure BoyerMooreLookahead where
  length_ : Nat
  max_char_ : Nat
  bitmaps_ : List BoyerMoorePositionInfo
  deriving DecidableEq, Repr

/-- The accessor `bitmaps_->at(i)`. -/
def BoyerMooreLookahead.bitmap (bm : BoyerMooreLookahead) (i : Nat) : BoyerMoorePositionInfo :=
  bm.bitmaps_.getD i { map_ := [], map_count_ := 0 }

/-- The local constant `kSkipArrayEntry` of `GetSkipTable`. -/
def BoyerMooreLookahead.kSkipArrayEntry : Nat := 0

/-- The local constant `kDontSkipArrayEntry` of `GetSkipTable`. -/
def BoyerMooreLookahead.kDontSkipArrayEntry : Nat := 1

/-- The first loop of `GetSkipTable`: every one of the `kSize` entries is set
to `kSkipArrayEntry`. -/
def BoyerMooreLookahead.clearSkipTable (boolean_skip_table : List Nat) : List Nat :=
  (List.range RegExpMacroAssembler.kTableSize).foldl
    (fun t i => t.set i BoyerMooreLookahead.kSkipArrayEntry) boolean_skip_table

/-- The inner loop of `GetSkipTable` for one position info: every entry `j`
that the map has set is marked `kDontSkipArrayEntry`. -/
def BoyerMooreLookahead.markMap (map : BoyerMoorePositionInfo) (boolean_skip_table : List Nat) :
    List Nat :=
  (List.range RegExpMacroAssembler.kTableSize).foldl
    (fun t j => if map.at_ j then t.set j BoyerMooreLookahead.kDontSkipArrayEntry else t)
    boolean_skip_table

/-- The loop `for (int i = max_lookahead; i >= min_lookahead; i--)` of
`GetSkipTable`; `count` is the number of iterations still to run and `i` the
current index, so the indices visited are `i, i - 1, ..., i - count + 1`. -/
def BoyerMooreLookahead.markInterval (bm : BoyerMooreLookahead) :
    Nat → Nat → List Nat → List Nat
  | 0, _, table => table
  | count + 1, i, table =>
    BoyerMooreLookahead.markInterval bm count (i - 1)
      (BoyerMooreLookahead.markMap (bm.bitmap i) table)

/-- The function `BoyerMooreLookahead::GetSkipTable`: returns the skip distance
and the filled table. -/
def BoyerMooreLookahead.GetSkipTable (bm : BoyerMooreLookahead)
    (min_lookahead max_lookahead : Nat) (boolean_skip_table : List Nat) : Nat × List Nat :=
  let table := BoyerMooreLookahead.clearSkipTable boolean_skip_table
  let skip := max_lookahead + 1 - min_lookahead
  let table := BoyerMooreLookahead.markInterval bm (max_lookahead + 1 - min_lookahead)
    max_lookahead table
  (skip, table)

/-- Modelled from the spec: the assembler operation `check_bit_in_table`
(`CheckBitInTable`, declared in the macro-assembler interface that is not
part of the listed sources) reads the table entry of the current code unit
modulo the table size (`table_mask == 127`) and branches when it is set. -/
def RegExpMacroAssembler.tableEntry (table : List Nat) (c : Nat) : Nat :=
  table.getD (c &&& RegExpMacroAssembler.kTableMask) 0

/-- Soundness of a lookahead for a subject and a notion of match: whenever a
match begins at position `q`, the code unit at `q + i` exists and the bitmap
of offset `i` contains it modulo the map size, for every offset `i` of the
lookahead. -/
def BoyerMooreLookahead.SoundFor (bm : BoyerMooreLookahead) (subject : List Nat)
    (matchBeginsAt : Nat → Prop) : Prop :=
  ∀ q, matchBeginsAt q → ∀ i, i < bm.length_ →
    ∃ c, subject[q + i]? = some c ∧
      (bm.bitmap i).at_ (c &&& RegExpMacroAssembler.kTableMask) = true

/-! ### A concrete lookahead -/

/-- A two-offset lookahead for the text `ab`: offset 0 admits `a`, offset 1 admits `b`. -/
def BoyerMooreLookahead.forAB : BoyerMooreLookahead :=
  { length_ := 2, max_char_ := String.kMaxOneByteCharCode,
    bitmaps_ := [{ map_ := (List.replicate 128 false).set 97 true, map_count_ := 1 },
                 { map_ := (List.replicate 128 false).set 98 true, map_count_ := 1 }] }

/-! ## Deferred actions of a trace (`Trace::PerformDeferredActions`)

Register numbers, register contents, offsets and counters are C++ `int`s;
they are integers here, and arithmetic on them is exact (signed overflow is
undefined behaviour in the source). -/

/-- The constant `kMinInt`. -/
def kMinInt : Int := -2147483648

/-- An `Interval`: the closed range `[from, to]` of integers. -/
structure Interval where
  from_ : Int
  to_ : Int
  deriving DecidableEq, Repr

/-- The test `Interval::Contains`. -/
def Interval.Contains (i : Interval) (value : Int) : Bool :=
  decide (i.from_ ≤ value) && decide (value ≤ i.to_)

/-- The action types of `ActionNode` that a trace defers. -/
inductive ActionNode.ActionType where
  | SET_REGISTER
  | INCREMENT_REGISTER
  | STORE_POSITION
  | CLEAR_CAPTURES
  deriving DecidableEq, Repr

/-- A `Trace::DeferredAction` with its subclasses `DeferredSetRegister`,
`DeferredIncrementRegister`, `DeferredCapture` and `DeferredClearCaptures`. -/
inductive Trace.DeferredAction where
  | DeferredSetRegister (reg : Int) (value : Int)
  | DeferredIncrementRegister (reg : Int)
  | DeferredCapture (reg : Int) (is_capture : Bool) (cp_offset : Int)
  | DeferredClearCaptures (range : Interval)
  deriving DecidableEq, Repr

/-- The accessor `DeferredAction::action_type`. -/
def Trace.DeferredAction.action_type : Trace.DeferredAction → ActionNode.ActionType
  | .DeferredSetRegister _ _ => .SET_REGISTER
  | .DeferredIncrementRegister _ => .INCREMENT_REGISTER
  | .DeferredCapture _ _ _ => .STORE_POSITION
  | .DeferredClearCaptures _ => .CLEAR_CAPTURES

/-- The accessor `DeferredAction::reg` (`-1` for `DeferredClearCaptures`). -/
def Trace.DeferredAction.reg : Trace.DeferredAction → Int
  | .DeferredSetRegister reg _ => reg
  | .DeferredIncrementRegister reg => reg
  | .DeferredCapture reg _ _ => reg
  | .DeferredClearCaptures _ => -1

/-- The test `Trace::DeferredAction::Mentions`. -/
def Trace.DeferredAction.Mentions (action : Trace.DeferredAction) (that : Int) : Bool :=
  match action with
  | .DeferredClearCaptures range => range.Contains that
  | _ => decide (action.reg = that)

/-- The constant `OutSet::kFirstLimit`. -/
def OutSet.kFirstLimit : Nat := 32

/-- An `OutSet`: a set of unsigned values, the ones below `kFirstLimit` as bits
of `first_`, the others in the list `remaining_`. -/
structure OutSet where
  first_ : Nat
  remaining_ : List Nat
  deriving DecidableEq, Repr

/-- The empty `OutSet`. -/
def OutSet.empty : OutSet := { first_ := 0, remaining_ := [] }

/-- The method `OutSet::Set`. -/
def OutSet.Set (s : OutSet) (value : Nat) : OutSet :=
  if value < OutSet.kFirstLimit then
    { s with first_ := s.first_ ||| u32 (1 <<< value) }
  else if s.remaining_.isEmpty || !s.remaining_.contains value then
    { s with remaining_ := s.remaining_ ++ [value] }
  else s

/-- The method `OutSet::Get`. -/
def OutSet.Get (s : OutSet) (value : Nat) : Bool :=
  if value < OutSet.kFirstLimit then
    s.first_ &&& u32 (1 <<< value) != 0
  else s.remaining_.contains value

/-- The flag `RegExpMacroAssembler::StackCheckFlag`. -/
inductive RegExpMacroAssembler.StackCheckFlag where
  | kNoStackLimitCheck
  | kCheckStackLimit
  deriving DecidableEq, Repr

/-- The register operations of `RegExpMacroAssembler` that the trace emits,
recorded as data. -/
inductive MacroOp where
  | PushRegister (reg : Int) (check_stack_limit : RegExpMacroAssembler.StackCheckFlag)
  | PopRegister (reg : Int)
  | WriteCurrentPositionToRegister (reg : Int) (cp_offset : Int)
  | ClearRegisters (reg_from : Int) (reg_to : Int)
  | SetRegister (reg : Int) (to_ : Int)
  | AdvanceRegister (reg : Int) (by_ : Int)
  deriving DecidableEq, Repr

/-- The enumeration `DeferredActionUndoType` local to `PerformDeferredActions`. -/
inductive Trace.DeferredActionUndoType where
  | IGNORE
  | RESTORE
  | CLEAR
  deriving DecidableEq, Repr

/-- The local constant `kNoStore` of `PerformDeferredActions`. -/
def Trace.kNoStore : Int := kMinInt

/-- The locals of `PerformDeferredActions` that the scan of the action list
updates for one register. -/
structure Trace.RegisterScan where
  undo_action : Trace.DeferredActionUndoType
  value : Int
  absolute : Bool
  clear : Bool
  store_position : Int
  deriving DecidableEq, Repr

/-- The initial values of the locals, set before the scan of each register. -/
def Trace.RegisterScan.init : Trace.RegisterScan :=
  { undo_action := .IGNORE, value := 0, absolute := false, clear := false,
    store_position := Trace.kNoStore }

/-- The body of the scan `for (DeferredAction* action = actions_; ...)` for
one action: the `switch` on the action type, run when the action mentions
`reg`. -/
def Trace.scanAction (reg : Int) (st : Trace.RegisterScan) (action : Trace.DeferredAction) :
    Trace.RegisterScan :=
  if action.Mentions reg then
    match action with
    | .DeferredSetRegister _ value =>
      { st with
        value := if !st.absolute then st.value + value else st.value
        absolute := true
        undo_action := .RESTORE }
    | .DeferredIncrementRegister _ =>
      { st with
        value := if !st.absolute then st.value + 1 else st.value
        undo_action := .RESTORE }
    | .DeferredCapture _ is_capture cp_offset =>
      { st with
        store_position :=
          if !st.clear && st.store_position == Trace.kNoStore then cp_offset
          else st.store_position
        undo_action :=
          if reg ≤ 1 then .IGNORE else if is_capture then .CLEAR else .RESTORE }
    | .DeferredClearCaptures _ =>
      { st with
        clear := if st.store_position == Trace.kNoStore then true else st.clear
        undo_action := .RESTORE }
  else st

/-- The scan of the whole action list for one register; `actions` is the
linked list `actions_`, newest action first. -/
def Trace.scanRegister (actions : List Trace.DeferredAction) (reg : Int) : Trace.RegisterScan :=
  actions.foldl (Trace.scanAction reg) Trace.RegisterScan.init

/-- The state that `PerformDeferredActions` carries from register to register:
the push counter, the operations emitted so far, and the two output sets. -/
structure Trace.PerformState where
  pushes : Int
  ops : List MacroOp
  registers_to_pop : OutSet
  registers_to_clear : OutSet
  deriving DecidableEq, Repr

/-- The operation for the chronologically last action (or the accumulated
increment) of a register: the `if` chain at the end of the loop body. -/
def Trace.lastActionOps (reg : Int) (scan : Trace.RegisterScan) : List MacroOp :=
  if scan.store_position ≠ Trace.kNoStore then
    [MacroOp.WriteCurrentPositionToRegister reg scan.store_position]
  else if scan.clear then [MacroOp.ClearRegisters reg reg]
  else if scan.absolute then [MacroOp.SetRegister reg scan.value]
  else if scan.value ≠ 0 then [MacroOp.AdvanceRegister reg scan.value]
  else []

/-- The body of the loop `for (int reg = 0; reg <= max_register; reg++)` of
`PerformDeferredActions`. -/
def Trace.performRegister (actions : List Trace.DeferredAction) (push_limit : Int)
    (affected_registers : OutSet) (st : Trace.PerformState) (reg : Nat) : Trace.PerformState :=
  if !affected_registers.Get reg then st
  else
    let scan := Trace.scanRegister actions reg
    let st :=
      match scan.undo_action with
      | .RESTORE =>
        let pushes := st.pushes + 1
        if pushes = push_limit then
          { st with
            pushes := 0
            ops := st.ops ++ [MacroOp.PushRegister reg .kCheckStackLimit]
            registers_to_pop := st.registers_to_pop.Set reg }
        else
          { st with
            pushes := pushes
            ops := st.ops ++ [MacroOp.PushRegister reg .kNoStackLimitCheck]
            registers_to_pop := st.registers_to_pop.Set reg }
      | .CLEAR => { st with registers_to_clear := st.registers_to_clear.Set reg }
      | .IGNORE => st
    { st with ops := st.ops ++ Trace.lastActionOps reg scan }

/-- The function `Trace::PerformDeferredActions`: `actions` is `actions_`
(newest first), `stack_limit_slack` the value of
`assembler->stack_limit_slack()`.  The result holds the emitted operations
in order and the final `registers_to_pop` and `registers_to_clear`. -/
def Trace.PerformDeferredActions (actions : List Trace.DeferredAction)
    (stack_limit_slack : Int) (max_register : Int) (affected_registers : OutSet)
    (registers_to_pop registers_to_clear : OutSet) : Trace.PerformState :=
  let push_limit := (stack_limit_slack + 1).tdiv 2
  (List.range (max_register + 1).toNat).foldl
    (Trace.performRegister actions push_limit affected_registers)
    { pushes := 0, ops := [], registers_to_pop := registers_to_pop,
      registers_to_clear := registers_to_clear }

/-- The state of the matching machine that the register operations act on:
the register file, the current position and the backtrack stack. -/
structure RegExpMachine where
  registers : Int → Int
  current_position : Int
  stack : List Int

/-- Modelled from the spec: the effect of the register operations of the
macro-assembler interface (its implementations are not part of the listed
sources).  `set_register` stores the value, `advance_register` adds the
delta, `write_current_position_to_register` stores the current position plus
the offset, `clear_registers` stores `-1` (the value of a non-participating
capture) in every register of the range, `push_register` pushes the
register's value on the backtrack stack and `pop_register` pops the top of
the stack into the register. -/
def MacroOp.exec (m : RegExpMachine) : MacroOp → RegExpMachine
  | .PushRegister reg _ => { m with stack := m.registers reg :: m.stack }
  | .PopRegister reg =>
    { m with
      registers := fun r => if r = reg then m.stack.headD 0 else m.registers r
      stack := m.stack.tail }
  | .WriteCurrentPositionToRegister reg cp_offset =>
    { m with registers := fun r => if r = reg then m.current_position + cp_offset
                                   else m.registers r }
  | .ClearRegisters reg_from reg_to =>
    { m with registers := fun r => if reg_from ≤ r ∧ r ≤ reg_to then -1 else m.registers r }
  | .SetRegister reg to_ =>
    { m with registers := fun r => if r = reg then to_ else m.registers r }
  | .AdvanceRegister reg by_ =>
    { m with registers := fun r => if r = reg then m.registers r + by_ else m.registers r }

/-- Execution of a sequence of emitted operations, first to last. -/
def MacroOp.run (ops : List MacroOp) (m : RegExpMachine) : RegExpMachine :=
  ops.foldl MacroOp.exec m

/-- The operation that performs one deferred action when it is not deferred:
`SET_REGISTER` sets, `INCREMENT_REGISTER` advances by one, `STORE_POSITION`
writes the position at the recorded offset and `CLEAR_CAPTURES` clears the
range. -/
def Trace.DeferredAction.toOp : Trace.DeferredAction → MacroOp
  | .DeferredSetRegister reg value => .SetRegister reg value
  | .DeferredIncrementRegister reg => .AdvanceRegister reg 1
  | .DeferredCapture reg _ cp_offset => .WriteCurrentPositionToRegister reg cp_offset
  | .DeferredClearCaptures range => .ClearRegisters range.from_ range.to_

/-- Execution of all deferred actions one by one in chronological order: the
list is newest first, so the head is executed last. -/
def Trace.runDeferred : List Trace.DeferredAction → RegExpMachine → RegExpMachine
  | [], m => m
  | action :: older, m => action.toOp.exec (Trace.runDeferred older m)

/-- The deferred actions that mention a register are all `SET_REGISTER` or
`INCREMENT_REGISTER`. -/
def Trace.onlyCounterActions (actions : List Trace.DeferredAction) (reg : Int) : Prop :=
  ∀ a ∈ actions, a.Mentions reg = true →
    a.action_type = .SET_REGISTER ∨ a.action_type = .INCREMENT_REGISTER

/-- The deferred actions that mention a register are all `STORE_POSITION` or
`CLEAR_CAPTURES`, and no stored offset is the sentinel `kNoStore`. -/
def Trace.onlyPositionActions (actions : List Trace.DeferredAction) (reg : Int) : Prop :=
  ∀ a ∈ actions, a.Mentions reg = true →
    (a.action_type = .STORE_POSITION ∨ a.action_type = .CLEAR_CAPTURES) ∧
    ∀ r c o, a = .DeferredCapture r c o → o ≠ Trace.kNoStore

/-- The value the operation for the last action of a register leaves in the
register, as a function of the scan result, the current position and the
value `x` before. -/
def Trace.RegisterScan.effect (scan : Trace.RegisterScan) (cp x : Int) : Int :=
  if scan.store_position ≠ Trace.kNoStore then cp + scan.store_position
  else if scan.clear then -1
  else if scan.absolute then scan.value
  else x + scan.value

/-! ## Results cache (`RegExpResultsCache`) -/

/-- A heap string, as far as the results cache looks at it: its identity,
whether it is internalized, and its hash (a `uint32_t`). -/
structure HeapString where
  id : Nat
  internalized : Bool
  hash : Nat
  deriving DecidableEq, Repr

/-- A tagged value `Object`: a small integer, a string, a `FixedArray`
(by identity) or any other heap object (by identity).  Equality is the
source's pointer comparison. -/
inductive Object where
  | smi (value : Int)
  | string (s : HeapString)
  | fixedArray (id : Nat)
  | other (id : Nat)
  deriving DecidableEq, Repr

/-- The constant `Smi::kZero`. -/
def Smi.kZero : Object := Object.smi 0

/-- The test `Object::IsString`. -/
def Object.IsString : Object → Bool
  | .string _ => true
  | _ => false

/-- The test `Object::IsInternalizedString`. -/
def Object.IsInternalizedString : Object → Bool
  | .string s => s.internalized
  | _ => false

/-- The test `Object::IsFixedArray`. -/
def Object.IsFixedArray : Object → Bool
  | .fixedArray _ => true
  | _ => false

/-- The enumeration `RegExpResultsCache::ResultsCacheType`. -/
inductive RegExpResultsCache.ResultsCacheType where
  | REGEXP_MULTIPLE_INDICES
  | STRING_SPLIT_SUBSTRINGS
  deriving DecidableEq, Repr

/-- Modelled from the spec: the layout constants of `RegExpResultsCache` are
declared in `jsregexp.h`, which is not part of the listed sources.  The cache
is a fixed-size table of two-slot buckets (primary and displacement); a slot
has four fields, in this order: the key string, the key pattern, the match
array and the last-match array.  This is the number of fields of the table. -/
def RegExpResultsCache.kRegExpResultsCacheSize : Nat := 0x100

/-- Modelled from the spec: the number of fields of one slot (see
`kRegExpResultsCacheSize`). -/
def RegExpResultsCache.kArrayEntriesPerCacheEntry : Nat := 4

/-- Modelled from the spec: the field of the key string in a slot (see
`kRegExpResultsCacheSize`). -/
def RegExpResultsCache.kStringOffset : Nat := 0

/-- Modelled from the spec: the field of the key pattern in a slot (see
`kRegExpResultsCacheSize`). -/
def RegExpResultsCache.kPatternOffset : Nat := 1

/-- Modelled from the spec: the field of the match array in a slot (see
`kRegExpResultsCacheSize`). -/
def RegExpResultsCache.kArrayOffset : Nat := 2

/-- Modelled from the spec: the field of the last-match array in a slot (see
`kRegExpResultsCacheSize`). -/
def RegExpResultsCache.kLastMatchOffset : Nat := 3

/-- The two result caches of the heap, each a `FixedArray` of
`kRegExpResultsCacheSize` fields. -/
structure Heap where
  string_split_cache : List Object
  regexp_multiple_cache : List Object
  deriving DecidableEq, Repr

/-- The accessor `FixedArray::get`. -/
def FixedArray.get (a : List Object) (index : Nat) : Object := a.getD index Smi.kZero

/-- The primary index of a key:
`(hash & (kRegExpResultsCacheSize - 1)) & ~(kArrayEntriesPerCacheEntry - 1)`
on `uint32_t`. -/
def RegExpResultsCache.primaryIndex (hash : Nat) : Nat :=
  (u32 hash &&& (RegExpResultsCache.kRegExpResultsCacheSize - 1)) &&&
    not32 (RegExpResultsCache.kArrayEntriesPerCacheEntry - 1)

/-- The displacement index of a key:
`(index + kArrayEntriesPerCacheEntry) & (kRegExpResultsCacheSize - 1)`. -/
def RegExpResultsCache.secondaryIndex (index : Nat) : Nat :=
  u32 (index + RegExpResultsCache.kArrayEntriesPerCacheEntry) &&&
    (RegExpResultsCache.kRegExpResultsCacheSize - 1)

/-- The cache that `type` selects, or `none` on the early return for a
pattern that is not an internalized string (`STRING_SPLIT_SUBSTRINGS`). -/
def RegExpResultsCache.selectCache (heap : Heap) (key_pattern : Object)
    (type : RegExpResultsCache.ResultsCacheType) : Option (List Object) :=
  match type with
  | .STRING_SPLIT_SUBSTRINGS =>
    if !key_pattern.IsInternalizedString then none else some heap.string_split_cache
  | .REGEXP_MULTIPLE_INDICES => some heap.regexp_multiple_cache

/-- The probe of `RegExpResultsCache::Lookup` in the selected cache: the
primary slot, then the displacement slot. -/
def RegExpResultsCache.lookupCache (cache : List Object) (key_string : HeapString)
    (key_pattern : Object) : Object × Option Object :=
  let index := RegExpResultsCache.primaryIndex key_string.hash
  if FixedArray.get cache (index + RegExpResultsCache.kStringOffset) ≠ Object.string key_string ∨
      FixedArray.get cache (index + RegExpResultsCache.kPatternOffset) ≠ key_pattern then
    let index := RegExpResultsCache.secondaryIndex index
    if FixedArray.get cache (index + RegExpResultsCache.kStringOffset) ≠ Object.string key_string ∨
        FixedArray.get cache (index + RegExpResultsCache.kPatternOffset) ≠ key_pattern then
      (Smi.kZero, none)
    else
      (FixedArray.get cache (index + RegExpResultsCache.kArrayOffset),
        some (FixedArray.get cache (index + RegExpResultsCache.kLastMatchOffset)))
  else
    (FixedArray.get cache (index + RegExpResultsCache.kArrayOffset),
      some (FixedArray.get cache (index + RegExpResultsCache.kLastMatchOffset)))

/-- The function `RegExpResultsCache::Lookup`.  The result is the returned
object and the value stored into `*last_match_cache` (`none` when the
function returns without storing). -/
def RegExpResultsCache.Lookup (heap : Heap) (key_string : HeapString) (key_pattern : Object)
    (type : RegExpResultsCache.ResultsCacheType) : Object × Option Object :=
  if !key_string.internalized then (Smi.kZero, none)
  else
    match RegExpResultsCache.selectCache heap key_pattern type with
    | none => (Smi.kZero, none)
    | some cache => RegExpResultsCache.lookupCache cache key_string key_pattern

/-- Four consecutive `cache->set` calls that fill the slot at `index`. -/
def RegExpResultsCache.setEntry (cache : List Object) (index : Nat)
    (string pattern array last_match : Object) : List Object :=
  (((cache.set (index + RegExpResultsCache.kStringOffset) string).set
    (index + RegExpResultsCache.kPatternOffset) pattern).set
    (index + RegExpResultsCache.kArrayOffset) array).set
    (index + RegExpResultsCache.kLastMatchOffset) last_match

/-- The stores of `RegExpResultsCache::Enter` on the selected cache. -/
def RegExpResultsCache.enterCache (cache : List Object) (key_string : HeapString)
    (key_pattern value_array last_match_cache : Object) : List Object :=
  let index := RegExpResultsCache.primaryIndex key_string.hash
  if FixedArray.get cache (index + RegExpResultsCache.kStringOffset) = Smi.kZero then
    RegExpResultsCache.setEntry cache index (Object.string key_string) key_pattern
      value_array last_match_cache
  else
    let index2 := RegExpResultsCache.secondaryIndex index
    if FixedArray.get cache (index2 + RegExpResultsCache.kStringOffset) = Smi.kZero then
      RegExpResultsCache.setEntry cache index2 (Object.string key_string) key_pattern
        value_array last_match_cache
    else
      RegExpResultsCache.setEntry
        (RegExpResultsCache.setEntry cache index2 Smi.kZero Smi.kZero Smi.kZero Smi.kZero)
        index (Object.string key_string) key_pattern value_array last_match_cache

/-- The function `RegExpResultsCache::Enter`, as far as it changes the
caches.  (Its last part internalizes the elements of `value_array` and makes
its backing store copy-on-write; that changes the contents of the array
object, not its identity, and no cache field.) -/
def RegExpResultsCache.Enter (heap : Heap) (key_string : HeapString)
    (key_pattern value_array last_match_cache : Object)
    (type : RegExpResultsCache.ResultsCacheType) : Heap :=
  if !key_string.internalized then heap
  else
    match type with
    | .STRING_SPLIT_SUBSTRINGS =>
      if !key_pattern.IsInternalizedString then heap
      else
        { heap with
          string_split_cache := RegExpResultsCache.enterCache heap.string_split_cache
            key_string key_pattern value_array last_match_cache }
    | .REGEXP_MULTIPLE_INDICES =>
      { heap with
        regexp_multiple_cache := RegExpResultsCache.enterCache heap.regexp_multiple_cache
          key_string key_pattern value_array last_match_cache }

/-- The cache of a heap that a result type refers to. -/
def Heap.cacheOf (heap : Heap) : RegExpResultsCache.ResultsCacheType → List Object
  | .STRING_SPLIT_SUBSTRINGS => heap.string_split_cache
  | .REGEXP_MULTIPLE_INDICES => heap.regexp_multiple_cache

/-- Admissible pattern key for a result type, as the `DCHECK`s and the early
return of `Lookup` and `Enter` require: an internalized string for
`STRING_SPLIT_SUBSTRINGS`, a `FixedArray` for `REGEXP_MULTIPLE_INDICES`. -/
def RegExpResultsCache.admissiblePattern (key_pattern : Object) :
    RegExpResultsCache.ResultsCacheType → Bool
  | .STRING_SPLIT_SUBSTRINGS => key_pattern.IsInternalizedString
  | .REGEXP_MULTIPLE_INDICES => key_pattern.IsFixedArray

/-- The cache state in which the primary slot of the key's bucket already
holds the same key string and key pattern with another match array or
last-match array, while the displacement slot is empty. -/
def RegExpResultsCache.shadowed (cache : List Object) (key_string : HeapString)
    (key_pattern value_array last_match_cache : Object) : Prop :=
  let index := RegExpResultsCache.primaryIndex key_string.hash
  FixedArray.get cache (index + RegExpResultsCache.kStringOffset) = Object.string key_string ∧
  FixedArray.get cache (index + RegExpResultsCache.kPatternOffset) = key_pattern ∧
  FixedArray.get cache (RegExpResultsCache.secondaryIndex index +
    RegExpResultsCache.kStringOffset) = Smi.kZero ∧
  (FixedArray.get cache (index + RegExpResultsCache.kArrayOffset) ≠ value_array ∨
    FixedArray.get cache (index + RegExpResultsCache.kLastMatchOffset) ≠ last_match_cache)

/-- A cleared cache, as left by `RegExpResultsCache::Clear`. -/
def RegExpResultsCache.clearedCache : List Object :=
  List.replicate RegExpResultsCache.kRegExpResultsCacheSize Smi.kZero

/-- A reachable cache state: both caches cleared, then one
`Enter` of the key `(string #1 with hash 0, array #7)` with the match array
`#10` and the last-match array `#11` in the multiple-indices cache. -/
def RegExpResultsCache.heapAfterOneEnter : Heap :=
  RegExpResultsCache.Enter
    { string_split_cache := RegExpResultsCache.clearedCache,
      regexp_multiple_cache := RegExpResultsCache.clearedCache }
    { id := 1, internalized := true, hash := 0 } (Object.fixedArray 7)
    (Object.fixedArray 10) (Object.fixedArray 11) .REGEXP_MULTIPLE_INDICES

/-! ## Atom execution (`RegExpImpl::AtomExecRaw`)

Strings are lists of code units; the four one-byte/two-byte combinations of
subject and needle run the same search on the code units. -/

/-- Modelled from the spec: the enumeration `RegExpImpl::IrregexpResult` is
declared in `jsregexp.h`, which is not part of the listed sources.  `FAILURE`
is the normal no-match result; `AtomExecRaw` returns the number of matches
`i / 2`, and `AtomExec` compares that number with `RE_FAILURE` and
`RE_SUCCESS`, so `RE_FAILURE` is `0` and `RE_SUCCESS` is `1`. -/
def RegExpImpl.RE_FAILURE : Int := 0

/-- Modelled from the spec: the result `RE_SUCCESS` (see `RE_FAILURE`). -/
def RegExpImpl.RE_SUCCESS : Int := 1

/-- Modelled from the spec: the result `RE_EXCEPTION`, the distinct result
code of a match-time exception (see `RE_FAILURE`); `IrregexpPrepare` and
`GlobalCache` signal an exception with the same value `-1`. -/
def RegExpImpl.RE_EXCEPTION : Int := -1

/-- The pattern occurs in the subject at position `i`. -/
def occursAt (subject pattern : List Nat) (i : Nat) : Bool :=
  decide (i + pattern.length ≤ subject.length) &&
    ((subject.drop i).take pattern.length == pattern)

/-- Scan of the positions `i, i + 1, ...` for the first occurrence; `fuel` is
the number of positions still to try. -/
def SearchString.scan (subject pattern : List Nat) : Nat → Nat → Int
  | 0, _ => -1
  | fuel + 1, i =>
    if occursAt subject pattern i then (i : Int)
    else SearchString.scan subject pattern fuel (i + 1)

/-- Modelled from the spec: the substring-search primitive `SearchString`
(`src/strings/string-search.h`, not part of the listed sources),
`search(subject, needle, from) → int`: the first position at or after
`start_index` at which the pattern occurs in the subject, `-1` on failure. -/
def SearchString (subject pattern : List Nat) (start_index : Int) : Int :=
  SearchString.scan subject pattern (subject.length + 1 - start_index.toNat) start_index.toNat

/-- The loop `for (int i = 0; i < output_size; i += 2)` of `AtomExecRaw`, from
the state `(i, index, output)`.  `fuel` bounds the number of iterations; the
result is `none` only when the fuel runs out before the loop ends. -/
def RegExpImpl.AtomExecRaw.loop (subject needle : List Nat) (output_size : Int) :
    Nat → Int → Int → List Int → Option (Int × List Int)
  | 0, _, _, _ => none
  | fuel + 1, i, index, output =>
    if i < output_size then
      let index := SearchString subject needle index
      if index = -1 then some (i.tdiv 2, output)
      else
        let output := output.set i.toNat index
        let output := output.set (i + 1).toNat (index + (needle.length : Int))
        let index := index + (needle.length : Int)
        RegExpImpl.AtomExecRaw.loop subject needle output_size fuel (i + 2) index output
    else some (output_size.tdiv 2, output)

/-- The function `RegExpImpl::AtomExecRaw`: `needle` is the atom pattern stored
in the regexp data, `output` the array behind the `output` pointer.  The
result is the returned number and the array after the call. -/
def RegExpImpl.AtomExecRaw (needle subject : List Nat) (index : Int) (output : List Int)
    (output_size : Int) : Option (Int × List Int) :=
  let needle_len : Int := needle.length
  if index + needle_len > (subject.length : Int) then some (RegExpImpl.RE_FAILURE, output)
  else RegExpImpl.AtomExecRaw.loop subject needle output_size (output_size.toNat + 1) 0 index output

/-- Position `p` is the first occurrence of the needle at or after `start`. -/
def IsFirstOccurrence (subject needle : List Nat) (start p : Nat) : Prop :=
  start ≤ p ∧ occursAt subject needle p = true ∧
    ∀ q, start ≤ q → q < p → occursAt subject needle q = false

/-- The needle has no occurrence at or after `start`. -/
def NoOccurrenceFrom (subject needle : List Nat) (start : Nat) : Prop :=
  ∀ q, start ≤ q → occursAt subject needle q = false

/-- The positions `ms` are successive non-overlapping occurrences from
`start`: the first is the first occurrence at or after `start`, and each
next one is the first occurrence at or after the end of the one before. -/
def SuccessiveOccurrences (subject needle : List Nat) : Nat → List Nat → Prop
  | _, [] => True
  | start, m :: ms =>
    IsFirstOccurrence subject needle start m ∧
      SuccessiveOccurrences subject needle (m + needle.length) ms

/-- The position after the last of the occurrences `ms` that begin at
`start`: where the next search starts. -/
def nextSearchStart (needle : List Nat) : Nat → List Nat → Nat
  | start, [] => start
  | _, m :: ms => nextSearchStart needle (m + needle.length) ms

/-! ## Strategy selection (`RegExpImpl::Compile`) -/

/-- The constant `kMaxLookaheadForBoyerMoore`. -/
def kMaxLookaheadForBoyerMoore : Nat := 8

/-- The constant `kPatternTooShortForBoyerMoore`. -/
def kPatternTooShortForBoyerMoore : Nat := 2

/-- The loop of `HasFewDifferentCharacters` over the code units still to
visit, with the array `character_found` and the counter `different`. -/
def HasFewDifferentCharacters.loop (length : Nat) : List Nat → List Bool → Nat → Bool
  | [], _, _ => true
  | c :: rest, character_found, different =>
    let ch := c &&& (128 - 1)
    if !character_found.getD ch false then
      let character_found := character_found.set ch true
      let different := different + 1
      if different * 3 > length then false
      else HasFewDifferentCharacters.loop length rest character_found different
    else HasFewDifferentCharacters.loop length rest character_found different

/-- The function `HasFewDifferentCharacters`. -/
def HasFewDifferentCharacters (pattern : List Nat) : Bool :=
  let length := min kMaxLookaheadForBoyerMoore pattern.length
  if length ≤ kPatternTooShortForBoyerMoore then false
  else
    HasFewDifferentCharacters.loop length (pattern.take length) (List.replicate 128 false) 0

/-- The flags `JSRegExp::Flags`, one field per flag bit. -/
structure JSRegExp.Flags where
  global : Bool
  ignore_case : Bool
  multiline : Bool
  sticky : Bool
  unicode : Bool
  dot_all : Bool
  deriving DecidableEq, Repr

/-- The test `IgnoreCase(flags)`. -/
def IgnoreCase (flags : JSRegExp.Flags) : Bool := flags.ignore_case

/-- The test `IsSticky(flags)`. -/
def IsSticky (flags : JSRegExp.Flags) : Bool := flags.sticky

/-- The test `IsUnicode(flags)`. -/
def IsUnicode (flags : JSRegExp.Flags) : Bool := flags.unicode

/-- The parse tree, as far as `Compile` looks at it: a `RegExpAtom` with its
text and flags, or any other tree. -/
inductive RegExpTree where
  | Atom (data : List Nat) (flags : JSRegExp.Flags)
  | Other
  deriving DecidableEq, Repr

/-- The test `RegExpTree::IsAtom`. -/
def RegExpTree.IsAtom : RegExpTree → Bool
  | .Atom _ _ => true
  | .Other => false

/-- The fields of `RegExpCompileData` that `Compile` reads after a successful
parse. -/
structure RegExpCompileData where
  tree : RegExpTree
  simple : Bool
  capture_count : Int
  deriving DecidableEq, Repr

/-- The data of a regexp object: what `SetRegExpAtomData` (type tag `ATOM`)
and `SetRegExpIrregexpData` (type tag `IRREGEXP`) store. -/
inductive JSRegExp.Data where
  | ATOM (pattern : List Nat) (flags : JSRegExp.Flags) (match_pattern : List Nat)
  | IRREGEXP (pattern : List Nat) (flags : JSRegExp.Flags) (capture_count : Int)
  deriving DecidableEq, Repr

/-- What one call of `RegExpImpl::Compile` does: the data it sets on the
regexp object (`none` when it sets none), the data it stores in the
compilation cache (`none` when it stores none), and whether it returns with
a pending exception. -/
structure RegExpImpl.CompileEffect where
  re_data : Option JSRegExp.Data
  cache_put : Option JSRegExp.Data
  exception : Bool
  deriving DecidableEq, Repr

/-- The function `RegExpImpl::Compile`.  `maybe_cached` is the result of
`LookupRegExp`, `parse` the result of `ParseRegExp` (`none` when parsing
fails) and `NewStringFromTwoByte` the string allocation of the factory
(`none` when it throws). -/
def RegExpImpl.Compile (maybe_cached : Option JSRegExp.Data)
    (parse : Option RegExpCompileData) (NewStringFromTwoByte : List Nat → Option (List Nat))
    (pattern : List Nat) (flags : JSRegExp.Flags) : RegExpImpl.CompileEffect :=
  match maybe_cached with
  | some cached => { re_data := some cached, cache_put := none, exception := false }
  | none =>
    match parse with
    | none => { re_data := none, cache_put := none, exception := true }
    | some parse_result =>
      let finish (data : JSRegExp.Data) : RegExpImpl.CompileEffect :=
        { re_data := some data, cache_put := some data, exception := false }
      if parse_result.simple && !IgnoreCase flags && !IsSticky flags &&
          !HasFewDifferentCharacters pattern then
        finish (.ATOM pattern flags pattern)
      else
        match parse_result.tree with
        | .Atom atom_pattern atom_flags =>
          if !IsSticky flags && parse_result.capture_count == 0 then
            match NewStringFromTwoByte atom_pattern with
            | none => { re_data := none, cache_put := none, exception := true }
            | some atom_string =>
              if !IgnoreCase atom_flags && !HasFewDifferentCharacters atom_string then
                finish (.ATOM pattern flags atom_string)
              else finish (.IRREGEXP pattern flags parse_result.capture_count)
          else finish (.IRREGEXP pattern flags parse_result.capture_count)
        | .Other => finish (.IRREGEXP pattern flags parse_result.capture_count)

/-- The data has the type tag `ATOM`. -/
def JSRegExp.Data.isAtom : JSRegExp.Data → Bool
  | .ATOM _ _ _ => true
  | .IRREGEXP _ _ _ => false

/-- The flags with every flag off. -/
def JSRegExp.Flags.none : JSRegExp.Flags :=
  { global := false, ignore_case := false, multiline := false, sticky := false,
    unicode := false, dot_all := false }

/-- The condition under which `Compile` takes the atom strategy after a
successful parse: sticky is off and either the parse is simple, ignore-case
is off and the pattern does not have few different characters, or the tree
is an atom, the capture count is zero, the atom's ignore-case flag is off and
the atom's text does not have few different characters. -/
def RegExpImpl.takesAtomStrategy (parse_result : RegExpCompileData) (pattern : List Nat)
    (flags : JSRegExp.Flags) : Bool :=
  !IsSticky flags &&
    ((parse_result.simple && !IgnoreCase flags && !HasFewDifferentCharacters pattern) ||
      match parse_result.tree with
      | .Atom atom_pattern atom_flags =>
        parse_result.capture_count == 0 && !IgnoreCase atom_flags &&
          !HasFewDifferentCharacters atom_pattern
      | .Other => false)

/-! ## Global iteration (`RegExpImpl::GlobalCache::AdvanceZeroLength`) -/

/-- Modelled from the spec: the test `unibrow::Utf16::IsLeadSurrogate`
(`src/strings/unicode.h`, not part of the listed sources); a lead surrogate
is a code unit in `[0xD800, 0xDBFF]`. -/
def unibrow.Utf16.IsLeadSurrogate (code : Nat) : Bool :=
  decide (0xD800 ≤ code) && decide (code ≤ 0xDBFF)

/-- Modelled from the spec: the test `unibrow::Utf16::IsTrailSurrogate`
(`src/strings/unicode.h`, not part of the listed sources); a trail surrogate
is a code unit in `[0xDC00, 0xDFFF]`. -/
def unibrow.Utf16.IsTrailSurrogate (code : Nat) : Bool :=
  decide (0xDC00 ≤ code) && decide (code ≤ 0xDFFF)

/-- The accessor `String::Get` on the code units of a flat string. -/
def String.Get (s : List Nat) (index : Int) : Nat := s.getD index.toNat 0

/-- The function `RegExpImpl::GlobalCache::AdvanceZeroLength`; `flags` are the
flags of `regexp_` and `subject` the code units of `subject_`. -/
def RegExpImpl.GlobalCache.AdvanceZeroLength (flags : JSRegExp.Flags) (subject : List Nat)
    (last_index : Int) : Int :=
  if IsUnicode flags && decide (last_index + 1 < (subject.length : Int)) &&
      unibrow.Utf16.IsLeadSurrogate (String.Get subject last_index) &&
      unibrow.Utf16.IsTrailSurrogate (String.Get subject (last_index + 1)) then
    last_index + 2
  else last_index + 1

/-! ## Raw execution (`RegExpImpl::IrregexpExecRaw`)

The matchers, the representation of the subject and the compilation are
outside `jsregexp.cc`; they are parameters of the embedding (`MatcherEnv`),
so that a statement for every environment is a statement for every
behaviour of the matchers. -/

/-- Modelled from the spec: the result codes of
`NativeRegExpMacroAssembler::Match` (`regexp-macro-assembler.h`, not part of
the listed sources).  `Match` returns an `int`; the `STATIC_ASSERT`s of
`IrregexpExecRaw` identify `SUCCESS`, `FAILURE` and `EXCEPTION` with
`RE_SUCCESS`, `RE_FAILURE` and `RE_EXCEPTION`, and `RETRY` is the fourth,
internal code for a subject that changed representation. -/
def NativeRegExpMacroAssembler.RETRY : Int := -2

/-- The code `NativeRegExpMacroAssembler::SUCCESS` (equal to `RE_SUCCESS` by
the `STATIC_ASSERT`). -/
def NativeRegExpMacroAssembler.SUCCESS : Int := RegExpImpl.RE_SUCCESS

/-- The code `NativeRegExpMacroAssembler::FAILURE` (equal to `RE_FAILURE` by
the `STATIC_ASSERT`). -/
def NativeRegExpMacroAssembler.FAILURE : Int := RegExpImpl.RE_FAILURE

/-- The code `NativeRegExpMacroAssembler::EXCEPTION` (equal to `RE_EXCEPTION`
by the `STATIC_ASSERT`). -/
def NativeRegExpMacroAssembler.EXCEPTION : Int := RegExpImpl.RE_EXCEPTION

/-- The enumeration `IrregexpInterpreter::Result`, the four cases of the
`switch` in `IrregexpExecRaw`. -/
inductive IrregexpInterpreter.Result where
  | RETRY
  | EXCEPTION
  | FAILURE
  | SUCCESS
  deriving DecidableEq, Repr

/-- Modelled from the spec: the conversion of an `IrregexpInterpreter::Result`
to the `int` that `IrregexpExecRaw` returns (`return result;`); the
enumerators are declared in `regexp-interpreter.h`, not part of the listed
sources, with the values of the tri-state result `RE_SUCCESS`, `RE_FAILURE`,
`RE_EXCEPTION` that `IrregexpExec` compares the returned number with. -/
def IrregexpInterpreter.Result.toInt : IrregexpInterpreter.Result → Int
  | .RETRY => -2
  | .EXCEPTION => RegExpImpl.RE_EXCEPTION
  | .FAILURE => RegExpImpl.RE_FAILURE
  | .SUCCESS => RegExpImpl.RE_SUCCESS

/-- The environment of one call of `IrregexpExecRaw`.  Time is counted in
matcher calls made so far.
* `IsOneByteRepresentationUnderneath t`: the representation of the subject
  once `t` matcher calls have been made;
* `NativeMatch t is_one_byte output`: the `t`-th call of
  `NativeRegExpMacroAssembler::Match` with the code for `is_one_byte` and the
  output array; it returns its `int` result and the output array after the
  call;
* `InterpreterMatch t is_one_byte registers`: the `t`-th call of
  `IrregexpInterpreter::Match` with the byte code for `is_one_byte` on the
  register array `raw_output`; it returns its result and the registers after
  the call. -/
structure MatcherEnv where
  IsOneByteRepresentationUnderneath : Nat → Bool
  NativeMatch : Nat → Bool → List Int → Int × List Int
  InterpreterMatch : Nat → Bool → List Int → IrregexpInterpreter.Result × List Int

/-- The calls that `IrregexpExecRaw` makes, in order. -/
inductive ExecEvent where
  | EnsureCompiledIrregexp (is_one_byte : Bool)
  | NativeMatch (is_one_byte : Bool)
  | InterpreterMatch (is_one_byte : Bool)
  deriving DecidableEq, Repr

/-- The state of a call of `IrregexpExecRaw`: the array behind `output`, the
number of matcher calls made, and the calls made so far. -/
structure ExecState where
  output : List Int
  clock : Nat
  events : List ExecEvent
  deriving DecidableEq, Repr

/-- The native `do ... while (true)` loop of `IrregexpExecRaw`; `fuel` bounds
the number of iterations and the result is `none` only when it runs out. -/
def RegExpImpl.IrregexpExecRaw.nativeLoop (env : MatcherEnv) :
    Nat → Bool → ExecState → Option (Int × ExecState)
  | 0, _, _ => none
  | fuel + 1, is_one_byte, st =>
    -- EnsureCompiledIrregexp(isolate, regexp, subject, is_one_byte); its result is not used
    let events := st.events ++ [ExecEvent.EnsureCompiledIrregexp is_one_byte]
    let r := env.NativeMatch st.clock is_one_byte st.output
    let res := r.1
    let st : ExecState :=
      { output := r.2, clock := st.clock + 1,
        events := events ++ [ExecEvent.NativeMatch is_one_byte] }
    if res ≠ NativeRegExpMacroAssembler.RETRY then some (res, st)
    else
      -- IrregexpPrepare(isolate, regexp, subject): ensures the code for the
      -- representation the subject has now; its result is not used
      let st : ExecState :=
        { st with
          events := st.events ++
            [ExecEvent.EnsureCompiledIrregexp (env.IsOneByteRepresentationUnderneath st.clock)] }
      let is_one_byte := env.IsOneByteRepresentationUnderneath st.clock
      RegExpImpl.IrregexpExecRaw.nativeLoop env fuel is_one_byte st

/-- The loop `for (int i = number_of_capture_registers - 1; i >= 0; i--)
raw_output[i] = -1;`. -/
def RegExpImpl.IrregexpExecRaw.presetRegisters (number_of_capture_registers : Nat)
    (raw_output : List Int) : List Int :=
  (List.range number_of_capture_registers).reverse.foldl (fun r i => r.set i (-1)) raw_output

/-- The call `MemCopy(output, raw_output, n * sizeof(int32_t))`: the first `n`
slots of `dest` receive the first `n` slots of `src`. -/
def MemCopy (dest src : List Int) (n : Nat) : List Int :=
  (List.range n).foldl (fun d i => d.set i (src.getD i 0)) dest

/-- The interpreter `do ... while (true)` loop of `IrregexpExecRaw`.  The
output array is the `number_of_capture_registers` capture slots followed by
`raw_output`; `fuel` bounds the number of iterations and the result is
`none` only when it runs out. -/
def RegExpImpl.IrregexpExecRaw.interpreterLoop (env : MatcherEnv)
    (number_of_capture_registers : Nat) :
    Nat → Bool → ExecState → Option (Int × ExecState)
  | 0, _, _ => none
  | fuel + 1, is_one_byte, st =>
    let captures := st.output.take number_of_capture_registers
    let raw_output := st.output.drop number_of_capture_registers
    let raw_output :=
      RegExpImpl.IrregexpExecRaw.presetRegisters number_of_capture_registers raw_output
    let r := env.InterpreterMatch st.clock is_one_byte raw_output
    let result := r.1
    let raw_output := r.2
    let st : ExecState :=
      { output := captures ++ raw_output, clock := st.clock + 1,
        events := st.events ++ [ExecEvent.InterpreterMatch is_one_byte] }
    match result with
    | .SUCCESS =>
      some (result.toInt,
        { st with
          output := MemCopy captures raw_output number_of_capture_registers ++ raw_output })
    | .EXCEPTION => some (result.toInt, st)
    | .FAILURE => some (result.toInt, st)
    | .RETRY =>
      let is_one_byte := env.IsOneByteRepresentationUnderneath st.clock
      let st : ExecState :=
        { st with events := st.events ++ [ExecEvent.EnsureCompiledIrregexp is_one_byte] }
      RegExpImpl.IrregexpExecRaw.interpreterLoop env number_of_capture_registers fuel
        is_one_byte st

/-- The function `RegExpImpl::IrregexpExecRaw`.  `FLAG_regexp_interpret_all`
selects the interpreter, `capture_count` is
`IrregexpNumberOfCaptures(*irregexp)`, `output` the array behind the output
pointer.  The result is the returned number with the final state. -/
def RegExpImpl.IrregexpExecRaw (env : MatcherEnv) (FLAG_regexp_interpret_all : Bool)
    (capture_count : Nat) (fuel : Nat) (output : List Int) : Option (Int × ExecState) :=
  let is_one_byte := env.IsOneByteRepresentationUnderneath 0
  let st : ExecState := { output := output, clock := 0, events := [] }
  if !FLAG_regexp_interpret_all then
    RegExpImpl.IrregexpExecRaw.nativeLoop env fuel is_one_byte st
  else
    let number_of_capture_registers := (capture_count + 1) * 2
    RegExpImpl.IrregexpExecRaw.interpreterLoop env number_of_capture_registers fuel
      is_one_byte st

/-- The calls made by the native loop from time `t` on when the first `k`
matcher calls answer `RETRY`: each round ensures the code for the
representation in use, runs the matcher and, after the `RETRY`, ensures the
code for the representation the subject has then; a last round ensures and
runs the matcher. -/
def RegExpImpl.IrregexpExecRaw.nativeEvents (env : MatcherEnv) : Nat → Nat → List ExecEvent
  | 0, t =>
    [ExecEvent.EnsureCompiledIrregexp (env.IsOneByteRepresentationUnderneath t),
     ExecEvent.NativeMatch (env.IsOneByteRepresentationUnderneath t)]
  | k + 1, t =>
    [ExecEvent.EnsureCompiledIrregexp (env.IsOneByteRepresentationUnderneath t),
     ExecEvent.NativeMatch (env.IsOneByteRepresentationUnderneath t),
     ExecEvent.EnsureCompiledIrregexp (env.IsOneByteRepresentationUnderneath (t + 1))] ++
    RegExpImpl.IrregexpExecRaw.nativeEvents env k (t + 1)

/-- The calls made by the interpreter loop from time `t` on when the first `k`
matcher calls answer `RETRY`: each round runs the interpreter and, after the
`RETRY`, ensures the code for the representation the subject has then; a
last round runs the interpreter. -/
def RegExpImpl.IrregexpExecRaw.interpreterEvents (env : MatcherEnv) :
    Nat → Nat → List ExecEvent
  | 0, t => [ExecEvent.InterpreterMatch (env.IsOneByteRepresentationUnderneath t)]
  | k + 1, t =>
    [ExecEvent.InterpreterMatch (env.IsOneByteRepresentationUnderneath t),
     ExecEvent.EnsureCompiledIrregexp (env.IsOneByteRepresentationUnderneath (t + 1))] ++
    RegExpImpl.IrregexpExecRaw.interpreterEvents env k (t + 1)

/-- The first `k` calls of the matcher of the selected mode answer `RETRY`,
whatever they are called with, and call number `k` does not. -/
def MatcherEnv.retriesExactly (env : MatcherEnv) (FLAG_regexp_interpret_all : Bool)
    (k : Nat) : Prop :=
  if FLAG_regexp_interpret_all then
    (∀ j, j < k → ∀ b o, (env.InterpreterMatch j b o).1 = IrregexpInterpreter.Result.RETRY) ∧
    (∀ b o, (env.InterpreterMatch k b o).1 ≠ IrregexpInterpreter.Result.RETRY)
  else
    (∀ j, j < k → ∀ b o, (env.NativeMatch j b o).1 = NativeRegExpMacroAssembler.RETRY) ∧
    (∀ b o, (env.NativeMatch k b o).1 ≠ NativeRegExpMacroAssembler.RETRY)

/-- The calls `IrregexpExecRaw` makes when the matcher retries exactly `k`
times. -/
def RegExpImpl.IrregexpExecRaw.expectedEvents (env : MatcherEnv)
    (FLAG_regexp_interpret_all : Bool) (k : Nat) : List ExecEvent :=
  if FLAG_regexp_interpret_all then RegExpImpl.IrregexpExecRaw.interpreterEvents env k 0
  else RegExpImpl.IrregexpExecRaw.nativeEvents env k 0

/-- A number is one of the tri-state results `RE_SUCCESS`, `RE_FAILURE`,
`RE_EXCEPTION`. -/
def RegExpImpl.isTriState (res : Int) : Prop :=
  res = RegExpImpl.RE_SUCCESS ∨ res = RegExpImpl.RE_FAILURE ∨ res = RegExpImpl.RE_EXCEPTION

/-- An environment whose native matcher reports two matches at once (a global
regexp with room for several matches in the output array). -/
def MatcherEnv.twoMatches : MatcherEnv :=
  { IsOneByteRepresentationUnderneath := fun _ => true,
    NativeMatch := fun _ _ output => (2, ((output.set 0 0).set 1 1 |>.set 2 1).set 3 2),
    InterpreterMatch := fun _ _ registers => (IrregexpInterpreter.Result.FAILURE, registers) }

/-- An environment whose matchers answer `RETRY` once, while the subject
changes from one-byte to two-byte, and then succeed; the interpreter leaves
`3, 5` in the capture registers. -/
def MatcherEnv.retryOnce : MatcherEnv :=
  { IsOneByteRepresentationUnderneath := fun t => decide (t = 0),
    NativeMatch := fun t _ output =>
      if t = 0 then (NativeRegExpMacroAssembler.RETRY, output)
      else (NativeRegExpMacroAssembler.SUCCESS, (output.set 0 3).set 1 5),
    InterpreterMatch := fun t _ registers =>
      if t = 0 then (IrregexpInterpreter.Result.RETRY, registers.set 0 9)
      else (IrregexpInterpreter.Result.SUCCESS, (registers.set 0 3).set 1 5) }

/-! ## Last match info

`RegExpImpl::SetLastMatchInfo` (jsregexp.cc) copies the capture registers of a
successful match into the match-info record. The record class itself lives in
a header outside the sources at hand. -/

/-- Modelled from the spec: the match-info record
`[numCaptures, lastSubject, lastInput, cap0_start, cap0_end, ...]`; `captures`
holds the capture slots the record has room for. -/
structure RegExpMatchInfo where
  NumberOfCaptureRegisters : Int
  LastSubject : Option HeapString
  LastInput : Option HeapString
  captures : List Int
deriving DecidableEq, Repr

/-- Modelled from the spec: `RegExpMatchInfo::ReserveCaptures` "grows a
match-info record to fit `(captures+1)*2` slots": a record with enough room is
returned as it is, a smaller one is replaced by a copy with the missing slots
appended. -/
def RegExpMatchInfo.ReserveCaptures (match_info : RegExpMatchInfo) (capture_count : Int) :
    RegExpMatchInfo :=
  if capture_count ≤ match_info.captures.length then match_info
  else { match_info with
         captures := match_info.captures ++
           List.replicate (capture_count.toNat - match_info.captures.length) 0 }

/-- Modelled from the spec: `RegExpMatchInfo::SetNumberOfCaptureRegisters`
writes the first field of the record. -/
def RegExpMatchInfo.SetNumberOfCaptureRegisters (r : RegExpMatchInfo) (value : Int) :
    RegExpMatchInfo :=
  { r with NumberOfCaptureRegisters := value }

/-- Modelled from the spec: `RegExpMatchInfo::SetCapture(i, value)` writes
capture slot `i`. -/
def RegExpMatchInfo.SetCapture (r : RegExpMatchInfo) (i : Int) (value : Int) : RegExpMatchInfo :=
  { r with captures := r.captures.set i.toNat value }

/-- Modelled from the spec: `RegExpMatchInfo::Capture(i)` reads capture slot
`i`. -/
def RegExpMatchInfo.Capture (r : RegExpMatchInfo) (i : Int) : Option Int :=
  r.captures[i.toNat]?

/-- Modelled from the spec: `RegExpMatchInfo::SetLastSubject`. -/
def RegExpMatchInfo.SetLastSubject (r : RegExpMatchInfo) (value : HeapString) : RegExpMatchInfo :=
  { r with LastSubject := some value }

/-- Modelled from the spec: `RegExpMatchInfo::SetLastInput`. -/
def RegExpMatchInfo.SetLastInput (r : RegExpMatchInfo) (value : HeapString) : RegExpMatchInfo :=
  { r with LastInput := some value }

/-- The loop `for (int i = 0; i < capture_register_count; i += 2)` of
`RegExpImpl::SetLastMatchInfo`: each round copies `match[i]` and
`match[i + 1]`. The array `match` is a C pointer, read here as a function of
the index. `fuel` bounds the number of rounds. -/
def RegExpImpl.SetLastMatchInfo.loop (m : Nat → Int) (capture_register_count : Int) :
    Nat → Int → RegExpMatchInfo → RegExpMatchInfo
  | 0, _, result => result
  | fuel + 1, i, result =>
    if i < capture_register_count then
      RegExpImpl.SetLastMatchInfo.loop m capture_register_count fuel (i + 2)
        ((result.SetCapture i (m i.toNat)).SetCapture (i + 1) (m (i + 1).toNat))
    else result

/-- `RegExpImpl::SetLastMatchInfo(isolate, last_match_info, subject,
capture_count, match)`; `match` is `none` for a null pointer. The update of
the native context's pointer to the record, made when the record had to be
reallocated, does not touch the record and is left out. -/
def RegExpImpl.SetLastMatchInfo (last_match_info : RegExpMatchInfo) (subject : HeapString)
    (capture_count : Int) ( match_ : Option (Nat → Int)) : RegExpMatchInfo :=
  let capture_register_count := (capture_count + 1) * 2
  let result := last_match_info.ReserveCaptures capture_register_count
  let result := result.SetNumberOfCaptureRegisters capture_register_count
  let result :=
    match match_ with
    | some m =>
      RegExpImpl.SetLastMatchInfo.loop m capture_register_count capture_register_count.toNat 0
        result
    | none => result
  let result := result.SetLastSubject subject
  result.SetLastInput subject

/-! ## Compiler state, traces and the size limits

`RegExpCompiler`, `Trace` and `QuickCheckDetails` are declared in a header
outside the sources at hand; their fields are taken from the constructor
`RegExpCompiler::RegExpCompiler` and from the functions of jsregexp.cc that
use them. The limits `kMaxRegister` and `kMaxCPOffset` of
`RegExpMacroAssembler` are parameters. -/

/-- A `Label` of the macro assembler, by identity: the label of a node of the
graph, or a label local to an emitting function. -/
inductive Label where
  | node (id : Nat)
  | stack (id : Nat)
  deriving DecidableEq, Repr

/-- The fields of `RegExpCompiler` that its constructor initializes and the
emitter changes; `work_list_` holds nodes by index. -/
structure RegExpCompiler where
  next_register_ : Int
  work_list_ : List Nat
  recursion_depth_ : Int
  one_byte_ : Bool
  reg_exp_too_big_ : Bool
  limiting_recursion_ : Bool
  optimize_ : Bool
  deriving DecidableEq, Repr

/-- The constructor `RegExpCompiler::RegExpCompiler(isolate, zone,
capture_count, one_byte)`. -/
def RegExpCompiler.new (capture_count : Int) (one_byte : Bool)
    (FLAG_regexp_optimization : Bool) : RegExpCompiler :=
  { next_register_ := 2 * (capture_count + 1)
    work_list_ := []
    recursion_depth_ := 0
    one_byte_ := one_byte
    reg_exp_too_big_ := false
    limiting_recursion_ := false
    optimize_ := FLAG_regexp_optimization }

/-- Modelled from the spec: `RegExpCompiler::SetRegExpTooBig` raises the flag
`reg_exp_too_big_` ("generated code exceeds limits"). -/
def RegExpCompiler.SetRegExpTooBig (compiler : RegExpCompiler) : RegExpCompiler :=
  { compiler with reg_exp_too_big_ := true }

/-- Modelled from the spec: `RegExpCompiler::IncrementRecursionDepth`. -/
def RegExpCompiler.IncrementRecursionDepth (compiler : RegExpCompiler) : RegExpCompiler :=
  { compiler with recursion_depth_ := compiler.recursion_depth_ + 1 }

/-- Modelled from the spec: `RegExpCompiler::DecrementRecursionDepth`. -/
def RegExpCompiler.DecrementRecursionDepth (compiler : RegExpCompiler) : RegExpCompiler :=
  { compiler with recursion_depth_ := compiler.recursion_depth_ - 1 }

/-- Modelled from the spec: `RegExpCompiler::set_limiting_recursion`. -/
def RegExpCompiler.set_limiting_recursion (compiler : RegExpCompiler) (value : Bool) :
    RegExpCompiler :=
  { compiler with limiting_recursion_ := value }

/-- The whole of `QuickCheckDetails`: the number of characters, the four
positions, the combined mask and value, and the flag `cannot_match_`. -/
structure QuickCheckDetails where
  characters_ : Int
  positions_ : List QuickCheckDetails.Position
  mask_ : Nat
  value_ : Nat
  cannot_match_ : Bool
  deriving DecidableEq, Repr

/-- A position with mask and value `0` that does not determine perfectly. -/
def QuickCheckDetails.Position.zero : QuickCheckDetails.Position :=
  { mask := 0, value := 0, determines_perfectly := false }

/-- The constructor `QuickCheckDetails()`: no characters, four zero
positions. -/
def QuickCheckDetails.new : QuickCheckDetails :=
  { characters_ := 0
    positions_ := List.replicate 4 QuickCheckDetails.Position.zero
    mask_ := 0
    value_ := 0
    cannot_match_ := false }

/-- The function `QuickCheckDetails::Clear`. -/
def QuickCheckDetails.Clear (d : QuickCheckDetails) : QuickCheckDetails :=
  { d with
    positions_ := (List.range d.characters_.toNat).foldl
      (fun ps i => ps.set i QuickCheckDetails.Position.zero) d.positions_
    characters_ := 0 }

/-- The function `QuickCheckDetails::Advance`; its parameter `one_byte` is not
used by the source. -/
def QuickCheckDetails.Advance (d : QuickCheckDetails) (by_ : Int) (_one_byte : Bool) :
    QuickCheckDetails :=
  if by_ ≥ d.characters_ || by_ < 0 then d.Clear
  else
    let ps := (List.range (d.characters_ - by_).toNat).foldl
      (fun ps i => ps.set i (ps.getD (by_.toNat + i) QuickCheckDetails.Position.zero))
      d.positions_
    let ps := ((List.range d.characters_.toNat).filter
        (fun i => decide ((d.characters_ - by_).toNat ≤ i))).foldl
      (fun ps i => ps.set i QuickCheckDetails.Position.zero) ps
    { d with positions_ := ps, characters_ := d.characters_ - by_ }

/-- The enumeration `Trace::TriBool`. -/
inductive Trace.TriBool where
  | UNKNOWN
  | FALSE_VALUE
  | TRUE_VALUE
  deriving DecidableEq, Repr

/-- Modelled from the spec: the emitter state `Trace` ("a value bag
representing virtualized execution state"); `actions_` is the linked list of
deferred actions, newest first, `stop_node_` a node index. -/
structure Trace where
  cp_offset_ : Int
  actions_ : List Trace.DeferredAction
  backtrack_ : Option Label
  stop_node_ : Option Nat
  loop_label_ : Option Label
  characters_preloaded_ : Int
  bound_checked_up_to_ : Int
  quick_check_performed_ : QuickCheckDetails
  flush_budget_ : Int
  at_start_ : Trace.TriBool
  deriving DecidableEq, Repr

/-- Modelled from the spec: the constructor `Trace()` of the trivial trace
that `Trace::Flush` and `RegExpCompiler::Assemble` create. -/
def Trace.new : Trace :=
  { cp_offset_ := 0
    actions_ := []
    backtrack_ := none
    stop_node_ := none
    loop_label_ := none
    characters_preloaded_ := 0
    bound_checked_up_to_ := 0
    quick_check_performed_ := QuickCheckDetails.new
    flush_budget_ := 100
    at_start_ := .UNKNOWN }

/-- Modelled from the spec: the test `Trace::is_trivial`: nothing is deferred,
so that the code generated for the trace is the generic code of the node. -/
def Trace.is_trivial (trace : Trace) : Bool :=
  trace.backtrack_.isNone && trace.actions_.isEmpty && trace.cp_offset_ == 0 &&
  trace.characters_preloaded_ == 0 && trace.bound_checked_up_to_ == 0 &&
  trace.quick_check_performed_.characters_ == 0 && trace.at_start_ == .UNKNOWN

/-- The function `Trace::InvalidateCurrentCharacter`. -/
def Trace.InvalidateCurrentCharacter (trace : Trace) : Trace :=
  { trace with characters_preloaded_ := 0 }

/-- The function `Trace::AdvanceCurrentPositionInTrace(by, compiler)`; it
changes the trace and may raise the compiler's flag. -/
def Trace.AdvanceCurrentPositionInTrace (kMaxCPOffset : Int) (trace : Trace) (by_ : Int)
    (compiler : RegExpCompiler) : Trace × RegExpCompiler :=
  let trace := { trace with characters_preloaded_ := 0 }
  let trace := { trace with
    quick_check_performed_ := trace.quick_check_performed_.Advance by_ compiler.one_byte_ }
  let trace := { trace with cp_offset_ := trace.cp_offset_ + by_ }
  let (trace, compiler) :=
    if trace.cp_offset_ > kMaxCPOffset then
      ({ trace with cp_offset_ := 0 }, compiler.SetRegExpTooBig)
    else (trace, compiler)
  ({ trace with bound_checked_up_to_ := max 0 (trace.bound_checked_up_to_ - by_) }, compiler)

/-- A `RegExpEngine::CompilationResult`: built from an error message (the
code is then undefined), or from a code object and a number of registers. -/
inductive RegExpEngine.CompilationResult where
  | failure (error_message : String)
  | success (code : Object) (num_registers : Int)
  deriving DecidableEq, Repr

/-- The function `IrregexpRegExpTooBig`. -/
def IrregexpRegExpTooBig : RegExpEngine.CompilationResult :=
  .failure "RegExp too big"

/-- What a call of `RegExpEngine::Compile` leaves behind: its result and the
nodes of the graph it has built. -/
structure RegExpEngine.CompileRun where
  result : RegExpEngine.CompilationResult
  nodes_built : List Nat
  deriving DecidableEq, Repr

/-- The function `RegExpEngine::Compile`, its first statement in full. All
that follows the construction of the compiler (building the nodes from the
tree, the one-byte filter, the analysis and `Assemble`) is the parameter
`build_and_assemble`. -/
def RegExpEngine.Compile (kMaxRegister : Int) (FLAG_regexp_optimization : Bool)
    (build_and_assemble : RegExpCompiler → RegExpEngine.CompileRun)
    (data : RegExpCompileData) (is_one_byte : Bool) : RegExpEngine.CompileRun :=
  if (data.capture_count + 1) * 2 - 1 > kMaxRegister then
    { result := IrregexpRegExpTooBig, nodes_built := [] }
  else
    build_and_assemble
      (RegExpCompiler.new data.capture_count is_one_byte FLAG_regexp_optimization)

/-- Modelled from the spec: `RegExpCompiler::AddWork` puts a node on the work
list of nodes "whose generic code still needs to be emitted"; the flags of the
node are kept with the node. -/
def RegExpCompiler.AddWork (compiler : RegExpCompiler) (node : Nat) : RegExpCompiler :=
  { compiler with work_list_ := compiler.work_list_ ++ [node] }

/-- One step of the emission that `RegExpCompiler::Assemble` drives
(`start->Emit` and the `Emit` of the nodes on the work list), seen from the
compiler: a call of one of the methods by which the emitting functions of
jsregexp.cc change it, or one of the two places that compare a trace's
offset with `kMaxCPOffset`. -/
inductive EmissionStep where
  | AddWork (node : Nat)
  | IncrementRecursionDepth
  | DecrementRecursionDepth
  | set_limiting_recursion (value : Bool)
  | TextNode_Emit (trace : Trace) (Length : Int)
  | AdvanceCurrentPositionInTrace (trace : Trace) (by_ : Int)
  deriving DecidableEq, Repr

/-- The statement `if (trace->cp_offset() + Length() > kMaxCPOffset)
{ compiler->SetRegExpTooBig(); return; }` of `TextNode::Emit`: the result is
`none` when the function returns there. -/
def TextNode.Emit_offset_test (kMaxCPOffset : Int) (trace : Trace) (Length : Int)
    (compiler : RegExpCompiler) : Option Unit × RegExpCompiler :=
  if trace.cp_offset_ + Length > kMaxCPOffset then (none, compiler.SetRegExpTooBig)
  else (some (), compiler)

/-- The effect of one emission step on the compiler. -/
def EmissionStep.apply (kMaxCPOffset : Int) (compiler : RegExpCompiler) :
    EmissionStep → RegExpCompiler
  | .AddWork node => compiler.AddWork node
  | .IncrementRecursionDepth => compiler.IncrementRecursionDepth
  | .DecrementRecursionDepth => compiler.DecrementRecursionDepth
  | .set_limiting_recursion value => compiler.set_limiting_recursion value
  | .TextNode_Emit trace Length => (TextNode.Emit_offset_test kMaxCPOffset trace Length compiler).2
  | .AdvanceCurrentPositionInTrace trace by_ =>
    (trace.AdvanceCurrentPositionInTrace kMaxCPOffset by_ compiler).2

/-- Whether a step finds a trace offset above `kMaxCPOffset`. -/
def EmissionStep.exceeds (kMaxCPOffset : Int) : EmissionStep → Bool
  | .TextNode_Emit trace Length => decide (trace.cp_offset_ + Length > kMaxCPOffset)
  | .AdvanceCurrentPositionInTrace trace by_ => decide (trace.cp_offset_ + by_ > kMaxCPOffset)
  | _ => false

/-- The calls of `RegExpCompiler::Assemble` on the macro assembler that end
code generation. -/
inductive AssembleEvent where
  | AbortedCodeGeneration
  | GetCode
  deriving DecidableEq, Repr

/-- The function `RegExpCompiler::Assemble` from the compiler's side:
`emission` is the sequence of steps that `start->Emit` and the loop over the
work list perform, `code` the object that `GetCode` would return. -/
def RegExpCompiler.Assemble (kMaxCPOffset : Int) (compiler : RegExpCompiler)
    (emission : List EmissionStep) (code : Object) :
    RegExpEngine.CompilationResult × List AssembleEvent × RegExpCompiler :=
  let compiler := { compiler with work_list_ := [] }
  let compiler := emission.foldl (EmissionStep.apply kMaxCPOffset) compiler
  if compiler.reg_exp_too_big_ then
    (IrregexpRegExpTooBig, [.AbortedCodeGeneration], compiler)
  else
    (.success code compiler.next_register_, [.GetCode], compiler)

/-! ## Emission of action nodes (`RegExpNode::LimitVersions`, `Trace::Flush`)

The emitting functions of the classes `ActionNode` (for the four action types
that defer their action to the trace) and `EndNode`, with the functions of
`RegExpNode` and `Trace` they call. The code that would go to the macro
assembler is recorded as a list of operations. -/

/-- The operations of `RegExpMacroAssembler` that the emitting functions
embedded here call, recorded as data; a label that is null in the source
(`trace->backtrack()`) is `none`. -/
inductive AssemblerOp where
  | reg (op : MacroOp)
  | PushBacktrack (label : Label)
  | Bind (label : Label)
  | GoTo (label : Option Label)
  | Backtrack
  | Succeed
  | PushCurrentPosition
  | PopCurrentPosition
  | AdvanceCurrentPosition (by_ : Int)
  | CheckAtStart (on_at_start : Option Label)
  | LoadCurrentCharacter (cp_offset : Int) (on_end_of_input : Option Label) (check_bounds : Bool)
  | CheckCharacter (c : Nat) (on_equal : Option Label)
  | CheckNotCharacter (c : Nat) (on_not_equal : Option Label)
  | CheckCharacterAfterAnd (c : Nat) (and_with : Nat) (on_equal : Option Label)
  | CheckSpecialCharacterClass (type : Nat) (on_no_match : Option Label)
  | CheckNotCharacterAfterAnd (c : Nat) (and_with : Nat) (on_not_equal : Option Label)
  | CheckNotCharacterAfterMinusAnd (c : Nat) (minus : Nat) (and_with : Nat)
      (on_not_equal : Option Label)
  | IfRegisterLT (reg : Int) (comparand : Int) (if_lt : Label)
  | IfRegisterEqPos (reg : Int) (if_eq : Option Label)
  | CheckCharacterGT (limit : Nat) (on_greater : Option Label)
  | CheckCharacterLT (limit : Nat) (on_less : Option Label)
  | CheckCharacterInRange (from_ : Nat) (to_ : Nat) (on_in_range : Option Label)
  | CheckCharacterNotInRange (from_ : Nat) (to_ : Nat) (on_not_in_range : Option Label)
  | CheckBitInTable (table : List Nat) (on_bit_set : Option Label)
  deriving DecidableEq, Repr

/-- Modelled from the spec: the constant `RegExpCompiler::kNoRegister`, the
"no register" value that `FindAffectedRegisters` starts from; it is below
every register number. -/
def RegExpCompiler.kNoRegister : Int := -1

/-- The data of an `ActionNode` of one of the types `SET_REGISTER`,
`INCREMENT_REGISTER`, `STORE_POSITION` and `CLEAR_CAPTURES`, named after the
members of the union `data_`. -/
inductive ActionNode.Data where
  | u_store_register (reg : Int) (value : Int)
  | u_increment_register (reg : Int)
  | u_position_register (reg : Int) (is_capture : Bool)
  | u_clear_captures (range_from : Int) (range_to : Int)
  deriving DecidableEq, Repr

/-- The actions of an `EndNode` that `EndNode::Emit` handles. -/
inductive EndNode.Action where
  | ACCEPT
  | BACKTRACK
  deriving DecidableEq, Repr

/-- The class of a node and its own fields; a successor is a node index. -/
inductive EmitNode.Kind where
  | ActionNode (data_ : ActionNode.Data) (on_success : Nat)
  | EndNode (action_ : EndNode.Action)
  deriving DecidableEq, Repr

/-- A node as the emitter sees it: its class, and the fields of `RegExpNode`
that emission reads and writes (`label_bound` is `label_.is_bound()`). -/
structure EmitNode where
  kind : EmitNode.Kind
  label_bound : Bool
  on_work_list_ : Bool
  trace_count_ : Int
  deriving DecidableEq, Repr

/-- The constants that emission depends on: `RegExpCompiler::kMaxRecursion`,
`RegExpNode::kMaxCopiesCodeGenerated` and the assembler's
`stack_limit_slack()`. They are declared outside the sources at hand. -/
structure EmitConstants where
  kMaxRecursion : Int
  kMaxCopiesCodeGenerated : Int
  stack_limit_slack : Int
  deriving DecidableEq, Repr

/-- The state that emission works on: the compiler, the nodes of the graph,
the operations emitted so far and the number of local labels created.
`deepest_recursion` is not a field of the source: it records the largest
value that `recursion_depth_` has been raised to. -/
structure Emitter where
  compiler : RegExpCompiler
  nodes : List EmitNode
  code : List AssemblerOp
  labels : Nat
  deepest_recursion : Int
  deriving DecidableEq, Repr

/-- The result type `RegExpNode::LimitResult`. -/
inductive RegExpNode.LimitResult where
  | DONE
  | CONTINUE
  deriving DecidableEq, Repr

/-- One call on the macro assembler. -/
def Emitter.emit (st : Emitter) (op : AssemblerOp) : Emitter :=
  { st with code := st.code ++ [op] }

/-- The flag `label()->is_bound()` of a node (`false` for an index outside
the graph). -/
def Emitter.is_bound (st : Emitter) (node : Nat) : Bool :=
  match st.nodes[node]? with
  | some n => n.label_bound
  | none => false

/-- The flag `on_work_list()` of a node. -/
def Emitter.on_work_list (st : Emitter) (node : Nat) : Bool :=
  match st.nodes[node]? with
  | some n => n.on_work_list_
  | none => false

/-- The field `trace_count_` of a node. -/
def Emitter.trace_count (st : Emitter) (node : Nat) : Int :=
  match st.nodes[node]? with
  | some n => n.trace_count_
  | none => 0

/-- A change of the fields of one node. -/
def Emitter.modifyNode (st : Emitter) (node : Nat) (f : EmitNode → EmitNode) : Emitter :=
  match st.nodes[node]? with
  | some n => { st with nodes := st.nodes.set node (f n) }
  | none => st

/-- The call `assembler->Bind(node->label())`. -/
def Emitter.Bind (st : Emitter) (node : Nat) : Emitter :=
  (st.modifyNode node (fun n => { n with label_bound := true })).emit (.Bind (.node node))

/-- Modelled from the spec: `RegExpCompiler::AddWork(node)` puts the node on
the work list "if needed": a node that is on the list already, or whose label
is bound, is not added. -/
def Emitter.AddWork (st : Emitter) (node : Nat) : Emitter :=
  if !st.on_work_list node && !st.is_bound node then
    let st := st.modifyNode node (fun n => { n with on_work_list_ := true })
    { st with compiler := st.compiler.AddWork node }
  else st

/-- The constructor of `RecursionCheck`: `IncrementRecursionDepth`. -/
def Emitter.RecursionCheck (st : Emitter) : Emitter :=
  let compiler := st.compiler.IncrementRecursionDepth
  { st with
    compiler := compiler
    deepest_recursion := max st.deepest_recursion compiler.recursion_depth_ }

/-- The destructor of `RecursionCheck`: `DecrementRecursionDepth`. -/
def Emitter.RecursionCheck_end (st : Emitter) : Emitter :=
  { st with compiler := st.compiler.DecrementRecursionDepth }

/-- The function `RegExpNode::KeepRecursing`. -/
def RegExpNode.KeepRecursing (k : EmitConstants) (compiler : RegExpCompiler) : Bool :=
  !compiler.limiting_recursion_ && decide (compiler.recursion_depth_ ≤ k.kMaxRecursion)

/-- The inner loop `for (int i = range.from(); i <= range.to(); i++)
affected_registers->Set(i, zone)` of `FindAffectedRegisters`. -/
def Trace.FindAffectedRegisters.setRange (range : Interval) (affected_registers : OutSet) :
    OutSet :=
  (List.range (range.to_ + 1 - range.from_).toNat).foldl
    (fun s i => s.Set (range.from_ + i).toNat) affected_registers

/-- The function `Trace::FindAffectedRegisters`: the largest register that
an action mentions, and the set of the registers mentioned. -/
def Trace.FindAffectedRegisters (actions : List Trace.DeferredAction)
    (affected_registers : OutSet) : Int × OutSet :=
  actions.foldl
    (fun (acc : Int × OutSet) action =>
      match action with
      | .DeferredClearCaptures range =>
        (if range.to_ > acc.1 then range.to_ else acc.1,
          Trace.FindAffectedRegisters.setRange range acc.2)
      | _ =>
        (if action.reg > acc.1 then action.reg else acc.1, acc.2.Set action.reg.toNat))
    (RegExpCompiler.kNoRegister, affected_registers)

/-- The loop `while (reg > 0 && registers_to_clear.Get(reg - 1)) reg--` of
`RestoreAffectedRegisters`: the lowest register of the run of registers to
clear that ends at `reg`. -/
def Trace.RestoreAffectedRegisters.runStart (registers_to_clear : OutSet) : Nat → Nat
  | 0 => 0
  | reg + 1 =>
    if registers_to_clear.Get reg then
      Trace.RestoreAffectedRegisters.runStart registers_to_clear reg
    else reg + 1

/-- The loop `for (int reg = max_register; reg >= 0; reg--)` of
`RestoreAffectedRegisters`; `fuel` bounds the number of rounds. -/
def Trace.RestoreAffectedRegisters.loop (registers_to_pop registers_to_clear : OutSet) :
    Nat → Int → List MacroOp
  | 0, _ => []
  | fuel + 1, reg =>
    if reg ≥ 0 then
      if registers_to_pop.Get reg.toNat then
        MacroOp.PopRegister reg ::
          Trace.RestoreAffectedRegisters.loop registers_to_pop registers_to_clear fuel (reg - 1)
      else if registers_to_clear.Get reg.toNat then
        let clear_to := reg
        let reg : Int := Trace.RestoreAffectedRegisters.runStart registers_to_clear reg.toNat
        MacroOp.ClearRegisters reg clear_to ::
          Trace.RestoreAffectedRegisters.loop registers_to_pop registers_to_clear fuel (reg - 1)
      else Trace.RestoreAffectedRegisters.loop registers_to_pop registers_to_clear fuel (reg - 1)
    else []

/-- The function `Trace::RestoreAffectedRegisters`: the operations it
emits. -/
def Trace.RestoreAffectedRegisters (max_register : Int)
    (registers_to_pop registers_to_clear : OutSet) : List MacroOp :=
  Trace.RestoreAffectedRegisters.loop registers_to_pop registers_to_clear
    (max_register + 1).toNat max_register

/-- Modelled from the spec: the method `Trace::add_action` puts a new
deferred action in front of the linked list `actions_`. -/
def Trace.add_action (trace : Trace) (new_action : Trace.DeferredAction) : Trace :=
  { trace with actions_ := new_action :: trace.actions_ }

/-- The deferred action that `ActionNode::Emit` creates from the node's data;
a `DeferredCapture` takes its offset from the trace. -/
def ActionNode.Data.deferred (data_ : ActionNode.Data) (trace : Trace) : Trace.DeferredAction :=
  match data_ with
  | .u_store_register reg value => .DeferredSetRegister reg value
  | .u_increment_register reg => .DeferredIncrementRegister reg
  | .u_position_register reg is_capture => .DeferredCapture reg is_capture trace.cp_offset_
  | .u_clear_captures range_from range_to =>
    .DeferredClearCaptures { from_ := range_from, to_ := range_to }

/-- What the first half of `Trace::Flush` hands to the second: the local
label `undo`, the largest affected register and the two register sets that
`PerformDeferredActions` has filled. -/
structure Trace.Flush.Locals where
  undo : Label
  max_register : Int
  registers_to_pop : OutSet
  registers_to_clear : OutSet
  deriving DecidableEq, Repr

/-- The statements of `Trace::Flush`, for a trace with deferred actions or a
backtrack label, from `OutSet affected_registers` to
`assembler->PushBacktrack(&undo)`. -/
def Trace.Flush.before (k : EmitConstants) (trace : Trace) (st : Emitter) :
    Trace.Flush.Locals × Emitter :=
  let st := if trace.backtrack_.isSome then st.emit .PushCurrentPosition else st
  let found := Trace.FindAffectedRegisters trace.actions_ OutSet.empty
  let max_register := found.1
  let affected_registers := found.2
  let performed := Trace.PerformDeferredActions trace.actions_ k.stack_limit_slack
    max_register affected_registers OutSet.empty OutSet.empty
  let st := { st with code := st.code ++ performed.ops.map AssemblerOp.reg }
  let st := if trace.cp_offset_ != 0 then st.emit (.AdvanceCurrentPosition trace.cp_offset_)
    else st
  let undo := Label.stack st.labels
  let st := { st with labels := st.labels + 1 }
  let st := st.emit (.PushBacktrack undo)
  ({ undo := undo, max_register := max_register,
     registers_to_pop := performed.registers_to_pop,
     registers_to_clear := performed.registers_to_clear }, st)

/-- The statements of `Trace::Flush` from `assembler->Bind(&undo)` to the
end: the code that restores the state on backtrack. -/
def Trace.Flush.after (trace : Trace) (locals : Trace.Flush.Locals) (st : Emitter) : Emitter :=
  let st := st.emit (.Bind locals.undo)
  let st := { st with
    code := st.code ++
      (Trace.RestoreAffectedRegisters locals.max_register locals.registers_to_pop
        locals.registers_to_clear).map AssemblerOp.reg }
  match trace.backtrack_ with
  | none => st.emit .Backtrack
  | some label => (st.emit .PopCurrentPosition).emit (.GoTo (some label))

/-- The function `Trace::Flush(compiler, successor)`. `Emit` is the virtual
call `successor->Emit(compiler, &new_state)`; it gives `none` when the
recursion of the model has no rounds left. -/
def Trace.Flush (k : EmitConstants) (Emit : Trace → Emitter → Option Emitter) (trace : Trace)
    (successor : Nat) (st : Emitter) : Option Emitter :=
  if trace.actions_.isEmpty && trace.backtrack_.isNone then
    let st := if trace.cp_offset_ != 0 then st.emit (.AdvanceCurrentPosition trace.cp_offset_)
      else st
    Emit Trace.new st
  else
    let (locals, st) := Trace.Flush.before k trace st
    let emitted :=
      if RegExpNode.KeepRecursing k st.compiler then Emit Trace.new st
      else some ((st.AddWork successor).emit (.GoTo (some (.node successor))))
    match emitted with
    | none => none
    | some st => some (Trace.Flush.after trace locals st)

/-- The function `RegExpNode::LimitVersions(compiler, trace)` of the node
`this`. `Emit` is the node's own virtual function `Emit`, called by
`Trace::Flush`. -/
def RegExpNode.LimitVersions (k : EmitConstants) (Emit : Trace → Emitter → Option Emitter)
    (this : Nat) (trace : Trace) (st : Emitter) : Option (RegExpNode.LimitResult × Emitter) :=
  if trace.stop_node_.isSome then some (.CONTINUE, st)
  else if trace.is_trivial then
    if st.is_bound this || st.on_work_list this ||
        !RegExpNode.KeepRecursing k st.compiler then
      let st := st.emit (.GoTo (some (.node this)))
      some (.DONE, st.AddWork this)
    else some (.CONTINUE, st.Bind this)
  else
    let st := st.modifyNode this (fun n => { n with trace_count_ := n.trace_count_ + 1 })
    if RegExpNode.KeepRecursing k st.compiler && st.compiler.optimize_ &&
        decide (st.trace_count this < k.kMaxCopiesCodeGenerated) then
      some (.CONTINUE, st)
    else
      let was_limiting := st.compiler.limiting_recursion_
      let st := { st with compiler := st.compiler.set_limiting_recursion true }
      match Trace.Flush k Emit trace this st with
      | none => none
      | some st =>
        some (.DONE, { st with compiler := st.compiler.set_limiting_recursion was_limiting })

/-- The functions `ActionNode::Emit` (for the four deferring action types)
and `EndNode::Emit`, by the class of the node `this`. The recursion of the
source is bounded here by `fuel`; `none` is returned when it runs out, or
when `this` is not a node of the graph. -/
def EmitNode.Emit (k : EmitConstants) : Nat → Nat → Trace → Emitter → Option Emitter
  | 0, _, _, _ => none
  | fuel + 1, this, trace, st =>
    match st.nodes[this]? with
    | none => none
    | some node =>
      match node.kind with
      | .EndNode action_ =>
        if !trace.is_trivial then
          Trace.Flush k (EmitNode.Emit k fuel this) trace this st
        else
          let st := if !st.is_bound this then st.Bind this else st
          match action_ with
          | .ACCEPT => some (st.emit .Succeed)
          | .BACKTRACK => some (st.emit (.GoTo trace.backtrack_))
      | .ActionNode data_ on_success =>
        match RegExpNode.LimitVersions k (EmitNode.Emit k fuel this) this trace st with
        | none => none
        | some (.DONE, st) => some st
        | some (.CONTINUE, st) =>
          let st := st.RecursionCheck
          let new_trace := trace.add_action (data_.deferred trace)
          match EmitNode.Emit k fuel on_success new_trace st with
          | none => none
          | some st => some st.RecursionCheck_end

/-- Successive calls of `LimitVersions` on the node `this`, one for each of
the given traces; the results are listed in the order of the calls. -/
def RegExpNode.LimitVersions_each (k : EmitConstants) (Emit : Trace → Emitter → Option Emitter)
    (this : Nat) : List Trace → Emitter → Option (List RegExpNode.LimitResult × Emitter)
  | [], st => some ([], st)
  | trace :: traces, st =>
    match RegExpNode.LimitVersions k Emit this trace st with
    | none => none
    | some (result, st) =>
      match RegExpNode.LimitVersions_each k Emit this traces st with
      | none => none
      | some (results, st) => some (result :: results, st)

/-- The emitter at the start of `RegExpCompiler::Assemble`: the compiler as
constructed, no code, and the given nodes. -/
def Emitter.new (nodes : List EmitNode) : Emitter :=
  { compiler := RegExpCompiler.new 0 false true
    nodes := nodes
    code := []
    labels := 0
    deepest_recursion := 0 }

/-- A fresh node of the given class: label unbound, not on the work list, no
trace counted. -/
def EmitNode.fresh (kind : EmitNode.Kind) : EmitNode :=
  { kind := kind, label_bound := false, on_work_list_ := false, trace_count_ := 0 }

/-- A chain of `n` action nodes, each incrementing register 2 and followed by
the next one, that ends in an accepting `EndNode` (node `n`). -/
def EmitNode.chain (n : Nat) : List EmitNode :=
  (List.range n).map
      (fun i => EmitNode.fresh (.ActionNode (.u_increment_register 2) (i + 1))) ++
    [EmitNode.fresh (.EndNode .ACCEPT)]


/-- The relation between the emitter before and after a piece of emission
that leaves no recursion open: the recursion depth, the flags
`limiting_recursion_` and `optimize_` and the classes of the nodes are as
before, and the depth has not been raised above `kMaxRecursion + 1` unless it
had been before. -/
def Emitter.Within (k : EmitConstants) (st st' : Emitter) : Prop :=
  st'.compiler.recursion_depth_ = st.compiler.recursion_depth_ ∧
  st'.compiler.limiting_recursion_ = st.compiler.limiting_recursion_ ∧
  st'.compiler.optimize_ = st.compiler.optimize_ ∧
  st'.nodes.map EmitNode.kind = st.nodes.map EmitNode.kind ∧
  st'.deepest_recursion ≤ max st.deepest_recursion (k.kMaxRecursion + 1)

/-- Every successor named in the graph is a node of the graph. -/
def Emitter.WellFormed (st : Emitter) : Bool :=
  (st.nodes.map EmitNode.kind).all
    (fun kind =>
      match kind with
      | .ActionNode _ on_success => decide (on_success < st.nodes.length)
      | .EndNode _ => true)

/-- Successive calls of `Emit` on the node `this`, one for each of the given
traces. -/
def EmitNode.Emit_each (k : EmitConstants) (fuel : Nat) (this : Nat) :
    List Trace → Emitter → Option Emitter
  | [], st => some st
  | trace :: traces, st =>
    match EmitNode.Emit k fuel this trace st with
    | none => none
    | some st => EmitNode.Emit_each k fuel this traces st

/-! ## Code generation, seen from the recursion depth

`RecursionCheck` is constructed at four places of jsregexp.cc, in
`TextNode::Emit`, `ChoiceNode::Emit`, `ActionNode::Emit` and
`BackReferenceNode::Emit`, each time after `LimitVersions` has returned
`CONTINUE` in the same function. Whatever else the emitting functions do,
the calls that bear on the recursion depth are therefore a sequence of the
steps below. -/

/-- One step of code generation, seen from the recursion depth: an `Emit`
function calls `LimitVersions` for its node, returns if the answer is `DONE`
and otherwise goes on (`before` is what it does then, as `TextNode::Emit`
emits the tests of its characters) and constructs its `RecursionCheck`,
unless it returns before (`enters` is `false` then, as in `TextNode::Emit`
for a regexp that is too big and in `ChoiceNode::Emit` after a flush); the
destructor of a `RecursionCheck` runs; or something else happens to the
state (code is emitted, a label is bound, a node is put on the work
list). -/
inductive RecursionStep where
  | LimitVersions (this : Nat) (trace : Trace) (before : Emitter → Emitter) (enters : Bool)
  | RecursionCheck_end
  | other (f : Emitter → Emitter)

/-- The effect of one step. `Emit` is the virtual function `Emit` of the
nodes, which `LimitVersions` hands to `Trace::Flush`. -/
def RecursionStep.apply (k : EmitConstants) (Emit : Nat → Trace → Emitter → Option Emitter)
    (st : Emitter) : RecursionStep → Option Emitter
  | .LimitVersions this trace before enters =>
    match RegExpNode.LimitVersions k (Emit this) this trace st with
    | none => none
    | some (.DONE, st) => some st
    | some (.CONTINUE, st) =>
      let st := before st
      some (if enters then st.RecursionCheck else st)
  | .RecursionCheck_end => some st.RecursionCheck_end
  | .other f => some (f st)

/-- The effect of a sequence of steps. -/
def RecursionStep.run (k : EmitConstants) (Emit : Nat → Trace → Emitter → Option Emitter) :
    List RecursionStep → Emitter → Option Emitter
  | [], st => some st
  | step :: steps, st =>
    match step.apply k Emit st with
    | none => none
    | some st => RecursionStep.run k Emit steps st

/-- Modelled from the spec: the constant `unibrow::Latin1::kMaxChar`, the
largest one-byte code unit. -/
def unibrow.Latin1.kMaxChar : Nat := 0xFF

/-- Modelled from the spec: `unibrow::Latin1::TryConvertToLatin1` maps a code
unit that has a Latin-1 equivalent under case folding to that equivalent
("case-variants with Latin-1 equivalents are preserved") and leaves every
other code unit as it is. The code units concerned are the three that
`RangeContainsLatin1Equivalents` names: `0x39C` and `0x3BC` fold to `0xB5`,
and `0x178` to `0xFF`. -/
def unibrow.Latin1.TryConvertToLatin1 (c : Nat) : Nat :=
  if c = 0x39C ∨ c = 0x3BC then 0xB5
  else if c = 0x178 then 0xFF
  else c

/-- The function `RangeContainsLatin1Equivalents`. -/
def RangeContainsLatin1Equivalents (range : CharacterRange) : Bool :=
  range.Contains 0x039C || range.Contains 0x03BC || range.Contains 0x0178

/-- The function `RangesContainLatin1Equivalents`. -/
def RangesContainLatin1Equivalents (ranges : List CharacterRange) : Bool :=
  ranges.any RangeContainsLatin1Equivalents

/-- Insertion of a range into a list sorted by `from`. -/
def CharacterRange.Canonicalize.insert (r : CharacterRange) :
    List CharacterRange → List CharacterRange
  | [] => [r]
  | x :: rest =>
    if r.from_ ≤ x.from_ then r :: x :: rest
    else x :: CharacterRange.Canonicalize.insert r rest

/-- Merging of the ranges of a list sorted by `from` that overlap or are
adjacent; `current` is the range being grown. -/
def CharacterRange.Canonicalize.merge (current : CharacterRange) :
    List CharacterRange → List CharacterRange
  | [] => [current]
  | x :: rest =>
    if x.from_ ≤ current.to_ + 1 then
      CharacterRange.Canonicalize.merge { current with to_ := max current.to_ x.to_ } rest
    else current :: CharacterRange.Canonicalize.merge x rest

/-- Modelled from the spec: `CharacterRange::Canonicalize` "sorts by `from`,
merges adjacent/overlapping intervals". -/
def CharacterRange.Canonicalize (ranges : List CharacterRange) : List CharacterRange :=
  match ranges.foldr CharacterRange.Canonicalize.insert [] with
  | [] => []
  | x :: rest => CharacterRange.Canonicalize.merge x rest

/-- A `TextElement`: an atom with its code units and its ignore-case flag, or
a character class with its ranges, its negation flag and its flags. -/
inductive TextElement where
  | ATOM (data : List Nat) (ignore_case : Bool)
  | CHAR_CLASS (ranges : List CharacterRange) (is_negated : Bool) (flags : JSRegExp.Flags)
  deriving DecidableEq, Repr

/-- The relation of a `Guard`. -/
inductive Guard.Relation where
  | LT
  | GE
  deriving DecidableEq, Repr

/-- A `Guard`: a comparison of a register with a value. -/
structure Guard where
  reg : Int
  op : Guard.Relation
  value : Int
  deriving DecidableEq, Repr

/-- A `GuardedAlternative`: a node and a list of guards, which may be null. -/
structure GuardedAlternative where
  node : Nat
  guards : Option (List Guard)
  deriving DecidableEq, Repr

/-- The bits of `NodeInfo` that the filter uses. -/
structure NodeInfo where
  visited : Bool
  replacement_calculated : Bool
  deriving DecidableEq, Repr

/-- The classes of nodes, by their implementation of `FilterOneByte`:
`EndNode` stands for every class that inherits `RegExpNode::FilterOneByte`,
`SeqRegExpNode` for every class that inherits `SeqRegExpNode::FilterOneByte`
(`ActionNode`, `AssertionNode`, `BackReferenceNode`). -/
inductive RegExpNode.Class where
  | EndNode
  | SeqRegExpNode
  | TextNode
  | ChoiceNode
  | LoopChoiceNode
  | NegativeLookaroundChoiceNode
  deriving DecidableEq, Repr

/-- A node of the graph as the filter sees it: `on_success_` is a field of
`SeqRegExpNode`, `elements_` of `TextNode`, `alternatives_` of `ChoiceNode`
and `continue_node_` of `LoopChoiceNode`. -/
structure RegExpNode where
  type : RegExpNode.Class
  info : NodeInfo
  replacement_ : Option Nat
  on_success_ : Nat
  elements_ : List TextElement
  alternatives_ : List GuardedAlternative
  continue_node_ : Nat
  deriving DecidableEq, Repr

/-- A change of the record of one node. -/
def RegExpNode.modify (nodes : List RegExpNode) (this : Nat) (f : RegExpNode → RegExpNode) :
    List RegExpNode :=
  match nodes[this]? with
  | some node => nodes.set this (f node)
  | none => nodes

/-- Modelled from the spec: `RegExpNode::set_replacement` records the
replacement of a node, marks it as calculated and returns it (the filter
"uses `replacement_calculated` ... to memoize"). -/
def RegExpNode.set_replacement (nodes : List RegExpNode) (this : Nat)
    (replacement : Option Nat) : Option Nat × List RegExpNode :=
  (replacement,
    RegExpNode.modify nodes this (fun node =>
      { node with
        info := { node.info with replacement_calculated := true }
        replacement_ := replacement }))

/-- The constructor of `VisitMarker`. -/
def VisitMarker.enter (nodes : List RegExpNode) (this : Nat) : List RegExpNode :=
  RegExpNode.modify nodes this (fun node => { node with info := { node.info with visited := true } })

/-- The destructor of `VisitMarker`. -/
def VisitMarker.exit (nodes : List RegExpNode) (this : Nat) : List RegExpNode :=
  RegExpNode.modify nodes this (fun node =>
    { node with info := { node.info with visited := false } })

/-- The field `alternatives_` of a node (empty for an index outside the
graph). -/
def ChoiceNode.alternatives (nodes : List RegExpNode) (this : Nat) : List GuardedAlternative :=
  match nodes[this]? with
  | some node => node.alternatives_
  | none => []

/-- The call `alternatives_->at(i).set_node(replacement)`. -/
def ChoiceNode.set_node (nodes : List RegExpNode) (this : Nat) (i : Nat) (replacement : Nat) :
    List RegExpNode :=
  RegExpNode.modify nodes this (fun node =>
    { node with
      alternatives_ :=
        match node.alternatives_[i]? with
        | some alternative => node.alternatives_.set i { alternative with node := replacement }
        | none => node.alternatives_ })

/-- The loop over the code units of an atom in `TextNode::FilterOneByte`:
whether every code unit fits in one byte (after the conversion, for an
ignore-case atom), and the code units as the loop leaves them; it stops at
the first one that does not fit. -/
def TextNode.FilterOneByte.quarks (ignore_case : Bool) : List Nat → Bool × List Nat
  | [] => (true, [])
  | quark :: rest =>
    let c := quark
    let c := if ignore_case then unibrow.Latin1.TryConvertToLatin1 c else c
    if c > unibrow.Latin1.kMaxChar then (false, quark :: rest)
    else
      let done := TextNode.FilterOneByte.quarks ignore_case rest
      (done.1, c :: done.2)

/-- The body of the loop over the elements in `TextNode::FilterOneByte`, for
one element: `false` when the function returns `set_replacement(nullptr)`
there, and the element as the body leaves it. -/
def TextNode.FilterOneByte.element : TextElement → Bool × TextElement
  | .ATOM data ignore_case =>
    let done := TextNode.FilterOneByte.quarks ignore_case data
    (done.1, .ATOM done.2 ignore_case)
  | .CHAR_CLASS ranges is_negated flags =>
    let ranges := CharacterRange.Canonicalize ranges
    let range_count := ranges.length
    let first := ranges.headD { from_ := 0, to_ := 0 }
    if is_negated then
      if range_count != 0 && first.from_ == 0 &&
          decide (first.to_ ≥ String.kMaxOneByteCharCode) then
        if IgnoreCase flags && RangesContainLatin1Equivalents ranges then
          (true, .CHAR_CLASS ranges is_negated flags)
        else (false, .CHAR_CLASS ranges is_negated flags)
      else (true, .CHAR_CLASS ranges is_negated flags)
    else
      if range_count == 0 || decide (first.from_ > String.kMaxOneByteCharCode) then
        if IgnoreCase flags && RangesContainLatin1Equivalents ranges then
          (true, .CHAR_CLASS ranges is_negated flags)
        else (false, .CHAR_CLASS ranges is_negated flags)
      else (true, .CHAR_CLASS ranges is_negated flags)

/-- The loop `for (int i = 0; i < element_count; i++)` of
`TextNode::FilterOneByte`: `false` when it returns
`set_replacement(nullptr)`, and the elements as it leaves them. -/
def TextNode.FilterOneByte.elements : List TextElement → Bool × List TextElement
  | [] => (true, [])
  | elm :: rest =>
    let done := TextNode.FilterOneByte.element elm
    if !done.1 then (false, done.2 :: rest)
    else
      let others := TextNode.FilterOneByte.elements rest
      (others.1, done.2 :: others.2)

/-- The function `SeqRegExpNode::FilterSuccessor(depth)`; `filter` is
`FilterOneByte(depth - 1)`. -/
def SeqRegExpNode.FilterSuccessor (filter : List RegExpNode → Nat → Option Nat × List RegExpNode)
    (nodes : List RegExpNode) (this : Nat) : Option Nat × List RegExpNode :=
  match nodes[this]? with
  | none => (none, nodes)
  | some node =>
    let (next, nodes) := filter nodes node.on_success_
    match next with
    | none => RegExpNode.set_replacement nodes this none
    | some next =>
      let nodes := RegExpNode.modify nodes this (fun node => { node with on_success_ := next })
      RegExpNode.set_replacement nodes this (some this)

/-- The function `SeqRegExpNode::FilterOneByte(depth)`; `filter_below2` is
`FilterOneByte(depth - 2)`, which `FilterSuccessor(depth - 1)` calls. -/
def SeqRegExpNode.FilterOneByte
    (filter_below2 : List RegExpNode → Nat → Option Nat × List RegExpNode) (depth : Int)
    (nodes : List RegExpNode) (this : Nat) : Option Nat × List RegExpNode :=
  match nodes[this]? with
  | none => (none, nodes)
  | some node =>
    if node.info.replacement_calculated then (node.replacement_, nodes)
    else if depth < 0 then (some this, nodes)
    else
      let nodes := VisitMarker.enter nodes this
      let (result, nodes) := SeqRegExpNode.FilterSuccessor filter_below2 nodes this
      (result, VisitMarker.exit nodes this)

/-- The function `TextNode::FilterOneByte(depth)`; `filter_below2` is
`FilterOneByte(depth - 2)`, which `FilterSuccessor(depth - 1)` calls. -/
def TextNode.FilterOneByte
    (filter_below2 : List RegExpNode → Nat → Option Nat × List RegExpNode) (depth : Int)
    (nodes : List RegExpNode) (this : Nat) : Option Nat × List RegExpNode :=
  match nodes[this]? with
  | none => (none, nodes)
  | some node =>
    if node.info.replacement_calculated then (node.replacement_, nodes)
    else if depth < 0 then (some this, nodes)
    else
      let nodes := VisitMarker.enter nodes this
      let done := TextNode.FilterOneByte.elements node.elements_
      let nodes := RegExpNode.modify nodes this (fun node => { node with elements_ := done.2 })
      let (result, nodes) :=
        if !done.1 then RegExpNode.set_replacement nodes this none
        else SeqRegExpNode.FilterSuccessor filter_below2 nodes this
      (result, VisitMarker.exit nodes this)

/-- The test `alternative.guards() != nullptr &&
alternative.guards()->length() != 0`. -/
def GuardedAlternative.hasGuards (alternative : GuardedAlternative) : Bool :=
  match alternative.guards with
  | none => false
  | some guards => guards.length != 0

/-- The state of the first loop over the alternatives in
`ChoiceNode::FilterOneByte`. -/
structure ChoiceNode.FilterOneByte.Survivors where
  nodes : List RegExpNode
  surviving : Int
  survivor : Option Nat
  deriving DecidableEq, Repr

/-- The body of the first loop over the alternatives in
`ChoiceNode::FilterOneByte`. -/
def ChoiceNode.FilterOneByte.count
    (filter_below : List RegExpNode → Nat → Option Nat × List RegExpNode) (this : Nat)
    (st : ChoiceNode.FilterOneByte.Survivors) (i : Nat) : ChoiceNode.FilterOneByte.Survivors :=
  match (ChoiceNode.alternatives st.nodes this)[i]? with
  | none => st
  | some alternative =>
    let (replacement, nodes) := filter_below st.nodes alternative.node
    match replacement with
    | some replacement =>
      { nodes := ChoiceNode.set_node nodes this i replacement
        surviving := st.surviving + 1
        survivor := some replacement }
    | none => { st with nodes := nodes }

/-- The body of the second loop over the alternatives in
`ChoiceNode::FilterOneByte`, which builds `new_alternatives`. -/
def ChoiceNode.FilterOneByte.rebuild
    (filter_below : List RegExpNode → Nat → Option Nat × List RegExpNode) (this : Nat)
    (st : List RegExpNode × List GuardedAlternative) (i : Nat) :
    List RegExpNode × List GuardedAlternative :=
  match (ChoiceNode.alternatives st.1 this)[i]? with
  | none => st
  | some alternative =>
    let (replacement, nodes) := filter_below st.1 alternative.node
    match replacement with
    | some replacement =>
      let nodes := ChoiceNode.set_node nodes this i replacement
      match (ChoiceNode.alternatives nodes this)[i]? with
      | some alternative => (nodes, st.2 ++ [alternative])
      | none => (nodes, st.2)
    | none => (nodes, st.2)

/-- The function `ChoiceNode::FilterOneByte(depth)` after the construction of
the `VisitMarker`; `filter_below` is `FilterOneByte(depth - 1)`. -/
def ChoiceNode.FilterOneByte.marked
    (filter_below : List RegExpNode → Nat → Option Nat × List RegExpNode)
    (nodes : List RegExpNode) (this : Nat) : Option Nat × List RegExpNode :=
  let choice_count := (ChoiceNode.alternatives nodes this).length
  if (ChoiceNode.alternatives nodes this).any GuardedAlternative.hasGuards then
    (some this, (RegExpNode.set_replacement nodes this (some this)).2)
  else
    let counted := (List.range choice_count).foldl
      (ChoiceNode.FilterOneByte.count filter_below this)
      { nodes := nodes, surviving := 0, survivor := none }
    if counted.surviving < 2 then RegExpNode.set_replacement counted.nodes this counted.survivor
    else
      let nodes := (RegExpNode.set_replacement counted.nodes this (some this)).2
      if counted.surviving == choice_count then (some this, nodes)
      else
        let rebuilt := (List.range choice_count).foldl
          (ChoiceNode.FilterOneByte.rebuild filter_below this) (nodes, [])
        (some this,
          RegExpNode.modify rebuilt.1 this (fun node => { node with alternatives_ := rebuilt.2 }))

/-- The function `ChoiceNode::FilterOneByte(depth)`; `filter_below` is
`FilterOneByte(depth - 1)`. -/
def ChoiceNode.FilterOneByte
    (filter_below : List RegExpNode → Nat → Option Nat × List RegExpNode) (depth : Int)
    (nodes : List RegExpNode) (this : Nat) : Option Nat × List RegExpNode :=
  match nodes[this]? with
  | none => (none, nodes)
  | some node =>
    if node.info.replacement_calculated then (node.replacement_, nodes)
    else if depth < 0 then (some this, nodes)
    else if node.info.visited then (some this, nodes)
    else
      let nodes := VisitMarker.enter nodes this
      let (result, nodes) := ChoiceNode.FilterOneByte.marked filter_below nodes this
      (result, VisitMarker.exit nodes this)

/-- The function `LoopChoiceNode::FilterOneByte(depth)`; `filter_below` is
`FilterOneByte(depth - 1)` and `filter_below2` is `FilterOneByte(depth - 2)`,
which `ChoiceNode::FilterOneByte(depth - 1)` calls. -/
def LoopChoiceNode.FilterOneByte
    (filter_below filter_below2 : List RegExpNode → Nat → Option Nat × List RegExpNode)
    (depth : Int) (nodes : List RegExpNode) (this : Nat) : Option Nat × List RegExpNode :=
  match nodes[this]? with
  | none => (none, nodes)
  | some node =>
    if node.info.replacement_calculated then (node.replacement_, nodes)
    else if depth < 0 then (some this, nodes)
    else if node.info.visited then (some this, nodes)
    else
      let nodes := VisitMarker.enter nodes this
      let (continue_replacement, nodes) := filter_below nodes node.continue_node_
      match continue_replacement with
      | none =>
        let (result, nodes) := RegExpNode.set_replacement nodes this none
        (result, VisitMarker.exit nodes this)
      | some _ =>
        let nodes := VisitMarker.exit nodes this
        ChoiceNode.FilterOneByte filter_below2 (depth - 1) nodes this

/-- The function `NegativeLookaroundChoiceNode::FilterOneByte(depth)`;
`filter_below` is `FilterOneByte(depth - 1)`. -/
def NegativeLookaroundChoiceNode.FilterOneByte
    (filter_below : List RegExpNode → Nat → Option Nat × List RegExpNode) (depth : Int)
    (nodes : List RegExpNode) (this : Nat) : Option Nat × List RegExpNode :=
  match nodes[this]? with
  | none => (none, nodes)
  | some node =>
    if node.info.replacement_calculated then (node.replacement_, nodes)
    else if depth < 0 then (some this, nodes)
    else if node.info.visited then (some this, nodes)
    else
      let nodes := VisitMarker.enter nodes this
      let (result, nodes) :=
        match (ChoiceNode.alternatives nodes this)[1]? with
        | none => (none, nodes)
        | some alternative =>
          let (replacement, nodes) := filter_below nodes alternative.node
          match replacement with
          | none => RegExpNode.set_replacement nodes this none
          | some replacement =>
            let nodes := ChoiceNode.set_node nodes this 1 replacement
            match (ChoiceNode.alternatives nodes this)[0]? with
            | none => (none, nodes)
            | some neg_alternative =>
              let (neg_replacement, nodes) := filter_below nodes neg_alternative.node
              match neg_replacement with
              | none => RegExpNode.set_replacement nodes this (some replacement)
              | some neg_replacement =>
                let nodes := ChoiceNode.set_node nodes this 0 neg_replacement
                RegExpNode.set_replacement nodes this (some this)
      (result, VisitMarker.exit nodes this)

/-- The virtual call `node->FilterOneByte(depth)`, by the class of the node;
`filter_below` is `FilterOneByte(depth - 1)` and `filter_below2` is
`FilterOneByte(depth - 2)`. -/
def RegExpNode.FilterOneByte.dispatch
    (filter_below filter_below2 : List RegExpNode → Nat → Option Nat × List RegExpNode)
    (depth : Int) (nodes : List RegExpNode) (this : Nat) : Option Nat × List RegExpNode :=
  match nodes[this]? with
  | none => (none, nodes)
  | some node =>
    match node.type with
    | .EndNode => (some this, nodes)
    | .SeqRegExpNode => SeqRegExpNode.FilterOneByte filter_below2 depth nodes this
    | .TextNode => TextNode.FilterOneByte filter_below2 depth nodes this
    | .ChoiceNode => ChoiceNode.FilterOneByte filter_below depth nodes this
    | .LoopChoiceNode => LoopChoiceNode.FilterOneByte filter_below filter_below2 depth nodes this
    | .NegativeLookaroundChoiceNode =>
      NegativeLookaroundChoiceNode.FilterOneByte filter_below depth nodes this

/-- The recursion of `FilterOneByte`, on the number of levels that `depth`
leaves: none for a negative depth (the calls below are then never made), and
`depth + 1` otherwise. -/
def RegExpNode.FilterOneByte.levels :
    Nat → Int → List RegExpNode → Nat → Option Nat × List RegExpNode
  | 0, depth, nodes, this =>
    RegExpNode.FilterOneByte.dispatch (fun nodes id => (some id, nodes))
      (fun nodes id => (some id, nodes)) depth nodes this
  | 1, depth, nodes, this =>
    RegExpNode.FilterOneByte.dispatch (RegExpNode.FilterOneByte.levels 0 (depth - 1))
      (RegExpNode.FilterOneByte.levels 0 (depth - 2)) depth nodes this
  | n + 2, depth, nodes, this =>
    RegExpNode.FilterOneByte.dispatch (RegExpNode.FilterOneByte.levels (n + 1) (depth - 1))
      (RegExpNode.FilterOneByte.levels n (depth - 2)) depth nodes this

/-- The function `RegExpNode::FilterOneByte(depth)` of the node `this`: the
replacement it returns and the graph as it leaves it. -/
def RegExpNode.FilterOneByte (nodes : List RegExpNode) (this : Nat) (depth : Int) :
    Option Nat × List RegExpNode :=
  RegExpNode.FilterOneByte.levels (depth + 1).toNat depth nodes this

/-- The elements that the specification lists as matching no one-byte
code unit: a case-sensitive atom with a code unit above `0xFF`, a non-negated
class whose canonical range list is empty or starts above `0xFF`, a negated
class whose first canonical range covers `[0, 0xFF]`. -/
def TextElement.listedAsNonOneByte : TextElement → Bool
  | .ATOM data ignore_case => !ignore_case && data.any (fun c => decide (c > 0xFF))
  | .CHAR_CLASS ranges is_negated _ =>
    match CharacterRange.Canonicalize ranges with
    | [] => !is_negated
    | first :: _ =>
      if is_negated then first.from_ == 0 && decide (first.to_ ≥ 0xFF)
      else decide (first.from_ > 0xFF)

/-- The elements on account of which `TextNode::FilterOneByte` returns null:
an atom with a code unit above `0xFF` that, if the atom is ignore-case, is
none of `0x39C`, `0x3BC`, `0x178`; a class that is listed above and, if it is
ignore-case, has none of these three code units in its canonical ranges. -/
def TextElement.filtersToNull : TextElement → Bool
  | .ATOM data ignore_case =>
    data.any (fun c =>
      decide (c > 0xFF) && !(ignore_case && (c == 0x39C || c == 0x3BC || c == 0x178)))
  | .CHAR_CLASS ranges is_negated flags =>
    (TextElement.CHAR_CLASS ranges is_negated flags).listedAsNonOneByte &&
      !(IgnoreCase flags && RangesContainLatin1Equivalents (CharacterRange.Canonicalize ranges))

/-- A node with the given class and fields, not visited and without a
calculated replacement. -/
def RegExpNode.new (type : RegExpNode.Class) (on_success : Nat) (elements : List TextElement)
    (alternatives : List GuardedAlternative) : RegExpNode :=
  { type := type
    info := { visited := false, replacement_calculated := false }
    replacement_ := none
    on_success_ := on_success
    elements_ := elements
    alternatives_ := alternatives
    continue_node_ := 0 }

/-! ## The multiline `^` (`EmitHat`)

The code that `EmitHat` emits is a straight line of character tests with
forward jumps; it is given a meaning here by running it on a subject. -/

/-- The statements of `EmitHat` before `on_success->Emit(compiler,
&new_trace)`: the new trace and the emitter with the code added.
`special_class` tells whether the assembler's `CheckSpecialCharacterClass`
handles the class `'n'` (it then emits its own test and returns true). -/
def EmitHat.before (special_class : Bool) (trace : Trace) (st : Emitter) : Trace × Emitter :=
  let new_trace := trace.InvalidateCurrentCharacter
  let ok := Label.stack st.labels
  let st := { st with labels := st.labels + 1 }
  let st := if new_trace.cp_offset_ == 0 then st.emit (.CheckAtStart (some ok)) else st
  let st := st.emit (.LoadCurrentCharacter (new_trace.cp_offset_ - 1) new_trace.backtrack_ false)
  let st :=
    if special_class then st.emit (.CheckSpecialCharacterClass 110 new_trace.backtrack_)
    else
      let st :=
        if !st.compiler.one_byte_ then st.emit (.CheckCharacterAfterAnd 0x2028 0xFFFE (some ok))
        else st
      let st := st.emit (.CheckCharacter 10 (some ok))
      st.emit (.CheckNotCharacter 13 new_trace.backtrack_)
  (new_trace, st.emit (.Bind ok))

/-- The function `EmitHat(compiler, on_success, trace)`; `Emit` is the
virtual call `on_success->Emit`. -/
def EmitHat (special_class : Bool) (Emit : Trace → Emitter → Option Emitter) (trace : Trace)
    (st : Emitter) : Option Emitter :=
  let (new_trace, st) := EmitHat.before special_class trace st
  Emit new_trace st

/-- How a run of a piece of emitted code ends: control falls off its end
(into the code emitted next), it jumps to a label that is not bound in the
piece, it backtracks (a jump to the null label), or it meets an operation
that is given no meaning here. -/
inductive CodeOutcome where
  | fallThrough
  | jump (label : Label)
  | backtrack
  | unsupported
  deriving DecidableEq, Repr

/-- The outcome of a jump to `trace->backtrack()`: a backtrack for the null
label. -/
def CodeOutcome.goTo : Option Label → CodeOutcome
  | none => .backtrack
  | some label => .jump label

/-- The word characters: `0-9`, `A-Z`, `a-z` and `_`. -/
def IsWordCharacter (c : Nat) : Bool :=
  (decide (48 ≤ c) && decide (c ≤ 57)) || (decide (65 ≤ c) && decide (c ≤ 90)) ||
    (decide (97 ≤ c) && decide (c ≤ 122)) || decide (c = 95)

/-- Modelled from the spec: the meaning of the character tests of the
macro-assembler interface on a subject, at the current position `position`,
with `current` the current-character register. `check_at_start` jumps at
position 0; `load_current_character` loads the code unit at the offset from
the position, after a bounds check if asked for; `check_character` jumps on
equality, `check_not_character` on inequality and
`check_character_after_and` on equality after masking;
`CheckNotCharacterAfterAnd` jumps on inequality after masking, and
`CheckNotCharacterAfterMinusAnd` first subtracts a constant from the
character (on the 32-bit character register, so the difference wraps), then
masks and jumps on inequality. `GoTo` jumps always; `CheckCharacterGT` and
`CheckCharacterLT` jump when the character is above or below the limit,
`CheckCharacterInRange` and `CheckCharacterNotInRange` when it lies or does
not lie between the two bounds, and `CheckBitInTable` when the table entry
at the character masked with `kTableMask` is not zero;
`CheckSpecialCharacterClass`, where the assembler handles it, jumps when the
character does not match the class, for the classes `w` (the word
characters) and `W` (all others). `seeking` is the
label that a jump taken earlier is looking for: the operations up to its
`Bind` are skipped. -/
def AssemblerOp.run (subject : List Nat) (position : Int) :
    Option Label → Nat → List AssemblerOp → CodeOutcome
  | none, _, [] => .fallThrough
  | some target, _, [] => .jump target
  | some target, current, op :: rest =>
    if op = .Bind target then AssemblerOp.run subject position none current rest
    else AssemblerOp.run subject position (some target) current rest
  | none, current, op :: rest =>
    match op with
    | .Bind _ => AssemblerOp.run subject position none current rest
    | .CheckAtStart on_at_start =>
      if position = 0 then
        match on_at_start with
        | none => .backtrack
        | some label => AssemblerOp.run subject position (some label) current rest
      else AssemblerOp.run subject position none current rest
    | .LoadCurrentCharacter cp_offset on_end_of_input check_bounds =>
      if check_bounds && (decide (position + cp_offset < 0) ||
          decide (position + cp_offset ≥ subject.length)) then
        match on_end_of_input with
        | none => .backtrack
        | some label => AssemblerOp.run subject position (some label) current rest
      else
        AssemblerOp.run subject position none (subject.getD (position + cp_offset).toNat 0) rest
    | .CheckCharacter c on_equal =>
      if current = c then
        match on_equal with
        | none => .backtrack
        | some label => AssemblerOp.run subject position (some label) current rest
      else AssemblerOp.run subject position none current rest
    | .CheckNotCharacter c on_not_equal =>
      if current ≠ c then
        match on_not_equal with
        | none => .backtrack
        | some label => AssemblerOp.run subject position (some label) current rest
      else AssemblerOp.run subject position none current rest
    | .CheckCharacterAfterAnd c and_with on_equal =>
      if current &&& and_with = c then
        match on_equal with
        | none => .backtrack
        | some label => AssemblerOp.run subject position (some label) current rest
      else AssemblerOp.run subject position none current rest
    | .CheckNotCharacterAfterAnd c and_with on_not_equal =>
      if current &&& and_with ≠ c then
        match on_not_equal with
        | none => .backtrack
        | some label => AssemblerOp.run subject position (some label) current rest
      else AssemblerOp.run subject position none current rest
    | .CheckNotCharacterAfterMinusAnd c minus and_with on_not_equal =>
      if u32 (current + (2 ^ 32 - u32 minus)) &&& and_with ≠ c then
        match on_not_equal with
        | none => .backtrack
        | some label => AssemblerOp.run subject position (some label) current rest
      else AssemblerOp.run subject position none current rest
    | .GoTo target =>
      match target with
      | none => .backtrack
      | some label => AssemblerOp.run subject position (some label) current rest
    | .CheckSpecialCharacterClass type on_no_match =>
      if type = 119 then
        if IsWordCharacter current then AssemblerOp.run subject position none current rest
        else
          match on_no_match with
          | none => .backtrack
          | some label => AssemblerOp.run subject position (some label) current rest
      else if type = 87 then
        if IsWordCharacter current then
          match on_no_match with
          | none => .backtrack
          | some label => AssemblerOp.run subject position (some label) current rest
        else AssemblerOp.run subject position none current rest
      else .unsupported
    | .CheckCharacterGT limit on_greater =>
      if current > limit then
        match on_greater with
        | none => .backtrack
        | some label => AssemblerOp.run subject position (some label) current rest
      else AssemblerOp.run subject position none current rest
    | .CheckCharacterLT limit on_less =>
      if current < limit then
        match on_less with
        | none => .backtrack
        | some label => AssemblerOp.run subject position (some label) current rest
      else AssemblerOp.run subject position none current rest
    | .CheckCharacterInRange from_ to_ on_in_range =>
      if from_ ≤ current ∧ current ≤ to_ then
        match on_in_range with
        | none => .backtrack
        | some label => AssemblerOp.run subject position (some label) current rest
      else AssemblerOp.run subject position none current rest
    | .CheckCharacterNotInRange from_ to_ on_not_in_range =>
      if ¬ (from_ ≤ current ∧ current ≤ to_) then
        match on_not_in_range with
        | none => .backtrack
        | some label => AssemblerOp.run subject position (some label) current rest
      else AssemblerOp.run subject position none current rest
    | .CheckBitInTable table on_bit_set =>
      if table.getD (current &&& RegExpMacroAssembler.kTableMask) 0 ≠ 0 then
        match on_bit_set with
        | none => .backtrack
        | some label => AssemblerOp.run subject position (some label) current rest
      else AssemblerOp.run subject position none current rest
    | _ => .unsupported

/-- The classes whose `FilterOneByte` returns at once for a node that is
marked visited (or, for `EndNode`, always): the choice nodes. -/
def RegExpNode.Class.checksVisited : RegExpNode.Class → Bool
  | .SeqRegExpNode => false
  | .TextNode => false
  | _ => true

/-- A filter function leaves alone every visited node of a class that checks
the mark. -/
def RegExpNode.FilterOneByte.Keeps (this : Nat)
    (filter : List RegExpNode → Nat → Option Nat × List RegExpNode) : Prop :=
  ∀ (nodes : List RegExpNode) (id : Nat) (node : RegExpNode),
    nodes[this]? = some node → node.info.visited = true → node.type.checksVisited = true →
    (filter nodes id).2[this]? = some node

/-- What the nodes of the given alternatives filter to, one after the other,
`i` being the index of the first of them in the alternative list of `this`:
the results in order (`none` for null), and the graph as the filtering leaves
it, each alternative whose node filters to non-null being redirected to the
replacement before the next one is filtered. -/
def ChoiceNode.FilterOneByte.filtered
    (filter_below : List RegExpNode → Nat → Option Nat × List RegExpNode) (this : Nat) :
    List GuardedAlternative → Nat → List RegExpNode → List (Option Nat) × List RegExpNode
  | [], _, nodes => ([], nodes)
  | alternative :: rest, i, nodes =>
    let first := filter_below nodes alternative.node
    let nodes :=
      match first.1 with
      | some replacement => ChoiceNode.set_node first.2 this i replacement
      | none => first.2
    let others := ChoiceNode.FilterOneByte.filtered filter_below this rest (i + 1) nodes
    (first.1 :: others.1, others.2)

/-- An alternative redirected to the replacement of its node, if there is
one. -/
def GuardedAlternative.redirect (alternative : GuardedAlternative) (replacement : Option Nat) :
    GuardedAlternative :=
  match replacement with
  | some replacement => { alternative with node := replacement }
  | none => alternative

/-- The order-preserving sub-list of the alternatives whose node has a
replacement, each redirected to it. -/
def ChoiceNode.FilterOneByte.survivors (alternatives : List GuardedAlternative)
    (replacements : List (Option Nat)) : List GuardedAlternative :=
  (alternatives.zip replacements).filterMap
    (fun p => p.2.map (fun replacement => { p.1 with node := replacement }))

/-- The node `this` is in the graph, is marked visited, is of a class that
checks the mark, and has the given alternative list. -/
def ChoiceNode.FilterOneByte.Marked (nodes : List RegExpNode) (this : Nat)
    (alternatives : List GuardedAlternative) : Prop :=
  ∃ node, nodes[this]? = some node ∧ node.info.visited = true ∧
    node.type.checksVisited = true ∧ node.alternatives_ = alternatives

/-- The value of `survivor` after the first loop, from its value before and
the results of the filtering. -/
def ChoiceNode.FilterOneByte.lastSurvivor (survivor : Option Nat) :
    List (Option Nat) → Option Nat
  | [] => survivor
  | some replacement :: rest => ChoiceNode.FilterOneByte.lastSurvivor (some replacement) rest
  | none :: rest => ChoiceNode.FilterOneByte.lastSurvivor survivor rest

/-- A graph for the filter: node 0 is an end node; node 1 is a choice between
the nodes 2, 4 and 5; node 2 is a choice with the single alternative 3; the
nodes 3 and 5 are text nodes with the atom `0x100`, node 4 is the text node
with the atom `a`; every text node is followed by node 0. -/
def RegExpNode.FilterOneByte.nestedChoice : List RegExpNode :=
  [RegExpNode.new .EndNode 0 [] [],
    RegExpNode.new .ChoiceNode 0 []
      [{ node := 2, guards := none }, { node := 4, guards := none },
        { node := 5, guards := none }],
    RegExpNode.new .ChoiceNode 0 [] [{ node := 3, guards := none }],
    RegExpNode.new .TextNode 0 [.ATOM [0x100] false] [],
    RegExpNode.new .TextNode 0 [.ATOM [0x61] false] [],
    RegExpNode.new .TextNode 0 [.ATOM [0x100] false] []]

/-- A graph for the filter: node 0 is a choice with the single alternative 1;
node 1 is a text node whose replacement has been calculated as null. -/
def RegExpNode.FilterOneByte.calculatedNull : List RegExpNode :=
  [RegExpNode.new .ChoiceNode 0 [] [{ node := 1, guards := none }],
    { RegExpNode.new .TextNode 0 [.ATOM [0x100] false] [] with
      info := { visited := false, replacement_calculated := true }
      replacement_ := none }]

/-! ## Results cache: a bucket with both slots occupied -/

/-- The body of the loop of `QuickCheckDetails::Merge` for one index, on the
position `pos` of the receiver and the position `other_pos` of `other`; both
are written (`other_pos->value &= pos->mask`).  The local `differing_bits`
is a `uc16`, and `~differing_bits` is taken after the promotion to `int`, so
it keeps every bit from 16 upwards of the 32-bit mask. -/
def QuickCheckDetails.Merge.step (pos other_pos : QuickCheckDetails.Position) :
    QuickCheckDetails.Position × QuickCheckDetails.Position :=
  let determines_perfectly :=
    if pos.mask ≠ other_pos.mask ∨ pos.value ≠ other_pos.value ∨
        other_pos.determines_perfectly = false then false
    else pos.determines_perfectly
  let mask := pos.mask &&& other_pos.mask
  let value := pos.value &&& mask
  let other_value := other_pos.value &&& mask
  let differing_bits := toUc16 (value ^^^ other_value)
  let mask := mask &&& not32 differing_bits
  let value := value &&& mask
  ({ mask := mask, value := value, determines_perfectly := determines_perfectly },
    { other_pos with value := other_value })

/-- One iteration of the loop of `QuickCheckDetails::Merge`: the positions at
index `i` of both details are replaced. -/
def QuickCheckDetails.Merge.iteration (acc : QuickCheckDetails × QuickCheckDetails) (i : Nat) :
    QuickCheckDetails × QuickCheckDetails :=
  let r := QuickCheckDetails.Merge.step
    (acc.1.positions_.getD i QuickCheckDetails.Position.zero)
    (acc.2.positions_.getD i QuickCheckDetails.Position.zero)
  ({ acc.1 with positions_ := acc.1.positions_.set i r.1 },
    { acc.2 with positions_ := acc.2.positions_.set i r.2 })

/-- The function `QuickCheckDetails::Merge(other, from_index)`; the result is
the receiver and `other` afterwards.  The loop runs over the indices
`from_index <= i < characters_` (the source asserts that they are indices of
the position array). -/
def QuickCheckDetails.Merge (this other : QuickCheckDetails) (from_index : Int) :
    QuickCheckDetails × QuickCheckDetails :=
  if other.cannot_match_ then (this, other)
  else if this.cannot_match_ then (other, other)
  else
    ((List.range this.characters_.toNat).filter
        (fun (i : Nat) => decide (from_index ≤ (i : Int)))).foldl
      QuickCheckDetails.Merge.iteration (this, other)

/-- Quick-check details of two characters for the one-byte class `[a-d]`
followed by the character `x`. -/
def QuickCheckDetails.exampleLeft : QuickCheckDetails :=
  { characters_ := 2
    positions_ :=
      [{ mask := 0xFFFFFFF8, value := 0x60, determines_perfectly := false },
       { mask := 0xFF, value := 0x78, determines_perfectly := true },
       QuickCheckDetails.Position.zero, QuickCheckDetails.Position.zero]
    mask_ := 0
    value_ := 0
    cannot_match_ := false }

/-- Quick-check details of two characters for the character `q` followed by
the character `x`. -/
def QuickCheckDetails.exampleRight : QuickCheckDetails :=
  { characters_ := 2
    positions_ :=
      [{ mask := 0xFF, value := 0x71, determines_perfectly := true },
       { mask := 0xFF, value := 0x78, determines_perfectly := true },
       QuickCheckDetails.Position.zero, QuickCheckDetails.Position.zero]
    mask_ := 0
    value_ := 0
    cannot_match_ := false }

/-! ## Quick-check details of an atom character (`TextNode::GetQuickCheckDetails`) -/

/-- The body of the loop `for (int j = 1; j < length; j++)` over the case
variants of an atom character: `common_bits` and `bits` are updated with the
letter `chars[j]` (a `unibrow::uchar`, 32 bits). -/
def TextNode.mergeLetter (acc : Nat × Nat) (letter : Nat) : Nat × Nat :=
  let common_bits := acc.1
  let bits := acc.2
  let differing_bits := (u32 letter &&& common_bits) ^^^ bits
  let common_bits := common_bits ^^^ differing_bits
  let bits := bits &&& common_bits
  (common_bits, bits)

/-- The atom branch of `TextNode::GetQuickCheckDetails` for one character `c`
of the atom and the position `pos` it fills in.  The list `chars` holds the
letters that `GetCaseIndependentLetters(isolate, c, one_byte, chars, 4)`
stores, its length is the returned count: the case tables behind that
function are not part of the sources, so its answer is a parameter.  The
`- 1` of the test for a single zero bit is on `uint32_t` and wraps. -/
def TextNode.GetQuickCheckDetails_atom (one_byte : Bool) (ignore_case : Bool)
    (chars : List Nat) (c : Nat) (pos : QuickCheckDetails.Position) : TextNode.ClassResult :=
  let char_mask := TextNode.char_mask one_byte
  if ignore_case then
    match chars with
    | [] => { pos := { pos with determines_perfectly := false }, cannot_match := true }
    | [_] =>
      { pos := { mask := char_mask, value := c, determines_perfectly := true },
        cannot_match := false }
    | first :: second :: rest =>
      let acc := (second :: rest).foldl TextNode.mergeLetter (char_mask, u32 first)
      let one_zero := acc.1 ||| not32 char_mask
      let perfect :=
        if chars.length = 2 ∧ not32 one_zero &&& u32 (not32 one_zero + (2 ^ 32 - 1)) = 0
        then true else pos.determines_perfectly
      { pos := { mask := acc.1, value := acc.2, determines_perfectly := perfect },
        cannot_match := false }
  else if c > char_mask then
    { pos := { pos with determines_perfectly := false }, cannot_match := true }
  else
    { pos := { mask := char_mask, value := c, determines_perfectly := true },
      cannot_match := false }

/-! ## Undo information of the deferred actions -/

/-- The registers of the `PushRegister` operations of a code sequence, in
emission order. -/
def MacroOp.pushed (ops : List MacroOp) : List Int :=
  ops.filterMap (fun op =>
    match op with
    | .PushRegister reg _ => some reg
    | _ => none)

/-- The stack-check flags of the `PushRegister` operations of a code
sequence, in emission order. -/
def MacroOp.pushFlags (ops : List MacroOp) : List RegExpMacroAssembler.StackCheckFlag :=
  ops.filterMap (fun op =>
    match op with
    | .PushRegister _ check_stack_limit => some check_stack_limit
    | _ => none)

/-- The registers of the `PopRegister` operations of a code sequence, in
emission order. -/
def MacroOp.popped (ops : List MacroOp) : List Int :=
  ops.filterMap (fun op =>
    match op with
    | .PopRegister reg => some reg
    | _ => none)

/-- The chronologically oldest deferred action that mentions a register: the
last one in the list `actions_`, which is newest first. -/
def Trace.oldestMention (actions : List Trace.DeferredAction) (reg : Int) :
    Option Trace.DeferredAction :=
  (actions.filter (fun a => a.Mentions reg)).getLast?

/-- The undo kind that the specification assigns to a register from the
oldest deferred action that mentions it: `RESTORE` for `SET_REGISTER`,
`INCREMENT_REGISTER` and `CLEAR_CAPTURES`; for `STORE_POSITION`, `IGNORE` on
the registers 0 and 1, `CLEAR` for a capture store on another register and
`RESTORE` for a store that is not a capture. -/
def Trace.undoOfOldest (reg : Nat) : Trace.DeferredAction → Trace.DeferredActionUndoType
  | .DeferredSetRegister _ _ => .RESTORE
  | .DeferredIncrementRegister _ => .RESTORE
  | .DeferredClearCaptures _ => .RESTORE
  | .DeferredCapture _ is_capture _ =>
    if reg = 0 ∨ reg = 1 then .IGNORE else if is_capture then .CLEAR else .RESTORE

/-- A trace's deferred actions for the witnesses, newest first: a store of
the position into the capture register 2, an increment of the counter
register 4, a store into register 0, a set of register 5, a store into the
capture register 6, and a clear of the captures 2 to 3 as the oldest
action. -/
def Trace.exampleActions : List Trace.DeferredAction :=
  [.DeferredCapture 2 true 1, .DeferredIncrementRegister 4, .DeferredCapture 0 true 0,
   .DeferredSetRegister 5 7, .DeferredCapture 6 true 0,
   .DeferredClearCaptures { from_ := 2, to_ := 3 }]

/-! ## A trace to flush -/

/-- A trace with the example actions, a backtrack label and a position
offset of 2. -/
def Trace.exampleTrace : Trace :=
  { Trace.new with
    actions_ := Trace.exampleActions
    backtrack_ := some (Label.node 3)
    cp_offset_ := 2 }

/-! ## The empty-match check (`ActionNode::Emit`, `EMPTY_MATCH_CHECK`) -/

/-- The function `Trace::GetStoredPosition`: the result is `some cp_offset`
when the function returns true and stores the offset, `none` when it returns
false (the output parameter keeps its value then).  The scan stops at the
newest action that mentions the register. -/
def Trace.GetStoredPosition (actions : List Trace.DeferredAction) (reg : Int) : Option Int :=
  match actions with
  | [] => none
  | action :: rest =>
    if action.Mentions reg then
      match action with
      | .DeferredCapture _ _ cp_offset => some cp_offset
      | _ => none
    else Trace.GetStoredPosition rest reg

/-- The member `data_.u_empty_match_check` of an `ActionNode` of type
`EMPTY_MATCH_CHECK`. -/
structure ActionNode.EmptyMatchCheck where
  start_register : Int
  repetition_register : Int
  repetition_limit : Int
  deriving DecidableEq, Repr

/-- The case `EMPTY_MATCH_CHECK` of the `switch` of `ActionNode::Emit`.
`Emit` is the virtual call `on_success()->Emit(compiler, trace)` and `Flush`
the call `trace->Flush(compiler, this)`; the local label `skip_empty_check`
is a fresh label of the emitter. -/
def ActionNode.Emit_EMPTY_MATCH_CHECK (Emit Flush : Trace → Emitter → Option Emitter)
    (data : ActionNode.EmptyMatchCheck) (trace : Trace) (st : Emitter) : Option Emitter :=
  let start_pos_reg := data.start_register
  let rep_reg := data.repetition_register
  let has_minimum := decide (rep_reg ≠ RegExpCompiler.kNoRegister)
  let know_dist := Trace.GetStoredPosition trace.actions_ start_pos_reg
  let stored_pos := know_dist.getD 0
  if know_dist.isSome && !has_minimum && decide (stored_pos = trace.cp_offset_) then
    some (st.emit (.GoTo trace.backtrack_))
  else if know_dist.isSome && decide (stored_pos < trace.cp_offset_) then
    Emit trace st
  else if !trace.is_trivial then
    Flush trace st
  else
    let skip_empty_check := Label.stack st.labels
    let st := { st with labels := st.labels + 1 }
    let st :=
      if has_minimum then
        st.emit (.IfRegisterLT rep_reg data.repetition_limit skip_empty_check)
      else st
    let st := st.emit (.IfRegisterEqPos data.start_register trace.backtrack_)
    let st := st.emit (.Bind skip_empty_check)
    Emit trace st

/-- Modelled from the spec: the meaning of the register tests of the
macro-assembler interface on a register file, at the current position
`position`. `if_register_lt` jumps when the register is below the
comparand, `if_register_eq_position` jumps when the register equals the
current position (to the null label: a backtrack). `seeking` is the label
that a jump taken earlier is looking for: the operations up to its `Bind`
are skipped. Other operations are given no meaning here. -/
def AssemblerOp.runRegisterTests (registers : Int → Int) (position : Int) :
    Option Label → List AssemblerOp → CodeOutcome
  | none, [] => .fallThrough
  | some target, [] => .jump target
  | some target, op :: rest =>
    if op = .Bind target then AssemblerOp.runRegisterTests registers position none rest
    else AssemblerOp.runRegisterTests registers position (some target) rest
  | none, op :: rest =>
    match op with
    | .Bind _ => AssemblerOp.runRegisterTests registers position none rest
    | .IfRegisterLT register comparand if_lt =>
      if registers register < comparand then
        AssemblerOp.runRegisterTests registers position (some if_lt) rest
      else AssemblerOp.runRegisterTests registers position none rest
    | .IfRegisterEqPos register if_eq =>
      if registers register = position then
        match if_eq with
        | none => .backtrack
        | some label => AssemblerOp.runRegisterTests registers position (some label) rest
      else AssemblerOp.runRegisterTests registers position none rest
    | _ => .unsupported

/-! ## One comparison for a pair of characters (`ShortCutEmitCharacterPair`) -/

/-- The function `ShortCutEmitCharacterPair`: the result is the returned flag
and the emitter.  The parameters `c1` and `c2` and the locals `exor`, `mask`
and `diff` are `uc16`; the tests `((exor - 1) & exor) == 0` and
`((diff - 1) & diff) == 0` are on `int`, where `0 - 1` is `-1` and
`-1 & 0` is `0`, which is also what the subtraction on natural numbers
gives. -/
def ShortCutEmitCharacterPair (one_byte : Bool) (c1 c2 : Nat) (on_failure : Option Label)
    (st : Emitter) : Bool × Emitter :=
  let c1 := toUc16 c1
  let c2 := toUc16 c2
  let char_mask :=
    if one_byte then String.kMaxOneByteCharCode else String.kMaxUtf16CodeUnit
  let exor := toUc16 (c1 ^^^ c2)
  if (exor - 1) &&& exor = 0 then
    let mask := toUc16 (char_mask ^^^ exor)
    (true, st.emit (.CheckNotCharacterAfterAnd c1 mask on_failure))
  else
    let diff := toUc16 (c2 + (2 ^ 16 - c1))
    if (diff - 1) &&& diff = 0 ∧ c1 ≥ diff then
      let mask := toUc16 (char_mask ^^^ diff)
      (true, st.emit
        (.CheckNotCharacterAfterMinusAnd (toUc16 (c1 + (2 ^ 16 - diff))) diff mask on_failure))
    else (false, st)

/-! ## The containment lattice of a position info (AddRange, SetInterval) -/

/-- The function `AddRange`, inside its loop: `rest` holds the boundaries
`ranges[i..]` still to visit, `inside` and `last` are the loop variables of
the source. `Combine` is declared in the header, outside the sources at
hand, and is a parameter here. -/
def AddRange.loop (Combine : ContainedInLattice → ContainedInLattice → ContainedInLattice)
    (containment : ContainedInLattice) (new_range : Interval) :
    List Int → Bool → Int → ContainedInLattice
  | [], _, _ => containment
  | r :: rest, inside, last =>
    if r ≤ new_range.from_ then AddRange.loop Combine containment new_range rest (!inside) r
    else if last ≤ new_range.from_ ∧ new_range.to_ < r then
      Combine containment (if inside then .kLatticeIn else .kLatticeOut)
    else .kLatticeUnknown

/-- The function `AddRange(containment, ranges, ranges_length, new_range)`;
the list `ranges` stands for the array together with its length. -/
def AddRange (Combine : ContainedInLattice → ContainedInLattice → ContainedInLattice)
    (containment : ContainedInLattice) (ranges : List Int) (new_range : Interval) :
    ContainedInLattice :=
  if containment = .kLatticeUnknown then containment
  else AddRange.loop Combine containment new_range ranges false 0

/-- The class that an array of boundaries stands for: the code points of the
half-open intervals `[ranges[2k], ranges[2k + 1])`. -/
def RangeBoundaries.contains : List Int → Int → Bool
  | lo :: hi :: rest, c => (decide (lo ≤ c) && decide (c < hi)) || RangeBoundaries.contains rest c
  | _, _ => false

/-- An interval straddles a boundary of the class when the boundary lies
above its first and not above its last code point. -/
def RangeBoundaries.straddled (ranges : List Int) (new_range : Interval) : Bool :=
  ranges.any (fun b => decide (new_range.from_ < b) && decide (b ≤ new_range.to_))

/-- One way to combine two lattice values: the join in which `kNotYet` is
least and `kLatticeUnknown` is greatest. -/
def ContainedInLattice.join : ContainedInLattice → ContainedInLattice → ContainedInLattice
  | .kNotYet, b => b
  | a, .kNotYet => a
  | .kLatticeIn, .kLatticeIn => .kLatticeIn
  | .kLatticeOut, .kLatticeOut => .kLatticeOut
  | _, _ => .kLatticeUnknown

/-- The boundaries of the word characters `0-9`, `A-Z`, `_` and `a-z`, ended
by `0x110000`. -/
def RangeBoundaries.exampleWord : List Int :=
  [48, 58, 65, 91, 95, 96, 97, 123, 0x110000]

/-! ## Setting an interval of a position info (BoyerMoorePositionInfo::SetInterval) -/

/-- The constant `BoyerMoorePositionInfo::kMapSize`. -/
def BoyerMoorePositionInfo.kMapSize : Nat := 128

/-- The constant `BoyerMoorePositionInfo::kMask`. -/
def BoyerMoorePositionInfo.kMask : Int := 127

/-- The boundary arrays `kSpaceRanges`, `kWordRanges`, `kDigitRanges` and
`kSurrogateRanges` (each with its length). They are declared outside the
sources at hand and are parameters of `SetInterval`. -/
structure BoyerMoorePositionInfo.ClassRanges where
  kSpaceRanges : List Int
  kWordRanges : List Int
  kDigitRanges : List Int
  kSurrogateRanges : List Int
  deriving DecidableEq, Repr

/-- The loop `for (int i = interval.from(); i <= interval.to(); i++)` of
`SetInterval`, over the values of `i` still to visit, with the map and
`map_count_`. The loop is left when `map_count_` reaches `kMapSize`. -/
def BoyerMoorePositionInfo.SetInterval.loop : List Int → List Bool → Nat → List Bool × Nat
  | [], map, map_count => (map, map_count)
  | i :: rest, map, map_count =>
    let mod_character := (Int.land i BoyerMoorePositionInfo.kMask).toNat
    let (map, map_count) :=
      if !map.getD mod_character false then (map.set mod_character true, map_count + 1)
      else (map, map_count)
    if map_count = BoyerMoorePositionInfo.kMapSize then (map, map_count)
    else BoyerMoorePositionInfo.SetInterval.loop rest map map_count

/-- The values `from, from + 1, .., to` that the loop variable of
`SetInterval` takes. -/
def Interval.values (interval : Interval) : List Int :=
  (List.range (interval.to_ - interval.from_ + 1).toNat).map (fun (k : Nat) => interval.from_ + k)

/-- The function `BoyerMoorePositionInfo::SetInterval(interval)`. -/
def BoyerMoorePositionInfo.SetInterval (k : BoyerMoorePositionInfo.ClassRanges)
    (Combine : ContainedInLattice → ContainedInLattice → ContainedInLattice)
    (info : BoyerMoorePositionInfo) (interval : Interval) : BoyerMoorePositionInfo :=
  let info := { info with
    s_ := AddRange Combine info.s_ k.kSpaceRanges interval
    w_ := AddRange Combine info.w_ k.kWordRanges interval
    d_ := AddRange Combine info.d_ k.kDigitRanges interval
    surrogate_ := AddRange Combine info.surrogate_ k.kSurrogateRanges interval }
  if interval.to_ - interval.from_ ≥ (BoyerMoorePositionInfo.kMapSize : Int) - 1 then
    if info.map_count_ ≠ BoyerMoorePositionInfo.kMapSize then
      { info with
        map_count_ := BoyerMoorePositionInfo.kMapSize
        map_ := (List.range BoyerMoorePositionInfo.kMapSize).foldl
          (fun map i => map.set i true) info.map_ }
    else info
  else
    let (map, map_count) :=
      BoyerMoorePositionInfo.SetInterval.loop interval.values info.map_ info.map_count_
    { info with map_ := map, map_count_ := map_count }

/-- The function `BoyerMoorePositionInfo::Set(character)`. -/
def BoyerMoorePositionInfo.Set (k : BoyerMoorePositionInfo.ClassRanges)
    (Combine : ContainedInLattice → ContainedInLattice → ContainedInLattice)
    (info : BoyerMoorePositionInfo) (character : Int) : BoyerMoorePositionInfo :=
  BoyerMoorePositionInfo.SetInterval k Combine info ⟨character, character⟩

/-- Boundary arrays of four classes for examples: white space of Latin-1,
word characters, digits and surrogates. -/
def BoyerMoorePositionInfo.ClassRanges.exampleRanges : BoyerMoorePositionInfo.ClassRanges :=
  { kSpaceRanges := [9, 14, 32, 33, 0xA0, 0xA1, 0x110000]
    kWordRanges := RangeBoundaries.exampleWord
    kDigitRanges := [48, 58, 0x110000]
    kSurrogateRanges := [0xD800, 0xE000, 0x110000] }

/-! ## The combined mask and value of a quick check (QuickCheckDetails::Rationalize) -/

/-- The loop of `QuickCheckDetails::Rationalize` over the positions still to
visit, with `found_useful_op`, the 32-bit fields `mask_` and `value_`, and
`char_shift`. -/
def QuickCheckDetails.Rationalize.loop (asc : Bool) (char_mask : Nat) :
    List QuickCheckDetails.Position → Bool → Nat → Nat → Nat → Bool × Nat × Nat
  | [], found_useful_op, mask_, value_, _ => (found_useful_op, mask_, value_)
  | pos :: rest, found_useful_op, mask_, value_, char_shift =>
    let found_useful_op :=
      if pos.mask &&& String.kMaxOneByteCharCode ≠ 0 then true else found_useful_op
    let mask_ := u32 (mask_ ||| u32 ((pos.mask &&& char_mask) <<< char_shift))
    let value_ := u32 (value_ ||| u32 ((pos.value &&& char_mask) <<< char_shift))
    QuickCheckDetails.Rationalize.loop asc char_mask rest found_useful_op mask_ value_
      (char_shift + (if asc then 8 else 16))

/-- The function `QuickCheckDetails::Rationalize(asc)`: the result, and the
details with the combined `mask_` and `value_`. The loop visits the positions
`0 .. characters_ - 1`. -/
def QuickCheckDetails.Rationalize (d : QuickCheckDetails) (asc : Bool) :
    Bool × QuickCheckDetails :=
  let char_mask := if asc then String.kMaxOneByteCharCode else String.kMaxUtf16CodeUnit
  let (found_useful_op, mask_, value_) :=
    QuickCheckDetails.Rationalize.loop asc char_mask (d.positions_.take d.characters_.toNat)
      false 0 0 0
  (found_useful_op, { d with mask_ := mask_, value_ := value_ })

/-- A word that packs the given code units at `bits` bits each, the first
one lowest. -/
def packWord (bits : Nat) : List Nat → Nat
  | [] => 0
  | c :: rest => c + 2 ^ bits * packWord bits rest

/-! ## The inverse of a class in the dispatch table (DispatchTableConstructor::AddInverse) -/

/-- The order that `CompareRangeByFrom` sorts by: it compares the `from` of
two ranges as `uc16` values (`Compare<uc16>`). -/
def CompareRangeByFrom (a b : CharacterRange) : Prop :=
  toUc16 a.from_ ≤ toUc16 b.from_

instance CompareRangeByFrom.decidable : DecidableRel CompareRangeByFrom :=
  fun a b => inferInstanceAs (Decidable (toUc16 a.from_ ≤ toUc16 b.from_))

/-- The loop of `AddInverse` over the sorted ranges still to visit, with the
`uc16` variable `last` and the ranges passed to `AddRange` so far. -/
def DispatchTableConstructor.AddInverse.loop :
    List CharacterRange → Nat → List CharacterRange → List CharacterRange
  | [], last, added => added ++ [{ from_ := last, to_ := String.kMaxCodePoint }]
  | range :: rest, last, added =>
    let added :=
      if last < range.from_ then added ++ [{ from_ := last, to_ := range.from_ - 1 }] else added
    if range.to_ ≥ last then
      if range.to_ = String.kMaxCodePoint then added
      else DispatchTableConstructor.AddInverse.loop rest (toUc16 (range.to_ + 1)) added
    else DispatchTableConstructor.AddInverse.loop rest last added

/-- The function `DispatchTableConstructor::AddInverse(ranges)`: the ranges
that it passes to `AddRange`, in the order of the calls. `Sort` is declared
outside the sources at hand; an insertion sort by `CompareRangeByFrom`
stands for it. -/
def DispatchTableConstructor.AddInverse (ranges : List CharacterRange) : List CharacterRange :=
  DispatchTableConstructor.AddInverse.loop (ranges.insertionSort CompareRangeByFrom) 0 []

/-- The code points that a list of ranges covers. -/
def CharacterRange.covers (ranges : List CharacterRange) (c : Nat) : Bool :=
  ranges.any (fun r => r.Contains c)

/-! ## The test for a word character (EmitWordCheck) -/

/-- The function `EmitWordCheck(assembler, word, non_word,
fall_through_on_word)`. `special_class` tells whether the assembler's
`CheckSpecialCharacterClass` handles the class (it then emits its own test
and returns true). -/
def EmitWordCheck (special_class : Bool) (word non_word : Option Label)
    (fall_through_on_word : Bool) (st : Emitter) : Emitter :=
  if special_class then
    st.emit (.CheckSpecialCharacterClass (if fall_through_on_word then 119 else 87)
      (if fall_through_on_word then non_word else word))
  else
    let st := st.emit (.CheckCharacterGT 122 non_word)
    let st := st.emit (.CheckCharacterLT 48 non_word)
    let st := st.emit (.CheckCharacterGT (97 - 1) word)
    let st := st.emit (.CheckCharacterLT (57 + 1) word)
    let st := st.emit (.CheckCharacterLT 65 non_word)
    let st := st.emit (.CheckCharacterLT (90 + 1) word)
    if fall_through_on_word then st.emit (.CheckNotCharacter 95 non_word)
    else st.emit (.CheckCharacter 95 word)

/-- The operations that `EmitWordCheck` emits when the assembler has no
special check for the class. -/
def EmitWordCheck.comparisons (word non_word : Option Label) (fall_through_on_word : Bool) :
    List AssemblerOp :=
  [.CheckCharacterGT 122 non_word, .CheckCharacterLT 48 non_word, .CheckCharacterGT 96 word,
    .CheckCharacterLT 58 word, .CheckCharacterLT 65 non_word, .CheckCharacterLT 91 word,
    if fall_through_on_word then .CheckNotCharacter 95 non_word else .CheckCharacter 95 word]

/-! ## The passes over the characters of an atom (TextNode::TextEmitPass) -/

/-- The passes of `TextNode::TextEmitPass` (the enumeration
`TextEmitPassType`). -/
inductive TextNode.TextEmitPassType where
  | NON_LATIN1_MATCH
  | SIMPLE_CHARACTER_MATCH
  | NON_LETTER_CHARACTER_MATCH
  | CASE_CHARACTER_MATCH
  | CHARACTER_CLASS_MATCH
  deriving DecidableEq, Repr

/-- The function `TextNode::SkipPass(pass, ignore_case)`. -/
def TextNode.SkipPass (pass : TextNode.TextEmitPassType) (ignore_case : Bool) : Bool :=
  if ignore_case then decide (pass = .SIMPLE_CHARACTER_MATCH)
  else decide (pass = .NON_LETTER_CHARACTER_MATCH) || decide (pass = .CASE_CHARACTER_MATCH)

/-- The function `DeterminedAlready(quick_check, offset)`; a null
`quick_check` is `none`. -/
def DeterminedAlready (quick_check : Option QuickCheckDetails) (offset : Int) : Bool :=
  match quick_check with
  | none => false
  | some details =>
    if offset ≥ details.characters_ then false
    else (details.positions_.getD offset.toNat QuickCheckDetails.Position.zero).determines_perfectly

/-- The function `UpdateBoundsCheck(index, checked_up_to)`: the new value of
`*checked_up_to`. -/
def UpdateBoundsCheck (index : Int) (checked_up_to : Int) : Int :=
  if index > checked_up_to then index else checked_up_to

/-- The function `EmitSimpleCharacter`: the result and the emitter. -/
def EmitSimpleCharacter (c : Nat) (on_failure : Option Label) (cp_offset : Int)
    (check preloaded : Bool) (st : Emitter) : Bool × Emitter :=
  let (bound_checked, st) :=
    if !preloaded then (true, st.emit (.LoadCurrentCharacter cp_offset on_failure check))
    else (false, st)
  (bound_checked, st.emit (.CheckNotCharacter c on_failure))

/-- The function `EmitAtomNonLetter`: the result and the emitter.
`GetCaseIndependentLetters` gives the letters found for a character and
`one_byte_subject`; it rests on tables outside the sources at hand and is a
parameter. -/
def EmitAtomNonLetter (GetCaseIndependentLetters : Nat → Bool → List Nat) (c : Nat)
    (on_failure : Option Label) (cp_offset : Int) (check preloaded : Bool) (st : Emitter) :
    Bool × Emitter :=
  let one_byte := st.compiler.one_byte_
  let chars := GetCaseIndependentLetters c one_byte
  let length := chars.length
  if length < 1 then (false, st)
  else if length = 1 then
    if one_byte && decide (c > String.kMaxOneByteCharCode) then (false, st)
    else
      let (checked, st) :=
        if !preloaded then (check, st.emit (.LoadCurrentCharacter cp_offset on_failure check))
        else (false, st)
      (checked, st.emit (.CheckNotCharacter c on_failure))
  else (false, st)

/-- The function `EmitAtomLetter`: the result and the emitter, or `none`
where the source reaches `UNREACHABLE()` (more than four letters). -/
def EmitAtomLetter (GetCaseIndependentLetters : Nat → Bool → List Nat) (c : Nat)
    (on_failure : Option Label) (cp_offset : Int) (check preloaded : Bool) (st : Emitter) :
    Option (Bool × Emitter) :=
  let one_byte := st.compiler.one_byte_
  let chars := GetCaseIndependentLetters c one_byte
  if chars.length ≤ 1 then some (false, st)
  else
    let st :=
      if !preloaded then st.emit (.LoadCurrentCharacter cp_offset on_failure check) else st
    let ok := Label.stack st.labels
    let st := { st with labels := st.labels + 1 }
    match chars with
    | [c0, c1] =>
      let (handled, st1) := ShortCutEmitCharacterPair one_byte c0 c1 on_failure st
      if handled then some (true, st1)
      else
        let st := st1.emit (.CheckCharacter c0 (some ok))
        let st := st.emit (.CheckNotCharacter c1 on_failure)
        some (true, st.emit (.Bind ok))
    | [c0, c1, c2] =>
      let st := st.emit (.CheckCharacter c0 (some ok))
      let st := st.emit (.CheckCharacter c1 (some ok))
      let st := st.emit (.CheckNotCharacter c2 on_failure)
      some (true, st.emit (.Bind ok))
    | [c0, c1, c2, c3] =>
      let st := st.emit (.CheckCharacter c3 (some ok))
      let st := st.emit (.CheckCharacter c0 (some ok))
      let st := st.emit (.CheckCharacter c1 (some ok))
      let st := st.emit (.CheckNotCharacter c2 on_failure)
      some (true, st.emit (.Bind ok))
    | _ => none

/-- What one call of `TextNode::TextEmitPass` does for the character
`quarks[j]` of the atom `elements()->at(i)`: the test `SkipPass` of the
element and the body of the loop over `j`. The result tells whether the
function has returned (the `return` of the pass `NON_LATIN1_MATCH`), and
gives `*checked_up_to` and the emitter. `cp_offset` is
`trace->cp_offset() + elm.cp_offset() + backward_offset`. -/
def TextNode.TextEmitPass.atomCharacter (GetCaseIndependentLetters : Nat → Bool → List Nat)
    (pass : TextNode.TextEmitPassType) (preloaded : Bool) (backtrack : Option Label)
    (quick_check : Option QuickCheckDetails) (first_element_checked read_backward : Bool)
    (ignore_case : Bool) (elm_cp_offset cp_offset i j : Int) (quark : Nat)
    (checked_up_to : Int) (st : Emitter) : Option (Bool × Int × Emitter) :=
  if TextNode.SkipPass pass ignore_case then some (false, checked_up_to, st)
  else if first_element_checked && i == 0 && j == 0 then some (false, checked_up_to, st)
  else if DeterminedAlready quick_check (elm_cp_offset + j) then some (false, checked_up_to, st)
  else
    let quark := if ignore_case then unibrow.Latin1.TryConvertToLatin1 quark else quark
    let bounds_check := decide (checked_up_to < cp_offset + j) || read_backward
    match pass with
    | .NON_LATIN1_MATCH =>
      if quark > String.kMaxOneByteCharCode then some (true, checked_up_to, st.emit (.GoTo backtrack))
      else some (false, checked_up_to, st)
    | .NON_LETTER_CHARACTER_MATCH =>
      let (bound_checked, st) := EmitAtomNonLetter GetCaseIndependentLetters quark backtrack
        (cp_offset + j) bounds_check preloaded st
      some (false,
        if bound_checked then UpdateBoundsCheck (cp_offset + j) checked_up_to else checked_up_to,
        st)
    | .SIMPLE_CHARACTER_MATCH =>
      let (bound_checked, st) := EmitSimpleCharacter quark backtrack (cp_offset + j) bounds_check
        preloaded st
      some (false,
        if bound_checked then UpdateBoundsCheck (cp_offset + j) checked_up_to else checked_up_to,
        st)
    | .CASE_CHARACTER_MATCH =>
      match EmitAtomLetter GetCaseIndependentLetters quark backtrack (cp_offset + j) bounds_check
          preloaded st with
      | none => none
      | some (bound_checked, st) =>
        some (false,
          if bound_checked then UpdateBoundsCheck (cp_offset + j) checked_up_to
          else checked_up_to,
          st)
    | .CHARACTER_CLASS_MATCH => some (false, checked_up_to, st)

/-- The operations of the assembler that compare the current character. -/
def AssemblerOp.isCharacterTest : AssemblerOp → Bool
  | .CheckCharacter _ _ => true
  | .CheckNotCharacter _ _ => true
  | .CheckCharacterAfterAnd _ _ _ => true
  | .CheckNotCharacterAfterAnd _ _ _ => true
  | .CheckNotCharacterAfterMinusAnd _ _ _ _ => true
  | .CheckCharacterGT _ _ => true
  | .CheckCharacterLT _ _ => true
  | .CheckCharacterInRange _ _ _ => true
  | .CheckCharacterNotInRange _ _ _ => true
  | .CheckBitInTable _ _ => true
  | .CheckSpecialCharacterClass _ _ => true
  | _ => false

/-- Whether a call of `TextEmitPass` for a character has emitted a test of
the current character: `before` is the emitter at the call. -/
def TextNode.TextEmitPass.emitsTest (before : Emitter) :
    Option (Bool × Int × Emitter) → Bool
  | none => false
  | some (_, _, st) => (st.code.drop before.code.length).any AssemblerOp.isCharacterTest

/-- The passes that `TextNode::Emit` runs, in its order. -/
def TextNode.passes : List TextNode.TextEmitPassType :=
  [.NON_LATIN1_MATCH, .SIMPLE_CHARACTER_MATCH, .NON_LETTER_CHARACTER_MATCH,
    .CASE_CHARACTER_MATCH, .CHARACTER_CLASS_MATCH]

/-- Modelled from the spec: the letters of `a` and of `%` as
`GetCaseIndependentLetters` returns them (both cases of a letter; the
character itself where case independence is trivial), for examples. -/
def GetCaseIndependentLetters.example_letters (c : Nat) (_one_byte : Bool) : List Nat :=
  if c = 97 ∨ c = 65 then [97, 65] else [c]

/-- Quick-check details of one character whose position is determined
perfectly. -/
def QuickCheckDetails.exampleDetermined : QuickCheckDetails :=
  { characters_ := 1
    positions_ := [⟨0xDF, 0x41, true⟩, .zero, .zero, .zero]
    mask_ := 0, value_ := 0, cannot_match_ := false }

/-! ## Word boundaries (AssertionNode::EmitBoundaryCheck) -/

/-- The enumeration `AssertionNode::IfPrevious`. -/
inductive AssertionNode.IfPrevious where
  | kIsNonWord
  | kIsWord
  deriving DecidableEq, Repr

/-- The assertion types of `AssertionNode` that `EmitBoundaryCheck` handles. -/
inductive AssertionNode.BoundaryType where
  | AT_BOUNDARY
  | AT_NON_BOUNDARY
  deriving DecidableEq, Repr

/-- Modelled from the spec: the accessor `BoyerMoorePositionInfo::is_word`,
declared in the header: the summary lattice value for `\w` says that every
character of the position is a word character. -/
def BoyerMoorePositionInfo.is_word (info : BoyerMoorePositionInfo) : Bool :=
  decide (info.w_ = .kLatticeIn)

/-- Modelled from the spec: the accessor
`BoyerMoorePositionInfo::is_non_word`, declared in the header: the summary
lattice value for `\w` says that no character of the position is a word
character. -/
def BoyerMoorePositionInfo.is_non_word (info : BoyerMoorePositionInfo) : Bool :=
  decide (info.w_ = .kLatticeOut)

/-- The function `AssertionNode::BacktrackIfPrevious(compiler, trace,
backtrack_if_previous)`; `Emit` is the virtual call `on_success()->Emit`. -/
def AssertionNode.BacktrackIfPrevious (special_class : Bool)
    (Emit : Trace → Emitter → Option Emitter) (trace : Trace)
    (backtrack_if_previous : AssertionNode.IfPrevious) (st : Emitter) : Option Emitter :=
  let new_trace := trace.InvalidateCurrentCharacter
  let fall_through := Label.stack st.labels
  let dummy := Label.stack (st.labels + 1)
  let st := { st with labels := st.labels + 2 }
  let non_word :=
    if backtrack_if_previous = .kIsNonWord then new_trace.backtrack_ else some fall_through
  let word :=
    if backtrack_if_previous = .kIsNonWord then some fall_through else new_trace.backtrack_
  let st := if new_trace.cp_offset_ == 0 then st.emit (.CheckAtStart non_word) else st
  let st := st.emit (.LoadCurrentCharacter (new_trace.cp_offset_ - 1) (some dummy) false)
  let st := EmitWordCheck special_class word non_word
    (decide (backtrack_if_previous = .kIsNonWord)) st
  let st := st.emit (.Bind fall_through)
  Emit new_trace st

/-- The function `AssertionNode::EmitBoundaryCheck(compiler, trace)`.
`lookahead` is the position info `at(0)` of the Boyer-Moore lookahead that
the function consults: of `bm_info(not_at_start)` if there is one, else of
the lookahead it fills in when the node eats at least one character, else
`none`. -/
def AssertionNode.EmitBoundaryCheck (special_class : Bool)
    (Emit : Trace → Emitter → Option Emitter) (lookahead : Option BoyerMoorePositionInfo)
    (assertion_type_ : AssertionNode.BoundaryType) (trace : Trace) (st : Emitter) :
    Option Emitter :=
  let next_is_word_character :=
    match lookahead with
    | none => Trace.TriBool.UNKNOWN
    | some info =>
      let next := if info.is_non_word then Trace.TriBool.FALSE_VALUE else Trace.TriBool.UNKNOWN
      if info.is_word then Trace.TriBool.TRUE_VALUE else next
  let at_boundary := decide (assertion_type_ = .AT_BOUNDARY)
  match next_is_word_character with
  | .UNKNOWN =>
    let before_non_word := Label.stack st.labels
    let before_word := Label.stack (st.labels + 1)
    let st := { st with labels := st.labels + 2 }
    let st :=
      if trace.characters_preloaded_ != 1 then
        st.emit (.LoadCurrentCharacter trace.cp_offset_ (some before_non_word) true)
      else st
    let st := EmitWordCheck special_class (some before_word) (some before_non_word) false st
    let st := st.emit (.Bind before_non_word)
    let ok := Label.stack st.labels
    let st := { st with labels := st.labels + 1 }
    match AssertionNode.BacktrackIfPrevious special_class Emit trace
        (if at_boundary then .kIsNonWord else .kIsWord) st with
    | none => none
    | some st =>
      let st := st.emit (.GoTo (some ok))
      let st := st.emit (.Bind before_word)
      match AssertionNode.BacktrackIfPrevious special_class Emit trace
          (if at_boundary then .kIsWord else .kIsNonWord) st with
      | none => none
      | some st => some (st.emit (.Bind ok))
  | .TRUE_VALUE =>
    AssertionNode.BacktrackIfPrevious special_class Emit trace
      (if at_boundary then .kIsWord else .kIsNonWord) st
  | .FALSE_VALUE =>
    AssertionNode.BacktrackIfPrevious special_class Emit trace
      (if at_boundary then .kIsNonWord else .kIsWord) st

/-- An emission of the successor that only jumps to the successor's label,
as the emission of a node whose label is bound does. -/
def AssertionNode.jumpToSuccessor (on_success : Nat) (_trace : Trace) (st : Emitter) :
    Option Emitter :=
  some (st.emit (.GoTo (some (.node on_success))))

/-- Whether the code unit before the position is a word character; the start
of input counts as a non-word character. -/
def previousIsWord (subject : List Nat) (position : Nat) : Bool :=
  decide (position ≠ 0) && IsWordCharacter (subject.getD (position - 1) 0)

/-- Whether the code unit at the position is a word character; the end of
input counts as a non-word character. -/
def nextIsWord (subject : List Nat) (position : Nat) : Bool :=
  decide (position < subject.length) && IsWordCharacter (subject.getD position 0)

/-- The continuation of a run after a jump to `target`: a backtrack for the
null label, else the search for the label in the code that follows. -/
def AssemblerOp.jumpTo (subject : List Nat) (position : Int) (target : Option Label)
    (current : Nat) (rest : List AssemblerOp) : CodeOutcome :=
  match target with
  | none => .backtrack
  | some label => AssemblerOp.run subject position (some label) current rest

/-- A position info whose lattice value for `\w` is `kLatticeIn`. -/
def BoyerMoorePositionInfo.exampleWord : BoyerMoorePositionInfo :=
  { map_ := (List.replicate 128 false).set 97 true, map_count_ := 1, w_ := .kLatticeIn }

/-- The operations that `EmitWordCheck` emits: the test of the assembler for
the class if it has one, else the seven comparisons. -/
def EmitWordCheck.emitted (special_class : Bool) (word non_word : Option Label)
    (fall_through_on_word : Bool) : List AssemblerOp :=
  if special_class then
    [.CheckSpecialCharacterClass (if fall_through_on_word then 119 else 87)
      (if fall_through_on_word then non_word else word)]
  else EmitWordCheck.comparisons word non_word fall_through_on_word

/-- The operations that `BacktrackIfPrevious` emits at offset 0 when the
successor's emission is a jump to the successor; `labels` is the number of
labels in use at the call. -/
def AssertionNode.BacktrackIfPrevious.emitted (special_class : Bool) (backtrack : Option Label)
    (backtrack_if_previous : AssertionNode.IfPrevious) (labels on_success : Nat) :
    List AssemblerOp :=
  [.CheckAtStart
      (if backtrack_if_previous = .kIsNonWord then backtrack else some (.stack labels)),
    .LoadCurrentCharacter (-1) (some (.stack (labels + 1))) false] ++
  EmitWordCheck.emitted special_class
    (if backtrack_if_previous = .kIsNonWord then some (.stack labels) else backtrack)
    (if backtrack_if_previous = .kIsNonWord then backtrack else some (.stack labels))
    (decide (backtrack_if_previous = .kIsNonWord)) ++
  [.Bind (.stack labels), .GoTo (some (.node on_success))]

/-- What `EmitBoundaryCheck` takes the next character to be: what the
lookahead says where it says that the next character is, or is not, a word
character, else what the subject has at the position. -/
def AssertionNode.nextTakenAsWord (lookahead : Option BoyerMoorePositionInfo)
    (subject : List Nat) (position : Nat) : Bool :=
  match lookahead with
  | none => nextIsWord subject position
  | some info =>
    if info.is_word then true
    else if info.is_non_word then false
    else nextIsWord subject position

/-! ## Branches for a character class (GenerateBranches)

The boundaries are natural numbers here. Where `min_char < ranges[start_index]`
holds, every boundary is positive, and the subtractions `border - 1` and
`ranges[i] - 1` of the source, which are on `int`, agree with those on
natural numbers. -/

/-- The constant `RegExpMacroAssembler::kTableSizeBits`. -/
def RegExpMacroAssembler.kTableSizeBits : Nat := 7

/-- The first index `k` with `i <= k < i + n` at which the test holds: the
outcome of a loop over these indices that breaks at the first hit. -/
def firstIndexFrom (test : Nat → Bool) : Nat → Nat → Option Nat
  | 0, _ => none
  | n + 1, i => if test i then some i else firstIndexFrom test n (i + 1)

/-- The function `EmitBoundaryTest(masm, border, fall_through,
above_or_equal, below)`. -/
def EmitBoundaryTest (border : Nat) (fall_through : Label) (above_or_equal below : Option Label)
    (st : Emitter) : Emitter :=
  if below ≠ some fall_through then
    let st := st.emit (.CheckCharacterLT border below)
    if above_or_equal ≠ some fall_through then st.emit (.GoTo above_or_equal) else st
  else st.emit (.CheckCharacterGT (border - 1) above_or_equal)

/-- The function `EmitDoubleBoundaryTest(masm, first, last, fall_through,
in_range, out_of_range)`. -/
def EmitDoubleBoundaryTest (first last : Nat) (fall_through : Label)
    (in_range out_of_range : Option Label) (st : Emitter) : Emitter :=
  if in_range = some fall_through then
    if first = last then st.emit (.CheckNotCharacter first out_of_range)
    else st.emit (.CheckCharacterNotInRange first last out_of_range)
  else
    let st :=
      if first = last then st.emit (.CheckCharacter first in_range)
      else st.emit (.CheckCharacterInRange first last in_range)
    if out_of_range ≠ some fall_through then st.emit (.GoTo out_of_range) else st

/-- The loop `for (j = from; j < to; j++) templ[j] = bit` of
`EmitUseLookupTable`. -/
def EmitUseLookupTable.fill (templ : List Nat) (from_ to_ bit : Nat) : List Nat :=
  (List.range' from_ (to_ - from_)).foldl (fun templ j => templ.set j bit) templ

/-- The loop `for (int i = start_index; i < end_index; i++)` of
`EmitUseLookupTable`, for the `n` indices from `i` on, with the table, the
variable `j` and `bit`. -/
def EmitUseLookupTable.loop (ranges : List Nat) : Nat → Nat → List Nat × Nat × Nat →
    List Nat × Nat × Nat
  | 0, _, state => state
  | n + 1, i, (templ, _, bit) =>
    let from_ := ranges.getD i 0 &&& RegExpMacroAssembler.kTableMask
    let to_ := ranges.getD (i + 1) 0 &&& RegExpMacroAssembler.kTableMask
    EmitUseLookupTable.loop ranges n (i + 1)
      (EmitUseLookupTable.fill templ from_ to_ bit, max from_ to_, bit ^^^ 1)

/-- The table `templ` that `EmitUseLookupTable` builds, starting from the
value `bit` for the entries below the first boundary. -/
def EmitUseLookupTable.templ (ranges : List Nat) (start_index end_index bit : Nat) : List Nat :=
  let kSize := RegExpMacroAssembler.kTableSize
  let kMask := RegExpMacroAssembler.kTableMask
  let templ := List.replicate kSize 0
  let templ := EmitUseLookupTable.fill templ 0 (min (ranges.getD start_index 0 &&& kMask) kSize) bit
  let j := 0
  let bit := bit ^^^ 1
  let (templ, j, bit) :=
    EmitUseLookupTable.loop ranges (end_index - start_index) start_index (templ, j, bit)
  EmitUseLookupTable.fill templ j kSize bit

/-- The function `EmitUseLookupTable(masm, ranges, start_index, end_index,
min_char, fall_through, even_label, odd_label)`. The byte array passed to
`CheckBitInTable` is the table `templ`. -/
def EmitUseLookupTable (ranges : List Nat) (start_index end_index _min_char : Nat)
    (fall_through : Label) (even_label odd_label : Option Label) (st : Emitter) : Emitter :=
  let (on_bit_set, on_bit_clear, bit) :=
    if even_label = some fall_through then (odd_label, even_label, 1)
    else (even_label, odd_label, 0)
  let ba := EmitUseLookupTable.templ ranges start_index end_index bit
  let st := st.emit (.CheckBitInTable ba on_bit_set)
  if on_bit_clear ≠ some fall_through then st.emit (.GoTo on_bit_clear) else st

/-- The function `CutOutRange(masm, ranges, start_index, end_index,
cut_index, even_label, odd_label)`: the rewritten array and the emitter. -/
def CutOutRange (ranges : List Nat) (start_index end_index cut_index : Nat)
    (even_label odd_label : Option Label) (st : Emitter) : List Nat × Emitter :=
  let odd := decide ((cut_index - start_index) % 2 = 1)
  let in_range_label := if odd then odd_label else even_label
  let dummy := Label.stack st.labels
  let st := { st with labels := st.labels + 1 }
  let st := EmitDoubleBoundaryTest (ranges.getD cut_index 0) (ranges.getD (cut_index + 1) 0 - 1)
    dummy in_range_label (some dummy) st
  let ranges := (List.range' (start_index + 1) (cut_index - start_index)).reverse.foldl
    (fun ranges j => ranges.set j (ranges.getD (j - 1) 0)) ranges
  let ranges := (List.range' (cut_index + 1) (end_index - (cut_index + 1))).foldl
    (fun ranges j => ranges.set j (ranges.getD (j + 1) 0)) ranges
  (ranges, st)

/-- The function `SplitSearchSpace(ranges, start_index, end_index,
&new_start_index, &new_end_index, &border)`: the three values it stores.
`x & ~kMask` is `x` with its low seven bits cleared. -/
def SplitSearchSpace (ranges : List Nat) (start_index end_index : Nat) : Nat × Nat × Nat :=
  let kSize := RegExpMacroAssembler.kTableSize
  let kMask := RegExpMacroAssembler.kTableMask
  let first := ranges.getD start_index 0
  let last := ranges.getD end_index 0 - 1
  let border := (ranges.getD start_index 0 - (ranges.getD start_index 0 &&& kMask)) + kSize
  let new_start_index :=
    (firstIndexFrom (fun i => decide (ranges.getD i 0 > border)) (end_index - start_index)
      start_index).getD end_index
  let binary_chop_index := (end_index + start_index) / 2
  let (new_start_index, border) :=
    if border - 1 > String.kMaxOneByteCharCode ∧
        end_index - start_index > (new_start_index - start_index) * 2 ∧
        last - first > kSize * 2 ∧ binary_chop_index > new_start_index ∧
        ranges.getD binary_chop_index 0 ≥ first + 2 * kSize then
      let new_border := (ranges.getD binary_chop_index 0 ||| kMask) + 1
      match firstIndexFrom (fun i => decide (ranges.getD i 0 > new_border))
          (end_index - binary_chop_index) binary_chop_index with
      | some scan_forward_for_section_border => (scan_forward_for_section_border, new_border)
      | none => (new_start_index, border)
    else (new_start_index, border)
  let new_end_index := new_start_index - 1
  let new_end_index :=
    if ranges.getD new_end_index 0 = border then new_end_index - 1 else new_end_index
  if border ≥ ranges.getD end_index 0 then (end_index, end_index - 1, ranges.getD end_index 0)
  else (new_start_index, new_end_index, border)

/-- The function `GenerateBranches(masm, ranges, start_index, end_index,
min_char, max_char, fall_through, even_label, odd_label)`: the array as the
calls of `CutOutRange` leave it, and the emitter. The recursion of the
source is bounded here by `fuel`; `none` is returned when it runs out. -/
def GenerateBranches : Nat → List Nat → Nat → Nat → Nat → Nat → Label → Option Label →
    Option Label → Emitter → Option (List Nat × Emitter)
  | 0, _, _, _, _, _, _, _, _, _ => none
  | fuel + 1, ranges, start_index, end_index, min_char, max_char, fall_through, even_label,
      odd_label, st =>
    let first := ranges.getD start_index 0
    let last := ranges.getD end_index 0 - 1
    if start_index = end_index then
      some (ranges, EmitBoundaryTest first fall_through even_label odd_label st)
    else if start_index + 1 = end_index then
      some (ranges, EmitDoubleBoundaryTest first last fall_through even_label odd_label st)
    else if end_index - start_index ≤ 6 then
      let cut :=
        (firstIndexFrom (fun i => decide (ranges.getD i 0 = ranges.getD (i + 1) 0 - 1))
          (end_index - start_index) start_index).getD start_index
      let (ranges, st) := CutOutRange ranges start_index end_index cut even_label odd_label st
      GenerateBranches fuel ranges (start_index + 1) (end_index - 1) min_char max_char
        fall_through even_label odd_label st
    else if max_char >>> RegExpMacroAssembler.kTableSizeBits =
        min_char >>> RegExpMacroAssembler.kTableSizeBits then
      some (ranges, EmitUseLookupTable ranges start_index end_index min_char fall_through
        even_label odd_label st)
    else if min_char >>> RegExpMacroAssembler.kTableSizeBits ≠
        first >>> RegExpMacroAssembler.kTableSizeBits then
      let st := st.emit (.CheckCharacterLT first odd_label)
      GenerateBranches fuel ranges (start_index + 1) end_index first max_char fall_through
        odd_label even_label st
    else
      let (new_start_index, new_end_index, border) :=
        SplitSearchSpace ranges start_index end_index
      let handle_rest := Label.stack st.labels
      let st := { st with labels := st.labels + 1 }
      let above :=
        if border = last + 1 then
          (if end_index % 2 ≠ start_index % 2 then odd_label else even_label)
        else some handle_rest
      let st := st.emit (.CheckCharacterGT (border - 1) above)
      let dummy := Label.stack st.labels
      let st := { st with labels := st.labels + 1 }
      match GenerateBranches fuel ranges start_index new_end_index min_char (border - 1) dummy
          even_label odd_label st with
      | none => none
      | some (ranges, st) =>
        if above = some handle_rest then
          let st := st.emit (.Bind handle_rest)
          let flip := decide (new_start_index % 2 ≠ start_index % 2)
          GenerateBranches fuel ranges new_start_index end_index border max_char dummy
            (if flip then odd_label else even_label) (if flip then even_label else odd_label) st
        else some (ranges, st)

/-- Whether `c` lies in one of the intervals
`[ranges[start_index + 2k], ranges[start_index + 2k + 1])`, the last of which
has no upper end when the boundary `ranges[start_index + 2k + 1]` lies
beyond `end_index`. -/
def GenerateBranches.inEven (ranges : List Nat) (start_index end_index c : Nat) : Bool :=
  (List.range (end_index - start_index + 1)).any (fun i =>
    decide (i % 2 = 0) && decide (ranges.getD (start_index + i) 0 ≤ c) &&
      (decide (end_index < start_index + i + 1) ||
        decide (c < ranges.getD (start_index + i + 1) 0)))

/-- The outcome that stands for reaching a label of `GenerateBranches`: a
jump to it or, for the label `fall_through` (which the caller binds at the
end of the code), also falling off the end of the code. -/
def GenerateBranches.reaches (outcome : CodeOutcome) (label : Option Label)
    (fall_through : Label) : Prop :=
  outcome = CodeOutcome.goTo label ∨ (label = some fall_through ∧ outcome = .fallThrough)

instance GenerateBranches.reaches.decidable (outcome : CodeOutcome) (label : Option Label)
    (fall_through : Label) : Decidable (GenerateBranches.reaches outcome label fall_through) :=
  inferInstanceAs (Decidable (_ ∨ _))

/-- Nine boundaries of which the last lies above `max_char = 127`. -/
def GenerateBranches.exampleRanges : List Nat := [10, 20, 30, 40, 50, 60, 70, 80, 200]

/-- The number of boundaries among `ranges[i], .., ranges[i + n - 1]` that
are at most `c`. -/
def GenerateBranches.boundariesUpTo (ranges : List Nat) (c : Nat) : Nat → Nat → Nat
  | 0, _ => 0
  | n + 1, i =>
    (if ranges.getD i 0 ≤ c then 1 else 0) + GenerateBranches.boundariesUpTo ranges c n (i + 1)

/-- The boundaries `ranges[start_index..end_index]` increase strictly. -/
def GenerateBranches.Increasing (ranges : List Nat) (start_index end_index : Nat) : Prop :=
  ∀ i, start_index ≤ i → i < end_index → ranges.getD i 0 < ranges.getD (i + 1) 0

/-- A label is none of the labels that an emitter creates from the count
`labels` on. -/
def Label.Older (labels : Nat) (label : Option Label) : Prop :=
  ∀ n, labels ≤ n → label ≠ some (.stack n)

/-- A run of a piece of code, continued by the code `rest`, reaches a label
of `GenerateBranches`: it goes on as after a jump to the label or, for the
label `fall_through`, also by going on with `rest` at the end of the
piece. -/
def GenerateBranches.ReachesIn (subject : List Nat) (position : Int) (outcome : CodeOutcome)
    (label : Option Label) (fall_through : Label) (c : Nat) (rest : List AssemblerOp) : Prop :=
  outcome = AssemblerOp.jumpTo subject position label c rest ∨
    (label = some fall_through ∧ outcome = AssemblerOp.run subject position none c rest)

/-- The conditions under which `GenerateBranches` is called. -/
def GenerateBranches.Pre (ranges : List Nat) (s e lo hi : Nat) (even_label odd_label : Option Label)
    (st : Emitter) : Prop :=
  s ≤ e ∧ e < ranges.length ∧ GenerateBranches.Increasing ranges s e ∧
    lo < ranges.getD s 0 ∧ ranges.getD e 0 ≤ hi ∧
    Label.Older st.labels even_label ∧ Label.Older st.labels odd_label

/-- What a call of `GenerateBranches` achieves. -/
def GenerateBranches.Post (ranges : List Nat) (s e lo hi : Nat) (fall_through : Label)
    (even_label odd_label : Option Label) (st : Emitter)
    (result : Option (List Nat × Emitter)) : Prop :=
  ∃ other done code, result = some (other, done) ∧
    done.code = st.code ++ code ∧ st.labels ≤ done.labels ∧
    other.length = ranges.length ∧
    (∀ j, j ≤ s ∨ e ≤ j → other.getD j 0 = ranges.getD j 0) ∧
    (∀ l, AssemblerOp.Bind l ∈ code → ∃ k, l = .stack k ∧ st.labels ≤ k) ∧
    ∀ (subject : List Nat) (position : Int) (c : Nat) (rest : List AssemblerOp),
      lo ≤ c → c ≤ hi →
      GenerateBranches.ReachesIn subject position
        (AssemblerOp.run subject position none c (code ++ rest))
        (if GenerateBranches.boundariesUpTo ranges c (e - s + 1) s % 2 = 1 then even_label
          else odd_label) fall_through c rest

/-! # Theorems -/

/-! ## Quick-check details of a character class -/

/-- C1 (the code at the failing input): for the non-negated class with the
single range `[0x41, 0x10000]` on a one-byte subject, the character-class
branch of `TextNode::GetQuickCheckDetails` does not set `cannot_match` and
computes mask `0xFFFFFF80` and value `0`, because the upper bound `0x10000`
is truncated to the `uc16` value `0` before it is clamped to `char_mask`; the
code unit `0x80` is at most `char_mask`, lies in the range, and fails the
masked compare, so the quick check rejects a code unit that the class
matches. -/
theorem TextNode.GetQuickCheckDetails_class_rejects_member :
    (TextNode.GetQuickCheckDetails_class true false [⟨0x41, 0x10000⟩]
        QuickCheckDetails.Position.cleared).cannot_match = false ∧
    (TextNode.GetQuickCheckDetails_class true false [⟨0x41, 0x10000⟩]
        QuickCheckDetails.Position.cleared).pos.mask = 0xFFFFFF80 ∧
    (TextNode.GetQuickCheckDetails_class true false [⟨0x41, 0x10000⟩]
        QuickCheckDetails.Position.cleared).pos.value = 0 ∧
    0x80 ≤ TextNode.char_mask true ∧
    classContains [⟨0x41, 0x10000⟩] 0x80 = true ∧
    (TextNode.GetQuickCheckDetails_class true false [⟨0x41, 0x10000⟩]
        QuickCheckDetails.Position.cleared).pos.accepts 0x80 = false := by
  decide

/-- Bits of a value reduced to 32 bits. -/
theorem testBit_u32 (x i : Nat) : (u32 x).testBit i = (decide (i < 32) && x.testBit i) := by
  unfold u32
  exact Nat.testBit_mod_two_pow x 32 i

/-- Bits of the 32-bit complement. -/
theorem testBit_not32 (x i : Nat) :
    (not32 x).testBit i = (decide (i < 32) && !x.testBit i) := by
  unfold not32
  rw [Nat.testBit_xor, testBit_u32, show (0xFFFFFFFF : Nat) = 2 ^ 32 - 1 by norm_num,
    Nat.testBit_two_pow_sub_one]
  cases decide (i < 32) <;> cases x.testBit i <;> rfl

/-- One step of the smearing: if bit `i` of `y` says whether `x` has a bit set
in `[i, i + w)`, then bit `i` of `y | y >> w` says so for `[i, i + 2 * w)`. -/
theorem smear_step (x y w : Nat)
    (h : ∀ i, y.testBit i = true ↔ ∃ j, i ≤ j ∧ j < i + w ∧ x.testBit j = true) :
    ∀ i, (y ||| (y >>> w)).testBit i = true ↔
      ∃ j, i ≤ j ∧ j < i + 2 * w ∧ x.testBit j = true := by
  intro i
  rw [Nat.testBit_or, Nat.testBit_shiftRight, Bool.or_eq_true, h, h]
  constructor
  · rintro (⟨j, h1, h2, h3⟩ | ⟨j, h1, h2, h3⟩)
    · exact ⟨j, h1, by omega, h3⟩
    · exact ⟨j, by omega, by omega, h3⟩
  · rintro ⟨j, h1, h2, h3⟩
    by_cases hj : j < i + w
    · exact Or.inl ⟨j, h1, hj, h3⟩
    · exact Or.inr ⟨j, by omega, by omega, h3⟩

/-- Bit `i` of `SmearBitsRight v` is set exactly when `v` has a bit set at or
above `i` (below 32). -/
theorem SmearBitsRight_testBit (v i : Nat) :
    (SmearBitsRight v).testBit i = true ↔ ∃ j, i ≤ j ∧ j < 32 ∧ v.testBit j = true := by
  have h0 : ∀ i, (u32 v).testBit i = true ↔ ∃ j, i ≤ j ∧ j < i + 1 ∧ (u32 v).testBit j = true := by
    intro i
    constructor
    · intro h; exact ⟨i, le_refl _, by omega, h⟩
    · rintro ⟨j, h1, h2, h3⟩
      have : j = i := by omega
      subst this; exact h3
  have h1 := smear_step (u32 v) _ 1 h0
  have h2 := smear_step (u32 v) _ 2 h1
  have h4 := smear_step (u32 v) _ 4 h2
  have h8 := smear_step (u32 v) _ 8 h4
  have h16 := smear_step (u32 v) _ 16 h8
  have := h16 i
  unfold SmearBitsRight
  simp only []
  rw [this]
  constructor
  · rintro ⟨j, hj1, _, hj3⟩
    rw [testBit_u32] at hj3
    simp only [Bool.and_eq_true, decide_eq_true_eq] at hj3
    exact ⟨j, hj1, hj3.1, hj3.2⟩
  · rintro ⟨j, hj1, hj2, hj3⟩
    refine ⟨j, hj1, by omega, ?_⟩
    rw [testBit_u32]
    simp [hj2, hj3]

/-- Values with equal shifts by `i` have equal bits `i`. -/
theorem testBit_eq_of_shiftRight_eq (x y i : Nat) (h : x >>> i = y >>> i) :
    x.testBit i = y.testBit i := by
  have hx := Nat.testBit_shiftRight (i := i) (j := 0) x
  have hy := Nat.testBit_shiftRight (i := i) (j := 0) y
  rw [Nat.add_zero] at hx hy
  rw [← hx, ← hy, h]

/-- Every code unit of a range agrees with the lower bound on the bits that
the mask of the range keeps. -/
theorem range_mask_agrees (from_ to_ c : Nat) (h1 : from_ ≤ c) (h2 : c ≤ to_)
    (h32 : to_ < 2 ^ 32) :
    c &&& not32 (SmearBitsRight (from_ ^^^ to_)) =
      from_ &&& not32 (SmearBitsRight (from_ ^^^ to_)) := by
  apply Nat.eq_of_testBit_eq
  intro i
  rw [Nat.testBit_and, Nat.testBit_and, testBit_not32]
  by_cases hi : i < 32
  · by_cases hs : (SmearBitsRight (from_ ^^^ to_)).testBit i = true
    · simp [hs]
    · have hagree : ∀ j, i ≤ j → j < 32 → from_.testBit j = to_.testBit j := by
        intro j hj1 hj2
        by_contra hne
        apply hs
        rw [SmearBitsRight_testBit]
        refine ⟨j, hj1, hj2, ?_⟩
        rw [Nat.testBit_xor]
        cases hf : from_.testBit j <;> cases ht : to_.testBit j <;> simp_all
      have hbig : ∀ (x : Nat), x < 2 ^ 32 → ∀ j, 32 ≤ j → x.testBit j = false := by
        intro x hx j hj
        apply Nat.testBit_lt_two_pow
        calc x < 2 ^ 32 := hx
          _ ≤ 2 ^ j := Nat.pow_le_pow_right (by norm_num) hj
      have hshift : from_ >>> i = to_ >>> i := by
        apply Nat.eq_of_testBit_eq
        intro j
        rw [Nat.testBit_shiftRight, Nat.testBit_shiftRight]
        by_cases hj : i + j < 32
        · exact hagree (i + j) (by omega) hj
        · rw [hbig from_ (by omega) (i + j) (by omega), hbig to_ h32 (i + j) (by omega)]
      have hc : c >>> i = from_ >>> i := by
        rw [Nat.shiftRight_eq_div_pow] at hshift ⊢
        rw [Nat.shiftRight_eq_div_pow] at hshift
        rw [Nat.shiftRight_eq_div_pow]
        apply le_antisymm
        · rw [hshift]
          exact Nat.div_le_div_right h2
        · exact Nat.div_le_div_right h1
      rw [testBit_eq_of_shiftRight_eq c from_ i hc]
  · simp [hi]

/-- The merge of a further range keeps accepting a code unit that was accepted
before. -/
theorem merge_bits_old (common bits k f c : Nat) (hc : c &&& common = bits) :
    c &&& ((common &&& k) ^^^ ((f &&& (common &&& k)) ^^^ (bits &&& k))) =
      (bits &&& k) &&& ((common &&& k) ^^^ ((f &&& (common &&& k)) ^^^ (bits &&& k))) := by
  apply Nat.eq_of_testBit_eq
  intro i
  have h := congrArg (fun x => x.testBit i) hc
  simp only [Nat.testBit_and, Nat.testBit_xor] at h ⊢
  rw [← h]
  cases c.testBit i <;> cases common.testBit i <;> cases k.testBit i <;> cases f.testBit i <;> rfl

/-- The merge of a further range accepts every code unit that agrees with the
range's lower bound under the range's mask. -/
theorem merge_bits_new (common bits k f c : Nat) (hb : bits &&& common = bits)
    (hc : c &&& k = f &&& k) :
    c &&& ((common &&& k) ^^^ ((f &&& (common &&& k)) ^^^ (bits &&& k))) =
      (bits &&& k) &&& ((common &&& k) ^^^ ((f &&& (common &&& k)) ^^^ (bits &&& k))) := by
  apply Nat.eq_of_testBit_eq
  intro i
  have h := congrArg (fun x => x.testBit i) hc
  have h' := congrArg (fun x => x.testBit i) hb
  simp only [Nat.testBit_and, Nat.testBit_xor] at h h' ⊢
  revert h h'
  cases c.testBit i <;> cases common.testBit i <;> cases k.testBit i <;> cases f.testBit i <;>
    cases bits.testBit i <;> simp

/-- After a merge the value has no bit outside the mask. -/
theorem merge_bits_subset (common bits k f : Nat) :
    ((bits &&& k) &&& ((common &&& k) ^^^ ((f &&& (common &&& k)) ^^^ (bits &&& k)))) &&&
        ((common &&& k) ^^^ ((f &&& (common &&& k)) ^^^ (bits &&& k))) =
      (bits &&& k) &&& ((common &&& k) ^^^ ((f &&& (common &&& k)) ^^^ (bits &&& k))) := by
  rw [Nat.and_assoc, Nat.and_self]

/-- For a code unit up to `char_mask` in a range whose upper bound clamps
correctly, the `uc16` locals of the loop still enclose the code unit. -/
theorem clamp_bound (char_mask : Nat) (hcm : char_mask ≤ 0xFFFF) (r : CharacterRange)
    (hr : r.clampsCorrectly) (c : Nat) (hc : c ≤ char_mask) (hin : r.Contains c = true) :
    toUc16 r.from_ = r.from_ ∧ ¬ toUc16 r.from_ > char_mask ∧ r.from_ ≤ c ∧
    c ≤ (if toUc16 r.to_ > char_mask then char_mask else toUc16 r.to_) ∧
    (if toUc16 r.to_ > char_mask then char_mask else toUc16 r.to_) < 2 ^ 32 := by
  simp only [CharacterRange.Contains, Bool.and_eq_true, decide_eq_true_eq] at hin
  have hlt : toUc16 r.to_ < 2 ^ 16 := Nat.mod_lt _ (by norm_num)
  have hf : toUc16 r.from_ = r.from_ := Nat.mod_eq_of_lt (by omega)
  refine ⟨hf, by rw [hf]; omega, hin.1, ?_, ?_⟩
  · split
    · exact hc
    · rcases hr with hr | hr
      · have : toUc16 r.to_ = r.to_ := Nat.mod_eq_of_lt (by omega)
        omega
      · have : toUc16 r.to_ = 0xFFFF := hr
        omega
  · split <;> omega

/-- One iteration of the merge loop keeps the value inside the mask, keeps
accepted code units accepted, and accepts the code units of the merged range.
-/
theorem TextNode.mergeRange_inv (char_mask : Nat) (hcm : char_mask ≤ 0xFFFF)
    (acc : Nat × Nat × Bool) (r : CharacterRange) (c : Nat)
    (hsub : acc.2.1 &&& acc.1 = acc.2.1) :
    (TextNode.mergeRange char_mask acc r).2.1 &&& (TextNode.mergeRange char_mask acc r).1 =
        (TextNode.mergeRange char_mask acc r).2.1 ∧
    (c &&& acc.1 = acc.2.1 →
      c &&& (TextNode.mergeRange char_mask acc r).1 = (TextNode.mergeRange char_mask acc r).2.1) ∧
    (r.clampsCorrectly → c ≤ char_mask → r.Contains c = true →
      c &&& (TextNode.mergeRange char_mask acc r).1 = (TextNode.mergeRange char_mask acc r).2.1) := by
  unfold TextNode.mergeRange
  by_cases hskip : toUc16 r.from_ > char_mask
  · simp only [hskip, if_true]
    refine ⟨hsub, fun h => h, fun hr hc hin => ?_⟩
    exact absurd hskip (clamp_bound char_mask hcm r hr c hc hin).2.1
  · simp only [hskip, if_false]
    refine ⟨merge_bits_subset _ _ _ _, fun h => merge_bits_old _ _ _ _ _ h, fun hr hc hin => ?_⟩
    obtain ⟨hf, _, h1, h2, h3⟩ := clamp_bound char_mask hcm r hr c hc hin
    apply merge_bits_new _ _ _ _ _ hsub
    rw [hf]
    exact range_mask_agrees _ _ c h1 h2 h3

/-- The merge loop over the remaining ranges accepts a code unit that was
accepted before it or that lies in one of the ranges. -/
theorem TextNode.mergeRange_foldl_inv (char_mask : Nat) (hcm : char_mask ≤ 0xFFFF)
    (rest : List CharacterRange) (c : Nat) :
    ∀ (acc : Nat × Nat × Bool), acc.2.1 &&& acc.1 = acc.2.1 →
      (c &&& acc.1 = acc.2.1 ∨
        ((∀ r ∈ rest, r.clampsCorrectly) ∧ c ≤ char_mask ∧ classContains rest c = true)) →
      c &&& (rest.foldl (TextNode.mergeRange char_mask) acc).1 =
        (rest.foldl (TextNode.mergeRange char_mask) acc).2.1 := by
  induction rest with
  | nil =>
    intro acc _ h
    rcases h with h | ⟨_, _, h⟩
    · exact h
    · simp [classContains] at h
  | cons r rest ih =>
    intro acc hsub h
    simp only [List.foldl_cons]
    obtain ⟨hsub', hold, hnew⟩ := TextNode.mergeRange_inv char_mask hcm acc r c hsub
    apply ih _ hsub'
    rcases h with h | ⟨hall, hc, hin⟩
    · exact Or.inl (hold h)
    · simp only [classContains, List.any_cons, Bool.or_eq_true] at hin
      rcases hin with hin | hin
      · exact Or.inl (hnew (hall r (List.mem_cons_self _ _)) hc hin)
      · exact Or.inr ⟨fun r' hr' => hall r' (List.mem_cons_of_mem _ hr'), hc, hin⟩

/-- The search for the first range finds one whenever a code unit up to
`char_mask` is in the class, and that code unit is in the range found or in a
later one. -/
theorem TextNode.firstRange_spec (char_mask : Nat) (ranges : List CharacterRange) (c : Nat)
    (hc : c ≤ char_mask) (hin : classContains ranges c = true) :
    ∃ r rest, TextNode.firstRange char_mask ranges = some (r, rest) ∧
      (r.Contains c = true ∨ classContains rest c = true) ∧
      ∀ x, x = r ∨ x ∈ rest → x ∈ ranges := by
  induction ranges with
  | nil => simp [classContains] at hin
  | cons a ranges ih =>
    simp only [TextNode.firstRange]
    by_cases ha : a.from_ > char_mask
    · simp only [ha, if_true]
      simp only [classContains, List.any_cons, Bool.or_eq_true] at hin
      rcases hin with hin | hin
      · simp only [CharacterRange.Contains, Bool.and_eq_true, decide_eq_true_eq] at hin
        omega
      · obtain ⟨r, rest, h1, h2, h3⟩ := ih hin
        exact ⟨r, rest, h1, h2, fun x hx => List.mem_cons_of_mem _ (h3 x hx)⟩
    · simp only [ha, if_false]
      refine ⟨a, ranges, rfl, ?_, ?_⟩
      · simpa [classContains, List.any_cons, Bool.or_eq_true] using hin
      · intro x hx
        rcases hx with hx | hx
        · rw [hx]; exact List.mem_cons_self _ _
        · exact List.mem_cons_of_mem _ hx

/-- Smearing ignores bits above the 32nd of its argument. -/
theorem SmearBitsRight_u32 (x : Nat) : SmearBitsRight (u32 x) = SmearBitsRight x := by
  unfold SmearBitsRight
  have : u32 (u32 x) = u32 x := Nat.mod_mod _ _
  simp only [this]

/-- Both character masks fit in 16 bits. -/
theorem TextNode.char_mask_le (one_byte : Bool) : TextNode.char_mask one_byte ≤ 0xFFFF := by
  cases one_byte <;> decide

/-- Soundness of the quick check of a character class away from the
truncation: when every upper bound of the class survives the conversion to
`uc16`, the mask and value computed for a non-negated class accept every code
unit up to `char_mask` that lies in some range of the class, and
`cannot_match` is not set when there is such a code unit. -/
theorem TextNode.GetQuickCheckDetails_class_sound (one_byte : Bool)
    (ranges : List CharacterRange) (pos : QuickCheckDetails.Position)
    (hranges : ∀ r ∈ ranges, r.clampsCorrectly) (c : Nat)
    (hc : c ≤ TextNode.char_mask one_byte) (hin : classContains ranges c = true) :
    (TextNode.GetQuickCheckDetails_class one_byte false ranges pos).cannot_match = false ∧
    (TextNode.GetQuickCheckDetails_class one_byte false ranges pos).pos.accepts c = true := by
  obtain ⟨r, rest, hfirst, hwhere, hmem⟩ :=
    TextNode.firstRange_spec (TextNode.char_mask one_byte) ranges c hc hin
  have hcm := TextNode.char_mask_le one_byte
  simp only [TextNode.GetQuickCheckDetails_class, Bool.false_eq_true, if_false, hfirst,
    QuickCheckDetails.Position.accepts, decide_eq_true_eq, true_and]
  rw [SmearBitsRight_u32]
  apply TextNode.mergeRange_foldl_inv _ hcm rest c
  · rw [Nat.and_assoc, Nat.and_self]
  · rcases hwhere with hw | hw
    · left
      obtain ⟨hf, _, h1, h2, h3⟩ := clamp_bound _ hcm r (hranges r (hmem r (Or.inl rfl))) c hc hw
      rw [hf]
      exact range_mask_agrees _ _ c h1 h2 h3
    · right
      exact ⟨fun r' hr' => hranges r' (hmem r' (Or.inr hr')), hc, hw⟩

/-! ## Boyer-Moore skip table -/

/-- A loop of conditional stores keeps the length of the array. -/
theorem foldl_cond_set_length (js : List Nat) (p : Nat → Bool) (v : Nat) (t : List Nat) :
    (js.foldl (fun t j => if p j then t.set j v else t) t).length = t.length := by
  induction js generalizing t with
  | nil => rfl
  | cons a js ih =>
    simp only [List.foldl_cons]
    rw [ih]
    split <;> simp

/-- Entry `j` after a loop of conditional stores of `v` at the indices `js`.
-/
theorem foldl_cond_set_getD (js : List Nat) (p : Nat → Bool) (v d : Nat) (t : List Nat) (j : Nat) :
    (js.foldl (fun t j => if p j then t.set j v else t) t).getD j d =
      if j ∈ js ∧ p j = true ∧ j < t.length then v else t.getD j d := by
  induction js generalizing t with
  | nil => simp
  | cons a js ih =>
    simp only [List.foldl_cons]
    rw [ih]
    by_cases hp : p a = true
    · simp only [hp, if_true, List.length_set, List.mem_cons]
      by_cases hja : j = a
      · subst hja
        by_cases hlt : j < t.length
        · simp [hp, hlt, List.getD_eq_getElem?_getD, List.getElem?_set]
        · have h2 : t[j]? = none := List.getElem?_eq_none (by omega)
          simp [hp, hlt, List.getD_eq_getElem?_getD, List.getElem?_set, h2]
      · have : (t.set a v).getD j d = t.getD j d := by
          simp [List.getD_eq_getElem?_getD, List.getElem?_set, Ne.symm hja]
        rw [this]
        simp [hja]
    · simp only [hp, List.mem_cons]
      by_cases hja : j = a
      · subst hja
        simp [hp]
      · simp [hja]

/-- Entries of the table after the clearing loop. -/
theorem BoyerMooreLookahead.clearSkipTable_getD (t : List Nat) (j d : Nat) :
    (BoyerMooreLookahead.clearSkipTable t).getD j d =
      if j < RegExpMacroAssembler.kTableSize ∧ j < t.length then
        BoyerMooreLookahead.kSkipArrayEntry else t.getD j d := by
  have h := foldl_cond_set_getD (List.range RegExpMacroAssembler.kTableSize) (fun _ => true)
    BoyerMooreLookahead.kSkipArrayEntry d t j
  simp only [if_true, List.mem_range, true_and] at h
  exact h

/-- The clearing loop keeps the length of the table. -/
theorem BoyerMooreLookahead.clearSkipTable_length (t : List Nat) :
    (BoyerMooreLookahead.clearSkipTable t).length = t.length := by
  have h := foldl_cond_set_length (List.range RegExpMacroAssembler.kTableSize) (fun _ => true)
    BoyerMooreLookahead.kSkipArrayEntry t
  simp only [if_true] at h
  exact h

/-- Entries of the table after marking one position info. -/
theorem BoyerMooreLookahead.markMap_getD (m : BoyerMoorePositionInfo) (t : List Nat) (j d : Nat) :
    (BoyerMooreLookahead.markMap m t).getD j d =
      if j < RegExpMacroAssembler.kTableSize ∧ m.at_ j = true ∧ j < t.length then
        BoyerMooreLookahead.kDontSkipArrayEntry else t.getD j d := by
  have h := foldl_cond_set_getD (List.range RegExpMacroAssembler.kTableSize) m.at_
    BoyerMooreLookahead.kDontSkipArrayEntry d t j
  simp only [List.mem_range] at h
  exact h

/-- Marking one position info keeps the length of the table. -/
theorem BoyerMooreLookahead.markMap_length (m : BoyerMoorePositionInfo) (t : List Nat) :
    (BoyerMooreLookahead.markMap m t).length = t.length :=
  foldl_cond_set_length _ _ _ _

/-- Marking an interval of position infos keeps the length of the table. -/
theorem BoyerMooreLookahead.markInterval_length (bm : BoyerMooreLookahead) (count i : Nat)
    (t : List Nat) : (BoyerMooreLookahead.markInterval bm count i t).length = t.length := by
  induction count generalizing i t with
  | zero => rfl
  | succ n ih =>
    simp only [BoyerMooreLookahead.markInterval]
    rw [ih, BoyerMooreLookahead.markMap_length]

/-- Entries of the table after marking the position infos `i, i - 1, ..., i -
count + 1`. -/
theorem BoyerMooreLookahead.markInterval_getD (bm : BoyerMooreLookahead) (count i : Nat)
    (t : List Nat) (j d : Nat) :
    (BoyerMooreLookahead.markInterval bm count i t).getD j d =
      if j < RegExpMacroAssembler.kTableSize ∧ j < t.length ∧
          ∃ k, k < count ∧ (bm.bitmap (i - k)).at_ j = true then
        BoyerMooreLookahead.kDontSkipArrayEntry else t.getD j d := by
  induction count generalizing i t with
  | zero => simp [BoyerMooreLookahead.markInterval]
  | succ n ih =>
    simp only [BoyerMooreLookahead.markInterval]
    rw [ih, BoyerMooreLookahead.markMap_getD, BoyerMooreLookahead.markMap_length]
    by_cases hj : j < RegExpMacroAssembler.kTableSize
    · by_cases hl : j < t.length
      · by_cases h0 : (bm.bitmap i).at_ j = true
        · have hex : ∃ k, k < n + 1 ∧ (bm.bitmap (i - k)).at_ j = true := ⟨0, by omega, by simpa using h0⟩
          simp only [hj, hl, h0, hex, and_self, if_true, true_and]
          split <;> rfl
        · have hiff : (∃ k, k < n ∧ (bm.bitmap (i - 1 - k)).at_ j = true) ↔
              (∃ k, k < n + 1 ∧ (bm.bitmap (i - k)).at_ j = true) := by
            constructor
            · rintro ⟨k, hk, hb⟩
              exact ⟨k + 1, by omega, by rw [show i - (k + 1) = i - 1 - k by omega]; exact hb⟩
            · rintro ⟨k, hk, hb⟩
              cases k with
              | zero => exact absurd (by simpa using hb) h0
              | succ k => exact ⟨k, by omega, by rw [show i - 1 - k = i - (k + 1) by omega]; exact hb⟩
          simp only [hj, hl, h0, hiff, true_and, false_and, if_false]
          simp
      · simp [hl]
    · simp [hj]

/-- C2: for an interval `[min_lookahead, max_lookahead]` inside the lookahead
and a table of `kTableSize` entries, `GetSkipTable` returns the skip distance
`max_lookahead - min_lookahead + 1`; entry `j` of the table is
`kDontSkipArrayEntry` exactly when some bitmap of the interval has entry `j`
set, and `kSkipArrayEntry` otherwise; and if the lookahead is sound for the
subject and the table entry of the code unit at `p + max_lookahead` is
`kSkipArrayEntry`, then no match begins at any of `p, ..., p + skip - 1`. -/
theorem BoyerMooreLookahead.GetSkipTable_sound (bm : BoyerMooreLookahead)
    (min_lookahead max_lookahead : Nat) (boolean_skip_table : List Nat)
    (hsize : boolean_skip_table.length = RegExpMacroAssembler.kTableSize)
    (hmin : min_lookahead ≤ max_lookahead) (hmax : max_lookahead < bm.length_) :
    (bm.GetSkipTable min_lookahead max_lookahead boolean_skip_table).1 =
        max_lookahead - min_lookahead + 1 ∧
    (∀ j, j < RegExpMacroAssembler.kTableSize →
      ((bm.GetSkipTable min_lookahead max_lookahead boolean_skip_table).2[j]? =
          some BoyerMooreLookahead.kDontSkipArrayEntry ↔
        ∃ i, min_lookahead ≤ i ∧ i ≤ max_lookahead ∧ (bm.bitmap i).at_ j = true) ∧
      ((bm.GetSkipTable min_lookahead max_lookahead boolean_skip_table).2[j]? =
          some BoyerMooreLookahead.kSkipArrayEntry ↔
        ¬ ∃ i, min_lookahead ≤ i ∧ i ≤ max_lookahead ∧ (bm.bitmap i).at_ j = true)) ∧
    (∀ (subject : List Nat) (matchBeginsAt : Nat → Prop),
      bm.SoundFor subject matchBeginsAt →
      ∀ p c, subject[p + max_lookahead]? = some c →
        RegExpMacroAssembler.tableEntry
            (bm.GetSkipTable min_lookahead max_lookahead boolean_skip_table).2 c =
          BoyerMooreLookahead.kSkipArrayEntry →
        ∀ k, k < (bm.GetSkipTable min_lookahead max_lookahead boolean_skip_table).1 →
          ¬ matchBeginsAt (p + k)) := by
  have hentry : ∀ j, j < RegExpMacroAssembler.kTableSize →
      ((∃ i, min_lookahead ≤ i ∧ i ≤ max_lookahead ∧ (bm.bitmap i).at_ j = true) →
        (bm.GetSkipTable min_lookahead max_lookahead boolean_skip_table).2.getD j 0 =
          BoyerMooreLookahead.kDontSkipArrayEntry) ∧
      ((¬ ∃ i, min_lookahead ≤ i ∧ i ≤ max_lookahead ∧ (bm.bitmap i).at_ j = true) →
        (bm.GetSkipTable min_lookahead max_lookahead boolean_skip_table).2.getD j 0 =
          BoyerMooreLookahead.kSkipArrayEntry) := by
    intro j hj
    simp only [BoyerMooreLookahead.GetSkipTable]
    rw [BoyerMooreLookahead.markInterval_getD, BoyerMooreLookahead.clearSkipTable_getD,
      BoyerMooreLookahead.clearSkipTable_length]
    have hiff : (∃ k, k < max_lookahead + 1 - min_lookahead ∧
          (bm.bitmap (max_lookahead - k)).at_ j = true) ↔
        ∃ i, min_lookahead ≤ i ∧ i ≤ max_lookahead ∧ (bm.bitmap i).at_ j = true := by
      constructor
      · rintro ⟨k, hk, hb⟩
        exact ⟨max_lookahead - k, by omega, by omega, hb⟩
      · rintro ⟨i, h1, h2, hb⟩
        exact ⟨max_lookahead - i, by omega,
          by rw [show max_lookahead - (max_lookahead - i) = i by omega]; exact hb⟩
    rw [← hiff]
    constructor
    · intro hex
      rw [if_pos ⟨hj, by rw [hsize]; exact hj, hex⟩]
    · intro hex
      rw [if_neg (fun h => hex h.2.2), if_pos ⟨hj, by rw [hsize]; exact hj⟩]
  have hlen : (bm.GetSkipTable min_lookahead max_lookahead boolean_skip_table).2.length =
      RegExpMacroAssembler.kTableSize := by
    simp only [BoyerMooreLookahead.GetSkipTable]
    rw [BoyerMooreLookahead.markInterval_length, BoyerMooreLookahead.clearSkipTable_length, hsize]
  have hget : ∀ j, j < RegExpMacroAssembler.kTableSize → ∀ v,
      ((bm.GetSkipTable min_lookahead max_lookahead boolean_skip_table).2[j]? = some v ↔
        (bm.GetSkipTable min_lookahead max_lookahead boolean_skip_table).2.getD j 0 = v) := by
    intro j hj v
    have hjl : j < (bm.GetSkipTable min_lookahead max_lookahead boolean_skip_table).2.length := by
      rw [hlen]; exact hj
    rw [List.getD_eq_getElem?_getD, List.getElem?_eq_getElem hjl]
    simp
  refine ⟨by simp only [BoyerMooreLookahead.GetSkipTable]; omega, ?_, ?_⟩
  · intro j hj
    rw [hget j hj, hget j hj]
    by_cases hex : ∃ i, min_lookahead ≤ i ∧ i ≤ max_lookahead ∧ (bm.bitmap i).at_ j = true
    · rw [(hentry j hj).1 hex]
      simp [hex, BoyerMooreLookahead.kDontSkipArrayEntry, BoyerMooreLookahead.kSkipArrayEntry]
    · rw [(hentry j hj).2 hex]
      simp [hex, BoyerMooreLookahead.kDontSkipArrayEntry, BoyerMooreLookahead.kSkipArrayEntry]
  · intro subject matchBeginsAt hsound p c hc hskip k hk hmatch
    have hk2 : k ≤ max_lookahead - min_lookahead := by
      simp only [BoyerMooreLookahead.GetSkipTable] at hk
      omega
    obtain ⟨c2, hc2, hbit⟩ := hsound (p + k) hmatch (max_lookahead - k) (by omega)
    rw [show p + k + (max_lookahead - k) = p + max_lookahead by omega, hc] at hc2
    cases hc2
    have hlt : c &&& RegExpMacroAssembler.kTableMask < RegExpMacroAssembler.kTableSize := by
      have := @Nat.and_le_right c RegExpMacroAssembler.kTableMask
      simp only [RegExpMacroAssembler.kTableMask, RegExpMacroAssembler.kTableSize] at this ⊢
      omega
    have hex : ∃ i, min_lookahead ≤ i ∧ i ≤ max_lookahead ∧
        (bm.bitmap i).at_ (c &&& RegExpMacroAssembler.kTableMask) = true :=
      ⟨max_lookahead - k, by omega, by omega, hbit⟩
    have h := (hentry _ hlt).1 hex
    simp only [RegExpMacroAssembler.tableEntry] at hskip
    rw [hskip] at h
    simp [BoyerMooreLookahead.kDontSkipArrayEntry, BoyerMooreLookahead.kSkipArrayEntry] at h

/-- Witness for C2: the lookahead of the text `ab` over the subject `xyab`,
interval `[0, 1]`, position `0`; the match begins at `2`, outside the skipped
positions `0` and `1`. -/
theorem BoyerMooreLookahead.GetSkipTable_sound_witness :
    (0 ≤ 1 ∧ 1 < BoyerMooreLookahead.forAB.length_) ∧
    (BoyerMooreLookahead.forAB.GetSkipTable 0 1 (List.replicate 128 7)).1 = 1 - 0 + 1 ∧
    (∀ k, k < (BoyerMooreLookahead.forAB.GetSkipTable 0 1 (List.replicate 128 7)).1 →
      ¬ (0 + k = 2)) := by
  have h := BoyerMooreLookahead.GetSkipTable_sound BoyerMooreLookahead.forAB 0 1
    (List.replicate 128 7) (by simp [RegExpMacroAssembler.kTableSize]) (by decide) (by decide)
  refine ⟨by decide, h.1, ?_⟩
  refine h.2.2 [120, 121, 97, 98] (fun q => q = 2) ?_ 0 121 (by decide) (by rfl)
  intro q hq i hi
  subst hq
  have hi2 : i < 2 := hi
  interval_cases i
  · exact ⟨97, by decide, by decide⟩
  · exact ⟨98, by decide, by decide⟩

/-! ## Deferred actions -/

/-- Running a concatenation runs the parts in order. -/
theorem MacroOp.run_append (ops1 ops2 : List MacroOp) (m : RegExpMachine) :
    MacroOp.run (ops1 ++ ops2) m = MacroOp.run ops2 (MacroOp.run ops1 m) := by
  simp [MacroOp.run, List.foldl_append]

/-- The operation for the last action changes only the register `reg`, to the
effect of the scan. -/
theorem Trace.lastActionOps_run (reg : Int) (scan : Trace.RegisterScan) (m : RegExpMachine) :
    (MacroOp.run (Trace.lastActionOps reg scan) m).current_position = m.current_position ∧
    (MacroOp.run (Trace.lastActionOps reg scan) m).stack = m.stack ∧
    ∀ r, (MacroOp.run (Trace.lastActionOps reg scan) m).registers r =
      if r = reg then scan.effect m.current_position (m.registers r) else m.registers r := by
  unfold Trace.lastActionOps Trace.RegisterScan.effect
  by_cases h1 : scan.store_position ≠ Trace.kNoStore
  · simp [h1, MacroOp.run, MacroOp.exec]
  · by_cases h2 : scan.clear = true
    · simp only [h1, h2, if_false, if_true, MacroOp.run, List.foldl, MacroOp.exec, true_and]
      intro r
      by_cases hr : r = reg
      · simp [hr]
      · have : ¬ (reg ≤ r ∧ r ≤ reg) := fun h => hr (le_antisymm h.2 h.1)
        simp [hr, this]
    · by_cases h3 : scan.absolute = true
      · simp [h1, h2, h3, MacroOp.run, MacroOp.exec]
      · by_cases h4 : scan.value ≠ 0
        · simp [h1, h2, h3, h4, MacroOp.run, MacroOp.exec]
        · have h4' : scan.value = 0 := by simpa using h4
          simp [h1, h2, h3, h4', MacroOp.run]

/-- One iteration of the register loop appends operations that change at most
the register of the iteration, to the effect of its scan, and leave the
current position alone. -/
theorem Trace.performRegister_ops (actions : List Trace.DeferredAction) (push_limit : Int)
    (affected : OutSet) (st : Trace.PerformState) (reg : Nat) :
    ∃ tail, (Trace.performRegister actions push_limit affected st reg).ops = st.ops ++ tail ∧
      ∀ m, (MacroOp.run tail m).current_position = m.current_position ∧
        ∀ r, (MacroOp.run tail m).registers r =
          if r = (reg : Int) ∧ affected.Get reg = true then
            (Trace.scanRegister actions reg).effect m.current_position (m.registers r)
          else m.registers r := by
  unfold Trace.performRegister
  by_cases haff : affected.Get reg = true
  · simp only [haff, Bool.not_true, Bool.false_eq_true, if_false, and_true]
    have key : ∀ (pre : List MacroOp),
        (∀ m, (MacroOp.run pre m).current_position = m.current_position ∧
          (MacroOp.run pre m).registers = m.registers) →
        ∀ m, (MacroOp.run (pre ++ Trace.lastActionOps reg (Trace.scanRegister actions reg)) m).current_position
              = m.current_position ∧
          ∀ r, (MacroOp.run (pre ++ Trace.lastActionOps reg (Trace.scanRegister actions reg)) m).registers r =
            if r = (reg : Int) then
              (Trace.scanRegister actions reg).effect m.current_position (m.registers r)
            else m.registers r := by
      intro pre hpre m
      rw [MacroOp.run_append]
      have h := Trace.lastActionOps_run reg (Trace.scanRegister actions reg) (MacroOp.run pre m)
      rw [(hpre m).1, (hpre m).2] at h
      exact ⟨h.1, h.2.2⟩
    have hpush : ∀ flag m, (MacroOp.run [MacroOp.PushRegister reg flag] m).current_position
          = m.current_position ∧
        (MacroOp.run [MacroOp.PushRegister reg flag] m).registers = m.registers := by
      intro flag m
      simp [MacroOp.run, MacroOp.exec]
    have hnil : ∀ m, (MacroOp.run [] m).current_position = m.current_position ∧
        (MacroOp.run [] m).registers = m.registers := by
      intro m
      simp [MacroOp.run]
    cases hu : (Trace.scanRegister actions reg).undo_action with
    | IGNORE =>
      exact ⟨Trace.lastActionOps reg (Trace.scanRegister actions reg), rfl, by simpa using key [] hnil⟩
    | CLEAR =>
      exact ⟨Trace.lastActionOps reg (Trace.scanRegister actions reg), rfl, by simpa using key [] hnil⟩
    | RESTORE =>
      by_cases hp : st.pushes + 1 = push_limit
      · simp only [hp, if_true]
        exact ⟨[MacroOp.PushRegister reg .kCheckStackLimit] ++
          Trace.lastActionOps reg (Trace.scanRegister actions reg), by simp,
          key _ (hpush _)⟩
      · simp only [hp, if_false]
        exact ⟨[MacroOp.PushRegister reg .kNoStackLimitCheck] ++
          Trace.lastActionOps reg (Trace.scanRegister actions reg), by simp,
          key _ (hpush _)⟩
  · simp only [haff, Bool.not_false, if_true, and_false, if_false]
    exact ⟨[], by simp, fun m => by simp [MacroOp.run]⟩

/-- The register loop over distinct registers appends operations that give
every affected register of the loop the effect of its scan and leave the
others alone. -/
theorem Trace.performRegisters_ops (actions : List Trace.DeferredAction) (push_limit : Int)
    (affected : OutSet) (regs : List Nat) (hnodup : regs.Nodup) (st : Trace.PerformState) :
    ∃ tail, (regs.foldl (Trace.performRegister actions push_limit affected) st).ops
        = st.ops ++ tail ∧
      ∀ m, (MacroOp.run tail m).current_position = m.current_position ∧
        ∀ reg : Nat, (MacroOp.run tail m).registers reg =
          if reg ∈ regs ∧ affected.Get reg = true then
            (Trace.scanRegister actions reg).effect m.current_position (m.registers reg)
          else m.registers reg := by
  induction regs generalizing st with
  | nil => exact ⟨[], by simp, fun m => by simp [MacroOp.run]⟩
  | cons k regs ih =>
    obtain ⟨hk, hnd⟩ := List.nodup_cons.mp hnodup
    obtain ⟨t1, ht1, h1⟩ := Trace.performRegister_ops actions push_limit affected st k
    obtain ⟨t2, ht2, h2⟩ := ih hnd (Trace.performRegister actions push_limit affected st k)
    refine ⟨t1 ++ t2, by simp [List.foldl_cons, ht2, ht1], ?_⟩
    intro m
    rw [MacroOp.run_append]
    refine ⟨by rw [(h2 _).1, (h1 m).1], ?_⟩
    intro reg
    rw [(h2 _).2 reg, (h1 m).1, (h1 m).2 reg]
    by_cases hrk : reg = k
    · subst hrk
      simp [hk]
    · have : ¬ ((reg : Int) = (k : Int)) := by exact_mod_cast hrk
      simp [hrk, this]

/-- The deferred actions do not move the current position. -/
theorem Trace.runDeferred_current_position (actions : List Trace.DeferredAction)
    (m : RegExpMachine) : (Trace.runDeferred actions m).current_position = m.current_position := by
  induction actions with
  | nil => rfl
  | cons a older ih =>
    simp only [Trace.runDeferred]
    cases a <;> simpa [Trace.DeferredAction.toOp, MacroOp.exec] using ih

/-- An action leaves alone the registers it does not mention. -/
theorem Trace.toOp_exec_not_mentioned (a : Trace.DeferredAction) (reg : Int)
    (h : a.Mentions reg = false) (m : RegExpMachine) :
    (a.toOp.exec m).registers reg = m.registers reg := by
  cases a with
  | DeferredSetRegister r v =>
    have : ¬ reg = r := by
      intro e; simp [Trace.DeferredAction.Mentions, Trace.DeferredAction.reg, e] at h
    simp [Trace.DeferredAction.toOp, MacroOp.exec, this]
  | DeferredIncrementRegister r =>
    have : ¬ reg = r := by
      intro e; simp [Trace.DeferredAction.Mentions, Trace.DeferredAction.reg, e] at h
    simp [Trace.DeferredAction.toOp, MacroOp.exec, this]
  | DeferredCapture r c o =>
    have : ¬ reg = r := by
      intro e; simp [Trace.DeferredAction.Mentions, Trace.DeferredAction.reg, e] at h
    simp [Trace.DeferredAction.toOp, MacroOp.exec, this]
  | DeferredClearCaptures range =>
    have : ¬ (range.from_ ≤ reg ∧ reg ≤ range.to_) := by
      intro e
      simp [Trace.DeferredAction.Mentions, Interval.Contains, e.1, e.2] at h
    simp [Trace.DeferredAction.toOp, MacroOp.exec, this]

/-- For a register with only `SET_REGISTER` and `INCREMENT_REGISTER` actions,
the effect of the scan is the chronological execution. -/
theorem Trace.scan_counter (actions : List Trace.DeferredAction) (reg : Int)
    (hfam : Trace.onlyCounterActions actions reg) (st : Trace.RegisterScan)
    (hs : st.store_position = Trace.kNoStore) (hc : st.clear = false) (m : RegExpMachine) :
    (actions.foldl (Trace.scanAction reg) st).effect m.current_position (m.registers reg) =
      st.effect m.current_position ((Trace.runDeferred actions m).registers reg) := by
  induction actions generalizing st with
  | nil => rfl
  | cons a older ih =>
    have hold : Trace.onlyCounterActions older reg :=
      fun b hb => hfam b (List.mem_cons_of_mem _ hb)
    simp only [List.foldl_cons, Trace.runDeferred]
    by_cases hm : a.Mentions reg = true
    · have hty := hfam a (List.mem_cons_self _ _) hm
      cases a with
      | DeferredSetRegister r v =>
        have hr : r = reg := by
          simpa [Trace.DeferredAction.Mentions, Trace.DeferredAction.reg] using hm
        subst hr
        rw [ih hold _ (by simp [Trace.scanAction, hm, hs]) (by simp [Trace.scanAction, hm, hc])]
        simp only [Trace.scanAction, hm, if_true, Trace.RegisterScan.effect, hs, hc,
          Trace.DeferredAction.toOp, MacroOp.exec]
        cases hab : st.absolute <;> simp [add_comm]
      | DeferredIncrementRegister r =>
        have hr : r = reg := by
          simpa [Trace.DeferredAction.Mentions, Trace.DeferredAction.reg] using hm
        subst hr
        rw [ih hold _ (by simp [Trace.scanAction, hm, hs]) (by simp [Trace.scanAction, hm, hc])]
        simp only [Trace.scanAction, hm, if_true, Trace.RegisterScan.effect, hs, hc,
          Trace.DeferredAction.toOp, MacroOp.exec]
        cases hab : st.absolute <;> simp [add_comm, add_left_comm, add_assoc]
      | DeferredCapture r c o => simp [Trace.DeferredAction.action_type] at hty
      | DeferredClearCaptures range => simp [Trace.DeferredAction.action_type] at hty
    · have hm' : a.Mentions reg = false := by simpa using hm
      have hst : Trace.scanAction reg st a = st := by simp [Trace.scanAction, hm']
      rw [hst, ih hold st hs hc, Trace.toOp_exec_not_mentioned a reg hm']

/-- For a register with only `STORE_POSITION` and `CLEAR_CAPTURES` actions,
the effect of the scan is the chronological execution. -/
theorem Trace.scan_position (actions : List Trace.DeferredAction) (reg : Int)
    (hfam : Trace.onlyPositionActions actions reg) (st : Trace.RegisterScan)
    (hv : st.value = 0) (ha : st.absolute = false) (m : RegExpMachine) :
    (actions.foldl (Trace.scanAction reg) st).effect m.current_position (m.registers reg) =
      st.effect m.current_position ((Trace.runDeferred actions m).registers reg) := by
  induction actions generalizing st with
  | nil => rfl
  | cons a older ih =>
    have hold : Trace.onlyPositionActions older reg :=
      fun b hb => hfam b (List.mem_cons_of_mem _ hb)
    simp only [List.foldl_cons, Trace.runDeferred]
    by_cases hm : a.Mentions reg = true
    · have hty := hfam a (List.mem_cons_self _ _) hm
      cases a with
      | DeferredSetRegister r v => simp [Trace.DeferredAction.action_type] at hty
      | DeferredIncrementRegister r => simp [Trace.DeferredAction.action_type] at hty
      | DeferredCapture r c o =>
        have hr : r = reg := by
          simpa [Trace.DeferredAction.Mentions, Trace.DeferredAction.reg] using hm
        subst hr
        have ho : o ≠ Trace.kNoStore := hty.2 r c o rfl
        rw [ih hold _ (by simp [Trace.scanAction, hm, hv]) (by simp [Trace.scanAction, hm, ha])]
        simp only [Trace.scanAction, hm, if_true, Trace.RegisterScan.effect, hv, ha,
          Trace.DeferredAction.toOp, MacroOp.exec, Trace.runDeferred_current_position]
        by_cases hsp : st.store_position = Trace.kNoStore
        · cases hcl : st.clear <;> simp [hsp, ho]
        · simp [hsp]
      | DeferredClearCaptures range =>
        have hin : range.from_ ≤ reg ∧ reg ≤ range.to_ := by
          simpa [Trace.DeferredAction.Mentions, Interval.Contains] using hm
        rw [ih hold _ (by simp [Trace.scanAction, hm, hv]) (by simp [Trace.scanAction, hm, ha])]
        simp only [Trace.scanAction, hm, if_true, Trace.RegisterScan.effect, hv, ha,
          Trace.DeferredAction.toOp, MacroOp.exec]
        by_cases hsp : st.store_position = Trace.kNoStore
        · cases hcl : st.clear <;> simp [hsp, hin]
        · simp [hsp]
    · have hm' : a.Mentions reg = false := by simpa using hm
      have hst : Trace.scanAction reg st a = st := by simp [Trace.scanAction, hm']
      rw [hst, ih hold st hv ha, Trace.toOp_exec_not_mentioned a reg hm']

/-- C3: for every trace (its deferred actions, newest first), every
register `reg <= max_register` of the affected set whose deferred actions
are all `SET_REGISTER`/`INCREMENT_REGISTER`, or all
`STORE_POSITION`/`CLEAR_CAPTURES` (with stored offsets other than the
sentinel `kNoStore`), and every machine state, running the operations that
`Trace::PerformDeferredActions` emits leaves `reg` with the value that
executing all deferred actions one by one in chronological order gives it. -/
theorem Trace.PerformDeferredActions_last_action (actions : List Trace.DeferredAction)
    (stack_limit_slack max_register : Int)
    (affected_registers registers_to_pop registers_to_clear : OutSet) (reg : Nat)
    (hreg : (reg : Int) ≤ max_register) (haff : affected_registers.Get reg = true)
    (hfam : Trace.onlyCounterActions actions reg ∨ Trace.onlyPositionActions actions reg)
    (m : RegExpMachine) :
    (MacroOp.run (Trace.PerformDeferredActions actions stack_limit_slack max_register
        affected_registers registers_to_pop registers_to_clear).ops m).registers reg =
      (Trace.runDeferred actions m).registers reg := by
  obtain ⟨tail, htail, hrun⟩ := Trace.performRegisters_ops actions
    ((stack_limit_slack + 1).tdiv 2) affected_registers
    (List.range (max_register + 1).toNat) (List.nodup_range _)
    { pushes := 0, ops := [], registers_to_pop := registers_to_pop,
      registers_to_clear := registers_to_clear }
  have hops : (Trace.PerformDeferredActions actions stack_limit_slack max_register
      affected_registers registers_to_pop registers_to_clear).ops = tail := by
    simpa [Trace.PerformDeferredActions] using htail
  have hmem : reg ∈ List.range (max_register + 1).toNat := by
    rw [List.mem_range]
    omega
  rw [hops, (hrun m).2 reg, if_pos ⟨hmem, haff⟩]
  have hinit : ∀ x, Trace.RegisterScan.init.effect m.current_position x = x := by
    intro x
    simp [Trace.RegisterScan.effect, Trace.RegisterScan.init]
  rcases hfam with hfam | hfam
  · have h := Trace.scan_counter actions reg hfam Trace.RegisterScan.init rfl rfl m
    rw [hinit] at h
    exact h
  · have h := Trace.scan_position actions reg hfam Trace.RegisterScan.init rfl rfl m
    rw [hinit] at h
    exact h

/-- Witness for C3: the trace `INCREMENT 2; SET 2 := 5; INCREMENT 2;
INCREMENT 2` (chronological order) on a machine whose registers hold `3`;
the single emitted `SetRegister(2, 7)` and the four actions both leave `7`. -/
theorem Trace.PerformDeferredActions_last_action_witness :
    (MacroOp.run (Trace.PerformDeferredActions
        [.DeferredIncrementRegister 2, .DeferredIncrementRegister 2,
          .DeferredSetRegister 2 5, .DeferredIncrementRegister 2]
        8 2 (OutSet.empty.Set 2) OutSet.empty OutSet.empty).ops
        { registers := fun _ => 3, current_position := 10, stack := [] }).registers (2 : Nat) =
      (Trace.runDeferred
        [.DeferredIncrementRegister 2, .DeferredIncrementRegister 2,
          .DeferredSetRegister 2 5, .DeferredIncrementRegister 2]
        { registers := fun _ => 3, current_position := 10, stack := [] }).registers (2 : Nat) ∧
    (Trace.runDeferred
        [.DeferredIncrementRegister 2, .DeferredIncrementRegister 2,
          .DeferredSetRegister 2 5, .DeferredIncrementRegister 2]
        { registers := fun _ => 3, current_position := 10, stack := [] }).registers (2 : Nat) = 7 :=
  ⟨Trace.PerformDeferredActions_last_action _ 8 2 (OutSet.empty.Set 2) OutSet.empty OutSet.empty 2
    (by decide) (by decide)
    (Or.inl (by unfold Trace.onlyCounterActions; decide)) _, by decide⟩

/-! ## Results cache -/

/-- The primary index is a multiple of four below the table size, and the
displacement index is the next slot, wrapping around. -/
theorem RegExpResultsCache.index_facts (hash : Nat) :
    RegExpResultsCache.primaryIndex hash % 4 = 0 ∧
    RegExpResultsCache.primaryIndex hash ≤ 252 ∧
    RegExpResultsCache.secondaryIndex (RegExpResultsCache.primaryIndex hash) =
      (RegExpResultsCache.primaryIndex hash + 4) % 256 := by
  have hall : ∀ h, h < 256 →
      (h &&& not32 (RegExpResultsCache.kArrayEntriesPerCacheEntry - 1)) % 4 = 0 ∧
      (h &&& not32 (RegExpResultsCache.kArrayEntriesPerCacheEntry - 1)) ≤ 252 ∧
      RegExpResultsCache.secondaryIndex
          (h &&& not32 (RegExpResultsCache.kArrayEntriesPerCacheEntry - 1)) =
        ((h &&& not32 (RegExpResultsCache.kArrayEntriesPerCacheEntry - 1)) + 4) % 256 := by
    decide
  have hlt : u32 hash &&& (RegExpResultsCache.kRegExpResultsCacheSize - 1) < 256 := by
    have := @Nat.and_le_right (u32 hash) (RegExpResultsCache.kRegExpResultsCacheSize - 1)
    simp only [RegExpResultsCache.kRegExpResultsCacheSize] at this ⊢
    omega
  exact hall _ hlt

/-- Reading a `FixedArray` after a store inside it. -/
theorem FixedArray.get_set (a : List Object) (i j : Nat) (v : Object) (hi : i < a.length) :
    FixedArray.get (a.set i v) j = if i = j then v else FixedArray.get a j := by
  unfold FixedArray.get
  by_cases h : i = j
  · subst h
    simp [List.getD_eq_getElem?_getD, List.getElem?_set, hi]
  · simp [List.getD_eq_getElem?_getD, List.getElem?_set, h]

/-- Filling a slot keeps the length of the cache. -/
theorem RegExpResultsCache.setEntry_length (cache : List Object) (index : Nat)
    (a b c d : Object) : (RegExpResultsCache.setEntry cache index a b c d).length = cache.length := by
  simp [RegExpResultsCache.setEntry]

/-- Reading the cache after a slot has been filled. -/
theorem RegExpResultsCache.get_setEntry (cache : List Object) (index j : Nat)
    (a b c d : Object) (hi : index + 3 < cache.length) :
    FixedArray.get (RegExpResultsCache.setEntry cache index a b c d) j =
      if j = index then a else if j = index + 1 then b else if j = index + 2 then c
      else if j = index + 3 then d else FixedArray.get cache j := by
  unfold RegExpResultsCache.setEntry
  simp only [RegExpResultsCache.kStringOffset, RegExpResultsCache.kPatternOffset,
    RegExpResultsCache.kArrayOffset, RegExpResultsCache.kLastMatchOffset, Nat.add_zero]
  rw [FixedArray.get_set _ _ _ _ (by simp; omega), FixedArray.get_set _ _ _ _ (by simp; omega),
    FixedArray.get_set _ _ _ _ (by simp; omega), FixedArray.get_set _ _ _ _ (by omega)]
  by_cases h0 : j = index
  · subst h0; simp
  · by_cases h1 : j = index + 1
    · subst h1; simp
    · by_cases h2 : j = index + 2
      · subst h2; simp
      · by_cases h3 : j = index + 3
        · subst h3; simp
        · simp [h0, h1, h2, h3, Ne.symm h0, Ne.symm h1, Ne.symm h2, Ne.symm h3]

/-- Filling a slot leaves the fields outside it alone. -/
theorem RegExpResultsCache.get_setEntry_other (cache : List Object) (index j : Nat)
    (a b c d : Object) (hi : index + 3 < cache.length) (hj : j < index ∨ index + 3 < j) :
    FixedArray.get (RegExpResultsCache.setEntry cache index a b c d) j = FixedArray.get cache j := by
  rw [RegExpResultsCache.get_setEntry _ _ _ _ _ _ _ hi]
  rw [if_neg (by omega), if_neg (by omega), if_neg (by omega), if_neg (by omega)]

/-- The probe answers from the primary slot when that slot holds the keys. -/
theorem RegExpResultsCache.lookupCache_primary (cache : List Object) (key_string : HeapString)
    (key_pattern : Object)
    (h0 : FixedArray.get cache (RegExpResultsCache.primaryIndex key_string.hash) =
      Object.string key_string)
    (h1 : FixedArray.get cache (RegExpResultsCache.primaryIndex key_string.hash + 1) =
      key_pattern) :
    RegExpResultsCache.lookupCache cache key_string key_pattern =
      (FixedArray.get cache (RegExpResultsCache.primaryIndex key_string.hash + 2),
        some (FixedArray.get cache (RegExpResultsCache.primaryIndex key_string.hash + 3))) := by
  unfold RegExpResultsCache.lookupCache
  simp [RegExpResultsCache.kStringOffset, RegExpResultsCache.kPatternOffset,
    RegExpResultsCache.kArrayOffset, RegExpResultsCache.kLastMatchOffset, h0, h1]

/-- The probe answers from the displacement slot when the primary slot does
not hold the keys and the displacement slot does. -/
theorem RegExpResultsCache.lookupCache_secondary (cache : List Object) (key_string : HeapString)
    (key_pattern : Object)
    (hp : ¬ (FixedArray.get cache (RegExpResultsCache.primaryIndex key_string.hash) =
        Object.string key_string ∧
      FixedArray.get cache (RegExpResultsCache.primaryIndex key_string.hash + 1) = key_pattern))
    (h0 : FixedArray.get cache (RegExpResultsCache.secondaryIndex
      (RegExpResultsCache.primaryIndex key_string.hash)) = Object.string key_string)
    (h1 : FixedArray.get cache (RegExpResultsCache.secondaryIndex
      (RegExpResultsCache.primaryIndex key_string.hash) + 1) = key_pattern) :
    RegExpResultsCache.lookupCache cache key_string key_pattern =
      (FixedArray.get cache (RegExpResultsCache.secondaryIndex
          (RegExpResultsCache.primaryIndex key_string.hash) + 2),
        some (FixedArray.get cache (RegExpResultsCache.secondaryIndex
          (RegExpResultsCache.primaryIndex key_string.hash) + 3))) := by
  unfold RegExpResultsCache.lookupCache
  have hp' : FixedArray.get cache (RegExpResultsCache.primaryIndex key_string.hash) ≠
        Object.string key_string ∨
      FixedArray.get cache (RegExpResultsCache.primaryIndex key_string.hash + 1) ≠
        key_pattern := by
    by_contra hcon
    push_neg at hcon
    exact hp hcon
  simp only [RegExpResultsCache.kStringOffset, RegExpResultsCache.kPatternOffset,
    RegExpResultsCache.kArrayOffset, RegExpResultsCache.kLastMatchOffset, Nat.add_zero]
  rw [if_pos hp', if_neg (by rw [h0, h1]; simp)]

/-- The probe after the stores of `Enter` on one cache: it finds the entered
arrays exactly when the cache was not in the shadowed state. -/
theorem RegExpResultsCache.lookupCache_enterCache (cache : List Object) (key_string : HeapString)
    (key_pattern value_array last_match_cache : Object)
    (hlen : cache.length = RegExpResultsCache.kRegExpResultsCacheSize) :
    RegExpResultsCache.lookupCache
        (RegExpResultsCache.enterCache cache key_string key_pattern value_array last_match_cache)
        key_string key_pattern = (value_array, some last_match_cache) ↔
      ¬ RegExpResultsCache.shadowed cache key_string key_pattern value_array last_match_cache := by
  obtain ⟨hmod, hle, hsec⟩ := RegExpResultsCache.index_facts key_string.hash
  have hlen' : cache.length = 256 := hlen
  have hstr : Object.string key_string ≠ Smi.kZero := by simp [Smi.kZero]
  have hPb : RegExpResultsCache.primaryIndex key_string.hash + 3 < cache.length := by omega
  have hSb : RegExpResultsCache.secondaryIndex (RegExpResultsCache.primaryIndex key_string.hash)
      + 3 < cache.length := by omega
  have hdisj : RegExpResultsCache.primaryIndex key_string.hash + 3 <
        RegExpResultsCache.secondaryIndex (RegExpResultsCache.primaryIndex key_string.hash) ∨
      RegExpResultsCache.secondaryIndex (RegExpResultsCache.primaryIndex key_string.hash) + 3 <
        RegExpResultsCache.primaryIndex key_string.hash := by omega
  unfold RegExpResultsCache.enterCache RegExpResultsCache.shadowed
  simp only [RegExpResultsCache.kStringOffset, RegExpResultsCache.kPatternOffset,
    RegExpResultsCache.kArrayOffset, RegExpResultsCache.kLastMatchOffset, Nat.add_zero]
  by_cases h1 : FixedArray.get cache (RegExpResultsCache.primaryIndex key_string.hash) = Smi.kZero
  · rw [if_pos h1, RegExpResultsCache.lookupCache_primary _ _ _
      (by rw [RegExpResultsCache.get_setEntry _ _ _ _ _ _ _ hPb]; simp)
      (by rw [RegExpResultsCache.get_setEntry _ _ _ _ _ _ _ hPb]; simp)]
    rw [RegExpResultsCache.get_setEntry _ _ _ _ _ _ _ hPb,
      RegExpResultsCache.get_setEntry _ _ _ _ _ _ _ hPb]
    have hne : ¬ FixedArray.get cache (RegExpResultsCache.primaryIndex key_string.hash) =
        Object.string key_string := by
      rw [h1]; exact fun h => hstr h.symm
    simp [hne]
  · rw [if_neg h1]
    by_cases h2 : FixedArray.get cache (RegExpResultsCache.secondaryIndex (RegExpResultsCache.primaryIndex key_string.hash)) = Smi.kZero
    · rw [if_pos h2]
      have hoth : ∀ k, k ≤ 3 →
          FixedArray.get (RegExpResultsCache.setEntry cache (RegExpResultsCache.secondaryIndex (RegExpResultsCache.primaryIndex key_string.hash)) (Object.string key_string)
            key_pattern value_array last_match_cache)
            (RegExpResultsCache.primaryIndex key_string.hash + k) =
          FixedArray.get cache (RegExpResultsCache.primaryIndex key_string.hash + k) :=
        fun k hk => RegExpResultsCache.get_setEntry_other _ _ _ _ _ _ _ hSb (by omega)
      by_cases hk : FixedArray.get cache (RegExpResultsCache.primaryIndex key_string.hash) =
            Object.string key_string ∧
          FixedArray.get cache (RegExpResultsCache.primaryIndex key_string.hash + 1) =
            key_pattern
      · rw [RegExpResultsCache.lookupCache_primary _ _ _
          (by
            have e0 := hoth 0 (by omega)
            rw [Nat.add_zero] at e0
            rw [e0]; exact hk.1)
          (by rw [hoth 1 (by omega)]; exact hk.2)]
        rw [hoth 2 (by omega), hoth 3 (by omega)]
        simp only [Prod.mk.injEq, Option.some.injEq, hk.1, hk.2, h2, true_and, ne_eq]
        constructor
        · rintro ⟨ha, hb⟩ hcon
          rcases hcon with hcon | hcon
          · exact hcon ha
          · exact hcon hb
        · intro hcon
          constructor
          · by_contra ha
            exact hcon (Or.inl ha)
          · by_contra hb
            exact hcon (Or.inr hb)
      · have hgetS : ∀ j, FixedArray.get (RegExpResultsCache.setEntry cache (RegExpResultsCache.secondaryIndex (RegExpResultsCache.primaryIndex key_string.hash))
            (Object.string key_string) key_pattern value_array last_match_cache) j =
            if j = (RegExpResultsCache.secondaryIndex (RegExpResultsCache.primaryIndex key_string.hash)) then Object.string key_string else if j = (RegExpResultsCache.secondaryIndex (RegExpResultsCache.primaryIndex key_string.hash)) + 1 then key_pattern
            else if j = (RegExpResultsCache.secondaryIndex (RegExpResultsCache.primaryIndex key_string.hash)) + 2 then value_array else if j = (RegExpResultsCache.secondaryIndex (RegExpResultsCache.primaryIndex key_string.hash)) + 3 then last_match_cache
            else FixedArray.get cache j :=
          fun j => RegExpResultsCache.get_setEntry _ _ _ _ _ _ _ hSb
        rw [RegExpResultsCache.lookupCache_secondary _ _ _
          (by
            have e0 := hoth 0 (by omega)
            rw [Nat.add_zero] at e0
            rw [e0, hoth 1 (by omega)]; exact hk)
          (by rw [hgetS]; simp)
          (by rw [hgetS]; simp)]
        rw [hgetS, hgetS]
        have hsh : ¬ (FixedArray.get cache (RegExpResultsCache.primaryIndex key_string.hash) =
              Object.string key_string ∧
            FixedArray.get cache (RegExpResultsCache.primaryIndex key_string.hash + 1) =
              key_pattern ∧
            FixedArray.get cache (RegExpResultsCache.secondaryIndex (RegExpResultsCache.primaryIndex key_string.hash)) = Smi.kZero ∧
            (FixedArray.get cache (RegExpResultsCache.primaryIndex key_string.hash + 2) ≠
                value_array ∨
              FixedArray.get cache (RegExpResultsCache.primaryIndex key_string.hash + 3) ≠
                last_match_cache)) :=
          fun h => hk ⟨h.1, h.2.1⟩
        simp [hsh]
    · rw [if_neg h2]
      have hPb2 : RegExpResultsCache.primaryIndex key_string.hash + 3 <
          (RegExpResultsCache.setEntry cache (RegExpResultsCache.secondaryIndex (RegExpResultsCache.primaryIndex key_string.hash)) Smi.kZero Smi.kZero Smi.kZero Smi.kZero).length := by
        rw [RegExpResultsCache.setEntry_length]; exact hPb
      rw [RegExpResultsCache.lookupCache_primary _ _ _
        (by rw [RegExpResultsCache.get_setEntry _ _ _ _ _ _ _ hPb2]; simp)
        (by rw [RegExpResultsCache.get_setEntry _ _ _ _ _ _ _ hPb2]; simp)]
      rw [RegExpResultsCache.get_setEntry _ _ _ _ _ _ _ hPb2,
        RegExpResultsCache.get_setEntry _ _ _ _ _ _ _ hPb2]
      have hsh : ¬ (FixedArray.get cache (RegExpResultsCache.primaryIndex key_string.hash) =
            Object.string key_string ∧
          FixedArray.get cache (RegExpResultsCache.primaryIndex key_string.hash + 1) =
            key_pattern ∧
          FixedArray.get cache (RegExpResultsCache.secondaryIndex (RegExpResultsCache.primaryIndex key_string.hash)) = Smi.kZero ∧
          (FixedArray.get cache (RegExpResultsCache.primaryIndex key_string.hash + 2) ≠
              value_array ∨
            FixedArray.get cache (RegExpResultsCache.primaryIndex key_string.hash + 3) ≠
              last_match_cache)) :=
        fun h => h2 h.2.2.1
      simp [hsh]

/-- C4 (counterexample): in the cache state reached by one `Enter` of a key
with the arrays `#10`, `#11`, a second `Enter` of the same key with the
arrays `#20`, `#21` goes to the displacement slot, and the `Lookup` that
follows it still returns `#10` and stores `#11`: not the arrays just
entered. -/
theorem RegExpResultsCache.Lookup_after_Enter_counterexample :
    ({ id := 1, internalized := true, hash := 0 } : HeapString).internalized = true ∧
    RegExpResultsCache.admissiblePattern (Object.fixedArray 7) .REGEXP_MULTIPLE_INDICES = true ∧
    RegExpResultsCache.heapAfterOneEnter.regexp_multiple_cache.length =
      RegExpResultsCache.kRegExpResultsCacheSize ∧
    RegExpResultsCache.Lookup
      (RegExpResultsCache.Enter RegExpResultsCache.heapAfterOneEnter
        { id := 1, internalized := true, hash := 0 } (Object.fixedArray 7)
        (Object.fixedArray 20) (Object.fixedArray 21) .REGEXP_MULTIPLE_INDICES)
      { id := 1, internalized := true, hash := 0 } (Object.fixedArray 7)
      .REGEXP_MULTIPLE_INDICES = (Object.fixedArray 10, some (Object.fixedArray 11)) ∧
    (Object.fixedArray 10, some (Object.fixedArray 11)) ≠
      (Object.fixedArray 20, some (Object.fixedArray 21)) := by
  decide

/-- C4 (amended): for every heap whose selected cache has
`kRegExpResultsCacheSize` fields, every internalized key string and every
admissible key pattern, `Lookup` right after `Enter` with the same keys
returns `value_array` and stores `last_match_cache` exactly when the cache
was not in the shadowed state before `Enter` (primary slot already holding
the same keys with another array or last-match array, displacement slot
empty); in particular it does so whenever the primary slot did not hold the
same keys, as after a `Lookup` that missed. -/
theorem RegExpResultsCache.Lookup_after_Enter (heap : Heap) (key_string : HeapString)
    (key_pattern value_array last_match_cache : Object)
    (type : RegExpResultsCache.ResultsCacheType)
    (hint : key_string.internalized = true)
    (hadm : RegExpResultsCache.admissiblePattern key_pattern type = true)
    (hlen : (heap.cacheOf type).length = RegExpResultsCache.kRegExpResultsCacheSize) :
    RegExpResultsCache.Lookup
        (RegExpResultsCache.Enter heap key_string key_pattern value_array last_match_cache type)
        key_string key_pattern type = (value_array, some last_match_cache) ↔
      ¬ RegExpResultsCache.shadowed (heap.cacheOf type) key_string key_pattern value_array
        last_match_cache := by
  cases type with
  | REGEXP_MULTIPLE_INDICES =>
    simp only [RegExpResultsCache.Lookup, RegExpResultsCache.Enter, hint, Bool.not_true,
      Bool.false_eq_true, if_false, RegExpResultsCache.selectCache, Heap.cacheOf]
    exact RegExpResultsCache.lookupCache_enterCache _ _ _ _ _ hlen
  | STRING_SPLIT_SUBSTRINGS =>
    have hadm' : key_pattern.IsInternalizedString = true := hadm
    simp only [RegExpResultsCache.Lookup, RegExpResultsCache.Enter, hint, Bool.not_true,
      Bool.false_eq_true, if_false, RegExpResultsCache.selectCache, Heap.cacheOf, hadm']
    exact RegExpResultsCache.lookupCache_enterCache _ _ _ _ _ hlen

/-- Witness for C4 (amended): entering a key into the cleared caches and
looking it up. -/
theorem RegExpResultsCache.Lookup_after_Enter_witness :
    RegExpResultsCache.Lookup
        (RegExpResultsCache.Enter
          { string_split_cache := RegExpResultsCache.clearedCache,
            regexp_multiple_cache := RegExpResultsCache.clearedCache }
          { id := 1, internalized := true, hash := 0 } (Object.fixedArray 7)
          (Object.fixedArray 10) (Object.fixedArray 11) .REGEXP_MULTIPLE_INDICES)
        { id := 1, internalized := true, hash := 0 } (Object.fixedArray 7)
        .REGEXP_MULTIPLE_INDICES = (Object.fixedArray 10, some (Object.fixedArray 11)) :=
  (RegExpResultsCache.Lookup_after_Enter
    { string_split_cache := RegExpResultsCache.clearedCache,
      regexp_multiple_cache := RegExpResultsCache.clearedCache }
    { id := 1, internalized := true, hash := 0 } (Object.fixedArray 7)
    (Object.fixedArray 10) (Object.fixedArray 11) .REGEXP_MULTIPLE_INDICES
    rfl rfl (by simp [Heap.cacheOf, RegExpResultsCache.clearedCache])).mpr
    (by unfold RegExpResultsCache.shadowed; decide)

/-! ## Atom execution -/

/-- An occurrence lies inside the subject. -/
theorem occursAt_bound (subject pattern : List Nat) (q : Nat)
    (h : occursAt subject pattern q = true) : q + pattern.length ≤ subject.length := by
  simp only [occursAt, Bool.and_eq_true, decide_eq_true_eq] at h
  exact h.1

/-- The scan returns `-1` when none of the positions tried is an occurrence,
and the first occurrence otherwise. -/
theorem SearchString.scan_spec (subject pattern : List Nat) (fuel i : Nat) :
    (SearchString.scan subject pattern fuel i = -1 ∧
      ∀ q, i ≤ q → q < i + fuel → occursAt subject pattern q = false) ∨
    (∃ j : Nat, SearchString.scan subject pattern fuel i = (j : Int) ∧ j < i + fuel ∧
      IsFirstOccurrence subject pattern i j) := by
  induction fuel generalizing i with
  | zero =>
    left
    exact ⟨rfl, fun q h1 h2 => by omega⟩
  | succ n ih =>
    simp only [SearchString.scan]
    by_cases hocc : occursAt subject pattern i = true
    · right
      exact ⟨i, by simp [hocc], by omega, le_refl _, hocc, fun q h1 h2 => by omega⟩
    · have hocc' : occursAt subject pattern i = false := by simpa using hocc
      simp only [hocc', Bool.false_eq_true, if_false]
      rcases ih (i + 1) with ⟨h1, h2⟩ | ⟨j, h1, h2, h3, h4, h5⟩
      · left
        refine ⟨h1, fun q hq1 hq2 => ?_⟩
        by_cases hqi : q = i
        · subst hqi; exact hocc'
        · exact h2 q (by omega) (by omega)
      · right
        refine ⟨j, h1, by omega, by omega, h4, fun q hq1 hq2 => ?_⟩
        by_cases hqi : q = i
        · subst hqi; exact hocc'
        · exact h5 q (by omega) hq2

/-- The search returns `-1` when there is no occurrence at or after the start,
and the first such occurrence otherwise. -/
theorem SearchString_spec (subject pattern : List Nat) (start : Nat) :
    (SearchString subject pattern (start : Int) = -1 ∧ NoOccurrenceFrom subject pattern start) ∨
    (∃ j : Nat, SearchString subject pattern (start : Int) = (j : Int) ∧
      IsFirstOccurrence subject pattern start j) := by
  unfold SearchString
  simp only [Int.toNat_ofNat]
  rcases SearchString.scan_spec subject pattern (subject.length + 1 - start) start with
    ⟨h1, h2⟩ | ⟨j, h1, _, h3⟩
  · left
    refine ⟨h1, fun q hq => ?_⟩
    by_cases hlt : q < start + (subject.length + 1 - start)
    · exact h2 q hq hlt
    · by_contra hocc
      have hb := occursAt_bound subject pattern q (by simpa using hocc)
      omega
  · right
    exact ⟨j, h1, h3⟩

/-- The first occurrence at or after a start is unique. -/
theorem IsFirstOccurrence.unique (subject needle : List Nat) (start p q : Nat)
    (hp : IsFirstOccurrence subject needle start p)
    (hq : IsFirstOccurrence subject needle start q) : p = q := by
  obtain ⟨hp1, hp2, hp3⟩ := hp
  obtain ⟨hq1, hq2, hq3⟩ := hq
  by_contra hne
  rcases Nat.lt_or_gt_of_ne hne with h | h
  · have := hq3 p hp1 h
    rw [hp2] at this
    exact absurd this (by simp)
  · have := hp3 q hq1 h
    rw [hq2] at this
    exact absurd this (by simp)

/-- C5: for every subject, every non-empty needle, every start index with
`0 <= index <= |subject|` and every output array with at least two slots,
`AtomExecRaw` with `output_size` 2 returns `RE_FAILURE` and leaves the output
as it was when the needle has no occurrence at or after `index`, and
otherwise returns `1` with `output[0] = p` and `output[1] = p + |needle|`
for the first occurrence `p` at or after `index`. -/
theorem RegExpImpl.AtomExecRaw_single (needle subject : List Nat) (index : Nat)
    (output : List Int) (_hneedle : 0 < needle.length) (_hindex : index ≤ subject.length)
    (_hout : 2 ≤ output.length) :
    (NoOccurrenceFrom subject needle index →
      RegExpImpl.AtomExecRaw needle subject index output 2 =
        some (RegExpImpl.RE_FAILURE, output)) ∧
    (∀ p, IsFirstOccurrence subject needle index p →
      RegExpImpl.AtomExecRaw needle subject index output 2 =
        some (1, (output.set 0 (p : Int)).set 1 ((p : Int) + (needle.length : Int)))) := by
  constructor
  · intro hno
    unfold RegExpImpl.AtomExecRaw
    by_cases hearly : (index : Int) + (needle.length : Int) > (subject.length : Int)
    · simp [hearly]
    · rcases SearchString_spec subject needle index with ⟨h1, _⟩ | ⟨j, _, _, h3, _⟩
      · simp [hearly, RegExpImpl.AtomExecRaw.loop, h1, RegExpImpl.RE_FAILURE]
      · rw [hno j (by assumption)] at h3
        exact absurd h3 (by simp)
  · intro p hp
    have hb := occursAt_bound subject needle p hp.2.1
    have hearly : ¬ (index : Int) + (needle.length : Int) > (subject.length : Int) := by
      have := hp.1
      omega
    unfold RegExpImpl.AtomExecRaw
    rcases SearchString_spec subject needle index with ⟨_, h2⟩ | ⟨j, h1, h3⟩
    · have := h2 p hp.1
      rw [hp.2.1] at this
      exact absurd this (by simp)
    · have hjp : j = p := IsFirstOccurrence.unique subject needle index j p h3 hp
      subst hjp
      have hne : ¬ ((j : Int) = -1) := by omega
      simp [hearly, RegExpImpl.AtomExecRaw.loop, h1, hne]

/-- Witness for C5: the needle `abc` in the subject `zzabczz` from index 0
gives `[2, 5]`. -/
theorem RegExpImpl.AtomExecRaw_single_witness :
    RegExpImpl.AtomExecRaw [97, 98, 99] [122, 122, 97, 98, 99, 122, 122] (0 : Nat) [7, 7] 2 =
      some (1, ([7, 7].set 0 ((2 : Nat) : Int)).set 1 (((2 : Nat) : Int) +
        (([97, 98, 99] : List Nat).length : Int))) :=
  (RegExpImpl.AtomExecRaw_single [97, 98, 99] [122, 122, 97, 98, 99, 122, 122] 0 [7, 7]
    (by decide) (by decide) (by decide)).2 2 (by unfold IsFirstOccurrence; decide)

/-- The C++ division `(2 * k) / 2`. -/
theorem tdiv_two_mul_cast (k : Nat) : ((2 * k : Nat) : Int).tdiv 2 = (k : Int) := by
  rw [Int.tdiv_eq_ediv (by omega) (by omega)]
  omega

/-- The loop of `AtomExecRaw` entered with `k` pairs written: it returns the
number of pairs written in all, the further pairs are successive occurrences
from the search start, it stops early only when no further occurrence exists,
and it leaves the other slots alone. -/
theorem RegExpImpl.AtomExecRaw.loop_spec (subject needle : List Nat) (n d : Nat) :
    ∀ (k fuel start : Nat) (output : List Int), n - k = d → k ≤ n → n - k + 1 ≤ fuel →
      2 * n ≤ output.length →
      ∃ (ms : List Nat) (out : List Int),
        RegExpImpl.AtomExecRaw.loop subject needle ((2 * n : Nat) : Int) fuel
            ((2 * k : Nat) : Int) (start : Int) output = some (((k + ms.length : Nat) : Int), out) ∧
        k + ms.length ≤ n ∧
        SuccessiveOccurrences subject needle start ms ∧
        (k + ms.length < n →
          NoOccurrenceFrom subject needle (nextSearchStart needle start ms)) ∧
        out.length = output.length ∧
        (∀ (t m : Nat), ms[t]? = some m →
          out[2 * (k + t)]? = some (m : Int) ∧
          out[2 * (k + t) + 1]? = some ((m : Int) + (needle.length : Int))) ∧
        (∀ j, j < 2 * k ∨ 2 * (k + ms.length) ≤ j → out[j]? = output[j]?) := by
  induction d with
  | zero =>
    intro k fuel start output hd hk hfuel hout
    have hkn : k = n := by omega
    subst hkn
    obtain ⟨f, rfl⟩ : ∃ f, fuel = f + 1 := ⟨fuel - 1, by omega⟩
    refine ⟨[], output, ?_, by simp, trivial, by simp, rfl, by simp, fun j _ => rfl⟩
    simp only [RegExpImpl.AtomExecRaw.loop, lt_self_iff_false, if_false, List.length_nil,
      Nat.add_zero]
    rw [tdiv_two_mul_cast]
  | succ d ih =>
    intro k fuel start output hd hk hfuel hout
    obtain ⟨f, rfl⟩ : ∃ f, fuel = f + 1 := ⟨fuel - 1, by omega⟩
    have hlt : ((2 * k : Nat) : Int) < ((2 * n : Nat) : Int) := by omega
    simp only [RegExpImpl.AtomExecRaw.loop, hlt, if_true]
    rcases SearchString_spec subject needle start with ⟨h1, h2⟩ | ⟨j, h1, h3⟩
    · refine ⟨[], output, ?_, by simpa using hk, trivial, fun _ => h2, rfl, by simp,
        fun j _ => rfl⟩
      simp only [h1, if_true, List.length_nil, Nat.add_zero]
      rw [tdiv_two_mul_cast]
    · have hne : ¬ ((j : Int) = -1) := by omega
      simp only [h1, hne, if_false]
      have e1 : ((2 * k : Nat) : Int).toNat = 2 * k := by omega
      have e2 : (((2 * k : Nat) : Int) + 1).toNat = 2 * k + 1 := by omega
      have e3 : ((2 * k : Nat) : Int) + 2 = ((2 * (k + 1) : Nat) : Int) := by omega
      have e4 : (j : Int) + (needle.length : Int) = ((j + needle.length : Nat) : Int) := by
        omega
      rw [e1, e2, e3]
      obtain ⟨ms, out, hres, hcnt, hsucc, hmax, hlen, hslots, hframe⟩ :=
        ih (k + 1) f (j + needle.length)
          ((output.set (2 * k) (j : Int)).set (2 * k + 1) ((j : Int) + (needle.length : Int)))
          (by omega) (by omega) (by omega) (by simpa using hout)
      refine ⟨j :: ms, out, ?_, by simp only [List.length_cons]; omega, ⟨h3, hsucc⟩, ?_,
        by simpa using hlen, ?_, ?_⟩
      · rw [← e4] at hres
        rw [hres]
        simp only [List.length_cons]
        congr 2
        omega
      · intro hless
        exact hmax (by simp only [List.length_cons] at hless; omega)
      · intro t m htm
        cases t with
        | zero =>
          simp only [List.getElem?_cons_zero, Option.some.injEq] at htm
          subst htm
          rw [hframe (2 * (k + 0)) (Or.inl (by omega)),
            hframe (2 * (k + 0) + 1) (Or.inl (by omega))]
          simp only [Nat.add_zero]
          constructor
          · rw [List.getElem?_set_ne (by omega), List.getElem?_set_self (by omega)]
          · rw [List.getElem?_set_self (by rw [List.length_set]; omega)]
        | succ t =>
          simp only [List.getElem?_cons_succ] at htm
          have := hslots t m htm
          rw [show 2 * (k + (t + 1)) = 2 * (k + 1 + t) by omega]
          exact this
      · intro i hi
        simp only [List.length_cons] at hi
        rw [hframe i (by omega)]
        rw [List.getElem?_set_ne (by omega), List.getElem?_set_ne (by omega)]

/-- C6: for every even `output_size = 2 * n` that fits in the output array,
`AtomExecRaw` returns the number of pairs it has written, which is at most
`n`; the recorded positions are successive non-overlapping occurrences of
the needle (the first is the first occurrence at or after `index`, each next
one the first occurrence at or after the end of the one before), pair `t`
is `(m_t, m_t + |needle|)`, fewer than `n` pairs are written only when no
further occurrence exists, and the output slots beyond the written pairs are
unchanged. -/
theorem RegExpImpl.AtomExecRaw_successive (needle subject : List Nat) (index n : Nat)
    (output : List Int) (_hindex : index ≤ subject.length) (hout : 2 * n ≤ output.length) :
    ∃ (ms : List Nat) (out : List Int),
      RegExpImpl.AtomExecRaw needle subject index output ((2 * n : Nat) : Int) =
        some ((ms.length : Int), out) ∧
      ms.length ≤ n ∧
      SuccessiveOccurrences subject needle index ms ∧
      (ms.length < n → NoOccurrenceFrom subject needle (nextSearchStart needle index ms)) ∧
      out.length = output.length ∧
      (∀ (t m : Nat), ms[t]? = some m →
        out[2 * t]? = some (m : Int) ∧
        out[2 * t + 1]? = some ((m : Int) + (needle.length : Int))) ∧
      (∀ j, 2 * ms.length ≤ j → out[j]? = output[j]?) := by
  unfold RegExpImpl.AtomExecRaw
  by_cases hearly : (index : Int) + (needle.length : Int) > (subject.length : Int)
  · refine ⟨[], output, by simp [hearly, RegExpImpl.RE_FAILURE], by simp, trivial, ?_, rfl,
      by simp, fun j _ => rfl⟩
    intro _ q hq
    by_contra hocc
    have hb := occursAt_bound subject needle q (by simpa using hocc)
    simp only [nextSearchStart] at hq
    omega
  · simp only [hearly, if_false]
    obtain ⟨ms, out, hres, hcnt, hsucc, hmax, hlen, hslots, hframe⟩ :=
      RegExpImpl.AtomExecRaw.loop_spec subject needle n (n - 0) 0
        (((2 * n : Nat) : Int).toNat + 1) index output rfl (by omega) (by omega) hout
    refine ⟨ms, out, ?_, by omega, hsucc, fun h => hmax (by omega), hlen, ?_, ?_⟩
    · simpa using hres
    · intro t m htm
      have := hslots t m htm
      simpa using this
    · intro j hj
      exact hframe j (Or.inr (by omega))

/-- Witness for C6: the needle `a` in the subject `abaa` from index 0 with
room for four pairs; three pairs are written and the last two slots keep
their values. -/
theorem RegExpImpl.AtomExecRaw_successive_witness :
    ∃ (ms : List Nat) (out : List Int),
      RegExpImpl.AtomExecRaw [97] [97, 98, 97, 97] (0 : Nat) [7, 7, 7, 7, 7, 7, 7, 7]
          ((2 * 4 : Nat) : Int) = some ((ms.length : Int), out) ∧
      ms.length ≤ 4 ∧
      SuccessiveOccurrences [97, 98, 97, 97] [97] 0 ms ∧
      (ms.length < 4 → NoOccurrenceFrom [97, 98, 97, 97] [97] (nextSearchStart [97] 0 ms)) ∧
      out.length = ([7, 7, 7, 7, 7, 7, 7, 7] : List Int).length ∧
      (∀ (t m : Nat), ms[t]? = some m →
        out[2 * t]? = some (m : Int) ∧
        out[2 * t + 1]? = some ((m : Int) + (([97] : List Nat).length : Int))) ∧
      (∀ j, 2 * ms.length ≤ j → out[j]? = ([7, 7, 7, 7, 7, 7, 7, 7] : List Int)[j]?) :=
  RegExpImpl.AtomExecRaw_successive [97] [97, 98, 97, 97] 0 4 [7, 7, 7, 7, 7, 7, 7, 7]
    (by decide) (by decide)

/-! ## Strategy selection -/

/-- C7 (counterexample): the pattern `aaaaaaaa` parses to a single atom equal
to the pattern, ignore-case and sticky are off and
`HasFewDifferentCharacters` holds for it, yet `Compile` initializes the
Irregexp strategy; the pattern `abc`, for which `HasFewDifferentCharacters`
is false, gets the atom strategy. -/
theorem RegExpImpl.Compile_few_characters_counterexample :
    (HasFewDifferentCharacters [97, 97, 97, 97, 97, 97, 97, 97] = true ∧
      RegExpImpl.Compile none
        (some { tree := .Atom [97, 97, 97, 97, 97, 97, 97, 97] JSRegExp.Flags.none,
                simple := true, capture_count := 0 })
        some [97, 97, 97, 97, 97, 97, 97, 97] JSRegExp.Flags.none =
      { re_data := some (.IRREGEXP [97, 97, 97, 97, 97, 97, 97, 97] JSRegExp.Flags.none 0),
        cache_put := some (.IRREGEXP [97, 97, 97, 97, 97, 97, 97, 97] JSRegExp.Flags.none 0),
        exception := false }) ∧
    (HasFewDifferentCharacters [97, 98, 99] = false ∧
      RegExpImpl.Compile none
        (some { tree := .Atom [97, 98, 99] JSRegExp.Flags.none, simple := true,
                capture_count := 0 })
        some [97, 98, 99] JSRegExp.Flags.none =
      { re_data := some (.ATOM [97, 98, 99] JSRegExp.Flags.none [97, 98, 99]),
        cache_put := some (.ATOM [97, 98, 99] JSRegExp.Flags.none [97, 98, 99]),
        exception := false }) := by
  decide

/-- C7 (amended): on a compilation-cache miss with a successful parse and a
successful allocation of the atom's string, `Compile` sets atom data exactly
when `takesAtomStrategy` holds, that is, sticky is off and the text to
search does not have few different characters (`HasFewDifferentCharacters`
is false for it) with ignore-case off; the text is the pattern itself for a
simple parse and the atom's text, with capture count zero, for any other
parse to an atom.  In every other case it initializes the Irregexp data with
the parse result's capture count.  In both cases the data set is stored in
the compilation cache. -/
theorem RegExpImpl.Compile_strategy (parse_result : RegExpCompileData)
    (NewStringFromTwoByte : List Nat → Option (List Nat)) (pattern : List Nat)
    (flags : JSRegExp.Flags)
    (halloc : ∀ data, NewStringFromTwoByte data = some data) :
    (RegExpImpl.takesAtomStrategy parse_result pattern flags = true →
      ∃ match_pattern,
        RegExpImpl.Compile none (some parse_result) NewStringFromTwoByte pattern flags =
          { re_data := some (.ATOM pattern flags match_pattern),
            cache_put := some (.ATOM pattern flags match_pattern), exception := false }) ∧
    (RegExpImpl.takesAtomStrategy parse_result pattern flags = false →
      RegExpImpl.Compile none (some parse_result) NewStringFromTwoByte pattern flags =
        { re_data := some (.IRREGEXP pattern flags parse_result.capture_count),
          cache_put := some (.IRREGEXP pattern flags parse_result.capture_count),
          exception := false }) := by
  obtain ⟨tree, simple, capture_count⟩ := parse_result
  cases tree with
  | Other =>
    constructor
    · intro h
      simp only [RegExpImpl.takesAtomStrategy, Bool.or_false, Bool.and_eq_true] at h
      refine ⟨pattern, ?_⟩
      simp [RegExpImpl.Compile, h.1, h.2.1.1, h.2.1.2, h.2.2]
    · intro h
      simp only [RegExpImpl.takesAtomStrategy, Bool.or_false] at h
      have hcond : (simple && !IgnoreCase flags && !IsSticky flags &&
          !HasFewDifferentCharacters pattern) = false := by
        rw [← h]
        cases simple <;> cases IgnoreCase flags <;> cases IsSticky flags <;>
          cases HasFewDifferentCharacters pattern <;> rfl
      simp [RegExpImpl.Compile, hcond]
  | Atom atom_pattern atom_flags =>
    constructor
    · intro h
      by_cases hcond : (simple && !IgnoreCase flags && !IsSticky flags &&
          !HasFewDifferentCharacters pattern) = true
      · exact ⟨pattern, by simp [RegExpImpl.Compile, hcond]⟩
      · refine ⟨atom_pattern, ?_⟩
        have hs : IsSticky flags = false := by
          simp only [RegExpImpl.takesAtomStrategy, Bool.and_eq_true] at h
          simpa using h.1
        have hrest : (capture_count == 0 && !IgnoreCase atom_flags &&
            !HasFewDifferentCharacters atom_pattern) = true := by
          simp only [RegExpImpl.takesAtomStrategy, hs] at h
          simp only [hs] at hcond
          revert h hcond
          cases simple <;> cases IgnoreCase flags <;>
            cases HasFewDifferentCharacters pattern <;> simp
        simp only [Bool.and_eq_true] at hrest
        simp only [RegExpImpl.Compile]
        rw [if_neg hcond]
        simp [hs, hrest.1.1, hrest.1.2, hrest.2, halloc]
    · intro h
      have hcond : (simple && !IgnoreCase flags && !IsSticky flags &&
          !HasFewDifferentCharacters pattern) = false := by
        simp only [RegExpImpl.takesAtomStrategy] at h
        revert h
        cases simple <;> cases IgnoreCase flags <;> cases IsSticky flags <;>
          cases HasFewDifferentCharacters pattern <;> simp
      simp only [RegExpImpl.Compile, hcond, Bool.false_eq_true, if_false]
      by_cases hs : IsSticky flags = true
      · simp [hs]
      · have hs' : IsSticky flags = false := by simpa using hs
        by_cases hc : (capture_count == 0) = true
        · simp only [hs', hc, Bool.not_false, Bool.and_self, if_true, halloc]
          have hrest : (!IgnoreCase atom_flags && !HasFewDifferentCharacters atom_pattern)
              = false := by
            simp only [RegExpImpl.takesAtomStrategy, hs', hc] at h
            revert h
            cases simple <;> cases IgnoreCase flags <;>
              cases HasFewDifferentCharacters pattern <;> cases IgnoreCase atom_flags <;>
              cases HasFewDifferentCharacters atom_pattern <;> simp
          simp [hrest]
        · simp [hs', hc]

/-- Witness for C7 (amended): the pattern `abc`, a simple atom with all flags
off, takes the atom strategy. -/
theorem RegExpImpl.Compile_strategy_witness :
    ∃ match_pattern,
      RegExpImpl.Compile none
          (some { tree := .Atom [97, 98, 99] JSRegExp.Flags.none, simple := true,
                  capture_count := 0 })
          some [97, 98, 99] JSRegExp.Flags.none =
        { re_data := some (.ATOM [97, 98, 99] JSRegExp.Flags.none match_pattern),
          cache_put := some (.ATOM [97, 98, 99] JSRegExp.Flags.none match_pattern),
          exception := false } :=
  (RegExpImpl.Compile_strategy
    { tree := .Atom [97, 98, 99] JSRegExp.Flags.none, simple := true, capture_count := 0 }
    some [97, 98, 99] JSRegExp.Flags.none (fun _ => rfl)).1 (by decide)

/-! ## Global iteration -/

/-- C8: for a last index that is not negative, `AdvanceZeroLength` returns
`last_index + 2` exactly when the regexp has the unicode flag,
`last_index + 1 < |subject|`, and the code units at `last_index` and
`last_index + 1` are a lead surrogate followed by a trail surrogate; in
every other case it returns `last_index + 1`; the result is always strictly
greater than `last_index`. -/
theorem RegExpImpl.GlobalCache.AdvanceZeroLength_spec (flags : JSRegExp.Flags)
    (subject : List Nat) (last_index : Int) (hindex : 0 ≤ last_index) :
    (RegExpImpl.GlobalCache.AdvanceZeroLength flags subject last_index = last_index + 2 ↔
      (IsUnicode flags = true ∧ last_index + 1 < (subject.length : Int) ∧
        ∃ lead trail, subject[last_index.toNat]? = some lead ∧
          subject[last_index.toNat + 1]? = some trail ∧
          unibrow.Utf16.IsLeadSurrogate lead = true ∧
          unibrow.Utf16.IsTrailSurrogate trail = true)) ∧
    (RegExpImpl.GlobalCache.AdvanceZeroLength flags subject last_index ≠ last_index + 2 →
      RegExpImpl.GlobalCache.AdvanceZeroLength flags subject last_index = last_index + 1) ∧
    last_index < RegExpImpl.GlobalCache.AdvanceZeroLength flags subject last_index := by
  unfold RegExpImpl.GlobalCache.AdvanceZeroLength
  by_cases hlt : last_index + 1 < (subject.length : Int)
  · have h0 : last_index.toNat < subject.length := by omega
    have h1 : last_index.toNat + 1 < subject.length := by omega
    have e1 : (last_index + 1).toNat = last_index.toNat + 1 := by omega
    have g0 : String.Get subject last_index = subject[last_index.toNat] := by
      simp [String.Get, List.getD_eq_getElem?_getD, List.getElem?_eq_getElem h0]
    have g1 : String.Get subject (last_index + 1) = subject[last_index.toNat + 1] := by
      simp [String.Get, e1, List.getD_eq_getElem?_getD, List.getElem?_eq_getElem h1]
    rw [g0, g1]
    simp only [hlt, decide_True, Bool.and_true, List.getElem?_eq_getElem h0,
      List.getElem?_eq_getElem h1, Option.some.injEq, true_and]
    by_cases hcond : (IsUnicode flags && unibrow.Utf16.IsLeadSurrogate subject[last_index.toNat] &&
        unibrow.Utf16.IsTrailSurrogate subject[last_index.toNat + 1]) = true
    · rw [if_pos hcond]
      simp only [Bool.and_eq_true] at hcond
      refine ⟨⟨fun _ => ⟨hcond.1.1, _, _, rfl, rfl, hcond.1.2, hcond.2⟩, fun _ => rfl⟩,
        fun h => absurd rfl h, by omega⟩
    · rw [if_neg hcond]
      refine ⟨⟨fun h => by omega, ?_⟩, fun _ => rfl, by omega⟩
      rintro ⟨hu, lead, trail, rfl, rfl, hl, ht⟩
      exact absurd (by simp [hu, hl, ht]) hcond
  · have hd : decide (last_index + 1 < (subject.length : Int)) = false := by simpa using hlt
    simp only [hd, Bool.and_false, Bool.false_and, Bool.false_eq_true, if_false]
    refine ⟨⟨fun h => by omega, fun h => absurd h.2.1 hlt⟩, ?_, by omega⟩
    exact fun _ => trivial

/-- Witness for C8: the subject `U+D83D U+DE00` (one surrogate pair) with the
unicode flag, at index 0, advances by 2. -/
theorem RegExpImpl.GlobalCache.AdvanceZeroLength_spec_witness :
    RegExpImpl.GlobalCache.AdvanceZeroLength { JSRegExp.Flags.none with unicode := true }
        [0xD83D, 0xDE00] 0 = 0 + 2 ∧
    (0 : Int) < RegExpImpl.GlobalCache.AdvanceZeroLength
        { JSRegExp.Flags.none with unicode := true } [0xD83D, 0xDE00] 0 :=
  ⟨(RegExpImpl.GlobalCache.AdvanceZeroLength_spec { JSRegExp.Flags.none with unicode := true }
      [0xD83D, 0xDE00] 0 (by decide)).1.mpr
      ⟨rfl, by decide, 0xD83D, 0xDE00, rfl, rfl, by decide, by decide⟩,
    (RegExpImpl.GlobalCache.AdvanceZeroLength_spec { JSRegExp.Flags.none with unicode := true }
      [0xD83D, 0xDE00] 0 (by decide)).2.2⟩

/-! ## Raw execution -/

/-- A result of the native loop is the result of its last matcher call and is
not `RETRY`. -/
theorem RegExpImpl.IrregexpExecRaw.nativeLoop_result (env : MatcherEnv) (fuel : Nat) :
    ∀ (is_one_byte : Bool) (st : ExecState) (res : Int) (st' : ExecState),
      RegExpImpl.IrregexpExecRaw.nativeLoop env fuel is_one_byte st = some (res, st') →
      res ≠ NativeRegExpMacroAssembler.RETRY ∧
      ∃ b o, res = (env.NativeMatch (st'.clock - 1) b o).1 := by
  induction fuel with
  | zero => intro b st res st' h; simp [RegExpImpl.IrregexpExecRaw.nativeLoop] at h
  | succ fuel ih =>
    intro b st res st' h
    simp only [RegExpImpl.IrregexpExecRaw.nativeLoop] at h
    by_cases hr : (env.NativeMatch st.clock b st.output).1 ≠ NativeRegExpMacroAssembler.RETRY
    · rw [if_pos hr] at h
      simp only [Option.some.injEq, Prod.mk.injEq] at h
      obtain ⟨h1, h2⟩ := h
      subst h1
      subst h2
      exact ⟨hr, b, st.output, by simp⟩
    · rw [if_neg hr] at h
      exact ih _ _ _ _ h

/-- The native loop returns after `k + 1` matcher calls when the next `k`
calls answer `RETRY` and the one after does not, with the expected calls
recorded. -/
theorem RegExpImpl.IrregexpExecRaw.nativeLoop_total (env : MatcherEnv) (k : Nat) :
    ∀ (fuel : Nat) (st : ExecState),
      (∀ j, j < k → ∀ b o,
        (env.NativeMatch (st.clock + j) b o).1 = NativeRegExpMacroAssembler.RETRY) →
      (∀ b o, (env.NativeMatch (st.clock + k) b o).1 ≠ NativeRegExpMacroAssembler.RETRY) →
      k < fuel →
      ∃ res st',
        RegExpImpl.IrregexpExecRaw.nativeLoop env fuel
          (env.IsOneByteRepresentationUnderneath st.clock) st = some (res, st') ∧
        st'.clock = st.clock + k + 1 ∧
        st'.events = st.events ++ RegExpImpl.IrregexpExecRaw.nativeEvents env k st.clock := by
  induction k with
  | zero =>
    intro fuel st _ hlast hfuel
    obtain ⟨f, rfl⟩ : ∃ f, fuel = f + 1 := ⟨fuel - 1, by omega⟩
    have hr := hlast (env.IsOneByteRepresentationUnderneath st.clock) st.output
    rw [Nat.add_zero] at hr
    simp only [RegExpImpl.IrregexpExecRaw.nativeLoop]
    rw [if_pos hr]
    exact ⟨_, _, rfl, by simp, by simp [RegExpImpl.IrregexpExecRaw.nativeEvents]⟩
  | succ k ih =>
    intro fuel st hretry hlast hfuel
    obtain ⟨f, rfl⟩ : ∃ f, fuel = f + 1 := ⟨fuel - 1, by omega⟩
    have hr := hretry 0 (by omega) (env.IsOneByteRepresentationUnderneath st.clock) st.output
    rw [Nat.add_zero] at hr
    simp only [RegExpImpl.IrregexpExecRaw.nativeLoop]
    rw [if_neg (by rw [hr]; simp)]
    obtain ⟨res, st', h1, h2, h3⟩ := ih f
      { output := (env.NativeMatch st.clock (env.IsOneByteRepresentationUnderneath st.clock)
          st.output).2,
        clock := st.clock + 1,
        events := st.events ++
          [ExecEvent.EnsureCompiledIrregexp (env.IsOneByteRepresentationUnderneath st.clock)] ++
          [ExecEvent.NativeMatch (env.IsOneByteRepresentationUnderneath st.clock)] ++
          [ExecEvent.EnsureCompiledIrregexp
            (env.IsOneByteRepresentationUnderneath (st.clock + 1))] }
      (fun j hj b o => by
        have := hretry (j + 1) (by omega) b o
        rw [show st.clock + (j + 1) = st.clock + 1 + j by omega] at this
        exact this)
      (fun b o => by
        have := hlast b o
        rw [show st.clock + (k + 1) = st.clock + 1 + k by omega] at this
        exact this)
      (by omega)
    refine ⟨res, st', h1, by rw [h2]; simp only []; omega, ?_⟩
    rw [h3]
    simp [RegExpImpl.IrregexpExecRaw.nativeEvents]

/-- The interpreter loop returns after `k + 1` matcher calls when the next `k`
calls answer `RETRY` and the one after does not, with the expected calls
recorded. -/
theorem RegExpImpl.IrregexpExecRaw.interpreterLoop_total (env : MatcherEnv) (n k : Nat) :
    ∀ (fuel : Nat) (st : ExecState),
      (∀ j, j < k → ∀ b o,
        (env.InterpreterMatch (st.clock + j) b o).1 = IrregexpInterpreter.Result.RETRY) →
      (∀ b o, (env.InterpreterMatch (st.clock + k) b o).1 ≠ IrregexpInterpreter.Result.RETRY) →
      k < fuel →
      ∃ res st',
        RegExpImpl.IrregexpExecRaw.interpreterLoop env n fuel
          (env.IsOneByteRepresentationUnderneath st.clock) st = some (res, st') ∧
        st'.clock = st.clock + k + 1 ∧
        st'.events = st.events ++
          RegExpImpl.IrregexpExecRaw.interpreterEvents env k st.clock := by
  induction k with
  | zero =>
    intro fuel st _ hlast hfuel
    obtain ⟨f, rfl⟩ : ∃ f, fuel = f + 1 := ⟨fuel - 1, by omega⟩
    have hr := hlast (env.IsOneByteRepresentationUnderneath st.clock)
      (RegExpImpl.IrregexpExecRaw.presetRegisters n (st.output.drop n))
    rw [Nat.add_zero] at hr
    simp only [RegExpImpl.IrregexpExecRaw.interpreterLoop]
    cases hres : (env.InterpreterMatch st.clock (env.IsOneByteRepresentationUnderneath st.clock)
        (RegExpImpl.IrregexpExecRaw.presetRegisters n (st.output.drop n))).1 with
    | RETRY => exact absurd hres hr
    | EXCEPTION =>
      exact ⟨_, _, rfl, by simp, by simp [RegExpImpl.IrregexpExecRaw.interpreterEvents]⟩
    | FAILURE =>
      exact ⟨_, _, rfl, by simp, by simp [RegExpImpl.IrregexpExecRaw.interpreterEvents]⟩
    | SUCCESS =>
      exact ⟨_, _, rfl, by simp, by simp [RegExpImpl.IrregexpExecRaw.interpreterEvents]⟩
  | succ k ih =>
    intro fuel st hretry hlast hfuel
    obtain ⟨f, rfl⟩ : ∃ f, fuel = f + 1 := ⟨fuel - 1, by omega⟩
    have hr := hretry 0 (by omega) (env.IsOneByteRepresentationUnderneath st.clock)
      (RegExpImpl.IrregexpExecRaw.presetRegisters n (st.output.drop n))
    rw [Nat.add_zero] at hr
    simp only [RegExpImpl.IrregexpExecRaw.interpreterLoop, hr]
    obtain ⟨res, st', h1, h2, h3⟩ := ih f
      { output := st.output.take n ++
          (env.InterpreterMatch st.clock (env.IsOneByteRepresentationUnderneath st.clock)
            (RegExpImpl.IrregexpExecRaw.presetRegisters n (st.output.drop n))).2,
        clock := st.clock + 1,
        events := st.events ++
          [ExecEvent.InterpreterMatch (env.IsOneByteRepresentationUnderneath st.clock)] ++
          [ExecEvent.EnsureCompiledIrregexp
            (env.IsOneByteRepresentationUnderneath (st.clock + 1))] }
      (fun j hj b o => by
        have := hretry (j + 1) (by omega) b o
        rw [show st.clock + (j + 1) = st.clock + 1 + j by omega] at this
        exact this)
      (fun b o => by
        have := hlast b o
        rw [show st.clock + (k + 1) = st.clock + 1 + k by omega] at this
        exact this)
      (by omega)
    refine ⟨res, st', h1, by rw [h2]; simp only []; omega, ?_⟩
    rw [h3]
    simp [RegExpImpl.IrregexpExecRaw.interpreterEvents]

/-- A result of the interpreter loop is one of the tri-state results. -/
theorem RegExpImpl.IrregexpExecRaw.interpreterLoop_result (env : MatcherEnv) (n fuel : Nat) :
    ∀ (is_one_byte : Bool) (st : ExecState) (res : Int) (st' : ExecState),
      RegExpImpl.IrregexpExecRaw.interpreterLoop env n fuel is_one_byte st = some (res, st') →
      RegExpImpl.isTriState res := by
  induction fuel with
  | zero => intro b st res st' h; simp [RegExpImpl.IrregexpExecRaw.interpreterLoop] at h
  | succ fuel ih =>
    intro b st res st' h
    simp only [RegExpImpl.IrregexpExecRaw.interpreterLoop] at h
    cases hres : (env.InterpreterMatch st.clock b
        (RegExpImpl.IrregexpExecRaw.presetRegisters n (st.output.drop n))).1 with
    | RETRY =>
      rw [hres] at h
      exact ih _ _ _ _ h
    | EXCEPTION =>
      rw [hres] at h
      simp only [Option.some.injEq, Prod.mk.injEq] at h
      rw [← h.1]
      exact Or.inr (Or.inr rfl)
    | FAILURE =>
      rw [hres] at h
      simp only [Option.some.injEq, Prod.mk.injEq] at h
      rw [← h.1]
      exact Or.inr (Or.inl rfl)
    | SUCCESS =>
      rw [hres] at h
      simp only [Option.some.injEq, Prod.mk.injEq] at h
      rw [← h.1]
      exact Or.inl rfl

/-- None of the tri-state results is `RETRY`. -/
theorem RegExpImpl.isTriState_ne_retry (res : Int) (h : RegExpImpl.isTriState res) :
    res ≠ NativeRegExpMacroAssembler.RETRY := by
  rcases h with h | h | h <;> rw [h] <;> decide

/-- C9 (counterexample): the native matcher of a global regexp reports two
matches; it is not a `RETRY`, so `IrregexpExecRaw` returns the number `2`,
which is none of `RE_SUCCESS`, `RE_FAILURE`, `RE_EXCEPTION`. -/
theorem RegExpImpl.IrregexpExecRaw_counterexample :
    (RegExpImpl.IrregexpExecRaw MatcherEnv.twoMatches false 0 1 [7, 7, 7, 7]).map Prod.fst =
      some 2 ∧
    ¬ RegExpImpl.isTriState 2 := by
  constructor
  · decide
  · unfold RegExpImpl.isTriState
    decide

/-- C9 (amended): for every behaviour of the matchers, a call of
`IrregexpExecRaw` that returns never yields `RETRY`: in interpreter mode it
yields `RE_SUCCESS`, `RE_FAILURE` or `RE_EXCEPTION`; in native mode it yields
the result of the last call of the native matcher unchanged, hence one of
the three whenever the matcher answers only with its four result codes.
When the matcher answers `RETRY` exactly `k` times, the call returns (any
fuel above `k` is enough) after `k + 1` matcher runs, and each `RETRY` has
been followed by ensuring the code for the representation the subject has
then and by another run of the matcher. -/
theorem RegExpImpl.IrregexpExecRaw_never_retry (env : MatcherEnv)
    (FLAG_regexp_interpret_all : Bool) (capture_count : Nat) :
    (∀ fuel output res st,
      RegExpImpl.IrregexpExecRaw env FLAG_regexp_interpret_all capture_count fuel output =
        some (res, st) →
      res ≠ NativeRegExpMacroAssembler.RETRY ∧
      (FLAG_regexp_interpret_all = true → RegExpImpl.isTriState res) ∧
      (FLAG_regexp_interpret_all = false →
        (∃ b o, res = (env.NativeMatch (st.clock - 1) b o).1) ∧
        ((∀ t b o, (env.NativeMatch t b o).1 = NativeRegExpMacroAssembler.RETRY ∨
            RegExpImpl.isTriState (env.NativeMatch t b o).1) →
          RegExpImpl.isTriState res))) ∧
    (∀ k output, env.retriesExactly FLAG_regexp_interpret_all k →
      ∀ fuel, k < fuel →
        ∃ res st,
          RegExpImpl.IrregexpExecRaw env FLAG_regexp_interpret_all capture_count fuel output =
            some (res, st) ∧
          st.clock = k + 1 ∧
          st.events =
            RegExpImpl.IrregexpExecRaw.expectedEvents env FLAG_regexp_interpret_all k) := by
  cases FLAG_regexp_interpret_all with
  | true =>
    constructor
    · intro fuel output res st h
      have htri := RegExpImpl.IrregexpExecRaw.interpreterLoop_result env _ fuel _ _ _ _ h
      exact ⟨RegExpImpl.isTriState_ne_retry res htri, fun _ => htri,
        fun hf => absurd hf (by simp)⟩
    · intro k output hk fuel hfuel
      simp only [MatcherEnv.retriesExactly, if_true] at hk
      obtain ⟨res, st, h1, h2, h3⟩ :=
        RegExpImpl.IrregexpExecRaw.interpreterLoop_total env ((capture_count + 1) * 2) k fuel
          { output := output, clock := 0, events := [] }
          (fun j hj b o => by simpa using hk.1 j hj b o)
          (fun b o => by simpa using hk.2 b o) hfuel
      exact ⟨res, st, h1, by simpa using h2,
        by simpa [RegExpImpl.IrregexpExecRaw.expectedEvents] using h3⟩
  | false =>
    constructor
    · intro fuel output res st h
      obtain ⟨hne, b, o, hbo⟩ :=
        RegExpImpl.IrregexpExecRaw.nativeLoop_result env fuel _ _ _ _ h
      refine ⟨hne, fun hf => absurd hf (by simp), fun _ => ⟨⟨b, o, hbo⟩, fun hall => ?_⟩⟩
      rcases hall (st.clock - 1) b o with hr | ht
      · rw [← hbo] at hr
        exact absurd hr hne
      · rw [← hbo] at ht
        exact ht
    · intro k output hk fuel hfuel
      simp only [MatcherEnv.retriesExactly, Bool.false_eq_true, if_false] at hk
      obtain ⟨res, st, h1, h2, h3⟩ :=
        RegExpImpl.IrregexpExecRaw.nativeLoop_total env k fuel
          { output := output, clock := 0, events := [] }
          (fun j hj b o => by simpa using hk.1 j hj b o)
          (fun b o => by simpa using hk.2 b o) hfuel
      exact ⟨res, st, h1, by simpa using h2,
        by simpa [RegExpImpl.IrregexpExecRaw.expectedEvents] using h3⟩

/-- Witness for C9 (amended): a native matcher that answers `RETRY` once and
then succeeds; the call returns `RE_SUCCESS` after two runs. -/
theorem RegExpImpl.IrregexpExecRaw_never_retry_witness :
    (RegExpImpl.IrregexpExecRaw MatcherEnv.retryOnce false 0 2 [7, 7, 8, 8] =
        some (1, { output := [3, 5, 8, 8], clock := 2,
                   events := [.EnsureCompiledIrregexp true, .NativeMatch true,
                              .EnsureCompiledIrregexp false, .EnsureCompiledIrregexp false,
                              .NativeMatch false] }) ∧
      (1 : Int) ≠ NativeRegExpMacroAssembler.RETRY) ∧
    ∃ res st,
      RegExpImpl.IrregexpExecRaw MatcherEnv.retryOnce false 0 2 [7, 7, 8, 8] = some (res, st) ∧
      st.clock = 1 + 1 ∧
      st.events = RegExpImpl.IrregexpExecRaw.expectedEvents MatcherEnv.retryOnce false 1 :=
  ⟨⟨by decide,
    ((RegExpImpl.IrregexpExecRaw_never_retry MatcherEnv.retryOnce false 0).1 2 [7, 7, 8, 8] 1
      { output := [3, 5, 8, 8], clock := 2,
        events := [.EnsureCompiledIrregexp true, .NativeMatch true,
                   .EnsureCompiledIrregexp false, .EnsureCompiledIrregexp false,
                   .NativeMatch false] }
      (by decide)).1⟩,
   (RegExpImpl.IrregexpExecRaw_never_retry MatcherEnv.retryOnce false 0).2 1 [7, 7, 8, 8]
    (by
      simp only [MatcherEnv.retriesExactly, Bool.false_eq_true, if_false]
      refine ⟨fun j hj b o => ?_, fun b o => ?_⟩
      · have : j = 0 := by omega
        subst this
        rfl
      · simp [MatcherEnv.retryOnce, NativeRegExpMacroAssembler.RETRY,
          NativeRegExpMacroAssembler.SUCCESS, RegExpImpl.RE_SUCCESS])
    2 (by decide)⟩

/-- A loop of stores keeps the length of the array. -/
theorem foldl_set_length (js : List Nat) (f : Nat → Int) (t : List Int) :
    (js.foldl (fun t j => t.set j (f j)) t).length = t.length := by
  induction js generalizing t with
  | nil => rfl
  | cons a js ih =>
    simp only [List.foldl_cons]
    rw [ih, List.length_set]

/-- Entry `i` after a loop of stores of `f j` at the indices `j` of `js`. -/
theorem foldl_set_getElem? (js : List Nat) (f : Nat → Int) (t : List Int) (i : Nat) :
    (js.foldl (fun t j => t.set j (f j)) t)[i]? =
      if i ∈ js ∧ i < t.length then some (f i) else t[i]? := by
  induction js generalizing t with
  | nil => simp
  | cons a js ih =>
    simp only [List.foldl_cons]
    rw [ih, List.length_set]
    by_cases hmem : i ∈ js
    · by_cases hlt : i < t.length
      · simp [hmem, hlt]
      · have hnone : t[i]? = none := List.getElem?_eq_none (by omega)
        have hnone2 : (t.set a (f a))[i]? = none :=
          List.getElem?_eq_none (by rw [List.length_set]; omega)
        simp [hmem, hlt, hnone, hnone2]
    · by_cases hia : i = a
      · subst hia
        by_cases hlt : i < t.length
        · simp [hmem, hlt, List.getElem?_set_self hlt]
        · have hnone : t[i]? = none := List.getElem?_eq_none (by omega)
          have hnone2 : (t.set i (f i))[i]? = none :=
            List.getElem?_eq_none (by rw [List.length_set]; omega)
          simp [hmem, hlt, hnone, hnone2]
      · simp [hmem, hia, List.getElem?_set_ne (Ne.symm hia)]

/-- The preset loop keeps the length of the register array. -/
theorem RegExpImpl.IrregexpExecRaw.presetRegisters_length (n : Nat) (raw : List Int) :
    (RegExpImpl.IrregexpExecRaw.presetRegisters n raw).length = raw.length :=
  foldl_set_length _ (fun _ => -1) raw

/-- The preset loop leaves `-1` in each capture register. -/
theorem RegExpImpl.IrregexpExecRaw.presetRegisters_getElem? (n : Nat) (raw : List Int)
    (i : Nat) (hi : i < n) (hlen : n ≤ raw.length) :
    (RegExpImpl.IrregexpExecRaw.presetRegisters n raw)[i]? = some (-1) := by
  unfold RegExpImpl.IrregexpExecRaw.presetRegisters
  rw [foldl_set_getElem? _ (fun _ => -1)]
  simp only [List.mem_reverse, List.mem_range]
  rw [if_pos ⟨hi, by omega⟩]

/-- The copy of `n` slots over an array of exactly `n` slots gives the first
`n` slots of the source. -/
theorem MemCopy_eq_take (dest src : List Int) (n : Nat) (hd : dest.length = n)
    (hs : n ≤ src.length) : MemCopy dest src n = src.take n := by
  apply List.ext_getElem?
  intro i
  unfold MemCopy
  rw [foldl_set_getElem? _ (fun i => src.getD i 0)]
  simp only [List.mem_range, hd, and_self]
  by_cases hi : i < n
  · rw [if_pos hi, List.getElem?_take_of_lt hi, List.getD_eq_getElem?_getD,
      List.getElem?_eq_getElem (by omega)]
    simp
  · rw [if_neg hi, List.getElem?_eq_none (by omega), List.getElem?_eq_none (by simp; omega)]

/-- The interpreter loop leaves the capture slots alone unless it returns
`RE_SUCCESS`, in which case they hold the capture registers of the last
interpreter run, which started from `-1`. -/
theorem RegExpImpl.IrregexpExecRaw.interpreterLoop_frame (env : MatcherEnv) (n : Nat)
    (hlen : ∀ t b regs, (env.InterpreterMatch t b regs).2.length = regs.length) (fuel : Nat) :
    ∀ (is_one_byte : Bool) (st : ExecState) (res : Int) (st' : ExecState),
      2 * n ≤ st.output.length →
      RegExpImpl.IrregexpExecRaw.interpreterLoop env n fuel is_one_byte st = some (res, st') →
      (res = RegExpImpl.RE_SUCCESS →
        ∃ b registers,
          (∀ i, i < n → registers[i]? = some (-1)) ∧
          (env.InterpreterMatch (st'.clock - 1) b registers).1 =
            IrregexpInterpreter.Result.SUCCESS ∧
          st'.output.take n = (env.InterpreterMatch (st'.clock - 1) b registers).2.take n) ∧
      (res = RegExpImpl.RE_FAILURE ∨ res = RegExpImpl.RE_EXCEPTION →
        st'.output.take n = st.output.take n) := by
  induction fuel with
  | zero => intro b st res st' _ h; simp [RegExpImpl.IrregexpExecRaw.interpreterLoop] at h
  | succ fuel ih =>
    intro b st res st' hout h
    simp only [RegExpImpl.IrregexpExecRaw.interpreterLoop] at h
    have hraw : (RegExpImpl.IrregexpExecRaw.presetRegisters n (st.output.drop n)).length =
        st.output.length - n := by
      rw [RegExpImpl.IrregexpExecRaw.presetRegisters_length, List.length_drop]
    have hraw' : (env.InterpreterMatch st.clock b
        (RegExpImpl.IrregexpExecRaw.presetRegisters n (st.output.drop n))).2.length =
        st.output.length - n := by
      rw [hlen, hraw]
    have htake : (st.output.take n).length = n := by
      rw [List.length_take]; omega
    have hkeep : (st.output.take n ++ (env.InterpreterMatch st.clock b
        (RegExpImpl.IrregexpExecRaw.presetRegisters n (st.output.drop n))).2).take n =
        st.output.take n := by
      rw [List.take_append_of_le_length (by omega), List.take_of_length_le (by omega)]
    cases hres : (env.InterpreterMatch st.clock b
        (RegExpImpl.IrregexpExecRaw.presetRegisters n (st.output.drop n))).1 with
    | RETRY =>
      rw [hres] at h
      have := ih _ _ _ _ (by simp only [List.length_append, htake, hraw']; omega) h
      refine ⟨this.1, fun hfe => ?_⟩
      rw [this.2 hfe]
      exact hkeep
    | EXCEPTION =>
      rw [hres] at h
      simp only [Option.some.injEq, Prod.mk.injEq] at h
      obtain ⟨h1, h2⟩ := h
      subst h1 h2
      exact ⟨fun hs => absurd hs (by decide), fun _ => hkeep⟩
    | FAILURE =>
      rw [hres] at h
      simp only [Option.some.injEq, Prod.mk.injEq] at h
      obtain ⟨h1, h2⟩ := h
      subst h1 h2
      exact ⟨fun hs => absurd hs (by decide), fun _ => hkeep⟩
    | SUCCESS =>
      rw [hres] at h
      simp only [Option.some.injEq, Prod.mk.injEq] at h
      obtain ⟨h1, h2⟩ := h
      subst h1 h2
      refine ⟨fun _ => ⟨b, RegExpImpl.IrregexpExecRaw.presetRegisters n (st.output.drop n),
        fun i hi => RegExpImpl.IrregexpExecRaw.presetRegisters_getElem? n _ i hi
          (by rw [List.length_drop]; omega), by simpa using hres, ?_⟩,
        fun hfe => absurd hfe (by decide)⟩
      simp only [Nat.add_sub_cancel]
      rw [MemCopy_eq_take _ _ n htake (by omega)]
      rw [List.take_append_of_le_length (by rw [List.length_take]; omega),
        List.take_take, Nat.min_self]

/-- C10: in interpreter mode, with an output array that holds the capture
slots and at least as many registers, and an interpreter that keeps the
length of its register array: a call of `IrregexpExecRaw` that returns
`RE_SUCCESS` leaves in the first `(captures + 1) * 2` slots of `output` the
capture registers of the successful interpreter run, which started with each
of them preset to `-1`; a call that returns `RE_FAILURE` or `RE_EXCEPTION`
leaves those slots as they were before the call; no other result is
returned, and the call does return (any fuel above `k` is enough) when the
interpreter answers `RETRY` exactly `k` times. -/
theorem RegExpImpl.IrregexpExecRaw_interpreter_frame (env : MatcherEnv) (capture_count : Nat)
    (output : List Int)
    (hlen : ∀ t b regs, (env.InterpreterMatch t b regs).2.length = regs.length)
    (hout : 2 * ((capture_count + 1) * 2) ≤ output.length) :
    (∀ fuel res st,
      RegExpImpl.IrregexpExecRaw env true capture_count fuel output = some (res, st) →
      RegExpImpl.isTriState res ∧
      (res = RegExpImpl.RE_SUCCESS →
        ∃ b registers,
          (∀ i, i < (capture_count + 1) * 2 → registers[i]? = some (-1)) ∧
          (env.InterpreterMatch (st.clock - 1) b registers).1 =
            IrregexpInterpreter.Result.SUCCESS ∧
          st.output.take ((capture_count + 1) * 2) =
            (env.InterpreterMatch (st.clock - 1) b registers).2.take
              ((capture_count + 1) * 2)) ∧
      (res = RegExpImpl.RE_FAILURE ∨ res = RegExpImpl.RE_EXCEPTION →
        st.output.take ((capture_count + 1) * 2) =
          output.take ((capture_count + 1) * 2))) ∧
    (∀ k, env.retriesExactly true k → ∀ fuel, k < fuel →
      ∃ res st, RegExpImpl.IrregexpExecRaw env true capture_count fuel output =
        some (res, st)) := by
  constructor
  · intro fuel res st h
    have htri := RegExpImpl.IrregexpExecRaw.interpreterLoop_result env _ fuel _ _ _ _ h
    have hframe := RegExpImpl.IrregexpExecRaw.interpreterLoop_frame env
      ((capture_count + 1) * 2) hlen fuel _ _ _ _ hout h
    exact ⟨htri, hframe.1, hframe.2⟩
  · intro k hk fuel hfuel
    simp only [MatcherEnv.retriesExactly, if_true] at hk
    obtain ⟨res, st, h1, _, _⟩ :=
      RegExpImpl.IrregexpExecRaw.interpreterLoop_total env ((capture_count + 1) * 2) k fuel
        { output := output, clock := 0, events := [] }
        (fun j hj b o => by simpa using hk.1 j hj b o)
        (fun b o => by simpa using hk.2 b o) hfuel
    exact ⟨res, st, h1⟩

/-- Witness for C10: an interpreter that answers `RETRY` once (after
scribbling on a register) and then succeeds with the captures `3, 5`; the
two capture slots of the output receive `3, 5`. -/
theorem RegExpImpl.IrregexpExecRaw_interpreter_frame_witness :
    RegExpImpl.IrregexpExecRaw MatcherEnv.retryOnce true 0 2 [7, 7, 8, 8] =
      some (1, { output := [3, 5, 3, 5], clock := 2,
                 events := [.InterpreterMatch true, .EnsureCompiledIrregexp false,
                            .InterpreterMatch false] }) ∧
    RegExpImpl.isTriState 1 ∧
    ∃ res st, RegExpImpl.IrregexpExecRaw MatcherEnv.retryOnce true 0 2 [7, 7, 8, 8] =
      some (res, st) :=
  ⟨by decide,
    ((RegExpImpl.IrregexpExecRaw_interpreter_frame MatcherEnv.retryOnce 0 [7, 7, 8, 8]
      (by
        intro t b regs
        simp only [MatcherEnv.retryOnce]
        split <;> simp)
      (by decide)).1 2 1
      { output := [3, 5, 3, 5], clock := 2,
        events := [.InterpreterMatch true, .EnsureCompiledIrregexp false,
                   .InterpreterMatch false] }
      (by decide)).1,
    (RegExpImpl.IrregexpExecRaw_interpreter_frame MatcherEnv.retryOnce 0 [7, 7, 8, 8]
      (by
        intro t b regs
        simp only [MatcherEnv.retryOnce]
        split <;> simp)
      (by decide)).2 1
      (by
        simp only [MatcherEnv.retriesExactly, if_true]
        refine ⟨fun j hj b o => ?_, fun b o => ?_⟩
        · have : j = 0 := by omega
          subst this
          rfl
        · simp [MatcherEnv.retryOnce])
      2 (by decide)⟩

/-! ## Last match info -/

/-- Reserving room leaves at least the requested number of capture slots. -/
theorem RegExpMatchInfo.ReserveCaptures_length (r : RegExpMatchInfo) (n : Int) :
    n ≤ (r.ReserveCaptures n).captures.length := by
  unfold RegExpMatchInfo.ReserveCaptures
  split
  · assumption
  · simp only [List.length_append, List.length_replicate]
    omega

/-- The copying loop, started at the even index `2 * k` with enough rounds
left, writes `match[j]` into every slot `2 * k ≤ j < 2 * c`, and changes
nothing else. -/
theorem RegExpImpl.SetLastMatchInfo.loop_copies (m : Nat → Int) (c : Nat) :
    ∀ (fuel k : Nat) (r : RegExpMatchInfo), k ≤ c → c - k ≤ fuel →
      2 * c ≤ r.captures.length →
      let r' := RegExpImpl.SetLastMatchInfo.loop m ((2 * c : Nat) : Int) fuel ((2 * k : Nat) : Int) r
      r'.NumberOfCaptureRegisters = r.NumberOfCaptureRegisters ∧
      r'.LastSubject = r.LastSubject ∧ r'.LastInput = r.LastInput ∧
      r'.captures.length = r.captures.length ∧
      ∀ j : Nat, r'.captures[j]? =
        if 2 * k ≤ j ∧ j < 2 * c then some (m j) else r.captures[j]? := by
  intro fuel
  induction fuel with
  | zero =>
    intro k r hk hfuel _
    have hkc : k = c := by omega
    subst hkc
    refine ⟨rfl, rfl, rfl, rfl, fun j => ?_⟩
    rw [if_neg (by omega)]
    rfl
  | succ fuel ih =>
    intro k r hk hfuel hlen
    simp only [RegExpImpl.SetLastMatchInfo.loop]
    by_cases hlt : ((2 * k : Nat) : Int) < ((2 * c : Nat) : Int)
    · rw [if_pos hlt]
      have hkc : k < c := by omega
      have hidx : ((2 * k : Nat) : Int) + 2 = ((2 * (k + 1) : Nat) : Int) := by
        push_cast; ring
      rw [hidx]
      have hlen2 : 2 * c ≤
          ((r.SetCapture ((2 * k : Nat) : Int) (m ((2 * k : Nat) : Int).toNat)).SetCapture
            (((2 * k : Nat) : Int) + 1) (m (((2 * k : Nat) : Int) + 1).toNat)).captures.length := by
        simp only [RegExpMatchInfo.SetCapture, List.length_set]
        exact hlen
      obtain ⟨h1, h2, h3, h4, h5⟩ := ih (k + 1) _ (by omega) (by omega) hlen2
      refine ⟨h1, h2, h3, ?_, fun j => ?_⟩
      · rw [h4]
        simp only [RegExpMatchInfo.SetCapture, List.length_set]
      · rw [h5 j]
        have e1 : ((2 * k : Nat) : Int).toNat = 2 * k := Int.toNat_ofNat _
        have e2 : (((2 * k : Nat) : Int) + 1).toNat = 2 * k + 1 := by omega
        simp only [RegExpMatchInfo.SetCapture, e1, e2]
        by_cases hj1 : j = 2 * k
        · subst hj1
          rw [if_neg (by omega), if_pos (by omega)]
          rw [List.getElem?_set_ne (by omega), List.getElem?_set_self (by omega)]
        · by_cases hj2 : j = 2 * k + 1
          · subst hj2
            rw [if_neg (by omega), if_pos (by omega)]
            rw [List.getElem?_set_self (by simp only [List.length_set]; omega)]
          · rw [List.getElem?_set_ne (by omega), List.getElem?_set_ne (by omega)]
            by_cases hj3 : 2 * (k + 1) ≤ j ∧ j < 2 * c
            · rw [if_pos hj3, if_pos (by omega)]
            · rw [if_neg hj3, if_neg (by omega)]
    · rw [if_neg hlt]
      have hkc : k = c := by omega
      subst hkc
      refine ⟨rfl, rfl, rfl, rfl, fun j => ?_⟩
      rw [if_neg (by omega)]

/-- C11: for every `capture_count ≥ 0` and every non-null `match` array,
`RegExpImpl::SetLastMatchInfo` returns a record whose number of capture
registers is `(capture_count + 1) * 2`, whose capture `i` is `match[i]` for
every `i` below that number, and whose last subject and last input are the
given subject. -/
theorem RegExpImpl.SetLastMatchInfo_spec (last_match_info : RegExpMatchInfo)
    (subject : HeapString) (capture_count : Int) (m : Nat → Int) (h : 0 ≤ capture_count) :
    let result := RegExpImpl.SetLastMatchInfo last_match_info subject capture_count (some m)
    result.NumberOfCaptureRegisters = (capture_count + 1) * 2 ∧
    (∀ i : Nat, (i : Int) < (capture_count + 1) * 2 → result.Capture i = some (m i)) ∧
    result.LastSubject = some subject ∧ result.LastInput = some subject := by
  obtain ⟨n, rfl⟩ := Int.eq_ofNat_of_zero_le h
  have hcount : ((n : Int) + 1) * 2 = ((2 * (n + 1) : Nat) : Int) := by push_cast; ring
  have hlen := RegExpMatchInfo.ReserveCaptures_length last_match_info (((n : Int) + 1) * 2)
  simp only [RegExpImpl.SetLastMatchInfo]
  rw [hcount] at hlen ⊢
  have hlen2 : 2 * (n + 1) ≤
      ((last_match_info.ReserveCaptures ((2 * (n + 1) : Nat) : Int)).SetNumberOfCaptureRegisters
        ((2 * (n + 1) : Nat) : Int)).captures.length := by
    simp only [RegExpMatchInfo.SetNumberOfCaptureRegisters]
    omega
  have hspec := RegExpImpl.SetLastMatchInfo.loop_copies m (n + 1) (2 * (n + 1)) 0 _
    (Nat.zero_le _) (by omega) hlen2
  rw [show ((2 * 0 : Nat) : Int) = 0 from rfl] at hspec
  simp only [Int.toNat_ofNat]
  obtain ⟨h1, _, _, _, h5⟩ := hspec
  refine ⟨?_, fun i hi => ?_, rfl, rfl⟩
  · simp only [RegExpMatchInfo.SetLastInput, RegExpMatchInfo.SetLastSubject]
    rw [h1]
    rfl
  · simp only [RegExpMatchInfo.Capture, RegExpMatchInfo.SetLastInput,
      RegExpMatchInfo.SetLastSubject, Int.toNat_ofNat]
    rw [h5 i, if_pos (by omega)]

/-- C11 at a concrete input: one capture group, an empty record, and the
match array `[3, 7, 4, 6]`. -/
theorem RegExpImpl.SetLastMatchInfo_spec_witness :
    (0 : Int) ≤ 1 ∧
    (let result := RegExpImpl.SetLastMatchInfo
        { NumberOfCaptureRegisters := 0, LastSubject := none, LastInput := none, captures := [] }
        { id := 1, internalized := false, hash := 0 } 1
        (some (fun i => [3, 7, 4, 6].getD i 0))
     result.NumberOfCaptureRegisters = (1 + 1) * 2 ∧
     (∀ i : Nat, (i : Int) < (1 + 1) * 2 →
        result.Capture i = some ((fun i => [3, 7, 4, 6].getD i 0) i)) ∧
     result.LastSubject = some { id := 1, internalized := false, hash := 0 } ∧
     result.LastInput = some { id := 1, internalized := false, hash := 0 }) :=
  ⟨by decide, RegExpImpl.SetLastMatchInfo_spec _ _ 1 _ (by decide)⟩

/-! ## Compiler state, traces and the size limits -/

/-- C12: whenever `(capture_count + 1) * 2 - 1` exceeds the macro assembler's
maximum register number, `RegExpEngine::Compile` returns the failure whose
message is exactly "RegExp too big", and has built no node: what follows the
test is not run. -/
theorem RegExpEngine.Compile_too_big (kMaxRegister : Int) (FLAG_regexp_optimization : Bool)
    (build_and_assemble : RegExpCompiler → RegExpEngine.CompileRun)
    (data : RegExpCompileData) (is_one_byte : Bool)
    (h : (data.capture_count + 1) * 2 - 1 > kMaxRegister) :
    RegExpEngine.Compile kMaxRegister FLAG_regexp_optimization build_and_assemble data
        is_one_byte =
      { result := .failure "RegExp too big", nodes_built := [] } := by
  unfold RegExpEngine.Compile
  rw [if_pos h]
  rfl

/-- C12 at a concrete input: 32768 capture groups against a maximum register
number of 65535, with a continuation that would build a node and succeed. -/
theorem RegExpEngine.Compile_too_big_witness :
    ((32768 : Int) + 1) * 2 - 1 > 65535 ∧
    RegExpEngine.Compile 65535 true
        (fun compiler =>
          { result := .success (Object.smi 0) compiler.next_register_, nodes_built := [0] })
        { tree := .Other, simple := false, capture_count := 32768 } true =
      { result := .failure "RegExp too big", nodes_built := [] } :=
  ⟨by decide, RegExpEngine.Compile_too_big 65535 true _
    { tree := .Other, simple := false, capture_count := 32768 } true (by decide)⟩

/-- No emission step lowers the flag `reg_exp_too_big_`. -/
theorem EmissionStep.apply_keeps_flag (kMaxCPOffset : Int) (compiler : RegExpCompiler)
    (step : EmissionStep) (h : compiler.reg_exp_too_big_ = true) :
    (step.apply kMaxCPOffset compiler).reg_exp_too_big_ = true := by
  cases step with
  | AddWork node => exact h
  | IncrementRecursionDepth => exact h
  | DecrementRecursionDepth => exact h
  | set_limiting_recursion value => exact h
  | TextNode_Emit trace Length =>
    simp only [EmissionStep.apply, TextNode.Emit_offset_test]
    split
    · rfl
    · exact h
  | AdvanceCurrentPositionInTrace trace by_ =>
    simp only [EmissionStep.apply, Trace.AdvanceCurrentPositionInTrace]
    split
    · rfl
    · exact h

/-- No sequence of emission steps lowers the flag `reg_exp_too_big_`. -/
theorem EmissionStep.foldl_keeps_flag (kMaxCPOffset : Int) (steps : List EmissionStep) :
    ∀ compiler : RegExpCompiler, compiler.reg_exp_too_big_ = true →
      (steps.foldl (EmissionStep.apply kMaxCPOffset) compiler).reg_exp_too_big_ = true := by
  induction steps with
  | nil => intro compiler h; exact h
  | cons step steps ih =>
    intro compiler h
    exact ih _ (EmissionStep.apply_keeps_flag kMaxCPOffset compiler step h)

/-- A step that finds an offset above `kMaxCPOffset` raises the flag. -/
theorem EmissionStep.apply_exceeds (kMaxCPOffset : Int) (compiler : RegExpCompiler)
    (step : EmissionStep) (h : step.exceeds kMaxCPOffset = true) :
    (step.apply kMaxCPOffset compiler).reg_exp_too_big_ = true := by
  cases step with
  | AddWork node => exact absurd h (by simp [EmissionStep.exceeds])
  | IncrementRecursionDepth => exact absurd h (by simp [EmissionStep.exceeds])
  | DecrementRecursionDepth => exact absurd h (by simp [EmissionStep.exceeds])
  | set_limiting_recursion value => exact absurd h (by simp [EmissionStep.exceeds])
  | TextNode_Emit trace Length =>
    have h2 : trace.cp_offset_ + Length > kMaxCPOffset := of_decide_eq_true h
    simp only [EmissionStep.apply, TextNode.Emit_offset_test]
    rw [if_pos h2]
    rfl
  | AdvanceCurrentPositionInTrace trace by_ =>
    have h2 : trace.cp_offset_ + by_ > kMaxCPOffset := of_decide_eq_true h
    simp only [EmissionStep.apply, Trace.AdvanceCurrentPositionInTrace]
    rw [if_pos h2]
    rfl

/-- C13: if a step of the emission finds a trace offset above `kMaxCPOffset`
(in `TextNode::Emit` or in `Trace::AdvanceCurrentPositionInTrace`), the
compiler's flag is set after that step and after every further step,
`AdvanceCurrentPositionInTrace` leaves the offset of its trace at 0, and
`RegExpCompiler::Assemble` calls `AbortedCodeGeneration`, not `GetCode`, and
returns the failure "RegExp too big". -/
theorem RegExpCompiler.Assemble_too_big (kMaxCPOffset : Int) (compiler : RegExpCompiler)
    (before after : List EmissionStep) (step : EmissionStep) (code : Object)
    (h : step.exceeds kMaxCPOffset = true) :
    ((before ++ [step]).foldl (EmissionStep.apply kMaxCPOffset)
        { compiler with work_list_ := [] }).reg_exp_too_big_ = true ∧
    (∀ more : List EmissionStep,
      ((before ++ [step] ++ more).foldl (EmissionStep.apply kMaxCPOffset)
        { compiler with work_list_ := [] }).reg_exp_too_big_ = true) ∧
    (∀ (trace : Trace) (by_ : Int) (c : RegExpCompiler),
      step = .AdvanceCurrentPositionInTrace trace by_ →
      (trace.AdvanceCurrentPositionInTrace kMaxCPOffset by_ c).1.cp_offset_ = 0) ∧
    (RegExpCompiler.Assemble kMaxCPOffset compiler (before ++ step :: after) code).1 =
      .failure "RegExp too big" ∧
    (RegExpCompiler.Assemble kMaxCPOffset compiler (before ++ step :: after) code).2.1 =
      [.AbortedCodeGeneration] := by
  have hset : ((before ++ [step]).foldl (EmissionStep.apply kMaxCPOffset)
      { compiler with work_list_ := [] }).reg_exp_too_big_ = true := by
    rw [List.foldl_append]
    exact EmissionStep.apply_exceeds kMaxCPOffset _ step h
  have hall : ∀ more : List EmissionStep,
      ((before ++ [step] ++ more).foldl (EmissionStep.apply kMaxCPOffset)
        { compiler with work_list_ := [] }).reg_exp_too_big_ = true := by
    intro more
    rw [List.foldl_append]
    exact EmissionStep.foldl_keeps_flag kMaxCPOffset more _ hset
  have hlist : before ++ step :: after = before ++ [step] ++ after := by simp
  refine ⟨hset, hall, ?_, ?_, ?_⟩
  · intro trace by_ c hstep
    subst hstep
    have h2 : trace.cp_offset_ + by_ > kMaxCPOffset := of_decide_eq_true h
    simp only [Trace.AdvanceCurrentPositionInTrace]
    rw [if_pos h2]
  · simp only [RegExpCompiler.Assemble]
    rw [hlist, if_pos (hall after)]
    rfl
  · simp only [RegExpCompiler.Assemble]
    rw [hlist, if_pos (hall after)]

/-- C13 at a concrete input: with `kMaxCPOffset = 32767`, a text node of
length 3 emitted at offset 32766 between two other steps. -/
theorem RegExpCompiler.Assemble_too_big_witness :
    (EmissionStep.TextNode_Emit { Trace.new with cp_offset_ := 32766 } 3).exceeds 32767 = true ∧
    (RegExpCompiler.Assemble 32767 (RegExpCompiler.new 0 true true)
        ([.IncrementRecursionDepth] ++
          .TextNode_Emit { Trace.new with cp_offset_ := 32766 } 3 :: [.DecrementRecursionDepth])
        (Object.other 1)).1 = .failure "RegExp too big" :=
  ⟨by decide,
    (RegExpCompiler.Assemble_too_big 32767 (RegExpCompiler.new 0 true true)
      [.IncrementRecursionDepth] [.DecrementRecursionDepth]
      (.TextNode_Emit { Trace.new with cp_offset_ := 32766 } 3) (Object.other 1)
      (by decide)).2.2.2.1⟩

/-- C14: when parsing fails (on a miss of the compilation cache),
`RegExpImpl::Compile` returns with the exception pending, has set no data on
the regexp and has stored nothing in the cache; and on every path, what is
stored in the cache is the data that has been set on the regexp. -/
theorem RegExpImpl.Compile_parse_failure
    (maybe_cached : Option JSRegExp.Data) (parse : Option RegExpCompileData)
    (NewStringFromTwoByte : List Nat → Option (List Nat)) (pattern : List Nat)
    (flags : JSRegExp.Flags) :
    RegExpImpl.Compile none none NewStringFromTwoByte pattern flags =
      { re_data := none, cache_put := none, exception := true } ∧
    ∀ data : JSRegExp.Data,
      (RegExpImpl.Compile maybe_cached parse NewStringFromTwoByte pattern flags).cache_put =
        some data →
      (RegExpImpl.Compile maybe_cached parse NewStringFromTwoByte pattern flags).re_data =
        some data := by
  refine ⟨rfl, fun data => ?_⟩
  unfold RegExpImpl.Compile
  cases maybe_cached with
  | some cached => intro h; exact absurd h (by simp)
  | none =>
    cases parse with
    | none => intro h; exact absurd h (by simp)
    | some parse_result =>
      simp only []
      split
      · exact id
      · split
        · split
          · split
            · intro h; exact absurd h (by simp)
            · split
              · exact id
              · exact id
          · exact id
        · exact id

/-- C14 at a concrete input: the pattern `abc` parsed as a simple atom is
stored in the cache as the data set on the regexp. -/
theorem RegExpImpl.Compile_parse_failure_witness :
    (RegExpImpl.Compile none
        (some { tree := .Atom [97, 98, 99] JSRegExp.Flags.none, simple := true,
                capture_count := 0 })
        some [97, 98, 99] JSRegExp.Flags.none).cache_put =
      some (.ATOM [97, 98, 99] JSRegExp.Flags.none [97, 98, 99]) ∧
    (RegExpImpl.Compile none
        (some { tree := .Atom [97, 98, 99] JSRegExp.Flags.none, simple := true,
                capture_count := 0 })
        some [97, 98, 99] JSRegExp.Flags.none).re_data =
      some (.ATOM [97, 98, 99] JSRegExp.Flags.none [97, 98, 99]) :=
  ⟨by decide,
    (RegExpImpl.Compile_parse_failure none
      (some { tree := .Atom [97, 98, 99] JSRegExp.Flags.none, simple := true,
              capture_count := 0 })
      some [97, 98, 99] JSRegExp.Flags.none).2 _ (by decide)⟩

/-- C20: for every trace and every advance amount,
`Trace::AdvanceCurrentPositionInTrace` and `Trace::InvalidateCurrentCharacter`
both leave `characters_preloaded_` equal to 0. -/
theorem Trace.characters_preloaded_reset (kMaxCPOffset : Int) (trace : Trace) (by_ : Int)
    (compiler : RegExpCompiler) :
    (trace.AdvanceCurrentPositionInTrace kMaxCPOffset by_ compiler).1.characters_preloaded_ = 0 ∧
    trace.InvalidateCurrentCharacter.characters_preloaded_ = 0 := by
  refine ⟨?_, rfl⟩
  simp only [Trace.AdvanceCurrentPositionInTrace]
  split <;> rfl

/-! ## Emission of action nodes -/

/-- Changing fields of a node other than its class keeps the classes. -/
theorem Emitter.modifyNode_kinds (st : Emitter) (node : Nat) (f : EmitNode → EmitNode)
    (hf : ∀ n, (f n).kind = n.kind) :
    (st.modifyNode node f).nodes.map EmitNode.kind = st.nodes.map EmitNode.kind := by
  unfold Emitter.modifyNode
  cases h : st.nodes[node]? with
  | none => rfl
  | some n =>
    simp only []
    apply List.ext_getElem?
    intro i
    by_cases hi : i = node
    · subst hi
      have hlt : i < st.nodes.length := by
        rcases Nat.lt_or_ge i st.nodes.length with hlt | hge
        · exact hlt
        · rw [List.getElem?_eq_none hge] at h
          exact absurd h (by simp)
      rw [List.getElem?_map, List.getElem?_map, List.getElem?_set_self hlt, h]
      simp only [Option.map_some', hf]
    · rw [List.getElem?_map, List.getElem?_map, List.getElem?_set_ne (Ne.symm hi)]

/-- The relation `Within` holds between a state and itself. -/
theorem Emitter.Within.refl (k : EmitConstants) (st : Emitter) : Emitter.Within k st st :=
  ⟨rfl, rfl, rfl, rfl, le_max_left _ _⟩

/-- The relation `Within` is transitive. -/
theorem Emitter.Within.trans (k : EmitConstants) (a b c : Emitter)
    (hab : Emitter.Within k a b) (hbc : Emitter.Within k b c) : Emitter.Within k a c := by
  obtain ⟨h1, h2, h3, h4, h5⟩ := hab
  obtain ⟨g1, g2, g3, g4, g5⟩ := hbc
  refine ⟨g1.trans h1, g2.trans h2, g3.trans h3, g4.trans h4, ?_⟩
  apply le_trans g5
  apply max_le
  · exact h5
  · exact le_max_right _ _

/-- A state with the same compiler flags, depth, classes and deepest
recursion is `Within` the first. -/
theorem Emitter.Within.of_eq (k : EmitConstants) (st st' : Emitter)
    (h1 : st'.compiler.recursion_depth_ = st.compiler.recursion_depth_)
    (h2 : st'.compiler.limiting_recursion_ = st.compiler.limiting_recursion_)
    (h3 : st'.compiler.optimize_ = st.compiler.optimize_)
    (h4 : st'.nodes.map EmitNode.kind = st.nodes.map EmitNode.kind)
    (h5 : st'.deepest_recursion = st.deepest_recursion) : Emitter.Within k st st' :=
  ⟨h1, h2, h3, h4, by rw [h5]; exact le_max_left _ _⟩

/-- Emitting an operation changes the code only. -/
theorem Emitter.Within.emit (k : EmitConstants) (st : Emitter) (op : AssemblerOp) :
    Emitter.Within k st (st.emit op) :=
  Emitter.Within.of_eq k _ _ rfl rfl rfl rfl rfl

/-- Binding a node's label keeps the recursion state and the classes. -/
theorem Emitter.Within.Bind (k : EmitConstants) (st : Emitter) (node : Nat) :
    Emitter.Within k st (st.Bind node) := by
  refine Emitter.Within.of_eq k _ _ ?_ ?_ ?_ ?_ ?_
  · unfold Emitter.Bind Emitter.emit Emitter.modifyNode; split <;> rfl
  · unfold Emitter.Bind Emitter.emit Emitter.modifyNode; split <;> rfl
  · unfold Emitter.Bind Emitter.emit Emitter.modifyNode; split <;> rfl
  · exact Emitter.modifyNode_kinds st node _ (fun _ => rfl)
  · unfold Emitter.Bind Emitter.emit Emitter.modifyNode; split <;> rfl

/-- Adding a node to the work list keeps the recursion state and the
classes. -/
theorem Emitter.Within.AddWork (k : EmitConstants) (st : Emitter) (node : Nat) :
    Emitter.Within k st (st.AddWork node) := by
  unfold Emitter.AddWork
  split
  · refine Emitter.Within.of_eq k _ _ ?_ ?_ ?_ ?_ ?_
    · unfold Emitter.modifyNode; split <;> rfl
    · unfold Emitter.modifyNode; split <;> rfl
    · unfold Emitter.modifyNode; split <;> rfl
    · exact Emitter.modifyNode_kinds st node _ (fun _ => rfl)
    · unfold Emitter.modifyNode; split <;> rfl
  · exact Emitter.Within.refl k st

/-- A change of the emitted code and of the label counter keeps the recursion
state and the classes. -/
theorem Emitter.Within.of_code (k : EmitConstants) (st : Emitter) (code : List AssemblerOp)
    (labels : Nat) : Emitter.Within k st { st with code := code, labels := labels } :=
  Emitter.Within.of_eq k _ _ rfl rfl rfl rfl rfl

/-- The first half of `Trace::Flush` changes the code and the label counter
only. -/
theorem Trace.Flush.before_frame (k : EmitConstants) (trace : Trace) (st : Emitter) :
    (Trace.Flush.before k trace st).2.compiler = st.compiler ∧
    (Trace.Flush.before k trace st).2.nodes = st.nodes ∧
    (Trace.Flush.before k trace st).2.deepest_recursion = st.deepest_recursion := by
  unfold Trace.Flush.before
  simp only []
  split <;> split <;> exact ⟨rfl, rfl, rfl⟩

/-- The second half of `Trace::Flush` changes the code only. -/
theorem Trace.Flush.after_frame (trace : Trace) (locals : Trace.Flush.Locals) (st : Emitter) :
    (Trace.Flush.after trace locals st).compiler = st.compiler ∧
    (Trace.Flush.after trace locals st).nodes = st.nodes ∧
    (Trace.Flush.after trace locals st).deepest_recursion = st.deepest_recursion := by
  unfold Trace.Flush.after
  simp only []
  split <;> exact ⟨rfl, rfl, rfl⟩

/-- A state with the same compiler, nodes and deepest recursion is `Within`
the first. -/
theorem Emitter.Within.of_frame (k : EmitConstants) (st st' : Emitter)
    (h : st'.compiler = st.compiler ∧ st'.nodes = st.nodes ∧
      st'.deepest_recursion = st.deepest_recursion) : Emitter.Within k st st' := by
  obtain ⟨h1, h2, h3⟩ := h
  exact Emitter.Within.of_eq k _ _ (by rw [h1]) (by rw [h1]) (by rw [h1]) (by rw [h2]) h3

/-- `Trace::Flush` keeps the recursion state, if the emission of the
successor on a trivial trace does. -/
theorem Trace.Flush_within (k : EmitConstants) (Emit : Trace → Emitter → Option Emitter)
    (hE : ∀ s s', Emit Trace.new s = some s' → Emitter.Within k s s')
    (trace : Trace) (successor : Nat) (st st' : Emitter)
    (h : Trace.Flush k Emit trace successor st = some st') : Emitter.Within k st st' := by
  unfold Trace.Flush at h
  by_cases hcond : (trace.actions_.isEmpty && trace.backtrack_.isNone) = true
  · rw [if_pos hcond] at h
    simp only [] at h
    refine Emitter.Within.trans k _ _ _ ?_ (hE _ _ h)
    split
    · exact Emitter.Within.emit k st _
    · exact Emitter.Within.refl k st
  · rw [if_neg hcond] at h
    simp only [] at h
    have hb := Emitter.Within.of_frame k st _ (Trace.Flush.before_frame k trace st)
    split at h
    · exact absurd h (by simp)
    · rename_i s6 heq
      have h6 : Emitter.Within k st s6 := by
        refine Emitter.Within.trans k _ _ _ hb ?_
        split at heq
        · exact hE _ _ heq
        · have e := Option.some.inj heq
          rw [← e]
          exact Emitter.Within.trans k _ _ _ (Emitter.Within.AddWork k _ _)
            (Emitter.Within.emit k _ _)
      have e := Option.some.inj h
      rw [← e]
      exact Emitter.Within.trans k _ _ _ h6
        (Emitter.Within.of_frame k _ _ (Trace.Flush.after_frame trace _ s6))

/-- `RegExpNode::LimitVersions` keeps the recursion state, if the node's
emission on a trivial trace does; on a trace without stop node it returns
`CONTINUE` only at a recursion depth of at most `kMaxRecursion`. -/
theorem RegExpNode.LimitVersions_within (k : EmitConstants)
    (Emit : Trace → Emitter → Option Emitter)
    (hE : ∀ s s', Emit Trace.new s = some s' → Emitter.Within k s s')
    (this : Nat) (trace : Trace) (st st' : Emitter) (result : RegExpNode.LimitResult)
    (h : RegExpNode.LimitVersions k Emit this trace st = some (result, st')) :
    Emitter.Within k st st' ∧
    (trace.stop_node_ = none → result = .CONTINUE →
      st'.compiler.recursion_depth_ ≤ k.kMaxRecursion) := by
  unfold RegExpNode.LimitVersions at h
  by_cases hstop : trace.stop_node_.isSome = true
  · rw [if_pos hstop] at h
    have e := Option.some.inj h
    have e2 : st' = st := (congrArg Prod.snd e).symm
    subst e2
    refine ⟨Emitter.Within.refl k _, fun hnone => ?_⟩
    rw [hnone] at hstop
    exact absurd hstop (by simp)
  · rw [if_neg hstop] at h
    by_cases htriv : trace.is_trivial = true
    · rw [if_pos htriv] at h
      by_cases hgo : (st.is_bound this || st.on_work_list this ||
          !RegExpNode.KeepRecursing k st.compiler) = true
      · rw [if_pos hgo] at h
        have e := Option.some.inj h
        have e1 : result = .DONE := (congrArg Prod.fst e).symm
        have e2 : st' = (st.emit (.GoTo (some (.node this)))).AddWork this :=
          (congrArg Prod.snd e).symm
        subst e1 e2
        refine ⟨Emitter.Within.trans k _ _ _ (Emitter.Within.emit k _ _)
          (Emitter.Within.AddWork k _ _), fun _ hc => ?_⟩
        exact absurd hc (by decide)
      · rw [if_neg hgo] at h
        have e := Option.some.inj h
        have e2 : st' = st.Bind this := (congrArg Prod.snd e).symm
        subst e2
        refine ⟨Emitter.Within.Bind k _ _, fun _ _ => ?_⟩
        have hw := (Emitter.Within.Bind k st this).1
        rw [hw]
        have hkeep : RegExpNode.KeepRecursing k st.compiler = true := by
          cases hk : RegExpNode.KeepRecursing k st.compiler with
          | true => rfl
          | false => rw [hk] at hgo; simp at hgo
        unfold RegExpNode.KeepRecursing at hkeep
        simp only [Bool.and_eq_true, decide_eq_true_eq] at hkeep
        exact hkeep.2
    · rw [if_neg htriv] at h
      simp only [] at h
      have hm : Emitter.Within k st
          (st.modifyNode this (fun n => { n with trace_count_ := n.trace_count_ + 1 })) := by
        refine Emitter.Within.of_eq k _ _ ?_ ?_ ?_ ?_ ?_
        · unfold Emitter.modifyNode; split <;> rfl
        · unfold Emitter.modifyNode; split <;> rfl
        · unfold Emitter.modifyNode; split <;> rfl
        · exact Emitter.modifyNode_kinds st this _ (fun _ => rfl)
        · unfold Emitter.modifyNode; split <;> rfl
      split at h
      · rename_i hcont
        have e := Option.some.inj h
        have e2 : st' = _ := (congrArg Prod.snd e).symm
        subst e2
        refine ⟨hm, fun _ _ => ?_⟩
        simp only [Bool.and_eq_true, decide_eq_true_eq] at hcont
        have hkeep := hcont.1.1
        unfold RegExpNode.KeepRecursing at hkeep
        simp only [Bool.and_eq_true, decide_eq_true_eq] at hkeep
        exact hkeep.2
      · split at h
        · exact absurd h (by simp)
        · rename_i s1 hflush
          have e := Option.some.inj h
          have e1 : result = .DONE := (congrArg Prod.fst e).symm
          have e2 : st' = _ := (congrArg Prod.snd e).symm
          subst e1 e2
          refine ⟨?_, fun _ hc => absurd hc (by decide)⟩
          have hf := Trace.Flush_within k Emit hE trace this _ s1 hflush
          obtain ⟨f1, f2, f3, f4, f5⟩ := hf
          obtain ⟨m1, m2, m3, m4, m5⟩ := hm
          refine ⟨?_, ?_, ?_, ?_, ?_⟩
          · exact f1.trans m1
          · exact m2
          · exact f3.trans m3
          · exact f4.trans m4
          · exact le_trans f5 (max_le m5 (le_max_right _ _))

/-- Adding a deferred action keeps the stop node of a trace. -/
theorem Trace.add_action_stop_node (trace : Trace) (action : Trace.DeferredAction) :
    (trace.add_action action).stop_node_ = trace.stop_node_ := rfl

/-- Emission of a node on a trace without stop node returns with the
recursion depth and the flags it started with, and does not raise the depth
above `kMaxRecursion + 1`. -/
theorem EmitNode.Emit_within (k : EmitConstants) :
    ∀ (fuel this : Nat) (trace : Trace) (st st' : Emitter), trace.stop_node_ = none →
      EmitNode.Emit k fuel this trace st = some st' → Emitter.Within k st st' := by
  intro fuel
  induction fuel with
  | zero =>
    intro this trace st st' _ h
    exact absurd h (by simp [EmitNode.Emit])
  | succ fuel ih =>
    intro this trace st st' hstop h
    have hE : ∀ s s', EmitNode.Emit k fuel this Trace.new s = some s' → Emitter.Within k s s' :=
      fun s s' hs => ih this Trace.new s s' rfl hs
    unfold EmitNode.Emit at h
    split at h
    · exact absurd h (by simp)
    · rename_i node hnode
      split at h
      · rename_i action_ hkind
        split at h
        · exact Trace.Flush_within k _ hE trace this st st' h
        · have hb : Emitter.Within k st (if (!st.is_bound this) = true then st.Bind this else st) := by
            split
            · exact Emitter.Within.Bind k _ _
            · exact Emitter.Within.refl k _
          simp only [] at h
          split at h
          · rw [← Option.some.inj h]
            exact Emitter.Within.trans k _ _ _ hb (Emitter.Within.emit k _ _)
          · rw [← Option.some.inj h]
            exact Emitter.Within.trans k _ _ _ hb (Emitter.Within.emit k _ _)
      · rename_i data_ on_success hkind
        split at h
        · exact absurd h (by simp)
        · rename_i s1 hlimit
          rw [← Option.some.inj h]
          exact (RegExpNode.LimitVersions_within k _ hE this trace st s1 _ hlimit).1
        · rename_i s1 hlimit
          obtain ⟨hw1, hdepth⟩ := RegExpNode.LimitVersions_within k _ hE this trace st s1 _ hlimit
          have hd := hdepth hstop rfl
          simp only [] at h
          split at h
          · exact absurd h (by simp)
          · rename_i s3 hrec
            have hw3 := ih on_success _ s1.RecursionCheck s3
              ((Trace.add_action_stop_node trace _).trans hstop) hrec
            rw [← Option.some.inj h]
            obtain ⟨a1, a2, a3, a4, a5⟩ := hw1
            obtain ⟨b1, b2, b3, b4, b5⟩ := hw3
            refine ⟨?_, ?_, ?_, ?_, ?_⟩
            · show s3.compiler.recursion_depth_ - 1 = st.compiler.recursion_depth_
              rw [b1, ← a1]
              show s1.compiler.recursion_depth_ + 1 - 1 = s1.compiler.recursion_depth_
              omega
            · exact b2.trans a2
            · exact b3.trans a3
            · exact b4.trans a4
            · show s3.deepest_recursion ≤ _
              refine le_trans b5 (max_le ?_ (le_max_right _ _))
              show max s1.deepest_recursion (s1.compiler.recursion_depth_ + 1) ≤ _
              refine max_le a5 (le_trans ?_ (le_max_right _ _))
              omega

/-- With `limiting_recursion_` set, `KeepRecursing` is false. -/
theorem RegExpNode.KeepRecursing_limiting (k : EmitConstants) (compiler : RegExpCompiler)
    (h : compiler.limiting_recursion_ = true) : RegExpNode.KeepRecursing k compiler = false := by
  unfold RegExpNode.KeepRecursing
  rw [h]
  rfl

/-- On a trivial trace, with `limiting_recursion_` set, `LimitVersions` emits
a jump to the node's label, adds the node to the work list and returns
`DONE`, without any further emission. -/
theorem RegExpNode.LimitVersions_limiting (k : EmitConstants)
    (Emit : Trace → Emitter → Option Emitter) (this : Nat) (st : Emitter)
    (h : st.compiler.limiting_recursion_ = true) :
    RegExpNode.LimitVersions k Emit this Trace.new st =
      some (.DONE, (st.emit (.GoTo (some (.node this)))).AddWork this) := by
  unfold RegExpNode.LimitVersions
  rw [if_neg (by decide), if_pos (by decide), RegExpNode.KeepRecursing_limiting k _ h]
  simp

/-- With `limiting_recursion_` set, the emission of a node of the graph on a
trivial trace returns as soon as it has one round. -/
theorem EmitNode.Emit_limiting_total (k : EmitConstants) (fuel this : Nat) (st : Emitter)
    (hthis : this < st.nodes.length) (h : st.compiler.limiting_recursion_ = true) :
    ∃ st', EmitNode.Emit k (fuel + 1) this Trace.new st = some st' := by
  unfold EmitNode.Emit
  rw [List.getElem?_eq_getElem hthis]
  simp only []
  split
  · rw [if_neg (by decide)]
    split
    · exact ⟨_, rfl⟩
    · exact ⟨_, rfl⟩
  · rw [RegExpNode.LimitVersions_limiting k _ this st h]
    exact ⟨_, rfl⟩

/-- The emission of an `EndNode` on a trivial trace returns as soon as it has
one round. -/
theorem EmitNode.Emit_end_trivial_total (k : EmitConstants) (fuel this : Nat) (st : Emitter)
    (node : EmitNode) (action_ : EndNode.Action) (hnode : st.nodes[this]? = some node)
    (hkind : node.kind = .EndNode action_) :
    ∃ st', EmitNode.Emit k (fuel + 1) this Trace.new st = some st' := by
  unfold EmitNode.Emit
  rw [hnode]
  simp only [hkind]
  rw [if_neg (by decide)]
  split
  · exact ⟨_, rfl⟩
  · exact ⟨_, rfl⟩

/-- `Trace::Flush` returns if the emission of the successor returns in the
states in which `Flush` calls it. -/
theorem Trace.Flush_total (k : EmitConstants) (Emit : Trace → Emitter → Option Emitter)
    (trace : Trace) (successor : Nat) (st : Emitter)
    (hcall : ∀ s : Emitter, s.compiler = st.compiler → s.nodes = st.nodes →
      ∃ s', Emit Trace.new s = some s') :
    ∃ st', Trace.Flush k Emit trace successor st = some st' := by
  unfold Trace.Flush
  split
  · simp only []
    apply hcall
    · split <;> rfl
    · split <;> rfl
  · simp only []
    obtain ⟨f1, f2, _⟩ := Trace.Flush.before_frame k trace st
    split
    · rename_i heq
      split at heq
      · obtain ⟨s', hs'⟩ := hcall _ f1 f2
        rw [hs'] at heq
        exact absurd heq (by simp)
      · exact absurd heq (by simp)
    · exact ⟨_, rfl⟩

/-- `RegExpNode::LimitVersions` returns if the emission of the node on a
trivial trace returns in every state of the same graph that has
`limiting_recursion_` set. -/
theorem RegExpNode.LimitVersions_total (k : EmitConstants)
    (Emit : Trace → Emitter → Option Emitter) (this : Nat) (trace : Trace) (st : Emitter)
    (hcall : ∀ s : Emitter, s.compiler.limiting_recursion_ = true →
      s.nodes.length = st.nodes.length → ∃ s', Emit Trace.new s = some s') :
    ∃ r, RegExpNode.LimitVersions k Emit this trace st = some r := by
  unfold RegExpNode.LimitVersions
  split
  · exact ⟨_, rfl⟩
  · split
    · split
      · exact ⟨_, rfl⟩
      · exact ⟨_, rfl⟩
    · simp only []
      split
      · exact ⟨_, rfl⟩
      · have hlen : (st.modifyNode this
            (fun n => { n with trace_count_ := n.trace_count_ + 1 })).nodes.length =
            st.nodes.length := by
          have := congrArg List.length (Emitter.modifyNode_kinds st this
            (fun n => { n with trace_count_ := n.trace_count_ + 1 }) (fun _ => rfl))
          simpa using this
        obtain ⟨s1, hs1⟩ := Trace.Flush_total k Emit trace this
          { st.modifyNode this (fun n => { n with trace_count_ := n.trace_count_ + 1 }) with
            compiler := (st.modifyNode this
              (fun n => { n with trace_count_ := n.trace_count_ + 1 })).compiler.set_limiting_recursion
                true }
          (fun s hc hn => hcall s (by rw [hc]; rfl) (by rw [hn]; exact hlen))
        rw [hs1]
        exact ⟨_, rfl⟩

/-- Graphs with the same classes have the same number of nodes. -/
theorem Emitter.length_of_kinds (st st' : Emitter)
    (h : st'.nodes.map EmitNode.kind = st.nodes.map EmitNode.kind) :
    st'.nodes.length = st.nodes.length := by
  have := congrArg List.length h
  simpa using this

/-- Well-formedness depends on the classes of the nodes only. -/
theorem Emitter.WellFormed.of_kinds (st st' : Emitter)
    (h : st'.nodes.map EmitNode.kind = st.nodes.map EmitNode.kind)
    (hw : st.WellFormed = true) : st'.WellFormed = true := by
  unfold Emitter.WellFormed at hw ⊢
  rw [h, Emitter.length_of_kinds st st' h]
  exact hw

/-- In a well-formed graph the successor of an action node is a node. -/
theorem Emitter.WellFormed.successor (st : Emitter) (hw : st.WellFormed = true)
    (data_ : ActionNode.Data) (on_success : Nat)
    (hmem : EmitNode.Kind.ActionNode data_ on_success ∈ st.nodes.map EmitNode.kind) :
    on_success < st.nodes.length := by
  unfold Emitter.WellFormed at hw
  rw [List.all_eq_true] at hw
  have := hw _ hmem
  simpa using this

/-- In a well-formed graph, on a trace without stop node, the emission of a
node returns whenever it has two rounds more than the distance of the
recursion depth from `kMaxRecursion + 2`. -/
theorem EmitNode.Emit_total (k : EmitConstants) :
    ∀ (fuel this : Nat) (trace : Trace) (st : Emitter), st.WellFormed = true →
      this < st.nodes.length → trace.stop_node_ = none →
      (k.kMaxRecursion + 2 - st.compiler.recursion_depth_).toNat + 2 ≤ fuel →
      ∃ st', EmitNode.Emit k fuel this trace st = some st' := by
  intro fuel
  induction fuel with
  | zero =>
    intro this trace st _ _ _ h
    omega
  | succ fuel ih =>
    intro this trace st hwf hthis hstop hfuel
    obtain ⟨f, rfl⟩ : ∃ f, fuel = f + 1 := ⟨fuel - 1, by omega⟩
    have hnode : st.nodes[this]? = some (st.nodes[this]) := List.getElem?_eq_getElem hthis
    unfold EmitNode.Emit
    rw [hnode]
    simp only []
    split
    · rename_i action_ hkind
      split
      · apply Trace.Flush_total
        intro s _ hn
        exact EmitNode.Emit_end_trivial_total k f this s _ action_ (by rw [hn]; exact hnode) hkind
      · split
        · exact ⟨_, rfl⟩
        · exact ⟨_, rfl⟩
    · rename_i data_ on_success hkind
      have hE : ∀ s s', EmitNode.Emit k (f + 1) this Trace.new s = some s' →
          Emitter.Within k s s' :=
        fun s s' hs => EmitNode.Emit_within k (f + 1) this Trace.new s s' rfl hs
      obtain ⟨r, hr⟩ := RegExpNode.LimitVersions_total k (EmitNode.Emit k (f + 1) this) this
        trace st
        (fun s hl hlen => EmitNode.Emit_limiting_total k f this s (by rw [hlen]; exact hthis) hl)
      obtain ⟨result, s1⟩ := r
      rw [hr]
      cases result with
      | DONE => exact ⟨_, rfl⟩
      | CONTINUE =>
        simp only []
        obtain ⟨hw1, hdepth⟩ :=
          RegExpNode.LimitVersions_within k _ hE this trace st s1 _ hr
        have hd := hdepth hstop rfl
        obtain ⟨a1, _, _, a4, _⟩ := hw1
        have hmem : EmitNode.Kind.ActionNode data_ on_success ∈ st.nodes.map EmitNode.kind := by
          rw [← hkind]
          exact List.mem_map_of_mem _ (List.getElem_mem hthis)
        have hsucc : on_success < s1.RecursionCheck.nodes.length := by
          show on_success < s1.nodes.length
          rw [Emitter.length_of_kinds st s1 a4]
          exact Emitter.WellFormed.successor st hwf data_ on_success hmem
        have hwf1 : s1.RecursionCheck.WellFormed = true :=
          Emitter.WellFormed.of_kinds st s1.RecursionCheck a4 hwf
        have hfuel1 : (k.kMaxRecursion + 2 - s1.RecursionCheck.compiler.recursion_depth_).toNat
            + 2 ≤ f + 1 := by
          have e : s1.RecursionCheck.compiler.recursion_depth_ =
              s1.compiler.recursion_depth_ + 1 := rfl
          rw [e]
          rw [a1] at hd ⊢
          omega
        obtain ⟨s3, hs3⟩ := ih on_success (trace.add_action (data_.deferred trace))
          s1.RecursionCheck hwf1 hsucc ((Trace.add_action_stop_node trace _).trans hstop) hfuel1
        rw [hs3]
        exact ⟨_, rfl⟩

/-- Changing a node by a function that keeps `trace_count_` keeps the trace
counts of the graph. -/
theorem Emitter.modifyNode_counts (st : Emitter) (node : Nat) (f : EmitNode → EmitNode)
    (hf : ∀ n, (f n).trace_count_ = n.trace_count_) :
    (st.modifyNode node f).nodes.map EmitNode.trace_count_ =
      st.nodes.map EmitNode.trace_count_ := by
  unfold Emitter.modifyNode
  cases h : st.nodes[node]? with
  | none => rfl
  | some n =>
    simp only []
    apply List.ext_getElem?
    intro i
    by_cases hi : i = node
    · subst hi
      have hlt : i < st.nodes.length := by
        rcases Nat.lt_or_ge i st.nodes.length with hlt | hge
        · exact hlt
        · rw [List.getElem?_eq_none hge] at h
          exact absurd h (by simp)
      rw [List.getElem?_map, List.getElem?_map, List.getElem?_set_self hlt, h]
      simp only [Option.map_some', hf]
    · rw [List.getElem?_map, List.getElem?_map, List.getElem?_set_ne (Ne.symm hi)]

/-- Graphs with the same list of trace counts give the same count for every
node. -/
theorem Emitter.trace_count_of_counts (st st' : Emitter)
    (h : st'.nodes.map EmitNode.trace_count_ = st.nodes.map EmitNode.trace_count_) (j : Nat) :
    st'.trace_count j = st.trace_count j := by
  have hj := congrArg (fun l => l[j]?) h
  simp only [List.getElem?_map] at hj
  unfold Emitter.trace_count
  cases h1 : st'.nodes[j]? with
  | none =>
    cases h2 : st.nodes[j]? with
    | none => rfl
    | some n => rw [h1, h2] at hj; exact absurd hj (by simp)
  | some n' =>
    cases h2 : st.nodes[j]? with
    | none => rw [h1, h2] at hj; exact absurd hj (by simp)
    | some n =>
      rw [h1, h2] at hj
      simpa using hj

/-- Binding a label keeps the trace counts. -/
theorem Emitter.Bind_counts (st : Emitter) (node : Nat) :
    (st.Bind node).nodes.map EmitNode.trace_count_ = st.nodes.map EmitNode.trace_count_ :=
  Emitter.modifyNode_counts st node _ (fun _ => rfl)

/-- Adding a node to the work list keeps the trace counts. -/
theorem Emitter.AddWork_counts (st : Emitter) (node : Nat) :
    (st.AddWork node).nodes.map EmitNode.trace_count_ = st.nodes.map EmitNode.trace_count_ := by
  unfold Emitter.AddWork
  split
  · exact Emitter.modifyNode_counts st node _ (fun _ => rfl)
  · rfl

/-- With `limiting_recursion_` set, the emission of a node on a trivial trace
keeps the trace counts. -/
theorem EmitNode.Emit_limiting_counts (k : EmitConstants) (fuel this : Nat) (st st' : Emitter)
    (hl : st.compiler.limiting_recursion_ = true)
    (h : EmitNode.Emit k fuel this Trace.new st = some st') :
    st'.nodes.map EmitNode.trace_count_ = st.nodes.map EmitNode.trace_count_ := by
  cases fuel with
  | zero => exact absurd h (by simp [EmitNode.Emit])
  | succ fuel =>
    unfold EmitNode.Emit at h
    split at h
    · exact absurd h (by simp)
    · split at h
      · rw [if_neg (by decide)] at h
        have hb : (if (!st.is_bound this) = true then st.Bind this else st).nodes.map
            EmitNode.trace_count_ = st.nodes.map EmitNode.trace_count_ := by
          split
          · exact Emitter.Bind_counts st this
          · rfl
        simp only [] at h
        split at h
        · rw [← Option.some.inj h]; exact hb
        · rw [← Option.some.inj h]; exact hb
      · rw [RegExpNode.LimitVersions_limiting k _ this st hl] at h
        simp only [] at h
        rw [← Option.some.inj h]
        exact Emitter.AddWork_counts _ this

/-- With `limiting_recursion_` set, `Trace::Flush` keeps the trace counts, if
the emission of the successor on a trivial trace does. -/
theorem Trace.Flush_limiting_counts (k : EmitConstants)
    (Emit : Trace → Emitter → Option Emitter)
    (hE : ∀ s s', s.compiler.limiting_recursion_ = true → Emit Trace.new s = some s' →
      s'.nodes.map EmitNode.trace_count_ = s.nodes.map EmitNode.trace_count_)
    (trace : Trace) (successor : Nat) (st st' : Emitter)
    (hl : st.compiler.limiting_recursion_ = true)
    (h : Trace.Flush k Emit trace successor st = some st') :
    st'.nodes.map EmitNode.trace_count_ = st.nodes.map EmitNode.trace_count_ := by
  unfold Trace.Flush at h
  split at h
  · simp only [] at h
    have hs := hE _ _ (by split <;> exact hl) h
    rw [hs]
    split <;> rfl
  · simp only [] at h
    obtain ⟨f1, f2, _⟩ := Trace.Flush.before_frame k trace st
    rw [RegExpNode.KeepRecursing_limiting k _ (by rw [f1]; exact hl)] at h
    rw [← Option.some.inj h, (Trace.Flush.after_frame trace _ _).2.1]
    show ((Trace.Flush.before k trace st).2.AddWork successor).nodes.map _ = _
    rw [Emitter.AddWork_counts, f2]

/-- Raising the trace count of a node of the graph adds one to it. -/
theorem Emitter.trace_count_incremented (st : Emitter) (this : Nat)
    (hthis : this < st.nodes.length) :
    (st.modifyNode this (fun n => { n with trace_count_ := n.trace_count_ + 1 })).trace_count
      this = st.trace_count this + 1 := by
  unfold Emitter.modifyNode Emitter.trace_count
  rw [List.getElem?_eq_getElem hthis]
  simp only []
  rw [List.getElem?_set_self hthis]

/-- With `limiting_recursion_` set, `Trace::Flush` keeps the trace counts, if
the emission of the successor on a trivial trace does in the states of the
same graph. -/
theorem Trace.Flush_limiting_same_counts (k : EmitConstants)
    (Emit : Trace → Emitter → Option Emitter)
    (trace : Trace) (successor : Nat) (st st' : Emitter)
    (hE : ∀ s s', s.compiler.limiting_recursion_ = true → s.nodes = st.nodes →
      Emit Trace.new s = some s' →
      s'.nodes.map EmitNode.trace_count_ = s.nodes.map EmitNode.trace_count_)
    (hl : st.compiler.limiting_recursion_ = true)
    (h : Trace.Flush k Emit trace successor st = some st') :
    st'.nodes.map EmitNode.trace_count_ = st.nodes.map EmitNode.trace_count_ := by
  unfold Trace.Flush at h
  split at h
  · simp only [] at h
    have hs := hE _ _ (by split <;> exact hl) (by split <;> rfl) h
    rw [hs]
    split <;> rfl
  · simp only [] at h
    obtain ⟨f1, f2, _⟩ := Trace.Flush.before_frame k trace st
    rw [RegExpNode.KeepRecursing_limiting k _ (by rw [f1]; exact hl)] at h
    rw [← Option.some.inj h, (Trace.Flush.after_frame trace _ _).2.1]
    show ((Trace.Flush.before k trace st).2.AddWork successor).nodes.map _ = _
    rw [Emitter.AddWork_counts, f2]

/-- One call of `LimitVersions` on a node of the graph, with a non-trivial
trace that has no stop node, for any `Emit` that, called on a trivial trace
while `limiting_recursion_` is set, returns and keeps the trace counts: the
call returns, it has added one to the node's trace count, and it returns
`CONTINUE` only if the new count is below `kMaxCopiesCodeGenerated`. -/
theorem RegExpNode.LimitVersions_counts (k : EmitConstants)
    (Emit : Trace → Emitter → Option Emitter) (this : Nat) (trace : Trace)
    (st : Emitter) (hthis : this < st.nodes.length) (hstop : trace.stop_node_ = none)
    (hnt : trace.is_trivial = false)
    (hEmit : ∀ s : Emitter, s.compiler.limiting_recursion_ = true → this < s.nodes.length →
      ∃ s', Emit Trace.new s = some s' ∧
        s'.nodes.map EmitNode.trace_count_ = s.nodes.map EmitNode.trace_count_) :
    ∃ result st',
      RegExpNode.LimitVersions k Emit this trace st = some (result, st') ∧
      st'.trace_count this = st.trace_count this + 1 ∧
      st'.nodes.length = st.nodes.length ∧
      (result = .CONTINUE → st.trace_count this + 1 < k.kMaxCopiesCodeGenerated) := by
  have hinc := Emitter.trace_count_incremented st this hthis
  have hlen : (st.modifyNode this
      (fun n => { n with trace_count_ := n.trace_count_ + 1 })).nodes.length =
      st.nodes.length := by
    have := congrArg List.length (Emitter.modifyNode_kinds st this
      (fun n => { n with trace_count_ := n.trace_count_ + 1 }) (fun _ => rfl))
    simpa using this
  unfold RegExpNode.LimitVersions
  rw [if_neg (by rw [hstop]; decide), if_neg (by rw [hnt]; decide)]
  simp only []
  split
  · rename_i hcont
    refine ⟨_, _, rfl, hinc, hlen, fun _ => ?_⟩
    simp only [Bool.and_eq_true, decide_eq_true_eq] at hcont
    rw [← hinc]
    exact hcont.2
  · obtain ⟨s1, hs1⟩ := Trace.Flush_total k Emit trace this
      { st.modifyNode this (fun n => { n with trace_count_ := n.trace_count_ + 1 }) with
        compiler := (st.modifyNode this
          (fun n => { n with trace_count_ := n.trace_count_ + 1 })).compiler.set_limiting_recursion
            true }
      (fun s hc hn => by
        obtain ⟨s', hs', _⟩ := hEmit s (by rw [hc]; rfl)
          (by rw [hn]; show this < (st.modifyNode this _).nodes.length; rw [hlen]; exact hthis)
        exact ⟨s', hs'⟩)
    have hcounts := Trace.Flush_limiting_same_counts k Emit trace this _ s1
      (fun s s' hl hn hs => by
        obtain ⟨s2, hs2, hc2⟩ := hEmit s hl
          (by rw [hn]; show this < (st.modifyNode this _).nodes.length; rw [hlen]; exact hthis)
        rw [hs2] at hs
        rw [← Option.some.inj hs]
        exact hc2)
      rfl hs1
    rw [hs1]
    refine ⟨_, _, rfl, ?_, ?_, fun hc => absurd hc (by decide)⟩
    · have e := Emitter.trace_count_of_counts _ s1 hcounts this
      show s1.trace_count this = _
      rw [e]
      exact hinc
    · have e := congrArg List.length hcounts
      simp only [List.length_map] at e
      show s1.nodes.length = _
      rw [e]
      exact hlen

/-- C15 (counterexample): with `kMaxCopiesCodeGenerated = 10`, eleven
emissions that reach an action node with the non-trivial trace of offset 1
leave the node's trace count at 11. -/
theorem RegExpNode.LimitVersions_trace_count_counterexample :
    (EmitNode.Emit_each
        { kMaxRecursion := 100, kMaxCopiesCodeGenerated := 10, stack_limit_slack := 32 }
        4 0 (List.replicate 11 { Trace.new with cp_offset_ := 1 })
        (Emitter.new (EmitNode.chain 1))).map (fun st => st.trace_count 0) = some 11 ∧
    (11 : Int) > 10 := by
  constructor
  · decide
  · decide

/-- C15 (amended): in every sequence of `LimitVersions` calls on a node with
non-trivial traces that have no stop node, every call returns and adds one to
the node's trace count, so that the count after the calls is the count before
plus their number, whatever `kMaxCopiesCodeGenerated` is; a call returns
`CONTINUE` only if the count it has reached is below
`kMaxCopiesCodeGenerated`. `Emit` is any emitting function of the node that,
called on a trivial trace while `limiting_recursion_` is set, returns and
keeps the trace counts. -/
theorem RegExpNode.LimitVersions_trace_count (k : EmitConstants)
    (Emit : Trace → Emitter → Option Emitter) (this : Nat)
    (traces : List Trace) (st : Emitter) (hthis : this < st.nodes.length)
    (htraces : ∀ t ∈ traces, t.stop_node_ = none ∧ t.is_trivial = false)
    (hEmit : ∀ s : Emitter, s.compiler.limiting_recursion_ = true → this < s.nodes.length →
      ∃ s', Emit Trace.new s = some s' ∧
        s'.nodes.map EmitNode.trace_count_ = s.nodes.map EmitNode.trace_count_) :
    ∃ results st',
      RegExpNode.LimitVersions_each k Emit this traces st = some (results, st') ∧
      results.length = traces.length ∧
      st'.trace_count this = st.trace_count this + traces.length ∧
      ∀ i : Nat, results[i]? = some .CONTINUE →
        st.trace_count this + i + 1 < k.kMaxCopiesCodeGenerated := by
  induction traces generalizing st with
  | nil =>
    refine ⟨[], st, rfl, rfl, by simp, fun i hi => ?_⟩
    exact absurd hi (by simp)
  | cons trace traces ih =>
    obtain ⟨hstop, hnt⟩ := htraces trace (List.mem_cons_self _ _)
    obtain ⟨result, s1, h1, hc1, hl1, hr1⟩ :=
      RegExpNode.LimitVersions_counts k Emit this trace st hthis hstop hnt hEmit
    obtain ⟨results, s2, h2, hlen2, hc2, hr2⟩ := ih s1 (by rw [hl1]; exact hthis)
      (fun t ht => htraces t (List.mem_cons_of_mem _ ht))
    refine ⟨result :: results, s2, ?_, ?_, ?_, fun i hi => ?_⟩
    · simp only [RegExpNode.LimitVersions_each, h1, h2]
    · simp only [List.length_cons, hlen2]
    · rw [hc2, hc1]
      simp only [List.length_cons]
      push_cast
      ring
    · cases i with
      | zero =>
        simp only [List.getElem?_cons_zero, Option.some.injEq] at hi
        have := hr1 hi
        simpa using this
      | succ i =>
        simp only [List.getElem?_cons_succ] at hi
        have := hr2 i hi
        rw [hc1] at this
        push_cast
        omega

/-- What `EmitNode.Emit` does on a trivial trace while `limiting_recursion_`
is set: it returns and keeps the trace counts. -/
theorem EmitNode.Emit_limiting (k : EmitConstants) (fuel this : Nat) (s : Emitter)
    (hl : s.compiler.limiting_recursion_ = true) (hthis : this < s.nodes.length) :
    ∃ s', EmitNode.Emit k (fuel + 1) this Trace.new s = some s' ∧
      s'.nodes.map EmitNode.trace_count_ = s.nodes.map EmitNode.trace_count_ := by
  obtain ⟨s', hs'⟩ := EmitNode.Emit_limiting_total k fuel this s hthis hl
  exact ⟨s', hs', EmitNode.Emit_limiting_counts k (fuel + 1) this s s' hl hs'⟩

/-- C15 at a concrete input: eleven calls on the first node of a chain, with
the trace of offset 1 and `kMaxCopiesCodeGenerated = 10`. -/
theorem RegExpNode.LimitVersions_trace_count_witness :
    0 < (Emitter.new (EmitNode.chain 1)).nodes.length ∧
    (∀ t ∈ List.replicate 11 { Trace.new with cp_offset_ := 1 },
      t.stop_node_ = none ∧ t.is_trivial = false) ∧
    ∃ results st',
      RegExpNode.LimitVersions_each
          { kMaxRecursion := 100, kMaxCopiesCodeGenerated := 10, stack_limit_slack := 32 }
          (EmitNode.Emit
            { kMaxRecursion := 100, kMaxCopiesCodeGenerated := 10, stack_limit_slack := 32 }
            (0 + 1) 0) 0
          (List.replicate 11 { Trace.new with cp_offset_ := 1 })
          (Emitter.new (EmitNode.chain 1)) = some (results, st') ∧
      results.length = (List.replicate 11 { Trace.new with cp_offset_ := 1 }).length ∧
      st'.trace_count 0 = (Emitter.new (EmitNode.chain 1)).trace_count 0 +
        (List.replicate 11 { Trace.new with cp_offset_ := 1 }).length ∧
      ∀ i : Nat, results[i]? = some .CONTINUE →
        (Emitter.new (EmitNode.chain 1)).trace_count 0 + i + 1 <
          ({ kMaxRecursion := 100, kMaxCopiesCodeGenerated := 10, stack_limit_slack := 32 } :
            EmitConstants).kMaxCopiesCodeGenerated :=
  ⟨by decide, by decide,
    RegExpNode.LimitVersions_trace_count
      { kMaxRecursion := 100, kMaxCopiesCodeGenerated := 10, stack_limit_slack := 32 }
      (EmitNode.Emit
        { kMaxRecursion := 100, kMaxCopiesCodeGenerated := 10, stack_limit_slack := 32 }
        (0 + 1) 0) 0
      (List.replicate 11 { Trace.new with cp_offset_ := 1 }) (Emitter.new (EmitNode.chain 1))
      (by decide) (by decide) (fun s hl hs => EmitNode.Emit_limiting _ 0 0 s hl hs)⟩

/-- An `Emit` function that begins with `LimitVersions` and returns when the
answer is `DONE`, whatever it does otherwise: called on a trivial trace
while `limiting_recursion_` is set, it returns with just a jump to the
node's label emitted and `AddWork` called, which keeps the recursion state
and the trace counts. -/
theorem RegExpNode.LimitVersions_first (k : EmitConstants)
    (Emit body : Trace → Emitter → Option Emitter) (this : Nat) (s : Emitter)
    (hl : s.compiler.limiting_recursion_ = true) :
    ∃ s', (match RegExpNode.LimitVersions k Emit this Trace.new s with
        | none => none
        | some (.DONE, done) => some done
        | some (.CONTINUE, continued) => body Trace.new continued) = some s' ∧
      s' = (s.emit (.GoTo (some (.node this)))).AddWork this ∧
      Emitter.Within k s s' ∧
      s'.nodes.map EmitNode.trace_count_ = s.nodes.map EmitNode.trace_count_ := by
  rw [RegExpNode.LimitVersions_limiting k Emit this s hl]
  refine ⟨_, rfl, rfl, ?_, ?_⟩
  · exact Emitter.Within.trans k _ _ _ (Emitter.Within.emit k _ _)
      (Emitter.Within.AddWork k _ _)
  · exact Emitter.AddWork_counts _ this

/-- The loop over the code units of an atom fails exactly if some code unit
is above `0xFF` and, for an ignore-case atom, has no Latin-1 equivalent. -/
theorem TextNode.FilterOneByte.quarks_fails (ignore_case : Bool) (data : List Nat) :
    (TextNode.FilterOneByte.quarks ignore_case data).1 = false ↔
      data.any (fun c =>
        decide (c > 0xFF) && !(ignore_case && (c == 0x39C || c == 0x3BC || c == 0x178))) =
        true := by
  induction data with
  | nil => simp [TextNode.FilterOneByte.quarks]
  | cons quark rest ih =>
    simp only [TextNode.FilterOneByte.quarks, List.any_cons, Bool.or_eq_true]
    by_cases hbig : (if ignore_case = true then unibrow.Latin1.TryConvertToLatin1 quark
        else quark) > unibrow.Latin1.kMaxChar
    · rw [if_pos hbig]
      simp only [true_iff]
      left
      cases ignore_case with
      | false =>
        simp only [Bool.false_and, Bool.not_false, Bool.and_true, decide_eq_true_eq]
        simpa [unibrow.Latin1.kMaxChar] using hbig
      | true =>
        simp only [if_true, unibrow.Latin1.TryConvertToLatin1, unibrow.Latin1.kMaxChar] at hbig
        simp only [Bool.true_and, Bool.and_eq_true, decide_eq_true_eq, Bool.not_eq_true',
          Bool.or_eq_false_iff, beq_eq_false_iff_ne, ne_eq]
        split at hbig
        · omega
        · split at hbig
          · omega
          · omega
    · rw [if_neg hbig]
      simp only []
      rw [ih]
      constructor
      · intro h; right; exact h
      · intro h
        rcases h with h | h
        · exfalso
          apply hbig
          cases ignore_case with
          | false =>
            simp only [Bool.false_and, Bool.not_false, Bool.and_true, decide_eq_true_eq] at h
            simpa [unibrow.Latin1.kMaxChar] using h
          | true =>
            simp only [Bool.true_and, Bool.and_eq_true, decide_eq_true_eq, Bool.not_eq_true',
              Bool.or_eq_false_iff, beq_eq_false_iff_ne, ne_eq] at h
            simp only [if_true, unibrow.Latin1.TryConvertToLatin1, unibrow.Latin1.kMaxChar]
            rw [if_neg (by omega), if_neg (by omega)]
            omega
        · exact h

/-- The body of the loop over the elements fails exactly for the elements
described by `filtersToNull`. -/
theorem TextNode.FilterOneByte.element_fails (elm : TextElement) :
    (TextNode.FilterOneByte.element elm).1 = false ↔ elm.filtersToNull = true := by
  cases elm with
  | ATOM data ignore_case =>
    exact TextNode.FilterOneByte.quarks_fails ignore_case data
  | CHAR_CLASS ranges is_negated flags =>
    simp only [TextNode.FilterOneByte.element, TextElement.filtersToNull,
      TextElement.listedAsNonOneByte, String.kMaxOneByteCharCode]
    generalize CharacterRange.Canonicalize ranges = canonical
    cases hlatin : (IgnoreCase flags && RangesContainLatin1Equivalents canonical) <;>
      cases canonical <;> cases is_negated <;>
      simp [hlatin] <;>
      split <;> simp_all

/-- The loop over the elements fails exactly if some element is one of those
described by `filtersToNull`. -/
theorem TextNode.FilterOneByte.elements_fails (elements : List TextElement) :
    (TextNode.FilterOneByte.elements elements).1 = false ↔
      ∃ elm ∈ elements, elm.filtersToNull = true := by
  induction elements with
  | nil => simp [TextNode.FilterOneByte.elements]
  | cons elm rest ih =>
    simp only [TextNode.FilterOneByte.elements, List.mem_cons, exists_eq_or_imp]
    cases h : (TextNode.FilterOneByte.element elm).1 with
    | false =>
      simp only [Bool.not_false, if_true, true_iff]
      left
      exact (TextNode.FilterOneByte.element_fails elm).1 h
    | true =>
      simp only [Bool.not_true, Bool.false_eq_true, if_false]
      rw [ih]
      constructor
      · intro hr; right; exact hr
      · intro hr
        rcases hr with hr | hr
        · have := (TextNode.FilterOneByte.element_fails elm).2 hr
          rw [h] at this
          exact absurd this (by decide)
        · exact hr

/-- Reading a node that has just been changed gives the changed record. -/
theorem RegExpNode.modify_self (nodes : List RegExpNode) (this : Nat) (node : RegExpNode)
    (f : RegExpNode → RegExpNode) (h : nodes[this]? = some node) :
    (RegExpNode.modify nodes this f)[this]? = some (f node) := by
  unfold RegExpNode.modify
  rw [h]
  simp only []
  have hlt : this < nodes.length := by
    rcases Nat.lt_or_ge this nodes.length with hlt | hge
    · exact hlt
    · rw [List.getElem?_eq_none hge] at h
      exact absurd h (by simp)
  exact List.getElem?_set_self hlt

/-- Reading another node than the one that has been changed gives the record
as it was. -/
theorem RegExpNode.modify_other (nodes : List RegExpNode) (this other : Nat)
    (f : RegExpNode → RegExpNode) (h : this ≠ other) :
    (RegExpNode.modify nodes this f)[other]? = nodes[other]? := by
  unfold RegExpNode.modify
  split
  · exact List.getElem?_set_ne h
  · rfl

/-- C18 (counterexample): the text node with the single ignore-case atom of
the code unit `0x100`, followed by an end node that filters to itself, is
filtered to null, and its element is none of those that the specification
lists. -/
theorem TextNode.FilterOneByte_null_counterexample :
    (RegExpNode.FilterOneByte
        [RegExpNode.new .EndNode 0 [] [],
          RegExpNode.new .TextNode 0 [.ATOM [0x100] true] []] 1 1).1 = none ∧
    (RegExpNode.FilterOneByte
        [RegExpNode.new .EndNode 0 [] [],
          RegExpNode.new .TextNode 0 [.ATOM [0x100] true] []] 0 (-1)).1 = some 0 ∧
    ∀ elm ∈ [TextElement.ATOM [0x100] true], elm.listedAsNonOneByte = false := by
  refine ⟨?_, ?_, ?_⟩
  · decide
  · decide
  · decide

/-- C18 (amended): a call of `TextNode::FilterOneByte` that gets to the loop
over the elements returns null if some element is an atom with a code unit
above `0xFF` that, for an ignore-case atom, is none of `0x39C`, `0x3BC`,
`0x178`, or a class whose canonical range list is empty or starts above
`0xFF` (non-negated) or starts with a range covering `[0, 0xFF]` (negated)
and that, if it is ignore-case, contains none of these three code units; and
if it returns null although the successor does not filter to null, there is
such an element. -/
theorem TextNode.FilterOneByte_null
    (filter_below2 : List RegExpNode → Nat → Option Nat × List RegExpNode) (depth : Int)
    (nodes : List RegExpNode) (this : Nat) (node : RegExpNode)
    (hnode : nodes[this]? = some node) (hcalc : node.info.replacement_calculated = false)
    (hdepth : 0 ≤ depth) :
    ((∃ elm ∈ node.elements_, elm.filtersToNull = true) →
      (TextNode.FilterOneByte filter_below2 depth nodes this).1 = none) ∧
    ((TextNode.FilterOneByte filter_below2 depth nodes this).1 = none →
      (filter_below2
        (RegExpNode.modify (VisitMarker.enter nodes this) this
          (fun n => { n with elements_ := (TextNode.FilterOneByte.elements node.elements_).2 }))
        node.on_success_).1 ≠ none →
      ∃ elm ∈ node.elements_, elm.filtersToNull = true) := by
  have hfails := TextNode.FilterOneByte.elements_fails node.elements_
  unfold TextNode.FilterOneByte
  rw [hnode]
  simp only [hcalc, Bool.false_eq_true, if_false]
  rw [if_neg (by omega)]
  cases hok : (TextNode.FilterOneByte.elements node.elements_).1 with
  | false =>
    simp only [Bool.not_false, if_true]
    exact ⟨fun _ => rfl, fun _ _ => hfails.1 hok⟩
  | true =>
    simp only [Bool.not_true, Bool.false_eq_true, if_false]
    constructor
    · intro hex
      have := hfails.2 hex
      rw [hok] at this
      exact absurd this (by decide)
    · intro hnull hsucc
      exfalso
      apply hsucc
      have hentered : (RegExpNode.modify (VisitMarker.enter nodes this) this
          (fun n => { n with elements_ := (TextNode.FilterOneByte.elements node.elements_).2 }))[this]?
          = some { node with
              info := { node.info with visited := true }
              elements_ := (TextNode.FilterOneByte.elements node.elements_).2 } := by
        have h1 : (VisitMarker.enter nodes this)[this]? =
            some { node with info := { node.info with visited := true } } :=
          RegExpNode.modify_self nodes this node _ hnode
        exact RegExpNode.modify_self _ this _ _ h1
      unfold SeqRegExpNode.FilterSuccessor at hnull
      rw [hentered] at hnull
      simp only [] at hnull
      split at hnull
      · rename_i heq
        rw [heq]
      · exact absurd hnull (by simp [RegExpNode.set_replacement])

/-- C18 at a concrete input: the text node with the ignore-case atom of the
code unit `0x100`, filtered with depth 1. -/
theorem TextNode.FilterOneByte_null_witness :
    (TextNode.FilterOneByte (fun nodes id => RegExpNode.FilterOneByte nodes id (-1)) 1
        [RegExpNode.new .EndNode 0 [] [],
          RegExpNode.new .TextNode 0 [.ATOM [0x100] true] []] 1).1 = none :=
  (TextNode.FilterOneByte_null (fun nodes id => RegExpNode.FilterOneByte nodes id (-1)) 1
    [RegExpNode.new .EndNode 0 [] [], RegExpNode.new .TextNode 0 [.ATOM [0x100] true] []] 1
    (RegExpNode.new .TextNode 0 [.ATOM [0x100] true] []) rfl rfl (by decide)).1
    ⟨.ATOM [0x100] true, by decide, by decide⟩

/-! ## The multiline `^` -/

/-- Among 16-bit code units, the test `(c & 0xFFFE) == 0x2028` holds for
`0x2028` and `0x2029` only. -/
theorem and_FFFE_eq_2028 (c : Nat) (h : c < 0x10000) :
    c &&& 0xFFFE = 0x2028 ↔ c = 0x2028 ∨ c = 0x2029 := by
  constructor
  · intro hc
    have h1 : c &&& 0xFFFF = c := by
      have := Nat.and_pow_two_sub_one_eq_mod c 16
      norm_num at this
      rw [this]
      exact Nat.mod_eq_of_lt h
    have h2 : c &&& 0xFFFF = (c &&& 0xFFFE) ||| (c &&& 1) := by
      rw [← Nat.and_or_distrib_left]
      rfl
    have h3 : c &&& 1 = c % 2 := Nat.and_one_is_mod c
    rw [h1, hc, h3] at h2
    rcases Nat.mod_two_eq_zero_or_one c with h0 | h0
    · rw [h0] at h2
      left
      rw [h2]
      decide
    · rw [h0] at h2
      right
      rw [h2]
      decide
  · intro hc
    rcases hc with hc | hc <;> rw [hc] <;> decide

/-- The code that `EmitHat` emits at offset 0 when the assembler has no
special check for newlines. -/
theorem EmitHat.before_code (trace : Trace) (st : Emitter) (hcp : trace.cp_offset_ = 0) :
    (EmitHat.before false trace st).2.code =
      st.code ++
        ([.CheckAtStart (some (.stack st.labels)),
          .LoadCurrentCharacter (-1) trace.backtrack_ false] ++
        (if st.compiler.one_byte_ then []
          else [AssemblerOp.CheckCharacterAfterAnd 0x2028 0xFFFE (some (.stack st.labels))]) ++
        [.CheckCharacter 10 (some (.stack st.labels)),
          .CheckNotCharacter 13 trace.backtrack_,
          .Bind (.stack st.labels)]) := by
  unfold EmitHat.before
  simp only [Trace.InvalidateCurrentCharacter, hcp]
  cases hone : st.compiler.one_byte_ <;> simp [Emitter.emit, hone]

/-- A run that looks for the label `ok` skips the tests of `EmitHat` and
falls through at its `Bind`. -/
theorem EmitHat.run_seeking (subject : List Nat) (position : Int) (current : Nat)
    (ok : Label) (backtrack : Option Label) (one_byte : Bool) :
    AssemblerOp.run subject position (some ok) current
      ([AssemblerOp.LoadCurrentCharacter (-1) backtrack false] ++
        (if one_byte then []
          else [AssemblerOp.CheckCharacterAfterAnd 0x2028 0xFFFE (some ok)]) ++
        [.CheckCharacter 10 (some ok), .CheckNotCharacter 13 backtrack, .Bind ok]) =
      .fallThrough := by
  cases one_byte <;> simp [AssemblerOp.run]

/-- C19: when the assembler offers no special newline check, the code that
`EmitHat` emits for a trace with offset 0, run at a position of a subject of
16-bit code units, falls through to the successor's code exactly when the
position is the start of input or the preceding code unit is `0x0A`, `0x0D`,
or, unless the compiler is in one-byte mode, `0x2028` or `0x2029`; in every
other case it jumps to the trace's backtrack label. -/
theorem EmitHat_newline (trace : Trace) (st : Emitter) (subject : List Nat) (position : Nat)
    (current : Nat) (hcp : trace.cp_offset_ = 0) (hunits : ∀ c ∈ subject, c < 0x10000)
    (hfresh : trace.backtrack_ ≠ some (.stack st.labels)) :
    ∃ code, (EmitHat.before false trace st).2.code = st.code ++ code ∧
      ((position = 0 ∨ subject.getD (position - 1) 0 = 0x0A ∨
          subject.getD (position - 1) 0 = 0x0D ∨
          (st.compiler.one_byte_ = false ∧
            (subject.getD (position - 1) 0 = 0x2028 ∨
              subject.getD (position - 1) 0 = 0x2029))) →
        AssemblerOp.run subject position none current code = .fallThrough) ∧
      (¬ (position = 0 ∨ subject.getD (position - 1) 0 = 0x0A ∨
          subject.getD (position - 1) 0 = 0x0D ∨
          (st.compiler.one_byte_ = false ∧
            (subject.getD (position - 1) 0 = 0x2028 ∨
              subject.getD (position - 1) 0 = 0x2029))) →
        AssemblerOp.run subject position none current code =
          CodeOutcome.goTo trace.backtrack_) := by
  refine ⟨_, EmitHat.before_code trace st hcp, ?_⟩
  have hprev : subject.getD (position - 1) 0 < 0x10000 := by
    rw [List.getD_eq_getElem?_getD]
    cases hp : subject[position - 1]? with
    | none => simp
    | some c =>
      simp only [Option.getD_some]
      obtain ⟨hlt, hc⟩ := List.getElem?_eq_some.1 hp
      rw [← hc]
      exact hunits _ (List.getElem_mem hlt)
  have hmask := and_FFFE_eq_2028 _ hprev
  by_cases hstart : position = 0
  · subst hstart
    constructor
    · intro _
      have := EmitHat.run_seeking subject 0 current (.stack st.labels) trace.backtrack_
        st.compiler.one_byte_
      simpa [AssemblerOp.run] using this
    · intro hn
      exact absurd (Or.inl rfl) hn
  · have hidx : ((position : Int) + -1).toNat = position - 1 := by omega
    have hpos0 : ¬ ((position : Int) = 0) := by omega
    have hload : ∀ rest,
        AssemblerOp.run subject position none current
          ([.CheckAtStart (some (.stack st.labels)),
            .LoadCurrentCharacter (-1) trace.backtrack_ false] ++ rest) =
        AssemblerOp.run subject position none (subject.getD (position - 1) 0) rest := by
      intro rest
      simp [AssemblerOp.run, hpos0, hidx]
    rw [List.append_assoc, hload]
    generalize subject.getD (position - 1) 0 = prev at hprev hmask ⊢
    have htail : AssemblerOp.run subject position none prev
        [.CheckCharacter 10 (some (.stack st.labels)),
          .CheckNotCharacter 13 trace.backtrack_, .Bind (.stack st.labels)] =
        if prev = 10 ∨ prev = 13 then .fallThrough else CodeOutcome.goTo trace.backtrack_ := by
      by_cases h10 : prev = 10
      · simp [AssemblerOp.run, h10]
      · by_cases h13 : prev = 13
        · simp [AssemblerOp.run, h13]
        · simp only [AssemblerOp.run, h10, h13, if_false, ne_eq, not_false_eq_true, if_true,
            or_self]
          cases hb : trace.backtrack_ with
          | none => rfl
          | some label =>
            have hne : ¬ (AssemblerOp.Bind (.stack st.labels) = .Bind label) := by
              intro h
              injection h with h
              exact hfresh (by rw [hb, h])
            simp only [hne, if_false, CodeOutcome.goTo]
    cases hone : st.compiler.one_byte_ with
    | true =>
      simp only [if_true, List.nil_append, htail, Bool.true_eq_false, false_and, or_false]
      constructor
      · intro h
        rw [if_pos (by
          rcases h with h | h | h
          · exact absurd h hstart
          · left; exact h
          · right; exact h)]
      · intro h
        rw [if_neg (by
          intro hc
          apply h
          rcases hc with hc | hc
          · right; left; exact hc
          · right; right; exact hc)]
    | false =>
      simp only [Bool.false_eq_true, if_false, List.singleton_append, true_and]
      by_cases hls : prev = 0x2028 ∨ prev = 0x2029
      · have hm := hmask.2 hls
        constructor
        · intro _
          simp [AssemblerOp.run, hm]
        · intro h
          exact absurd (Or.inr (Or.inr (Or.inr hls))) h
      · have hm : ¬ (prev &&& 0xFFFE = 0x2028) := fun hc => hls (hmask.1 hc)
        have hstep : AssemblerOp.run subject position none prev
            (AssemblerOp.CheckCharacterAfterAnd 0x2028 0xFFFE (some (.stack st.labels)) ::
              [.CheckCharacter 10 (some (.stack st.labels)),
                .CheckNotCharacter 13 trace.backtrack_, .Bind (.stack st.labels)]) =
            AssemblerOp.run subject position none prev
              [.CheckCharacter 10 (some (.stack st.labels)),
                .CheckNotCharacter 13 trace.backtrack_, .Bind (.stack st.labels)] := by
          simp only [AssemblerOp.run, hm, if_false]
        rw [hstep, htail]
        constructor
        · intro h
          rw [if_pos (by
            rcases h with h | h | h | h
            · exact absurd h hstart
            · left; exact h
            · right; exact h
            · exact absurd h hls)]
        · intro h
          rw [if_neg (by
            intro hc
            apply h
            rcases hc with hc | hc
            · right; left; exact hc
            · right; right; left; exact hc)]

/-- C19 at a concrete input: the subject `a`, `0x2028`, `b` at position 2,
on a trace without backtrack label, in two-byte mode. -/
theorem EmitHat_newline_witness :
    Trace.new.cp_offset_ = 0 ∧ (∀ c ∈ [0x61, 0x2028, 0x62], c < 0x10000) ∧
    Trace.new.backtrack_ ≠ some (.stack (Emitter.new []).labels) ∧
    ∃ code, (EmitHat.before false Trace.new (Emitter.new [])).2.code =
        (Emitter.new []).code ++ code ∧
      AssemblerOp.run [0x61, 0x2028, 0x62] ((2 : Nat) : Int) none 0 code = .fallThrough :=
  ⟨rfl, by decide, by decide,
    (EmitHat_newline Trace.new (Emitter.new []) [0x61, 0x2028, 0x62] 2 0 rfl (by decide)
      (by decide)).elim
      (fun code h => ⟨code, h.1, h.2.1 (Or.inr (Or.inr (Or.inr ⟨rfl, Or.inl rfl⟩)))⟩)⟩

/-! ## One-byte filter of choice nodes -/

/-- Recording a replacement for another node keeps the record of `this`. -/
theorem RegExpNode.set_replacement_other (nodes : List RegExpNode) (id this : Nat)
    (replacement : Option Nat) (h : id ≠ this) :
    (RegExpNode.set_replacement nodes id replacement).2[this]? = nodes[this]? :=
  RegExpNode.modify_other nodes id this _ h

/-- Marking another node keeps the record of `this`. -/
theorem VisitMarker.enter_other (nodes : List RegExpNode) (id this : Nat) (h : id ≠ this) :
    (VisitMarker.enter nodes id)[this]? = nodes[this]? :=
  RegExpNode.modify_other nodes id this _ h

/-- Unmarking another node keeps the record of `this`. -/
theorem VisitMarker.exit_other (nodes : List RegExpNode) (id this : Nat) (h : id ≠ this) :
    (VisitMarker.exit nodes id)[this]? = nodes[this]? :=
  RegExpNode.modify_other nodes id this _ h

/-- Redirecting an alternative of another node keeps the record of `this`. -/
theorem ChoiceNode.set_node_other (nodes : List RegExpNode) (id this i replacement : Nat)
    (h : id ≠ this) : (ChoiceNode.set_node nodes id i replacement)[this]? = nodes[this]? :=
  RegExpNode.modify_other nodes id this _ h

/-- `FilterSuccessor` of another node keeps a visited choice node. -/
theorem SeqRegExpNode.FilterSuccessor_keeps (this : Nat)
    (filter : List RegExpNode → Nat → Option Nat × List RegExpNode)
    (hf : RegExpNode.FilterOneByte.Keeps this filter) (nodes : List RegExpNode) (id : Nat)
    (node : RegExpNode) (hid : id ≠ this) (hnode : nodes[this]? = some node)
    (hv : node.info.visited = true) (hc : node.type.checksVisited = true) :
    (SeqRegExpNode.FilterSuccessor filter nodes id).2[this]? = some node := by
  unfold SeqRegExpNode.FilterSuccessor
  split
  · exact hnode
  · rename_i idnode _
    have hk := hf nodes idnode.on_success_ node hnode hv hc
    generalize filter nodes idnode.on_success_ = p at hk ⊢
    obtain ⟨next, nodes1⟩ := p
    simp only []
    cases next with
    | none =>
      simp only []
      rw [RegExpNode.set_replacement_other _ id this _ hid]
      exact hk
    | some next =>
      simp only []
      rw [RegExpNode.set_replacement_other _ id this _ hid,
        RegExpNode.modify_other _ id this _ hid]
      exact hk

/-- `SeqRegExpNode::FilterOneByte` of another node keeps a visited choice
node. -/
theorem SeqRegExpNode.FilterOneByte_seq_keeps (this : Nat)
    (filter : List RegExpNode → Nat → Option Nat × List RegExpNode)
    (hf : RegExpNode.FilterOneByte.Keeps this filter) (depth : Int) (nodes : List RegExpNode)
    (id : Nat) (node : RegExpNode) (hid : id ≠ this) (hnode : nodes[this]? = some node)
    (hv : node.info.visited = true) (hc : node.type.checksVisited = true) :
    (SeqRegExpNode.FilterOneByte filter depth nodes id).2[this]? = some node := by
  unfold SeqRegExpNode.FilterOneByte
  split
  · exact hnode
  · split
    · exact hnode
    · split
      · exact hnode
      · have h1 : (VisitMarker.enter nodes id)[this]? = some node := by
          rw [VisitMarker.enter_other _ id this hid]; exact hnode
        have h2 := SeqRegExpNode.FilterSuccessor_keeps this filter hf _ id node hid h1 hv hc
        simp only []
        generalize SeqRegExpNode.FilterSuccessor filter (VisitMarker.enter nodes id) id = p at h2 ⊢
        obtain ⟨result, nodes1⟩ := p
        rw [VisitMarker.exit_other _ id this hid]
        exact h2

/-- `TextNode::FilterOneByte` of another node keeps a visited choice node. -/
theorem TextNode.FilterOneByte_text_keeps (this : Nat)
    (filter : List RegExpNode → Nat → Option Nat × List RegExpNode)
    (hf : RegExpNode.FilterOneByte.Keeps this filter) (depth : Int) (nodes : List RegExpNode)
    (id : Nat) (node : RegExpNode) (hid : id ≠ this) (hnode : nodes[this]? = some node)
    (hv : node.info.visited = true) (hc : node.type.checksVisited = true) :
    (TextNode.FilterOneByte filter depth nodes id).2[this]? = some node := by
  unfold TextNode.FilterOneByte
  split
  · exact hnode
  · split
    · exact hnode
    · split
      · exact hnode
      · rename_i idnode _ _ _
        have h1 : (RegExpNode.modify (VisitMarker.enter nodes id) id
            (fun n => { n with elements_ :=
              (TextNode.FilterOneByte.elements idnode.elements_).2 }))[this]? = some node := by
          rw [RegExpNode.modify_other _ id this _ hid, VisitMarker.enter_other _ id this hid]
          exact hnode
        simp only []
        split
        · rw [VisitMarker.exit_other _ id this hid,
            RegExpNode.set_replacement_other _ id this _ hid]
          exact h1
        · have h2 := SeqRegExpNode.FilterSuccessor_keeps this filter hf _ id node hid h1 hv hc
          generalize SeqRegExpNode.FilterSuccessor filter _ id = p at h2 ⊢
          obtain ⟨result, nodes1⟩ := p
          rw [VisitMarker.exit_other _ id this hid]
          exact h2

/-- One round of the first loop of another node keeps a visited choice
node. -/
theorem ChoiceNode.FilterOneByte.count_keeps (this : Nat)
    (filter : List RegExpNode → Nat → Option Nat × List RegExpNode)
    (hf : RegExpNode.FilterOneByte.Keeps this filter) (id : Nat) (node : RegExpNode)
    (hid : id ≠ this) (hv : node.info.visited = true) (hc : node.type.checksVisited = true)
    (st : ChoiceNode.FilterOneByte.Survivors) (i : Nat) (hnode : st.nodes[this]? = some node) :
    (ChoiceNode.FilterOneByte.count filter id st i).nodes[this]? = some node := by
  unfold ChoiceNode.FilterOneByte.count
  split
  · exact hnode
  · rename_i alternative _
    have hk := hf st.nodes alternative.node node hnode hv hc
    generalize filter st.nodes alternative.node = p at hk ⊢
    obtain ⟨replacement, nodes1⟩ := p
    cases replacement with
    | none => exact hk
    | some replacement =>
      simp only []
      rw [ChoiceNode.set_node_other _ id this _ _ hid]
      exact hk

/-- One round of the second loop of another node keeps a visited choice
node. -/
theorem ChoiceNode.FilterOneByte.rebuild_keeps (this : Nat)
    (filter : List RegExpNode → Nat → Option Nat × List RegExpNode)
    (hf : RegExpNode.FilterOneByte.Keeps this filter) (id : Nat) (node : RegExpNode)
    (hid : id ≠ this) (hv : node.info.visited = true) (hc : node.type.checksVisited = true)
    (st : List RegExpNode × List GuardedAlternative) (i : Nat)
    (hnode : st.1[this]? = some node) :
    (ChoiceNode.FilterOneByte.rebuild filter id st i).1[this]? = some node := by
  unfold ChoiceNode.FilterOneByte.rebuild
  split
  · exact hnode
  · rename_i alternative _
    have hk := hf st.1 alternative.node node hnode hv hc
    generalize filter st.1 alternative.node = p at hk ⊢
    obtain ⟨replacement, nodes1⟩ := p
    cases replacement with
    | none => exact hk
    | some replacement =>
      simp only []
      have h2 : (ChoiceNode.set_node nodes1 id i replacement)[this]? = some node := by
        rw [ChoiceNode.set_node_other _ id this _ _ hid]
        exact hk
      split
      · exact h2
      · exact h2

/-- A loop whose rounds keep the record of `this` keeps it. -/
theorem List.foldl_keeps {σ : Type} (get : σ → List RegExpNode) (step : σ → Nat → σ)
    (this : Nat) (node : RegExpNode)
    (hstep : ∀ st i, (get st)[this]? = some node → (get (step st i))[this]? = some node)
    (l : List Nat) : ∀ st, (get st)[this]? = some node →
      (get (l.foldl step st))[this]? = some node := by
  induction l with
  | nil => intro st h; exact h
  | cons i l ih => intro st h; exact ih _ (hstep st i h)

/-- `ChoiceNode::FilterOneByte` keeps a visited choice node: the node itself
is returned at once, and the filtering of another node does not touch it. -/
theorem ChoiceNode.FilterOneByte_choice_keeps (this : Nat)
    (filter : List RegExpNode → Nat → Option Nat × List RegExpNode)
    (hf : RegExpNode.FilterOneByte.Keeps this filter) (depth : Int) :
    RegExpNode.FilterOneByte.Keeps this (ChoiceNode.FilterOneByte filter depth) := by
  intro nodes id node hnode hv hc
  unfold ChoiceNode.FilterOneByte
  by_cases hid : id = this
  · subst hid
    rw [hnode]
    simp only [hv, if_true]
    split
    · exact hnode
    · split
      · exact hnode
      · exact hnode
  · split
    · exact hnode
    · split
      · exact hnode
      · split
        · exact hnode
        · split
          · exact hnode
          · have h1 : (VisitMarker.enter nodes id)[this]? = some node := by
              rw [VisitMarker.enter_other _ id this hid]; exact hnode
            have h2 : (ChoiceNode.FilterOneByte.marked filter (VisitMarker.enter nodes id)
                id).2[this]? = some node := by
              unfold ChoiceNode.FilterOneByte.marked
              simp only []
              split
              · rw [RegExpNode.set_replacement_other _ id this _ hid]
                exact h1
              · have hcount := List.foldl_keeps (fun st => st.nodes)
                  (ChoiceNode.FilterOneByte.count filter id) this node
                  (fun st i h => ChoiceNode.FilterOneByte.count_keeps this filter hf id node hid
                    hv hc st i h)
                  (List.range (ChoiceNode.alternatives (VisitMarker.enter nodes id) id).length)
                  { nodes := VisitMarker.enter nodes id, surviving := 0, survivor := none } h1
                split
                · rw [RegExpNode.set_replacement_other _ id this _ hid]
                  exact hcount
                · have hrep : (RegExpNode.set_replacement
                      ((List.range (ChoiceNode.alternatives (VisitMarker.enter nodes id)
                        id).length).foldl (ChoiceNode.FilterOneByte.count filter id)
                        { nodes := VisitMarker.enter nodes id, surviving := 0,
                          survivor := none }).nodes id (some id)).2[this]? = some node := by
                    rw [RegExpNode.set_replacement_other _ id this _ hid]
                    exact hcount
                  split
                  · exact hrep
                  · rw [RegExpNode.modify_other _ id this _ hid]
                    exact List.foldl_keeps (fun st => st.1)
                      (ChoiceNode.FilterOneByte.rebuild filter id) this node
                      (fun st i h => ChoiceNode.FilterOneByte.rebuild_keeps this filter hf id
                        node hid hv hc st i h)
                      (List.range (ChoiceNode.alternatives (VisitMarker.enter nodes id) id).length)
                      ((RegExpNode.set_replacement
                        ((List.range (ChoiceNode.alternatives (VisitMarker.enter nodes id)
                          id).length).foldl (ChoiceNode.FilterOneByte.count filter id)
                          { nodes := VisitMarker.enter nodes id, surviving := 0,
                            survivor := none }).nodes id (some id)).2, []) hrep
            simp only []
            generalize ChoiceNode.FilterOneByte.marked filter (VisitMarker.enter nodes id) id =
              p at h2 ⊢
            obtain ⟨result, nodes1⟩ := p
            rw [VisitMarker.exit_other _ id this hid]
            exact h2

/-- `LoopChoiceNode::FilterOneByte` keeps a visited choice node. -/
theorem LoopChoiceNode.FilterOneByte_loop_keeps (this : Nat)
    (filter filter2 : List RegExpNode → Nat → Option Nat × List RegExpNode)
    (hf : RegExpNode.FilterOneByte.Keeps this filter)
    (hf2 : RegExpNode.FilterOneByte.Keeps this filter2) (depth : Int) :
    RegExpNode.FilterOneByte.Keeps this (LoopChoiceNode.FilterOneByte filter filter2 depth) := by
  intro nodes id node hnode hv hc
  unfold LoopChoiceNode.FilterOneByte
  by_cases hid : id = this
  · subst hid
    rw [hnode]
    simp only [hv, if_true]
    split
    · exact hnode
    · split
      · exact hnode
      · exact hnode
  · split
    · exact hnode
    · split
      · exact hnode
      · split
        · exact hnode
        · split
          · exact hnode
          · rename_i idnode _ _ _ _
            have h1 : (VisitMarker.enter nodes id)[this]? = some node := by
              rw [VisitMarker.enter_other _ id this hid]; exact hnode
            have hk := hf _ idnode.continue_node_ node h1 hv hc
            simp only []
            generalize filter (VisitMarker.enter nodes id) idnode.continue_node_ = p at hk ⊢
            obtain ⟨continue_replacement, nodes1⟩ := p
            cases continue_replacement with
            | none =>
              simp only []
              rw [VisitMarker.exit_other _ id this hid,
                RegExpNode.set_replacement_other _ id this _ hid]
              exact hk
            | some r =>
              simp only []
              apply ChoiceNode.FilterOneByte_choice_keeps this filter2 hf2 (depth - 1) _ id node _ hv hc
              rw [VisitMarker.exit_other _ id this hid]
              exact hk

/-- `NegativeLookaroundChoiceNode::FilterOneByte` keeps a visited choice
node. -/
theorem NegativeLookaroundChoiceNode.FilterOneByte_lookaround_keeps (this : Nat)
    (filter : List RegExpNode → Nat → Option Nat × List RegExpNode)
    (hf : RegExpNode.FilterOneByte.Keeps this filter) (depth : Int) :
    RegExpNode.FilterOneByte.Keeps this
      (NegativeLookaroundChoiceNode.FilterOneByte filter depth) := by
  intro nodes id node hnode hv hc
  unfold NegativeLookaroundChoiceNode.FilterOneByte
  by_cases hid : id = this
  · subst hid
    rw [hnode]
    simp only [hv, if_true]
    split
    · exact hnode
    · split
      · exact hnode
      · exact hnode
  · split
    · exact hnode
    · split
      · exact hnode
      · split
        · exact hnode
        · split
          · exact hnode
          · have h1 : (VisitMarker.enter nodes id)[this]? = some node := by
              rw [VisitMarker.enter_other _ id this hid]; exact hnode
            simp only []
            rw [VisitMarker.exit_other _ id this hid]
            split
            · exact h1
            · rename_i alternative _
              have hk := hf _ alternative.node node h1 hv hc
              generalize filter (VisitMarker.enter nodes id) alternative.node = p at hk ⊢
              obtain ⟨replacement, nodes1⟩ := p
              cases replacement with
              | none =>
                simp only []
                rw [RegExpNode.set_replacement_other _ id this _ hid]
                exact hk
              | some replacement =>
                simp only []
                have h2 : (ChoiceNode.set_node nodes1 id 1 replacement)[this]? = some node := by
                  rw [ChoiceNode.set_node_other _ id this _ _ hid]
                  exact hk
                split
                · exact h2
                · rename_i neg_alternative _
                  have hk2 := hf _ neg_alternative.node node h2 hv hc
                  generalize filter (ChoiceNode.set_node nodes1 id 1 replacement)
                    neg_alternative.node = q at hk2 ⊢
                  obtain ⟨neg_replacement, nodes2⟩ := q
                  cases neg_replacement with
                  | none =>
                    simp only []
                    rw [RegExpNode.set_replacement_other _ id this _ hid]
                    exact hk2
                  | some neg_replacement =>
                    simp only []
                    rw [RegExpNode.set_replacement_other _ id this _ hid,
                      ChoiceNode.set_node_other _ id this _ _ hid]
                    exact hk2

/-- The virtual call keeps a visited choice node, if the calls below do. -/
theorem RegExpNode.FilterOneByte.dispatch_keeps (this : Nat)
    (filter filter2 : List RegExpNode → Nat → Option Nat × List RegExpNode)
    (hf : RegExpNode.FilterOneByte.Keeps this filter)
    (hf2 : RegExpNode.FilterOneByte.Keeps this filter2) (depth : Int) :
    RegExpNode.FilterOneByte.Keeps this
      (RegExpNode.FilterOneByte.dispatch filter filter2 depth) := by
  intro nodes id node hnode hv hc
  unfold RegExpNode.FilterOneByte.dispatch
  split
  · exact hnode
  · rename_i idnode hid
    split
    · exact hnode
    · rename_i htype
      have hne : id ≠ this := by
        intro h
        subst h
        rw [hnode] at hid
        have := Option.some.inj hid
        subst this
        rw [htype] at hc
        exact absurd hc (by decide)
      exact SeqRegExpNode.FilterOneByte_seq_keeps this filter2 hf2 depth nodes id node hne hnode hv hc
    · rename_i htype
      have hne : id ≠ this := by
        intro h
        subst h
        rw [hnode] at hid
        have := Option.some.inj hid
        subst this
        rw [htype] at hc
        exact absurd hc (by decide)
      exact TextNode.FilterOneByte_text_keeps this filter2 hf2 depth nodes id node hne hnode hv hc
    · exact ChoiceNode.FilterOneByte_choice_keeps this filter hf depth nodes id node hnode hv hc
    · exact LoopChoiceNode.FilterOneByte_loop_keeps this filter filter2 hf hf2 depth nodes id node
        hnode hv hc
    · exact NegativeLookaroundChoiceNode.FilterOneByte_lookaround_keeps this filter hf depth nodes id node
        hnode hv hc

/-- The recursion of `FilterOneByte` keeps a visited choice node. -/
theorem RegExpNode.FilterOneByte.levels_keeps (this : Nat) :
    ∀ (n : Nat) (depth : Int),
      RegExpNode.FilterOneByte.Keeps this (RegExpNode.FilterOneByte.levels n depth) ∧
      RegExpNode.FilterOneByte.Keeps this (RegExpNode.FilterOneByte.levels (n + 1) depth) := by
  have hstub : RegExpNode.FilterOneByte.Keeps this (fun nodes id => (some id, nodes)) :=
    fun nodes id node hnode _ _ => hnode
  have h0 : ∀ depth, RegExpNode.FilterOneByte.Keeps this
      (RegExpNode.FilterOneByte.levels 0 depth) := by
    intro depth nodes id node hnode hv hc
    unfold RegExpNode.FilterOneByte.levels
    exact RegExpNode.FilterOneByte.dispatch_keeps this _ _ hstub hstub depth nodes id node
      hnode hv hc
  intro n
  induction n with
  | zero =>
    intro depth
    refine ⟨h0 depth, ?_⟩
    intro nodes id node hnode hv hc
    unfold RegExpNode.FilterOneByte.levels
    exact RegExpNode.FilterOneByte.dispatch_keeps this _ _ (h0 _) (h0 _) depth nodes id node
      hnode hv hc
  | succ n ih =>
    intro depth
    refine ⟨(ih depth).2, ?_⟩
    intro nodes id node hnode hv hc
    unfold RegExpNode.FilterOneByte.levels
    exact RegExpNode.FilterOneByte.dispatch_keeps this _ _ (ih (depth - 1)).2 (ih (depth - 2)).1
      depth nodes id node hnode hv hc

/-- The function `FilterOneByte` keeps a visited choice node. -/
theorem RegExpNode.FilterOneByte_keeps (this : Nat) (depth : Int) :
    RegExpNode.FilterOneByte.Keeps this
      (fun nodes id => RegExpNode.FilterOneByte nodes id depth) := by
  intro nodes id node hnode hv hc
  exact (RegExpNode.FilterOneByte.levels_keeps this (depth + 1).toNat depth).1 nodes id node
    hnode hv hc

/-- A filter that keeps visited choice nodes keeps the marked node and its
alternatives. -/
theorem ChoiceNode.FilterOneByte.Marked.filter (this : Nat)
    (filter : List RegExpNode → Nat → Option Nat × List RegExpNode)
    (hf : RegExpNode.FilterOneByte.Keeps this filter) (nodes : List RegExpNode) (id : Nat)
    (alternatives : List GuardedAlternative)
    (h : ChoiceNode.FilterOneByte.Marked nodes this alternatives) :
    ChoiceNode.FilterOneByte.Marked (filter nodes id).2 this alternatives := by
  obtain ⟨node, h1, h2, h3, h4⟩ := h
  exact ⟨node, hf nodes id node h1 h2 h3, h2, h3, h4⟩

/-- The alternatives of the marked node, read from the graph. -/
theorem ChoiceNode.FilterOneByte.Marked.alternatives (nodes : List RegExpNode) (this : Nat)
    (alternatives : List GuardedAlternative)
    (h : ChoiceNode.FilterOneByte.Marked nodes this alternatives) :
    ChoiceNode.alternatives nodes this = alternatives := by
  obtain ⟨node, h1, _, _, h4⟩ := h
  unfold ChoiceNode.alternatives
  rw [h1]
  exact h4

/-- Redirecting the alternative behind `pre` of the marked node. -/
theorem ChoiceNode.FilterOneByte.Marked.set_node (nodes : List RegExpNode) (this : Nat)
    (pre rest : List GuardedAlternative) (alternative : GuardedAlternative) (replacement : Nat)
    (h : ChoiceNode.FilterOneByte.Marked nodes this (pre ++ alternative :: rest)) :
    ChoiceNode.FilterOneByte.Marked (ChoiceNode.set_node nodes this pre.length replacement) this
      ((pre ++ [{ alternative with node := replacement }]) ++ rest) := by
  obtain ⟨node, h1, h2, h3, h4⟩ := h
  refine ⟨_, RegExpNode.modify_self nodes this node _ h1, h2, h3, ?_⟩
  simp only [h4]
  have hget : (pre ++ alternative :: rest)[pre.length]? = some alternative := by
    rw [List.getElem?_append_right (Nat.le_refl _)]
    simp
  rw [hget]
  simp only []
  rw [List.set_append_right _ _ (Nat.le_refl _)]
  simp

/-- Recording a replacement keeps the marked node and its alternatives. -/
theorem ChoiceNode.FilterOneByte.Marked.set_replacement (nodes : List RegExpNode) (this : Nat)
    (alternatives : List GuardedAlternative) (replacement : Option Nat)
    (h : ChoiceNode.FilterOneByte.Marked nodes this alternatives) :
    ChoiceNode.FilterOneByte.Marked (RegExpNode.set_replacement nodes this replacement).2 this
      alternatives := by
  obtain ⟨node, h1, h2, h3, h4⟩ := h
  exact ⟨_, RegExpNode.modify_self nodes this node _ h1, h2, h3, h4⟩

/-- The first loop over the alternatives of the marked node, from the
alternative behind `pre` on: it leaves the graph that the filtering of the
remaining alternatives leaves, has counted the survivors and kept the last
of them; the alternatives are then the old ones, the survivors redirected. -/
theorem ChoiceNode.FilterOneByte.count_fold (this : Nat)
    (filter : List RegExpNode → Nat → Option Nat × List RegExpNode)
    (hf : RegExpNode.FilterOneByte.Keeps this filter) :
    ∀ (rest pre : List GuardedAlternative) (nodes : List RegExpNode) (surviving : Int)
      (survivor : Option Nat),
      ChoiceNode.FilterOneByte.Marked nodes this (pre ++ rest) →
      (List.range' pre.length rest.length).foldl (ChoiceNode.FilterOneByte.count filter this)
          { nodes := nodes, surviving := surviving, survivor := survivor } =
        { nodes := (ChoiceNode.FilterOneByte.filtered filter this rest pre.length nodes).2
          surviving := surviving +
            ((ChoiceNode.FilterOneByte.filtered filter this rest pre.length nodes).1.filterMap
              id).length
          survivor := ChoiceNode.FilterOneByte.lastSurvivor survivor
            (ChoiceNode.FilterOneByte.filtered filter this rest pre.length nodes).1 } ∧
      ChoiceNode.FilterOneByte.Marked
        (ChoiceNode.FilterOneByte.filtered filter this rest pre.length nodes).2 this
        (pre ++ List.zipWith GuardedAlternative.redirect rest
          (ChoiceNode.FilterOneByte.filtered filter this rest pre.length nodes).1) ∧
      (ChoiceNode.FilterOneByte.filtered filter this rest pre.length nodes).1.length =
        rest.length := by
  intro rest
  induction rest with
  | nil =>
    intro pre nodes surviving survivor hm
    simp only [ChoiceNode.FilterOneByte.filtered, List.length_nil, List.range'_zero,
      List.foldl_nil, List.filterMap_nil, Int.ofNat_zero, Int.add_zero,
      ChoiceNode.FilterOneByte.lastSurvivor, List.zipWith_nil_left, and_true, true_and]
    exact hm
  | cons alternative rest ih =>
    intro pre nodes surviving survivor hm
    have halts := ChoiceNode.FilterOneByte.Marked.alternatives nodes this _ hm
    have hget : (pre ++ alternative :: rest)[pre.length]? = some alternative := by
      rw [List.getElem?_append_right (Nat.le_refl _)]
      simp
    have hm1 := ChoiceNode.FilterOneByte.Marked.filter this filter hf nodes alternative.node _ hm
    have hlen : (pre ++ [alternative]).length = pre.length + 1 := by simp
    simp only [List.length_cons, List.range'_succ, List.foldl_cons,
      ChoiceNode.FilterOneByte.filtered]
    have hstep : ChoiceNode.FilterOneByte.count filter this
        { nodes := nodes, surviving := surviving, survivor := survivor } pre.length =
        { nodes :=
            match (filter nodes alternative.node).1 with
            | some replacement =>
              ChoiceNode.set_node (filter nodes alternative.node).2 this pre.length replacement
            | none => (filter nodes alternative.node).2
          surviving := surviving + ([(filter nodes alternative.node).1].filterMap id).length
          survivor := ChoiceNode.FilterOneByte.lastSurvivor survivor
            [(filter nodes alternative.node).1] } := by
      unfold ChoiceNode.FilterOneByte.count
      simp only [halts, hget]
      generalize filter nodes alternative.node = p
      obtain ⟨replacement, nodes1⟩ := p
      cases replacement with
      | none => simp [ChoiceNode.FilterOneByte.lastSurvivor]
      | some replacement => simp [ChoiceNode.FilterOneByte.lastSurvivor]
    rw [hstep]
    generalize filter nodes alternative.node = p at hm1 ⊢
    obtain ⟨replacement, nodes1⟩ := p
    cases replacement with
    | none =>
      simp only []
      have hm2 : ChoiceNode.FilterOneByte.Marked nodes1 this ((pre ++ [alternative]) ++ rest) := by
        simpa using hm1
      obtain ⟨e1, e2, e3⟩ := ih (pre ++ [alternative]) nodes1
        (surviving + ([none].filterMap id).length)
        (ChoiceNode.FilterOneByte.lastSurvivor survivor [none]) hm2
      rw [hlen] at e1 e2 e3
      refine ⟨?_, ?_, ?_⟩
      · rw [e1]
        simp [ChoiceNode.FilterOneByte.lastSurvivor]
      · simpa [GuardedAlternative.redirect] using e2
      · simp [e3]
    | some replacement =>
      simp only []
      have hm2 := ChoiceNode.FilterOneByte.Marked.set_node nodes1 this pre rest alternative
        replacement hm1
      have hlen2 : (pre ++ [{ alternative with node := replacement }]).length =
          pre.length + 1 := by simp
      obtain ⟨e1, e2, e3⟩ := ih (pre ++ [{ alternative with node := replacement }])
        (ChoiceNode.set_node nodes1 this pre.length replacement)
        (surviving + ([some replacement].filterMap id).length)
        (ChoiceNode.FilterOneByte.lastSurvivor survivor [some replacement]) hm2
      rw [hlen2] at e1 e2 e3
      refine ⟨?_, ?_, ?_⟩
      · rw [e1]
        simp [ChoiceNode.FilterOneByte.lastSurvivor]
        omega
      · simpa [GuardedAlternative.redirect] using e2
      · simp [e3]

/-- The second loop over the alternatives of the marked node, from the
alternative behind `pre` on: it leaves the graph that the filtering of the
remaining alternatives leaves, and has added to `new_alternatives` those of
them whose node filtered to non-null, redirected. -/
theorem ChoiceNode.FilterOneByte.rebuild_fold (this : Nat)
    (filter : List RegExpNode → Nat → Option Nat × List RegExpNode)
    (hf : RegExpNode.FilterOneByte.Keeps this filter) :
    ∀ (rest pre : List GuardedAlternative) (nodes : List RegExpNode)
      (new_alternatives : List GuardedAlternative),
      ChoiceNode.FilterOneByte.Marked nodes this (pre ++ rest) →
      (List.range' pre.length rest.length).foldl (ChoiceNode.FilterOneByte.rebuild filter this)
          (nodes, new_alternatives) =
        ((ChoiceNode.FilterOneByte.filtered filter this rest pre.length nodes).2,
          new_alternatives ++ ChoiceNode.FilterOneByte.survivors rest
            (ChoiceNode.FilterOneByte.filtered filter this rest pre.length nodes).1) := by
  intro rest
  induction rest with
  | nil =>
    intro pre nodes new_alternatives _
    simp [ChoiceNode.FilterOneByte.filtered, ChoiceNode.FilterOneByte.survivors]
  | cons alternative rest ih =>
    intro pre nodes new_alternatives hm
    have halts := ChoiceNode.FilterOneByte.Marked.alternatives nodes this _ hm
    have hget : (pre ++ alternative :: rest)[pre.length]? = some alternative := by
      rw [List.getElem?_append_right (Nat.le_refl _)]
      simp
    have hm1 := ChoiceNode.FilterOneByte.Marked.filter this filter hf nodes alternative.node _ hm
    have hlen : (pre ++ [alternative]).length = pre.length + 1 := by simp
    simp only [List.length_cons, List.range'_succ, List.foldl_cons,
      ChoiceNode.FilterOneByte.filtered]
    have hstep : ChoiceNode.FilterOneByte.rebuild filter this (nodes, new_alternatives)
        pre.length =
        ((match (filter nodes alternative.node).1 with
          | some replacement =>
            ChoiceNode.set_node (filter nodes alternative.node).2 this pre.length replacement
          | none => (filter nodes alternative.node).2),
          new_alternatives ++
            ChoiceNode.FilterOneByte.survivors [alternative] [(filter nodes alternative.node).1]) := by
      unfold ChoiceNode.FilterOneByte.rebuild
      simp only [halts, hget]
      generalize filter nodes alternative.node = p at hm1 ⊢
      obtain ⟨replacement, nodes1⟩ := p
      cases replacement with
      | none => simp [ChoiceNode.FilterOneByte.survivors]
      | some replacement =>
        have hm2 := ChoiceNode.FilterOneByte.Marked.set_node nodes1 this pre rest alternative
          replacement hm1
        have halts2 := ChoiceNode.FilterOneByte.Marked.alternatives _ this _ hm2
        have hget2 : ((pre ++ [{ alternative with node := replacement }]) ++ rest)[pre.length]? =
            some { alternative with node := replacement } := by
          rw [List.append_assoc, List.getElem?_append_right (Nat.le_refl _)]
          simp
        simp only [halts2, hget2]
        simp [ChoiceNode.FilterOneByte.survivors]
    rw [hstep]
    generalize filter nodes alternative.node = p at hm1 ⊢
    obtain ⟨replacement, nodes1⟩ := p
    cases replacement with
    | none =>
      simp only []
      have hm2 : ChoiceNode.FilterOneByte.Marked nodes1 this ((pre ++ [alternative]) ++ rest) := by
        simpa using hm1
      have e1 := ih (pre ++ [alternative]) nodes1
        (new_alternatives ++ ChoiceNode.FilterOneByte.survivors [alternative] [none]) hm2
      rw [hlen] at e1
      rw [e1]
      simp [ChoiceNode.FilterOneByte.survivors]
    | some replacement =>
      simp only []
      have hm2 := ChoiceNode.FilterOneByte.Marked.set_node nodes1 this pre rest alternative
        replacement hm1
      have hlen2 : (pre ++ [{ alternative with node := replacement }]).length =
          pre.length + 1 := by simp
      have e1 := ih (pre ++ [{ alternative with node := replacement }])
        (ChoiceNode.set_node nodes1 this pre.length replacement)
        (new_alternatives ++
          ChoiceNode.FilterOneByte.survivors [alternative] [some replacement]) hm2
      rw [hlen2] at e1
      rw [e1]
      simp [ChoiceNode.FilterOneByte.survivors]

/-- Without a survivor the variable `survivor` keeps its value. -/
theorem ChoiceNode.FilterOneByte.lastSurvivor_none (survivor : Option Nat) :
    ∀ replacements : List (Option Nat), replacements.filterMap id = [] →
      ChoiceNode.FilterOneByte.lastSurvivor survivor replacements = survivor := by
  intro replacements
  induction replacements with
  | nil => intro _; rfl
  | cons r rest ih =>
    intro h
    cases r with
    | none =>
      simp only [List.filterMap_cons, id] at h
      simp only [ChoiceNode.FilterOneByte.lastSurvivor]
      exact ih h
    | some r => simp at h

/-- With a single survivor the variable `survivor` ends as its
replacement. -/
theorem ChoiceNode.FilterOneByte.lastSurvivor_single (replacement : Nat) :
    ∀ (replacements : List (Option Nat)) (survivor : Option Nat),
      replacements.filterMap id = [replacement] →
      ChoiceNode.FilterOneByte.lastSurvivor survivor replacements = some replacement := by
  intro replacements
  induction replacements with
  | nil => intro _ h; simp at h
  | cons r rest ih =>
    intro survivor h
    cases r with
    | none =>
      simp only [List.filterMap_cons, id] at h
      simp only [ChoiceNode.FilterOneByte.lastSurvivor]
      exact ih survivor h
    | some r =>
      simp only [List.filterMap_cons, id, List.cons.injEq] at h
      simp only [ChoiceNode.FilterOneByte.lastSurvivor]
      rw [ChoiceNode.FilterOneByte.lastSurvivor_none _ rest h.2, h.1]

/-- The survivors among redirected alternatives are the survivors among the
alternatives. -/
theorem ChoiceNode.FilterOneByte.survivors_redirect :
    ∀ (alternatives : List GuardedAlternative) (replacements : List (Option Nat)),
      ChoiceNode.FilterOneByte.survivors
          (List.zipWith GuardedAlternative.redirect alternatives replacements) replacements =
        ChoiceNode.FilterOneByte.survivors alternatives replacements := by
  intro alternatives
  induction alternatives with
  | nil => intro replacements; simp [ChoiceNode.FilterOneByte.survivors]
  | cons a rest ih =>
    intro replacements
    cases replacements with
    | nil => simp [ChoiceNode.FilterOneByte.survivors]
    | cons r rs =>
      have := ih rs
      unfold ChoiceNode.FilterOneByte.survivors at this ⊢
      cases r with
      | none => simpa [GuardedAlternative.redirect] using this
      | some r => simpa [GuardedAlternative.redirect] using this

/-- When every alternative survives, the redirected alternatives are the
survivors. -/
theorem ChoiceNode.FilterOneByte.survivors_all :
    ∀ (alternatives : List GuardedAlternative) (replacements : List (Option Nat)),
      replacements.length = alternatives.length →
      (replacements.filterMap id).length = alternatives.length →
      List.zipWith GuardedAlternative.redirect alternatives replacements =
        ChoiceNode.FilterOneByte.survivors alternatives replacements := by
  intro alternatives
  induction alternatives with
  | nil => intro replacements _ _; simp [ChoiceNode.FilterOneByte.survivors]
  | cons a rest ih =>
    intro replacements hlen hall
    cases replacements with
    | nil => simp at hlen
    | cons r rs =>
      simp only [List.length_cons, Nat.add_right_cancel_iff] at hlen
      cases r with
      | none =>
        simp only [List.filterMap_cons, id, List.length_cons] at hall
        have := List.length_filterMap_le id rs
        omega
      | some r =>
        simp only [List.filterMap_cons, id, List.length_cons, Nat.add_right_cancel_iff] at hall
        have := ih rs hlen hall
        unfold ChoiceNode.FilterOneByte.survivors at this ⊢
        simp [GuardedAlternative.redirect, this]

/-- Unmarking a node keeps its alternatives. -/
theorem ChoiceNode.alternatives_exit (nodes : List RegExpNode) (this : Nat) :
    ChoiceNode.alternatives (VisitMarker.exit nodes this) this =
      ChoiceNode.alternatives nodes this := by
  unfold ChoiceNode.alternatives
  cases h : nodes[this]? with
  | none =>
    have : (VisitMarker.exit nodes this)[this]? = none := by
      unfold VisitMarker.exit RegExpNode.modify
      rw [h]
      exact h
    rw [this]
  | some node =>
    rw [show (VisitMarker.exit nodes this)[this]? = _ from
      RegExpNode.modify_self nodes this node _ h]

/-- The function `ChoiceNode::FilterOneByte`, for a filter of the
alternatives' nodes that keeps visited choice nodes, on a node without
guards that is neither calculated nor visited, with a depth of at least 0:
the result and the alternative list in terms of what the alternatives' nodes
filter to. -/
theorem ChoiceNode.FilterOneByte_filtered (this : Nat)
    (filter : List RegExpNode → Nat → Option Nat × List RegExpNode)
    (hf : RegExpNode.FilterOneByte.Keeps this filter) (depth : Int) (nodes : List RegExpNode)
    (node : RegExpNode) (hnode : nodes[this]? = some node)
    (hc : node.type.checksVisited = true)
    (hcalc : node.info.replacement_calculated = false) (hvis : node.info.visited = false)
    (hdepth : 0 ≤ depth)
    (hguards : node.alternatives_.any GuardedAlternative.hasGuards = false) :
    ((ChoiceNode.FilterOneByte.filtered filter this node.alternatives_ 0
        (VisitMarker.enter nodes this)).1.filterMap id = [] →
      (ChoiceNode.FilterOneByte filter depth nodes this).1 = none) ∧
    (∀ replacement,
      (ChoiceNode.FilterOneByte.filtered filter this node.alternatives_ 0
        (VisitMarker.enter nodes this)).1.filterMap id = [replacement] →
      (ChoiceNode.FilterOneByte filter depth nodes this).1 = some replacement) ∧
    (2 ≤ ((ChoiceNode.FilterOneByte.filtered filter this node.alternatives_ 0
        (VisitMarker.enter nodes this)).1.filterMap id).length →
      (ChoiceNode.FilterOneByte filter depth nodes this).1 = some this ∧
      (((ChoiceNode.FilterOneByte.filtered filter this node.alternatives_ 0
          (VisitMarker.enter nodes this)).1.filterMap id).length = node.alternatives_.length →
        ChoiceNode.alternatives (ChoiceNode.FilterOneByte filter depth nodes this).2 this =
          List.zipWith GuardedAlternative.redirect node.alternatives_
            (ChoiceNode.FilterOneByte.filtered filter this node.alternatives_ 0
              (VisitMarker.enter nodes this)).1) ∧
      (((ChoiceNode.FilterOneByte.filtered filter this node.alternatives_ 0
          (VisitMarker.enter nodes this)).1.filterMap id).length ≠ node.alternatives_.length →
        ChoiceNode.alternatives (ChoiceNode.FilterOneByte filter depth nodes this).2 this =
          ChoiceNode.FilterOneByte.survivors
            (List.zipWith GuardedAlternative.redirect node.alternatives_
              (ChoiceNode.FilterOneByte.filtered filter this node.alternatives_ 0
                (VisitMarker.enter nodes this)).1)
            (ChoiceNode.FilterOneByte.filtered filter this
              (List.zipWith GuardedAlternative.redirect node.alternatives_
                (ChoiceNode.FilterOneByte.filtered filter this node.alternatives_ 0
                  (VisitMarker.enter nodes this)).1) 0
              (RegExpNode.set_replacement
                (ChoiceNode.FilterOneByte.filtered filter this node.alternatives_ 0
                  (VisitMarker.enter nodes this)).2 this (some this)).2).1)) := by
  have hm0 : ChoiceNode.FilterOneByte.Marked (VisitMarker.enter nodes this) this
      ([] ++ node.alternatives_) :=
    ⟨_, RegExpNode.modify_self nodes this node _ hnode, rfl, hc, rfl⟩
  have halts0 := ChoiceNode.FilterOneByte.Marked.alternatives _ this _ hm0
  obtain ⟨e1, e2, e3⟩ := ChoiceNode.FilterOneByte.count_fold this filter hf node.alternatives_ []
    (VisitMarker.enter nodes this) 0 none hm0
  simp only [List.length_nil, List.nil_append, Int.zero_add] at e1 e2 e3 halts0
  generalize hfirst : ChoiceNode.FilterOneByte.filtered filter this node.alternatives_ 0
    (VisitMarker.enter nodes this) = first at e1 e2 e3 ⊢
  have hm1 := ChoiceNode.FilterOneByte.Marked.set_replacement first.2 this _ (some this) e2
  have hm1' : ChoiceNode.FilterOneByte.Marked
      (RegExpNode.set_replacement first.2 this (some this)).2 this
      ([] ++ List.zipWith GuardedAlternative.redirect node.alternatives_ first.1) := by
    simpa using hm1
  have e4 := ChoiceNode.FilterOneByte.rebuild_fold this filter hf
    (List.zipWith GuardedAlternative.redirect node.alternatives_ first.1) []
    (RegExpNode.set_replacement first.2 this (some this)).2 [] hm1'
  obtain ⟨_, e5, _⟩ := ChoiceNode.FilterOneByte.count_fold this filter hf
    (List.zipWith GuardedAlternative.redirect node.alternatives_ first.1) []
    (RegExpNode.set_replacement first.2 this (some this)).2 0 none hm1'
  have hzlen : (List.zipWith GuardedAlternative.redirect node.alternatives_ first.1).length =
      node.alternatives_.length := by
    simp [e3]
  simp only [List.length_nil, List.nil_append, hzlen] at e4 e5
  generalize hsecond : ChoiceNode.FilterOneByte.filtered filter this
    (List.zipWith GuardedAlternative.redirect node.alternatives_ first.1) 0
    (RegExpNode.set_replacement first.2 this (some this)).2 = second at e4 e5 ⊢
  have hout : ChoiceNode.FilterOneByte filter depth nodes this =
      if ((first.1.filterMap id).length : Int) < 2 then
        (ChoiceNode.FilterOneByte.lastSurvivor none first.1,
          VisitMarker.exit (RegExpNode.set_replacement first.2 this
            (ChoiceNode.FilterOneByte.lastSurvivor none first.1)).2 this)
      else if (first.1.filterMap id).length = node.alternatives_.length then
        (some this, VisitMarker.exit (RegExpNode.set_replacement first.2 this (some this)).2 this)
      else
        (some this, VisitMarker.exit (RegExpNode.modify second.2 this
          (fun n => { n with alternatives_ :=
            (ChoiceNode.FilterOneByte.survivors
              (List.zipWith GuardedAlternative.redirect node.alternatives_ first.1)
              second.1) })) this) := by
    unfold ChoiceNode.FilterOneByte
    rw [hnode]
    simp only [hcalc, hvis, Bool.false_eq_true, if_false]
    rw [if_neg (by omega)]
    unfold ChoiceNode.FilterOneByte.marked
    simp only [halts0, hguards, Bool.false_eq_true, if_false, List.range_eq_range', e1, e4]
    by_cases h2 : ((first.1.filterMap id).length : Int) < 2
    · simp only [if_pos h2]
      rfl
    · simp only [if_neg h2]
      by_cases h3 : (first.1.filterMap id).length = node.alternatives_.length
      · have hb : (((first.1.filterMap id).length : Int) == (node.alternatives_.length : Int)) =
            true := by
          rw [h3]
          exact beq_self_eq_true _
        simp only [hb, if_true, if_pos h3]
      · have hb : ¬ ((((first.1.filterMap id).length : Int) ==
            (node.alternatives_.length : Int)) = true) := by
          intro h
          have := eq_of_beq h
          exact h3 (by exact_mod_cast this)
        simp only [if_neg hb, if_neg h3]
  rw [hout]
  refine ⟨?_, ?_, ?_⟩
  · intro hnil
    rw [hnil]
    simp only [List.length_nil, Int.ofNat_zero]
    rw [if_pos (by decide)]
    exact ChoiceNode.FilterOneByte.lastSurvivor_none none first.1 hnil
  · intro replacement hone
    rw [hone]
    simp only [List.length_singleton]
    rw [if_pos (by decide)]
    exact ChoiceNode.FilterOneByte.lastSurvivor_single replacement first.1 none hone
  · intro htwo
    have h2 : ¬ (((first.1.filterMap id).length : Int) < 2) := by omega
    rw [if_neg h2]
    refine ⟨?_, ?_, ?_⟩
    · split <;> rfl
    · intro hall
      rw [if_pos hall]
      simp only []
      rw [ChoiceNode.alternatives_exit]
      exact ChoiceNode.FilterOneByte.Marked.alternatives _ this _ hm1
    · intro hsome
      rw [if_neg hsome]
      simp only []
      rw [ChoiceNode.alternatives_exit]
      obtain ⟨n2, hn2, _, _, _⟩ := e5
      unfold ChoiceNode.alternatives
      rw [RegExpNode.modify_self second.2 this n2 _ hn2]

/-- C17 (counterexample): called with depth -1, a choice node whose only
alternative filters to null returns itself, not null; and called with depth
1 on a node with three alternatives of which the first two filter to
non-null (to the nodes 3 and 4), the function returns the node with the
single alternative 4: node 3, returned unexamined the first time because the
depth had run out, filters to null when it is asked again. -/
theorem ChoiceNode.FilterOneByte_counterexample :
    ((RegExpNode.FilterOneByte RegExpNode.FilterOneByte.calculatedNull 1 (-2)).1 = none ∧
      (RegExpNode.FilterOneByte RegExpNode.FilterOneByte.calculatedNull 0 (-1)).1 = some 0) ∧
    ((ChoiceNode.FilterOneByte.filtered (fun nodes id => RegExpNode.FilterOneByte nodes id 0) 1
        [{ node := 2, guards := none }, { node := 4, guards := none },
          { node := 5, guards := none }] 0
        (VisitMarker.enter RegExpNode.FilterOneByte.nestedChoice 1)).1 =
        [some 3, some 4, none] ∧
      (RegExpNode.FilterOneByte RegExpNode.FilterOneByte.nestedChoice 1 1).1 = some 1 ∧
      ChoiceNode.alternatives
        (RegExpNode.FilterOneByte RegExpNode.FilterOneByte.nestedChoice 1 1).2 1 =
        [{ node := 4, guards := none }] ∧
      ChoiceNode.FilterOneByte.survivors
        [{ node := 2, guards := none }, { node := 4, guards := none },
          { node := 5, guards := none }] [some 3, some 4, none] =
        [{ node := 3, guards := none }, { node := 4, guards := none }]) := by
  refine ⟨⟨?_, ?_⟩, ?_, ?_, ?_, ?_⟩ <;> decide

/-- C17 (amended): for every choice node none of whose alternatives has
guards, a call of `ChoiceNode::FilterOneByte` with a depth of at least 0 that
finds the node neither calculated nor visited returns null when no
alternative's node filters to non-null, returns the replacement of the
single surviving alternative when exactly one survives, and otherwise
returns the node itself; the node's alternative list is then the
order-preserving sub-list of the surviving alternatives, each redirected to
its replacement, provided that all alternatives survive or that the second
filtering of the alternatives' nodes gives the results of the first. -/
theorem ChoiceNode.FilterOneByte_spec (nodes : List RegExpNode) (this : Nat) (node : RegExpNode)
    (depth : Int) (hnode : nodes[this]? = some node) (htype : node.type = .ChoiceNode)
    (hcalc : node.info.replacement_calculated = false) (hvis : node.info.visited = false)
    (hdepth : 0 ≤ depth)
    (hguards : node.alternatives_.any GuardedAlternative.hasGuards = false) :
    ((ChoiceNode.FilterOneByte.filtered
        (fun nodes id => RegExpNode.FilterOneByte nodes id (depth - 1)) this node.alternatives_ 0
        (VisitMarker.enter nodes this)).1.filterMap id = [] →
      (ChoiceNode.FilterOneByte (fun nodes id => RegExpNode.FilterOneByte nodes id (depth - 1))
        depth nodes this).1 = none) ∧
    (∀ replacement,
      (ChoiceNode.FilterOneByte.filtered
        (fun nodes id => RegExpNode.FilterOneByte nodes id (depth - 1)) this node.alternatives_ 0
        (VisitMarker.enter nodes this)).1.filterMap id = [replacement] →
      (ChoiceNode.FilterOneByte (fun nodes id => RegExpNode.FilterOneByte nodes id (depth - 1))
        depth nodes this).1 = some replacement) ∧
    (2 ≤ ((ChoiceNode.FilterOneByte.filtered
        (fun nodes id => RegExpNode.FilterOneByte nodes id (depth - 1)) this node.alternatives_ 0
        (VisitMarker.enter nodes this)).1.filterMap id).length →
      (ChoiceNode.FilterOneByte (fun nodes id => RegExpNode.FilterOneByte nodes id (depth - 1))
        depth nodes this).1 = some this ∧
      ((((ChoiceNode.FilterOneByte.filtered
            (fun nodes id => RegExpNode.FilterOneByte nodes id (depth - 1)) this
            node.alternatives_ 0 (VisitMarker.enter nodes this)).1.filterMap id).length =
          node.alternatives_.length ∨
        (ChoiceNode.FilterOneByte.filtered
          (fun nodes id => RegExpNode.FilterOneByte nodes id (depth - 1)) this
          (List.zipWith GuardedAlternative.redirect node.alternatives_
            (ChoiceNode.FilterOneByte.filtered
              (fun nodes id => RegExpNode.FilterOneByte nodes id (depth - 1)) this
              node.alternatives_ 0 (VisitMarker.enter nodes this)).1) 0
          (RegExpNode.set_replacement
            (ChoiceNode.FilterOneByte.filtered
              (fun nodes id => RegExpNode.FilterOneByte nodes id (depth - 1)) this
              node.alternatives_ 0 (VisitMarker.enter nodes this)).2 this (some this)).2).1 =
          (ChoiceNode.FilterOneByte.filtered
            (fun nodes id => RegExpNode.FilterOneByte nodes id (depth - 1)) this
            node.alternatives_ 0 (VisitMarker.enter nodes this)).1) →
        ChoiceNode.alternatives
          (ChoiceNode.FilterOneByte
            (fun nodes id => RegExpNode.FilterOneByte nodes id (depth - 1)) depth nodes this).2
          this =
          ChoiceNode.FilterOneByte.survivors node.alternatives_
            (ChoiceNode.FilterOneByte.filtered
              (fun nodes id => RegExpNode.FilterOneByte nodes id (depth - 1)) this
              node.alternatives_ 0 (VisitMarker.enter nodes this)).1)) := by
  have hc : node.type.checksVisited = true := by rw [htype]; rfl
  have hm0 : ChoiceNode.FilterOneByte.Marked (VisitMarker.enter nodes this) this
      ([] ++ node.alternatives_) :=
    ⟨_, RegExpNode.modify_self nodes this node _ hnode, rfl, hc, rfl⟩
  obtain ⟨_, _, hlen⟩ := ChoiceNode.FilterOneByte.count_fold this _
    (RegExpNode.FilterOneByte_keeps this (depth - 1)) node.alternatives_ []
    (VisitMarker.enter nodes this) 0 none hm0
  simp only [List.length_nil] at hlen
  obtain ⟨h1, h2, h3⟩ := ChoiceNode.FilterOneByte_filtered this _
    (RegExpNode.FilterOneByte_keeps this (depth - 1)) depth nodes node hnode hc hcalc hvis hdepth
    hguards
  refine ⟨h1, h2, fun htwo => ?_⟩
  obtain ⟨g1, g2, g3⟩ := h3 htwo
  refine ⟨g1, fun hstable => ?_⟩
  by_cases hall : ((ChoiceNode.FilterOneByte.filtered
      (fun nodes id => RegExpNode.FilterOneByte nodes id (depth - 1)) this node.alternatives_ 0
      (VisitMarker.enter nodes this)).1.filterMap id).length = node.alternatives_.length
  · rw [g2 hall]
    exact ChoiceNode.FilterOneByte.survivors_all _ _ hlen hall
  · rcases hstable with hs | hs
    · exact absurd hs hall
    · rw [g3 hall, hs]
      exact ChoiceNode.FilterOneByte.survivors_redirect _ _

/-- C17 at a concrete input: the choice between the nodes 2, 4 and 5 of the
graph `nestedChoice`, filtered with depth 5; only the alternative 4
survives. -/
theorem ChoiceNode.FilterOneByte_spec_witness :
    (ChoiceNode.FilterOneByte (fun nodes id => RegExpNode.FilterOneByte nodes id (5 - 1)) 5
      RegExpNode.FilterOneByte.nestedChoice 1).1 = some 4 :=
  (ChoiceNode.FilterOneByte_spec RegExpNode.FilterOneByte.nestedChoice 1
    (RegExpNode.new .ChoiceNode 0 []
      [{ node := 2, guards := none }, { node := 4, guards := none },
        { node := 5, guards := none }])
    5 rfl rfl rfl rfl (by decide) (by decide)).2.1 4 (by decide)

/-! ## Results cache: the stores of `Enter` -/

/-- A value between `2 ^ j` and `2 ^ (j + 1)` has bit `j` set. -/
theorem testBit_of_bounds (x j : Nat) (h1 : 2 ^ j ≤ x) (h2 : x < 2 ^ (j + 1)) :
    x.testBit j = true := by
  rw [Nat.testBit_to_div_mod]
  have hpos : 0 < 2 ^ j := Nat.two_pow_pos _
  have hq : x / 2 ^ j = 1 := by
    apply le_antisymm
    · have : x / 2 ^ j < 2 := by
        rw [Nat.div_lt_iff_lt_mul hpos]
        rw [pow_succ] at h2
        omega
      omega
    · rw [Nat.le_div_iff_mul_le hpos]
      omega
  simp [hq]

/-- The smeared value of a 32-bit word is `2 ^ k - 1`, where `k` is the
number of bits of the word. -/
theorem SmearBitsRight_form (d : Nat) (hd : d < 2 ^ 32) :
    ∃ k, k ≤ 32 ∧ SmearBitsRight d = 2 ^ k - 1 ∧ d < 2 ^ k ∧
      (∀ i, k ≤ i → d.testBit i = false) ∧ (0 < k → d.testBit (k - 1) = true) := by
  by_cases h0 : d = 0
  · subst h0
    exact ⟨0, by omega, by decide, by norm_num, fun i _ => Nat.zero_testBit i, fun h => by omega⟩
  · obtain ⟨m, hm1, hm2⟩ := Nat.exists_most_significant_bit h0
    have hm32 : m < 32 := by
      by_contra hge
      have := Nat.testBit_implies_ge hm1
      have : 2 ^ 32 ≤ 2 ^ m := Nat.pow_le_pow_right (by norm_num) (by omega)
      omega
    have hlt : d < 2 ^ (m + 1) := Nat.lt_pow_two_of_testBit d (fun i hi => hm2 i (by omega))
    refine ⟨m + 1, by omega, ?_, hlt, fun i hi => hm2 i (by omega), fun _ => by simpa using hm1⟩
    apply Nat.eq_of_testBit_eq
    intro i
    rw [Nat.testBit_two_pow_sub_one]
    by_cases hi : i < m + 1
    · rw [decide_eq_true hi, SmearBitsRight_testBit]
      exact ⟨m, by omega, hm32, hm1⟩
    · rw [decide_eq_false hi]
      cases hs : (SmearBitsRight d).testBit i with
      | false => rfl
      | true =>
        obtain ⟨j, hj1, _, hj3⟩ := (SmearBitsRight_testBit d i).1 hs
        rw [hm2 j (by omega)] at hj3
        exact absurd hj3 (by decide)

/-- Two 32-bit words agree under the mask `~(2 ^ k - 1)` exactly when they
have the same quotient by `2 ^ k`. -/
theorem mask_block (k c f : Nat) (hc : c < 2 ^ 32) (hf : f < 2 ^ 32) :
    c &&& not32 (2 ^ k - 1) = f &&& not32 (2 ^ k - 1) ↔ c / 2 ^ k = f / 2 ^ k := by
  have hbig : ∀ (x : Nat), x < 2 ^ 32 → ∀ j, 32 ≤ j → x.testBit j = false := by
    intro x hx j hj
    apply Nat.testBit_lt_two_pow
    calc x < 2 ^ 32 := hx
      _ ≤ 2 ^ j := Nat.pow_le_pow_right (by norm_num) hj
  constructor
  · intro h
    rw [← Nat.shiftRight_eq_div_pow, ← Nat.shiftRight_eq_div_pow]
    apply Nat.eq_of_testBit_eq
    intro j
    rw [Nat.testBit_shiftRight, Nat.testBit_shiftRight]
    by_cases hj : k + j < 32
    · have hb := congrArg (fun x => x.testBit (k + j)) h
      simp only [Nat.testBit_and, testBit_not32, Nat.testBit_two_pow_sub_one] at hb
      have hnk : ¬ k + j < k := by omega
      simpa [hj, hnk] using hb
    · rw [hbig c hc _ (by omega), hbig f hf _ (by omega)]
  · intro h
    rw [← Nat.shiftRight_eq_div_pow, ← Nat.shiftRight_eq_div_pow] at h
    apply Nat.eq_of_testBit_eq
    intro i
    simp only [Nat.testBit_and, testBit_not32, Nat.testBit_two_pow_sub_one]
    by_cases hi : i < k
    · simp [hi]
    · have hb := congrArg (fun x => x.testBit (i - k)) h
      simp only [Nat.testBit_shiftRight] at hb
      rw [show k + (i - k) = i by omega] at hb
      rw [hb]

/-- Two values whose exclusive or has no bit at or above `k` have the same
quotient by `2 ^ k`. -/
theorem xor_high (f t k : Nat) (h : ∀ i, k ≤ i → (f ^^^ t).testBit i = false) :
    f / 2 ^ k = t / 2 ^ k := by
  rw [← Nat.shiftRight_eq_div_pow, ← Nat.shiftRight_eq_div_pow]
  apply Nat.eq_of_testBit_eq
  intro j
  rw [Nat.testBit_shiftRight, Nat.testBit_shiftRight]
  have := h (k + j) (by omega)
  rw [Nat.testBit_xor] at this
  revert this
  cases f.testBit (k + j) <;> cases t.testBit (k + j) <;> simp

/-- The exclusive or of the first and the last element of an aligned block of
`2 ^ k` values is `2 ^ k - 1`. -/
theorem xor_block (q k : Nat) : (2 ^ k * q) ^^^ (2 ^ k * q + (2 ^ k - 1)) = 2 ^ k - 1 := by
  have hpos : 0 < 2 ^ k := Nat.two_pow_pos _
  apply Nat.eq_of_testBit_eq
  intro j
  have h1 := Nat.testBit_mul_pow_two_add q (show 0 < 2 ^ k from hpos) j
  have h2 := Nat.testBit_mul_pow_two_add q (show 2 ^ k - 1 < 2 ^ k by omega) j
  rw [Nat.add_zero] at h1
  rw [Nat.testBit_xor, h1, h2, Nat.testBit_two_pow_sub_one]
  by_cases hj : j < k
  · simp [hj]
  · simp [hj]

/-- For a range inside `[0, 2 ^ w - 1]` with `w ≤ 32`, the test of
`TextNode::GetQuickCheckDetails` for a perfect mask and compare holds exactly
when the code units up to `2 ^ w - 1` that agree with the lower bound under
the mask of the range are the code units of the range. -/
theorem range_exact (w from_ to_ : Nat) (hw : w ≤ 32) (hf : from_ < 2 ^ w) (ht : to_ < 2 ^ w) :
    ((from_ ^^^ to_) &&& ((from_ ^^^ to_) + 1) = 0 ∧ from_ + (from_ ^^^ to_) = to_) ↔
    ∀ c, c < 2 ^ w →
      (c &&& not32 (SmearBitsRight (from_ ^^^ to_)) =
          from_ &&& not32 (SmearBitsRight (from_ ^^^ to_)) ↔ from_ ≤ c ∧ c ≤ to_) := by
  have hw32 : (2 : Nat) ^ w ≤ 2 ^ 32 := Nat.pow_le_pow_right (by norm_num) hw
  have hdw : from_ ^^^ to_ < 2 ^ w := Nat.xor_lt_two_pow hf ht
  obtain ⟨k, _, hsm, hdk, hhigh, htop⟩ := SmearBitsRight_form (from_ ^^^ to_) (by omega)
  rw [hsm]
  have hP : 0 < 2 ^ k := Nat.two_pow_pos _
  have hq : from_ / 2 ^ k = to_ / 2 ^ k := xor_high from_ to_ k hhigh
  have hkw : k ≤ w := by
    by_contra hlt
    have h1 := Nat.testBit_implies_ge (htop (by omega))
    have h2 : (2 : Nat) ^ w ≤ 2 ^ (k - 1) := Nat.pow_le_pow_right (by norm_num) (by omega)
    omega
  have hfd := Nat.div_add_mod from_ (2 ^ k)
  have htd := Nat.div_add_mod to_ (2 ^ k)
  have hfm := Nat.mod_lt from_ hP
  have htm := Nat.mod_lt to_ hP
  rw [← hq] at htd
  -- the block of the mask
  have hblock : ∀ c, c < 2 ^ w →
      (c &&& not32 (2 ^ k - 1) = from_ &&& not32 (2 ^ k - 1) ↔
        2 ^ k * (from_ / 2 ^ k) ≤ c ∧ c < 2 ^ k * (from_ / 2 ^ k) + 2 ^ k) := by
    intro c hc
    rw [mask_block k c from_ (by omega) (by omega)]
    have hcd := Nat.div_add_mod c (2 ^ k)
    have hcm := Nat.mod_lt c hP
    constructor
    · intro h
      rw [h] at hcd
      omega
    · rintro ⟨h1, h2⟩
      apply le_antisymm
      · have : c / 2 ^ k < from_ / 2 ^ k + 1 := by
          rw [Nat.div_lt_iff_lt_mul hP]
          rw [Nat.add_mul, Nat.one_mul, Nat.mul_comm]
          exact h2
        omega
      · rw [Nat.le_div_iff_mul_le hP, Nat.mul_comm]
        exact h1
  -- the block ends below `2 ^ w`
  have hend : 2 ^ k * (from_ / 2 ^ k) + 2 ^ k ≤ 2 ^ w := by
    have hsplit : (2 : Nat) ^ w = 2 ^ k * 2 ^ (w - k) := by
      rw [← pow_add]
      congr 1
      omega
    have hlt : from_ / 2 ^ k < 2 ^ (w - k) := by
      rw [Nat.div_lt_iff_lt_mul hP, Nat.mul_comm, ← hsplit]
      exact hf
    calc 2 ^ k * (from_ / 2 ^ k) + 2 ^ k = 2 ^ k * (from_ / 2 ^ k + 1) := by ring
      _ ≤ 2 ^ k * 2 ^ (w - k) := Nat.mul_le_mul_left _ hlt
      _ = 2 ^ w := hsplit.symm
  constructor
  · rintro ⟨hand, hsum⟩
    have hd : from_ ^^^ to_ = 2 ^ k - 1 := by
      by_cases hk0 : k = 0
      · subst hk0
        simp at hdk
        simp [hdk]
      · by_contra hne
        have h1 := Nat.testBit_implies_ge (htop (by omega))
        have hk1 : (2 : Nat) ^ k = 2 ^ (k - 1 + 1) := by
          congr 1
          omega
        have h2 : ((from_ ^^^ to_) + 1).testBit (k - 1) = true :=
          testBit_of_bounds _ _ (by omega) (by rw [← hk1]; omega)
        have h3 := congrArg (fun x => x.testBit (k - 1)) hand
        simp only [Nat.testBit_and, htop (by omega), h2, Nat.zero_testBit] at h3
        exact absurd h3 (by decide)
    intro c hc
    rw [hblock c hc]
    omega
  · intro H
    have hle : from_ ≤ to_ := ((H from_ hf).1 rfl).2
    have hL : 2 ^ k * (from_ / 2 ^ k) < 2 ^ w := by omega
    have h1 := ((H _ hL).1 ((hblock _ hL).2 ⟨le_refl _, by omega⟩)).1
    have hU : 2 ^ k * (from_ / 2 ^ k) + (2 ^ k - 1) < 2 ^ w := by omega
    have h2 := ((H _ hU).1 ((hblock _ hU).2 ⟨by omega, by omega⟩)).2
    have hfrom : from_ = 2 ^ k * (from_ / 2 ^ k) := by omega
    have hto : to_ = 2 ^ k * (from_ / 2 ^ k) + (2 ^ k - 1) := by omega
    have hx : from_ ^^^ to_ = 2 ^ k - 1 := by
      rw [hto]
      nth_rewrite 1 [hfrom]
      exact xor_block _ _
    rw [hx]
    refine ⟨?_, by omega⟩
    rw [Nat.sub_add_cancel hP, Nat.and_comm, Nat.and_pow_two_sub_one_eq_mod, Nat.mod_self]

/-- The character-class branch on a single range that starts at or below
`char_mask` and ends at or below `2 ^ 16 - 1`, from a cleared position. -/
theorem TextNode.GetQuickCheckDetails_class_single (one_byte : Bool) (from_ to_ : Nat)
    (hfrom : from_ ≤ TextNode.char_mask one_byte) (hto : to_ ≤ TextNode.char_mask one_byte) :
    TextNode.GetQuickCheckDetails_class one_byte false [{ from_ := from_, to_ := to_ }]
        QuickCheckDetails.Position.cleared =
      { pos :=
          { mask := not32 (SmearBitsRight (from_ ^^^ to_))
            value := from_ &&& not32 (SmearBitsRight (from_ ^^^ to_))
            determines_perfectly :=
              decide ((from_ ^^^ to_) &&& ((from_ ^^^ to_) + 1) = 0 ∧
                from_ + (from_ ^^^ to_) = to_) }
        cannot_match := false } := by
  have hcm := TextNode.char_mask_le one_byte
  have hf16 : toUc16 from_ = from_ := Nat.mod_eq_of_lt (by omega)
  have ht16 : toUc16 to_ = to_ := Nat.mod_eq_of_lt (by omega)
  have hx : from_ ^^^ to_ < 2 ^ 16 :=
    Nat.xor_lt_two_pow (show from_ < 2 ^ 16 by omega) (show to_ < 2 ^ 16 by omega)
  have hd : u32 (from_ ^^^ to_) = from_ ^^^ to_ := Nat.mod_eq_of_lt (by omega)
  have hd1 : u32 ((from_ ^^^ to_) + 1) = (from_ ^^^ to_) + 1 := Nat.mod_eq_of_lt (by omega)
  have hfd : u32 (from_ + (from_ ^^^ to_)) = from_ + (from_ ^^^ to_) :=
    Nat.mod_eq_of_lt (by omega)
  unfold TextNode.GetQuickCheckDetails_class
  simp only [Bool.false_eq_true, if_false, TextNode.firstRange, if_neg (Nat.not_lt.mpr hfrom),
    hf16, ht16, if_neg (Nat.not_lt.mpr hto), hd, hd1, hfd, List.foldl_nil,
    QuickCheckDetails.Position.cleared]
  by_cases hp : (from_ ^^^ to_) &&& ((from_ ^^^ to_) + 1) = 0 ∧ from_ + (from_ ^^^ to_) = to_
  · simp [hp]
  · simp [hp]

/-- C22: for a non-negated class that consists of the single range
`[from, to]` with `to <= char_mask`, starting from a cleared position,
`TextNode::GetQuickCheckDetails` marks the position `determines_perfectly`
exactly when the code units `c <= char_mask` with `(c & mask) == value` are
precisely those of `[from, to]`. -/
theorem TextNode.GetQuickCheckDetails_class_perfect (one_byte : Bool) (from_ to_ : Nat)
    (hto : to_ ≤ TextNode.char_mask one_byte) :
    (TextNode.GetQuickCheckDetails_class one_byte false [{ from_ := from_, to_ := to_ }]
        QuickCheckDetails.Position.cleared).pos.determines_perfectly = true ↔
      ∀ c, c ≤ TextNode.char_mask one_byte →
        ((TextNode.GetQuickCheckDetails_class one_byte false [{ from_ := from_, to_ := to_ }]
          QuickCheckDetails.Position.cleared).pos.accepts c = true ↔ from_ ≤ c ∧ c ≤ to_) := by
  by_cases hfrom : from_ ≤ TextNode.char_mask one_byte
  · rw [TextNode.GetQuickCheckDetails_class_single one_byte from_ to_ hfrom hto]
    simp only [QuickCheckDetails.Position.accepts, decide_eq_true_eq]
    cases one_byte with
    | true =>
      have h := range_exact 8 from_ to_ (by norm_num)
        (by simp [TextNode.char_mask, String.kMaxOneByteCharCode] at hfrom; omega)
        (by simp [TextNode.char_mask, String.kMaxOneByteCharCode] at hto; omega)
      rw [h]
      constructor
      · intro H c hc
        exact H c (by simp [TextNode.char_mask, String.kMaxOneByteCharCode] at hc; omega)
      · intro H c hc
        exact H c (by simp [TextNode.char_mask, String.kMaxOneByteCharCode]; omega)
    | false =>
      have h := range_exact 16 from_ to_ (by norm_num)
        (by simp [TextNode.char_mask, String.kMaxUtf16CodeUnit] at hfrom; omega)
        (by simp [TextNode.char_mask, String.kMaxUtf16CodeUnit] at hto; omega)
      rw [h]
      constructor
      · intro H c hc
        exact H c (by simp [TextNode.char_mask, String.kMaxUtf16CodeUnit] at hc; omega)
      · intro H c hc
        exact H c (by simp [TextNode.char_mask, String.kMaxUtf16CodeUnit]; omega)
  · have hres : TextNode.GetQuickCheckDetails_class one_byte false
        [{ from_ := from_, to_ := to_ }] QuickCheckDetails.Position.cleared =
        { pos := QuickCheckDetails.Position.cleared, cannot_match := true } := by
      unfold TextNode.GetQuickCheckDetails_class
      simp [TextNode.firstRange, Nat.lt_of_not_le hfrom, QuickCheckDetails.Position.cleared]
    rw [hres]
    constructor
    · intro h
      exact absurd h (by decide)
    · intro H
      have := (H 0 (Nat.zero_le _)).1 (by decide)
      omega

/-- Witness for C22: the one-byte class `[0x60-0x67]` is an aligned block of
eight code units, marked perfect, and its test accepts exactly the block. -/
theorem TextNode.GetQuickCheckDetails_class_perfect_witness :
    (0x67 : Nat) ≤ TextNode.char_mask true ∧
    (TextNode.GetQuickCheckDetails_class true false [{ from_ := 0x60, to_ := 0x67 }]
      QuickCheckDetails.Position.cleared).pos.determines_perfectly = true ∧
    ∀ c, c ≤ TextNode.char_mask true →
      ((TextNode.GetQuickCheckDetails_class true false [{ from_ := 0x60, to_ := 0x67 }]
        QuickCheckDetails.Position.cleared).pos.accepts c = true ↔ 0x60 ≤ c ∧ c ≤ 0x67) :=
  ⟨by decide, by decide,
    (TextNode.GetQuickCheckDetails_class_perfect true 0x60 0x67 (by decide)).1 (by decide)⟩

/-! ## Merging quick-check details -/

/-- Bits of a value truncated to `uc16`. -/
theorem testBit_toUc16 (x i : Nat) : (toUc16 x).testBit i = (decide (i < 16) && x.testBit i) := by
  unfold toUc16
  exact Nat.testBit_mod_two_pow x 16 i

/-- One merged position accepts what either operand accepted, when the
operands' values fit in 16 bits, and is perfect only if both operands were
perfect with the same mask and value. -/
theorem QuickCheckDetails.Merge.step_sound (p q : QuickCheckDetails.Position)
    (hp : p.value < 2 ^ 16) (hq : q.value < 2 ^ 16) :
    (∀ c, p.accepts c = true ∨ q.accepts c = true →
      (QuickCheckDetails.Merge.step p q).1.accepts c = true) ∧
    ((QuickCheckDetails.Merge.step p q).1.determines_perfectly = true →
      p.determines_perfectly = true ∧ q.determines_perfectly = true ∧
      p.mask = q.mask ∧ p.value = q.value) := by
  have hbig : ∀ (x : Nat), x < 2 ^ 16 → ∀ j, 16 ≤ j → x.testBit j = false := by
    intro x hx j hj
    apply Nat.testBit_lt_two_pow
    calc x < 2 ^ 16 := hx
      _ ≤ 2 ^ j := Nat.pow_le_pow_right (by norm_num) hj
  constructor
  · intro c hc
    simp only [QuickCheckDetails.Position.accepts, decide_eq_true_eq,
      QuickCheckDetails.Merge.step] at hc ⊢
    apply Nat.eq_of_testBit_eq
    intro i
    simp only [Nat.testBit_and, Nat.testBit_xor, testBit_not32, testBit_toUc16]
    have hpi := hbig _ hp i
    have hqi := hbig _ hq i
    rcases hc with h | h
    · have hb := congrArg (fun x => x.testBit i) h
      simp only [Nat.testBit_and] at hb
      rw [← hb]
      cases c.testBit i <;> cases p.mask.testBit i <;> cases q.mask.testBit i <;> simp
    · have hb := congrArg (fun x => x.testBit i) h
      simp only [Nat.testBit_and] at hb
      by_cases h16 : i < 16
      · rw [← hb]
        simp only [h16, decide_True, Bool.true_and]
        cases c.testBit i <;> cases p.mask.testBit i <;> cases q.mask.testBit i <;>
          cases p.value.testBit i <;> cases decide (i < 32) <;> simp
      · rw [hpi (by omega)]
        rw [hqi (by omega)] at hb
        revert hb
        cases c.testBit i <;> cases p.mask.testBit i <;> cases q.mask.testBit i <;> simp
  · intro h
    simp only [QuickCheckDetails.Merge.step] at h
    split at h
    · exact absurd h (by decide)
    · rename_i hcond
      simp only [not_or, ne_eq, not_not, Bool.not_eq_false] at hcond
      exact ⟨h, hcond.2.2, hcond.1, hcond.2.1⟩

/-- One iteration keeps the lengths of the position arrays, replaces the
positions at its index by the merged pair and leaves the other indices
alone. -/
theorem QuickCheckDetails.Merge.iteration_at (acc : QuickCheckDetails × QuickCheckDetails)
    (k i : Nat) (h1 : i < acc.1.positions_.length) (h2 : i < acc.2.positions_.length) :
    (QuickCheckDetails.Merge.iteration acc k).1.positions_.length = acc.1.positions_.length ∧
    (QuickCheckDetails.Merge.iteration acc k).2.positions_.length = acc.2.positions_.length ∧
    (QuickCheckDetails.Merge.iteration acc k).1.positions_.getD i QuickCheckDetails.Position.zero =
      (if k = i then
        (QuickCheckDetails.Merge.step (acc.1.positions_.getD i QuickCheckDetails.Position.zero)
          (acc.2.positions_.getD i QuickCheckDetails.Position.zero)).1
      else acc.1.positions_.getD i QuickCheckDetails.Position.zero) ∧
    (QuickCheckDetails.Merge.iteration acc k).2.positions_.getD i QuickCheckDetails.Position.zero =
      (if k = i then
        (QuickCheckDetails.Merge.step (acc.1.positions_.getD i QuickCheckDetails.Position.zero)
          (acc.2.positions_.getD i QuickCheckDetails.Position.zero)).2
      else acc.2.positions_.getD i QuickCheckDetails.Position.zero) := by
  unfold QuickCheckDetails.Merge.iteration
  simp only [List.length_set, List.getD_eq_getElem?_getD, true_and]
  by_cases hk : k = i
  · subst hk
    simp [List.getElem?_set_self, h1, h2]
  · simp [List.getElem?_set_ne, hk]

/-- The loop over distinct indices merges each position of the loop once. -/
theorem QuickCheckDetails.Merge.iterations_at (l : List Nat) (hnd : l.Nodup)
    (acc : QuickCheckDetails × QuickCheckDetails) (i : Nat)
    (h1 : i < acc.1.positions_.length) (h2 : i < acc.2.positions_.length) :
    (l.foldl QuickCheckDetails.Merge.iteration acc).1.positions_.length =
      acc.1.positions_.length ∧
    (l.foldl QuickCheckDetails.Merge.iteration acc).2.positions_.length =
      acc.2.positions_.length ∧
    (l.foldl QuickCheckDetails.Merge.iteration acc).1.positions_.getD i
        QuickCheckDetails.Position.zero =
      (if i ∈ l then
        (QuickCheckDetails.Merge.step (acc.1.positions_.getD i QuickCheckDetails.Position.zero)
          (acc.2.positions_.getD i QuickCheckDetails.Position.zero)).1
      else acc.1.positions_.getD i QuickCheckDetails.Position.zero) ∧
    (l.foldl QuickCheckDetails.Merge.iteration acc).2.positions_.getD i
        QuickCheckDetails.Position.zero =
      (if i ∈ l then
        (QuickCheckDetails.Merge.step (acc.1.positions_.getD i QuickCheckDetails.Position.zero)
          (acc.2.positions_.getD i QuickCheckDetails.Position.zero)).2
      else acc.2.positions_.getD i QuickCheckDetails.Position.zero) := by
  induction l generalizing acc with
  | nil => simp
  | cons k l ih =>
    obtain ⟨hk, hnd'⟩ := List.nodup_cons.mp hnd
    obtain ⟨e1, e2, e3, e4⟩ := QuickCheckDetails.Merge.iteration_at acc k i h1 h2
    obtain ⟨f1, f2, f3, f4⟩ := ih hnd' (QuickCheckDetails.Merge.iteration acc k)
      (by rw [e1]; exact h1) (by rw [e2]; exact h2)
    rw [List.foldl_cons]
    refine ⟨by rw [f1, e1], by rw [f2, e2], ?_, ?_⟩
    · rw [f3, e3, e4]
      by_cases hki : k = i
      · subst hki
        simp [hk]
      · have : ¬ i = k := fun h => hki h.symm
        simp [hki, this]
    · rw [f4, e3, e4]
      by_cases hki : k = i
      · subst hki
        simp [hk]
      · have : ¬ i = k := fun h => hki h.symm
        simp [hki, this]

/-- C23: for two quick-check details, neither marked `cannot_match`, and an
index `i` with `from_index <= i < characters_` of the position arrays at
which the values of both operands fit in 16 bits: after
`QuickCheckDetails::Merge(other, from_index)` the position `i` of the
receiver accepts every code unit that the original test of either operand
at `i` accepted, and it is marked `determines_perfectly` only if both
operands were so marked with identical mask and value.  (The equality of
the character counts, asserted by the source, is not needed.) -/
theorem QuickCheckDetails.Merge_sound (this other : QuickCheckDetails) (from_index : Int)
    (hc1 : this.cannot_match_ = false) (hc2 : other.cannot_match_ = false) (i : Nat)
    (hfrom : from_index ≤ (i : Int)) (hi : (i : Int) < this.characters_)
    (hl1 : i < this.positions_.length) (hl2 : i < other.positions_.length)
    (hv1 : (this.positions_.getD i QuickCheckDetails.Position.zero).value < 2 ^ 16)
    (hv2 : (other.positions_.getD i QuickCheckDetails.Position.zero).value < 2 ^ 16) :
    (∀ c, (this.positions_.getD i QuickCheckDetails.Position.zero).accepts c = true ∨
        (other.positions_.getD i QuickCheckDetails.Position.zero).accepts c = true →
      ((this.Merge other from_index).1.positions_.getD i
        QuickCheckDetails.Position.zero).accepts c = true) ∧
    (((this.Merge other from_index).1.positions_.getD i
        QuickCheckDetails.Position.zero).determines_perfectly = true →
      (this.positions_.getD i QuickCheckDetails.Position.zero).determines_perfectly = true ∧
      (other.positions_.getD i QuickCheckDetails.Position.zero).determines_perfectly = true ∧
      (this.positions_.getD i QuickCheckDetails.Position.zero).mask =
        (other.positions_.getD i QuickCheckDetails.Position.zero).mask ∧
      (this.positions_.getD i QuickCheckDetails.Position.zero).value =
        (other.positions_.getD i QuickCheckDetails.Position.zero).value) := by
  have hmem : i ∈ (List.range this.characters_.toNat).filter
      (fun (i : Nat) => decide (from_index ≤ (i : Int))) := by
    rw [List.mem_filter, List.mem_range]
    exact ⟨by omega, by simpa using hfrom⟩
  have hnd : ((List.range this.characters_.toNat).filter
      (fun (i : Nat) => decide (from_index ≤ (i : Int)))).Nodup :=
    List.Nodup.filter _ (List.nodup_range _)
  have hat := (QuickCheckDetails.Merge.iterations_at _ hnd (this, other) i hl1 hl2).2.2.1
  rw [if_pos hmem] at hat
  have hm : (this.Merge other from_index).1.positions_.getD i QuickCheckDetails.Position.zero =
      (QuickCheckDetails.Merge.step (this.positions_.getD i QuickCheckDetails.Position.zero)
        (other.positions_.getD i QuickCheckDetails.Position.zero)).1 := by
    unfold QuickCheckDetails.Merge
    rw [hc1, hc2]
    exact hat
  rw [hm]
  exact QuickCheckDetails.Merge.step_sound _ _ hv1 hv2

/-- Witness for C23: the details of `[a-d]x` merged with those of `qx`
from index `0`, at index `0`. -/
theorem QuickCheckDetails.Merge_sound_witness :
    QuickCheckDetails.exampleLeft.cannot_match_ = false ∧
    QuickCheckDetails.exampleRight.cannot_match_ = false ∧
    (QuickCheckDetails.exampleLeft.Merge QuickCheckDetails.exampleRight 0).1.positions_.getD 0
      QuickCheckDetails.Position.zero =
      { mask := 0xE8, value := 0x60, determines_perfectly := false } ∧
    ((QuickCheckDetails.exampleLeft.Merge QuickCheckDetails.exampleRight 0).1.positions_.getD 0
      QuickCheckDetails.Position.zero).accepts 0x71 = true :=
  ⟨rfl, rfl, by decide,
    (QuickCheckDetails.Merge_sound QuickCheckDetails.exampleLeft QuickCheckDetails.exampleRight 0
      rfl rfl 0 (by decide) (by decide) (by decide) (by decide) (by decide) (by decide)).1 0x71
      (Or.inr (by decide))⟩

/-! ## Quick check of an ignore-case atom character -/

/-- Merging a further letter keeps the value inside the mask, keeps the mask
inside the old mask, keeps accepting what was accepted and accepts the new
letter. -/
theorem TextNode.mergeLetter_inv (common bits letter : Nat) (hb : bits &&& common = bits) :
    (TextNode.mergeLetter (common, bits) letter).2 &&&
        (TextNode.mergeLetter (common, bits) letter).1 =
      (TextNode.mergeLetter (common, bits) letter).2 ∧
    (TextNode.mergeLetter (common, bits) letter).1 &&& common =
      (TextNode.mergeLetter (common, bits) letter).1 ∧
    (∀ x, x &&& common = bits →
      x &&& (TextNode.mergeLetter (common, bits) letter).1 =
        (TextNode.mergeLetter (common, bits) letter).2) ∧
    u32 letter &&& (TextNode.mergeLetter (common, bits) letter).1 =
      (TextNode.mergeLetter (common, bits) letter).2 := by
  simp only [TextNode.mergeLetter]
  refine ⟨?_, ?_, ?_, ?_⟩
  · rw [Nat.and_assoc, Nat.and_self]
  · apply Nat.eq_of_testBit_eq
    intro i
    have h' := congrArg (fun x => x.testBit i) hb
    simp only [Nat.testBit_and, Nat.testBit_xor] at h' ⊢
    revert h'
    cases common.testBit i <;> cases bits.testBit i <;> cases (u32 letter).testBit i <;> simp
  · intro x hx
    apply Nat.eq_of_testBit_eq
    intro i
    have h := congrArg (fun x => x.testBit i) hx
    simp only [Nat.testBit_and, Nat.testBit_xor] at h ⊢
    rw [← h]
    cases x.testBit i <;> cases common.testBit i <;> cases (u32 letter).testBit i <;> rfl
  · apply Nat.eq_of_testBit_eq
    intro i
    have h' := congrArg (fun x => x.testBit i) hb
    simp only [Nat.testBit_and, Nat.testBit_xor] at h' ⊢
    revert h'
    cases common.testBit i <;> cases bits.testBit i <;> cases (u32 letter).testBit i <;> simp

/-- The loop over the letters keeps the value inside the mask and the mask
inside the initial mask, keeps accepting what was accepted and accepts every
letter of the loop. -/
theorem TextNode.mergeLetter_foldl (letters : List Nat) (common bits : Nat)
    (hb : bits &&& common = bits) :
    (letters.foldl TextNode.mergeLetter (common, bits)).2 &&&
        (letters.foldl TextNode.mergeLetter (common, bits)).1 =
      (letters.foldl TextNode.mergeLetter (common, bits)).2 ∧
    (letters.foldl TextNode.mergeLetter (common, bits)).1 &&& common =
      (letters.foldl TextNode.mergeLetter (common, bits)).1 ∧
    (∀ x, x &&& common = bits →
      x &&& (letters.foldl TextNode.mergeLetter (common, bits)).1 =
        (letters.foldl TextNode.mergeLetter (common, bits)).2) ∧
    ∀ letter ∈ letters, u32 letter &&& (letters.foldl TextNode.mergeLetter (common, bits)).1 =
      (letters.foldl TextNode.mergeLetter (common, bits)).2 := by
  induction letters generalizing common bits with
  | nil => exact ⟨hb, Nat.and_self _, fun x hx => hx, fun l hl => by simp at hl⟩
  | cons l rest ih =>
    obtain ⟨s1, s2, s3, s4⟩ := TextNode.mergeLetter_inv common bits l hb
    obtain ⟨r1, r2, r3, r4⟩ := ih _ _ s1
    rw [List.foldl_cons]
    refine ⟨r1, ?_, fun x hx => r3 x (s3 x hx), ?_⟩
    · rw [← r2, Nat.and_assoc, s2]
    · intro letter hl
      rcases List.mem_cons.1 hl with h | h
      · subst h
        exact r3 _ s4
      · exact r4 letter h

/-- Two values below `2 ^ w` that differ in the single bit `k`: the mask with
that bit removed from `2 ^ w - 1` has exactly one zero below `2 ^ w`, and a
value below `2 ^ w` agrees with the first one under the mask exactly when it
is one of the two. -/
theorem single_bit_pair (w a b k : Nat) (hw : w ≤ 32) (ha : a < 2 ^ w) (hb : b < 2 ^ w)
    (hx : a ^^^ b = 2 ^ k) :
    k < w ∧
    not32 (((2 ^ w - 1) ^^^ 2 ^ k) ||| not32 (2 ^ w - 1)) = 2 ^ k ∧
    2 ^ k &&& u32 (2 ^ k + (2 ^ 32 - 1)) = 0 ∧
    ∀ x, x < 2 ^ w →
      (x &&& ((2 ^ w - 1) ^^^ 2 ^ k) = a &&& ((2 ^ w - 1) ^^^ 2 ^ k) ↔ x = a ∨ x = b) := by
  have hkw : k < w := by
    by_contra hge
    have h1 : a ^^^ b < 2 ^ w := Nat.xor_lt_two_pow ha hb
    have h2 : (2 : Nat) ^ w ≤ 2 ^ k := Nat.pow_le_pow_right (by norm_num) (by omega)
    omega
  have hbig : ∀ (y : Nat), y < 2 ^ w → ∀ j, w ≤ j → y.testBit j = false := by
    intro y hy j hj
    apply Nat.testBit_lt_two_pow
    calc y < 2 ^ w := hy
      _ ≤ 2 ^ j := Nat.pow_le_pow_right (by norm_num) hj
  have hbit : ∀ i, (a.testBit i ^^ b.testBit i) = decide (k = i) := by
    intro i
    have := congrArg (fun x => x.testBit i) hx
    simpa only [Nat.testBit_xor, Nat.testBit_two_pow] using this
  refine ⟨hkw, ?_, ?_, ?_⟩
  · apply Nat.eq_of_testBit_eq
    intro i
    simp only [testBit_not32, Nat.testBit_or, Nat.testBit_xor, Nat.testBit_two_pow_sub_one,
      Nat.testBit_two_pow]
    by_cases hki : k = i
    · subst hki
      have h32 : k < 32 := by omega
      simp [hkw, h32]
    · by_cases hiw : i < w
      · have h32 : i < 32 := by omega
        simp [hki, hiw, h32]
      · by_cases h32 : i < 32
        · simp [hki, hiw, h32]
        · simp [hki, hiw, h32]
  · have hk32 : (2 : Nat) ^ k < 2 ^ 32 := Nat.pow_lt_pow_right (by norm_num) (by omega)
    have hpos : 0 < 2 ^ k := Nat.two_pow_pos _
    have hu : u32 (2 ^ k + (2 ^ 32 - 1)) = 2 ^ k - 1 := by
      unfold u32
      omega
    rw [hu, Nat.and_pow_two_sub_one_eq_mod, Nat.mod_self]
  · intro x hxw
    constructor
    · intro H
      have Hbit : ∀ i, i ≠ k → x.testBit i = a.testBit i := by
        intro i hik
        by_cases hiw : i < w
        · have := congrArg (fun y => y.testBit i) H
          simp only [Nat.testBit_and, Nat.testBit_xor, Nat.testBit_two_pow_sub_one,
            Nat.testBit_two_pow] at this
          have hki : ¬ k = i := fun h => hik h.symm
          simpa [hiw, hki] using this
        · rw [hbig x hxw i (by omega), hbig a ha i (by omega)]
      by_cases hk : x.testBit k = a.testBit k
      · left
        apply Nat.eq_of_testBit_eq
        intro i
        by_cases hik : i = k
        · subst hik; exact hk
        · exact Hbit i hik
      · right
        apply Nat.eq_of_testBit_eq
        intro i
        have hb' := hbit i
        by_cases hik : i = k
        · subst hik
          simp only [decide_True] at hb'
          revert hk hb'
          cases x.testBit i <;> cases a.testBit i <;> cases b.testBit i <;> simp
        · have hki : ¬ k = i := fun h => hik h.symm
          rw [Hbit i hik]
          simp only [hki, decide_False] at hb'
          revert hb'
          cases a.testBit i <;> cases b.testBit i <;> simp
    · rintro (h | h)
      · rw [h]
      · subst h
        apply Nat.eq_of_testBit_eq
        intro i
        have hb' := hbit i
        simp only [Nat.testBit_and, Nat.testBit_xor, Nat.testBit_two_pow_sub_one,
          Nat.testBit_two_pow]
        by_cases hki : k = i
        · subst hki
          simp [hkw]
        · simp only [hki, decide_False] at hb' ⊢
          revert hb'
          cases a.testBit i <;> cases x.testBit i <;> simp

/-- The mask and the value of an ignore-case atom character with at least
two letters, all up to `2 ^ w - 1 = char_mask`. -/
theorem TextNode.GetQuickCheckDetails_atom_pow (w : Nat) (hw : w ≤ 32) (one_byte : Bool)
    (hcm : TextNode.char_mask one_byte = 2 ^ w - 1)
    (chars : List Nat) (c : Nat) (pos : QuickCheckDetails.Position)
    (hlen : 2 ≤ chars.length) (hle : ∀ ch ∈ chars, ch ≤ TextNode.char_mask one_byte) :
    (∀ ch ∈ chars,
      (TextNode.GetQuickCheckDetails_atom one_byte true chars c pos).pos.accepts ch = true) ∧
    (∀ a b k, chars = [a, b] → a ^^^ b = 2 ^ k →
      (TextNode.GetQuickCheckDetails_atom one_byte true chars c
        pos).pos.determines_perfectly = true ∧
      ∀ x, x ≤ TextNode.char_mask one_byte →
        ((TextNode.GetQuickCheckDetails_atom one_byte true chars c pos).pos.accepts x = true ↔
          x = a ∨ x = b)) := by
  have hpos : 0 < 2 ^ w := Nat.two_pow_pos _
  have hw32 : (2 : Nat) ^ w ≤ 2 ^ 32 := Nat.pow_le_pow_right (by norm_num) hw
  rw [hcm] at hle
  have hlt : ∀ ch ∈ chars, ch < 2 ^ w := fun ch h => by have := hle ch h; omega
  have hu : ∀ ch ∈ chars, u32 ch = ch := fun ch h =>
    Nat.mod_eq_of_lt (by have := hlt ch h; omega)
  have hin : ∀ ch ∈ chars, ch &&& (2 ^ w - 1) = ch := fun ch h => by
    rw [Nat.and_pow_two_sub_one_eq_mod]
    exact Nat.mod_eq_of_lt (hlt ch h)
  match chars, hlen, hlt, hu, hin with
  | first :: second :: rest, _, hlt, hu, hin =>
    have hf := hu first (by simp)
    obtain ⟨r1, r2, r3, r4⟩ := TextNode.mergeLetter_foldl (second :: rest) (2 ^ w - 1) first
      (hin first (by simp))
    constructor
    · intro ch hch
      simp only [TextNode.GetQuickCheckDetails_atom, if_true, hcm, hf,
        QuickCheckDetails.Position.accepts, decide_eq_true_eq]
      rcases List.mem_cons.1 hch with h | h
      · subst h
        exact r3 _ (hin _ (by simp))
      · have := r4 ch h
        rw [hu ch (by simp [List.mem_cons.1 h])] at this
        exact this
    · intro a b k hab hx
      injection hab with e1 e2
      injection e2 with e2 e3
      subst e1 e2 e3
      obtain ⟨_, p2, p3, p4⟩ := single_bit_pair w first second k hw (hlt _ (by simp))
        (hlt _ (by simp)) hx
      have hacc : [second].foldl TextNode.mergeLetter (2 ^ w - 1, first) =
          ((2 ^ w - 1) ^^^ 2 ^ k, first &&& ((2 ^ w - 1) ^^^ 2 ^ k)) := by
        simp only [List.foldl_cons, List.foldl_nil, TextNode.mergeLetter,
          hu second (by simp), hin second (by simp)]
        rw [Nat.xor_comm second first, hx]
      simp only [TextNode.GetQuickCheckDetails_atom, if_true, hcm, hf, hacc, p2, p3,
        List.length_cons, List.length_nil, QuickCheckDetails.Position.accepts,
        decide_eq_true_eq]
      refine ⟨by simp, ?_⟩
      intro x hxle
      exact p4 x (by omega)

/-- C24: for an ignore-case atom character whose case-equivalence set (the
letters `GetCaseIndependentLetters` returns) has two or more letters, each
`<= char_mask`, the mask and value that `TextNode::GetQuickCheckDetails`
computes satisfy `(ch & mask) == value` for every letter `ch` of the set;
and when the set has exactly two letters that differ in a single bit, the
position is marked `determines_perfectly` and the test accepts exactly those
two letters among the code units `<= char_mask`. -/
theorem TextNode.GetQuickCheckDetails_atom_letters (one_byte : Bool)
    (chars : List Nat) (c : Nat) (pos : QuickCheckDetails.Position)
    (hlen : 2 ≤ chars.length) (hle : ∀ ch ∈ chars, ch ≤ TextNode.char_mask one_byte) :
    (∀ ch ∈ chars,
      (TextNode.GetQuickCheckDetails_atom one_byte true chars c pos).pos.accepts ch = true) ∧
    (∀ a b k, chars = [a, b] → a ^^^ b = 2 ^ k →
      (TextNode.GetQuickCheckDetails_atom one_byte true chars c
        pos).pos.determines_perfectly = true ∧
      ∀ x, x ≤ TextNode.char_mask one_byte →
        ((TextNode.GetQuickCheckDetails_atom one_byte true chars c pos).pos.accepts x = true ↔
          x = a ∨ x = b)) := by
  cases one_byte with
  | true => exact TextNode.GetQuickCheckDetails_atom_pow 8 (by norm_num) true rfl chars c pos hlen hle
  | false =>
    exact TextNode.GetQuickCheckDetails_atom_pow 16 (by norm_num) false rfl chars c pos hlen hle

/-- Witness for C24: the letters `A` and `a` of a one-byte subject differ in
bit 5; the position is perfect with mask `0xDF` and value `0x41`. -/
theorem TextNode.GetQuickCheckDetails_atom_letters_witness :
    (TextNode.GetQuickCheckDetails_atom true true [0x41, 0x61] 0x61
      QuickCheckDetails.Position.cleared).pos =
      { mask := 0xDF, value := 0x41, determines_perfectly := true } ∧
    ∀ x, x ≤ TextNode.char_mask true →
      ((TextNode.GetQuickCheckDetails_atom true true [0x41, 0x61] 0x61
        QuickCheckDetails.Position.cleared).pos.accepts x = true ↔ x = 0x41 ∨ x = 0x61) :=
  ⟨by decide,
    ((TextNode.GetQuickCheckDetails_atom_letters true [0x41, 0x61] 0x61
      QuickCheckDetails.Position.cleared (by decide) (by decide)).2 0x41 0x61 5 rfl
      (by decide)).2⟩

/-! ## Undo information of the deferred actions -/

/-- The test of one bit by a mask with that bit alone. -/
theorem and_two_pow_ne_zero (x w : Nat) : (x &&& 2 ^ w != 0) = x.testBit w := by
  rw [Nat.and_two_pow]
  have hpos : 0 < 2 ^ w := Nat.two_pow_pos _
  cases x.testBit w with
  | false => simp
  | true =>
    simp only [Bool.toNat_true, Nat.one_mul]
    simp

/-- The bit of a value below `kFirstLimit`. -/
theorem OutSet.bit_eq (v : Nat) (hv : v < OutSet.kFirstLimit) : u32 (1 <<< v) = 2 ^ v := by
  rw [Nat.one_shiftLeft]
  have : (2 : Nat) ^ v < 2 ^ 32 := Nat.pow_lt_pow_right (by norm_num) hv
  exact Nat.mod_eq_of_lt this

/-- Membership after `OutSet::Set`. -/
theorem OutSet.Get_Set (s : OutSet) (v w : Nat) :
    (s.Set v).Get w = (decide (v = w) || s.Get w) := by
  unfold OutSet.Set OutSet.Get
  by_cases hv : v < OutSet.kFirstLimit
  · by_cases hw : w < OutSet.kFirstLimit
    · simp only [hv, hw, if_true]
      rw [OutSet.bit_eq v hv, OutSet.bit_eq w hw, and_two_pow_ne_zero, and_two_pow_ne_zero,
        Nat.testBit_or, Nat.testBit_two_pow, Bool.or_comm]
    · have hne : ¬ v = w := fun h => hw (h ▸ hv)
      simp [hv, hw, hne]
  · by_cases hw : w < OutSet.kFirstLimit
    · have hne : ¬ v = w := fun h => hv (h ▸ hw)
      simp only [hv, hw, if_true, if_false, hne, decide_False, Bool.false_or]
      split <;> rfl
    · simp only [hv, hw, if_false]
      split
      · by_cases hvw : v = w
        · subst hvw
          simp
        · have : ¬ w = v := fun h => hvw h.symm
          simp [hvw, this]
      · rename_i hcond
        by_cases hvw : v = w
        · subst hvw
          simp only [Bool.or_eq_true, Bool.not_eq_true', not_or, Bool.not_eq_false] at hcond
          have hmem : v ∈ s.remaining_ := by
            have := hcond.2
            simpa using this
          simp [hmem]
        · simp [hvw]

/-- The empty set has no member. -/
theorem OutSet.Get_empty (w : Nat) : OutSet.empty.Get w = false := by
  unfold OutSet.Get OutSet.empty
  split <;> simp

/-- An action that mentions the register sets the undo kind of the scan to
the kind that the specification assigns to it. -/
theorem Trace.scanAction_undo (n : Nat) (st : Trace.RegisterScan) (a : Trace.DeferredAction)
    (h : a.Mentions (n : Int) = true) :
    (Trace.scanAction (n : Int) st a).undo_action = Trace.undoOfOldest n a := by
  unfold Trace.scanAction
  rw [if_pos h]
  cases a with
  | DeferredSetRegister reg value => rfl
  | DeferredIncrementRegister reg => rfl
  | DeferredClearCaptures range => rfl
  | DeferredCapture reg is_capture cp_offset =>
    simp only [Trace.undoOfOldest]
    by_cases h1 : (n : Int) ≤ 1
    · have h2 : n = 0 ∨ n = 1 := by omega
      simp only [h1, h2, if_true]
    · have h2 : ¬ (n = 0 ∨ n = 1) := by omega
      simp only [h1, h2, if_false]

/-- The undo kind at the end of a scan is the one of the last action of the
list that mentions the register, or the initial one when no action does. -/
theorem Trace.scan_undo (actions : List Trace.DeferredAction) (n : Nat)
    (st : Trace.RegisterScan) :
    (actions.foldl (Trace.scanAction (n : Int)) st).undo_action =
      match (actions.filter (fun a => a.Mentions (n : Int))).getLast? with
      | none => st.undo_action
      | some a => Trace.undoOfOldest n a := by
  induction actions generalizing st with
  | nil => rfl
  | cons a rest ih =>
    rw [List.foldl_cons, ih]
    by_cases hm : a.Mentions (n : Int) = true
    · simp only [List.filter_cons, hm, if_true]
      cases hf : rest.filter (fun a => a.Mentions (n : Int)) with
      | nil => simp [Trace.scanAction_undo n st a hm]
      | cons b l =>
        cases hl : (a :: b :: l).getLast? with
        | none => simp at hl
        | some x =>
          rw [List.getLast?_cons_cons] at hl
          rw [hl]
    · have : Trace.scanAction (n : Int) st a = st := by
        unfold Trace.scanAction
        rw [if_neg hm]
      rw [this]
      simp [List.filter_cons, hm]

/-- The undo kind of a register that some action mentions is the one of the
oldest such action. -/
theorem Trace.scanRegister_undo (actions : List Trace.DeferredAction) (n : Nat)
    (oldest : Trace.DeferredAction) (h : Trace.oldestMention actions (n : Int) = some oldest) :
    (Trace.scanRegister actions (n : Int)).undo_action = Trace.undoOfOldest n oldest := by
  unfold Trace.scanRegister
  rw [Trace.scan_undo]
  unfold Trace.oldestMention at h
  rw [h]

/-- The operation for the last action of a register is no push. -/
theorem Trace.lastActionOps_pushed (reg : Int) (scan : Trace.RegisterScan) :
    MacroOp.pushed (Trace.lastActionOps reg scan) = [] ∧
    MacroOp.pushFlags (Trace.lastActionOps reg scan) = [] := by
  unfold Trace.lastActionOps
  split
  · exact ⟨rfl, rfl⟩
  · split
    · exact ⟨rfl, rfl⟩
    · split
      · exact ⟨rfl, rfl⟩
      · split
        · exact ⟨rfl, rfl⟩
        · exact ⟨rfl, rfl⟩

/-- The pushes of a concatenation. -/
theorem MacroOp.pushed_append (a b : List MacroOp) :
    MacroOp.pushed (a ++ b) = MacroOp.pushed a ++ MacroOp.pushed b := by
  unfold MacroOp.pushed
  exact List.filterMap_append _ _ _

/-- One round of the register loop: the code it appends pushes the register
exactly when the register is affected and its undo kind is `RESTORE`, the
register goes to `registers_to_pop` in that case and to `registers_to_clear`
when the kind is `CLEAR`; at run time the push saves the register's value and
no other register changes. -/
theorem Trace.performRegister_undo (actions : List Trace.DeferredAction) (push_limit : Int)
    (affected : OutSet) (st : Trace.PerformState) (reg : Nat) :
    ∃ tail, (Trace.performRegister actions push_limit affected st reg).ops = st.ops ++ tail ∧
      MacroOp.pushed tail =
        (if affected.Get reg = true ∧ (Trace.scanRegister actions reg).undo_action = .RESTORE
          then [(reg : Int)] else []) ∧
      (Trace.performRegister actions push_limit affected st reg).registers_to_pop =
        (if affected.Get reg = true ∧ (Trace.scanRegister actions reg).undo_action = .RESTORE
          then st.registers_to_pop.Set reg else st.registers_to_pop) ∧
      (Trace.performRegister actions push_limit affected st reg).registers_to_clear =
        (if affected.Get reg = true ∧ (Trace.scanRegister actions reg).undo_action = .CLEAR
          then st.registers_to_clear.Set reg else st.registers_to_clear) ∧
      ∀ m, (MacroOp.run tail m).stack =
          (if affected.Get reg = true ∧ (Trace.scanRegister actions reg).undo_action = .RESTORE
            then [m.registers reg] else []) ++ m.stack ∧
        ∀ r, r ≠ (reg : Int) → (MacroOp.run tail m).registers r = m.registers r := by
  unfold Trace.performRegister
  by_cases haff : affected.Get reg = true
  · simp only [haff, Bool.not_true, Bool.false_eq_true, if_false, true_and]
    have hlast := Trace.lastActionOps_run reg (Trace.scanRegister actions reg)
    have hlp := (Trace.lastActionOps_pushed reg (Trace.scanRegister actions reg)).1
    have hplain : ∀ m, (MacroOp.run (Trace.lastActionOps reg (Trace.scanRegister actions reg))
          m).stack = [] ++ m.stack ∧
        ∀ r, r ≠ (reg : Int) →
          (MacroOp.run (Trace.lastActionOps reg (Trace.scanRegister actions reg)) m).registers r
            = m.registers r := by
      intro m
      refine ⟨(hlast m).2.1, fun r hr => ?_⟩
      rw [(hlast m).2.2 r, if_neg hr]
    have hpush : ∀ flag m, (MacroOp.run ([MacroOp.PushRegister reg flag] ++
          Trace.lastActionOps reg (Trace.scanRegister actions reg)) m).stack =
          [m.registers reg] ++ m.stack ∧
        ∀ r, r ≠ (reg : Int) →
          (MacroOp.run ([MacroOp.PushRegister reg flag] ++
            Trace.lastActionOps reg (Trace.scanRegister actions reg)) m).registers r
            = m.registers r := by
      intro flag m
      rw [MacroOp.run_append]
      refine ⟨?_, fun r hr => ?_⟩
      · rw [(hlast _).2.1]
        rfl
      · rw [(hlast _).2.2 r, if_neg hr]
        rfl
    cases hu : (Trace.scanRegister actions reg).undo_action with
    | IGNORE =>
      exact ⟨Trace.lastActionOps reg (Trace.scanRegister actions reg), rfl, by simpa using hlp,
        by simp, by simp, by simpa using hplain⟩
    | CLEAR =>
      exact ⟨Trace.lastActionOps reg (Trace.scanRegister actions reg), rfl, by simpa using hlp,
        by simp, by simp, by simpa using hplain⟩
    | RESTORE =>
      by_cases hp : st.pushes + 1 = push_limit
      · simp only [hp, if_true]
        refine ⟨[MacroOp.PushRegister reg .kCheckStackLimit] ++
          Trace.lastActionOps reg (Trace.scanRegister actions reg), by simp, ?_, by simp,
          by simp, by simpa using hpush _⟩
        rw [MacroOp.pushed_append, hlp]
        rfl
      · simp only [hp, if_false]
        refine ⟨[MacroOp.PushRegister reg .kNoStackLimitCheck] ++
          Trace.lastActionOps reg (Trace.scanRegister actions reg), by simp, ?_, by simp,
          by simp, by simpa using hpush _⟩
        rw [MacroOp.pushed_append, hlp]
        rfl
  · simp only [haff, Bool.not_false, if_true, false_and, if_false]
    exact ⟨[], by simp, rfl, rfl, rfl, fun m => ⟨rfl, fun r _ => rfl⟩⟩

/-- The register loop over distinct registers: the code it appends pushes,
in the order of the loop, the affected registers whose undo kind is
`RESTORE`; these are the registers added to `registers_to_pop`, and the
affected registers of kind `CLEAR` are the ones added to
`registers_to_clear`.  At run time the backtrack stack receives the values
that the pushed registers had before the code, the last push on top, and
the registers outside the loop keep their values. -/
theorem Trace.performRegisters_undo (actions : List Trace.DeferredAction) (push_limit : Int)
    (affected : OutSet) (regs : List Nat) (hnodup : regs.Nodup) (st : Trace.PerformState) :
    ∃ tail, (regs.foldl (Trace.performRegister actions push_limit affected) st).ops
        = st.ops ++ tail ∧
      MacroOp.pushed tail =
        (regs.filter (fun r => affected.Get r &&
          decide ((Trace.scanRegister actions r).undo_action = .RESTORE))).map
          (fun (r : Nat) => (r : Int)) ∧
      (∀ w, (regs.foldl (Trace.performRegister actions push_limit affected) st).registers_to_pop.Get
          w = (st.registers_to_pop.Get w || (decide (w ∈ regs) && (affected.Get w &&
            decide ((Trace.scanRegister actions w).undo_action = .RESTORE))))) ∧
      (∀ w, (regs.foldl (Trace.performRegister actions push_limit
          affected) st).registers_to_clear.Get
          w = (st.registers_to_clear.Get w || (decide (w ∈ regs) && (affected.Get w &&
            decide ((Trace.scanRegister actions w).undo_action = .CLEAR))))) ∧
      ∀ m, (MacroOp.run tail m).stack =
          (MacroOp.pushed tail).reverse.map m.registers ++ m.stack ∧
        ∀ r, (∀ n ∈ regs, r ≠ (n : Int)) → (MacroOp.run tail m).registers r = m.registers r := by
  induction regs generalizing st with
  | nil => exact ⟨[], by simp, rfl, by simp, by simp, fun m => ⟨rfl, fun r _ => rfl⟩⟩
  | cons k regs ih =>
    obtain ⟨hk, hnd⟩ := List.nodup_cons.mp hnodup
    obtain ⟨t1, ht1, hp1, hpop1, hclr1, hrun1⟩ :=
      Trace.performRegister_undo actions push_limit affected st k
    obtain ⟨t2, ht2, hp2, hpop2, hclr2, hrun2⟩ :=
      ih hnd (Trace.performRegister actions push_limit affected st k)
    have hp12 : MacroOp.pushed (t1 ++ t2) =
        ((k :: regs).filter (fun r => affected.Get r &&
          decide ((Trace.scanRegister actions r).undo_action = .RESTORE))).map
          (fun (r : Nat) => (r : Int)) := by
      rw [MacroOp.pushed_append, hp1, hp2, List.filter_cons]
      by_cases hc : affected.Get k = true ∧ (Trace.scanRegister actions k).undo_action = .RESTORE
      · simp [hc.1, hc.2]
      · rw [if_neg hc]
        have : (affected.Get k &&
            decide ((Trace.scanRegister actions k).undo_action = .RESTORE)) = false := by
          simpa using hc
        simp [this]
    refine ⟨t1 ++ t2, by simp [List.foldl_cons, ht2, ht1], hp12, ?_, ?_, ?_⟩
    · intro w
      rw [List.foldl_cons, hpop2 w, hpop1]
      by_cases hc : affected.Get k = true ∧ (Trace.scanRegister actions k).undo_action = .RESTORE
      · rw [if_pos hc, OutSet.Get_Set]
        by_cases hkw : k = w
        · subst hkw
          simp [hc.1, hc.2]
        · have : ¬ w = k := fun h => hkw h.symm
          simp [hkw, this]
      · rw [if_neg hc]
        by_cases hkw : w = k
        · subst hkw
          have : (affected.Get w &&
              decide ((Trace.scanRegister actions w).undo_action = .RESTORE)) = false := by
            simpa using hc
          simp [this]
        · simp [hkw]
    · intro w
      rw [List.foldl_cons, hclr2 w, hclr1]
      by_cases hc : affected.Get k = true ∧ (Trace.scanRegister actions k).undo_action = .CLEAR
      · rw [if_pos hc, OutSet.Get_Set]
        by_cases hkw : k = w
        · subst hkw
          simp [hc.1, hc.2]
        · have : ¬ w = k := fun h => hkw h.symm
          simp [hkw, this]
      · rw [if_neg hc]
        by_cases hkw : w = k
        · subst hkw
          have : (affected.Get w &&
              decide ((Trace.scanRegister actions w).undo_action = .CLEAR)) = false := by
            simpa using hc
          simp [this]
        · simp [hkw]
    · intro m
      rw [MacroOp.run_append]
      refine ⟨?_, fun r hr => ?_⟩
      · rw [(hrun2 _).1, (hrun1 m).1, MacroOp.pushed_append, List.reverse_append,
          List.map_append, List.append_assoc]
        congr 1
        · apply List.map_congr_left
          intro r hr
          have hr' := List.mem_reverse.1 hr
          rw [hp2] at hr'
          obtain ⟨n, hn, hnr⟩ := List.mem_map.1 hr'
          subst hnr
          have hn' : n ∈ regs := (List.mem_filter.1 hn).1
          exact (hrun1 m).2 _ (fun h => hk (by
            have : n = k := by exact_mod_cast h
            exact this ▸ hn'))
        · rw [hp1]
          by_cases hc : affected.Get k = true ∧
              (Trace.scanRegister actions k).undo_action = .RESTORE
          · rw [if_pos hc, if_pos hc]
            rfl
          · rw [if_neg hc, if_neg hc]
            rfl
      · rw [(hrun2 _).2 r (fun n hn => hr n (List.mem_cons_of_mem _ hn)),
          (hrun1 m).2 r (hr k (List.mem_cons_self _ _))]

/-- The whole of `PerformDeferredActions`, started with empty output sets:
the pushes, the two output sets, and the effect of the code on the stack. -/
theorem Trace.PerformDeferredActions_sets (actions : List Trace.DeferredAction)
    (stack_limit_slack max_register : Int) (affected : OutSet) :
    MacroOp.pushed (Trace.PerformDeferredActions actions stack_limit_slack max_register affected
        OutSet.empty OutSet.empty).ops =
      ((List.range (max_register + 1).toNat).filter (fun r => affected.Get r &&
        decide ((Trace.scanRegister actions r).undo_action = .RESTORE))).map
        (fun (r : Nat) => (r : Int)) ∧
    (∀ w, (Trace.PerformDeferredActions actions stack_limit_slack max_register affected
        OutSet.empty OutSet.empty).registers_to_pop.Get w =
      (decide (w < (max_register + 1).toNat) && (affected.Get w &&
        decide ((Trace.scanRegister actions w).undo_action = .RESTORE)))) ∧
    (∀ w, (Trace.PerformDeferredActions actions stack_limit_slack max_register affected
        OutSet.empty OutSet.empty).registers_to_clear.Get w =
      (decide (w < (max_register + 1).toNat) && (affected.Get w &&
        decide ((Trace.scanRegister actions w).undo_action = .CLEAR)))) ∧
    ∀ m, (MacroOp.run (Trace.PerformDeferredActions actions stack_limit_slack max_register
        affected OutSet.empty OutSet.empty).ops m).stack =
      (MacroOp.pushed (Trace.PerformDeferredActions actions stack_limit_slack max_register
        affected OutSet.empty OutSet.empty).ops).reverse.map m.registers ++ m.stack := by
  unfold Trace.PerformDeferredActions
  obtain ⟨tail, ht, hp, hpop, hclr, hrun⟩ := Trace.performRegisters_undo actions
    ((stack_limit_slack + 1).tdiv 2) affected (List.range (max_register + 1).toNat)
    (List.nodup_range _)
    { pushes := 0, ops := [], registers_to_pop := OutSet.empty,
      registers_to_clear := OutSet.empty }
  simp only [List.nil_append] at ht
  simp only []
  rw [ht]
  refine ⟨hp, ?_, ?_, fun m => (hrun m).1⟩
  · intro w
    rw [hpop w, OutSet.Get_empty, Bool.false_or]
    simp only [List.mem_range]
  · intro w
    rw [hclr w, OutSet.Get_empty, Bool.false_or]
    simp only [List.mem_range]

/-- C25: in `Trace::PerformDeferredActions`, called with empty output sets,
the undo kind of an affected register up to `max_register` is the kind that
the specification assigns to the chronologically oldest deferred action that
mentions it (`Trace.undoOfOldest`): the register is pushed and recorded in
`registers_to_pop` exactly when that kind is `RESTORE`, and it is recorded in
`registers_to_clear` exactly when that kind is `CLEAR`; for the kind `IGNORE`
there is neither a push nor a record. -/
theorem Trace.PerformDeferredActions_undo (actions : List Trace.DeferredAction)
    (stack_limit_slack max_register : Int) (affected : OutSet) (reg : Nat)
    (hreg : (reg : Int) ≤ max_register) (haff : affected.Get reg = true)
    (oldest : Trace.DeferredAction)
    (hold : Trace.oldestMention actions (reg : Int) = some oldest) :
    (Trace.scanRegister actions (reg : Int)).undo_action = Trace.undoOfOldest reg oldest ∧
    ((reg : Int) ∈ MacroOp.pushed (Trace.PerformDeferredActions actions stack_limit_slack
        max_register affected OutSet.empty OutSet.empty).ops ↔
      Trace.undoOfOldest reg oldest = .RESTORE) ∧
    ((Trace.PerformDeferredActions actions stack_limit_slack max_register affected
        OutSet.empty OutSet.empty).registers_to_pop.Get reg = true ↔
      Trace.undoOfOldest reg oldest = .RESTORE) ∧
    ((Trace.PerformDeferredActions actions stack_limit_slack max_register affected
        OutSet.empty OutSet.empty).registers_to_clear.Get reg = true ↔
      Trace.undoOfOldest reg oldest = .CLEAR) := by
  obtain ⟨hp, hpop, hclr, _⟩ := Trace.PerformDeferredActions_sets actions stack_limit_slack
    max_register affected
  have hu := Trace.scanRegister_undo actions reg oldest hold
  have hlt : reg < (max_register + 1).toNat := by omega
  refine ⟨hu, ?_, ?_, ?_⟩
  · rw [hp, List.mem_map]
    constructor
    · rintro ⟨n, hn, hnr⟩
      have : n = reg := by exact_mod_cast hnr
      subst this
      have := (List.mem_filter.1 hn).2
      rw [hu] at this
      simpa [haff] using this
    · intro h
      refine ⟨reg, List.mem_filter.2 ⟨List.mem_range.2 hlt, ?_⟩, rfl⟩
      rw [hu]
      simp [haff, h]
  · rw [hpop reg, hu]
    simp [hlt, haff]
  · rw [hclr reg, hu]
    simp [hlt, haff]

/-- Witness for C25: in the example trace the oldest action that mentions
register 2 is the clear of the captures 2 to 3, although a capture store
into register 2 is newer; register 2 is pushed and recorded for a pop. -/
theorem Trace.PerformDeferredActions_undo_witness :
    Trace.oldestMention Trace.exampleActions 2 =
      some (.DeferredClearCaptures { from_ := 2, to_ := 3 }) ∧
    (2 : Int) ∈ MacroOp.pushed (Trace.PerformDeferredActions Trace.exampleActions 32 6
      (Trace.FindAffectedRegisters Trace.exampleActions OutSet.empty).2
      OutSet.empty OutSet.empty).ops :=
  ⟨by decide,
    (Trace.PerformDeferredActions_undo Trace.exampleActions 32 6
      (Trace.FindAffectedRegisters Trace.exampleActions OutSet.empty).2 2 (by decide)
      (by decide) (.DeferredClearCaptures { from_ := 2, to_ := 3 }) (by decide)).2.1.2
      (by decide)⟩

/-! ## The undo pad pops what the flush pushed -/

/-- The start of a run of registers to clear: it is not above the end of the
run, and every register from it up to the end is in the set. -/
theorem Trace.RestoreAffectedRegisters.runStart_spec (registers_to_clear : OutSet) (n : Nat) :
    Trace.RestoreAffectedRegisters.runStart registers_to_clear n ≤ n ∧
    ∀ w, Trace.RestoreAffectedRegisters.runStart registers_to_clear n ≤ w → w < n →
      registers_to_clear.Get w = true := by
  induction n with
  | zero => exact ⟨le_refl _, fun w _ h => absurd h (Nat.not_lt_zero _)⟩
  | succ k ih =>
    unfold Trace.RestoreAffectedRegisters.runStart
    by_cases hk : registers_to_clear.Get k = true
    · rw [if_pos hk]
      refine ⟨Nat.le_succ_of_le ih.1, fun w h1 h2 => ?_⟩
      by_cases hw : w = k
      · subst hw; exact hk
      · exact ih.2 w h1 (by omega)
    · rw [if_neg hk]
      exact ⟨le_refl _, fun w h1 h2 => by omega⟩

/-- The registers to pop below `n`, highest first. -/
theorem filter_range_reverse_skip (p : Nat → Bool) (lo n : Nat) (hle : lo ≤ n)
    (h : ∀ w, lo ≤ w → w < n → p w = false) :
    (List.range n).reverse.filter p = (List.range lo).reverse.filter p := by
  induction n with
  | zero =>
    have : lo = 0 := by omega
    subst this; rfl
  | succ k ih =>
    by_cases hlo : lo = k + 1
    · subst hlo; rfl
    · rw [List.range_succ, List.reverse_append, List.reverse_singleton, List.singleton_append,
        List.filter_cons, h k (by omega) (by omega)]
      simp only [Bool.false_eq_true, if_false]
      exact ih (by omega) (fun w h1 h2 => h w h1 (by omega))

/-- The pops of a concatenation that starts with one operation. -/
theorem MacroOp.popped_cons (op : MacroOp) (ops : List MacroOp) :
    MacroOp.popped (op :: ops) =
      (match op with
        | .PopRegister reg => [reg]
        | _ => []) ++ MacroOp.popped ops := by
  unfold MacroOp.popped
  cases op <;> simp [List.filterMap_cons]

/-- The loop of `RestoreAffectedRegisters` from register `n - 1` down, with
enough rounds and disjoint sets: it pops the registers to pop below `n`,
highest first. -/
theorem Trace.RestoreAffectedRegisters.loop_popped (registers_to_pop registers_to_clear : OutSet)
    (hdisj : ∀ w, registers_to_clear.Get w = true → registers_to_pop.Get w = false) :
    ∀ (fuel n : Nat), n ≤ fuel →
      MacroOp.popped (Trace.RestoreAffectedRegisters.loop registers_to_pop registers_to_clear
        fuel ((n : Int) - 1)) =
      ((List.range n).reverse.filter registers_to_pop.Get).map (fun (r : Nat) => (r : Int)) := by
  intro fuel
  induction fuel with
  | zero =>
    intro n hn
    have : n = 0 := by omega
    subst this
    rfl
  | succ fuel ih =>
    intro n hn
    cases n with
    | zero =>
      unfold Trace.RestoreAffectedRegisters.loop
      rw [if_neg (by omega)]
      rfl
    | succ k =>
      have hreg : ((k + 1 : Nat) : Int) - 1 = (k : Int) := by omega
      rw [hreg]
      unfold Trace.RestoreAffectedRegisters.loop
      rw [if_pos (by omega), Int.toNat_ofNat, List.range_succ, List.reverse_append,
        List.reverse_singleton, List.singleton_append, List.filter_cons]
      by_cases hp : registers_to_pop.Get k = true
      · rw [if_pos hp, if_pos hp, MacroOp.popped_cons, ih k (by omega)]
        rfl
      · rw [if_neg hp, if_neg hp]
        by_cases hc : registers_to_clear.Get k = true
        · rw [if_pos hc]
          simp only []
          rw [MacroOp.popped_cons]
          obtain ⟨h1, h2⟩ := Trace.RestoreAffectedRegisters.runStart_spec registers_to_clear k
          rw [ih _ (by omega)]
          simp only [List.nil_append]
          rw [filter_range_reverse_skip registers_to_pop.Get _ k h1
            (fun w hw1 hw2 => hdisj w (h2 w hw1 hw2))]
        · rw [if_neg hc, ih k (by omega)]

/-- Running the loop of `RestoreAffectedRegisters` from register `n - 1`
down on a machine whose stack holds one value for each register to pop below
`n`, the value of the highest register on top: the values leave the stack,
each register to pop receives its value, and the registers from `n` upwards
keep theirs. -/
theorem Trace.RestoreAffectedRegisters.loop_run (registers_to_pop registers_to_clear : OutSet)
    (hdisj : ∀ w, registers_to_clear.Get w = true → registers_to_pop.Get w = false) :
    ∀ (fuel n : Nat), n ≤ fuel → ∀ (m : RegExpMachine) (vals base : List Int),
      m.stack = vals ++ base →
      vals.length = ((List.range n).reverse.filter registers_to_pop.Get).length →
      (MacroOp.run (Trace.RestoreAffectedRegisters.loop registers_to_pop registers_to_clear
        fuel ((n : Int) - 1)) m).stack = base ∧
      (∀ p ∈ ((List.range n).reverse.filter registers_to_pop.Get).zip vals,
        (MacroOp.run (Trace.RestoreAffectedRegisters.loop registers_to_pop registers_to_clear
          fuel ((n : Int) - 1)) m).registers (p.1 : Int) = p.2) ∧
      (∀ r : Int, (n : Int) ≤ r →
        (MacroOp.run (Trace.RestoreAffectedRegisters.loop registers_to_pop registers_to_clear
          fuel ((n : Int) - 1)) m).registers r = m.registers r) := by
  intro fuel
  induction fuel with
  | zero =>
    intro n hn m vals base hs hl
    have : n = 0 := by omega
    subst this
    have hv : vals = [] := List.length_eq_zero.1 (by simpa using hl)
    subst hv
    exact ⟨by simpa [Trace.RestoreAffectedRegisters.loop, MacroOp.run] using hs,
      by simp, fun r _ => rfl⟩
  | succ fuel ih =>
    intro n hn m vals base hs hl
    cases n with
    | zero =>
      have hv : vals = [] := List.length_eq_zero.1 (by simpa using hl)
      subst hv
      unfold Trace.RestoreAffectedRegisters.loop
      rw [if_neg (by omega)]
      exact ⟨by simpa [MacroOp.run] using hs, by simp, fun r _ => rfl⟩
    | succ k =>
      have hreg : ((k + 1 : Nat) : Int) - 1 = (k : Int) := by omega
      rw [hreg]
      unfold Trace.RestoreAffectedRegisters.loop
      rw [if_pos (by omega), Int.toNat_ofNat]
      rw [List.range_succ, List.reverse_append, List.reverse_singleton, List.singleton_append,
        List.filter_cons] at hl ⊢
      by_cases hp : registers_to_pop.Get k = true
      · rw [if_pos hp] at hl ⊢
        rw [if_pos hp]
        cases vals with
        | nil => simp at hl
        | cons v vals =>
          have hl' : vals.length =
              ((List.range k).reverse.filter registers_to_pop.Get).length := by
            simpa using hl
          obtain ⟨i1, i2, i3⟩ := ih k (by omega) (MacroOp.exec m (.PopRegister k)) vals base
            (by simp [MacroOp.exec, hs]) hl'
          have hrun : ∀ ops, MacroOp.run (MacroOp.PopRegister (k : Int) :: ops) m =
              MacroOp.run ops (MacroOp.exec m (.PopRegister k)) := fun ops => rfl
          rw [hrun]
          refine ⟨i1, ?_, ?_⟩
          · intro p hp'
            rw [List.zip_cons_cons, List.mem_cons] at hp'
            rcases hp' with h | h
            · subst h
              rw [i3 _ (le_refl _)]
              simp [MacroOp.exec, hs]
            · exact i2 p h
          · intro r hr
            rw [i3 r (by omega)]
            have : ¬ r = (k : Int) := by omega
            simp [MacroOp.exec, this]
      · rw [if_neg hp] at hl ⊢
        rw [if_neg hp]
        by_cases hc : registers_to_clear.Get k = true
        · rw [if_pos hc]
          simp only []
          obtain ⟨h1, h2⟩ := Trace.RestoreAffectedRegisters.runStart_spec registers_to_clear k
          have hskip := filter_range_reverse_skip registers_to_pop.Get _ k h1
            (fun w hw1 hw2 => hdisj w (h2 w hw1 hw2))
          rw [hskip] at hl ⊢
          obtain ⟨i1, i2, i3⟩ := ih _ (show Trace.RestoreAffectedRegisters.runStart
              registers_to_clear k ≤ fuel by omega)
            (MacroOp.exec m (.ClearRegisters
              (Trace.RestoreAffectedRegisters.runStart registers_to_clear k : Nat) k))
            vals base (by simp [MacroOp.exec, hs]) hl
          have hrun : ∀ ops, MacroOp.run (MacroOp.ClearRegisters
                ((Trace.RestoreAffectedRegisters.runStart registers_to_clear k : Nat) : Int)
                (k : Int) :: ops) m =
              MacroOp.run ops (MacroOp.exec m (.ClearRegisters
                (Trace.RestoreAffectedRegisters.runStart registers_to_clear k : Nat) k)) :=
            fun ops => rfl
          rw [hrun]
          refine ⟨i1, i2, ?_⟩
          intro r hr
          rw [i3 r (by omega)]
          have : ¬ (((Trace.RestoreAffectedRegisters.runStart registers_to_clear k : Nat) : Int)
              ≤ r ∧ r ≤ (k : Int)) := by omega
          simp [MacroOp.exec, this]
        · rw [if_neg hc]
          obtain ⟨i1, i2, i3⟩ := ih k (by omega) m vals base hs hl
          exact ⟨i1, i2, fun r hr => i3 r (by omega)⟩

/-- C26: for every list of deferred actions, every set of affected
registers and every `max_register`, with the output sets of
`Trace::PerformDeferredActions` started empty as in `Trace::Flush`: the
registers popped by `Trace::RestoreAffectedRegisters`, in emission order,
are the registers pushed by `PerformDeferredActions` in reverse order; the
pushes ascend by register number; and on a machine whose backtrack stack is
the one that the code of `PerformDeferredActions` left, the undo code takes
the pushed values off the stack and puts each one back into the register it
came from. -/
theorem Trace.RestoreAffectedRegisters_pops (actions : List Trace.DeferredAction)
    (stack_limit_slack max_register : Int) (affected : OutSet) :
    MacroOp.popped (Trace.RestoreAffectedRegisters max_register
        (Trace.PerformDeferredActions actions stack_limit_slack max_register affected
          OutSet.empty OutSet.empty).registers_to_pop
        (Trace.PerformDeferredActions actions stack_limit_slack max_register affected
          OutSet.empty OutSet.empty).registers_to_clear) =
      (MacroOp.pushed (Trace.PerformDeferredActions actions stack_limit_slack max_register
        affected OutSet.empty OutSet.empty).ops).reverse ∧
    (MacroOp.pushed (Trace.PerformDeferredActions actions stack_limit_slack max_register
        affected OutSet.empty OutSet.empty).ops).Pairwise (fun a b => a < b) ∧
    ∀ (m after : RegExpMachine),
      after.stack = (MacroOp.run (Trace.PerformDeferredActions actions stack_limit_slack
        max_register affected OutSet.empty OutSet.empty).ops m).stack →
      (MacroOp.run (Trace.RestoreAffectedRegisters max_register
        (Trace.PerformDeferredActions actions stack_limit_slack max_register affected
          OutSet.empty OutSet.empty).registers_to_pop
        (Trace.PerformDeferredActions actions stack_limit_slack max_register affected
          OutSet.empty OutSet.empty).registers_to_clear) after).stack = m.stack ∧
      ∀ reg ∈ MacroOp.pushed (Trace.PerformDeferredActions actions stack_limit_slack
          max_register affected OutSet.empty OutSet.empty).ops,
        (MacroOp.run (Trace.RestoreAffectedRegisters max_register
          (Trace.PerformDeferredActions actions stack_limit_slack max_register affected
            OutSet.empty OutSet.empty).registers_to_pop
          (Trace.PerformDeferredActions actions stack_limit_slack max_register affected
            OutSet.empty OutSet.empty).registers_to_clear) after).registers reg =
          m.registers reg := by
  obtain ⟨hp, hpop, hclr, hstack⟩ := Trace.PerformDeferredActions_sets actions
    stack_limit_slack max_register affected
  generalize Trace.PerformDeferredActions actions stack_limit_slack max_register affected
    OutSet.empty OutSet.empty = performed at hp hpop hclr hstack ⊢
  have hdisj : ∀ w, performed.registers_to_clear.Get w = true →
      performed.registers_to_pop.Get w = false := by
    intro w hw
    rw [hclr w] at hw
    rw [hpop w]
    simp only [Bool.and_eq_true, decide_eq_true_eq] at hw
    simp [hw.2.2]
  have hfilter : (List.range (max_register + 1).toNat).filter performed.registers_to_pop.Get =
      (List.range (max_register + 1).toNat).filter (fun r => affected.Get r &&
        decide ((Trace.scanRegister actions r).undo_action = .RESTORE)) := by
    apply List.filter_congr
    intro w hw
    rw [hpop w]
    simp [List.mem_range.1 hw]
  have hrev : ((List.range (max_register + 1).toNat).reverse.filter
        performed.registers_to_pop.Get).map (fun (r : Nat) => (r : Int)) =
      (MacroOp.pushed performed.ops).reverse := by
    rw [hp, List.filter_reverse, List.map_reverse, hfilter]
  -- the loop starts at `max_register`, which is the last register of the range
  have hloop : Trace.RestoreAffectedRegisters max_register performed.registers_to_pop
        performed.registers_to_clear =
      Trace.RestoreAffectedRegisters.loop performed.registers_to_pop
        performed.registers_to_clear (max_register + 1).toNat
        ((((max_register + 1).toNat : Nat) : Int) - 1) := by
    unfold Trace.RestoreAffectedRegisters
    by_cases hneg : max_register + 1 ≤ 0
    · have h0 : (max_register + 1).toNat = 0 := by omega
      rw [h0]
      rfl
    · have : (((max_register + 1).toNat : Nat) : Int) - 1 = max_register := by omega
      rw [this]
  refine ⟨?_, ?_, ?_⟩
  · rw [hloop, Trace.RestoreAffectedRegisters.loop_popped _ _ hdisj _ _ (le_refl _), hrev]
  · rw [hp]
    apply List.Pairwise.map (R := fun a b => a < b)
    · intro a b hab
      exact_mod_cast hab
    · exact List.Pairwise.filter _ (List.pairwise_lt_range _)
  · intro m after hafter
    rw [hstack m] at hafter
    obtain ⟨i1, i2, _⟩ := Trace.RestoreAffectedRegisters.loop_run _ _ hdisj _ _ (le_refl _)
      after ((MacroOp.pushed performed.ops).reverse.map m.registers) m.stack hafter
      (by rw [List.length_map, ← hrev, List.length_map])
    rw [hloop]
    refine ⟨i1, ?_⟩
    intro reg hreg
    have hmem : reg ∈ (MacroOp.pushed performed.ops).reverse := List.mem_reverse.2 hreg
    rw [← hrev] at hmem
    obtain ⟨n, hn, hnr⟩ := List.mem_map.1 hmem
    subst hnr
    -- the pair of the register and its saved value is in the zip
    have hzip : ∀ (l : List Nat) (f : Int → Int), n ∈ l →
        (n, f (n : Int)) ∈ l.zip ((l.map (fun (r : Nat) => (r : Int))).map f) := by
      intro l f
      induction l with
      | nil => intro h; simp at h
      | cons x l ih =>
        intro h
        rw [List.map_cons, List.map_cons, List.zip_cons_cons]
        rcases List.mem_cons.1 h with h | h
        · subst h
          exact List.mem_cons_self _ _
        · exact List.mem_cons_of_mem _ (ih h)
    have hz := hzip _ m.registers hn
    rw [hrev] at hz
    exact i2 _ hz

/-- Witness for C26: for the example trace the registers 2, 3, 4 and 5 are
pushed in this order and popped in the order 5, 4, 3, 2. -/
theorem Trace.RestoreAffectedRegisters_pops_witness :
    MacroOp.popped (Trace.RestoreAffectedRegisters 6
        (Trace.PerformDeferredActions Trace.exampleActions 32 6
          (Trace.FindAffectedRegisters Trace.exampleActions OutSet.empty).2
          OutSet.empty OutSet.empty).registers_to_pop
        (Trace.PerformDeferredActions Trace.exampleActions 32 6
          (Trace.FindAffectedRegisters Trace.exampleActions OutSet.empty).2
          OutSet.empty OutSet.empty).registers_to_clear) = [5, 4, 3, 2] :=
  (Trace.RestoreAffectedRegisters_pops Trace.exampleActions 32 6
    (Trace.FindAffectedRegisters Trace.exampleActions OutSet.empty).2).1.trans (by decide)

/-! ## Throttling of the stack-limit check -/

/-- The remainder of a successor. -/
theorem succ_mod_cases (n L : Nat) (hL : 0 < L) :
    (n + 1) % L = if n % L + 1 = L then 0 else n % L + 1 := by
  have hr := Nat.mod_lt n hL
  have hq := Nat.div_add_mod n L
  have h1 : (n + 1) % L = (n % L + 1) % L := by
    conv_lhs => rw [← hq, Nat.add_assoc, Nat.mul_add_mod]
  rw [h1]
  by_cases h : n % L + 1 = L
  · rw [if_pos h, h, Nat.mod_self]
  · rw [if_neg h]
    exact Nat.mod_eq_of_lt (by omega)

/-- The flags of a concatenation. -/
theorem MacroOp.pushFlags_append (a b : List MacroOp) :
    MacroOp.pushFlags (a ++ b) = MacroOp.pushFlags a ++ MacroOp.pushFlags b := by
  unfold MacroOp.pushFlags
  exact List.filterMap_append _ _ _

/-- One round of the register loop keeps the relation between the counter
`pushes` and the pushes emitted so far: the counter is their number modulo
`push_limit`, and the push number `j + 1` carries the check exactly when
`push_limit` divides `j + 1`. -/
theorem Trace.performRegister_flags (actions : List Trace.DeferredAction) (L : Nat)
    (hL : 0 < L) (affected : OutSet) (st : Trace.PerformState) (reg : Nat)
    (hcount : st.pushes = (((MacroOp.pushFlags st.ops).length % L : Nat) : Int))
    (hflags : ∀ j flag, (MacroOp.pushFlags st.ops)[j]? = some flag →
      (flag = .kCheckStackLimit ↔ L ∣ j + 1)) :
    (Trace.performRegister actions (L : Int) affected st reg).pushes =
      (((MacroOp.pushFlags (Trace.performRegister actions (L : Int) affected st reg).ops).length
        % L : Nat) : Int) ∧
    ∀ j flag, (MacroOp.pushFlags (Trace.performRegister actions (L : Int) affected st
        reg).ops)[j]? = some flag → (flag = .kCheckStackLimit ↔ L ∣ j + 1) := by
  have hlp := (Trace.lastActionOps_pushed reg (Trace.scanRegister actions reg)).2
  have hmod := succ_mod_cases (MacroOp.pushFlags st.ops).length L hL
  have hr := Nat.mod_lt (MacroOp.pushFlags st.ops).length hL
  unfold Trace.performRegister
  by_cases haff : affected.Get reg = true
  · simp only [haff, Bool.not_true, Bool.false_eq_true, if_false]
    cases hu : (Trace.scanRegister actions reg).undo_action with
    | IGNORE =>
      simp only [MacroOp.pushFlags_append, hlp, List.append_nil]
      exact ⟨hcount, hflags⟩
    | CLEAR =>
      simp only [MacroOp.pushFlags_append, hlp, List.append_nil]
      exact ⟨hcount, hflags⟩
    | RESTORE =>
      have hnew : ∀ (flag0 : RegExpMacroAssembler.StackCheckFlag),
          (flag0 = .kCheckStackLimit ↔ L ∣ (MacroOp.pushFlags st.ops).length + 1) →
          ∀ j flag, (MacroOp.pushFlags st.ops ++ [flag0])[j]? = some flag →
            (flag = .kCheckStackLimit ↔ L ∣ j + 1) := by
        intro flag0 h0 j flag hj
        by_cases hjl : j < (MacroOp.pushFlags st.ops).length
        · rw [List.getElem?_append_left hjl] at hj
          exact hflags j flag hj
        · rw [List.getElem?_append_right (by omega)] at hj
          by_cases hje : j = (MacroOp.pushFlags st.ops).length
          · subst hje
            simp at hj
            subst hj
            exact h0
          · have : 0 < j - (MacroOp.pushFlags st.ops).length := by omega
            obtain ⟨i, hi⟩ : ∃ i, j - (MacroOp.pushFlags st.ops).length = i + 1 :=
              ⟨j - (MacroOp.pushFlags st.ops).length - 1, by omega⟩
            rw [hi] at hj
            simp at hj
      by_cases hp : st.pushes + 1 = (L : Int)
      · simp only [hp, if_true]
        have hfl : MacroOp.pushFlags (st.ops ++ [MacroOp.PushRegister reg .kCheckStackLimit] ++
            Trace.lastActionOps reg (Trace.scanRegister actions reg)) =
            MacroOp.pushFlags st.ops ++ [.kCheckStackLimit] := by
          rw [MacroOp.pushFlags_append, MacroOp.pushFlags_append, hlp, List.append_nil]
          rfl
        rw [hfl]
        have hdiv : (MacroOp.pushFlags st.ops).length % L + 1 = L := by omega
        have hz : ((MacroOp.pushFlags st.ops).length + 1) % L = 0 := by
          rw [hmod, if_pos hdiv]
        refine ⟨?_, hnew _ ?_⟩
        · rw [List.length_append, List.length_singleton, hz]
          rfl
        · exact ⟨fun _ => Nat.dvd_iff_mod_eq_zero.2 hz, fun _ => rfl⟩
      · simp only [hp, if_false]
        have hfl : MacroOp.pushFlags (st.ops ++ [MacroOp.PushRegister reg .kNoStackLimitCheck] ++
            Trace.lastActionOps reg (Trace.scanRegister actions reg)) =
            MacroOp.pushFlags st.ops ++ [.kNoStackLimitCheck] := by
          rw [MacroOp.pushFlags_append, MacroOp.pushFlags_append, hlp, List.append_nil]
          rfl
        rw [hfl]
        have hdiv : ¬ (MacroOp.pushFlags st.ops).length % L + 1 = L := by omega
        have hz : ((MacroOp.pushFlags st.ops).length + 1) % L =
            (MacroOp.pushFlags st.ops).length % L + 1 := by
          rw [hmod, if_neg hdiv]
        refine ⟨?_, hnew _ ?_⟩
        · rw [List.length_append, List.length_singleton, hz, hcount]
          push_cast
          rfl
        · constructor
          · intro h
            exact absurd h (by decide)
          · intro h
            rw [Nat.dvd_iff_mod_eq_zero, hz] at h
            omega
  · simp only [haff, Bool.not_false, if_true]
    exact ⟨hcount, hflags⟩

/-- The register loop keeps the relation between the counter and the pushes
through all its rounds. -/
theorem Trace.performRegisters_flags (actions : List Trace.DeferredAction) (L : Nat)
    (hL : 0 < L) (affected : OutSet) (regs : List Nat) (st : Trace.PerformState)
    (hcount : st.pushes = (((MacroOp.pushFlags st.ops).length % L : Nat) : Int))
    (hflags : ∀ j flag, (MacroOp.pushFlags st.ops)[j]? = some flag →
      (flag = .kCheckStackLimit ↔ L ∣ j + 1)) :
    ∀ j flag, (MacroOp.pushFlags (regs.foldl (Trace.performRegister actions (L : Int) affected)
        st).ops)[j]? = some flag → (flag = .kCheckStackLimit ↔ L ∣ j + 1) := by
  induction regs generalizing st with
  | nil => exact hflags
  | cons k regs ih =>
    obtain ⟨h1, h2⟩ := Trace.performRegister_flags actions L hL affected st k hcount hflags
    rw [List.foldl_cons]
    exact ih _ h1 h2

/-- C28: with `push_limit = (stack_limit_slack + 1) / 2` and
`stack_limit_slack >= 1`, the `k`-th `PushRegister` emitted by one call of
`Trace::PerformDeferredActions` (`k` counted from 1) carries the stack-limit
check exactly when `k` is a multiple of `push_limit`. -/
theorem Trace.PerformDeferredActions_stack_check (actions : List Trace.DeferredAction)
    (stack_limit_slack max_register : Int) (affected registers_to_pop registers_to_clear : OutSet)
    (hslack : 1 ≤ stack_limit_slack) (k : Nat) (hk : 1 ≤ k)
    (flag : RegExpMacroAssembler.StackCheckFlag)
    (hflag : (MacroOp.pushFlags (Trace.PerformDeferredActions actions stack_limit_slack
      max_register affected registers_to_pop registers_to_clear).ops)[k - 1]? = some flag) :
    flag = .kCheckStackLimit ↔ (stack_limit_slack + 1).tdiv 2 ∣ (k : Int) := by
  have hdiv : (stack_limit_slack + 1).tdiv 2 = (stack_limit_slack + 1) / 2 :=
    Int.tdiv_eq_ediv (by omega) (by norm_num)
  have hpos : 1 ≤ (stack_limit_slack + 1) / 2 := by omega
  obtain ⟨L, hLe⟩ : ∃ L : Nat, ((stack_limit_slack + 1) / 2 : Int) = (L : Int) :=
    ⟨((stack_limit_slack + 1) / 2).toNat, by omega⟩
  have hL : 0 < L := by omega
  unfold Trace.PerformDeferredActions at hflag
  simp only [] at hflag
  rw [hdiv, hLe] at hflag ⊢
  have h := Trace.performRegisters_flags actions L hL affected
    (List.range (max_register + 1).toNat)
    { pushes := 0, ops := [], registers_to_pop := registers_to_pop,
      registers_to_clear := registers_to_clear }
    (by simp [MacroOp.pushFlags]) (by simp [MacroOp.pushFlags]) (k - 1) flag hflag
  rw [h, Int.natCast_dvd_natCast, Nat.sub_add_cancel hk]

/-- Witness for C28: with a slack of 3 the push limit is 2; the example trace
pushes four registers and the second push carries the check. -/
theorem Trace.PerformDeferredActions_stack_check_witness :
    MacroOp.pushFlags (Trace.PerformDeferredActions Trace.exampleActions 3 6
      (Trace.FindAffectedRegisters Trace.exampleActions OutSet.empty).2
      OutSet.empty OutSet.empty).ops =
      [.kNoStackLimitCheck, .kCheckStackLimit, .kNoStackLimitCheck, .kCheckStackLimit] ∧
    (RegExpMacroAssembler.StackCheckFlag.kCheckStackLimit = .kCheckStackLimit ↔
      (3 + 1 : Int).tdiv 2 ∣ ((2 : Nat) : Int)) :=
  ⟨by decide,
    Trace.PerformDeferredActions_stack_check Trace.exampleActions 3 6
      (Trace.FindAffectedRegisters Trace.exampleActions OutSet.empty).2
      OutSet.empty OutSet.empty (by decide) 2 (by decide) .kCheckStackLimit (by decide)⟩

/-! ## The position push and pop of a flush -/

/-- The code that the first half of `Trace::Flush` emits, and its label. -/
theorem Trace.Flush.before_emits (k : EmitConstants) (trace : Trace) (st : Emitter) :
    (Trace.Flush.before k trace st).1.undo = Label.stack st.labels ∧
    (Trace.Flush.before k trace st).1.max_register =
      (Trace.FindAffectedRegisters trace.actions_ OutSet.empty).1 ∧
    (Trace.Flush.before k trace st).1.registers_to_pop =
      (Trace.PerformDeferredActions trace.actions_ k.stack_limit_slack
        (Trace.FindAffectedRegisters trace.actions_ OutSet.empty).1
        (Trace.FindAffectedRegisters trace.actions_ OutSet.empty).2
        OutSet.empty OutSet.empty).registers_to_pop ∧
    (Trace.Flush.before k trace st).1.registers_to_clear =
      (Trace.PerformDeferredActions trace.actions_ k.stack_limit_slack
        (Trace.FindAffectedRegisters trace.actions_ OutSet.empty).1
        (Trace.FindAffectedRegisters trace.actions_ OutSet.empty).2
        OutSet.empty OutSet.empty).registers_to_clear ∧
    (Trace.Flush.before k trace st).2.code =
      st.code ++
        ((match trace.backtrack_ with
          | some _ => [AssemblerOp.PushCurrentPosition]
          | none => []) ++
        (Trace.PerformDeferredActions trace.actions_ k.stack_limit_slack
          (Trace.FindAffectedRegisters trace.actions_ OutSet.empty).1
          (Trace.FindAffectedRegisters trace.actions_ OutSet.empty).2
          OutSet.empty OutSet.empty).ops.map AssemblerOp.reg ++
        (if trace.cp_offset_ != 0 then [AssemblerOp.AdvanceCurrentPosition trace.cp_offset_]
          else []) ++
        [AssemblerOp.PushBacktrack (Label.stack st.labels)]) := by
  unfold Trace.Flush.before
  simp only []
  cases hb : trace.backtrack_ with
  | none =>
    by_cases hc : (trace.cp_offset_ != 0) = true
    · simp [hc, Emitter.emit, List.append_assoc]
    · simp [hc, Emitter.emit, List.append_assoc]
  | some label =>
    by_cases hc : (trace.cp_offset_ != 0) = true
    · simp [hc, Emitter.emit, List.append_assoc]
    · simp [hc, Emitter.emit, List.append_assoc]

/-- The code that the second half of `Trace::Flush` emits. -/
theorem Trace.Flush.after_emits (trace : Trace) (locals : Trace.Flush.Locals) (st : Emitter) :
    (Trace.Flush.after trace locals st).code =
      st.code ++
        ([AssemblerOp.Bind locals.undo] ++
        (Trace.RestoreAffectedRegisters locals.max_register locals.registers_to_pop
          locals.registers_to_clear).map AssemblerOp.reg ++
        (match trace.backtrack_ with
          | none => [AssemblerOp.Backtrack]
          | some label => [AssemblerOp.PopCurrentPosition, AssemblerOp.GoTo (some label)])) := by
  unfold Trace.Flush.after
  simp only []
  cases hb : trace.backtrack_ with
  | none => simp [Emitter.emit, List.append_assoc]
  | some label => simp [Emitter.emit, List.append_assoc]

/-- C27: for a trace that has deferred actions or a backtrack label, and a
successor emission that returns and only appends code, `Trace::Flush`
returns, and its code is the code `pre` before the successor's code `mid`
and the undo pad `post` after it: `pre` starts with `PushCurrentPosition`,
before the register operations, exactly when the trace has a backtrack
label, and in exactly that case `post` ends with `PopCurrentPosition`
followed by a jump to that label; without a backtrack label neither `pre`
nor `post` pushes or pops the position, and `post` ends with
`Backtrack()`. -/
theorem Trace.Flush_position (k : EmitConstants) (Emit : Trace → Emitter → Option Emitter)
    (trace : Trace) (successor : Nat) (st : Emitter)
    (hstate : (trace.actions_.isEmpty && trace.backtrack_.isNone) = false)
    (hcall : ∀ s : Emitter, s.compiler = st.compiler → s.nodes = st.nodes →
      ∃ s' mid, Emit Trace.new s = some s' ∧ s'.code = s.code ++ mid) :
    ∃ st' pre mid post, Trace.Flush k Emit trace successor st = some st' ∧
      st'.code = st.code ++ pre ++ mid ++ post ∧
      pre = (match trace.backtrack_ with
          | some _ => [AssemblerOp.PushCurrentPosition]
          | none => []) ++
        (Trace.PerformDeferredActions trace.actions_ k.stack_limit_slack
          (Trace.FindAffectedRegisters trace.actions_ OutSet.empty).1
          (Trace.FindAffectedRegisters trace.actions_ OutSet.empty).2
          OutSet.empty OutSet.empty).ops.map AssemblerOp.reg ++
        (if trace.cp_offset_ != 0 then [AssemblerOp.AdvanceCurrentPosition trace.cp_offset_]
          else []) ++
        [AssemblerOp.PushBacktrack (Label.stack st.labels)] ∧
      post = [AssemblerOp.Bind (Label.stack st.labels)] ++
        (Trace.RestoreAffectedRegisters
          (Trace.FindAffectedRegisters trace.actions_ OutSet.empty).1
          (Trace.PerformDeferredActions trace.actions_ k.stack_limit_slack
            (Trace.FindAffectedRegisters trace.actions_ OutSet.empty).1
            (Trace.FindAffectedRegisters trace.actions_ OutSet.empty).2
            OutSet.empty OutSet.empty).registers_to_pop
          (Trace.PerformDeferredActions trace.actions_ k.stack_limit_slack
            (Trace.FindAffectedRegisters trace.actions_ OutSet.empty).1
            (Trace.FindAffectedRegisters trace.actions_ OutSet.empty).2
            OutSet.empty OutSet.empty).registers_to_clear).map AssemblerOp.reg ++
        (match trace.backtrack_ with
          | none => [AssemblerOp.Backtrack]
          | some label => [AssemblerOp.PopCurrentPosition, AssemblerOp.GoTo (some label)]) ∧
      (AssemblerOp.PushCurrentPosition ∈ pre ↔ trace.backtrack_.isSome = true) ∧
      (AssemblerOp.PopCurrentPosition ∈ post ↔ trace.backtrack_.isSome = true) := by
  obtain ⟨b1, b2, b3, b4, b5⟩ := Trace.Flush.before_emits k trace st
  obtain ⟨f1, f2, _⟩ := Trace.Flush.before_frame k trace st
  have hmid : ∃ s' mid,
      (if RegExpNode.KeepRecursing k (Trace.Flush.before k trace st).2.compiler then
          Emit Trace.new (Trace.Flush.before k trace st).2
        else some (((Trace.Flush.before k trace st).2.AddWork successor).emit
          (.GoTo (some (.node successor))))) = some s' ∧
      s'.code = (Trace.Flush.before k trace st).2.code ++ mid := by
    by_cases hk : RegExpNode.KeepRecursing k (Trace.Flush.before k trace st).2.compiler = true
    · rw [if_pos hk]
      exact hcall _ f1 f2
    · rw [if_neg hk]
      refine ⟨_, [.GoTo (some (.node successor))], rfl, ?_⟩
      have : ((Trace.Flush.before k trace st).2.AddWork successor).code =
          (Trace.Flush.before k trace st).2.code := by
        unfold Emitter.AddWork
        split
        · unfold Emitter.modifyNode
          split <;> rfl
        · rfl
      simp [Emitter.emit, this]
  obtain ⟨s', mid, hs', hcode⟩ := hmid
  have hflush : Trace.Flush k Emit trace successor st =
      some (Trace.Flush.after trace (Trace.Flush.before k trace st).1 s') := by
    unfold Trace.Flush
    rw [hstate]
    simp only [Bool.false_eq_true, if_false]
    rw [hs']
  refine ⟨_, _, mid, _, hflush, ?_, rfl, rfl, ?_, ?_⟩
  · rw [Trace.Flush.after_emits, hcode, b5, b1, b2, b3, b4]
  · cases hb : trace.backtrack_ with
    | none => simp
    | some label => simp
  · cases hb : trace.backtrack_ with
    | none => simp
    | some label => simp

/-- Witness for C27: the example trace has a backtrack label; with a
successor that emits `Succeed`, the flushed code starts with
`PushCurrentPosition`. -/
theorem Trace.Flush_position_witness :
    ∃ st' pre mid post,
      Trace.Flush { kMaxRecursion := 100, kMaxCopiesCodeGenerated := 10, stack_limit_slack := 32 }
        (fun _ s => some (s.emit .Succeed)) Trace.exampleTrace 0
        (Emitter.new [EmitNode.fresh (.EndNode .ACCEPT)]) = some st' ∧
      st'.code = (Emitter.new [EmitNode.fresh (.EndNode .ACCEPT)]).code ++ pre ++ mid ++ post ∧
      AssemblerOp.PushCurrentPosition ∈ pre ∧ AssemblerOp.PopCurrentPosition ∈ post := by
  obtain ⟨st', pre, mid, post, h1, h2, _, _, h5, h6⟩ := Trace.Flush_position
    { kMaxRecursion := 100, kMaxCopiesCodeGenerated := 10, stack_limit_slack := 32 }
    (fun _ s => some (s.emit .Succeed)) Trace.exampleTrace 0
    (Emitter.new [EmitNode.fresh (.EndNode .ACCEPT)]) (by decide)
    (fun s _ _ => ⟨_, [.Succeed], rfl, rfl⟩)
  exact ⟨st', pre, mid, post, h1, h2, h5.2 (by decide), h6.2 (by decide)⟩

/-! ## The empty-match check -/

/-- A trivial trace has no deferred actions and no backtrack label. -/
theorem Trace.is_trivial_fields (trace : Trace) (h : trace.is_trivial = true) :
    trace.actions_ = [] ∧ trace.backtrack_ = none := by
  unfold Trace.is_trivial at h
  simp only [Bool.and_eq_true] at h
  obtain ⟨⟨⟨⟨⟨⟨h1, h2⟩, _⟩, _⟩, _⟩, _⟩, _⟩ := h
  exact ⟨List.isEmpty_iff.1 h2, Option.isNone_iff_eq_none.1 h1⟩

/-- C29: for a trivial trace and a successor emission that returns and only
appends code, the case `EMPTY_MATCH_CHECK` of `ActionNode::Emit` returns;
its code is the check followed by the successor's code `mid`, and a run of
that code on any register file and position backtracks (the jump to the
trace's null backtrack label) exactly when the start register equals the
current position and, if the check has a repetition register, that register
is at or above the repetition limit; in every other case the run continues
as the run of the successor's code. -/
theorem ActionNode.Emit_EMPTY_MATCH_CHECK_spec (Emit Flush : Trace → Emitter → Option Emitter)
    (data : ActionNode.EmptyMatchCheck) (trace : Trace) (st : Emitter)
    (htrivial : trace.is_trivial = true)
    (hcall : ∀ s : Emitter, ∃ s' mid, Emit trace s = some s' ∧ s'.code = s.code ++ mid) :
    ∃ st' check mid,
      ActionNode.Emit_EMPTY_MATCH_CHECK Emit Flush data trace st = some st' ∧
      st'.code = st.code ++ check ++ mid ∧
      ∀ (registers : Int → Int) (position : Int),
        AssemblerOp.runRegisterTests registers position none (check ++ mid) =
          if registers data.start_register = position ∧
              (data.repetition_register ≠ RegExpCompiler.kNoRegister →
                data.repetition_limit ≤ registers data.repetition_register) then
            CodeOutcome.backtrack
          else AssemblerOp.runRegisterTests registers position none mid := by
  obtain ⟨hact, hbt⟩ := Trace.is_trivial_fields trace htrivial
  by_cases hmin : data.repetition_register ≠ RegExpCompiler.kNoRegister
  · obtain ⟨s', mid, hs', hcode⟩ := hcall
      ((({ st with labels := st.labels + 1 }.emit
        (.IfRegisterLT data.repetition_register data.repetition_limit
          (Label.stack st.labels))).emit
        (.IfRegisterEqPos data.start_register none)).emit (.Bind (Label.stack st.labels)))
    refine ⟨s', [.IfRegisterLT data.repetition_register data.repetition_limit
        (Label.stack st.labels), .IfRegisterEqPos data.start_register none,
        .Bind (Label.stack st.labels)], mid, ?_, ?_, ?_⟩
    · unfold ActionNode.Emit_EMPTY_MATCH_CHECK
      simp only [hact, hbt, Trace.GetStoredPosition, Option.isSome_none, Bool.false_and,
        Bool.false_eq_true, if_false, htrivial, Bool.not_true]
      rw [if_pos (decide_eq_true hmin)]
      exact hs'
    · rw [hcode]
      simp [Emitter.emit]
    · intro registers position
      by_cases hlt : registers data.repetition_register < data.repetition_limit
      · have hcond : ¬ (registers data.start_register = position ∧
            (data.repetition_register ≠ RegExpCompiler.kNoRegister →
              data.repetition_limit ≤ registers data.repetition_register)) := by
          intro h
          have := h.2 hmin
          omega
        rw [if_neg hcond]
        simp [AssemblerOp.runRegisterTests, hlt]
      · by_cases heq : registers data.start_register = position
        · rw [if_pos ⟨heq, fun _ => by omega⟩]
          simp [AssemblerOp.runRegisterTests, hlt, heq]
        · rw [if_neg (fun h => heq h.1)]
          simp [AssemblerOp.runRegisterTests, hlt, heq]
  · obtain ⟨s', mid, hs', hcode⟩ := hcall
      (({ st with labels := st.labels + 1 }.emit
        (.IfRegisterEqPos data.start_register none)).emit (.Bind (Label.stack st.labels)))
    refine ⟨s', [.IfRegisterEqPos data.start_register none,
        .Bind (Label.stack st.labels)], mid, ?_, ?_, ?_⟩
    · unfold ActionNode.Emit_EMPTY_MATCH_CHECK
      simp only [hact, hbt, Trace.GetStoredPosition, Option.isSome_none, Bool.false_and,
        Bool.false_eq_true, if_false, htrivial, Bool.not_true]
      rw [if_neg (by simpa using hmin)]
      exact hs'
    · rw [hcode]
      simp [Emitter.emit]
    · intro registers position
      by_cases heq : registers data.start_register = position
      · rw [if_pos ⟨heq, fun h => absurd h hmin⟩]
        simp [AssemblerOp.runRegisterTests, heq]
      · rw [if_neg (fun h => heq h.1)]
        simp [AssemblerOp.runRegisterTests, heq]

/-- Witness for C29: a check with start register 4, repetition register 5
and limit 2, followed by a successor that emits `Succeed`. -/
theorem ActionNode.Emit_EMPTY_MATCH_CHECK_spec_witness :
    ∃ st' check mid,
      ActionNode.Emit_EMPTY_MATCH_CHECK (fun _ s => some (s.emit .Succeed))
        (fun _ _ => none)
        { start_register := 4, repetition_register := 5, repetition_limit := 2 }
        Trace.new (Emitter.new []) = some st' ∧
      st'.code = (Emitter.new []).code ++ check ++ mid ∧
      AssemblerOp.runRegisterTests (fun r => if r = 4 then 7 else 3) 7 none (check ++ mid) =
        CodeOutcome.backtrack := by
  obtain ⟨st', check, mid, h1, h2, h3⟩ := ActionNode.Emit_EMPTY_MATCH_CHECK_spec
    (fun _ s => some (s.emit .Succeed)) (fun _ _ => none)
    { start_register := 4, repetition_register := 5, repetition_limit := 2 }
    Trace.new (Emitter.new []) (by decide) (fun s => ⟨_, [.Succeed], rfl, rfl⟩)
  refine ⟨st', check, mid, h1, h2, ?_⟩
  rw [h3 (fun r => if r = 4 then 7 else 3) 7, if_pos]
  exact ⟨by decide, fun _ => by decide⟩

/-! ## One comparison for a pair of characters -/

/-- A positive number `n` with `(n - 1) & n = 0` is a power of two. -/
theorem pow_two_of_and_pred (n : Nat) (hn : n ≠ 0) (h : (n - 1) &&& n = 0) : ∃ k, n = 2 ^ k := by
  obtain ⟨k, hk1, hk2⟩ := Nat.exists_most_significant_bit hn
  refine ⟨k, ?_⟩
  have hge := Nat.testBit_implies_ge hk1
  have hlt : n < 2 ^ (k + 1) := Nat.lt_pow_two_of_testBit n (fun i hi => hk2 i (by omega))
  by_contra hne
  have h1 : (n - 1).testBit k = true := testBit_of_bounds _ _ (by omega) (by omega)
  have h2 := congrArg (fun x => x.testBit k) h
  simp only [Nat.testBit_and, h1, hk1, Nat.zero_testBit] at h2
  exact absurd h2 (by decide)

/-- A power of two `n` has `(n - 1) & n = 0`. -/
theorem and_pred_pow_two (k : Nat) : (2 ^ k - 1) &&& 2 ^ k = 0 := by
  rw [Nat.and_comm, Nat.and_pow_two_sub_one_eq_mod, Nat.mod_self]

/-- Adding `2 ^ k` to a number whose bit `k` is clear sets that bit and
changes no other. -/
theorem add_two_pow_of_clear (n k : Nat) (h : n.testBit k = false) :
    n + 2 ^ k = n ^^^ 2 ^ k := by
  have hr : n % 2 ^ (k + 1) < 2 ^ k := by
    apply Nat.lt_pow_two_of_testBit
    intro i hi
    rw [Nat.testBit_mod_two_pow]
    by_cases hik : i = k
    · subst hik; simp [h]
    · have : ¬ i < k + 1 := by omega
      simp [this]
  have hq := Nat.div_add_mod n (2 ^ (k + 1))
  have hsum : n + 2 ^ k = 2 ^ (k + 1) * (n / 2 ^ (k + 1)) + (2 ^ k + n % 2 ^ (k + 1)) := by omega
  have hp : (2 : Nat) ^ (k + 1) = 2 * 2 ^ k := by ring
  have hlt2 : 2 ^ k + n % 2 ^ (k + 1) < 2 ^ (k + 1) := by omega
  have hlt1 : n % 2 ^ (k + 1) < 2 ^ (k + 1) := Nat.mod_lt _ (Nat.two_pow_pos _)
  apply Nat.eq_of_testBit_eq
  intro j
  rw [hsum, Nat.testBit_mul_pow_two_add _ hlt2, Nat.testBit_xor, Nat.testBit_two_pow]
  have hn : n.testBit j = (2 ^ (k + 1) * (n / 2 ^ (k + 1)) + n % 2 ^ (k + 1)).testBit j := by
    rw [hq]
  rw [hn, Nat.testBit_mul_pow_two_add _ hlt1]
  by_cases hj : j < k + 1
  · rw [if_pos hj, if_pos hj]
    by_cases hjk : j = k
    · subst hjk
      rw [Nat.testBit_two_pow_add_eq, Nat.testBit_lt_two_pow hr]
      simp
    · have hjlt : j < k := by omega
      rw [Nat.testBit_two_pow_add_gt hjlt]
      have : ¬ k = j := fun h => hjk h.symm
      simp [this]
  · rw [if_neg hj, if_neg hj]
    have : ¬ k = j := by omega
    simp [this]

/-- A value below `2 ^ w` whose bit `k` is clear is kept by the mask
`(2 ^ w - 1) ^ 2 ^ k`. -/
theorem and_mask_of_clear (w a k : Nat) (ha : a < 2 ^ w) (hk : a.testBit k = false) :
    a &&& ((2 ^ w - 1) ^^^ 2 ^ k) = a := by
  apply Nat.eq_of_testBit_eq
  intro i
  simp only [Nat.testBit_and, Nat.testBit_xor, Nat.testBit_two_pow_sub_one, Nat.testBit_two_pow]
  by_cases hki : k = i
  · subst hki
    simp [hk]
  · by_cases hiw : i < w
    · simp [hki, hiw]
    · have : a.testBit i = false := by
        apply Nat.testBit_lt_two_pow
        calc a < 2 ^ w := ha
          _ ≤ 2 ^ i := Nat.pow_le_pow_right (by norm_num) (by omega)
      simp [this]

/-- Of two values that differ in the single bit `k`, the smaller one has the
bit clear. -/
theorem clear_of_lt (c1 c2 k : Nat) (h12 : c1 < c2) (hx : c1 ^^^ c2 = 2 ^ k) :
    c1.testBit k = false := by
  have hbit : ∀ i, (c1.testBit i ^^ c2.testBit i) = decide (k = i) := by
    intro i
    have := congrArg (fun x => x.testBit i) hx
    simpa only [Nat.testBit_xor, Nat.testBit_two_pow] using this
  cases h1 : c1.testBit k with
  | false => rfl
  | true =>
    exfalso
    have hk := hbit k
    rw [h1] at hk
    have h2 : c2.testBit k = false := by
      revert hk
      cases c2.testBit k <;> simp
    have hlt : c2 < c1 := by
      apply Nat.lt_of_testBit k h2 h1
      intro j hj
      have := hbit j
      have hkj : ¬ k = j := by omega
      simp only [hkj, decide_False] at this
      revert this
      cases c1.testBit j <;> cases c2.testBit j <;> simp
    omega

/-- A mask below `2 ^ w` sees only the low `w` bits. -/
theorem and_mod_of_lt (y mask w : Nat) (hm : mask < 2 ^ w) :
    y &&& mask = (y % 2 ^ w) &&& mask := by
  apply Nat.eq_of_testBit_eq
  intro i
  rw [Nat.testBit_and, Nat.testBit_and, Nat.testBit_mod_two_pow]
  by_cases hi : i < w
  · simp [hi]
  · have : mask.testBit i = false := by
      apply Nat.testBit_lt_two_pow
      calc mask < 2 ^ w := hm
        _ ≤ 2 ^ i := Nat.pow_le_pow_right (by norm_num) (by omega)
    simp [this]

/-- The single comparison for two characters that differ in one bit: a code
unit below `2 ^ w` agrees with the smaller character under the mask exactly
when it is one of the two. -/
theorem pair_by_bit (w c1 c2 k : Nat) (hw : w ≤ 32) (h12 : c1 < c2) (hc2 : c2 < 2 ^ w)
    (hx : c1 ^^^ c2 = 2 ^ k) :
    ∀ ch, ch < 2 ^ w → (ch &&& ((2 ^ w - 1) ^^^ 2 ^ k) = c1 ↔ ch = c1 ∨ ch = c2) := by
  intro ch hch
  have h := (single_bit_pair w c1 c2 k hw (by omega) hc2 hx).2.2.2 ch hch
  rw [and_mask_of_clear w c1 k (by omega) (clear_of_lt c1 c2 k h12 hx)] at h
  exact h

/-- The single comparison for two characters whose difference is `2 ^ k`
and that differ in more than one bit: a code unit below `2 ^ w`, less
`2 ^ k` on 32 bits, agrees with the smaller character less `2 ^ k` under the
mask exactly when it is one of the two. -/
theorem pair_by_difference (w c1 c2 k : Nat) (hw : w ≤ 32) (h12 : c1 < c2) (hc2 : c2 < 2 ^ w)
    (hd : c2 - c1 = 2 ^ k) (hge : 2 ^ k ≤ c1) (hnot : c1 ^^^ c2 ≠ 2 ^ k) :
    ∀ ch, ch < 2 ^ w →
      (u32 (ch + (2 ^ 32 - 2 ^ k)) &&& ((2 ^ w - 1) ^^^ 2 ^ k) = c1 - 2 ^ k ↔
        ch = c1 ∨ ch = c2) := by
  intro ch hch
  have hW : (2 : Nat) ^ w ≤ 2 ^ 32 := Nat.pow_le_pow_right (by norm_num) hw
  have hP : 0 < 2 ^ k := Nat.two_pow_pos _
  -- bit `k` of `c1` is set: otherwise the two characters differ in that bit alone
  have hset : c1.testBit k = true := by
    cases h1 : c1.testBit k with
    | true => rfl
    | false =>
      exfalso
      apply hnot
      have : c2 = c1 ^^^ 2 ^ k := by
        rw [← add_two_pow_of_clear c1 k h1]
        omega
      rw [this, Nat.xor_cancel_left]
  -- the smaller character less `2 ^ k` is the smaller character with the bit cleared
  have hclr : (c1 ^^^ 2 ^ k).testBit k = false := by
    rw [Nat.testBit_xor, hset, Nat.testBit_two_pow_self]
    rfl
  have ha : c1 - 2 ^ k = c1 ^^^ 2 ^ k := by
    have h := add_two_pow_of_clear (c1 ^^^ 2 ^ k) k hclr
    rw [Nat.xor_cancel_right] at h
    omega
  have hxor : (c1 - 2 ^ k) ^^^ c1 = 2 ^ k := by
    rw [ha, Nat.xor_comm, Nat.xor_cancel_left]
  have hpair := (single_bit_pair w (c1 - 2 ^ k) c1 k hw (by omega) (by omega) hxor).2.2.2
  rw [and_mask_of_clear w (c1 - 2 ^ k) k (by omega) (by rw [ha]; exact hclr)] at hpair
  have hkw : k < w := (single_bit_pair w (c1 - 2 ^ k) c1 k hw (by omega) (by omega) hxor).1
  have hmask : (2 ^ w - 1) ^^^ 2 ^ k < 2 ^ w :=
    Nat.xor_lt_two_pow (by have := Nat.two_pow_pos w; omega)
      (Nat.pow_lt_pow_right (by norm_num) hkw)
  have hPW : (2 : Nat) ^ k < 2 ^ w := Nat.pow_lt_pow_right (by norm_num) hkw
  by_cases hle : 2 ^ k ≤ ch
  · have hy : u32 (ch + (2 ^ 32 - 2 ^ k)) = ch - 2 ^ k := by
      unfold u32
      omega
    rw [hy, hpair (ch - 2 ^ k) (by omega)]
    omega
  · have hy : u32 (ch + (2 ^ 32 - 2 ^ k)) = ch + (2 ^ 32 - 2 ^ k) := by
      unfold u32
      omega
    -- the low `w` bits of the wrapped difference
    obtain ⟨M, hM⟩ : ∃ M, (2 : Nat) ^ 32 = 2 ^ w * (M + 1) := by
      refine ⟨2 ^ (32 - w) - 1, ?_⟩
      have h1 : 0 < 2 ^ (32 - w) := Nat.two_pow_pos _
      rw [Nat.sub_add_cancel h1, ← pow_add]
      congr 1
      omega
    have hmod : (ch + (2 ^ 32 - 2 ^ k)) % 2 ^ w = ch + 2 ^ w - 2 ^ k := by
      have hsplit : ch + (2 ^ 32 - 2 ^ k) = 2 ^ w * M + (ch + 2 ^ w - 2 ^ k) := by
        have : 2 ^ w * (M + 1) = 2 ^ w * M + 2 ^ w := by ring
        omega
      rw [hsplit, Nat.mul_add_mod]
      exact Nat.mod_eq_of_lt (by omega)
    rw [hy, and_mod_of_lt _ _ w hmask, hmod, hpair _ (by omega)]
    omega

/-- The function on a pair `c1 < c2 < 2 ^ w`, with `char_mask = 2 ^ w - 1`
and `w ≤ 16`: which operation it emits in its two successful cases, and that
it fails in the third. -/
theorem ShortCutEmitCharacterPair_cases (w : Nat) (hw : w ≤ 16) (one_byte : Bool)
    (hcm : TextNode.char_mask one_byte = 2 ^ w - 1) (c1 c2 : Nat)
    (on_failure : Option Label) (st : Emitter) (h12 : c1 < c2) (hc2 : c2 < 2 ^ w) :
    ((∃ k, c1 ^^^ c2 = 2 ^ k) →
      ShortCutEmitCharacterPair one_byte c1 c2 on_failure st =
        (true, st.emit (.CheckNotCharacterAfterAnd c1 ((2 ^ w - 1) ^^^ (c1 ^^^ c2))
          on_failure))) ∧
    ((¬ ∃ k, c1 ^^^ c2 = 2 ^ k) → (∃ k, c2 - c1 = 2 ^ k) → c2 - c1 ≤ c1 →
      ShortCutEmitCharacterPair one_byte c1 c2 on_failure st =
        (true, st.emit (.CheckNotCharacterAfterMinusAnd (c1 - (c2 - c1)) (c2 - c1)
          ((2 ^ w - 1) ^^^ (c2 - c1)) on_failure))) ∧
    ((¬ ∃ k, c1 ^^^ c2 = 2 ^ k) → ¬ ((∃ k, c2 - c1 = 2 ^ k) ∧ c2 - c1 ≤ c1) →
      ShortCutEmitCharacterPair one_byte c1 c2 on_failure st = (false, st)) := by
  have hW : (2 : Nat) ^ w ≤ 2 ^ 16 := Nat.pow_le_pow_right (by norm_num) hw
  have hWpos : 0 < 2 ^ w := Nat.two_pow_pos _
  have h1 : toUc16 c1 = c1 := Nat.mod_eq_of_lt (by omega)
  have h2 : toUc16 c2 = c2 := Nat.mod_eq_of_lt (by omega)
  have hxlt : c1 ^^^ c2 < 2 ^ w := Nat.xor_lt_two_pow (by omega) hc2
  have hx : toUc16 (c1 ^^^ c2) = c1 ^^^ c2 := Nat.mod_eq_of_lt (by omega)
  have hxne : c1 ^^^ c2 ≠ 0 := fun h => by
    have := Nat.xor_eq_zero.1 h
    omega
  have hd : toUc16 (c2 + (2 ^ 16 - c1)) = c2 - c1 := by
    unfold toUc16
    omega
  have hcm' : (if one_byte = true then String.kMaxOneByteCharCode
      else String.kMaxUtf16CodeUnit) = 2 ^ w - 1 := hcm
  have hm1 : toUc16 ((2 ^ w - 1) ^^^ (c1 ^^^ c2)) = (2 ^ w - 1) ^^^ (c1 ^^^ c2) :=
    Nat.mod_eq_of_lt (lt_of_lt_of_le (Nat.xor_lt_two_pow (by omega) hxlt) hW)
  have hm2 : toUc16 ((2 ^ w - 1) ^^^ (c2 - c1)) = (2 ^ w - 1) ^^^ (c2 - c1) :=
    Nat.mod_eq_of_lt (lt_of_lt_of_le (Nat.xor_lt_two_pow (by omega) (by omega)) hW)
  have hiff1 : ((c1 ^^^ c2) - 1) &&& (c1 ^^^ c2) = 0 ↔ ∃ k, c1 ^^^ c2 = 2 ^ k := by
    constructor
    · exact pow_two_of_and_pred _ hxne
    · rintro ⟨k, hk⟩
      rw [hk]
      exact and_pred_pow_two k
  have hiff2 : (c2 - c1 - 1) &&& (c2 - c1) = 0 ↔ ∃ k, c2 - c1 = 2 ^ k := by
    constructor
    · exact pow_two_of_and_pred _ (by omega)
    · rintro ⟨k, hk⟩
      rw [hk]
      exact and_pred_pow_two k
  refine ⟨?_, ?_, ?_⟩
  · intro hbit
    unfold ShortCutEmitCharacterPair
    simp only [h1, h2, hx, hcm']
    rw [if_pos (hiff1.2 hbit), hm1]
  · intro hbit hpow hle
    have hc : toUc16 (c1 + (2 ^ 16 - (c2 - c1))) = c1 - (c2 - c1) := by
      unfold toUc16
      omega
    unfold ShortCutEmitCharacterPair
    simp only [h1, h2, hx, hcm', hd]
    rw [if_neg (fun h => hbit (hiff1.1 h)), if_pos ⟨hiff2.2 hpow, hle⟩, hm2, hc]
  · intro hbit hno
    unfold ShortCutEmitCharacterPair
    simp only [h1, h2, hx, hcm', hd]
    rw [if_neg (fun h => hbit (hiff1.1 h)), if_neg (fun h => hno ⟨hiff2.1 h.1, h.2⟩)]

/-- The statement of C30 for `char_mask = 2 ^ w - 1`. -/
theorem ShortCutEmitCharacterPair_pow (w : Nat) (hw : w ≤ 16) (one_byte : Bool)
    (hcm : TextNode.char_mask one_byte = 2 ^ w - 1) (c1 c2 : Nat)
    (on_failure : Option Label) (st : Emitter) (h12 : c1 < c2)
    (hc2 : c2 ≤ TextNode.char_mask one_byte)
    (hret : (ShortCutEmitCharacterPair one_byte c1 c2 on_failure st).1 = true) :
    ∃ op, (ShortCutEmitCharacterPair one_byte c1 c2 on_failure st).2.code = st.code ++ [op] ∧
      (∀ ch, ch ≤ TextNode.char_mask one_byte → ∀ (subject : List Nat) (position : Int),
        AssemblerOp.run subject position none ch [op] =
          if ch = c1 ∨ ch = c2 then CodeOutcome.fallThrough else CodeOutcome.goTo on_failure) ∧
      ((∃ k, c1 ^^^ c2 = 2 ^ k) →
        op = .CheckNotCharacterAfterAnd c1 (TextNode.char_mask one_byte ^^^ (c1 ^^^ c2))
          on_failure ∧
        ∀ ch, ch ≤ TextNode.char_mask one_byte →
          (ch &&& (TextNode.char_mask one_byte ^^^ (c1 ^^^ c2)) = c1 ↔ ch = c1 ∨ ch = c2)) ∧
      ((¬ ∃ k, c1 ^^^ c2 = 2 ^ k) →
        (∃ k, c2 - c1 = 2 ^ k) ∧ c2 - c1 ≤ c1 ∧
        op = .CheckNotCharacterAfterMinusAnd (c1 - (c2 - c1)) (c2 - c1)
          (TextNode.char_mask one_byte ^^^ (c2 - c1)) on_failure ∧
        ∀ ch, ch ≤ TextNode.char_mask one_byte →
          (u32 (ch + (2 ^ 32 - (c2 - c1))) &&& (TextNode.char_mask one_byte ^^^ (c2 - c1)) =
            c1 - (c2 - c1) ↔ ch = c1 ∨ ch = c2)) := by
  have hWpos : 0 < 2 ^ w := Nat.two_pow_pos _
  have hW : (2 : Nat) ^ w ≤ 2 ^ 16 := Nat.pow_le_pow_right (by norm_num) hw
  rw [hcm] at hc2 ⊢
  have hc2' : c2 < 2 ^ w := by omega
  have hlt : ∀ ch, ch ≤ 2 ^ w - 1 → ch < 2 ^ w := fun ch h =>
    Nat.lt_of_le_of_lt h (Nat.sub_lt hWpos Nat.one_pos)
  have hw32 : w ≤ 32 := by omega
  obtain ⟨e1, e2, e3⟩ := ShortCutEmitCharacterPair_cases w hw one_byte hcm c1 c2 on_failure st
    h12 hc2'
  by_cases hbit : ∃ k, c1 ^^^ c2 = 2 ^ k
  · obtain ⟨k, hk⟩ := hbit
    have hpair := pair_by_bit w c1 c2 k hw32 h12 hc2' hk
    rw [e1 ⟨k, hk⟩]
    refine ⟨_, by simp [Emitter.emit], ?_, fun _ => ⟨rfl, ?_⟩, fun h => absurd ⟨k, hk⟩ h⟩
    · intro ch hch subject position
      have := hpair ch (hlt ch hch)
      rw [← hk] at this
      by_cases hc : ch = c1 ∨ ch = c2
      · rw [if_pos hc]
        have h' := this.2 hc
        simp only [AssemblerOp.run, ne_eq, h', not_true_eq_false, if_false]
      · rw [if_neg hc]
        have hne : ¬ ch &&& ((2 ^ w - 1) ^^^ (c1 ^^^ c2)) = c1 := fun h => hc (this.1 h)
        simp only [AssemblerOp.run, ne_eq, hne, not_false_eq_true, if_true]
        cases on_failure <;> rfl
    · intro ch hch
      have := hpair ch (hlt ch hch)
      rw [← hk] at this
      exact this
  · have hsecond : (∃ k, c2 - c1 = 2 ^ k) ∧ c2 - c1 ≤ c1 := by
      by_contra hno
      rw [e3 hbit hno] at hret
      simp at hret
    obtain ⟨⟨k, hk⟩, hle⟩ := hsecond
    have hnot : c1 ^^^ c2 ≠ 2 ^ k := fun h => hbit ⟨k, h⟩
    have hpair := pair_by_difference w c1 c2 k hw32 h12 hc2' hk (hk ▸ hle) hnot
    have hud : u32 (c2 - c1) = c2 - c1 :=
      Nat.mod_eq_of_lt (lt_of_le_of_lt (Nat.sub_le c2 c1) (lt_of_lt_of_le hc2' (le_trans hW (by norm_num))))
    rw [e2 hbit ⟨k, hk⟩ hle]
    refine ⟨_, by simp [Emitter.emit], ?_, fun h => absurd h hbit,
      fun _ => ⟨⟨k, hk⟩, hle, rfl, ?_⟩⟩
    · intro ch hch subject position
      have := hpair ch (hlt ch hch)
      rw [← hk] at this
      by_cases hc : ch = c1 ∨ ch = c2
      · rw [if_pos hc]
        have h' := this.2 hc
        simp only [AssemblerOp.run, hud, ne_eq, h', not_true_eq_false, if_false]
      · rw [if_neg hc]
        have hne : ¬ u32 (ch + (2 ^ 32 - (c2 - c1))) &&& ((2 ^ w - 1) ^^^ (c2 - c1)) =
            c1 - (c2 - c1) := fun h => hc (this.1 h)
        simp only [AssemblerOp.run, hud, ne_eq, hne, not_false_eq_true, if_true]
        cases on_failure <;> rfl
    · intro ch hch
      have := hpair ch (hlt ch hch)
      rw [← hk] at this
      exact this

/-- C30: for every pair `c1 < c2 <= char_mask` for which
`ShortCutEmitCharacterPair` returns true, it emits a single comparison, and
that comparison, run on a code unit `ch <= char_mask`, falls through for
`c1` and `c2` and goes to `on_failure` for every other code unit.  When the
two characters differ in one bit, the comparison is
`(ch & (char_mask ^ (c1 ^ c2))) == c1`, which holds iff `ch` is `c1` or
`c2`; otherwise `d = c2 - c1` is a power of two, `c1 >= d`, and the
comparison is `((ch - d) & (char_mask ^ d)) == c1 - d` with the subtraction
on 32 bits, which holds iff `ch` is `c1` or `c2`. -/
theorem ShortCutEmitCharacterPair_spec (one_byte : Bool) (c1 c2 : Nat)
    (on_failure : Option Label) (st : Emitter) (h12 : c1 < c2)
    (hc2 : c2 ≤ TextNode.char_mask one_byte)
    (hret : (ShortCutEmitCharacterPair one_byte c1 c2 on_failure st).1 = true) :
    ∃ op, (ShortCutEmitCharacterPair one_byte c1 c2 on_failure st).2.code = st.code ++ [op] ∧
      (∀ ch, ch ≤ TextNode.char_mask one_byte → ∀ (subject : List Nat) (position : Int),
        AssemblerOp.run subject position none ch [op] =
          if ch = c1 ∨ ch = c2 then CodeOutcome.fallThrough else CodeOutcome.goTo on_failure) ∧
      ((∃ k, c1 ^^^ c2 = 2 ^ k) →
        op = .CheckNotCharacterAfterAnd c1 (TextNode.char_mask one_byte ^^^ (c1 ^^^ c2))
          on_failure ∧
        ∀ ch, ch ≤ TextNode.char_mask one_byte →
          (ch &&& (TextNode.char_mask one_byte ^^^ (c1 ^^^ c2)) = c1 ↔ ch = c1 ∨ ch = c2)) ∧
      ((¬ ∃ k, c1 ^^^ c2 = 2 ^ k) →
        (∃ k, c2 - c1 = 2 ^ k) ∧ c2 - c1 ≤ c1 ∧
        op = .CheckNotCharacterAfterMinusAnd (c1 - (c2 - c1)) (c2 - c1)
          (TextNode.char_mask one_byte ^^^ (c2 - c1)) on_failure ∧
        ∀ ch, ch ≤ TextNode.char_mask one_byte →
          (u32 (ch + (2 ^ 32 - (c2 - c1))) &&& (TextNode.char_mask one_byte ^^^ (c2 - c1)) =
            c1 - (c2 - c1) ↔ ch = c1 ∨ ch = c2)) := by
  cases one_byte with
  | true =>
    exact ShortCutEmitCharacterPair_pow 8 (by norm_num) true rfl c1 c2 on_failure st h12 hc2 hret
  | false =>
    exact ShortCutEmitCharacterPair_pow 16 (by norm_num) false rfl c1 c2 on_failure st h12 hc2
      hret

/-- Witness for C30: the one-byte pair 0x3C, 0x44 differs by 8 and in more
than one bit; the comparison emitted lets 0x44 pass and sends 0x43 to the
null failure label, a backtrack. -/
theorem ShortCutEmitCharacterPair_spec_witness :
    (ShortCutEmitCharacterPair true 0x3C 0x44 none (Emitter.new [])).1 = true ∧
    ∃ op, (ShortCutEmitCharacterPair true 0x3C 0x44 none (Emitter.new [])).2.code =
        (Emitter.new []).code ++ [op] ∧
      AssemblerOp.run [] 0 none 0x44 [op] = CodeOutcome.fallThrough ∧
      AssemblerOp.run [] 0 none 0x43 [op] = CodeOutcome.backtrack := by
  obtain ⟨op, h1, h2, _⟩ := ShortCutEmitCharacterPair_spec true 0x3C 0x44 none (Emitter.new [])
    (by decide) (by decide) (by decide)
  exact ⟨by decide, op, h1, by rw [h2 0x44 (by decide)]; rfl, by rw [h2 0x43 (by decide)]; rfl⟩

/-! ## Few different characters: the count of distinct values -/

/-- A code unit masked with 127 is an index of the array `character_found`. -/
theorem and_127_lt (c : Nat) : c &&& (128 - 1) < 128 := by
  have h : c &&& (128 - 1) = c % 2 ^ 7 := Nat.and_pow_two_sub_one_eq_mod c 7
  rw [h]
  exact Nat.mod_lt _ (by norm_num)

/-- The loop of `HasFewDifferentCharacters`, started with an array that
marks exactly the values of the set `seen` and with `different` equal to the
size of that set, answers whether the values seen at the end are at most a
third of `length`. -/
theorem HasFewDifferentCharacters.loop_result (length : Nat) (rest : List Nat) :
    ∀ (seen : Finset Nat) (character_found : List Bool),
      character_found.length = 128 →
      (∀ v, v < 128 → (character_found.getD v false = true ↔ v ∈ seen)) →
      3 * seen.card ≤ length →
      (HasFewDifferentCharacters.loop length rest character_found seen.card = true ↔
        3 * (seen ∪ (rest.map (fun c => c &&& (128 - 1))).toFinset).card ≤ length) := by
  induction rest with
  | nil =>
    intro seen character_found _ _ hcard
    simp [HasFewDifferentCharacters.loop, hcard]
  | cons c rest ih =>
    intro seen character_found hlen hfound hcard
    have hlt := and_127_lt c
    have hunion : seen ∪ ((c :: rest).map (fun c => c &&& (128 - 1))).toFinset =
        insert (c &&& (128 - 1)) seen ∪ (rest.map (fun c => c &&& (128 - 1))).toFinset := by
      ext v
      simp only [List.map_cons, List.toFinset_cons, Finset.mem_union, Finset.mem_insert]
      tauto
    rw [hunion]
    by_cases hmem : c &&& (128 - 1) ∈ seen
    · have hget : character_found.getD (c &&& (128 - 1)) false = true := (hfound _ hlt).2 hmem
      rw [Finset.insert_eq_of_mem hmem]
      simp only [HasFewDifferentCharacters.loop, hget, Bool.not_true, Bool.false_eq_true,
        if_false]
      exact ih seen character_found hlen hfound hcard
    · have hget : character_found.getD (c &&& (128 - 1)) false = false := by
        cases hg : character_found.getD (c &&& (128 - 1)) false
        · rfl
        · exact absurd ((hfound _ hlt).1 hg) hmem
      have hins : (insert (c &&& (128 - 1)) seen).card = seen.card + 1 :=
        Finset.card_insert_of_not_mem hmem
      simp only [HasFewDifferentCharacters.loop, hget, Bool.not_false, if_true]
      by_cases hmany : (seen.card + 1) * 3 > length
      · rw [if_pos hmany]
        constructor
        · intro h
          exact absurd h (by simp)
        · intro h
          have hsub : (insert (c &&& (128 - 1)) seen).card ≤
              (insert (c &&& (128 - 1)) seen ∪
                (rest.map (fun c => c &&& (128 - 1))).toFinset).card :=
            Finset.card_le_card Finset.subset_union_left
          omega
      · rw [if_neg hmany]
        have hstep := ih (insert (c &&& (128 - 1)) seen)
          (character_found.set (c &&& (128 - 1)) true) (by simpa using hlen)
          (by
            intro v hv
            rw [List.getD_eq_getElem?_getD]
            by_cases hvc : c &&& (128 - 1) = v
            · subst hvc
              rw [List.getElem?_set_self (by omega)]
              simp
            · rw [List.getElem?_set_ne hvc, ← List.getD_eq_getElem?_getD, hfound v hv]
              simp only [Finset.mem_insert]
              constructor
              · intro h
                exact Or.inr h
              · intro h
                rcases h with h | h
                · exact absurd h.symm hvc
                · exact h)
          (by omega)
        rw [hins] at hstep
        exact hstep

/-- C33. `HasFewDifferentCharacters(pattern)` is true exactly when
`n = min(8, |pattern|)` is greater than 2 and the number `d` of distinct
values `ch & 127` among the first `n` code units of the pattern satisfies
`3 * d <= n`. -/
theorem HasFewDifferentCharacters_iff (pattern : List Nat) :
    HasFewDifferentCharacters pattern = true ↔
      2 < min 8 pattern.length ∧
        3 * (((pattern.take (min 8 pattern.length)).map (fun ch => ch &&& 127)).dedup.length) ≤
          min 8 pattern.length := by
  have hloop := HasFewDifferentCharacters.loop_result (min 8 pattern.length)
    (pattern.take (min 8 pattern.length)) ∅ (List.replicate 128 false) (by simp)
    (by
      intro v hv
      rw [List.getD_eq_getElem?_getD, List.getElem?_replicate, if_pos hv]
      simp)
    (by simp)
  simp only [Finset.card_empty, Finset.empty_union, List.card_toFinset] at hloop
  unfold HasFewDifferentCharacters
  simp only [kMaxLookaheadForBoyerMoore, kPatternTooShortForBoyerMoore]
  by_cases hshort : min 8 pattern.length ≤ 2
  · rw [if_pos hshort]
    constructor
    · intro h
      exact absurd h (by simp)
    · intro h
      omega
  · rw [if_neg hshort]
    constructor
    · intro h
      exact ⟨by omega, hloop.1 h⟩
    · intro h
      exact hloop.2 h.2

/-! ## The lattice value that AddRange returns -/

/-- The loop of `AddRange` on increasing boundaries, once `last` is not
above the start of the interval: it stops at the first boundary above the
start, and the value of `inside` there is the starting value flipped once
for each boundary passed. -/
theorem AddRange.loop_folds
    (Combine : ContainedInLattice → ContainedInLattice → ContainedInLattice)
    (containment : ContainedInLattice) (new_range : Interval) (rest : List Int) :
    ∀ (inside : Bool) (last : Int), last ≤ new_range.from_ →
      (∃ r ∈ rest, new_range.to_ < r) → rest.Pairwise (fun a b => a < b) →
      new_range.from_ ≤ new_range.to_ →
      AddRange.loop Combine containment new_range rest inside last =
        if RangeBoundaries.straddled rest new_range then .kLatticeUnknown
        else Combine containment
          (if xor inside (decide ((rest.countP (fun r => decide (r ≤ new_range.from_))) % 2 = 1))
            then .kLatticeIn else .kLatticeOut) := by
  induction rest with
  | nil =>
    intro inside last _ hex
    obtain ⟨r, hr, _⟩ := hex
    exact absurd hr (List.not_mem_nil r)
  | cons r rest ih =>
    intro inside last hlast hex hsorted hft
    rw [List.pairwise_cons] at hsorted
    by_cases hr : r ≤ new_range.from_
    · have hex2 : ∃ r2 ∈ rest, new_range.to_ < r2 := by
        obtain ⟨r2, hr2, hlt⟩ := hex
        rcases List.mem_cons.1 hr2 with h | h
        · subst h
          omega
        · exact ⟨r2, h, hlt⟩
      have hstep := ih (!inside) r hr hex2 hsorted.2 hft
      have hstr : RangeBoundaries.straddled (r :: rest) new_range =
          RangeBoundaries.straddled rest new_range := by
        have hno : ¬ new_range.from_ < r := by omega
        simp [RangeBoundaries.straddled, hno]
      have hcount : (r :: rest).countP (fun r => decide (r ≤ new_range.from_)) =
          rest.countP (fun r => decide (r ≤ new_range.from_)) + 1 := by
        rw [List.countP_cons_of_pos]
        simpa using hr
      simp only [AddRange.loop, hr, if_true, hstep, hstr, hcount]
      have hpar : ∀ n : Nat, decide ((n + 1) % 2 = 1) = !decide (n % 2 = 1) := by
        intro n
        rcases Nat.mod_two_eq_zero_or_one n with h | h
        · have h2 : (n + 1) % 2 = 1 := by omega
          simp [h, h2]
        · have h2 : (n + 1) % 2 = 0 := by omega
          simp [h, h2]
      rw [hpar]
      cases inside <;> cases decide (rest.countP (fun r => decide (r ≤ new_range.from_)) % 2 = 1) <;>
        rfl
    · have hzero : (r :: rest).countP (fun r => decide (r ≤ new_range.from_)) = 0 := by
        rw [List.countP_eq_zero]
        intro a ha
        rcases List.mem_cons.1 ha with h | h
        · subst h
          simpa using hr
        · have := hsorted.1 a h
          simp only [decide_eq_true_eq]
          omega
      have hstr : RangeBoundaries.straddled (r :: rest) new_range = decide (r ≤ new_range.to_) := by
        by_cases hto : r ≤ new_range.to_
        · have hfrom : new_range.from_ < r := by omega
          simp [RangeBoundaries.straddled, hto, hfrom]
        · have hrest : ∀ a ∈ rest, ¬ a ≤ new_range.to_ := by
            intro a ha
            have := hsorted.1 a ha
            omega
          simp only [RangeBoundaries.straddled, List.any_cons, hto, decide_False, Bool.and_false,
            Bool.false_or]
          rw [List.any_eq_false]
          intro a ha
          simp [hrest a ha]
      rw [hstr, hzero]
      by_cases hto : r ≤ new_range.to_
      · have hno : ¬ (last ≤ new_range.from_ ∧ new_range.to_ < r) := by omega
        simp [AddRange.loop, hr, hno, hto]
      · have hyes : last ≤ new_range.from_ ∧ new_range.to_ < r := ⟨hlast, by omega⟩
        simp [AddRange.loop, hr, hyes, hto]

/-- Counting the boundaries up to `c`, one boundary at a time. -/
theorem RangeBoundaries.countP_cons (r c : Int) (rest : List Int) :
    (r :: rest).countP (fun r => decide (r ≤ c)) =
      rest.countP (fun r => decide (r ≤ c)) + if r ≤ c then 1 else 0 := by
  rw [List.countP_cons]
  simp

/-- On increasing boundaries, the boundaries up to `b` are those up to
`b - 1` and, when `b` is a boundary itself, `b`. -/
theorem RangeBoundaries.countP_boundary (ranges : List Int) (b : Int) (hb : b ∈ ranges)
    (hsorted : ranges.Pairwise (fun a b => a < b)) :
    ranges.countP (fun r => decide (r ≤ b)) =
      ranges.countP (fun r => decide (r ≤ b - 1)) + 1 := by
  induction ranges with
  | nil => exact absurd hb (List.not_mem_nil b)
  | cons r rest ih =>
    rw [List.pairwise_cons] at hsorted
    rcases List.mem_cons.1 hb with h | h
    · subst h
      have hrest : ∀ a ∈ rest, ¬ a ≤ b := by
        intro a ha
        have := hsorted.1 a ha
        omega
      have h1 : rest.countP (fun r => decide (r ≤ b)) = 0 := by
        rw [List.countP_eq_zero]
        intro a ha
        simpa using hrest a ha
      have h2 : rest.countP (fun r => decide (r ≤ b - 1)) = 0 := by
        rw [List.countP_eq_zero]
        intro a ha
        have := hrest a ha
        simp only [decide_eq_true_eq]
        omega
      have hself : ¬ b ≤ b - 1 := by omega
      rw [RangeBoundaries.countP_cons, RangeBoundaries.countP_cons, h1, h2, if_pos (le_refl b),
        if_neg hself]
    · have hlt : r < b := hsorted.1 b h
      have hstep := ih h hsorted.2
      rw [RangeBoundaries.countP_cons, RangeBoundaries.countP_cons, hstep,
        if_pos (show r ≤ b by omega), if_pos (show r ≤ b - 1 by omega)]

/-- The class of an odd number of increasing boundaries holds the code
points below the last boundary that have an odd number of boundaries at or
below them. -/
theorem RangeBoundaries.contains_parity (n : Nat) :
    ∀ (ranges : List Int) (c : Int), ranges.length = 2 * n + 1 →
      ranges.Pairwise (fun a b => a < b) → (∃ r ∈ ranges, c < r) →
      RangeBoundaries.contains ranges c =
        decide ((ranges.countP (fun r => decide (r ≤ c))) % 2 = 1) := by
  induction n with
  | zero =>
    intro ranges c hlen _ hex
    match ranges, hlen, hex with
    | [x], _, hex =>
      obtain ⟨r, hr, hlt⟩ := hex
      have hrx : r = x := by simpa using hr
      subst hrx
      have hno : ¬ r ≤ c := by omega
      simp [RangeBoundaries.contains, hno]
  | succ n ih =>
    intro ranges c hlen hsorted hex
    match ranges, hlen, hsorted, hex with
    | lo :: hi :: rest, hlen, hsorted, hex =>
      have hlen2 : rest.length = 2 * n + 1 := by
        simp only [List.length_cons] at hlen
        omega
      rw [List.pairwise_cons, List.pairwise_cons] at hsorted
      have hlohi : lo < hi := hsorted.1 hi (List.mem_cons_self _ _)
      by_cases hhi : hi ≤ c
      · have hex2 : ∃ r ∈ rest, c < r := by
          obtain ⟨r, hr, hlt⟩ := hex
          rcases List.mem_cons.1 hr with h | h
          · subst h
            omega
          · rcases List.mem_cons.1 h with h2 | h2
            · subst h2
              omega
            · exact ⟨r, h2, hlt⟩
        have hstep := ih rest c hlen2 hsorted.2.2 hex2
        have hno : ¬ c < hi := by omega
        rw [RangeBoundaries.countP_cons, RangeBoundaries.countP_cons,
          if_pos (show lo ≤ c by omega), if_pos hhi]
        simp only [RangeBoundaries.contains, hno, decide_False, Bool.and_false, Bool.false_or,
          hstep]
        congr 1
        apply propext
        constructor <;> intro h <;> omega
      · have hrest : rest.countP (fun r => decide (r ≤ c)) = 0 := by
          rw [List.countP_eq_zero]
          intro a ha
          have := hsorted.2.1 a ha
          simp only [decide_eq_true_eq]
          omega
        have hcontains : RangeBoundaries.contains rest c = false := by
          have hex2 : ∃ r ∈ rest, c < r := by
            match rest, hlen2 with
            | x :: _, _ =>
              exact ⟨x, List.mem_cons_self _ _, by
                have := hsorted.2.1 x (List.mem_cons_self _ _)
                omega⟩
          rw [ih rest c hlen2 hsorted.2.2 hex2, hrest]
          simp
        rw [RangeBoundaries.countP_cons, RangeBoundaries.countP_cons, hrest, if_neg hhi]
        by_cases hlo : lo ≤ c
        · rw [if_pos hlo]
          have hlt : c < hi := by omega
          simp [RangeBoundaries.contains, hlo, hlt]
        · rw [if_neg hlo]
          simp [RangeBoundaries.contains, hlo, hcontains]

/-- An interval that straddles no boundary has the same boundaries at or
below each of its code points. -/
theorem RangeBoundaries.countP_of_not_straddled (ranges : List Int) (new_range : Interval)
    (hno : RangeBoundaries.straddled ranges new_range = false) (c : Int)
    (hfrom : new_range.from_ ≤ c) (hto : c ≤ new_range.to_) :
    ranges.countP (fun r => decide (r ≤ c)) =
      ranges.countP (fun r => decide (r ≤ new_range.from_)) := by
  apply List.countP_congr
  intro r hr
  have hr2 : ¬ (new_range.from_ < r ∧ r ≤ new_range.to_) := by
    intro h
    have hany : RangeBoundaries.straddled ranges new_range = true := by
      unfold RangeBoundaries.straddled
      rw [List.any_eq_true]
      exact ⟨r, hr, by simp [h.1, h.2]⟩
    rw [hno] at hany
    exact absurd hany (by simp)
  simp only [decide_eq_true_eq]
  constructor <;> intro h <;> omega

/-- C39. For a strictly increasing boundary array of odd length that ends
in `0x110000` and an interval with `0 <= from <= to <= 0x10FFFF`, `AddRange`
returns `kLatticeUnknown` when `containment` is already `kLatticeUnknown` or
when the interval straddles a boundary of the class; otherwise the interval
lies wholly inside or wholly outside the class, and `AddRange` returns
`Combine(containment, kLatticeIn)` in the first case and
`Combine(containment, kLatticeOut)` in the second. -/
theorem AddRange_spec
    (Combine : ContainedInLattice → ContainedInLattice → ContainedInLattice)
    (containment : ContainedInLattice) (ranges : List Int) (new_range : Interval)
    (hsorted : ranges.Pairwise (fun a b => a < b)) (hodd : ranges.length % 2 = 1)
    (hlast : ranges.getLast? = some 0x110000)
    (h0 : 0 ≤ new_range.from_) (hft : new_range.from_ ≤ new_range.to_)
    (hto : new_range.to_ ≤ 0x10FFFF) :
    (containment = .kLatticeUnknown →
      AddRange Combine containment ranges new_range = .kLatticeUnknown) ∧
    (containment ≠ .kLatticeUnknown →
      (RangeBoundaries.straddled ranges new_range = true →
        AddRange Combine containment ranges new_range = .kLatticeUnknown) ∧
      (RangeBoundaries.straddled ranges new_range = false →
        (∀ c, new_range.from_ ≤ c → c ≤ new_range.to_ →
          RangeBoundaries.contains ranges c = true) ∨
        (∀ c, new_range.from_ ≤ c → c ≤ new_range.to_ →
          RangeBoundaries.contains ranges c = false)) ∧
      ((∀ c, new_range.from_ ≤ c → c ≤ new_range.to_ →
          RangeBoundaries.contains ranges c = true) →
        AddRange Combine containment ranges new_range = Combine containment .kLatticeIn) ∧
      ((∀ c, new_range.from_ ≤ c → c ≤ new_range.to_ →
          RangeBoundaries.contains ranges c = false) →
        AddRange Combine containment ranges new_range = Combine containment .kLatticeOut)) := by
  have hmem : (0x110000 : Int) ∈ ranges := List.mem_of_getLast?_eq_some hlast
  have hex : ∀ c, c ≤ new_range.to_ → ∃ r ∈ ranges, c < r := by
    intro c hc
    exact ⟨0x110000, hmem, by omega⟩
  have hlen : ranges.length = 2 * (ranges.length / 2) + 1 := by omega
  have hparity : ∀ c, c ≤ new_range.to_ → RangeBoundaries.contains ranges c =
      decide ((ranges.countP (fun r => decide (r ≤ c))) % 2 = 1) := by
    intro c hc
    exact RangeBoundaries.contains_parity _ ranges c hlen hsorted (hex c hc)
  have hloop := AddRange.loop_folds Combine containment new_range ranges false 0 h0
    (hex _ (le_refl _)) hsorted hft
  simp only [Bool.false_xor] at hloop
  rw [← hparity _ hft] at hloop
  have hmixed : RangeBoundaries.straddled ranges new_range = true →
      ∃ c d, new_range.from_ ≤ c ∧ c ≤ new_range.to_ ∧ new_range.from_ ≤ d ∧
        d ≤ new_range.to_ ∧ RangeBoundaries.contains ranges c ≠ RangeBoundaries.contains ranges d := by
    intro hstr
    unfold RangeBoundaries.straddled at hstr
    rw [List.any_eq_true] at hstr
    obtain ⟨b, hb, hcond⟩ := hstr
    simp only [Bool.and_eq_true, decide_eq_true_eq] at hcond
    refine ⟨b - 1, b, by omega, by omega, by omega, hcond.2, ?_⟩
    rw [hparity (b - 1) (by omega), hparity b hcond.2,
      RangeBoundaries.countP_boundary ranges b hb hsorted]
    rcases Nat.mod_two_eq_zero_or_one (ranges.countP (fun r => decide (r ≤ b - 1))) with h | h
    · have h2 : (ranges.countP (fun r => decide (r ≤ b - 1)) + 1) % 2 = 1 := by omega
      simp [h, h2]
    · have h2 : (ranges.countP (fun r => decide (r ≤ b - 1)) + 1) % 2 = 0 := by omega
      simp [h, h2]
  have hsame : RangeBoundaries.straddled ranges new_range = false →
      ∀ c, new_range.from_ ≤ c → c ≤ new_range.to_ →
        RangeBoundaries.contains ranges c = RangeBoundaries.contains ranges new_range.from_ := by
    intro hno c hc1 hc2
    rw [hparity c hc2, hparity _ hft,
      RangeBoundaries.countP_of_not_straddled ranges new_range hno c hc1 hc2]
  refine ⟨?_, ?_⟩
  · intro hunknown
    simp [AddRange, hunknown]
  · intro hknown
    have hadd : AddRange Combine containment ranges new_range =
        AddRange.loop Combine containment new_range ranges false 0 := by
      simp [AddRange, hknown]
    rw [hadd, hloop]
    refine ⟨?_, ?_, ?_, ?_⟩
    · intro hstr
      rw [if_pos hstr]
    · intro hno
      cases hin : RangeBoundaries.contains ranges new_range.from_
      · right
        intro c hc1 hc2
        rw [hsame hno c hc1 hc2, hin]
      · left
        intro c hc1 hc2
        rw [hsame hno c hc1 hc2, hin]
    · intro hall
      cases hstr : RangeBoundaries.straddled ranges new_range
      · simp [hall _ (le_refl _) hft]
      · obtain ⟨c, d, hc1, hc2, hd1, hd2, hne⟩ := hmixed hstr
        rw [hall c hc1 hc2, hall d hd1 hd2] at hne
        exact absurd rfl hne
    · intro hall
      cases hstr : RangeBoundaries.straddled ranges new_range
      · simp [hall _ (le_refl _) hft]
      · obtain ⟨c, d, hc1, hc2, hd1, hd2, hne⟩ := hmixed hstr
        rw [hall c hc1 hc2, hall d hd1 hd2] at hne
        exact absurd rfl hne

/-- The statement of `AddRange_spec` at the word class, the containment
`kLatticeIn` and the interval of the lower-case letters `a` to `f`. -/
theorem AddRange_spec_witness :
    (ContainedInLattice.kLatticeIn = .kLatticeUnknown →
      AddRange ContainedInLattice.join .kLatticeIn RangeBoundaries.exampleWord ⟨97, 102⟩ =
        .kLatticeUnknown) ∧
    (ContainedInLattice.kLatticeIn ≠ .kLatticeUnknown →
      (RangeBoundaries.straddled RangeBoundaries.exampleWord ⟨97, 102⟩ = true →
        AddRange ContainedInLattice.join .kLatticeIn RangeBoundaries.exampleWord ⟨97, 102⟩ =
          .kLatticeUnknown) ∧
      (RangeBoundaries.straddled RangeBoundaries.exampleWord ⟨97, 102⟩ = false →
        (∀ c, (97 : Int) ≤ c → c ≤ (102 : Int) →
          RangeBoundaries.contains RangeBoundaries.exampleWord c = true) ∨
        (∀ c, (97 : Int) ≤ c → c ≤ (102 : Int) →
          RangeBoundaries.contains RangeBoundaries.exampleWord c = false)) ∧
      ((∀ c, (97 : Int) ≤ c → c ≤ (102 : Int) →
          RangeBoundaries.contains RangeBoundaries.exampleWord c = true) →
        AddRange ContainedInLattice.join .kLatticeIn RangeBoundaries.exampleWord ⟨97, 102⟩ =
          ContainedInLattice.join .kLatticeIn .kLatticeIn) ∧
      ((∀ c, (97 : Int) ≤ c → c ≤ (102 : Int) →
          RangeBoundaries.contains RangeBoundaries.exampleWord c = false) →
        AddRange ContainedInLattice.join .kLatticeIn RangeBoundaries.exampleWord ⟨97, 102⟩ =
          ContainedInLattice.join .kLatticeIn .kLatticeOut)) :=
  AddRange_spec ContainedInLattice.join .kLatticeIn RangeBoundaries.exampleWord ⟨97, 102⟩
    (by decide) (by decide) (by decide) (by decide) (by decide) (by decide)

/-! ## The map of a position info after SetInterval -/

/-- Setting a clear entry of a boolean list adds one to the number of its
set entries. -/
theorem count_set_true (map : List Bool) :
    ∀ (m : Nat), m < map.length → map.getD m false = false →
      (map.set m true).count true = map.count true + 1 := by
  induction map with
  | nil =>
    intro m hm
    exact absurd hm (by simp)
  | cons b rest ih =>
    intro m hm hget
    cases m with
    | zero =>
      have hb : b = false := by simpa using hget
      subst hb
      simp [List.set]
    | succ m =>
      have hstep := ih m (by simpa using hm) (by simpa using hget)
      cases b <;> simp [List.set, List.count_cons, hstep]

/-- A boolean list whose set entries are as many as its entries has every
entry set. -/
theorem getD_of_count_eq_length (map : List Bool) (h : map.count true = map.length) (j : Nat)
    (hj : j < map.length) : map.getD j false = true := by
  rw [List.count_eq_length] at h
  rw [List.getD_eq_getElem?_getD, List.getElem?_eq_getElem hj]
  exact (h _ (List.getElem_mem hj)).symm

/-- The index `i & kMask` of a non-negative `i`. -/
theorem BoyerMoorePositionInfo.land_kMask (c : Nat) :
    (Int.land (c : Int) BoyerMoorePositionInfo.kMask).toNat = c &&& 127 := rfl

/-- The loop of `SetInterval` keeps the size of the map, keeps `map_count_`
equal to the number of set entries, and sets exactly the entries `i & 127`
of the values `i` it was given. -/
theorem BoyerMoorePositionInfo.SetInterval.loop_marks (values : List Int) :
    ∀ (map : List Bool) (map_count : Nat), map.length = 128 → map_count = map.count true →
      (∀ i ∈ values, 0 ≤ i) →
      (BoyerMoorePositionInfo.SetInterval.loop values map map_count).1.length = 128 ∧
      (BoyerMoorePositionInfo.SetInterval.loop values map map_count).2 =
        (BoyerMoorePositionInfo.SetInterval.loop values map map_count).1.count true ∧
      ∀ j, j < 128 →
        ((BoyerMoorePositionInfo.SetInterval.loop values map map_count).1.getD j false = true ↔
          map.getD j false = true ∨
            ∃ i ∈ values, (Int.land i BoyerMoorePositionInfo.kMask).toNat = j) := by
  induction values with
  | nil =>
    intro map map_count hlen hcount _
    simp [BoyerMoorePositionInfo.SetInterval.loop, hlen, hcount]
  | cons i rest ih =>
    intro map map_count hlen hcount hpos
    obtain ⟨c, hc⟩ := Int.eq_ofNat_of_zero_le (hpos i (List.mem_cons_self _ _))
    subst hc
    have hm : c &&& 127 < 128 := and_127_lt c
    have hrestpos : ∀ i ∈ rest, 0 ≤ i := fun i hi => hpos i (List.mem_cons_of_mem _ hi)
    -- the state after the body of the loop
    have hbody : ∃ map1 count1,
        (if !map.getD (c &&& 127) false then ((map.set (c &&& 127) true, map_count + 1) :
            List Bool × Nat) else (map, map_count)) = (map1, count1) ∧
        map1.length = 128 ∧ count1 = map1.count true ∧
        ∀ j, j < 128 → (map1.getD j false = true ↔ map.getD j false = true ∨ c &&& 127 = j) := by
      cases hget : map.getD (c &&& 127) false
      · refine ⟨map.set (c &&& 127) true, map_count + 1, by simp, by simpa using hlen, ?_, ?_⟩
        · rw [count_set_true map _ (by omega) hget, hcount]
        · intro j hj
          rw [List.getD_eq_getElem?_getD]
          by_cases hjm : c &&& 127 = j
          · subst hjm
            rw [List.getElem?_set_self (by omega)]
            simp
          · rw [List.getElem?_set_ne hjm, ← List.getD_eq_getElem?_getD]
            simp [hjm]
      · refine ⟨map, map_count, by simp, hlen, hcount, ?_⟩
        intro j hj
        constructor
        · intro h
          exact Or.inl h
        · intro h
          rcases h with h | h
          · exact h
          · subst h
            exact hget
    obtain ⟨map1, count1, hstate, hlen1, hcount1, hset1⟩ := hbody
    have hunfold : BoyerMoorePositionInfo.SetInterval.loop ((c : Int) :: rest) map map_count =
        if count1 = BoyerMoorePositionInfo.kMapSize then (map1, count1)
        else BoyerMoorePositionInfo.SetInterval.loop rest map1 count1 := by
      simp only [BoyerMoorePositionInfo.SetInterval.loop, BoyerMoorePositionInfo.land_kMask]
      rw [hstate]
    rw [hunfold]
    by_cases hfull : count1 = BoyerMoorePositionInfo.kMapSize
    · rw [if_pos hfull]
      refine ⟨hlen1, hcount1, ?_⟩
      intro j hj
      have hall : map1.getD j false = true :=
        getD_of_count_eq_length map1 (by
          rw [← hcount1, hfull, hlen1]
          rfl) j (by omega)
      constructor
      · intro h
        rcases (hset1 j hj).1 h with h2 | h2
        · exact Or.inl h2
        · exact Or.inr ⟨(c : Int), List.mem_cons_self _ _, by
            rw [BoyerMoorePositionInfo.land_kMask]
            exact h2⟩
      · intro _
        exact hall
    · rw [if_neg hfull]
      obtain ⟨h1, h2, h3⟩ := ih map1 count1 hlen1 hcount1 hrestpos
      refine ⟨h1, h2, ?_⟩
      intro j hj
      rw [h3 j hj, hset1 j hj]
      constructor
      · intro h
        rcases h with (h | h) | ⟨i, hi, h⟩
        · exact Or.inl h
        · exact Or.inr ⟨(c : Int), List.mem_cons_self _ _, by
            rw [BoyerMoorePositionInfo.land_kMask]
            exact h⟩
        · exact Or.inr ⟨i, List.mem_cons_of_mem _ hi, h⟩
      · intro h
        rcases h with h | ⟨i, hi, h⟩
        · exact Or.inl (Or.inl h)
        · rcases List.mem_cons.1 hi with hic | hir
          · subst hic
            rw [BoyerMoorePositionInfo.land_kMask] at h
            exact Or.inl (Or.inr h)
          · exact Or.inr ⟨i, hir, h⟩

/-- Setting the entries `0 .. n - 1` of a boolean list one after the other
keeps its length and sets those entries. -/
theorem foldl_set_true (n : Nat) (map : List Bool) :
    ((List.range n).foldl (fun map i => map.set i true) map).length = map.length ∧
    ∀ j, j < map.length → j < n →
      ((List.range n).foldl (fun map i => map.set i true) map).getD j false = true := by
  induction n with
  | zero =>
    refine ⟨by simp, ?_⟩
    intro j _ hj
    exact absurd hj (by simp)
  | succ n ih =>
    rw [List.range_succ, List.foldl_append]
    simp only [List.foldl_cons, List.foldl_nil, List.length_set]
    refine ⟨ih.1, ?_⟩
    intro j hj hjn
    rw [List.getD_eq_getElem?_getD]
    by_cases hjeq : n = j
    · subst hjeq
      rw [List.getElem?_set_self (by rw [ih.1]; exact hj)]
      rfl
    · rw [List.getElem?_set_ne hjeq, ← List.getD_eq_getElem?_getD]
      exact ih.2 j hj (by omega)

/-- The values that the loop variable of `SetInterval` takes are the
integers of the interval. -/
theorem Interval.mem_values (interval : Interval) (i : Int) :
    i ∈ interval.values ↔ interval.from_ ≤ i ∧ i ≤ interval.to_ := by
  unfold Interval.values
  simp only [List.mem_map, List.mem_range]
  constructor
  · rintro ⟨k, hk, rfl⟩
    omega
  · intro h
    exact ⟨(i - interval.from_).toNat, by omega, by omega⟩

/-- C31. For a position info whose `map_count_` equals the number of its
set map entries and an interval with `0 <= from <= to`, after
`BoyerMoorePositionInfo::SetInterval` the set map entries are exactly the
entries set before together with `c & 127` for every `c` of `[from, to]`,
and `map_count_` again equals the number of set entries. -/
theorem BoyerMoorePositionInfo.SetInterval_map (k : BoyerMoorePositionInfo.ClassRanges)
    (Combine : ContainedInLattice → ContainedInLattice → ContainedInLattice)
    (info : BoyerMoorePositionInfo) (interval : Interval)
    (hlen : info.map_.length = BoyerMoorePositionInfo.kMapSize)
    (hcount : info.map_count_ = info.map_.count true)
    (h0 : 0 ≤ interval.from_) (hft : interval.from_ ≤ interval.to_) :
    (BoyerMoorePositionInfo.SetInterval k Combine info interval).map_.length =
      BoyerMoorePositionInfo.kMapSize ∧
    (∀ j, j < BoyerMoorePositionInfo.kMapSize →
      ((BoyerMoorePositionInfo.SetInterval k Combine info interval).at_ j = true ↔
        info.at_ j = true ∨
          ∃ c : Nat, interval.from_ ≤ (c : Int) ∧ (c : Int) ≤ interval.to_ ∧ c &&& 127 = j)) ∧
    (BoyerMoorePositionInfo.SetInterval k Combine info interval).map_count_ =
      (BoyerMoorePositionInfo.SetInterval k Combine info interval).map_.count true := by
  have hsize : BoyerMoorePositionInfo.kMapSize = 128 := rfl
  rw [hsize] at hlen ⊢
  unfold BoyerMoorePositionInfo.SetInterval
  simp only [BoyerMoorePositionInfo.at_, hsize]
  by_cases hwide : interval.to_ - interval.from_ ≥ ((128 : Nat) : Int) - 1
  · rw [if_pos hwide]
    -- every index is `c & 127` for some `c` of the interval
    have hcover : ∀ j, j < 128 → ∃ c : Nat, interval.from_ ≤ (c : Int) ∧
        (c : Int) ≤ interval.to_ ∧ c &&& 127 = j := by
      intro j hj
      obtain ⟨f, hf⟩ := Int.eq_ofNat_of_zero_le h0
      refine ⟨f + (j + 128 - f % 128) % 128, by omega, by omega, ?_⟩
      have hmod : ∀ c : Nat, c &&& 127 = c % 128 := fun c => Nat.and_pow_two_sub_one_eq_mod c 7
      rw [hmod]
      omega
    by_cases hfull : info.map_count_ = 128
    · simp only [hfull, ne_eq, not_true_eq_false, if_false]
      refine ⟨hlen, ?_, ?_⟩
      · intro j hj
        have hall : info.map_.getD j false = true :=
          getD_of_count_eq_length info.map_ (by rw [← hcount, hfull, hlen]) j (by omega)
        constructor
        · intro _
          exact Or.inl hall
        · intro _
          exact hall
      · rw [← hcount, hfull]
    · simp only [ne_eq, hfull, not_false_eq_true, if_true]
      obtain ⟨hl, hall⟩ := foldl_set_true 128 info.map_
      refine ⟨by rw [hl, hlen], ?_, ?_⟩
      · intro j hj
        constructor
        · intro _
          exact Or.inr (hcover j hj)
        · intro _
          exact hall j (by omega) hj
      · symm
        have hcl : ∀ l : List Bool, (∀ j, j < l.length → l.getD j false = true) →
            l.count true = l.length := by
          intro l hl2
          rw [List.count_eq_length]
          intro b hb
          obtain ⟨n, hn, hget⟩ := List.getElem_of_mem hb
          have := hl2 n hn
          rw [List.getD_eq_getElem?_getD, List.getElem?_eq_getElem hn] at this
          simp only [Option.getD_some] at this
          rw [← hget, this]
        rw [hcl _ (by
          intro j hj
          rw [hl] at hj
          exact hall j hj (by omega)), hl, hlen]
  · rw [if_neg hwide]
    obtain ⟨h1, h2, h3⟩ := BoyerMoorePositionInfo.SetInterval.loop_marks interval.values
      info.map_ info.map_count_ hlen hcount (by
        intro i hi
        have := (Interval.mem_values interval i).1 hi
        omega)
    refine ⟨h1, ?_, h2⟩
    intro j hj
    rw [h3 j hj]
    constructor
    · intro h
      rcases h with h | ⟨i, hi, h⟩
      · exact Or.inl h
      · have hi2 := (Interval.mem_values interval i).1 hi
        obtain ⟨c, hc⟩ := Int.eq_ofNat_of_zero_le (show 0 ≤ i by omega)
        subst hc
        exact Or.inr ⟨c, hi2.1, hi2.2, h⟩
    · intro h
      rcases h with h | ⟨c, hc1, hc2, h⟩
      · exact Or.inl h
      · exact Or.inr ⟨(c : Int), (Interval.mem_values interval _).2 ⟨hc1, hc2⟩, h⟩

/-- The statement of `SetInterval_map` for a position info that holds `a`
and the interval of the upper-case letters `A` to `F`. -/
theorem BoyerMoorePositionInfo.SetInterval_map_witness :
    (BoyerMoorePositionInfo.SetInterval BoyerMoorePositionInfo.ClassRanges.exampleRanges
      ContainedInLattice.join { map_ := (List.replicate 128 false).set 97 true, map_count_ := 1 }
      ⟨65, 70⟩).map_.length = BoyerMoorePositionInfo.kMapSize ∧
    (∀ j, j < BoyerMoorePositionInfo.kMapSize →
      ((BoyerMoorePositionInfo.SetInterval BoyerMoorePositionInfo.ClassRanges.exampleRanges
        ContainedInLattice.join { map_ := (List.replicate 128 false).set 97 true, map_count_ := 1 }
        ⟨65, 70⟩).at_ j = true ↔
        BoyerMoorePositionInfo.at_
          { map_ := (List.replicate 128 false).set 97 true, map_count_ := 1 } j = true ∨
          ∃ c : Nat, (65 : Int) ≤ (c : Int) ∧ (c : Int) ≤ (70 : Int) ∧ c &&& 127 = j)) ∧
    (BoyerMoorePositionInfo.SetInterval BoyerMoorePositionInfo.ClassRanges.exampleRanges
      ContainedInLattice.join { map_ := (List.replicate 128 false).set 97 true, map_count_ := 1 }
      ⟨65, 70⟩).map_count_ =
      (BoyerMoorePositionInfo.SetInterval BoyerMoorePositionInfo.ClassRanges.exampleRanges
        ContainedInLattice.join { map_ := (List.replicate 128 false).set 97 true, map_count_ := 1 }
        ⟨65, 70⟩).map_.count true :=
  BoyerMoorePositionInfo.SetInterval_map BoyerMoorePositionInfo.ClassRanges.exampleRanges
    ContainedInLattice.join { map_ := (List.replicate 128 false).set 97 true, map_count_ := 1 }
    ⟨65, 70⟩ (by decide) (by decide) (by decide) (by decide)

/-! ## The combined test of a rationalized quick check -/

/-- The bitwise and of two packed words is taken field by field. -/
theorem and_packed (b c m x y : Nat) (hc : c < 2 ^ b) (hm : m < 2 ^ b) :
    (c + 2 ^ b * x) &&& (m + 2 ^ b * y) = (c &&& m) + 2 ^ b * (x &&& y) := by
  have hcm : c &&& m < 2 ^ b := Nat.lt_of_le_of_lt Nat.and_le_left hc
  apply Nat.eq_of_testBit_eq
  intro j
  rw [Nat.testBit_and, Nat.add_comm c, Nat.add_comm m, Nat.add_comm (c &&& m),
    Nat.testBit_mul_pow_two_add _ hc, Nat.testBit_mul_pow_two_add _ hm,
    Nat.testBit_mul_pow_two_add _ hcm]
  by_cases hj : j < b
  · simp [hj, Nat.testBit_and]
  · simp [hj, Nat.testBit_and]

/-- Two packed words agree exactly when their lowest fields and their
remainders agree. -/
theorem packed_eq_iff (b c v x z : Nat) (hc : c < 2 ^ b) (hv : v < 2 ^ b) :
    c + 2 ^ b * x = v + 2 ^ b * z ↔ c = v ∧ x = z := by
  constructor
  · intro h
    have hmod : (c + 2 ^ b * x) % 2 ^ b = (v + 2 ^ b * z) % 2 ^ b := by rw [h]
    rw [Nat.add_mul_mod_self_left, Nat.add_mul_mod_self_left, Nat.mod_eq_of_lt hc,
      Nat.mod_eq_of_lt hv] at hmod
    subst hmod
    have hmul : 2 ^ b * x = 2 ^ b * z := by omega
    exact ⟨rfl, Nat.eq_of_mul_eq_mul_left (Nat.two_pow_pos b) hmul⟩
  · rintro ⟨rfl, rfl⟩
    rfl

/-- A packed word of `n` fields is below `2 ^ (bits * n)`. -/
theorem packWord_lt (b : Nat) (cs : List Nat) (h : ∀ c ∈ cs, c < 2 ^ b) :
    packWord b cs < 2 ^ (b * cs.length) := by
  induction cs with
  | nil => simp [packWord]
  | cons c rest ih =>
    have hc := h c (List.mem_cons_self _ _)
    have hrest := ih (fun c hc => h c (List.mem_cons_of_mem _ hc))
    have hpow : 2 ^ (b * (c :: rest).length) = 2 ^ b * 2 ^ (b * rest.length) := by
      rw [List.length_cons, Nat.mul_succ, Nat.add_comm, Nat.pow_add]
    rw [hpow]
    simp only [packWord]
    have hle : 2 ^ b * (packWord b rest + 1) ≤ 2 ^ b * 2 ^ (b * rest.length) :=
      Nat.mul_le_mul_left _ hrest
    rw [Nat.mul_add, Nat.mul_one] at hle
    omega

/-- Or-ing a field shifted to bit `s` into a 32-bit word that is below
`2 ^ s` adds the field at that place, when the sum fits in 32 bits. -/
theorem or_shifted (a x s : Nat) (ha : a < 2 ^ s) (hfit : a + 2 ^ s * x < 2 ^ 32) :
    u32 (a ||| u32 (x <<< s)) = a + 2 ^ s * x := by
  have hshift : x <<< s = 2 ^ s * x := by rw [Nat.shiftLeft_eq, Nat.mul_comm]
  have hx : 2 ^ s * x < 2 ^ 32 := by omega
  have hor : a ||| 2 ^ s * x = a + 2 ^ s * x := by
    apply Nat.eq_of_testBit_eq
    intro j
    rw [Nat.testBit_or, Nat.add_comm a, Nat.testBit_mul_pow_two_add _ ha]
    have hzero : (2 ^ s * x).testBit j = if j < s then false else x.testBit (j - s) := by
      have := Nat.testBit_mul_pow_two_add x (Nat.two_pow_pos s) j
      simpa using this
    rw [hzero]
    by_cases hj : j < s
    · simp [hj]
    · have hge : 2 ^ s ≤ 2 ^ j := Nat.pow_le_pow_right (by norm_num) (by omega)
      have hfalse : a.testBit j = false := Nat.testBit_eq_false_of_lt (by omega)
      simp [hj, hfalse]
  unfold u32
  rw [hshift, Nat.mod_eq_of_lt hx, hor, Nat.mod_eq_of_lt hfit]

/-- The loop of `Rationalize`, as long as the fields fit in 32 bits, packs
the masks and the values cut to `char_mask`, and finds a useful operation
when some position has a mask bit among the low eight. -/
theorem QuickCheckDetails.Rationalize.loop_packs (asc : Bool) (char_mask : Nat)
    (hcm : char_mask < 2 ^ (if asc then 8 else 16)) (ps : List QuickCheckDetails.Position) :
    ∀ (found : Bool) (mask value s : Nat), mask < 2 ^ s → value < 2 ^ s →
      s + (if asc then 8 else 16) * ps.length ≤ 32 →
      QuickCheckDetails.Rationalize.loop asc char_mask ps found mask value s =
        (found || ps.any (fun p => decide (p.mask &&& String.kMaxOneByteCharCode ≠ 0)),
          mask + 2 ^ s * packWord (if asc then 8 else 16) (ps.map (fun p => p.mask &&& char_mask)),
          value + 2 ^ s *
            packWord (if asc then 8 else 16) (ps.map (fun p => p.value &&& char_mask))) := by
  induction ps with
  | nil =>
    intro found mask value s _ _ _
    simp [QuickCheckDetails.Rationalize.loop, packWord]
  | cons p rest ih =>
    intro found mask value s hmask hvalue hfit
    generalize hbits : (if asc then 8 else 16) = bits at hcm hfit ih ⊢
    have hlen : s + bits + bits * rest.length ≤ 32 := by
      rw [List.length_cons, Nat.mul_succ] at hfit
      omega
    have hpow : (2 : Nat) ^ (s + bits) = 2 ^ s * 2 ^ bits := Nat.pow_add 2 s bits
    have hle32 : (2 : Nat) ^ (s + bits) ≤ 2 ^ 32 :=
      Nat.pow_le_pow_right (by norm_num) (by omega)
    have hfield : ∀ a x, a < 2 ^ s → x < 2 ^ bits → a + 2 ^ s * x < 2 ^ (s + bits) := by
      intro a x ha hx
      have h1 : 2 ^ s * (x + 1) ≤ 2 ^ s * 2 ^ bits := Nat.mul_le_mul_left _ hx
      rw [Nat.mul_add, Nat.mul_one] at h1
      omega
    have hM : p.mask &&& char_mask < 2 ^ bits := Nat.lt_of_le_of_lt Nat.and_le_right hcm
    have hV : p.value &&& char_mask < 2 ^ bits := Nat.lt_of_le_of_lt Nat.and_le_right hcm
    have hm1 := hfield mask _ hmask hM
    have hv1 := hfield value _ hvalue hV
    have hstep := ih (if p.mask &&& String.kMaxOneByteCharCode ≠ 0 then true else found)
      (mask + 2 ^ s * (p.mask &&& char_mask)) (value + 2 ^ s * (p.value &&& char_mask))
      (s + bits) hm1 hv1 hlen
    simp only [QuickCheckDetails.Rationalize.loop, hbits]
    rw [or_shifted mask _ s hmask (by omega), or_shifted value _ s hvalue (by omega), hstep]
    simp only [List.map_cons, packWord, List.any_cons, hpow]
    refine Prod.ext ?_ (Prod.ext ?_ ?_)
    · by_cases hu : p.mask &&& String.kMaxOneByteCharCode = 0
      · simp [hu]
      · simp [hu]
    · simp only []
      ring
    · simp only []
      ring

/-- The test of a packed word against packed masks and values holds exactly
when the test of each field holds. -/
theorem packWord_test (b char_mask : Nat) (hcm : char_mask < 2 ^ b) :
    ∀ (cs : List Nat) (ps : List QuickCheckDetails.Position), cs.length = ps.length →
      (∀ c ∈ cs, c < 2 ^ b) →
      (packWord b cs &&& packWord b (ps.map (fun p => p.mask &&& char_mask)) =
          packWord b (ps.map (fun p => p.value &&& char_mask)) ↔
        ∀ i, i < cs.length →
          cs.getD i 0 &&& (ps.getD i QuickCheckDetails.Position.zero).mask &&& char_mask =
            (ps.getD i QuickCheckDetails.Position.zero).value &&& char_mask) := by
  intro cs
  induction cs with
  | nil =>
    intro ps hlen _
    have hps : ps = [] := List.length_eq_zero.1 hlen.symm
    subst hps
    simp [packWord]
  | cons c rest ih =>
    intro ps hlen hcs
    match ps, hlen with
    | p :: ps, hlen =>
      have hc := hcs c (List.mem_cons_self _ _)
      have hM : p.mask &&& char_mask < 2 ^ b := Nat.lt_of_le_of_lt Nat.and_le_right hcm
      have hV : p.value &&& char_mask < 2 ^ b := Nat.lt_of_le_of_lt Nat.and_le_right hcm
      have hcM : c &&& (p.mask &&& char_mask) < 2 ^ b := Nat.lt_of_le_of_lt Nat.and_le_left hc
      have hrest := ih ps (by simpa using hlen) (fun c hc => hcs c (List.mem_cons_of_mem _ hc))
      simp only [List.map_cons, packWord]
      rw [and_packed b _ _ _ _ hc hM, packed_eq_iff b _ _ _ _ hcM hV, hrest, ← Nat.and_assoc]
      constructor
      · rintro ⟨h0, hsucc⟩ i hi
        cases i with
        | zero => simpa using h0
        | succ i =>
          have := hsucc i (by simpa using hi)
          simpa using this
      · intro h
        refine ⟨by simpa using h 0 (by simp), ?_⟩
        intro i hi
        have := h (i + 1) (by simpa using hi)
        simpa using this

/-- An entry of a list below the length of a prefix is an entry of that
prefix. -/
theorem getD_take_of_lt {α : Type} (l : List α) (n i : Nat) (d : α) (h : i < n) :
    (l.take n).getD i d = l.getD i d := by
  rw [List.getD_eq_getElem?_getD, List.getD_eq_getElem?_getD, List.getElem?_take_of_lt h]

/-- C37. For one-byte details with at most 4 characters and two-byte details
with at most 2, after `QuickCheckDetails::Rationalize` the combined test
`(w & mask_) == value_` holds for a word `w` that packs the code units
`c_0 .. c_(n-1)` at 8 (one-byte) or 16 (two-byte) bits each, lowest first,
exactly when `(c_i & mask_i & char_mask) == (value_i & char_mask)` holds at
every position `i`; and `Rationalize` returns true exactly when some
position's mask has a bit set among its low 8 bits. -/
theorem QuickCheckDetails.Rationalize_spec (d : QuickCheckDetails) (asc : Bool) (cs : List Nat)
    (hchars : d.characters_ = (cs.length : Int))
    (hmax : cs.length ≤ (if asc then 4 else 2))
    (hpos : cs.length ≤ d.positions_.length)
    (hcs : ∀ c ∈ cs, c < 2 ^ (if asc then 8 else 16)) :
    (packWord (if asc then 8 else 16) cs &&& (d.Rationalize asc).2.mask_ =
        (d.Rationalize asc).2.value_ ↔
      ∀ i, i < cs.length →
        cs.getD i 0 &&& (d.positions_.getD i QuickCheckDetails.Position.zero).mask &&&
            (if asc then String.kMaxOneByteCharCode else String.kMaxUtf16CodeUnit) =
          (d.positions_.getD i QuickCheckDetails.Position.zero).value &&&
            (if asc then String.kMaxOneByteCharCode else String.kMaxUtf16CodeUnit)) ∧
    ((d.Rationalize asc).1 = true ↔
      ∃ i, i < cs.length ∧
        (d.positions_.getD i QuickCheckDetails.Position.zero).mask &&&
          String.kMaxOneByteCharCode ≠ 0) := by
  have hcm : (if asc then String.kMaxOneByteCharCode else String.kMaxUtf16CodeUnit) <
      2 ^ (if asc then 8 else 16) := by
    cases asc <;> decide
  have htake : (d.positions_.take cs.length).length = cs.length := by
    rw [List.length_take]
    omega
  have hfit : 0 + (if asc then 8 else 16) * (d.positions_.take cs.length).length ≤ 32 := by
    rw [htake]
    cases asc
    · simp only [Bool.false_eq_true, if_false] at hmax ⊢
      omega
    · simp only [if_true] at hmax ⊢
      omega
  have hloop := QuickCheckDetails.Rationalize.loop_packs asc _ hcm
    (d.positions_.take cs.length) false 0 0 0 (by norm_num) (by norm_num) hfit
  have hrat : d.Rationalize asc =
      ((d.positions_.take cs.length).any
          (fun p => decide (p.mask &&& String.kMaxOneByteCharCode ≠ 0)),
        { d with
          mask_ := packWord (if asc then 8 else 16) ((d.positions_.take cs.length).map
            (fun p => p.mask &&&
              (if asc then String.kMaxOneByteCharCode else String.kMaxUtf16CodeUnit)))
          value_ := packWord (if asc then 8 else 16) ((d.positions_.take cs.length).map
            (fun p => p.value &&&
              (if asc then String.kMaxOneByteCharCode else String.kMaxUtf16CodeUnit))) }) := by
    unfold QuickCheckDetails.Rationalize
    simp only [hchars, Int.toNat_ofNat]
    rw [hloop]
    simp
  rw [hrat]
  simp only []
  constructor
  · rw [packWord_test _ _ hcm cs (d.positions_.take cs.length) htake.symm hcs]
    constructor
    · intro h i hi
      have := h i hi
      rwa [getD_take_of_lt _ _ _ _ hi] at this
    · intro h i hi
      rw [getD_take_of_lt _ _ _ _ hi]
      exact h i hi
  · rw [List.any_eq_true]
    constructor
    · rintro ⟨p, hp, hbit⟩
      obtain ⟨i, hi, hget⟩ := List.getElem_of_mem hp
      rw [htake] at hi
      refine ⟨i, hi, ?_⟩
      have hd : d.positions_.getD i QuickCheckDetails.Position.zero = p := by
        rw [← getD_take_of_lt _ _ _ _ hi, List.getD_eq_getElem?_getD,
          List.getElem?_eq_getElem (by rw [htake]; exact hi), hget]
        rfl
      rw [hd]
      simpa using hbit
    · rintro ⟨i, hi, hbit⟩
      refine ⟨(d.positions_.take cs.length).getD i QuickCheckDetails.Position.zero, ?_, ?_⟩
      · rw [List.getD_eq_getElem?_getD, List.getElem?_eq_getElem (by rw [htake]; exact hi)]
        exact List.getElem_mem _
      · rw [getD_take_of_lt _ _ _ _ hi]
        simpa using hbit

/-- The statement of `Rationalize_spec` for one-byte details of two
characters, the first of which ignores the case bit, and the subject `ab`. -/
theorem QuickCheckDetails.Rationalize_spec_witness :
    (packWord (if true then 8 else 16) [0x61, 0x62] &&&
        (QuickCheckDetails.Rationalize
          { characters_ := 2
            positions_ := [⟨0xDF, 0x41, false⟩, ⟨0xFF, 0x62, true⟩, .zero, .zero]
            mask_ := 0, value_ := 0, cannot_match_ := false } true).2.mask_ =
        (QuickCheckDetails.Rationalize
          { characters_ := 2
            positions_ := [⟨0xDF, 0x41, false⟩, ⟨0xFF, 0x62, true⟩, .zero, .zero]
            mask_ := 0, value_ := 0, cannot_match_ := false } true).2.value_ ↔
      ∀ i, i < [0x61, 0x62].length →
        [0x61, 0x62].getD i 0 &&&
            (([⟨0xDF, 0x41, false⟩, ⟨0xFF, 0x62, true⟩, .zero, .zero] :
              List QuickCheckDetails.Position).getD i QuickCheckDetails.Position.zero).mask &&&
            (if true then String.kMaxOneByteCharCode else String.kMaxUtf16CodeUnit) =
          (([⟨0xDF, 0x41, false⟩, ⟨0xFF, 0x62, true⟩, .zero, .zero] :
              List QuickCheckDetails.Position).getD i QuickCheckDetails.Position.zero).value &&&
            (if true then String.kMaxOneByteCharCode else String.kMaxUtf16CodeUnit)) ∧
    ((QuickCheckDetails.Rationalize
          { characters_ := 2
            positions_ := [⟨0xDF, 0x41, false⟩, ⟨0xFF, 0x62, true⟩, .zero, .zero]
            mask_ := 0, value_ := 0, cannot_match_ := false } true).1 = true ↔
      ∃ i, i < [0x61, 0x62].length ∧
        (([⟨0xDF, 0x41, false⟩, ⟨0xFF, 0x62, true⟩, .zero, .zero] :
          List QuickCheckDetails.Position).getD i QuickCheckDetails.Position.zero).mask &&&
          String.kMaxOneByteCharCode ≠ 0) :=
  QuickCheckDetails.Rationalize_spec
    { characters_ := 2
      positions_ := [⟨0xDF, 0x41, false⟩, ⟨0xFF, 0x62, true⟩, .zero, .zero]
      mask_ := 0, value_ := 0, cannot_match_ := false } true [0x61, 0x62]
    rfl (by decide) (by decide) (by decide)

/-! ## The number of specialized copies of a node -/

/-- One call of `LimitVersions` on a node of the graph, with a non-trivial
trace that has no stop node, for any `Emit` that returns when called on a
trivial trace while `limiting_recursion_` is set: either it returns
`CONTINUE`, or it returns `DONE` with the state that `Trace::Flush` gives
from the state with `limiting_recursion_` set, in which the flag has its
former value again. -/
theorem RegExpNode.LimitVersions_flushes (k : EmitConstants)
    (Emit : Trace → Emitter → Option Emitter) (this : Nat) (trace : Trace)
    (st : Emitter) (hthis : this < st.nodes.length) (hstop : trace.stop_node_ = none)
    (hnt : trace.is_trivial = false)
    (hEmit : ∀ s : Emitter, s.compiler.limiting_recursion_ = true → this < s.nodes.length →
      ∃ s', Emit Trace.new s = some s' ∧
        s'.nodes.map EmitNode.trace_count_ = s.nodes.map EmitNode.trace_count_) :
    ∃ result st',
      RegExpNode.LimitVersions k Emit this trace st = some (result, st') ∧
      (result = .CONTINUE ∨
        (result = .DONE ∧
          (∃ flushed,
            Trace.Flush k Emit trace this
              { st.modifyNode this (fun n => { n with trace_count_ := n.trace_count_ + 1 }) with
                compiler := (st.modifyNode this
                  (fun n => { n with trace_count_ := n.trace_count_ + 1 })).compiler.set_limiting_recursion
                    true } = some flushed ∧
            st' = { flushed with
              compiler := flushed.compiler.set_limiting_recursion
                st.compiler.limiting_recursion_ }) ∧
          st'.compiler.limiting_recursion_ = st.compiler.limiting_recursion_)) := by
  have hlen : (st.modifyNode this
      (fun n => { n with trace_count_ := n.trace_count_ + 1 })).nodes.length =
      st.nodes.length := by
    have := congrArg List.length (Emitter.modifyNode_kinds st this
      (fun n => { n with trace_count_ := n.trace_count_ + 1 }) (fun _ => rfl))
    simpa using this
  have hcomp : (st.modifyNode this
      (fun n => { n with trace_count_ := n.trace_count_ + 1 })).compiler = st.compiler := by
    unfold Emitter.modifyNode
    split <;> rfl
  unfold RegExpNode.LimitVersions
  rw [if_neg (by rw [hstop]; decide), if_neg (by rw [hnt]; decide)]
  simp only []
  split
  · exact ⟨_, _, rfl, Or.inl rfl⟩
  · obtain ⟨s1, hs1⟩ := Trace.Flush_total k Emit trace this
      { st.modifyNode this (fun n => { n with trace_count_ := n.trace_count_ + 1 }) with
        compiler := (st.modifyNode this
          (fun n => { n with trace_count_ := n.trace_count_ + 1 })).compiler.set_limiting_recursion
            true }
      (fun s hc hn => by
        obtain ⟨s', hs', _⟩ := hEmit s (by rw [hc]; rfl)
          (by rw [hn]; show this < (st.modifyNode this _).nodes.length; rw [hlen]; exact hthis)
        exact ⟨s', hs'⟩)
    rw [hs1]
    refine ⟨_, _, rfl, Or.inr ⟨rfl, ⟨s1, rfl, ?_⟩, ?_⟩⟩
    · rw [hcomp]
    · rw [hcomp]
      rfl

/-- Successive calls of `LimitVersions` on a node of the graph, with
non-trivial traces that have no stop node, all return, and those that
return `CONTINUE` are at most as many as the node's trace count is short of
`kMaxCopiesCodeGenerated - 1`. -/
theorem RegExpNode.LimitVersions_each_continues (k : EmitConstants)
    (Emit : Trace → Emitter → Option Emitter) (this : Nat)
    (hEmit : ∀ s : Emitter, s.compiler.limiting_recursion_ = true → this < s.nodes.length →
      ∃ s', Emit Trace.new s = some s' ∧
        s'.nodes.map EmitNode.trace_count_ = s.nodes.map EmitNode.trace_count_)
    (traces : List Trace) :
    ∀ (st : Emitter), this < st.nodes.length →
      (∀ t ∈ traces, t.stop_node_ = none ∧ t.is_trivial = false) →
      ∃ results st',
        RegExpNode.LimitVersions_each k Emit this traces st = some (results, st') ∧
        results.length = traces.length ∧
        ((results.count .CONTINUE : Nat) : Int) ≤
          max 0 (k.kMaxCopiesCodeGenerated - 1 - st.trace_count this) := by
  induction traces with
  | nil =>
    intro st _ _
    exact ⟨[], st, rfl, rfl, by simp⟩
  | cons trace traces ih =>
    intro st hthis htraces
    obtain ⟨hstop, hnt⟩ := htraces trace (List.mem_cons_self _ _)
    obtain ⟨result, s1, h1, hc1, hl1, hr1⟩ :=
      RegExpNode.LimitVersions_counts k Emit this trace st hthis hstop hnt hEmit
    obtain ⟨results, s2, h2, hlen2, hcount2⟩ := ih s1 (by rw [hl1]; exact hthis)
      (fun t ht => htraces t (List.mem_cons_of_mem _ ht))
    refine ⟨result :: results, s2, ?_, ?_, ?_⟩
    · simp only [RegExpNode.LimitVersions_each, h1, h2]
    · simp only [List.length_cons, hlen2]
    · rw [hc1] at hcount2
      cases result with
      | CONTINUE =>
        have hlt := hr1 rfl
        rw [List.count_cons_self]
        push_cast
        omega
      | DONE =>
        rw [List.count_cons_of_ne (by decide)]
        omega

/-- C32. In a sequence of `RegExpNode::LimitVersions` calls on one node with
non-trivial traces that have no stop node, every call returns and at most
`kMaxCopiesCodeGenerated - 1` of them return `CONTINUE`; and each such call,
in whatever state it is made, that does not return `CONTINUE` returns `DONE`
with the state that flushing the trace gives, in which the compiler's
`limiting_recursion_` flag has the value from before the call. `Emit` is any
emitting function of the node that, called on a trivial trace while
`limiting_recursion_` is set, returns and keeps the trace counts. -/
theorem RegExpNode.LimitVersions_copies (k : EmitConstants)
    (Emit : Trace → Emitter → Option Emitter) (this : Nat)
    (traces : List Trace) (st : Emitter) (hthis : this < st.nodes.length)
    (htraces : ∀ t ∈ traces, t.stop_node_ = none ∧ t.is_trivial = false)
    (hcount : 0 ≤ st.trace_count this) (hmax : 1 ≤ k.kMaxCopiesCodeGenerated)
    (hEmit : ∀ s : Emitter, s.compiler.limiting_recursion_ = true → this < s.nodes.length →
      ∃ s', Emit Trace.new s = some s' ∧
        s'.nodes.map EmitNode.trace_count_ = s.nodes.map EmitNode.trace_count_) :
    (∃ results st',
      RegExpNode.LimitVersions_each k Emit this traces st = some (results, st') ∧
      results.length = traces.length ∧
      ((results.count .CONTINUE : Nat) : Int) ≤ k.kMaxCopiesCodeGenerated - 1) ∧
    (∀ (trace : Trace) (s : Emitter), this < s.nodes.length → trace.stop_node_ = none →
      trace.is_trivial = false →
      ∃ result s',
        RegExpNode.LimitVersions k Emit this trace s = some (result, s') ∧
        (result = .CONTINUE ∨
          (result = .DONE ∧
            (∃ flushed,
              Trace.Flush k Emit trace this
                { s.modifyNode this (fun n => { n with trace_count_ := n.trace_count_ + 1 }) with
                  compiler := (s.modifyNode this
                    (fun n => { n with trace_count_ := n.trace_count_ + 1 })).compiler.set_limiting_recursion
                      true } = some flushed ∧
              s' = { flushed with
                compiler := flushed.compiler.set_limiting_recursion
                  s.compiler.limiting_recursion_ }) ∧
            s'.compiler.limiting_recursion_ = s.compiler.limiting_recursion_))) := by
  constructor
  · obtain ⟨results, st', h1, h2, h3⟩ :=
      RegExpNode.LimitVersions_each_continues k Emit this hEmit traces st hthis htraces
    exact ⟨results, st', h1, h2, by omega⟩
  · intro trace s hs hstop hnt
    exact RegExpNode.LimitVersions_flushes k Emit this trace s hs hstop hnt hEmit

/-- The statement of `LimitVersions_copies` for eleven calls on the first
node of a chain, with the trace of offset 1 and
`kMaxCopiesCodeGenerated = 10`. -/
theorem RegExpNode.LimitVersions_copies_witness :
    ∃ results st',
      RegExpNode.LimitVersions_each
          { kMaxRecursion := 100, kMaxCopiesCodeGenerated := 10, stack_limit_slack := 32 }
          (EmitNode.Emit
            { kMaxRecursion := 100, kMaxCopiesCodeGenerated := 10, stack_limit_slack := 32 }
            (0 + 1) 0) 0
          (List.replicate 11 { Trace.new with cp_offset_ := 1 })
          (Emitter.new (EmitNode.chain 1)) = some (results, st') ∧
      results.length = (List.replicate 11 { Trace.new with cp_offset_ := 1 }).length ∧
      ((results.count .CONTINUE : Nat) : Int) ≤
        ({ kMaxRecursion := 100, kMaxCopiesCodeGenerated := 10, stack_limit_slack := 32 } :
          EmitConstants).kMaxCopiesCodeGenerated - 1 :=
  (RegExpNode.LimitVersions_copies
    { kMaxRecursion := 100, kMaxCopiesCodeGenerated := 10, stack_limit_slack := 32 }
    (EmitNode.Emit
      { kMaxRecursion := 100, kMaxCopiesCodeGenerated := 10, stack_limit_slack := 32 }
      (0 + 1) 0) 0
    (List.replicate 11 { Trace.new with cp_offset_ := 1 }) (Emitter.new (EmitNode.chain 1))
    (by decide) (by decide) (by decide) (by decide)
    (fun s hl hs => EmitNode.Emit_limiting _ 0 0 s hl hs)).1

/-! ## The inverse of a class that reaches the end of the BMP -/

/-- C40 (the code at a failing input). For the single range
`[5, 0xFFFF]`, `AddInverse` passes `[0, 4]` and then `[0, 0x10FFFF]` to
`AddRange`: the `uc16` variable `last` wraps from `0xFFFF + 1` to `0`, and
the code point 5 of the given range is covered. -/
theorem DispatchTableConstructor.AddInverse_wraps :
    DispatchTableConstructor.AddInverse [⟨5, 0xFFFF⟩] = [⟨0, 4⟩, ⟨0, 0x10FFFF⟩] ∧
    CharacterRange.covers [⟨5, 0xFFFF⟩] 5 = true ∧
    CharacterRange.covers (DispatchTableConstructor.AddInverse [⟨5, 0xFFFF⟩]) 5 = true := by
  decide

/-! ## The word check sorts the code units -/

/-- Without a special check of the assembler, `EmitWordCheck` adds its seven
comparisons to the code. -/
theorem EmitWordCheck_code (word non_word : Option Label) (fall_through_on_word : Bool)
    (st : Emitter) :
    (EmitWordCheck false word non_word fall_through_on_word st).code =
      st.code ++ EmitWordCheck.comparisons word non_word fall_through_on_word ∧
    (EmitWordCheck false word non_word fall_through_on_word st).labels = st.labels ∧
    (EmitWordCheck false word non_word fall_through_on_word st).compiler = st.compiler ∧
    (EmitWordCheck false word non_word fall_through_on_word st).nodes = st.nodes := by
  cases fall_through_on_word <;>
    simp [EmitWordCheck, EmitWordCheck.comparisons, Emitter.emit]

/-- A jump out of a piece of code that binds no label ends the run at the
target of the jump. -/
theorem AssemblerOp.run_seeking_unbound (subject : List Nat) (position : Int) (target : Label)
    (current : Nat) (code : List AssemblerOp) (h : AssemblerOp.Bind target ∉ code) :
    AssemblerOp.run subject position (some target) current code = .jump target := by
  induction code with
  | nil => rfl
  | cons op rest ih =>
    have hop : op ≠ .Bind target := fun e => h (by rw [e]; exact List.mem_cons_self _ _)
    have hrest : AssemblerOp.Bind target ∉ rest := fun e => h (List.mem_cons_of_mem _ e)
    simp only [AssemblerOp.run, hop, if_false]
    exact ih hrest

/-- A jump taken inside the comparisons of `EmitWordCheck` leaves them: they
bind no label. -/
theorem EmitWordCheck.comparisons_jump (subject : List Nat) (position : Int)
    (word non_word : Option Label) (fall_through_on_word : Bool) (current : Nat)
    (target : Option Label) (n : Nat) :
    (match target with
      | none => CodeOutcome.backtrack
      | some label => AssemblerOp.run subject position (some label) current
          ((EmitWordCheck.comparisons word non_word fall_through_on_word).drop n)) =
      CodeOutcome.goTo target := by
  cases target with
  | none => rfl
  | some label =>
    simp only [CodeOutcome.goTo]
    apply AssemblerOp.run_seeking_unbound
    intro hmem
    have hmem2 := List.mem_of_mem_drop hmem
    cases fall_through_on_word <;> simp [EmitWordCheck.comparisons] at hmem2

/-- The outcome of the comparisons of `EmitWordCheck` on a character: a word
character goes to `word`, except that `_` falls through when
`fall_through_on_word`; any other character goes to `non_word`, except that
the characters between `Z` and `a` fall through when not
`fall_through_on_word`. -/
theorem EmitWordCheck.comparisons_run (subject : List Nat) (position : Int)
    (word non_word : Option Label) (fall_through_on_word : Bool) (c : Nat) :
    AssemblerOp.run subject position none c
        (EmitWordCheck.comparisons word non_word fall_through_on_word) =
      if IsWordCharacter c = true then
        (if fall_through_on_word = true ∧ c = 95 then .fallThrough else CodeOutcome.goTo word)
      else
        (if fall_through_on_word = false ∧ 91 ≤ c ∧ c ≤ 96 then .fallThrough
          else CodeOutcome.goTo non_word) := by
  have hjump := EmitWordCheck.comparisons_jump subject position word non_word
    fall_through_on_word c
  have h1 := hjump non_word 1
  have h2 := hjump non_word 2
  have h3 := hjump word 3
  have h4 := hjump word 4
  have h5 := hjump non_word 5
  have h6 := hjump word 6
  have h7n := hjump non_word 7
  have h7w := hjump word 7
  simp only [EmitWordCheck.comparisons, List.drop_succ_cons, List.drop_zero, List.drop_nil]
    at h1 h2 h3 h4 h5 h6 h7n h7w
  unfold EmitWordCheck.comparisons
  by_cases g1 : c > 122
  · have hw : IsWordCharacter c = false := by
      simp [IsWordCharacter]
      omega
    have hno : ¬ (fall_through_on_word = false ∧ 91 ≤ c ∧ c ≤ 96) := by omega
    simp only [hw, Bool.false_eq_true, if_false, if_neg hno]
    simp only [AssemblerOp.run, g1, if_true]
    exact h1
  · by_cases g2 : c < 48
    · have hw : IsWordCharacter c = false := by
        simp [IsWordCharacter]
        omega
      have hno : ¬ (fall_through_on_word = false ∧ 91 ≤ c ∧ c ≤ 96) := by omega
      simp only [hw, Bool.false_eq_true, if_false, if_neg hno]
      simp only [AssemblerOp.run, g1, g2, if_true, if_false]
      exact h2
    · by_cases g3 : c > 96
      · have hw : IsWordCharacter c = true := by
          simp [IsWordCharacter]
          omega
        have hno : ¬ (fall_through_on_word = true ∧ c = 95) := by omega
        simp only [hw, if_true, if_neg hno]
        simp only [AssemblerOp.run, g1, g2, g3, if_true, if_false]
        exact h3
      · by_cases g4 : c < 58
        · have hw : IsWordCharacter c = true := by
            simp [IsWordCharacter]
            omega
          have hno : ¬ (fall_through_on_word = true ∧ c = 95) := by omega
          simp only [hw, if_true, if_neg hno]
          simp only [AssemblerOp.run, g1, g2, g3, g4, if_true, if_false]
          exact h4
        · by_cases g5 : c < 65
          · have hw : IsWordCharacter c = false := by
              simp [IsWordCharacter]
              omega
            have hno : ¬ (fall_through_on_word = false ∧ 91 ≤ c ∧ c ≤ 96) := by omega
            simp only [hw, Bool.false_eq_true, if_false, if_neg hno]
            simp only [AssemblerOp.run, g1, g2, g3, g4, g5, if_true, if_false]
            exact h5
          · by_cases g6 : c < 91
            · have hw : IsWordCharacter c = true := by
                simp [IsWordCharacter]
                omega
              have hno : ¬ (fall_through_on_word = true ∧ c = 95) := by omega
              simp only [hw, if_true, if_neg hno]
              simp only [AssemblerOp.run, g1, g2, g3, g4, g5, g6, if_true, if_false]
              exact h6
            · by_cases g7 : c = 95
              · subst g7
                cases fall_through_on_word
                · simp only [AssemblerOp.run]
                  simp only [Bool.false_eq_true, if_false] at h7w ⊢
                  simpa [IsWordCharacter] using h7w
                · simp [AssemblerOp.run, IsWordCharacter]
              · have hw : IsWordCharacter c = false := by
                  simp [IsWordCharacter]
                  omega
                simp only [hw, Bool.false_eq_true, if_false]
                cases fall_through_on_word
                · have hyes : false = false ∧ 91 ≤ c ∧ c ≤ 96 := ⟨rfl, by omega, by omega⟩
                  rw [if_pos hyes]
                  simp [AssemblerOp.run, g1, g2, g3, g4, g5, g6, g7]
                · simp only [AssemblerOp.run, g1, g2, g3, g4, g5, g6, if_true, if_false]
                  simp only [Bool.true_eq_false, false_and, if_false] at h7n ⊢
                  simpa [g7] using h7n

/-- The two ways in which a jump can end are told apart by the labels. -/
theorem CodeOutcome.goTo_injective (a b : Option Label) (h : CodeOutcome.goTo a = CodeOutcome.goTo b) :
    a = b := by
  cases a <;> cases b <;> simp [CodeOutcome.goTo] at h ⊢
  exact h

/-- A jump does not fall through. -/
theorem CodeOutcome.goTo_ne_fallThrough (a : Option Label) :
    CodeOutcome.goTo a ≠ .fallThrough := by
  cases a <;> simp [CodeOutcome.goTo]

/-- C34. When the assembler offers no special word-class check, for every
code unit `c` the comparisons that `EmitWordCheck` emits reach the word
outcome (the label `word`, or falling through when `fall_through_on_word`)
exactly when `c` is one of `0-9`, `A-Z`, `a-z` or `_`, and reach the
non-word outcome (the label `non_word`, or falling through when not
`fall_through_on_word`) for every other `c`. -/
theorem EmitWordCheck_spec (subject : List Nat) (position : Int) (word non_word : Option Label)
    (fall_through_on_word : Bool) (st : Emitter) (c : Nat) (hdistinct : word ≠ non_word) :
    ((AssemblerOp.run subject position none c
          ((EmitWordCheck false word non_word fall_through_on_word st).code.drop
            st.code.length) = CodeOutcome.goTo word ∨
        (fall_through_on_word = true ∧
          AssemblerOp.run subject position none c
            ((EmitWordCheck false word non_word fall_through_on_word st).code.drop
              st.code.length) = .fallThrough)) ↔
      IsWordCharacter c = true) ∧
    ((AssemblerOp.run subject position none c
          ((EmitWordCheck false word non_word fall_through_on_word st).code.drop
            st.code.length) = CodeOutcome.goTo non_word ∨
        (fall_through_on_word = false ∧
          AssemblerOp.run subject position none c
            ((EmitWordCheck false word non_word fall_through_on_word st).code.drop
              st.code.length) = .fallThrough)) ↔
      IsWordCharacter c = false) := by
  rw [(EmitWordCheck_code word non_word fall_through_on_word st).1, List.drop_left,
    EmitWordCheck.comparisons_run]
  have hne : CodeOutcome.goTo word ≠ CodeOutcome.goTo non_word :=
    fun e => hdistinct (CodeOutcome.goTo_injective _ _ e)
  have hw := CodeOutcome.goTo_ne_fallThrough word
  have hn := CodeOutcome.goTo_ne_fallThrough non_word
  cases hword : IsWordCharacter c
  · rw [if_neg Bool.false_ne_true]
    by_cases hft : fall_through_on_word = false ∧ 91 ≤ c ∧ c ≤ 96
    · rw [if_pos hft]
      refine ⟨⟨fun h => ?_, fun h => absurd h Bool.false_ne_true⟩,
        ⟨fun _ => rfl, fun _ => Or.inr ⟨hft.1, rfl⟩⟩⟩
      rcases h with h | h
      · exact absurd h.symm hw
      · rw [hft.1] at h
        exact absurd h.1 Bool.false_ne_true
    · rw [if_neg hft]
      refine ⟨⟨fun h => ?_, fun h => absurd h Bool.false_ne_true⟩,
        ⟨fun _ => rfl, fun _ => Or.inl rfl⟩⟩
      rcases h with h | h
      · exact absurd h.symm hne
      · exact absurd h.2 hn
  · rw [if_pos rfl]
    by_cases hft : fall_through_on_word = true ∧ c = 95
    · rw [if_pos hft]
      refine ⟨⟨fun _ => rfl, fun _ => Or.inr ⟨hft.1, rfl⟩⟩,
        ⟨fun h => ?_, fun h => absurd h.symm Bool.false_ne_true⟩⟩
      rcases h with h | h
      · exact absurd h.symm hn
      · rw [hft.1] at h
        exact absurd h.1.symm Bool.false_ne_true
    · rw [if_neg hft]
      refine ⟨⟨fun _ => rfl, fun _ => Or.inl rfl⟩,
        ⟨fun h => ?_, fun h => absurd h.symm Bool.false_ne_true⟩⟩
      rcases h with h | h
      · exact absurd h hne
      · exact absurd h.2 hw

/-- The statement of `EmitWordCheck_spec` for the character `a`, the word
label a local label and the non-word label the backtrack label. -/
theorem EmitWordCheck_spec_witness :
    ((AssemblerOp.run [97] 0 none 97
          ((EmitWordCheck false (some (.stack 0)) none false (Emitter.new [])).code.drop
            (Emitter.new []).code.length) = CodeOutcome.goTo (some (.stack 0)) ∨
        (false = true ∧
          AssemblerOp.run [97] 0 none 97
            ((EmitWordCheck false (some (.stack 0)) none false (Emitter.new [])).code.drop
              (Emitter.new []).code.length) = .fallThrough)) ↔
      IsWordCharacter 97 = true) ∧
    ((AssemblerOp.run [97] 0 none 97
          ((EmitWordCheck false (some (.stack 0)) none false (Emitter.new [])).code.drop
            (Emitter.new []).code.length) = CodeOutcome.goTo none ∨
        (false = false ∧
          AssemblerOp.run [97] 0 none 97
            ((EmitWordCheck false (some (.stack 0)) none false (Emitter.new [])).code.drop
              (Emitter.new []).code.length) = .fallThrough)) ↔
      IsWordCharacter 97 = false) :=
  EmitWordCheck_spec [97] 0 (some (.stack 0)) none false (Emitter.new []) 97 (by decide)

/-! ## Which pass tests a character of an atom -/

/-- The code that follows a given code is what was added to it. -/
theorem drop_code_append (code added : List AssemblerOp) :
    (code ++ added).drop code.length = added := List.drop_left code added

/-- `EmitSimpleCharacter` always emits the comparison with the character. -/
theorem EmitSimpleCharacter_tests (c : Nat) (on_failure : Option Label) (cp_offset : Int)
    (check preloaded : Bool) (st : Emitter) :
    ((EmitSimpleCharacter c on_failure cp_offset check preloaded st).2.code.drop
      st.code.length).any AssemblerOp.isCharacterTest = true := by
  cases preloaded
  · simp only [EmitSimpleCharacter, Emitter.emit, Bool.not_false, if_true, List.append_assoc,
      drop_code_append]
    rfl
  · simp only [EmitSimpleCharacter, Emitter.emit, Bool.not_true, Bool.false_eq_true, if_false,
      drop_code_append]
    rfl

/-- `EmitAtomNonLetter` emits a comparison exactly for a character that is
its only letter, unless the subject is one-byte and the character is not. -/
theorem EmitAtomNonLetter_tests (G : Nat → Bool → List Nat) (c : Nat)
    (on_failure : Option Label) (cp_offset : Int) (check preloaded : Bool) (st : Emitter) :
    ((EmitAtomNonLetter G c on_failure cp_offset check preloaded st).2.code.drop
      st.code.length).any AssemblerOp.isCharacterTest =
      (decide ((G c st.compiler.one_byte_).length = 1) &&
        !(st.compiler.one_byte_ && decide (c > String.kMaxOneByteCharCode))) := by
  unfold EmitAtomNonLetter
  simp only []
  by_cases h0 : (G c st.compiler.one_byte_).length < 1
  · have h1 : ¬ (G c st.compiler.one_byte_).length = 1 := by omega
    simp [h0, h1]
  · rw [if_neg h0]
    by_cases h1 : (G c st.compiler.one_byte_).length = 1
    · rw [if_pos h1]
      cases hwide : (st.compiler.one_byte_ && decide (c > String.kMaxOneByteCharCode))
      · cases preloaded
        · simp only [Bool.false_eq_true, if_false, Emitter.emit, Bool.not_false, if_true,
            List.append_assoc, drop_code_append, h1, decide_True, Bool.and_self]
          rfl
        · simp only [Bool.false_eq_true, if_false, Emitter.emit, Bool.not_true,
            drop_code_append, h1, decide_True, Bool.and_self]
          rfl
      · simp [h1]
    · rw [if_neg h1]
      simp [h1]

/-- `ShortCutEmitCharacterPair` emits one comparison when it returns true and
nothing otherwise, and leaves the rest of the emitter alone. -/
theorem ShortCutEmitCharacterPair_tests (one_byte : Bool) (c1 c2 : Nat)
    (on_failure : Option Label) (st : Emitter) :
    ∃ added, (ShortCutEmitCharacterPair one_byte c1 c2 on_failure st).2.code = st.code ++ added ∧
      ((ShortCutEmitCharacterPair one_byte c1 c2 on_failure st).1 = true →
        added.any AssemblerOp.isCharacterTest = true) ∧
      ((ShortCutEmitCharacterPair one_byte c1 c2 on_failure st).1 = false → added = []) := by
  unfold ShortCutEmitCharacterPair
  simp only []
  split
  · exact ⟨[_], rfl, fun _ => rfl, fun h => absurd h (by simp)⟩
  · split
    · exact ⟨[_], rfl, fun _ => rfl, fun h => absurd h (by simp)⟩
    · exact ⟨[], by simp, fun h => absurd h (by simp), fun _ => rfl⟩

/-- `EmitAtomLetter` emits nothing for a character with at most one letter,
and comparisons for a character with two to four letters. -/
theorem EmitAtomLetter_tests (G : Nat → Bool → List Nat) (c : Nat)
    (on_failure : Option Label) (cp_offset : Int) (check preloaded : Bool) (st : Emitter)
    (hmax : (G c st.compiler.one_byte_).length ≤ 4) :
    ∃ r, EmitAtomLetter G c on_failure cp_offset check preloaded st = some r ∧
      (r.2.code.drop st.code.length).any AssemblerOp.isCharacterTest =
        decide (2 ≤ (G c st.compiler.one_byte_).length) := by
  unfold EmitAtomLetter
  simp only []
  by_cases h1 : (G c st.compiler.one_byte_).length ≤ 1
  · rw [if_pos h1]
    have h2 : ¬ 2 ≤ (G c st.compiler.one_byte_).length := by omega
    exact ⟨_, rfl, by simp [h2]⟩
  · rw [if_neg h1]
    have h2 : 2 ≤ (G c st.compiler.one_byte_).length := by omega
    simp only [h2, decide_True]
    -- the emitter after the load, with the label `ok` taken
    have hload : ∃ loaded : List AssemblerOp,
        (if (!preloaded) = true then st.emit (.LoadCurrentCharacter cp_offset on_failure check)
          else st).code = st.code ++ loaded := by
      cases preloaded
      · exact ⟨[_], rfl⟩
      · exact ⟨[], by simp⟩
    obtain ⟨loaded, hloaded⟩ := hload
    generalize hst1 : (if (!preloaded) = true then
      st.emit (.LoadCurrentCharacter cp_offset on_failure check) else st) = st1 at hloaded
    match hchars : G c st.compiler.one_byte_, hmax, h2 with
    | [c0, c1], _, _ =>
      simp only []
      obtain ⟨added, hadded, htrue, hfalse⟩ := ShortCutEmitCharacterPair_tests
        st.compiler.one_byte_ c0 c1 on_failure { st1 with labels := st1.labels + 1 }
      cases hhandled : (ShortCutEmitCharacterPair st.compiler.one_byte_ c0 c1 on_failure
          { st1 with labels := st1.labels + 1 }).1
      · refine ⟨_, rfl, ?_⟩
        simp only [Emitter.emit]
        rw [hadded]
        simp only [hloaded, hfalse hhandled, List.append_nil, List.append_assoc,
          drop_code_append, List.any_append]
        simp [AssemblerOp.isCharacterTest]
      · refine ⟨_, rfl, ?_⟩
        simp only []
        rw [hadded]
        simp only [hloaded, List.append_assoc, drop_code_append, List.any_append,
          htrue hhandled, Bool.or_true]
    | [c0, c1, c2], _, _ =>
      refine ⟨_, rfl, ?_⟩
      simp only [Emitter.emit, hloaded, List.append_assoc, drop_code_append, List.any_append]
      simp [AssemblerOp.isCharacterTest]
    | [c0, c1, c2, c3], _, _ =>
      refine ⟨_, rfl, ?_⟩
      simp only [Emitter.emit, hloaded, List.append_assoc, drop_code_append, List.any_append]
      simp [AssemblerOp.isCharacterTest]

/-- An emitter for a one-byte subject, with no code yet. -/
theorem Emitter.new_code : (Emitter.new []).code = [] := rfl

/-- C38 (counterexample). An ignore-case `a`, whose letters are `a` and
`A`, at a position that the quick check performed has determined perfectly:
no pass emits a test for it, on a one-byte or a two-byte subject, whether
the character is preloaded or not. -/
theorem TextNode.TextEmitPass_one_pass_counterexample :
    (GetCaseIndependentLetters.example_letters 97 true).length = 2 ∧
    (97 : Nat) ≤ 0xFF ∧
    ∀ one_byte ∈ [false, true], ∀ pass ∈ TextNode.passes, ∀ preloaded ∈ [false, true],
      TextNode.TextEmitPass.emitsTest
        { Emitter.new [] with compiler := RegExpCompiler.new 0 one_byte true }
        (TextNode.TextEmitPass.atomCharacter GetCaseIndependentLetters.example_letters pass
          preloaded none (some QuickCheckDetails.exampleDetermined) false false true 0 0 0 0 97
          (-1) { Emitter.new [] with compiler := RegExpCompiler.new 0 one_byte true }) =
        false := by
  decide

/-- C38 (amended). For an atom character that a pass neither skips as the
first element already checked nor as determined already by the quick check
performed: if the atom ignores case, the letters that
`GetCaseIndependentLetters` returns for the character are one to four and,
on a one-byte subject, the code unit is at most `0xFF`, then every pass
returns, and a pass emits a test for the character exactly when it is the
pass `NON_LETTER_CHARACTER_MATCH` and there is one letter, or the pass
`CASE_CHARACTER_MATCH` and there are two to four; if the atom is
case-sensitive, a pass emits a test exactly when it is the pass
`SIMPLE_CHARACTER_MATCH`. -/
theorem TextNode.TextEmitPass_one_pass (G : Nat → Bool → List Nat)
    (pass : TextNode.TextEmitPassType) (preloaded : Bool) (backtrack : Option Label)
    (quick_check : Option QuickCheckDetails) (first_element_checked read_backward : Bool)
    (ignore_case : Bool) (elm_cp_offset cp_offset i j : Int) (quark : Nat)
    (checked_up_to : Int) (st : Emitter)
    (hfirst : (first_element_checked && i == 0 && j == 0) = false)
    (hdet : DeterminedAlready quick_check (elm_cp_offset + j) = false) :
    (ignore_case = true →
      G (unibrow.Latin1.TryConvertToLatin1 quark) st.compiler.one_byte_ ≠ [] →
      (G (unibrow.Latin1.TryConvertToLatin1 quark) st.compiler.one_byte_).length ≤ 4 →
      (st.compiler.one_byte_ = true → quark ≤ 0xFF) →
      (∃ r, TextNode.TextEmitPass.atomCharacter G pass preloaded backtrack quick_check
          first_element_checked read_backward ignore_case elm_cp_offset cp_offset i j quark
          checked_up_to st = some r) ∧
      (TextNode.TextEmitPass.emitsTest st
          (TextNode.TextEmitPass.atomCharacter G pass preloaded backtrack quick_check
            first_element_checked read_backward ignore_case elm_cp_offset cp_offset i j quark
            checked_up_to st) = true ↔
        (pass = .NON_LETTER_CHARACTER_MATCH ∧
          (G (unibrow.Latin1.TryConvertToLatin1 quark) st.compiler.one_byte_).length = 1) ∨
        (pass = .CASE_CHARACTER_MATCH ∧
          2 ≤ (G (unibrow.Latin1.TryConvertToLatin1 quark) st.compiler.one_byte_).length))) ∧
    (ignore_case = false →
      (∃ r, TextNode.TextEmitPass.atomCharacter G pass preloaded backtrack quick_check
          first_element_checked read_backward ignore_case elm_cp_offset cp_offset i j quark
          checked_up_to st = some r) ∧
      (TextNode.TextEmitPass.emitsTest st
          (TextNode.TextEmitPass.atomCharacter G pass preloaded backtrack quick_check
            first_element_checked read_backward ignore_case elm_cp_offset cp_offset i j quark
            checked_up_to st) = true ↔
        pass = .SIMPLE_CHARACTER_MATCH)) := by
  have hnone : (st.code.drop st.code.length).any AssemblerOp.isCharacterTest = false := by
    simp
  have hgoto : ∀ op, AssemblerOp.isCharacterTest op = false →
      ((st.emit op).code.drop st.code.length).any AssemblerOp.isCharacterTest = false := by
    intro op hop
    simp only [Emitter.emit, drop_code_append, List.any_cons, hop, List.any_nil, Bool.or_false]
  constructor
  · intro hic hne hmax hbyte
    subst hic
    have hq : st.compiler.one_byte_ = true →
        unibrow.Latin1.TryConvertToLatin1 quark ≤ String.kMaxOneByteCharCode := by
      intro hb
      have := hbyte hb
      unfold unibrow.Latin1.TryConvertToLatin1 String.kMaxOneByteCharCode
      split_ifs <;> omega
    have hpos : 1 ≤ (G (unibrow.Latin1.TryConvertToLatin1 quark) st.compiler.one_byte_).length := by
      cases hG : G (unibrow.Latin1.TryConvertToLatin1 quark) st.compiler.one_byte_ with
      | nil => exact absurd hG hne
      | cons a l => simp
    unfold TextNode.TextEmitPass.atomCharacter
    rw [hfirst, hdet]
    cases pass
    · -- NON_LATIN1_MATCH
      simp only [TextNode.SkipPass, if_true, Bool.false_eq_true, if_false, reduceCtorEq,
        decide_False, false_and, or_self, iff_false, Bool.not_eq_true]
      split
      · exact ⟨⟨_, rfl⟩, hgoto _ rfl⟩
      · exact ⟨⟨_, rfl⟩, hnone⟩
    · -- SIMPLE_CHARACTER_MATCH
      simp only [TextNode.SkipPass, if_true, decide_True, reduceCtorEq, false_and, or_self,
        iff_false, Bool.not_eq_true]
      exact ⟨⟨_, rfl⟩, hnone⟩
    · -- NON_LETTER_CHARACTER_MATCH
      simp only [TextNode.SkipPass, if_true, Bool.false_eq_true, if_false, reduceCtorEq,
        decide_False, true_and, false_and, or_false]
      refine ⟨⟨_, rfl⟩, ?_⟩
      simp only [TextNode.TextEmitPass.emitsTest]
      rw [EmitAtomNonLetter_tests]
      cases hb : st.compiler.one_byte_
      · simp
      · have := hq hb
        have hle : ¬ unibrow.Latin1.TryConvertToLatin1 quark > String.kMaxOneByteCharCode := by
          omega
        simp [hle]
    · -- CASE_CHARACTER_MATCH
      simp only [TextNode.SkipPass, if_true, Bool.false_eq_true, if_false, reduceCtorEq,
        decide_False, true_and, false_and, false_or]
      obtain ⟨r, hr, htest⟩ := EmitAtomLetter_tests G (unibrow.Latin1.TryConvertToLatin1 quark)
        backtrack (cp_offset + j) (decide (checked_up_to < cp_offset + j) || read_backward)
        preloaded st hmax
      rw [hr]
      refine ⟨⟨_, rfl⟩, ?_⟩
      simp only [TextNode.TextEmitPass.emitsTest, htest, decide_eq_true_eq]
    · -- CHARACTER_CLASS_MATCH
      simp only [TextNode.SkipPass, if_true, Bool.false_eq_true, if_false, reduceCtorEq,
        decide_False, false_and, or_self, iff_false, Bool.not_eq_true]
      exact ⟨⟨_, rfl⟩, hnone⟩
  · intro hic
    subst hic
    unfold TextNode.TextEmitPass.atomCharacter
    rw [hfirst, hdet]
    cases pass
    · simp only [TextNode.SkipPass, Bool.false_eq_true, if_false, reduceCtorEq, decide_False,
        Bool.or_self, iff_false, Bool.not_eq_true]
      split
      · exact ⟨⟨_, rfl⟩, hgoto _ rfl⟩
      · exact ⟨⟨_, rfl⟩, hnone⟩
    · simp only [TextNode.SkipPass, Bool.false_eq_true, if_false, reduceCtorEq, decide_False,
        Bool.or_self, iff_true]
      refine ⟨⟨_, rfl⟩, ?_⟩
      simp only [TextNode.TextEmitPass.emitsTest]
      exact EmitSimpleCharacter_tests _ _ _ _ _ _
    · simp only [TextNode.SkipPass, Bool.false_eq_true, if_false, decide_True, Bool.true_or,
        if_true, reduceCtorEq, iff_false, Bool.not_eq_true]
      exact ⟨⟨_, rfl⟩, hnone⟩
    · simp only [TextNode.SkipPass, Bool.false_eq_true, if_false, decide_True, Bool.or_true,
        if_true, reduceCtorEq, iff_false, Bool.not_eq_true]
      exact ⟨⟨_, rfl⟩, hnone⟩
    · simp only [TextNode.SkipPass, Bool.false_eq_true, if_false, reduceCtorEq, decide_False,
        Bool.or_self, iff_false, Bool.not_eq_true]
      exact ⟨⟨_, rfl⟩, hnone⟩

/-- The statement of `TextEmitPass_one_pass` for an ignore-case `a` with the
letters `a` and `A` in the pass `CASE_CHARACTER_MATCH`, not preloaded and
without a quick check performed. -/
theorem TextNode.TextEmitPass_one_pass_witness :
    ((true : Bool) = true →
      GetCaseIndependentLetters.example_letters (unibrow.Latin1.TryConvertToLatin1 97)
          (Emitter.new []).compiler.one_byte_ ≠ [] →
      (GetCaseIndependentLetters.example_letters (unibrow.Latin1.TryConvertToLatin1 97)
          (Emitter.new []).compiler.one_byte_).length ≤ 4 →
      ((Emitter.new []).compiler.one_byte_ = true → 97 ≤ 0xFF) →
      (∃ r, TextNode.TextEmitPass.atomCharacter GetCaseIndependentLetters.example_letters
          .CASE_CHARACTER_MATCH false none none false false true 0 0 0 0 97 (-1) (Emitter.new []) = some r) ∧
      (TextNode.TextEmitPass.emitsTest (Emitter.new [])
          (TextNode.TextEmitPass.atomCharacter GetCaseIndependentLetters.example_letters
          .CASE_CHARACTER_MATCH false none none false false true 0 0 0 0 97 (-1) (Emitter.new [])) = true ↔
        (TextNode.TextEmitPassType.CASE_CHARACTER_MATCH = .NON_LETTER_CHARACTER_MATCH ∧
          (GetCaseIndependentLetters.example_letters (unibrow.Latin1.TryConvertToLatin1 97)
          (Emitter.new []).compiler.one_byte_).length = 1) ∨
        (TextNode.TextEmitPassType.CASE_CHARACTER_MATCH = .CASE_CHARACTER_MATCH ∧
          2 ≤ (GetCaseIndependentLetters.example_letters (unibrow.Latin1.TryConvertToLatin1 97)
          (Emitter.new []).compiler.one_byte_).length))) ∧
    ((true : Bool) = false →
      (∃ r, TextNode.TextEmitPass.atomCharacter GetCaseIndependentLetters.example_letters
          .CASE_CHARACTER_MATCH false none none false false true 0 0 0 0 97 (-1) (Emitter.new []) = some r) ∧
      (TextNode.TextEmitPass.emitsTest (Emitter.new [])
          (TextNode.TextEmitPass.atomCharacter GetCaseIndependentLetters.example_letters
          .CASE_CHARACTER_MATCH false none none false false true 0 0 0 0 97 (-1) (Emitter.new [])) = true ↔
        TextNode.TextEmitPassType.CASE_CHARACTER_MATCH = .SIMPLE_CHARACTER_MATCH)) :=
  TextNode.TextEmitPass_one_pass GetCaseIndependentLetters.example_letters
    .CASE_CHARACTER_MATCH false none none false false true 0 0 0 0 97 (-1) (Emitter.new [])
    (by decide) (by decide)

/-! ## The word-boundary check -/

/-- C35 (counterexample). With a lookahead that says the next character is
a word character, the code of `EmitBoundaryCheck` for `AT_BOUNDARY` at
position 1 of the subject of two spaces continues to the successor, although
the previous and the next code unit are both non-word characters. -/
theorem AssertionNode.EmitBoundaryCheck_boundary_counterexample :
    Trace.new.cp_offset_ = 0 ∧
    previousIsWord [32, 32] 1 = false ∧ nextIsWord [32, 32] 1 = false ∧
    (AssertionNode.EmitBoundaryCheck false (AssertionNode.jumpToSuccessor 7)
        (some BoyerMoorePositionInfo.exampleWord) .AT_BOUNDARY Trace.new (Emitter.new [])).map
      (fun st => AssemblerOp.run [32, 32] 1 none 0 st.code) = some (.jump (.node 7)) := by
  decide

/-- A run that looks for a label passes an operation that does not bind
it. -/
theorem AssemblerOp.jumpTo_cons (subject : List Nat) (position : Int) (target : Option Label)
    (current : Nat) (op : AssemblerOp) (rest : List AssemblerOp)
    (h : ∀ l, target = some l → op ≠ .Bind l) :
    AssemblerOp.jumpTo subject position target current (op :: rest) =
      AssemblerOp.jumpTo subject position target current rest := by
  cases target with
  | none => rfl
  | some l =>
    simp only [AssemblerOp.jumpTo, AssemblerOp.run, h l rfl, if_false]

/-- A run that looks for a label passes a piece of code that does not bind
it. -/
theorem AssemblerOp.jumpTo_append (subject : List Nat) (position : Int) (target : Option Label)
    (current : Nat) (code rest : List AssemblerOp)
    (h : ∀ l, target = some l → AssemblerOp.Bind l ∉ code) :
    AssemblerOp.jumpTo subject position target current (code ++ rest) =
      AssemblerOp.jumpTo subject position target current rest := by
  induction code with
  | nil => rfl
  | cons op code ih =>
    rw [List.cons_append, AssemblerOp.jumpTo_cons _ _ _ _ _ _ (fun l hl e =>
      h l hl (by rw [e]; exact List.mem_cons_self _ _))]
    exact ih (fun l hl e => h l hl (List.mem_cons_of_mem _ e))

/-- A run that looks for a label goes on after the operation that binds
it. -/
theorem AssemblerOp.jumpTo_bind (subject : List Nat) (position : Int) (l : Label)
    (current : Nat) (rest : List AssemblerOp) :
    AssemblerOp.jumpTo subject position (some l) current (.Bind l :: rest) =
      AssemblerOp.run subject position none current rest := by
  simp [AssemblerOp.jumpTo, AssemblerOp.run]

/-- A run that looks for a label that the code does not bind ends as a jump
to that label. -/
theorem AssemblerOp.jumpTo_unbound (subject : List Nat) (position : Int)
    (target : Option Label) (current : Nat) (rest : List AssemblerOp)
    (h : ∀ l, target = some l → AssemblerOp.Bind l ∉ rest) :
    AssemblerOp.jumpTo subject position target current rest = CodeOutcome.goTo target := by
  cases target with
  | none => rfl
  | some l => exact AssemblerOp.run_seeking_unbound subject position l current rest (h l rfl)

/-- The operations of `EmitWordCheck` bind no label. -/
theorem EmitWordCheck.emitted_binds (special_class : Bool) (word non_word : Option Label)
    (fall_through_on_word : Bool) (l : Label) :
    AssemblerOp.Bind l ∉ EmitWordCheck.emitted special_class word non_word
      fall_through_on_word := by
  cases special_class <;> cases fall_through_on_word <;>
    simp [EmitWordCheck.emitted, EmitWordCheck.comparisons]

/-- The outcome of the operations of `EmitWordCheck` on a character, followed
by more code: a word character goes to `word` or, when
`fall_through_on_word`, may go on with the code that follows; any other
character goes to `non_word` or, when not `fall_through_on_word`, may go on
with the code that follows. -/
theorem EmitWordCheck.emitted_run (subject : List Nat) (position : Int) (special_class : Bool)
    (word non_word : Option Label) (fall_through_on_word : Bool) (c : Nat)
    (rest : List AssemblerOp) :
    AssemblerOp.run subject position none c
        (EmitWordCheck.emitted special_class word non_word fall_through_on_word ++ rest) =
      if IsWordCharacter c = true then
        (if fall_through_on_word = true ∧ (special_class = true ∨ c = 95) then
          AssemblerOp.run subject position none c rest
          else AssemblerOp.jumpTo subject position word c rest)
      else
        (if fall_through_on_word = false ∧ (special_class = true ∨ (91 ≤ c ∧ c ≤ 96)) then
          AssemblerOp.run subject position none c rest
          else AssemblerOp.jumpTo subject position non_word c rest) := by
  have hskip : ∀ (target : Option Label) (n : Nat),
      (match target with
        | none => CodeOutcome.backtrack
        | some label => AssemblerOp.run subject position (some label) c
            ((EmitWordCheck.comparisons word non_word fall_through_on_word).drop n ++ rest)) =
        AssemblerOp.jumpTo subject position target c rest := by
    intro target n
    have := AssemblerOp.jumpTo_append subject position target c
      ((EmitWordCheck.comparisons word non_word fall_through_on_word).drop n) rest
      (fun l _ hmem => by
        have hmem2 := List.mem_of_mem_drop hmem
        cases fall_through_on_word <;> simp [EmitWordCheck.comparisons] at hmem2)
    rw [← this]
    cases target <;> rfl
  cases special_class with
  | true =>
    cases hw : IsWordCharacter c <;> cases fall_through_on_word <;>
      simp [EmitWordCheck.emitted, AssemblerOp.run, AssemblerOp.jumpTo, hw]
  | false =>
    have h1 := hskip non_word 1
    have h2 := hskip non_word 2
    have h3 := hskip word 3
    have h4 := hskip word 4
    have h5 := hskip non_word 5
    have h6 := hskip word 6
    have h7n := hskip non_word 7
    have h7w := hskip word 7
    simp only [EmitWordCheck.comparisons, List.drop_succ_cons, List.drop_zero, List.drop_nil,
      List.cons_append, List.nil_append] at h1 h2 h3 h4 h5 h6 h7n h7w
    simp only [EmitWordCheck.emitted, Bool.false_eq_true, if_false, EmitWordCheck.comparisons,
      List.cons_append, List.nil_append, false_or]
    by_cases g1 : c > 122
    · have hw : IsWordCharacter c = false := by
        simp [IsWordCharacter]
        omega
      have hno : ¬ (fall_through_on_word = false ∧ 91 ≤ c ∧ c ≤ 96) := by omega
      simp only [hw, Bool.false_eq_true, if_false, if_neg hno]
      simp only [AssemblerOp.run, g1, if_true]
      exact h1
    · by_cases g2 : c < 48
      · have hw : IsWordCharacter c = false := by
          simp [IsWordCharacter]
          omega
        have hno : ¬ (fall_through_on_word = false ∧ 91 ≤ c ∧ c ≤ 96) := by omega
        simp only [hw, Bool.false_eq_true, if_false, if_neg hno]
        simp only [AssemblerOp.run, g1, g2, if_true, if_false]
        exact h2
      · by_cases g3 : c > 96
        · have hw : IsWordCharacter c = true := by
            simp [IsWordCharacter]
            omega
          have hno : ¬ (fall_through_on_word = true ∧ c = 95) := by omega
          simp only [hw, if_true, if_neg hno]
          simp only [AssemblerOp.run, g1, g2, g3, if_true, if_false]
          exact h3
        · by_cases g4 : c < 58
          · have hw : IsWordCharacter c = true := by
              simp [IsWordCharacter]
              omega
            have hno : ¬ (fall_through_on_word = true ∧ c = 95) := by omega
            simp only [hw, if_true, if_neg hno]
            simp only [AssemblerOp.run, g1, g2, g3, g4, if_true, if_false]
            exact h4
          · by_cases g5 : c < 65
            · have hw : IsWordCharacter c = false := by
                simp [IsWordCharacter]
                omega
              have hno : ¬ (fall_through_on_word = false ∧ 91 ≤ c ∧ c ≤ 96) := by omega
              simp only [hw, Bool.false_eq_true, if_false, if_neg hno]
              simp only [AssemblerOp.run, g1, g2, g3, g4, g5, if_true, if_false]
              exact h5
            · by_cases g6 : c < 91
              · have hw : IsWordCharacter c = true := by
                  simp [IsWordCharacter]
                  omega
                have hno : ¬ (fall_through_on_word = true ∧ c = 95) := by omega
                simp only [hw, if_true, if_neg hno]
                simp only [AssemblerOp.run, g1, g2, g3, g4, g5, g6, if_true, if_false]
                exact h6
              · by_cases g7 : c = 95
                · subst g7
                  cases fall_through_on_word
                  · simp only [AssemblerOp.run]
                    simp only [Bool.false_eq_true, if_false] at h7w ⊢
                    simpa [IsWordCharacter] using h7w
                  · simp [AssemblerOp.run, IsWordCharacter]
                · have hw : IsWordCharacter c = false := by
                    simp [IsWordCharacter]
                    omega
                  simp only [hw, Bool.false_eq_true, if_false]
                  cases fall_through_on_word
                  · have hyes : false = false ∧ 91 ≤ c ∧ c ≤ 96 := ⟨rfl, by omega, by omega⟩
                    rw [if_pos hyes]
                    simp [AssemblerOp.run, g1, g2, g3, g4, g5, g6, g7]
                  · simp only [AssemblerOp.run, g1, g2, g3, g4, g5, g6, if_true, if_false]
                    simp only [Bool.true_eq_false, false_and, if_false] at h7n ⊢
                    simpa [g7] using h7n

/-- `EmitWordCheck` adds its operations to the code and changes nothing
else. -/
theorem EmitWordCheck_emitted (special_class : Bool) (word non_word : Option Label)
    (fall_through_on_word : Bool) (st : Emitter) :
    EmitWordCheck special_class word non_word fall_through_on_word st =
      { st with code := st.code ++
          EmitWordCheck.emitted special_class word non_word fall_through_on_word } := by
  cases special_class <;> cases fall_through_on_word <;>
    simp [EmitWordCheck, EmitWordCheck.emitted, EmitWordCheck.comparisons, Emitter.emit]

/-- At offset 0, with a successor whose emission is a jump to it,
`BacktrackIfPrevious` adds its operations to the code and takes two
labels. -/
theorem AssertionNode.BacktrackIfPrevious_emitted (special_class : Bool) (on_success : Nat)
    (trace : Trace) (backtrack_if_previous : AssertionNode.IfPrevious) (st : Emitter)
    (hcp : trace.cp_offset_ = 0) :
    AssertionNode.BacktrackIfPrevious special_class (AssertionNode.jumpToSuccessor on_success)
        trace backtrack_if_previous st =
      some { st with
        code := st.code ++ AssertionNode.BacktrackIfPrevious.emitted special_class
          trace.backtrack_ backtrack_if_previous st.labels on_success
        labels := st.labels + 2 } := by
  unfold AssertionNode.BacktrackIfPrevious AssertionNode.jumpToSuccessor
  simp only [Trace.InvalidateCurrentCharacter, hcp, beq_self_eq_true, if_true,
    EmitWordCheck_emitted, Emitter.emit, AssertionNode.BacktrackIfPrevious.emitted,
    List.append_assoc, zero_sub]
  simp

/-- The labels that the operations of `BacktrackIfPrevious` bind. -/
theorem AssertionNode.BacktrackIfPrevious.emitted_binds_none (special_class : Bool)
    (backtrack : Option Label) (backtrack_if_previous : AssertionNode.IfPrevious)
    (labels on_success : Nat) (l : Label)
    (h : AssemblerOp.Bind l ∈ AssertionNode.BacktrackIfPrevious.emitted special_class backtrack
      backtrack_if_previous labels on_success) : l = .stack labels := by
  unfold AssertionNode.BacktrackIfPrevious.emitted at h
  simp only [List.mem_append, List.mem_cons, reduceCtorEq, false_or, List.mem_singleton,
    or_false, AssemblerOp.Bind.injEq, List.not_mem_nil] at h
  rcases h with h | h
  · exact absurd h (EmitWordCheck.emitted_binds _ _ _ _ _)
  · exact h

/-- The outcome of the operations of `BacktrackIfPrevious`, whatever code
follows that binds neither the backtrack label nor the successor's: the run
goes to the successor when the previous code unit is a word character and
`backtrack_if_previous` is `kIsNonWord`, or is none and it is `kIsWord`; else
it goes to the backtrack label. -/
theorem AssertionNode.BacktrackIfPrevious.emitted_outcome (subject : List Nat) (position : Nat)
    (special_class : Bool) (backtrack : Option Label)
    (backtrack_if_previous : AssertionNode.IfPrevious) (labels on_success : Nat)
    (current : Nat) (rest : List AssemblerOp)
    (hfresh : backtrack ≠ some (.stack labels))
    (hrest : ∀ l, backtrack = some l → AssemblerOp.Bind l ∉ rest)
    (hsucc : AssemblerOp.Bind (.node on_success) ∉ rest) :
    AssemblerOp.run subject position none current
        (AssertionNode.BacktrackIfPrevious.emitted special_class backtrack backtrack_if_previous
          labels on_success ++ rest) =
      if decide (backtrack_if_previous = .kIsNonWord) = previousIsWord subject position then
        .jump (.node on_success)
      else CodeOutcome.goTo backtrack := by
  -- the end of the piece: the label `fall_through` and the successor
  have htail : ∀ c, AssemblerOp.run subject position none c
      ([AssemblerOp.Bind (.stack labels), .GoTo (some (.node on_success))] ++ rest) =
      .jump (.node on_success) := by
    intro c
    simp only [List.cons_append, List.nil_append, AssemblerOp.run]
    exact AssemblerOp.run_seeking_unbound subject position _ c rest hsucc
  have htail2 : ∀ c, AssemblerOp.jumpTo subject position (some (.stack labels)) c
      ([AssemblerOp.Bind (.stack labels), .GoTo (some (.node on_success))] ++ rest) =
      .jump (.node on_success) := by
    intro c
    rw [List.cons_append, AssemblerOp.jumpTo_bind]
    have := htail c
    simpa [AssemblerOp.run] using this
  have hback : ∀ c (code : List AssemblerOp), (∀ l, AssemblerOp.Bind l ∉ code) →
      AssemblerOp.jumpTo subject position backtrack c
        (code ++ ([AssemblerOp.Bind (.stack labels), .GoTo (some (.node on_success))] ++ rest)) =
      CodeOutcome.goTo backtrack := by
    intro c code hcode
    apply AssemblerOp.jumpTo_unbound
    intro l hl hmem
    simp only [List.mem_append, List.mem_cons, AssemblerOp.Bind.injEq, reduceCtorEq,
      List.not_mem_nil, or_false, false_or] at hmem
    rcases hmem with hmem | hmem | hmem
    · exact hcode l hmem
    · exact hfresh (by rw [hl, hmem])
    · exact hrest l hl hmem
  unfold AssertionNode.BacktrackIfPrevious.emitted
  simp only [List.append_assoc, List.cons_append, List.nil_append]
  by_cases hstart : position = 0
  · subst hstart
    have hprev : previousIsWord subject 0 = false := by simp [previousIsWord]
    rw [hprev]
    cases backtrack_if_previous with
    | kIsNonWord =>
      simp only [decide_True, if_true, Bool.true_eq_false, if_false, AssemblerOp.run,
        Nat.cast_zero]
      have := hback current (AssemblerOp.LoadCurrentCharacter (-1) (some (.stack (labels + 1)))
          false :: EmitWordCheck.emitted special_class (some (.stack labels)) backtrack true)
        (by
          intro l hmem
          rcases List.mem_cons.1 hmem with h | h
          · exact absurd h (by simp)
          · exact absurd h (EmitWordCheck.emitted_binds _ _ _ _ _))
      simpa [AssemblerOp.jumpTo] using this
    | kIsWord =>
      simp only [reduceCtorEq, decide_False, if_false, if_true, AssemblerOp.run, Nat.cast_zero,
        Bool.false_eq_true]
      have h1 := AssemblerOp.jumpTo_cons subject ((0 : Nat) : Int) (some (.stack labels)) current
        (AssemblerOp.LoadCurrentCharacter (-1) (some (.stack (labels + 1))) false)
        (EmitWordCheck.emitted special_class backtrack (some (.stack labels)) false ++
          ([AssemblerOp.Bind (.stack labels), .GoTo (some (.node on_success))] ++ rest))
        (by intro l _; simp)
      have h2 := AssemblerOp.jumpTo_append subject ((0 : Nat) : Int) (some (.stack labels))
        current (EmitWordCheck.emitted special_class backtrack (some (.stack labels)) false)
        ([AssemblerOp.Bind (.stack labels), .GoTo (some (.node on_success))] ++ rest)
        (fun l _ => EmitWordCheck.emitted_binds _ _ _ _ _)
      have h3 := htail2 current
      rw [← h2, ← h1] at h3
      simpa [AssemblerOp.jumpTo] using h3
  · have hpos0 : ¬ ((position : Int) = 0) := by omega
    have hidx : ((position : Int) + -1).toNat = position - 1 := by omega
    have hprev : previousIsWord subject position =
        IsWordCharacter (subject.getD (position - 1) 0) := by
      simp [previousIsWord, hstart]
    rw [hprev]
    simp only [AssemblerOp.run, hpos0, if_false, Bool.false_and, Bool.false_eq_true, hidx]
    generalize subject.getD (position - 1) 0 = prev
    have hrun := EmitWordCheck.emitted_run subject position special_class
      (if backtrack_if_previous = .kIsNonWord then some (.stack labels) else backtrack)
      (if backtrack_if_previous = .kIsNonWord then backtrack else some (.stack labels))
      (decide (backtrack_if_previous = .kIsNonWord)) prev
      ([AssemblerOp.Bind (.stack labels), .GoTo (some (.node on_success))] ++ rest)
    simp only [List.cons_append, List.nil_append] at hrun htail htail2 hback
    rw [hrun]
    have hb := hback prev [] (by simp)
    simp only [List.nil_append] at hb
    cases backtrack_if_previous with
    | kIsNonWord =>
      cases hw : IsWordCharacter prev
      · simp only [Bool.false_eq_true, if_false, decide_True, Bool.true_eq_false, false_and,
          if_true]
        exact hb
      · simp only [if_true, decide_True]
        split
        · exact htail prev
        · exact htail2 prev
    | kIsWord =>
      cases hw : IsWordCharacter prev
      · simp only [Bool.false_eq_true, if_false, reduceCtorEq, decide_False, if_true]
        split
        · exact htail prev
        · exact htail2 prev
      · simp only [if_true, reduceCtorEq, decide_False, Bool.false_eq_true, false_and,
          if_false]
        exact hb

/-- The operations that `EmitBoundaryCheck` emits at offset 0 when the
lookahead does not settle the next character; `labels` is the number of
labels in use at the call. -/
theorem AssertionNode.EmitBoundaryCheck_unknown (special_class : Bool) (on_success : Nat)
    (lookahead : Option BoyerMoorePositionInfo) (assertion_type_ : AssertionNode.BoundaryType)
    (trace : Trace) (st : Emitter) (hcp : trace.cp_offset_ = 0)
    (hlook : ∀ info, lookahead = some info → info.is_word = false ∧ info.is_non_word = false) :
    ∃ st', AssertionNode.EmitBoundaryCheck special_class
        (AssertionNode.jumpToSuccessor on_success) lookahead assertion_type_ trace st =
        some st' ∧
      st'.code = st.code ++
        ((if trace.characters_preloaded_ != 1 then
            [AssemblerOp.LoadCurrentCharacter 0 (some (.stack st.labels)) true] else []) ++
          (EmitWordCheck.emitted special_class (some (.stack (st.labels + 1)))
            (some (.stack st.labels)) false ++
          (AssemblerOp.Bind (.stack st.labels) ::
            (AssertionNode.BacktrackIfPrevious.emitted special_class trace.backtrack_
              (if decide (assertion_type_ = .AT_BOUNDARY) then .kIsNonWord else .kIsWord)
              (st.labels + 3) on_success ++
            (AssemblerOp.GoTo (some (.stack (st.labels + 2))) ::
              AssemblerOp.Bind (.stack (st.labels + 1)) ::
              (AssertionNode.BacktrackIfPrevious.emitted special_class trace.backtrack_
                (if decide (assertion_type_ = .AT_BOUNDARY) then .kIsWord else .kIsNonWord)
                (st.labels + 5) on_success ++
              [AssemblerOp.Bind (.stack (st.labels + 2))])))))) := by
  cases lookahead with
  | none =>
    cases hpre : (trace.characters_preloaded_ != 1) <;>
      simp [AssertionNode.EmitBoundaryCheck, EmitWordCheck_emitted, Emitter.emit,
        AssertionNode.BacktrackIfPrevious_emitted _ _ _ _ _ hcp, hcp, hpre, List.append_assoc,
        Nat.add_assoc]
  | some info =>
    obtain ⟨h1, h2⟩ := hlook info rfl
    cases hpre : (trace.characters_preloaded_ != 1) <;>
      simp [AssertionNode.EmitBoundaryCheck, EmitWordCheck_emitted, Emitter.emit,
        AssertionNode.BacktrackIfPrevious_emitted _ _ _ _ _ hcp, hcp, hpre, List.append_assoc,
        Nat.add_assoc, h1, h2]

/-- The operations that `EmitBoundaryCheck` emits at offset 0 when the
lookahead settles the next character: those of one `BacktrackIfPrevious`. -/
theorem AssertionNode.EmitBoundaryCheck_settled (special_class : Bool) (on_success : Nat)
    (info : BoyerMoorePositionInfo) (assertion_type_ : AssertionNode.BoundaryType)
    (trace : Trace) (st : Emitter) (hcp : trace.cp_offset_ = 0)
    (hlook : info.is_word = true ∨ info.is_non_word = true) :
    ∃ st', AssertionNode.EmitBoundaryCheck special_class
        (AssertionNode.jumpToSuccessor on_success) (some info) assertion_type_ trace st =
        some st' ∧
      st'.code = st.code ++
        AssertionNode.BacktrackIfPrevious.emitted special_class trace.backtrack_
          (if xor (decide (assertion_type_ = .AT_BOUNDARY)) info.is_word then .kIsNonWord
            else .kIsWord)
          st.labels on_success := by
  cases hw : info.is_word
  · have hn : info.is_non_word = true := by
      rcases hlook with h | h
      · rw [hw] at h
        exact absurd h (by decide)
      · exact h
    cases assertion_type_ <;>
      simp [AssertionNode.EmitBoundaryCheck, hw, hn,
        AssertionNode.BacktrackIfPrevious_emitted _ _ _ _ _ hcp]
  · cases assertion_type_ <;>
      simp [AssertionNode.EmitBoundaryCheck, hw,
        AssertionNode.BacktrackIfPrevious_emitted _ _ _ _ _ hcp]

/-- C35 (amended). For a trace with offset 0 and a successor whose emission
is a jump to it, the code that `AssertionNode::EmitBoundaryCheck` emits goes
to the successor exactly when (the previous code unit is a word character)
differs from (the next code unit is taken as a word character) for
`AT_BOUNDARY`, and exactly when the two agree for `AT_NON_BOUNDARY`; in all
other cases it goes to the backtrack label. The start and the end of input
count as non-word, and the next code unit is taken as the lookahead says
where the lookahead settles it, else as the subject has it. -/
theorem AssertionNode.EmitBoundaryCheck_boundary (special_class : Bool) (on_success : Nat)
    (lookahead : Option BoyerMoorePositionInfo) (assertion_type_ : AssertionNode.BoundaryType)
    (trace : Trace) (st : Emitter) (subject : List Nat) (position current : Nat)
    (hcp : trace.cp_offset_ = 0)
    (hfresh : ∀ n, st.labels ≤ n → trace.backtrack_ ≠ some (.stack n))
    (hpre : trace.characters_preloaded_ = 1 →
      position < subject.length ∧ current = subject.getD position 0) :
    ∃ st' code,
      AssertionNode.EmitBoundaryCheck special_class (AssertionNode.jumpToSuccessor on_success)
        lookahead assertion_type_ trace st = some st' ∧
      st'.code = st.code ++ code ∧
      AssemblerOp.run subject position none current code =
        if xor (previousIsWord subject position)
            (AssertionNode.nextTakenAsWord lookahead subject position) =
            decide (assertion_type_ = .AT_BOUNDARY) then
          .jump (.node on_success)
        else CodeOutcome.goTo trace.backtrack_ := by
  -- one `BacktrackIfPrevious`, whatever follows that binds local labels only
  have hbip : ∀ (kind : AssertionNode.IfPrevious) (labels : Nat) (c : Nat)
      (rest : List AssemblerOp), st.labels ≤ labels →
      (∀ l, AssemblerOp.Bind l ∈ rest → ∃ n, st.labels ≤ n ∧ l = .stack n) →
      AssemblerOp.run subject position none c
        (AssertionNode.BacktrackIfPrevious.emitted special_class trace.backtrack_ kind labels
          on_success ++ rest) =
      if decide (kind = .kIsNonWord) = previousIsWord subject position then
        .jump (.node on_success)
      else CodeOutcome.goTo trace.backtrack_ := by
    intro kind labels c rest hle hbinds
    apply AssertionNode.BacktrackIfPrevious.emitted_outcome
    · exact hfresh labels hle
    · intro l hl hmem
      obtain ⟨n, hn, hln⟩ := hbinds l hmem
      exact hfresh n hn (by rw [hl, hln])
    · intro hmem
      obtain ⟨n, _, hln⟩ := hbinds _ hmem
      exact absurd hln (by simp)
  by_cases hsettled : ∃ info, lookahead = some info ∧
      (info.is_word = true ∨ info.is_non_word = true)
  · obtain ⟨info, hinfo, hlook⟩ := hsettled
    subst hinfo
    obtain ⟨st', hst', hcode⟩ := AssertionNode.EmitBoundaryCheck_settled special_class
      on_success info assertion_type_ trace st hcp hlook
    refine ⟨st', _, hst', hcode, ?_⟩
    have hrun := hbip (if xor (decide (assertion_type_ = .AT_BOUNDARY)) info.is_word
      then .kIsNonWord else .kIsWord) st.labels current [] (le_refl _) (by simp)
    rw [List.append_nil] at hrun
    rw [hrun]
    have hnext : AssertionNode.nextTakenAsWord (some info) subject position = info.is_word := by
      unfold AssertionNode.nextTakenAsWord
      cases hw : info.is_word
      · rcases hlook with h | h
        · rw [hw] at h
          exact absurd h (by decide)
        · simp [hw, h]
      · simp [hw]
    rw [hnext]
    cases assertion_type_ <;> cases info.is_word <;> cases previousIsWord subject position <;>
      simp
  · have hlook : ∀ info, lookahead = some info →
        info.is_word = false ∧ info.is_non_word = false := by
      intro info hinfo
      constructor
      · cases h : info.is_word
        · rfl
        · exact absurd ⟨info, hinfo, Or.inl h⟩ hsettled
      · cases h : info.is_non_word
        · rfl
        · exact absurd ⟨info, hinfo, Or.inr h⟩ hsettled
    have hnext : AssertionNode.nextTakenAsWord lookahead subject position =
        nextIsWord subject position := by
      unfold AssertionNode.nextTakenAsWord
      cases lookahead with
      | none => rfl
      | some info =>
        obtain ⟨h1, h2⟩ := hlook info rfl
        simp [h1, h2]
    obtain ⟨st', hst', hcode⟩ := AssertionNode.EmitBoundaryCheck_unknown special_class
      on_success lookahead assertion_type_ trace st hcp hlook
    refine ⟨st', _, hst', hcode, ?_⟩
    rw [hnext]
    -- the branch taken after a word character
    have hword : ∀ c, AssemblerOp.run subject position none c
        (AssertionNode.BacktrackIfPrevious.emitted special_class trace.backtrack_
          (if decide (assertion_type_ = .AT_BOUNDARY) then .kIsWord else .kIsNonWord)
          (st.labels + 5) on_success ++ [AssemblerOp.Bind (.stack (st.labels + 2))]) =
        if xor (previousIsWord subject position) true =
            decide (assertion_type_ = .AT_BOUNDARY) then
          .jump (.node on_success)
        else CodeOutcome.goTo trace.backtrack_ := by
      intro c
      rw [hbip _ (st.labels + 5) c _ (by omega) (by
        intro l hmem
        simp at hmem
        exact ⟨st.labels + 2, by omega, hmem⟩)]
      cases assertion_type_ <;> cases previousIsWord subject position <;> simp
    -- the branch taken after a non-word character
    have hnon : ∀ c, AssemblerOp.run subject position none c
        (AssertionNode.BacktrackIfPrevious.emitted special_class trace.backtrack_
            (if decide (assertion_type_ = .AT_BOUNDARY) then .kIsNonWord else .kIsWord)
            (st.labels + 3) on_success ++
          (AssemblerOp.GoTo (some (.stack (st.labels + 2))) ::
            AssemblerOp.Bind (.stack (st.labels + 1)) ::
            (AssertionNode.BacktrackIfPrevious.emitted special_class trace.backtrack_
              (if decide (assertion_type_ = .AT_BOUNDARY) then .kIsWord else .kIsNonWord)
              (st.labels + 5) on_success ++ [AssemblerOp.Bind (.stack (st.labels + 2))]))) =
        if xor (previousIsWord subject position) false =
            decide (assertion_type_ = .AT_BOUNDARY) then
          .jump (.node on_success)
        else CodeOutcome.goTo trace.backtrack_ := by
      intro c
      rw [hbip _ (st.labels + 3) c _ (by omega) (by
        intro l hmem
        simp only [List.mem_cons, reduceCtorEq, AssemblerOp.Bind.injEq, List.mem_append,
          List.mem_singleton, false_or, List.not_mem_nil, or_false] at hmem
        rcases hmem with hmem | hmem | hmem
        · exact ⟨st.labels + 1, by omega, hmem⟩
        · exact ⟨st.labels + 5, by omega,
            AssertionNode.BacktrackIfPrevious.emitted_binds_none _ _ _ _ _ _ hmem⟩
        · exact ⟨st.labels + 2, by omega, hmem⟩)]
      cases assertion_type_ <;> cases previousIsWord subject position <;> simp
    -- a jump to `before_word`
    have hjump_word : ∀ c, AssemblerOp.jumpTo subject position (some (.stack (st.labels + 1))) c
        (AssemblerOp.Bind (.stack st.labels) ::
          (AssertionNode.BacktrackIfPrevious.emitted special_class trace.backtrack_
              (if decide (assertion_type_ = .AT_BOUNDARY) then .kIsNonWord else .kIsWord)
              (st.labels + 3) on_success ++
            (AssemblerOp.GoTo (some (.stack (st.labels + 2))) ::
              AssemblerOp.Bind (.stack (st.labels + 1)) ::
              (AssertionNode.BacktrackIfPrevious.emitted special_class trace.backtrack_
                (if decide (assertion_type_ = .AT_BOUNDARY) then .kIsWord else .kIsNonWord)
                (st.labels + 5) on_success ++ [AssemblerOp.Bind (.stack (st.labels + 2))])))) =
        if xor (previousIsWord subject position) true =
            decide (assertion_type_ = .AT_BOUNDARY) then
          .jump (.node on_success)
        else CodeOutcome.goTo trace.backtrack_ := by
      intro c
      rw [AssemblerOp.jumpTo_cons _ _ _ _ _ _ (by
          intro l hl
          simp only [Option.some.injEq] at hl
          rw [← hl]
          simp),
        AssemblerOp.jumpTo_append _ _ _ _ _ _ (by
          intro l hl hmem
          have := AssertionNode.BacktrackIfPrevious.emitted_binds_none _ _ _ _ _ _ hmem
          simp only [Option.some.injEq] at hl
          rw [← hl] at this
          simp at this),
        AssemblerOp.jumpTo_cons _ _ _ _ _ _ (by
          intro l _
          simp),
        AssemblerOp.jumpTo_bind]
      exact hword c
    -- a jump to `before_non_word`, and falling through to it
    have hjump_non : ∀ c (rest : List AssemblerOp),
        AssemblerOp.jumpTo subject position (some (.stack st.labels)) c
          (AssemblerOp.Bind (.stack st.labels) :: rest) =
        AssemblerOp.run subject position none c rest := by
      intro c rest
      exact AssemblerOp.jumpTo_bind _ _ _ _ _
    have hfall_non : ∀ c (rest : List AssemblerOp),
        AssemblerOp.run subject position none c (AssemblerOp.Bind (.stack st.labels) :: rest) =
        AssemblerOp.run subject position none c rest := by
      intro c rest
      simp [AssemblerOp.run]
    -- the word check on the next character
    have hcheck : ∀ c, AssemblerOp.run subject position none c
        (EmitWordCheck.emitted special_class (some (.stack (st.labels + 1)))
            (some (.stack st.labels)) false ++
          (AssemblerOp.Bind (.stack st.labels) ::
            (AssertionNode.BacktrackIfPrevious.emitted special_class trace.backtrack_
                (if decide (assertion_type_ = .AT_BOUNDARY) then .kIsNonWord else .kIsWord)
                (st.labels + 3) on_success ++
              (AssemblerOp.GoTo (some (.stack (st.labels + 2))) ::
                AssemblerOp.Bind (.stack (st.labels + 1)) ::
                (AssertionNode.BacktrackIfPrevious.emitted special_class trace.backtrack_
                  (if decide (assertion_type_ = .AT_BOUNDARY) then .kIsWord else .kIsNonWord)
                  (st.labels + 5) on_success ++
                [AssemblerOp.Bind (.stack (st.labels + 2))]))))) =
        if xor (previousIsWord subject position) (IsWordCharacter c) =
            decide (assertion_type_ = .AT_BOUNDARY) then
          .jump (.node on_success)
        else CodeOutcome.goTo trace.backtrack_ := by
      intro c
      rw [EmitWordCheck.emitted_run]
      cases hw : IsWordCharacter c
      · simp only [Bool.false_eq_true, if_false]
        split
        · rw [hfall_non, hnon]
        · rw [hjump_non, hnon]
      · simp only [if_true, Bool.false_eq_true, false_and, if_false]
        exact hjump_word c
    simp only [decide_eq_true_eq] at hcheck hnon ⊢
    by_cases hp : trace.characters_preloaded_ = 1
    · obtain ⟨hlt, hcur⟩ := hpre hp
      have hne : (trace.characters_preloaded_ != 1) = false := by simp [hp]
      have hnextc : nextIsWord subject position = IsWordCharacter current := by
        simp [nextIsWord, hlt, hcur]
      simp only [hne, Bool.false_eq_true, if_false, List.nil_append]
      rw [hcheck, hnextc]
    · have hne : (trace.characters_preloaded_ != 1) = true := by simp [hp]
      simp only [hne, if_true, List.cons_append, List.nil_append]
      by_cases hend : position < subject.length
      · have hnextc : nextIsWord subject position =
            IsWordCharacter (subject.getD position 0) := by
          simp [nextIsWord, hend]
        have hin : ¬ ((position : Int) + 0 < 0 ∨ (position : Int) + 0 ≥ subject.length) := by
          omega
        simp only [AssemblerOp.run, Bool.true_and, Bool.or_eq_true, decide_eq_true_eq, hin,
          if_false]
        have hidx : ((position : Int) + 0).toNat = position := by omega
        rw [hidx, hcheck, hnextc]
      · have hnextc : nextIsWord subject position = false := by
          simp [nextIsWord, hend]
        have hout : (position : Int) + 0 < 0 ∨ (position : Int) + 0 ≥ subject.length := by
          omega
        simp only [AssemblerOp.run, Bool.true_and, Bool.or_eq_true, decide_eq_true_eq, hout,
          if_true]
        have hskip := AssemblerOp.jumpTo_append subject position (some (.stack st.labels))
          current (EmitWordCheck.emitted special_class (some (.stack (st.labels + 1)))
            (some (.stack st.labels)) false)
          (AssemblerOp.Bind (.stack st.labels) ::
            (AssertionNode.BacktrackIfPrevious.emitted special_class trace.backtrack_
                (if decide (assertion_type_ = .AT_BOUNDARY) then .kIsNonWord else .kIsWord)
                (st.labels + 3) on_success ++
              (AssemblerOp.GoTo (some (.stack (st.labels + 2))) ::
                AssemblerOp.Bind (.stack (st.labels + 1)) ::
                (AssertionNode.BacktrackIfPrevious.emitted special_class trace.backtrack_
                  (if decide (assertion_type_ = .AT_BOUNDARY) then .kIsWord else .kIsNonWord)
                  (st.labels + 5) on_success ++
                [AssemblerOp.Bind (.stack (st.labels + 2))]))))
          (fun l _ => EmitWordCheck.emitted_binds _ _ _ _ _)
        simp only [decide_eq_true_eq] at hskip
        rw [hjump_non, hnon] at hskip
        rw [hnextc]
        simpa [AssemblerOp.jumpTo] using hskip

/-- The statement of `EmitBoundaryCheck_boundary` for `AT_BOUNDARY` without
lookahead, on the trivial trace, at position 1 of the subject `a` and
space. -/
theorem AssertionNode.EmitBoundaryCheck_boundary_witness :
    ∃ st' code,
      AssertionNode.EmitBoundaryCheck false (AssertionNode.jumpToSuccessor 7) none .AT_BOUNDARY
        Trace.new (Emitter.new []) = some st' ∧
      st'.code = (Emitter.new []).code ++ code ∧
      AssemblerOp.run [97, 32] ((1 : Nat) : Int) none 0 code =
        if xor (previousIsWord [97, 32] 1) (AssertionNode.nextTakenAsWord none [97, 32] 1) =
            decide (AssertionNode.BoundaryType.AT_BOUNDARY = .AT_BOUNDARY) then
          .jump (.node 7)
        else CodeOutcome.goTo Trace.new.backtrack_ :=
  AssertionNode.EmitBoundaryCheck_boundary false 7 none .AT_BOUNDARY Trace.new (Emitter.new [])
    [97, 32] 1 0 rfl (fun _ _ h => by cases h) (by decide)

/-! ## Branches for a character class: counting boundaries -/

/-- The boundaries up to `c` among `n + m` entries are those among the
first `n` and those among the following `m`. -/
theorem GenerateBranches.boundariesUpTo_append (ranges : List Nat) (c : Nat) :
    ∀ n m i, GenerateBranches.boundariesUpTo ranges c (n + m) i =
      GenerateBranches.boundariesUpTo ranges c n i +
        GenerateBranches.boundariesUpTo ranges c m (i + n) := by
  intro n
  induction n with
  | zero =>
    intro m i
    simp [GenerateBranches.boundariesUpTo]
  | succ n ih =>
    intro m i
    have h : n + 1 + m = (n + m) + 1 := by omega
    rw [h]
    simp only [GenerateBranches.boundariesUpTo]
    rw [ih m (i + 1)]
    have h2 : i + 1 + n = i + (n + 1) := by omega
    rw [h2]
    omega

/-- The count of boundaries depends only on the entries counted. -/
theorem GenerateBranches.boundariesUpTo_congr (ranges other : List Nat) (c : Nat) :
    ∀ n i, (∀ j, i ≤ j → j < i + n → ranges.getD j 0 = other.getD j 0) →
      GenerateBranches.boundariesUpTo ranges c n i =
        GenerateBranches.boundariesUpTo other c n i := by
  intro n
  induction n with
  | zero =>
    intro i _
    rfl
  | succ n ih =>
    intro i h
    simp only [GenerateBranches.boundariesUpTo]
    rw [h i (le_refl _) (by omega), ih (i + 1) (fun j h1 h2 => h j (by omega) (by omega))]

/-- No boundary is counted if all lie above `c`. -/
theorem GenerateBranches.boundariesUpTo_zero (ranges : List Nat) (c : Nat) :
    ∀ n i, (∀ j, i ≤ j → j < i + n → c < ranges.getD j 0) →
      GenerateBranches.boundariesUpTo ranges c n i = 0 := by
  intro n
  induction n with
  | zero =>
    intro i _
    rfl
  | succ n ih =>
    intro i h
    simp only [GenerateBranches.boundariesUpTo]
    have h0 := h i (le_refl _) (by omega)
    rw [if_neg (by omega), ih (i + 1) (fun j h1 h2 => h j (by omega) (by omega))]

/-- All boundaries are counted if none lies above `c`. -/
theorem GenerateBranches.boundariesUpTo_all (ranges : List Nat) (c : Nat) :
    ∀ n i, (∀ j, i ≤ j → j < i + n → ranges.getD j 0 ≤ c) →
      GenerateBranches.boundariesUpTo ranges c n i = n := by
  intro n
  induction n with
  | zero =>
    intro i _
    rfl
  | succ n ih =>
    intro i h
    simp only [GenerateBranches.boundariesUpTo]
    have h0 := h i (le_refl _) (by omega)
    rw [if_pos h0, ih (i + 1) (fun j h1 h2 => h j (by omega) (by omega))]
    omega

/-- Increasing boundaries are ordered as their indices. -/
theorem GenerateBranches.Increasing.lt (ranges : List Nat) (s e : Nat)
    (h : GenerateBranches.Increasing ranges s e) :
    ∀ d i, s ≤ i → i + (d + 1) ≤ e → ranges.getD i 0 < ranges.getD (i + (d + 1)) 0 := by
  intro d
  induction d with
  | zero =>
    intro i hs he
    exact h i hs (by omega)
  | succ d ih =>
    intro i hs he
    have h1 := ih i hs (by omega)
    have h2 := h (i + (d + 1)) (by omega) (by omega)
    have h3 : i + (d + 1) + 1 = i + (d + 1 + 1) := by omega
    rw [h3] at h2
    omega

/-- Increasing boundaries are ordered as their indices. -/
theorem GenerateBranches.Increasing.lt_of_lt (ranges : List Nat) (s e i j : Nat)
    (h : GenerateBranches.Increasing ranges s e) (hs : s ≤ i) (hij : i < j) (he : j ≤ e) :
    ranges.getD i 0 < ranges.getD j 0 := by
  have := GenerateBranches.Increasing.lt ranges s e h (j - i - 1) i hs (by omega)
  have h2 : i + (j - i - 1 + 1) = j := by omega
  rw [h2] at this
  exact this

/-- Increasing boundaries are ordered as their indices. -/
theorem GenerateBranches.Increasing.le_of_le (ranges : List Nat) (s e i j : Nat)
    (h : GenerateBranches.Increasing ranges s e) (hs : s ≤ i) (hij : i ≤ j) (he : j ≤ e) :
    ranges.getD i 0 ≤ ranges.getD j 0 := by
  rcases Nat.eq_or_lt_of_le hij with h1 | h1
  · rw [h1]
  · exact Nat.le_of_lt (GenerateBranches.Increasing.lt_of_lt ranges s e i j h hs h1 he)

/-- A part of increasing boundaries is increasing. -/
theorem GenerateBranches.Increasing.sub (ranges : List Nat) (s e s2 e2 : Nat)
    (h : GenerateBranches.Increasing ranges s e) (hs : s ≤ s2) (he : e2 ≤ e) :
    GenerateBranches.Increasing ranges s2 e2 :=
  fun i h1 h2 => h i (by omega) (by omega)

/-- Among increasing boundaries, those up to `c` come first: with `k` of
them counted, the first `k` are at most `c` and the others lie above. -/
theorem GenerateBranches.boundariesUpTo_spec (ranges : List Nat) (c : Nat) :
    ∀ n i, GenerateBranches.Increasing ranges i (i + n - 1) →
      GenerateBranches.boundariesUpTo ranges c n i ≤ n ∧
      (∀ j, j < GenerateBranches.boundariesUpTo ranges c n i → ranges.getD (i + j) 0 ≤ c) ∧
      (∀ j, GenerateBranches.boundariesUpTo ranges c n i ≤ j → j < n →
        c < ranges.getD (i + j) 0) := by
  intro n
  induction n with
  | zero =>
    intro i _
    refine ⟨le_refl _, fun j hj => absurd hj (by simp [GenerateBranches.boundariesUpTo]),
      fun j _ hj => absurd hj (by omega)⟩
  | succ n ih =>
    intro i hinc
    simp only [GenerateBranches.boundariesUpTo]
    by_cases h0 : ranges.getD i 0 ≤ c
    · rw [if_pos h0]
      obtain ⟨h1, h2, h3⟩ := ih (i + 1)
        (GenerateBranches.Increasing.sub ranges _ _ _ _ hinc (by omega) (by omega))
      refine ⟨by omega, ?_, ?_⟩
      · intro j hj
        cases j with
        | zero => exact h0
        | succ j =>
          have := h2 j (by omega)
          have e : i + 1 + j = i + (j + 1) := by omega
          rw [e] at this
          exact this
      · intro j hj hn
        cases j with
        | zero => omega
        | succ j =>
          have := h3 j (by omega) (by omega)
          have e : i + 1 + j = i + (j + 1) := by omega
          rw [e] at this
          exact this
    · rw [if_neg h0]
      have hall : ∀ j, i ≤ j → j < i + (n + 1) → c < ranges.getD j 0 := by
        intro j h1 h2
        have := GenerateBranches.Increasing.le_of_le ranges _ _ i j hinc (le_refl _) h1
          (by omega)
        omega
      rw [GenerateBranches.boundariesUpTo_zero ranges c n (i + 1)
        (fun j h1 h2 => hall j (by omega) (by omega))]
      refine ⟨by omega, fun j hj => absurd hj (by omega), ?_⟩
      intro j _ hn
      exact hall (i + j) (by omega) (by omega)

/-- For increasing boundaries, `c` lies in an interval that starts at an
even boundary exactly when the number of boundaries up to `c` is odd. -/
theorem GenerateBranches.inEven_iff (ranges : List Nat) (s e c : Nat) (hse : s ≤ e)
    (hinc : GenerateBranches.Increasing ranges s e) :
    GenerateBranches.inEven ranges s e c = true ↔
      GenerateBranches.boundariesUpTo ranges c (e - s + 1) s % 2 = 1 := by
  obtain ⟨h1, h2, h3⟩ := GenerateBranches.boundariesUpTo_spec ranges c (e - s + 1) s
    (by
      have e1 : s + (e - s + 1) - 1 = e := by omega
      rw [e1]
      exact hinc)
  unfold GenerateBranches.inEven
  simp only [List.any_eq_true, List.mem_range, Bool.and_eq_true, decide_eq_true_eq,
    Bool.or_eq_true]
  constructor
  · rintro ⟨i, hi, ⟨heven, hle⟩, hlast⟩
    -- the boundaries counted are exactly those up to index `i`
    have hk1 : i < GenerateBranches.boundariesUpTo ranges c (e - s + 1) s := by
      by_contra hcon
      have := h3 i (by omega) hi
      omega
    have hk2 : GenerateBranches.boundariesUpTo ranges c (e - s + 1) s ≤ i + 1 := by
      by_contra hcon
      have := h2 (i + 1) (by omega)
      rcases hlast with hl | hl
      · omega
      · have e1 : s + (i + 1) = s + i + 1 := by omega
        rw [e1] at this
        omega
    omega
  · intro hodd
    have hpos : 1 ≤ GenerateBranches.boundariesUpTo ranges c (e - s + 1) s := by omega
    refine ⟨GenerateBranches.boundariesUpTo ranges c (e - s + 1) s - 1, by omega,
      ⟨by omega, h2 _ (by omega)⟩, ?_⟩
    by_cases hend : GenerateBranches.boundariesUpTo ranges c (e - s + 1) s = e - s + 1
    · left
      omega
    · right
      have := h3 (GenerateBranches.boundariesUpTo ranges c (e - s + 1) s) (le_refl _) (by omega)
      have e1 : s + (GenerateBranches.boundariesUpTo ranges c (e - s + 1) s - 1) + 1 =
          s + GenerateBranches.boundariesUpTo ranges c (e - s + 1) s := by omega
      rw [e1]
      exact this

/-! ## Branches for a character class: the single tests -/

/-- A run through `CheckCharacterLT`. -/
theorem AssemblerOp.run_CheckCharacterLT (subject : List Nat) (position : Int) (c limit : Nat)
    (label : Option Label) (rest : List AssemblerOp) :
    AssemblerOp.run subject position none c (.CheckCharacterLT limit label :: rest) =
      if c < limit then AssemblerOp.jumpTo subject position label c rest
      else AssemblerOp.run subject position none c rest := by
  cases label <;> simp [AssemblerOp.run, AssemblerOp.jumpTo]

/-- A run through `CheckCharacterGT`. -/
theorem AssemblerOp.run_CheckCharacterGT (subject : List Nat) (position : Int) (c limit : Nat)
    (label : Option Label) (rest : List AssemblerOp) :
    AssemblerOp.run subject position none c (.CheckCharacterGT limit label :: rest) =
      if c > limit then AssemblerOp.jumpTo subject position label c rest
      else AssemblerOp.run subject position none c rest := by
  cases label <;> simp [AssemblerOp.run, AssemblerOp.jumpTo]

/-- A run through `CheckCharacter`. -/
theorem AssemblerOp.run_CheckCharacter (subject : List Nat) (position : Int) (c value : Nat)
    (label : Option Label) (rest : List AssemblerOp) :
    AssemblerOp.run subject position none c (.CheckCharacter value label :: rest) =
      if c = value then AssemblerOp.jumpTo subject position label c rest
      else AssemblerOp.run subject position none c rest := by
  cases label <;> simp [AssemblerOp.run, AssemblerOp.jumpTo]

/-- A run through `CheckNotCharacter`. -/
theorem AssemblerOp.run_CheckNotCharacter (subject : List Nat) (position : Int) (c value : Nat)
    (label : Option Label) (rest : List AssemblerOp) :
    AssemblerOp.run subject position none c (.CheckNotCharacter value label :: rest) =
      if c ≠ value then AssemblerOp.jumpTo subject position label c rest
      else AssemblerOp.run subject position none c rest := by
  cases label <;> simp [AssemblerOp.run, AssemblerOp.jumpTo]

/-- A run through `CheckCharacterInRange`. -/
theorem AssemblerOp.run_CheckCharacterInRange (subject : List Nat) (position : Int)
    (c from_ to_ : Nat) (label : Option Label) (rest : List AssemblerOp) :
    AssemblerOp.run subject position none c (.CheckCharacterInRange from_ to_ label :: rest) =
      if from_ ≤ c ∧ c ≤ to_ then AssemblerOp.jumpTo subject position label c rest
      else AssemblerOp.run subject position none c rest := by
  cases label <;> simp [AssemblerOp.run, AssemblerOp.jumpTo]

/-- A run through `CheckCharacterNotInRange`. -/
theorem AssemblerOp.run_CheckCharacterNotInRange (subject : List Nat) (position : Int)
    (c from_ to_ : Nat) (label : Option Label) (rest : List AssemblerOp) :
    AssemblerOp.run subject position none c
        (.CheckCharacterNotInRange from_ to_ label :: rest) =
      if ¬ (from_ ≤ c ∧ c ≤ to_) then AssemblerOp.jumpTo subject position label c rest
      else AssemblerOp.run subject position none c rest := by
  cases label <;> simp [AssemblerOp.run, AssemblerOp.jumpTo]

/-- A run through `CheckBitInTable`. -/
theorem AssemblerOp.run_CheckBitInTable (subject : List Nat) (position : Int) (c : Nat)
    (table : List Nat) (label : Option Label) (rest : List AssemblerOp) :
    AssemblerOp.run subject position none c (.CheckBitInTable table label :: rest) =
      if table.getD (c &&& RegExpMacroAssembler.kTableMask) 0 ≠ 0 then
        AssemblerOp.jumpTo subject position label c rest
      else AssemblerOp.run subject position none c rest := by
  cases label <;> simp [AssemblerOp.run, AssemblerOp.jumpTo]

/-- A run through `GoTo`. -/
theorem AssemblerOp.run_GoTo (subject : List Nat) (position : Int) (c : Nat)
    (label : Option Label) (rest : List AssemblerOp) :
    AssemblerOp.run subject position none c (.GoTo label :: rest) =
      AssemblerOp.jumpTo subject position label c rest := by
  cases label <;> simp [AssemblerOp.run, AssemblerOp.jumpTo]

/-- A run through `Bind`. -/
theorem AssemblerOp.run_Bind (subject : List Nat) (position : Int) (c : Nat)
    (label : Label) (rest : List AssemblerOp) :
    AssemblerOp.run subject position none c (.Bind label :: rest) =
      AssemblerOp.run subject position none c rest := by
  simp [AssemblerOp.run]

/-- A run that looks for a label passes a `GoTo`. -/
theorem AssemblerOp.jumpTo_GoTo (subject : List Nat) (position : Int) (target : Option Label)
    (c : Nat) (label : Option Label) (rest : List AssemblerOp) :
    AssemblerOp.jumpTo subject position target c (.GoTo label :: rest) =
      AssemblerOp.jumpTo subject position target c rest :=
  AssemblerOp.jumpTo_cons _ _ _ _ _ _ (by intro l _; simp)

/-- An older label stays older when more labels are created. -/
theorem Label.Older.mono (labels more : Nat) (label : Option Label)
    (h : Label.Older labels label) (hle : labels ≤ more) : Label.Older more label :=
  fun n hn => h n (by omega)

/-- A label that has just been created is older from the next count on. -/
theorem Label.Older.stack (id labels : Nat) (h : id < labels) :
    Label.Older labels (some (.stack id)) := by
  intro n hn e
  injection e with e
  injection e with e
  omega

/-- What `EmitBoundaryTest` emits for a positive border: a piece of code
without labels that goes to `below` for a character below the border and to
`above_or_equal` for any other. -/
theorem EmitBoundaryTest_run (border : Nat) (fall_through : Label)
    (above_or_equal below : Option Label) (st : Emitter) (hborder : 1 ≤ border) :
    ∃ code, EmitBoundaryTest border fall_through above_or_equal below st =
        { st with code := st.code ++ code } ∧
      (∀ l, AssemblerOp.Bind l ∉ code) ∧
      ∀ (subject : List Nat) (position : Int) (c : Nat) (rest : List AssemblerOp),
        GenerateBranches.ReachesIn subject position
          (AssemblerOp.run subject position none c (code ++ rest))
          (if c < border then below else above_or_equal) fall_through c rest := by
  unfold EmitBoundaryTest
  by_cases hbelow : below = some fall_through
  · rw [if_neg (by simpa using hbelow)]
    refine ⟨[.CheckCharacterGT (border - 1) above_or_equal], rfl, by simp, ?_⟩
    intro subject position c rest
    rw [List.singleton_append, AssemblerOp.run_CheckCharacterGT]
    by_cases hc : c < border
    · rw [if_neg (by omega), if_pos hc]
      exact Or.inr ⟨hbelow, rfl⟩
    · rw [if_pos (by omega), if_neg hc]
      exact Or.inl rfl
  · rw [if_pos hbelow]
    by_cases habove : above_or_equal = some fall_through
    · simp only [ne_eq, habove, not_true_eq_false, if_false]
      refine ⟨[.CheckCharacterLT border below], rfl, by simp, ?_⟩
      intro subject position c rest
      rw [List.singleton_append, AssemblerOp.run_CheckCharacterLT]
      by_cases hc : c < border
      · rw [if_pos hc, if_pos hc]
        exact Or.inl rfl
      · rw [if_neg hc, if_neg hc]
        exact Or.inr ⟨rfl, rfl⟩
    · simp only [ne_eq, habove, not_false_eq_true, if_true]
      refine ⟨[.CheckCharacterLT border below, .GoTo above_or_equal],
        by simp [Emitter.emit], by simp, ?_⟩
      intro subject position c rest
      simp only [List.cons_append, List.nil_append]
      rw [AssemblerOp.run_CheckCharacterLT]
      by_cases hc : c < border
      · rw [if_pos hc, if_pos hc, AssemblerOp.jumpTo_GoTo]
        exact Or.inl rfl
      · rw [if_neg hc, if_neg hc, AssemblerOp.run_GoTo]
        exact Or.inl rfl

/-- What `EmitDoubleBoundaryTest` emits: a piece of code without labels that
goes to `in_range` for a character from `first` to `last` and to
`out_of_range` for any other. -/
theorem EmitDoubleBoundaryTest_run (first last : Nat) (fall_through : Label)
    (in_range out_of_range : Option Label) (st : Emitter) :
    ∃ code, EmitDoubleBoundaryTest first last fall_through in_range out_of_range st =
        { st with code := st.code ++ code } ∧
      (∀ l, AssemblerOp.Bind l ∉ code) ∧
      ∀ (subject : List Nat) (position : Int) (c : Nat) (rest : List AssemblerOp),
        GenerateBranches.ReachesIn subject position
          (AssemblerOp.run subject position none c (code ++ rest))
          (if first ≤ c ∧ c ≤ last then in_range else out_of_range) fall_through c rest := by
  unfold EmitDoubleBoundaryTest
  by_cases hin : in_range = some fall_through
  · rw [if_pos hin]
    by_cases hsingle : first = last
    · rw [if_pos hsingle]
      refine ⟨[.CheckNotCharacter first out_of_range], rfl, by simp, ?_⟩
      intro subject position c rest
      rw [List.singleton_append, AssemblerOp.run_CheckNotCharacter]
      by_cases hc : c = first
      · rw [if_neg (by simpa using hc), if_pos (by omega)]
        exact Or.inr ⟨hin, rfl⟩
      · rw [if_pos hc, if_neg (by omega)]
        exact Or.inl rfl
    · rw [if_neg hsingle]
      refine ⟨[.CheckCharacterNotInRange first last out_of_range], rfl, by simp, ?_⟩
      intro subject position c rest
      rw [List.singleton_append, AssemblerOp.run_CheckCharacterNotInRange]
      by_cases hc : first ≤ c ∧ c ≤ last
      · rw [if_neg (by simpa using hc), if_pos hc]
        exact Or.inr ⟨hin, rfl⟩
      · rw [if_pos hc, if_neg hc]
        exact Or.inl rfl
  · rw [if_neg hin]
    -- the test that jumps to `in_range`
    have htest : ∃ op, (if first = last then st.emit (.CheckCharacter first in_range)
          else st.emit (.CheckCharacterInRange first last in_range)) =
          { st with code := st.code ++ [op] } ∧ (∀ l, op ≠ .Bind l) ∧
        ∀ (subject : List Nat) (position : Int) (c : Nat) (rest : List AssemblerOp),
          AssemblerOp.run subject position none c (op :: rest) =
            if first ≤ c ∧ c ≤ last then AssemblerOp.jumpTo subject position in_range c rest
            else AssemblerOp.run subject position none c rest := by
      by_cases hsingle : first = last
      · rw [if_pos hsingle]
        refine ⟨_, rfl, by simp, ?_⟩
        intro subject position c rest
        rw [AssemblerOp.run_CheckCharacter]
        by_cases hc : c = first
        · rw [if_pos hc, if_pos (by omega)]
        · rw [if_neg hc, if_neg (by omega)]
      · rw [if_neg hsingle]
        exact ⟨_, rfl, by simp, fun subject position c rest =>
          AssemblerOp.run_CheckCharacterInRange _ _ _ _ _ _ _⟩
    obtain ⟨op, hop, hnb, hrun⟩ := htest
    simp only []
    rw [hop]
    by_cases hout : out_of_range = some fall_through
    · simp only [ne_eq, hout, not_true_eq_false, if_false]
      refine ⟨[op], rfl, ?_, ?_⟩
      · intro l hmem
        have hmem2 : AssemblerOp.Bind l = op := by simpa using hmem
        exact hnb l hmem2.symm
      · intro subject position c rest
        rw [List.singleton_append, hrun]
        by_cases hc : first ≤ c ∧ c ≤ last
        · rw [if_pos hc, if_pos hc]
          exact Or.inl rfl
        · rw [if_neg hc, if_neg hc]
          exact Or.inr ⟨rfl, rfl⟩
    · simp only [ne_eq, hout, not_false_eq_true, if_true]
      refine ⟨[op, .GoTo out_of_range], by simp [Emitter.emit], ?_, ?_⟩
      · intro l hmem
        simp only [List.mem_cons, reduceCtorEq, List.not_mem_nil, or_false] at hmem
        exact hnb l hmem.symm
      · intro subject position c rest
        simp only [List.cons_append, List.nil_append]
        rw [hrun]
        by_cases hc : first ≤ c ∧ c ≤ last
        · rw [if_pos hc, if_pos hc, AssemblerOp.jumpTo_GoTo]
          exact Or.inl rfl
        · rw [if_neg hc, if_neg hc, AssemblerOp.run_GoTo]
          exact Or.inl rfl

/-! ## Branches for a character class: the lookup table -/

/-- Setting the entries from `a` on, `n` of them, to a value. -/
theorem EmitUseLookupTable.fill_range (v : Nat) :
    ∀ (n a : Nat) (templ : List Nat),
      ((List.range' a n).foldl (fun templ j => templ.set j v) templ).length = templ.length ∧
      ∀ x, ((List.range' a n).foldl (fun templ j => templ.set j v) templ).getD x 0 =
        if a ≤ x ∧ x < a + n ∧ x < templ.length then v else templ.getD x 0 := by
  intro n
  induction n with
  | zero =>
    intro a templ
    refine ⟨rfl, fun x => ?_⟩
    rw [if_neg (by omega)]
    rfl
  | succ n ih =>
    intro a templ
    rw [List.range'_succ, List.foldl_cons]
    obtain ⟨h1, h2⟩ := ih (a + 1) (templ.set a v)
    refine ⟨by rw [h1, List.length_set], fun x => ?_⟩
    rw [h2 x, List.length_set]
    by_cases hx : a = x
    · subst hx
      rw [if_neg (by omega)]
      by_cases hlen : a < templ.length
      · rw [if_pos ⟨le_refl _, by omega, hlen⟩, List.getD_eq_getElem?_getD,
          List.getElem?_set_self hlen]
        rfl
      · rw [if_neg (by omega), List.getD_eq_getElem?_getD, List.getD_eq_getElem?_getD,
          List.getElem?_eq_none (by rw [List.length_set]; omega),
          List.getElem?_eq_none (by omega)]
    · rw [List.getD_eq_getElem?_getD (templ.set a v), List.getElem?_set_ne hx,
        ← List.getD_eq_getElem?_getD]
      by_cases h : a + 1 ≤ x ∧ x < a + 1 + n ∧ x < templ.length
      · rw [if_pos h, if_pos ⟨by omega, by omega, h.2.2⟩]
      · rw [if_neg h, if_neg (by omega)]

/-- The loop `fill` of `EmitUseLookupTable` sets the entries from `from` up
to, not including, `to`. -/
theorem EmitUseLookupTable.fill_spec (templ : List Nat) (from_ to_ v : Nat) :
    (EmitUseLookupTable.fill templ from_ to_ v).length = templ.length ∧
    ∀ x, (EmitUseLookupTable.fill templ from_ to_ v).getD x 0 =
      if from_ ≤ x ∧ x < to_ ∧ x < templ.length then v else templ.getD x 0 := by
  obtain ⟨h1, h2⟩ := EmitUseLookupTable.fill_range v (to_ - from_) from_ templ
  refine ⟨h1, fun x => ?_⟩
  unfold EmitUseLookupTable.fill
  rw [h2 x]
  by_cases h : from_ ≤ x ∧ x < to_ ∧ x < templ.length
  · rw [if_pos h, if_pos ⟨h.1, by omega, h.2.2⟩]
  · rw [if_neg h, if_neg (by omega)]

/-- The value of `bit` after `k` toggles. -/
theorem toggled_twice (bit : Nat) : (bit ^^^ 1) ^^^ 1 = bit := by
  rw [Nat.xor_assoc]
  simp

/-- An entry of the boundaries with their low seven bits kept. -/
theorem getD_map_mask (ranges : List Nat) (j : Nat) :
    (ranges.map (fun r => r &&& RegExpMacroAssembler.kTableMask)).getD j 0 =
      ranges.getD j 0 &&& RegExpMacroAssembler.kTableMask := by
  rw [List.getD_eq_getElem?_getD, List.getD_eq_getElem?_getD, List.getElem?_map]
  cases ranges[j]? <;> rfl

/-- The loop over the boundaries of `EmitUseLookupTable`, for boundaries
whose low seven bits increase: the entries between the first and the last
boundary visited get the value of `bit` where an odd number of the
boundaries visited is at most the entry, and the other value elsewhere. -/
theorem EmitUseLookupTable.loop_entries (ranges : List Nat) :
    ∀ (n i : Nat) (templ : List Nat) (j bit : Nat),
      GenerateBranches.Increasing
        (ranges.map (fun r => r &&& RegExpMacroAssembler.kTableMask)) i (i + n) →
      (EmitUseLookupTable.loop ranges n i (templ, j, bit)).1.length = templ.length ∧
      (EmitUseLookupTable.loop ranges n i (templ, j, bit)).2.2 =
        (if n % 2 = 0 then bit else bit ^^^ 1) ∧
      (1 ≤ n → (EmitUseLookupTable.loop ranges n i (templ, j, bit)).2.1 =
        (ranges.getD (i + n) 0 &&& RegExpMacroAssembler.kTableMask)) ∧
      ∀ x, x < templ.length →
        (EmitUseLookupTable.loop ranges n i (templ, j, bit)).1.getD x 0 =
          if (ranges.getD i 0 &&& RegExpMacroAssembler.kTableMask) ≤ x ∧
              x < (ranges.getD (i + n) 0 &&& RegExpMacroAssembler.kTableMask) then
            (if GenerateBranches.boundariesUpTo
                (ranges.map (fun r => r &&& RegExpMacroAssembler.kTableMask)) x (n + 1) i % 2 = 1
              then bit else bit ^^^ 1)
          else templ.getD x 0 := by
  intro n
  induction n with
  | zero =>
    intro i templ j bit _
    refine ⟨rfl, rfl, fun h => absurd h (by omega), fun x _ => ?_⟩
    rw [if_neg (by
      intro h
      have := h.1
      have := h.2
      simp only [Nat.add_zero] at *
      omega)]
    rfl
  | succ n ih =>
    intro i templ j bit hinc
    have hmask := getD_map_mask ranges
    have hfill := EmitUseLookupTable.fill_spec templ
      (ranges.getD i 0 &&& RegExpMacroAssembler.kTableMask)
      (ranges.getD (i + 1) 0 &&& RegExpMacroAssembler.kTableMask) bit
    have hinc2 : GenerateBranches.Increasing
        (ranges.map (fun r => r &&& RegExpMacroAssembler.kTableMask)) (i + 1) (i + 1 + n) :=
      GenerateBranches.Increasing.sub _ _ _ _ _ hinc (by omega) (by omega)
    obtain ⟨h1, h2, h3, h4⟩ := ih (i + 1)
      (EmitUseLookupTable.fill templ (ranges.getD i 0 &&& RegExpMacroAssembler.kTableMask)
        (ranges.getD (i + 1) 0 &&& RegExpMacroAssembler.kTableMask) bit)
      (max (ranges.getD i 0 &&& RegExpMacroAssembler.kTableMask)
        (ranges.getD (i + 1) 0 &&& RegExpMacroAssembler.kTableMask))
      (bit ^^^ 1) hinc2
    have hstep01 := hinc i (le_refl _) (by omega)
    rw [hmask, hmask] at hstep01
    have hidx : i + 1 + n = i + (n + 1) := by omega
    rw [hidx] at h3 h4
    simp only [EmitUseLookupTable.loop]
    refine ⟨by rw [h1, hfill.1], ?_, ?_, ?_⟩
    · rw [h2, toggled_twice]
      rcases Nat.mod_two_eq_zero_or_one n with hn | hn
      · have hn2 : (n + 1) % 2 = 1 := by omega
        rw [if_pos hn, if_neg (by omega)]
      · have hn2 : (n + 1) % 2 = 0 := by omega
        rw [if_neg (by omega), if_pos hn2]
    · intro _
      by_cases hn : 1 ≤ n
      · exact h3 hn
      · have hn0 : n = 0 := by omega
        subst hn0
        simp only [EmitUseLookupTable.loop, Nat.zero_add]
        exact max_eq_right (Nat.le_of_lt hstep01)
    · intro x hx
      rw [h4 x (by rw [hfill.1]; exact hx), hfill.2 x]
      have hcount : GenerateBranches.boundariesUpTo
          (ranges.map (fun r => r &&& RegExpMacroAssembler.kTableMask)) x (n + 1 + 1) i =
          (if (ranges.getD i 0 &&& RegExpMacroAssembler.kTableMask) ≤ x then 1 else 0) +
            GenerateBranches.boundariesUpTo
              (ranges.map (fun r => r &&& RegExpMacroAssembler.kTableMask)) x (n + 1) (i + 1) := by
        simp only [GenerateBranches.boundariesUpTo, hmask]
      rw [hcount]
      have hlast : (ranges.getD (i + 1) 0 &&& RegExpMacroAssembler.kTableMask) ≤
          (ranges.getD (i + (n + 1)) 0 &&& RegExpMacroAssembler.kTableMask) := by
        have := GenerateBranches.Increasing.le_of_le _ i (i + (n + 1)) (i + 1) (i + (n + 1)) hinc
          (by omega) (by omega) (le_refl _)
        rw [hmask, hmask] at this
        exact this
      generalize hcnt : GenerateBranches.boundariesUpTo
          (ranges.map (fun r => r &&& RegExpMacroAssembler.kTableMask)) x (n + 1) (i + 1) = k
      generalize ho0 : (ranges.getD i 0 &&& RegExpMacroAssembler.kTableMask) = o0 at *
      generalize ho1 : (ranges.getD (i + 1) 0 &&& RegExpMacroAssembler.kTableMask) = o1 at *
      generalize hoe : (ranges.getD (i + (n + 1)) 0 &&& RegExpMacroAssembler.kTableMask) = oe
        at *
      by_cases hlow : x < o1
      · -- below the second boundary: the entry is the one that `fill` has set, or untouched
        have hzero : k = 0 := by
          rw [← hcnt]
          apply GenerateBranches.boundariesUpTo_zero
          intro m hm1 hm2
          have := GenerateBranches.Increasing.le_of_le _ i (i + (n + 1)) (i + 1) m hinc
            (by omega) hm1 (by omega)
          rw [hmask, ho1] at this
          omega
        subst hzero
        have hc1 : ¬ (o1 ≤ x ∧ x < oe) := by omega
        rw [if_neg hc1]
        by_cases hfirst : o0 ≤ x
        · have hc2 : o0 ≤ x ∧ x < o1 ∧ x < templ.length := ⟨hfirst, hlow, hx⟩
          have hc3 : o0 ≤ x ∧ x < oe := ⟨hfirst, by omega⟩
          rw [if_pos hc2, if_pos hc3, if_pos hfirst]
          simp
        · have hc2 : ¬ (o0 ≤ x ∧ x < o1 ∧ x < templ.length) := by omega
          have hc3 : ¬ (o0 ≤ x ∧ x < oe) := by omega
          rw [if_neg hc2, if_neg hc3]
      · have hc2 : ¬ (o0 ≤ x ∧ x < o1 ∧ x < templ.length) := by omega
        have hfirst : o0 ≤ x := by omega
        rw [if_neg hc2, if_pos hfirst]
        by_cases hhigh : x < oe
        · have hc1 : o1 ≤ x ∧ x < oe := ⟨by omega, hhigh⟩
          have hc3 : o0 ≤ x ∧ x < oe := ⟨hfirst, hhigh⟩
          rw [if_pos hc1, if_pos hc3, toggled_twice]
          rcases Nat.mod_two_eq_zero_or_one k with hp | hp
          · have h5 : ¬ (k % 2 = 1) := by omega
            have h6 : (1 + k) % 2 = 1 := by omega
            rw [if_neg h5, if_pos h6]
          · have h6 : ¬ ((1 + k) % 2 = 1) := by omega
            rw [if_pos hp, if_neg h6]
        · have hc1 : ¬ (o1 ≤ x ∧ x < oe) := by omega
          have hc3 : ¬ (o0 ≤ x ∧ x < oe) := by omega
          rw [if_neg hc1, if_neg hc3]

/-- The count of boundaries depends only on which entries are at most the
character. -/
theorem GenerateBranches.boundariesUpTo_equiv (ranges other : List Nat) (c d : Nat) :
    ∀ n i, (∀ j, i ≤ j → j < i + n → (ranges.getD j 0 ≤ c ↔ other.getD j 0 ≤ d)) →
      GenerateBranches.boundariesUpTo ranges c n i =
        GenerateBranches.boundariesUpTo other d n i := by
  intro n
  induction n with
  | zero =>
    intro i _
    rfl
  | succ n ih =>
    intro i h
    simp only [GenerateBranches.boundariesUpTo]
    rw [ih (i + 1) (fun j h1 h2 => h j (by omega) (by omega))]
    by_cases hc : ranges.getD i 0 ≤ c
    · rw [if_pos hc, if_pos ((h i (le_refl _) (by omega)).1 hc)]
    · rw [if_neg hc, if_neg (fun hd => hc ((h i (le_refl _) (by omega)).2 hd))]

/-- A number is its page of 128 and its low seven bits. -/
theorem page_and_offset (x : Nat) :
    x = 128 * (x >>> RegExpMacroAssembler.kTableSizeBits) +
      (x &&& RegExpMacroAssembler.kTableMask) ∧
    (x &&& RegExpMacroAssembler.kTableMask) < 128 := by
  have h1 : x &&& RegExpMacroAssembler.kTableMask = x % 2 ^ 7 :=
    Nat.and_pow_two_sub_one_eq_mod x 7
  have h2 : x >>> RegExpMacroAssembler.kTableSizeBits = x / 2 ^ 7 :=
    Nat.shiftRight_eq_div_pow x 7
  rw [h1, h2]
  omega

/-- The table that `EmitUseLookupTable` builds for at least two boundaries
whose low seven bits increase: an entry has the starting value of `bit`
where the number of boundaries up to it is even, and the other value where
it is odd. -/
theorem EmitUseLookupTable.templ_spec (ranges : List Nat) (s e bit : Nat) (hse : s < e)
    (hinc : GenerateBranches.Increasing
      (ranges.map (fun r => r &&& RegExpMacroAssembler.kTableMask)) s e) :
    ∀ x, x < 128 →
      (EmitUseLookupTable.templ ranges s e bit).getD x 0 =
        if GenerateBranches.boundariesUpTo
            (ranges.map (fun r => r &&& RegExpMacroAssembler.kTableMask)) x (e - s + 1) s % 2 = 0
        then bit else bit ^^^ 1 := by
  intro x hx
  have hmask := getD_map_mask ranges
  have hidx : s + (e - s) = e := by omega
  have hfill1 := EmitUseLookupTable.fill_spec (List.replicate RegExpMacroAssembler.kTableSize 0)
    0 (min (ranges.getD s 0 &&& RegExpMacroAssembler.kTableMask) RegExpMacroAssembler.kTableSize)
    bit
  have hlen0 : (List.replicate RegExpMacroAssembler.kTableSize 0).length = 128 := by
    simp [RegExpMacroAssembler.kTableSize]
  obtain ⟨h1, h2, h3, h4⟩ := EmitUseLookupTable.loop_entries ranges (e - s) s
    (EmitUseLookupTable.fill (List.replicate RegExpMacroAssembler.kTableSize 0) 0
      (min (ranges.getD s 0 &&& RegExpMacroAssembler.kTableMask) RegExpMacroAssembler.kTableSize)
      bit) 0 (bit ^^^ 1) (by rw [hidx]; exact hinc)
  rw [hidx] at h3 h4
  rw [hfill1.1, hlen0] at h1 h4
  have hfill3 := EmitUseLookupTable.fill_spec
    (EmitUseLookupTable.loop ranges (e - s) s
      (EmitUseLookupTable.fill (List.replicate RegExpMacroAssembler.kTableSize 0) 0
        (min (ranges.getD s 0 &&& RegExpMacroAssembler.kTableMask)
          RegExpMacroAssembler.kTableSize) bit, 0, bit ^^^ 1)).1
    (EmitUseLookupTable.loop ranges (e - s) s
      (EmitUseLookupTable.fill (List.replicate RegExpMacroAssembler.kTableSize 0) 0
        (min (ranges.getD s 0 &&& RegExpMacroAssembler.kTableMask)
          RegExpMacroAssembler.kTableSize) bit, 0, bit ^^^ 1)).2.1
    RegExpMacroAssembler.kTableSize
    (EmitUseLookupTable.loop ranges (e - s) s
      (EmitUseLookupTable.fill (List.replicate RegExpMacroAssembler.kTableSize 0) 0
        (min (ranges.getD s 0 &&& RegExpMacroAssembler.kTableMask)
          RegExpMacroAssembler.kTableSize) bit, 0, bit ^^^ 1)).2.2
  have hunfold : EmitUseLookupTable.templ ranges s e bit =
      EmitUseLookupTable.fill
        (EmitUseLookupTable.loop ranges (e - s) s
          (EmitUseLookupTable.fill (List.replicate RegExpMacroAssembler.kTableSize 0) 0
            (min (ranges.getD s 0 &&& RegExpMacroAssembler.kTableMask)
              RegExpMacroAssembler.kTableSize) bit, 0, bit ^^^ 1)).1
        (EmitUseLookupTable.loop ranges (e - s) s
          (EmitUseLookupTable.fill (List.replicate RegExpMacroAssembler.kTableSize 0) 0
            (min (ranges.getD s 0 &&& RegExpMacroAssembler.kTableMask)
              RegExpMacroAssembler.kTableSize) bit, 0, bit ^^^ 1)).2.1
        RegExpMacroAssembler.kTableSize
        (EmitUseLookupTable.loop ranges (e - s) s
          (EmitUseLookupTable.fill (List.replicate RegExpMacroAssembler.kTableSize 0) 0
            (min (ranges.getD s 0 &&& RegExpMacroAssembler.kTableMask)
              RegExpMacroAssembler.kTableSize) bit, 0, bit ^^^ 1)).2.2 := rfl
  rw [hunfold, hfill3.2 x, h1, h2, h3 (by omega), h4 x hx, hfill1.2 x, hlen0]
  -- the boundaries up to `x`
  obtain ⟨hk1, hk2, hk3⟩ := GenerateBranches.boundariesUpTo_spec
    (ranges.map (fun r => r &&& RegExpMacroAssembler.kTableMask)) x (e - s + 1) s
    (by
      have e1 : s + (e - s + 1) - 1 = e := by omega
      rw [e1]
      exact hinc)
  generalize GenerateBranches.boundariesUpTo
    (ranges.map (fun r => r &&& RegExpMacroAssembler.kTableMask)) x (e - s + 1) s = k at *
  have hos : (ranges.getD s 0 &&& RegExpMacroAssembler.kTableMask) < 128 :=
    (page_and_offset _).2
  have hoe : (ranges.getD e 0 &&& RegExpMacroAssembler.kTableMask) < 128 :=
    (page_and_offset _).2
  have hsize : RegExpMacroAssembler.kTableSize = 128 := rfl
  rw [hsize]
  by_cases hhigh : (ranges.getD e 0 &&& RegExpMacroAssembler.kTableMask) ≤ x
  · -- all boundaries are at most `x`
    have hk : k = e - s + 1 := by
      by_contra hne
      have := hk3 (e - s) (by omega) (by omega)
      rw [hmask, hidx] at this
      omega
    have hc : (ranges.getD e 0 &&& RegExpMacroAssembler.kTableMask) ≤ x ∧ x < 128 ∧ x < 128 :=
      ⟨hhigh, hx, hx⟩
    rw [if_pos hc, hk]
    rcases Nat.mod_two_eq_zero_or_one (e - s) with hp | hp
    · have h5 : ¬ ((e - s + 1) % 2 = 0) := by omega
      rw [if_pos hp, if_neg h5]
    · have h5 : (e - s + 1) % 2 = 0 := by omega
      have h6 : ¬ ((e - s) % 2 = 0) := by omega
      rw [if_neg h6, if_pos h5, toggled_twice]
  · have hc : ¬ ((ranges.getD e 0 &&& RegExpMacroAssembler.kTableMask) ≤ x ∧ x < 128 ∧
        x < 128) := by omega
    rw [if_neg hc]
    by_cases hlow : (ranges.getD s 0 &&& RegExpMacroAssembler.kTableMask) ≤ x
    · have hc2 : (ranges.getD s 0 &&& RegExpMacroAssembler.kTableMask) ≤ x ∧
          x < (ranges.getD e 0 &&& RegExpMacroAssembler.kTableMask) := ⟨hlow, by omega⟩
      rw [if_pos hc2, toggled_twice]
      rcases Nat.mod_two_eq_zero_or_one k with hp | hp
      · have h5 : ¬ (k % 2 = 1) := by omega
        rw [if_neg h5, if_pos hp]
      · have h5 : ¬ (k % 2 = 0) := by omega
        rw [if_pos hp, if_neg h5]
    · have hc2 : ¬ ((ranges.getD s 0 &&& RegExpMacroAssembler.kTableMask) ≤ x ∧
          x < (ranges.getD e 0 &&& RegExpMacroAssembler.kTableMask)) := by omega
      have hk : k = 0 := by
        by_contra hne
        have := hk2 0 (by omega)
        rw [hmask, Nat.add_zero] at this
        omega
      have hc3 : 0 ≤ x ∧ x < min (ranges.getD s 0 &&& RegExpMacroAssembler.kTableMask) 128 ∧
          x < 128 := ⟨by omega, by omega, hx⟩
      rw [if_neg hc2, if_pos hc3, hk]
      simp

/-- What `EmitUseLookupTable` emits for at least two increasing boundaries
on one page of 128 characters: a piece of code without labels that, for a
character of that page, goes to `even_label` when the number of boundaries
up to the character is odd, and to `odd_label` when it is even. -/
theorem EmitUseLookupTable_run (ranges : List Nat) (s e min_char : Nat) (fall_through : Label)
    (even_label odd_label : Option Label) (st : Emitter) (hse : s < e)
    (hinc : GenerateBranches.Increasing ranges s e) (page : Nat)
    (hpage : ∀ j, s ≤ j → j ≤ e →
      ranges.getD j 0 >>> RegExpMacroAssembler.kTableSizeBits = page) :
    ∃ code, EmitUseLookupTable ranges s e min_char fall_through even_label odd_label st =
        { st with code := st.code ++ code } ∧
      (∀ l, AssemblerOp.Bind l ∉ code) ∧
      ∀ (subject : List Nat) (position : Int) (c : Nat) (rest : List AssemblerOp),
        c >>> RegExpMacroAssembler.kTableSizeBits = page →
        GenerateBranches.ReachesIn subject position
          (AssemblerOp.run subject position none c (code ++ rest))
          (if GenerateBranches.boundariesUpTo ranges c (e - s + 1) s % 2 = 1 then even_label
            else odd_label) fall_through c rest := by
  have hmask := getD_map_mask ranges
  have hminc : GenerateBranches.Increasing
      (ranges.map (fun r => r &&& RegExpMacroAssembler.kTableMask)) s e := by
    intro i h1 h2
    rw [hmask, hmask]
    have ha := page_and_offset (ranges.getD i 0)
    have hb := page_and_offset (ranges.getD (i + 1) 0)
    rw [hpage i h1 (by omega)] at ha
    rw [hpage (i + 1) (by omega) (by omega)] at hb
    have := hinc i h1 h2
    omega
  have hentry : ∀ (bit c : Nat), c >>> RegExpMacroAssembler.kTableSizeBits = page →
      (EmitUseLookupTable.templ ranges s e bit).getD (c &&& RegExpMacroAssembler.kTableMask) 0 =
        if GenerateBranches.boundariesUpTo ranges c (e - s + 1) s % 2 = 0 then bit
        else bit ^^^ 1 := by
    intro bit c hc
    have hcp := page_and_offset c
    rw [hc] at hcp
    rw [EmitUseLookupTable.templ_spec ranges s e bit hse hminc _ hcp.2,
      GenerateBranches.boundariesUpTo_equiv ranges
        (ranges.map (fun r => r &&& RegExpMacroAssembler.kTableMask)) c
        (c &&& RegExpMacroAssembler.kTableMask) (e - s + 1) s]
    intro j h1 h2
    rw [hmask]
    have ha := page_and_offset (ranges.getD j 0)
    rw [hpage j h1 (by omega)] at ha
    omega
  unfold EmitUseLookupTable
  by_cases heven : even_label = some fall_through
  · simp only [heven, if_true, ne_eq, not_true_eq_false, if_false]
    refine ⟨[.CheckBitInTable (EmitUseLookupTable.templ ranges s e 1) odd_label], rfl,
      by simp, ?_⟩
    intro subject position c rest hc
    rw [List.singleton_append, AssemblerOp.run_CheckBitInTable, hentry 1 c hc]
    rcases Nat.mod_two_eq_zero_or_one
      (GenerateBranches.boundariesUpTo ranges c (e - s + 1) s) with hp | hp
    · have h5 : ¬ (GenerateBranches.boundariesUpTo ranges c (e - s + 1) s % 2 = 1) := by omega
      rw [if_pos hp, if_neg h5, if_pos (by decide)]
      exact Or.inl rfl
    · have h5 : ¬ (GenerateBranches.boundariesUpTo ranges c (e - s + 1) s % 2 = 0) := by omega
      rw [if_neg h5, if_pos hp, if_neg (by decide)]
      exact Or.inr ⟨rfl, rfl⟩
  · simp only [heven, if_false]
    by_cases hodd : odd_label = some fall_through
    · simp only [hodd, ne_eq, not_true_eq_false, if_false]
      refine ⟨[.CheckBitInTable (EmitUseLookupTable.templ ranges s e 0) even_label], rfl,
        by simp, ?_⟩
      intro subject position c rest hc
      rw [List.singleton_append, AssemblerOp.run_CheckBitInTable, hentry 0 c hc]
      rcases Nat.mod_two_eq_zero_or_one
        (GenerateBranches.boundariesUpTo ranges c (e - s + 1) s) with hp | hp
      · have h5 : ¬ (GenerateBranches.boundariesUpTo ranges c (e - s + 1) s % 2 = 1) := by
          omega
        rw [if_pos hp, if_neg h5, if_neg (by decide)]
        exact Or.inr ⟨rfl, rfl⟩
      · have h5 : ¬ (GenerateBranches.boundariesUpTo ranges c (e - s + 1) s % 2 = 0) := by
          omega
        rw [if_neg h5, if_pos hp, if_pos (by decide)]
        exact Or.inl rfl
    · simp only [ne_eq, hodd, not_false_eq_true, if_true]
      refine ⟨[.CheckBitInTable (EmitUseLookupTable.templ ranges s e 0) even_label,
        .GoTo odd_label], by simp [Emitter.emit], by simp, ?_⟩
      intro subject position c rest hc
      simp only [List.cons_append, List.nil_append]
      rw [AssemblerOp.run_CheckBitInTable, hentry 0 c hc]
      rcases Nat.mod_two_eq_zero_or_one
        (GenerateBranches.boundariesUpTo ranges c (e - s + 1) s) with hp | hp
      · have h5 : ¬ (GenerateBranches.boundariesUpTo ranges c (e - s + 1) s % 2 = 1) := by
          omega
        rw [if_pos hp, if_neg h5, if_neg (by decide), AssemblerOp.run_GoTo]
        exact Or.inl rfl
      · have h5 : ¬ (GenerateBranches.boundariesUpTo ranges c (e - s + 1) s % 2 = 0) := by
          omega
        rw [if_neg h5, if_pos hp, if_pos (by decide), AssemblerOp.jumpTo_GoTo]
        exact Or.inl rfl

/-! ## Branches for a character class: cutting out a range -/

/-- An entry of a list after one entry has been set. -/
theorem getD_set_of_lt (l : List Nat) (i j v : Nat) (hi : i < l.length) :
    (l.set i v).getD j 0 = if j = i then v else l.getD j 0 := by
  by_cases h : j = i
  · subst h
    rw [if_pos rfl, List.getD_eq_getElem?_getD, List.getElem?_set_self hi]
    rfl
  · rw [if_neg h, List.getD_eq_getElem?_getD, List.getElem?_set_ne (fun e => h e.symm),
      ← List.getD_eq_getElem?_getD]

/-- The loop `for (j = cut_index; j > start_index; j--) ranges[j] =
ranges[j - 1]` of `CutOutRange`, over the `n` indices above `s`. -/
theorem CutOutRange.shift_up (s : Nat) :
    ∀ (n : Nat) (ranges : List Nat), s + n < ranges.length →
      ((List.range' (s + 1) n).reverse.foldl
        (fun ranges j => ranges.set j (ranges.getD (j - 1) 0)) ranges).length = ranges.length ∧
      ∀ j, ((List.range' (s + 1) n).reverse.foldl
          (fun ranges j => ranges.set j (ranges.getD (j - 1) 0)) ranges).getD j 0 =
        if s < j ∧ j ≤ s + n then ranges.getD (j - 1) 0 else ranges.getD j 0 := by
  intro n
  induction n with
  | zero =>
    intro ranges _
    refine ⟨rfl, fun j => ?_⟩
    rw [if_neg (by omega)]
    rfl
  | succ n ih =>
    intro ranges hlen
    rw [List.range'_concat, List.reverse_append, List.reverse_singleton, List.singleton_append,
      List.foldl_cons]
    have e1 : s + 1 + 1 * n = s + n + 1 := by omega
    rw [e1]
    have e2 : s + n + 1 - 1 = s + n := by omega
    rw [e2]
    obtain ⟨h1, h2⟩ := ih (ranges.set (s + n + 1) (ranges.getD (s + n) 0))
      (by rw [List.length_set]; omega)
    refine ⟨by rw [h1, List.length_set], fun j => ?_⟩
    rw [h2 j, getD_set_of_lt _ _ _ _ (by omega), getD_set_of_lt _ _ _ _ (by omega)]
    by_cases hj : s < j ∧ j ≤ s + n
    · rw [if_pos hj, if_neg (by omega), if_pos (by omega)]
    · rw [if_neg hj]
      by_cases hj2 : j = s + n + 1
      · rw [if_pos hj2, if_pos (by omega), hj2, e2]
      · rw [if_neg hj2, if_neg (by omega)]

/-- The loop `for (j = cut_index + 1; j < end_index; j++) ranges[j] =
ranges[j + 1]` of `CutOutRange`, over the `n` indices from `a` on. -/
theorem CutOutRange.shift_down :
    ∀ (n a : Nat) (ranges : List Nat), a + n ≤ ranges.length →
      ((List.range' a n).foldl
        (fun ranges j => ranges.set j (ranges.getD (j + 1) 0)) ranges).length = ranges.length ∧
      ∀ j, ((List.range' a n).foldl
          (fun ranges j => ranges.set j (ranges.getD (j + 1) 0)) ranges).getD j 0 =
        if a ≤ j ∧ j < a + n then ranges.getD (j + 1) 0 else ranges.getD j 0 := by
  intro n
  induction n with
  | zero =>
    intro a ranges _
    refine ⟨rfl, fun j => ?_⟩
    rw [if_neg (by omega)]
    rfl
  | succ n ih =>
    intro a ranges hlen
    rw [List.range'_succ, List.foldl_cons]
    obtain ⟨h1, h2⟩ := ih (a + 1) (ranges.set a (ranges.getD (a + 1) 0))
      (by rw [List.length_set]; omega)
    refine ⟨by rw [h1, List.length_set], fun j => ?_⟩
    rw [h2 j, getD_set_of_lt _ _ _ _ (by omega), getD_set_of_lt _ _ _ _ (by omega)]
    by_cases hj : a + 1 ≤ j ∧ j < a + 1 + n
    · rw [if_pos hj, if_neg (by omega), if_pos (by omega)]
    · rw [if_neg hj]
      by_cases hj2 : j = a
      · rw [if_pos hj2, if_pos (by omega), hj2]
      · rw [if_neg hj2, if_neg (by omega)]

/-- The count of boundaries up to `c` is the number `k` for which the first
`k` boundaries are at most `c` and the others lie above. -/
theorem GenerateBranches.boundariesUpTo_unique (ranges : List Nat) (c n i k : Nat) (hk : k ≤ n)
    (hlow : ∀ j, j < k → ranges.getD (i + j) 0 ≤ c)
    (hhigh : ∀ j, k ≤ j → j < n → c < ranges.getD (i + j) 0) :
    GenerateBranches.boundariesUpTo ranges c n i = k := by
  have e : n = k + (n - k) := by omega
  rw [e, GenerateBranches.boundariesUpTo_append,
    GenerateBranches.boundariesUpTo_all ranges c k i (fun j h1 h2 => by
      have := hlow (j - i) (by omega)
      have e2 : i + (j - i) = j := by omega
      rw [e2] at this
      exact this),
    GenerateBranches.boundariesUpTo_zero ranges c (n - k) (i + k) (fun j h1 h2 => by
      have := hhigh (j - i) (by omega) (by omega)
      have e2 : i + (j - i) = j := by omega
      rw [e2] at this
      exact this)]
  omega

/-- The first index found by a scan satisfies the test, lies in the range
scanned, and no earlier index of the range satisfies the test. -/
theorem firstIndexFrom_some (test : Nat → Bool) :
    ∀ (n i k : Nat), firstIndexFrom test n i = some k →
      i ≤ k ∧ k < i + n ∧ test k = true ∧ ∀ j, i ≤ j → j < k → test j = false := by
  intro n
  induction n with
  | zero =>
    intro i k h
    simp [firstIndexFrom] at h
  | succ n ih =>
    intro i k h
    simp only [firstIndexFrom] at h
    by_cases ht : test i = true
    · rw [if_pos ht] at h
      injection h with h
      subst h
      exact ⟨le_refl _, by omega, ht, fun j h1 h2 => absurd h2 (by omega)⟩
    · rw [if_neg ht] at h
      obtain ⟨h1, h2, h3, h4⟩ := ih (i + 1) k h
      refine ⟨by omega, by omega, h3, fun j hj1 hj2 => ?_⟩
      by_cases hj : j = i
      · rw [hj]
        simpa using ht
      · exact h4 j (by omega) hj2

/-- A scan that finds no index has seen the test fail at every index of
the range scanned. -/
theorem firstIndexFrom_none (test : Nat → Bool) :
    ∀ (n i : Nat), firstIndexFrom test n i = none →
      ∀ j, i ≤ j → j < i + n → test j = false := by
  intro n
  induction n with
  | zero =>
    intro i _ j h1 h2
    omega
  | succ n ih =>
    intro i h j h1 h2
    simp only [firstIndexFrom] at h
    by_cases ht : test i = true
    · rw [if_pos ht] at h
      exact absurd h (by simp)
    · rw [if_neg ht] at h
      by_cases hj : j = i
      · rw [hj]
        simpa using ht
      · exact ih (i + 1) h j (by omega) (by omega)

/-- What `EmitDoubleBoundaryTest` emits when only `in_range` is a label to
jump to: one test that jumps to it for a character from `first` to `last`
and goes on for any other. -/
theorem EmitDoubleBoundaryTest_single (first last : Nat) (fall_through : Label)
    (in_range : Option Label) (st : Emitter) (hin : in_range ≠ some fall_through) :
    ∃ op, EmitDoubleBoundaryTest first last fall_through in_range (some fall_through) st =
        { st with code := st.code ++ [op] } ∧ (∀ l, op ≠ .Bind l) ∧
      ∀ (subject : List Nat) (position : Int) (c : Nat) (rest : List AssemblerOp),
        AssemblerOp.run subject position none c (op :: rest) =
          if first ≤ c ∧ c ≤ last then AssemblerOp.jumpTo subject position in_range c rest
          else AssemblerOp.run subject position none c rest := by
  unfold EmitDoubleBoundaryTest
  rw [if_neg hin]
  simp only [ne_eq, not_true_eq_false, if_false]
  by_cases hsingle : first = last
  · rw [if_pos hsingle]
    refine ⟨_, rfl, by simp, ?_⟩
    intro subject position c rest
    rw [AssemblerOp.run_CheckCharacter]
    by_cases hc : c = first
    · rw [if_pos hc, if_pos (by omega)]
    · rw [if_neg hc, if_neg (by omega)]
  · rw [if_neg hsingle]
    exact ⟨_, rfl, by simp, fun subject position c rest =>
      AssemblerOp.run_CheckCharacterInRange _ _ _ _ _ _ _⟩

/-- What `CutOutRange` does: it emits one test that jumps, for a character
from `ranges[cut_index]` up to, not including, `ranges[cut_index + 1]`, to
the label of that interval, and it removes these two boundaries from the
array by moving the boundaries before them up and those after them down. -/
theorem CutOutRange_spec (ranges : List Nat) (s e cut : Nat) (even_label odd_label : Option Label)
    (st : Emitter) (hs : s ≤ cut) (hc : cut < e) (he : e < ranges.length)
    (hpos : ranges.getD cut 0 < ranges.getD (cut + 1) 0)
    (heven : Label.Older st.labels even_label) (hodd : Label.Older st.labels odd_label) :
    ∃ op other, CutOutRange ranges s e cut even_label odd_label st =
        (other, { st with code := st.code ++ [op], labels := st.labels + 1 }) ∧
      (∀ l, op ≠ .Bind l) ∧ other.length = ranges.length ∧
      (∀ j, other.getD j 0 =
        if s < j ∧ j ≤ cut then ranges.getD (j - 1) 0
        else if cut < j ∧ j < e then ranges.getD (j + 1) 0 else ranges.getD j 0) ∧
      ∀ (subject : List Nat) (position : Int) (c : Nat) (rest : List AssemblerOp),
        AssemblerOp.run subject position none c (op :: rest) =
          if ranges.getD cut 0 ≤ c ∧ c < ranges.getD (cut + 1) 0 then
            AssemblerOp.jumpTo subject position
              (if (cut - s) % 2 = 1 then odd_label else even_label) c rest
          else AssemblerOp.run subject position none c rest := by
  have hlabel : (if (cut - s) % 2 = 1 then odd_label else even_label) ≠
      some (Label.stack st.labels) := by
    by_cases h : (cut - s) % 2 = 1
    · rw [if_pos h]
      exact hodd _ (le_refl _)
    · rw [if_neg h]
      exact heven _ (le_refl _)
  obtain ⟨op, hop, hnb, hrun⟩ := EmitDoubleBoundaryTest_single (ranges.getD cut 0)
    (ranges.getD (cut + 1) 0 - 1) (Label.stack st.labels)
    (if (cut - s) % 2 = 1 then odd_label else even_label)
    { st with labels := st.labels + 1 } hlabel
  obtain ⟨hu1, hu2⟩ := CutOutRange.shift_up s (cut - s) ranges (by omega)
  obtain ⟨hd1, hd2⟩ := CutOutRange.shift_down (e - (cut + 1)) (cut + 1)
    ((List.range' (s + 1) (cut - s)).reverse.foldl
      (fun ranges j => ranges.set j (ranges.getD (j - 1) 0)) ranges) (by rw [hu1]; omega)
  refine ⟨op, (List.range' (cut + 1) (e - (cut + 1))).foldl
      (fun ranges j => ranges.set j (ranges.getD (j + 1) 0))
      ((List.range' (s + 1) (cut - s)).reverse.foldl
        (fun ranges j => ranges.set j (ranges.getD (j - 1) 0)) ranges), ?_, hnb, ?_, ?_, ?_⟩
  · unfold CutOutRange
    simp only [decide_eq_true_eq]
    rw [hop]
  · rw [hd1, hu1]
  · intro j
    rw [hd2 j, hu2 j, hu2 (j + 1)]
    by_cases h1 : s < j ∧ j ≤ cut
    · rw [if_pos h1, if_neg (by omega), if_pos (by omega)]
    · rw [if_neg h1]
      by_cases h2 : cut < j ∧ j < e
      · rw [if_pos h2, if_pos (by omega), if_neg (by omega)]
      · rw [if_neg h2, if_neg (by omega), if_neg (by omega)]
  · intro subject position c rest
    rw [hrun]
    by_cases h : ranges.getD cut 0 ≤ c ∧ c < ranges.getD (cut + 1) 0
    · rw [if_pos h, if_pos (by omega)]
    · rw [if_neg h, if_neg (by omega)]

/-- Cutting two neighbouring boundaries out of increasing boundaries keeps,
for a character outside the interval between the two, the parity of the
number of boundaries up to the character. -/
theorem CutOutRange.count_parity (ranges other : List Nat) (s e cut c : Nat) (hs : s ≤ cut)
    (hc : cut < e) (hse : s + 2 ≤ e) (hinc : GenerateBranches.Increasing ranges s e)
    (hother : ∀ j, other.getD j 0 =
      if s < j ∧ j ≤ cut then ranges.getD (j - 1) 0
      else if cut < j ∧ j < e then ranges.getD (j + 1) 0 else ranges.getD j 0)
    (hout : ¬ (ranges.getD cut 0 ≤ c ∧ c < ranges.getD (cut + 1) 0)) :
    GenerateBranches.boundariesUpTo other c (e - 1 - (s + 1) + 1) (s + 1) % 2 =
      GenerateBranches.boundariesUpTo ranges c (e - s + 1) s % 2 := by
  obtain ⟨h1, h2, h3⟩ := GenerateBranches.boundariesUpTo_spec ranges c (e - s + 1) s
    (by
      have e1 : s + (e - s + 1) - 1 = e := by omega
      rw [e1]
      exact hinc)
  generalize GenerateBranches.boundariesUpTo ranges c (e - s + 1) s = k at *
  have hentry : ∀ j, j < e - 1 - (s + 1) + 1 → other.getD (s + 1 + j) 0 =
      if j < cut - s then ranges.getD (s + j) 0 else ranges.getD (s + (j + 2)) 0 := by
    intro j hj
    rw [hother]
    by_cases h : j < cut - s
    · rw [if_pos (by omega), if_pos h]
      congr 1
      omega
    · rw [if_neg (by omega), if_pos (by omega), if_neg h]
      congr 1
      omega
  by_cases hlow : c < ranges.getD cut 0
  · -- the boundaries up to `c` lie before the cut
    have hk : k ≤ cut - s := by
      by_contra hne
      have := h2 (cut - s) (by omega)
      have e2 : s + (cut - s) = cut := by omega
      rw [e2] at this
      omega
    rw [GenerateBranches.boundariesUpTo_unique other c _ (s + 1) k (by omega)]
    · intro j hj
      rw [hentry j (by omega), if_pos (by omega)]
      exact h2 j hj
    · intro j hj1 hj2
      rw [hentry j hj2]
      by_cases h : j < cut - s
      · rw [if_pos h]
        exact h3 j hj1 (by omega)
      · rw [if_neg h]
        exact h3 (j + 2) (by omega) (by omega)
  · -- the two boundaries cut out are both counted
    have hk : cut - s + 2 ≤ k := by
      by_contra hne
      have := h3 (cut - s + 1) (by omega) (by omega)
      have e2 : s + (cut - s + 1) = cut + 1 := by omega
      rw [e2] at this
      omega
    rw [GenerateBranches.boundariesUpTo_unique other c _ (s + 1) (k - 2) (by omega)]
    · omega
    · intro j hj
      rw [hentry j (by omega)]
      by_cases h : j < cut - s
      · rw [if_pos h]
        exact h2 j (by omega)
      · rw [if_neg h]
        exact h2 (j + 2) (by omega)
    · intro j hj1 hj2
      rw [hentry j hj2, if_neg (by omega)]
      exact h3 (j + 2) (by omega) (by omega)

/-- A number is at most its bitwise or with another. -/
theorem le_or_mask (x : Nat) : ∀ y, x ≤ x ||| y := by
  induction x using Nat.strong_induction_on with
  | _ x ih =>
    intro y
    by_cases hx : x = 0
    · subst hx
      exact Nat.zero_le _
    · have h1 := ih (x / 2) (by omega) (y / 2)
      have h2 : (x ||| y) / 2 = x / 2 ||| y / 2 := Nat.or_div_two
      have h3 : x % 2 = 1 → (x ||| y) % 2 = 1 := fun h => Nat.or_mod_two_eq_one.2 (Or.inl h)
      omega

/-- What `SplitSearchSpace` stores for at least two increasing boundaries:
two indices and a border above the first boundary such that the boundaries
up to `new_end_index` lie below the border, those after it lie at or above
the border, those before `new_start_index` lie at or below the border, and
the border is the last boundary or lies below the boundary at
`new_start_index`. -/
theorem SplitSearchSpace_spec (ranges : List Nat) (s e : Nat) (hse : s < e)
    (hinc : GenerateBranches.Increasing ranges s e) :
    ∃ ns ne border, SplitSearchSpace ranges s e = (ns, ne, border) ∧
      s ≤ ne ∧ ne < ns ∧ ns ≤ e ∧ ranges.getD s 0 < border ∧ ranges.getD ne 0 < border ∧
      (∀ i, ne < i → i ≤ e → border ≤ ranges.getD i 0) ∧
      (∀ i, s ≤ i → i < ns → ranges.getD i 0 ≤ border) ∧
      (border = ranges.getD e 0 ∨ border < ranges.getD ns 0) := by
  obtain ⟨P, hP⟩ : ∃ P : Nat × Nat, P =
      (if (ranges.getD s 0 - (ranges.getD s 0 &&& RegExpMacroAssembler.kTableMask)) +
            RegExpMacroAssembler.kTableSize - 1 > String.kMaxOneByteCharCode ∧
          e - s > ((firstIndexFrom (fun i => decide (ranges.getD i 0 >
            (ranges.getD s 0 - (ranges.getD s 0 &&& RegExpMacroAssembler.kTableMask)) +
              RegExpMacroAssembler.kTableSize)) (e - s) s).getD e - s) * 2 ∧
          ranges.getD e 0 - 1 - ranges.getD s 0 > RegExpMacroAssembler.kTableSize * 2 ∧
          (e + s) / 2 > (firstIndexFrom (fun i => decide (ranges.getD i 0 >
            (ranges.getD s 0 - (ranges.getD s 0 &&& RegExpMacroAssembler.kTableMask)) +
              RegExpMacroAssembler.kTableSize)) (e - s) s).getD e ∧
          ranges.getD ((e + s) / 2) 0 ≥ ranges.getD s 0 + 2 * RegExpMacroAssembler.kTableSize then
        match firstIndexFrom (fun i => decide (ranges.getD i 0 >
            (ranges.getD ((e + s) / 2) 0 ||| RegExpMacroAssembler.kTableMask) + 1))
            (e - (e + s) / 2) ((e + s) / 2) with
        | some scan_forward_for_section_border =>
          (scan_forward_for_section_border,
            (ranges.getD ((e + s) / 2) 0 ||| RegExpMacroAssembler.kTableMask) + 1)
        | none => ((firstIndexFrom (fun i => decide (ranges.getD i 0 >
            (ranges.getD s 0 - (ranges.getD s 0 &&& RegExpMacroAssembler.kTableMask)) +
              RegExpMacroAssembler.kTableSize)) (e - s) s).getD e,
            (ranges.getD s 0 - (ranges.getD s 0 &&& RegExpMacroAssembler.kTableMask)) +
              RegExpMacroAssembler.kTableSize)
      else ((firstIndexFrom (fun i => decide (ranges.getD i 0 >
            (ranges.getD s 0 - (ranges.getD s 0 &&& RegExpMacroAssembler.kTableMask)) +
              RegExpMacroAssembler.kTableSize)) (e - s) s).getD e,
            (ranges.getD s 0 - (ranges.getD s 0 &&& RegExpMacroAssembler.kTableMask)) +
              RegExpMacroAssembler.kTableSize)) := ⟨_, rfl⟩
  have hrfl : SplitSearchSpace ranges s e =
      if P.2 ≥ ranges.getD e 0 then (e, e - 1, ranges.getD e 0)
      else (P.1, (if ranges.getD (P.1 - 1) 0 = P.2 then P.1 - 1 - 1 else P.1 - 1), P.2) := by
    rw [hP]
    rfl
  -- the first border and the first boundary above it
  have hb0 : ranges.getD s 0 <
      (ranges.getD s 0 - (ranges.getD s 0 &&& RegExpMacroAssembler.kTableMask)) +
        RegExpMacroAssembler.kTableSize := by
    have := (page_and_offset (ranges.getD s 0)).2
    have hk : RegExpMacroAssembler.kTableSize = 128 := rfl
    omega
  have hns0 : ∀ ns0, ns0 = (firstIndexFrom (fun i => decide (ranges.getD i 0 >
        (ranges.getD s 0 - (ranges.getD s 0 &&& RegExpMacroAssembler.kTableMask)) +
          RegExpMacroAssembler.kTableSize)) (e - s) s).getD e →
      s < ns0 ∧ ns0 ≤ e ∧
      (∀ i, s ≤ i → i < ns0 → ranges.getD i 0 ≤
        (ranges.getD s 0 - (ranges.getD s 0 &&& RegExpMacroAssembler.kTableMask)) +
          RegExpMacroAssembler.kTableSize) ∧
      (ns0 = e ∨ (ranges.getD s 0 - (ranges.getD s 0 &&& RegExpMacroAssembler.kTableMask)) +
          RegExpMacroAssembler.kTableSize < ranges.getD ns0 0) := by
    intro ns0 h0
    cases hf : firstIndexFrom (fun i => decide (ranges.getD i 0 >
        (ranges.getD s 0 - (ranges.getD s 0 &&& RegExpMacroAssembler.kTableMask)) +
          RegExpMacroAssembler.kTableSize)) (e - s) s with
    | none =>
      rw [hf] at h0
      have hall := firstIndexFrom_none _ _ _ hf
      have h0e : ns0 = e := h0
      refine ⟨by omega, by omega, fun i h1 h2 => ?_, Or.inl h0e⟩
      have := hall i h1 (by omega)
      simp only [decide_eq_false_iff_not, gt_iff_lt, not_lt] at this
      exact this
    | some k =>
      rw [hf] at h0
      have h0k : ns0 = k := h0
      obtain ⟨h1, h2, h3, h4⟩ := firstIndexFrom_some _ _ _ _ hf
      simp only [decide_eq_true_eq, gt_iff_lt] at h3
      have hks : k ≠ s := by
        intro hk
        rw [hk] at h3
        omega
      refine ⟨by omega, by omega, fun i hi1 hi2 => ?_, Or.inr (by rw [h0k]; exact h3)⟩
      have := h4 i hi1 (by omega)
      simp only [decide_eq_false_iff_not, gt_iff_lt, not_lt] at this
      exact this
  have hpair : s < P.1 ∧ P.1 ≤ e ∧ ranges.getD s 0 < P.2 ∧
      (∀ i, s ≤ i → i < P.1 → ranges.getD i 0 ≤ P.2) ∧ (P.1 = e ∨ P.2 < ranges.getD P.1 0) := by
    obtain ⟨g1, g2, g3, g4⟩ := hns0 _ rfl
    rw [hP]
    split
    · rename_i hcond
      obtain ⟨_, _, _, hc4, _⟩ := hcond
      have hc5 := Nat.lt_trans g1 hc4
      split
      · rename_i k hf
        obtain ⟨h1, h2, h3, h4⟩ := firstIndexFrom_some _ _ _ _ hf
        simp only [decide_eq_true_eq, gt_iff_lt] at h3
        have hchop : ranges.getD ((e + s) / 2) 0 <
            (ranges.getD ((e + s) / 2) 0 ||| RegExpMacroAssembler.kTableMask) + 1 := by
          have := le_or_mask (ranges.getD ((e + s) / 2) 0) RegExpMacroAssembler.kTableMask
          omega
        dsimp only
        refine ⟨by omega, by omega, ?_, fun i hi1 hi2 => ?_, Or.inr h3⟩
        · have := GenerateBranches.Increasing.le_of_le ranges s e s ((e + s) / 2) hinc
            (le_refl _) (by omega) (by omega)
          show ranges.getD s 0 <
            (ranges.getD ((e + s) / 2) 0 ||| RegExpMacroAssembler.kTableMask) + 1
          omega
        · show ranges.getD i 0 ≤
            (ranges.getD ((e + s) / 2) 0 ||| RegExpMacroAssembler.kTableMask) + 1
          by_cases hi : i < (e + s) / 2
          · have := GenerateBranches.Increasing.lt_of_lt ranges s e i ((e + s) / 2) hinc
              hi1 hi (by omega)
            omega
          · have := h4 i (by omega) hi2
            simp only [decide_eq_false_iff_not, gt_iff_lt, not_lt] at this
            exact this
      · exact ⟨g1, g2, hb0, g3, g4⟩
    · exact ⟨g1, g2, hb0, g3, g4⟩
  obtain ⟨ns1, b1⟩ := P
  obtain ⟨p1, p2, p3, p4, p5⟩ := hpair
  simp only at p1 p2 p3 p4 p5 hrfl
  rw [hrfl]
  by_cases hclamp : b1 ≥ ranges.getD e 0
  · rw [if_pos hclamp]
    refine ⟨e, e - 1, ranges.getD e 0, rfl, by omega, by omega, le_refl _,
      GenerateBranches.Increasing.lt_of_lt ranges s e s e hinc (le_refl _) hse (le_refl _),
      GenerateBranches.Increasing.lt_of_lt ranges s e (e - 1) e hinc (by omega) (by omega)
        (le_refl _), ?_, ?_, Or.inl rfl⟩
    · intro i h1 h2
      have : i = e := by omega
      rw [this]
    · intro i h1 h2
      exact GenerateBranches.Increasing.le_of_le ranges s e i e hinc h1 (by omega) (le_refl _)
  · rw [if_neg hclamp]
    have hb1 : b1 < ranges.getD ns1 0 := by
      rcases p5 with h | h
      · rw [h]
        omega
      · exact h
    by_cases heq : ranges.getD (ns1 - 1) 0 = b1
    · rw [if_pos heq]
      have hne : ns1 - 1 ≠ s := by
        intro h
        rw [h] at heq
        omega
      refine ⟨ns1, ns1 - 1 - 1, b1, rfl, by omega, by omega, p2, p3, ?_, ?_, p4, Or.inr hb1⟩
      · have := GenerateBranches.Increasing.lt_of_lt ranges s e (ns1 - 1 - 1) (ns1 - 1) hinc
          (by omega) (by omega) (by omega)
        omega
      · intro i h1 h2
        by_cases hi : i = ns1 - 1
        · rw [hi, heq]
        · have := GenerateBranches.Increasing.le_of_le ranges s e ns1 i hinc (by omega)
            (by omega) h2
          omega
    · rw [if_neg heq]
      refine ⟨ns1, ns1 - 1, b1, rfl, by omega, by omega, p2, p3, ?_, ?_, p4, Or.inr hb1⟩
      · have := p4 (ns1 - 1) (by omega) (by omega)
        omega
      · intro i h1 h2
        have := GenerateBranches.Increasing.le_of_le ranges s e ns1 i hinc (by omega)
          (by omega) h2
        omega

/-- The boundaries that `CutOutRange` leaves between `start_index + 1` and
`end_index - 1` increase and lie between the first and the last of the
boundaries it was given. -/
theorem CutOutRange.increasing (ranges other : List Nat) (s e cut : Nat)
    (hc : cut < e) (hse : s + 2 ≤ e) (hinc : GenerateBranches.Increasing ranges s e)
    (hother : ∀ j, other.getD j 0 =
      if s < j ∧ j ≤ cut then ranges.getD (j - 1) 0
      else if cut < j ∧ j < e then ranges.getD (j + 1) 0 else ranges.getD j 0) :
    GenerateBranches.Increasing other (s + 1) (e - 1) ∧
      ranges.getD s 0 ≤ other.getD (s + 1) 0 ∧ other.getD (e - 1) 0 ≤ ranges.getD e 0 := by
  have hentry : ∀ j, s < j → j < e → ∃ i, s ≤ i ∧ i ≤ e ∧ other.getD j 0 = ranges.getD i 0 ∧
      (j ≤ cut → i = j - 1) ∧ (cut < j → i = j + 1) := by
    intro j h1 h2
    rw [hother]
    by_cases h : j ≤ cut
    · rw [if_pos ⟨h1, h⟩]
      exact ⟨j - 1, by omega, by omega, rfl, fun _ => rfl, fun h3 => absurd h3 (by omega)⟩
    · rw [if_neg (by omega), if_pos (by omega)]
      exact ⟨j + 1, by omega, by omega, rfl, fun h3 => absurd h3 h, fun _ => rfl⟩
  refine ⟨?_, ?_, ?_⟩
  · intro i h1 h2
    obtain ⟨a, a1, a2, a3, a4, a5⟩ := hentry i (by omega) (by omega)
    obtain ⟨b, b1, b2, b3, b4, b5⟩ := hentry (i + 1) (by omega) (by omega)
    rw [a3, b3]
    exact GenerateBranches.Increasing.lt_of_lt ranges s e a b hinc a1 (by omega) b2
  · obtain ⟨a, a1, a2, a3, _, _⟩ := hentry (s + 1) (by omega) (by omega)
    rw [a3]
    exact GenerateBranches.Increasing.le_of_le ranges s e s a hinc (le_refl _) a1 a2
  · obtain ⟨a, a1, a2, a3, _, _⟩ := hentry (e - 1) (by omega) (by omega)
    rw [a3]
    exact GenerateBranches.Increasing.le_of_le ranges s e a e hinc a1 a2 (le_refl _)

/-! ## Branches for a character class: the cases of GenerateBranches -/

/-- The case of one boundary. -/
theorem GenerateBranches_single (fuel : Nat) (ranges : List Nat) (s lo hi : Nat)
    (fall_through : Label) (even_label odd_label : Option Label) (st : Emitter) :
    GenerateBranches (fuel + 1) ranges s s lo hi fall_through even_label odd_label st =
      some (ranges, EmitBoundaryTest (ranges.getD s 0) fall_through even_label odd_label st) := by
  rw [GenerateBranches]
  simp

/-- The case of two boundaries. -/
theorem GenerateBranches_double (fuel : Nat) (ranges : List Nat) (s e lo hi : Nat)
    (fall_through : Label) (even_label odd_label : Option Label) (st : Emitter)
    (h1 : s ≠ e) (h2 : s + 1 = e) :
    GenerateBranches (fuel + 1) ranges s e lo hi fall_through even_label odd_label st =
      some (ranges, EmitDoubleBoundaryTest (ranges.getD s 0) (ranges.getD e 0 - 1) fall_through
        even_label odd_label st) := by
  rw [GenerateBranches]
  simp only [if_neg h1, if_pos h2]

/-- The case of at most seven boundaries: one interval is cut out. -/
theorem GenerateBranches_cut (fuel : Nat) (ranges : List Nat) (s e lo hi : Nat)
    (fall_through : Label) (even_label odd_label : Option Label) (st : Emitter)
    (h1 : s ≠ e) (h2 : s + 1 ≠ e) (h3 : e - s ≤ 6) :
    GenerateBranches (fuel + 1) ranges s e lo hi fall_through even_label odd_label st =
      GenerateBranches fuel
        (CutOutRange ranges s e
          ((firstIndexFrom (fun i => decide (ranges.getD i 0 = ranges.getD (i + 1) 0 - 1))
            (e - s) s).getD s) even_label odd_label st).1 (s + 1) (e - 1) lo hi fall_through
        even_label odd_label
        (CutOutRange ranges s e
          ((firstIndexFrom (fun i => decide (ranges.getD i 0 = ranges.getD (i + 1) 0 - 1))
            (e - s) s).getD s) even_label odd_label st).2 := by
  rw [GenerateBranches]
  simp only [if_neg h1, if_neg h2, if_pos h3]

/-- The case of many boundaries on one page of 128 characters. -/
theorem GenerateBranches_table (fuel : Nat) (ranges : List Nat) (s e lo hi : Nat)
    (fall_through : Label) (even_label odd_label : Option Label) (st : Emitter)
    (h1 : s ≠ e) (h2 : s + 1 ≠ e) (h3 : ¬ e - s ≤ 6)
    (h4 : hi >>> RegExpMacroAssembler.kTableSizeBits =
      lo >>> RegExpMacroAssembler.kTableSizeBits) :
    GenerateBranches (fuel + 1) ranges s e lo hi fall_through even_label odd_label st =
      some (ranges, EmitUseLookupTable ranges s e lo fall_through even_label odd_label st) := by
  rw [GenerateBranches]
  simp only [if_neg h1, if_neg h2, if_neg h3, if_pos h4]

/-- The case of a first boundary on a later page than `min_char`. -/
theorem GenerateBranches_below (fuel : Nat) (ranges : List Nat) (s e lo hi : Nat)
    (fall_through : Label) (even_label odd_label : Option Label) (st : Emitter)
    (h1 : s ≠ e) (h2 : s + 1 ≠ e) (h3 : ¬ e - s ≤ 6)
    (h4 : ¬ hi >>> RegExpMacroAssembler.kTableSizeBits =
      lo >>> RegExpMacroAssembler.kTableSizeBits)
    (h5 : lo >>> RegExpMacroAssembler.kTableSizeBits ≠
      ranges.getD s 0 >>> RegExpMacroAssembler.kTableSizeBits) :
    GenerateBranches (fuel + 1) ranges s e lo hi fall_through even_label odd_label st =
      GenerateBranches fuel ranges (s + 1) e (ranges.getD s 0) hi fall_through odd_label
        even_label (st.emit (.CheckCharacterLT (ranges.getD s 0) odd_label)) := by
  rw [GenerateBranches]
  simp only [if_neg h1, if_neg h2, if_neg h3, if_neg h4, if_pos h5]

/-- The case of a split of the boundaries at a border. -/
theorem GenerateBranches_split (fuel : Nat) (ranges : List Nat) (s e lo hi : Nat)
    (fall_through : Label) (even_label odd_label : Option Label) (st : Emitter)
    (h1 : s ≠ e) (h2 : s + 1 ≠ e) (h3 : ¬ e - s ≤ 6)
    (h4 : ¬ hi >>> RegExpMacroAssembler.kTableSizeBits =
      lo >>> RegExpMacroAssembler.kTableSizeBits)
    (h5 : ¬ lo >>> RegExpMacroAssembler.kTableSizeBits ≠
      ranges.getD s 0 >>> RegExpMacroAssembler.kTableSizeBits)
    (ns ne border : Nat) (hsplit : SplitSearchSpace ranges s e = (ns, ne, border))
    (above : Option Label)
    (habove : above = if border = ranges.getD e 0 - 1 + 1 then
        (if e % 2 ≠ s % 2 then odd_label else even_label)
      else some (Label.stack st.labels)) :
    GenerateBranches (fuel + 1) ranges s e lo hi fall_through even_label odd_label st =
      match GenerateBranches fuel ranges s ne lo (border - 1) (Label.stack (st.labels + 1))
          even_label odd_label
          { st with code := st.code ++ [.CheckCharacterGT (border - 1) above],
                    labels := st.labels + 1 + 1 } with
      | none => none
      | some (other, st1) =>
        if above = some (Label.stack st.labels) then
          GenerateBranches fuel other ns e border hi (Label.stack (st.labels + 1))
            (if ns % 2 ≠ s % 2 then odd_label else even_label)
            (if ns % 2 ≠ s % 2 then even_label else odd_label)
            (st1.emit (.Bind (Label.stack st.labels)))
        else some (other, st1) := by
  rw [GenerateBranches]
  simp only [if_neg h1, if_neg h2, if_neg h3, if_neg h4, if_neg h5, hsplit, Emitter.emit,
    decide_eq_true_eq, ← habove]

/-- A run that looks for an older label passes a piece of code that binds
only labels created later. -/
theorem AssemblerOp.jumpTo_older (subject : List Nat) (position : Int) (labels : Nat)
    (target : Option Label) (c : Nat) (code rest : List AssemblerOp)
    (hold : Label.Older labels target)
    (hbind : ∀ l, AssemblerOp.Bind l ∈ code → ∃ k, l = .stack k ∧ labels ≤ k) :
    AssemblerOp.jumpTo subject position target c (code ++ rest) =
      AssemblerOp.jumpTo subject position target c rest := by
  apply AssemblerOp.jumpTo_append
  intro l hl hmem
  obtain ⟨k, hk1, hk2⟩ := hbind l hmem
  rw [hk1] at hl
  exact hold k hk2 hl

/-- A run that reaches a label other than `fall_through` goes on as after
a jump to it. -/
theorem GenerateBranches.ReachesIn.jump (subject : List Nat) (position : Int)
    (outcome : CodeOutcome) (label : Option Label) (fall_through : Label) (c : Nat)
    (rest : List AssemblerOp)
    (h : GenerateBranches.ReachesIn subject position outcome label fall_through c rest)
    (hne : label ≠ some fall_through) :
    outcome = AssemblerOp.jumpTo subject position label c rest := by
  rcases h with h | h
  · exact h
  · exact absurd h.1 hne

/-- One of two older labels is older. -/
theorem Label.Older.ite (labels : Nat) (p : Prop) [Decidable p] (a b : Option Label)
    (ha : Label.Older labels a) (hb : Label.Older labels b) :
    Label.Older labels (if p then a else b) := by
  by_cases h : p
  · rw [if_pos h]
    exact ha
  · rw [if_neg h]
    exact hb

/-- The boundaries up to `c` among `ranges[s..e]` are those among
`ranges[s..m]` when the later ones lie above `c`. -/
theorem GenerateBranches.boundariesUpTo_before (ranges : List Nat) (c s m e : Nat) (h1 : s ≤ m)
    (h2 : m ≤ e) (h : ∀ i, m < i → i ≤ e → c < ranges.getD i 0) :
    GenerateBranches.boundariesUpTo ranges c (e - s + 1) s =
      GenerateBranches.boundariesUpTo ranges c (m - s + 1) s := by
  have e1 : e - s + 1 = (m - s + 1) + (e - m) := by omega
  rw [e1, GenerateBranches.boundariesUpTo_append,
    GenerateBranches.boundariesUpTo_zero ranges c (e - m) (s + (m - s + 1))
      (fun j hj1 hj2 => h j (by omega) (by omega))]
  rfl

/-- The boundaries up to `c` among `ranges[s..e]` are all of those before
`ranges[n]`, when these are at most `c`, and those among `ranges[n..e]`. -/
theorem GenerateBranches.boundariesUpTo_after (ranges : List Nat) (c s n e : Nat) (h1 : s ≤ n)
    (h2 : n ≤ e) (h : ∀ i, s ≤ i → i < n → ranges.getD i 0 ≤ c) :
    GenerateBranches.boundariesUpTo ranges c (e - s + 1) s =
      (n - s) + GenerateBranches.boundariesUpTo ranges c (e - n + 1) n := by
  have e1 : e - s + 1 = (n - s) + (e - n + 1) := by omega
  have e2 : s + (n - s) = n := by omega
  rw [e1, GenerateBranches.boundariesUpTo_append,
    GenerateBranches.boundariesUpTo_all ranges c (n - s) s
      (fun j hj1 hj2 => h j hj1 (by omega)), e2]

/-- The case of one boundary does what `GenerateBranches` is to achieve. -/
theorem GenerateBranches.single_post (fuel : Nat) (ranges : List Nat) (s lo hi : Nat)
    (fall_through : Label) (even_label odd_label : Option Label) (st : Emitter)
    (hpre : GenerateBranches.Pre ranges s s lo hi even_label odd_label st) :
    GenerateBranches.Post ranges s s lo hi fall_through even_label odd_label st
      (GenerateBranches (fuel + 1) ranges s s lo hi fall_through even_label odd_label st) := by
  obtain ⟨_, _, _, hlo, _, _, _⟩ := hpre
  rw [GenerateBranches_single]
  obtain ⟨code, hcode, hnb, hrun⟩ := EmitBoundaryTest_run (ranges.getD s 0) fall_through
    even_label odd_label st (by omega)
  refine ⟨ranges, _, code, rfl, by rw [hcode], by rw [hcode], rfl, fun _ _ => rfl,
    fun l hl => absurd hl (hnb l), ?_⟩
  intro subject position c rest _ _
  have hr := hrun subject position c rest
  have hcnt : GenerateBranches.boundariesUpTo ranges c (s - s + 1) s =
      if ranges.getD s 0 ≤ c then 1 else 0 := by
    rw [Nat.sub_self]
    simp [GenerateBranches.boundariesUpTo]
  rw [hcnt]
  by_cases hc : c < ranges.getD s 0
  · rw [if_pos hc] at hr
    rw [if_neg (by omega : ¬ ranges.getD s 0 ≤ c)]
    exact hr
  · rw [if_neg hc] at hr
    rw [if_pos (by omega : ranges.getD s 0 ≤ c)]
    exact hr

/-- The case of two boundaries does what `GenerateBranches` is to
achieve. -/
theorem GenerateBranches.double_post (fuel : Nat) (ranges : List Nat) (s e lo hi : Nat)
    (fall_through : Label) (even_label odd_label : Option Label) (st : Emitter)
    (hpre : GenerateBranches.Pre ranges s e lo hi even_label odd_label st) (h2 : s + 1 = e) :
    GenerateBranches.Post ranges s e lo hi fall_through even_label odd_label st
      (GenerateBranches (fuel + 1) ranges s e lo hi fall_through even_label odd_label st) := by
  obtain ⟨_, _, hinc, hlo, _, _, _⟩ := hpre
  rw [GenerateBranches_double fuel ranges s e lo hi fall_through even_label odd_label st
    (by omega) h2]
  obtain ⟨code, hcode, hnb, hrun⟩ := EmitDoubleBoundaryTest_run (ranges.getD s 0)
    (ranges.getD e 0 - 1) fall_through even_label odd_label st
  refine ⟨ranges, _, code, rfl, by rw [hcode], by rw [hcode], rfl, fun _ _ => rfl,
    fun l hl => absurd hl (hnb l), ?_⟩
  intro subject position c rest _ _
  have hr := hrun subject position c rest
  have hlt := hinc s (le_refl _) (by omega)
  rw [h2] at hlt
  have e1 : e - s + 1 = 2 := by omega
  have hcnt : GenerateBranches.boundariesUpTo ranges c (e - s + 1) s =
      (if ranges.getD s 0 ≤ c then 1 else 0) + (if ranges.getD e 0 ≤ c then 1 else 0) := by
    rw [e1]
    simp [GenerateBranches.boundariesUpTo, h2]
  rw [hcnt]
  by_cases hc1 : ranges.getD s 0 ≤ c
  · by_cases hc2 : ranges.getD e 0 ≤ c
    · rw [if_neg (by omega)] at hr
      rw [if_pos hc1, if_pos hc2]
      exact hr
    · rw [if_pos (by omega)] at hr
      rw [if_pos hc1, if_neg hc2]
      exact hr
  · rw [if_neg (by omega)] at hr
    rw [if_neg hc1, if_neg (by omega : ¬ ranges.getD e 0 ≤ c)]
    exact hr

/-- The case of many boundaries on one page does what `GenerateBranches` is
to achieve. -/
theorem GenerateBranches.table_post (fuel : Nat) (ranges : List Nat) (s e lo hi : Nat)
    (fall_through : Label) (even_label odd_label : Option Label) (st : Emitter)
    (hpre : GenerateBranches.Pre ranges s e lo hi even_label odd_label st)
    (h1 : s ≠ e) (h2 : s + 1 ≠ e) (h3 : ¬ e - s ≤ 6)
    (h4 : hi >>> RegExpMacroAssembler.kTableSizeBits =
      lo >>> RegExpMacroAssembler.kTableSizeBits) :
    GenerateBranches.Post ranges s e lo hi fall_through even_label odd_label st
      (GenerateBranches (fuel + 1) ranges s e lo hi fall_through even_label odd_label st) := by
  obtain ⟨hse, _, hinc, hlo, hhi, _, _⟩ := hpre
  rw [GenerateBranches_table fuel ranges s e lo hi fall_through even_label odd_label st h1 h2 h3
    h4]
  have hshift : ∀ x, x >>> RegExpMacroAssembler.kTableSizeBits = x / 128 :=
    fun x => Nat.shiftRight_eq_div_pow x 7
  rw [hshift, hshift] at h4
  obtain ⟨code, hcode, hnb, hrun⟩ := EmitUseLookupTable_run ranges s e lo fall_through
    even_label odd_label st (by omega) hinc (lo / 128) (by
      intro j hj1 hj2
      have a := GenerateBranches.Increasing.le_of_le ranges s e s j hinc (le_refl _) hj1 hj2
      have b := GenerateBranches.Increasing.le_of_le ranges s e j e hinc hj1 hj2 (le_refl _)
      rw [hshift]
      omega)
  refine ⟨ranges, _, code, rfl, by rw [hcode], by rw [hcode], rfl, fun _ _ => rfl,
    fun l hl => absurd hl (hnb l), ?_⟩
  intro subject position c rest hc1 hc2
  exact hrun subject position c rest (by rw [hshift]; omega)

/-- The case of a first boundary on a later page than `min_char` does what
`GenerateBranches` is to achieve, if the call for the other boundaries
does. -/
theorem GenerateBranches.below_post (fuel : Nat) (ranges : List Nat) (s e lo hi : Nat)
    (fall_through : Label) (even_label odd_label : Option Label) (st : Emitter)
    (ih : ∀ ranges s e lo hi fall_through even_label odd_label st, e - s < fuel →
      GenerateBranches.Pre ranges s e lo hi even_label odd_label st →
      GenerateBranches.Post ranges s e lo hi fall_through even_label odd_label st
        (GenerateBranches fuel ranges s e lo hi fall_through even_label odd_label st))
    (hfuel : e - s < fuel + 1)
    (hpre : GenerateBranches.Pre ranges s e lo hi even_label odd_label st)
    (h1 : s ≠ e) (h2 : s + 1 ≠ e) (h3 : ¬ e - s ≤ 6)
    (h4 : ¬ hi >>> RegExpMacroAssembler.kTableSizeBits =
      lo >>> RegExpMacroAssembler.kTableSizeBits)
    (h5 : lo >>> RegExpMacroAssembler.kTableSizeBits ≠
      ranges.getD s 0 >>> RegExpMacroAssembler.kTableSizeBits) :
    GenerateBranches.Post ranges s e lo hi fall_through even_label odd_label st
      (GenerateBranches (fuel + 1) ranges s e lo hi fall_through even_label odd_label st) := by
  obtain ⟨hse, hlen, hinc, hlo, hhi, heven, hodd⟩ := hpre
  rw [GenerateBranches_below fuel ranges s e lo hi fall_through even_label odd_label st h1 h2 h3
    h4 h5]
  obtain ⟨other, done, code, hres, hcode, hlab, holen, hoth, hbind, hrun⟩ :=
    ih ranges (s + 1) e (ranges.getD s 0) hi fall_through odd_label even_label
      (st.emit (.CheckCharacterLT (ranges.getD s 0) odd_label)) (by omega)
      ⟨by omega, hlen, GenerateBranches.Increasing.sub ranges s e (s + 1) e hinc (by omega)
        (le_refl _), hinc s (le_refl _) (by omega), hhi, hodd, heven⟩
  refine ⟨other, done, .CheckCharacterLT (ranges.getD s 0) odd_label :: code, hres, ?_, hlab,
    holen, fun j hj => hoth j (by omega), ?_, ?_⟩
  · rw [hcode]
    simp [Emitter.emit]
  · intro l hl
    rcases List.mem_cons.1 hl with h | h
    · exact absurd h (by simp)
    · exact hbind l h
  · intro subject position c rest hc1 hc2
    rw [List.cons_append, AssemblerOp.run_CheckCharacterLT]
    by_cases hc : c < ranges.getD s 0
    · rw [if_pos hc, AssemblerOp.jumpTo_older subject position st.labels odd_label c code rest
        hodd hbind,
        GenerateBranches.boundariesUpTo_zero ranges c (e - s + 1) s (fun j hj1 hj2 => by
          have := GenerateBranches.Increasing.le_of_le ranges s e s j hinc (le_refl _) hj1
            (by omega)
          omega)]
      exact Or.inl rfl
    · rw [if_neg hc]
      have hr := hrun subject position c rest (by omega) hc2
      have e1 : e - s + 1 = (e - (s + 1) + 1) + 1 := by omega
      have hcnt : GenerateBranches.boundariesUpTo ranges c (e - s + 1) s =
          1 + GenerateBranches.boundariesUpTo ranges c (e - (s + 1) + 1) (s + 1) := by
        rw [e1]
        simp only [GenerateBranches.boundariesUpTo]
        rw [if_pos (by omega : ranges.getD s 0 ≤ c)]
      rw [hcnt]
      rcases Nat.mod_two_eq_zero_or_one
        (GenerateBranches.boundariesUpTo ranges c (e - (s + 1) + 1) (s + 1)) with hp | hp
      · rw [if_neg (by omega)] at hr
        rw [if_pos (by omega)]
        exact hr
      · rw [if_pos hp] at hr
        rw [if_neg (by omega)]
        exact hr

/-- The case of at most seven boundaries does what `GenerateBranches` is to
achieve, if the call for the boundaries left after the cut does. -/
theorem GenerateBranches.cut_post (fuel : Nat) (ranges : List Nat) (s e lo hi : Nat)
    (fall_through : Label) (even_label odd_label : Option Label) (st : Emitter)
    (ih : ∀ ranges s e lo hi fall_through even_label odd_label st, e - s < fuel →
      GenerateBranches.Pre ranges s e lo hi even_label odd_label st →
      GenerateBranches.Post ranges s e lo hi fall_through even_label odd_label st
        (GenerateBranches fuel ranges s e lo hi fall_through even_label odd_label st))
    (hfuel : e - s < fuel + 1)
    (hpre : GenerateBranches.Pre ranges s e lo hi even_label odd_label st)
    (h1 : s ≠ e) (h2 : s + 1 ≠ e) (h3 : e - s ≤ 6) :
    GenerateBranches.Post ranges s e lo hi fall_through even_label odd_label st
      (GenerateBranches (fuel + 1) ranges s e lo hi fall_through even_label odd_label st) := by
  obtain ⟨hse, hlen, hinc, hlo, hhi, heven, hodd⟩ := hpre
  rw [GenerateBranches_cut fuel ranges s e lo hi fall_through even_label odd_label st h1 h2 h3]
  -- the index of the interval cut out
  obtain ⟨cut, hcut⟩ : ∃ cut, cut = (firstIndexFrom
      (fun i => decide (ranges.getD i 0 = ranges.getD (i + 1) 0 - 1)) (e - s) s).getD s :=
    ⟨_, rfl⟩
  have hcs : s ≤ cut ∧ cut < e := by
    cases hf : firstIndexFrom
        (fun i => decide (ranges.getD i 0 = ranges.getD (i + 1) 0 - 1)) (e - s) s with
    | none =>
      rw [hf] at hcut
      have : cut = s := hcut
      omega
    | some k =>
      rw [hf] at hcut
      have hk : cut = k := hcut
      obtain ⟨a1, a2, _, _⟩ := firstIndexFrom_some _ _ _ _ hf
      omega
  rw [← hcut]
  obtain ⟨op, other0, hC, hnb, hlen0, hoth0, hrun0⟩ := CutOutRange_spec ranges s e cut
    even_label odd_label st hcs.1 hcs.2 hlen (hinc cut hcs.1 hcs.2) heven hodd
  rw [hC]
  obtain ⟨i1, i2, i3⟩ := CutOutRange.increasing ranges other0 s e cut hcs.2 (by omega) hinc hoth0
  obtain ⟨other, done, code, hres, hcode, hlab, holen, hoth, hbind, hrun⟩ :=
    ih other0 (s + 1) (e - 1) lo hi fall_through even_label odd_label
      { st with code := st.code ++ [op], labels := st.labels + 1 } (by omega)
      ⟨by omega, by omega, i1, by omega, by omega,
        Label.Older.mono _ _ _ heven (Nat.le_succ _), Label.Older.mono _ _ _ hodd (Nat.le_succ _)⟩
  refine ⟨other, done, op :: code, hres, ?_, ?_, by rw [holen, hlen0], ?_, ?_, ?_⟩
  · rw [hcode]
    simp
  · exact Nat.le_trans (Nat.le_succ _) hlab
  · intro j hj
    rw [hoth j (by omega), hoth0 j, if_neg (by omega), if_neg (by omega)]
  · intro l hl
    rcases List.mem_cons.1 hl with h | h
    · exact absurd h.symm (hnb l)
    · obtain ⟨k, hk1, hk2⟩ := hbind l h
      exact ⟨k, hk1, Nat.le_trans (Nat.le_succ _) hk2⟩
  · intro subject position c rest hc1 hc2
    rw [List.cons_append, hrun0]
    by_cases hc : ranges.getD cut 0 ≤ c ∧ c < ranges.getD (cut + 1) 0
    · rw [if_pos hc, AssemblerOp.jumpTo_older subject position (st.labels + 1) _ c code rest
        (Label.Older.ite _ _ _ _ (Label.Older.mono _ _ _ hodd (Nat.le_succ _))
          (Label.Older.mono _ _ _ heven (Nat.le_succ _))) hbind,
        GenerateBranches.boundariesUpTo_unique ranges c (e - s + 1) s (cut - s + 1) (by omega)
          (fun j hj => by
            have := GenerateBranches.Increasing.le_of_le ranges s e (s + j) cut hinc (by omega)
              (by omega) (by omega)
            omega)
          (fun j hj1 hj2 => by
            have := GenerateBranches.Increasing.le_of_le ranges s e (cut + 1) (s + j) hinc
              (by omega) (by omega) (by omega)
            omega)]
      rcases Nat.mod_two_eq_zero_or_one (cut - s) with hp | hp
      · rw [if_pos (by omega : (cut - s + 1) % 2 = 1),
          if_neg (by omega : ¬ (cut - s) % 2 = 1)]
        exact Or.inl rfl
      · rw [if_neg (by omega : ¬ (cut - s + 1) % 2 = 1), if_pos hp]
        exact Or.inl rfl
    · rw [if_neg hc]
      have hr := hrun subject position c rest hc1 hc2
      rw [CutOutRange.count_parity ranges other0 s e cut c hcs.1 hcs.2 (by omega) hinc hoth0
        hc] at hr
      exact hr

/-- The case of a split at a border does what `GenerateBranches` is to
achieve, if the calls for the two parts do. -/
theorem GenerateBranches.split_post (fuel : Nat) (ranges : List Nat) (s e lo hi : Nat)
    (fall_through : Label) (even_label odd_label : Option Label) (st : Emitter)
    (ih : ∀ ranges s e lo hi fall_through even_label odd_label st, e - s < fuel →
      GenerateBranches.Pre ranges s e lo hi even_label odd_label st →
      GenerateBranches.Post ranges s e lo hi fall_through even_label odd_label st
        (GenerateBranches fuel ranges s e lo hi fall_through even_label odd_label st))
    (hfuel : e - s < fuel + 1)
    (hpre : GenerateBranches.Pre ranges s e lo hi even_label odd_label st)
    (h1 : s ≠ e) (h2 : s + 1 ≠ e) (h3 : ¬ e - s ≤ 6)
    (h4 : ¬ hi >>> RegExpMacroAssembler.kTableSizeBits =
      lo >>> RegExpMacroAssembler.kTableSizeBits)
    (h5 : ¬ lo >>> RegExpMacroAssembler.kTableSizeBits ≠
      ranges.getD s 0 >>> RegExpMacroAssembler.kTableSizeBits) :
    GenerateBranches.Post ranges s e lo hi fall_through even_label odd_label st
      (GenerateBranches (fuel + 1) ranges s e lo hi fall_through even_label odd_label st) := by
  obtain ⟨hse, hlen, hinc, hlo, hhi, heven, hodd⟩ := hpre
  obtain ⟨ns, ne, border, hsplit, q1, q2, q3, q4, q5, q6, q7, q8⟩ :=
    SplitSearchSpace_spec ranges s e (by omega) hinc
  obtain ⟨above, habove⟩ : ∃ above, above =
      if border = ranges.getD e 0 - 1 + 1 then
        (if e % 2 ≠ s % 2 then odd_label else even_label)
      else some (Label.stack st.labels) := ⟨_, rfl⟩
  rw [GenerateBranches_split fuel ranges s e lo hi fall_through even_label odd_label st h1 h2 h3
    h4 h5 ns ne border hsplit above habove]
  have hpos : 1 ≤ ranges.getD e 0 := by
    have := GenerateBranches.Increasing.le_of_le ranges s e s e hinc (le_refl _) hse (le_refl _)
    omega
  have heven2 : Label.Older (st.labels + 1 + 1) even_label :=
    Label.Older.mono _ _ _ heven (by omega)
  have hodd2 : Label.Older (st.labels + 1 + 1) odd_label :=
    Label.Older.mono _ _ _ hodd (by omega)
  -- the boundaries below the border
  obtain ⟨other1, done1, code1, hres1, hcode1, hlab1, holen1, hoth1, hbind1, hrun1⟩ :=
    ih ranges s ne lo (border - 1) (Label.stack (st.labels + 1)) even_label odd_label
      { st with code := st.code ++ [.CheckCharacterGT (border - 1) above],
                labels := st.labels + 1 + 1 } (by omega)
      ⟨q1, by omega, GenerateBranches.Increasing.sub ranges s e s ne hinc (le_refl _) (by omega),
        hlo, by omega, heven2, hodd2⟩
  rw [hres1]
  simp only []
  -- a character below the border
  have hbelow : ∀ (subject : List Nat) (position : Int) (c : Nat) (rest : List AssemblerOp),
      lo ≤ c → c ≤ border - 1 →
      AssemblerOp.run subject position none c (code1 ++ rest) =
        AssemblerOp.jumpTo subject position
          (if GenerateBranches.boundariesUpTo ranges c (e - s + 1) s % 2 = 1 then even_label
            else odd_label) c rest := by
    intro subject position c rest hc1 hc2
    rw [GenerateBranches.boundariesUpTo_before ranges c s ne e q1 (by omega)
      (fun i hi1 hi2 => by
        have := q6 i hi1 hi2
        omega)]
    exact GenerateBranches.ReachesIn.jump _ _ _ _ _ _ _ (hrun1 subject position c rest hc1 hc2)
      (Label.Older.ite _ _ _ _ heven hodd (st.labels + 1) (by omega))
  by_cases hb : border = ranges.getD e 0 - 1 + 1
  · -- everything above the border goes to one of the two labels
    rw [if_pos hb] at habove
    have hold : Label.Older st.labels above := by
      rw [habove]
      exact Label.Older.ite _ _ _ _ hodd heven
    rw [if_neg (hold st.labels (le_refl _))]
    refine ⟨other1, done1, .CheckCharacterGT (border - 1) above :: code1, rfl, ?_, by
      have : st.labels + 1 + 1 ≤ done1.labels := hlab1
      omega, holen1, fun j hj => hoth1 j (by omega), ?_, ?_⟩
    · rw [hcode1]
      simp
    · intro l hl
      rcases List.mem_cons.1 hl with h | h
      · exact absurd h (by simp)
      · obtain ⟨k, hk1, hk2⟩ := hbind1 l h
        exact ⟨k, hk1, by
          have : st.labels + 1 + 1 ≤ k := hk2
          omega⟩
    · intro subject position c rest hc1 hc2
      rw [List.cons_append, AssemblerOp.run_CheckCharacterGT]
      by_cases hc : c > border - 1
      · rw [if_pos hc, AssemblerOp.jumpTo_older subject position (st.labels + 1 + 1) above c
          code1 rest (Label.Older.mono _ _ _ hold (by omega)) hbind1,
          GenerateBranches.boundariesUpTo_all ranges c (e - s + 1) s (fun j hj1 hj2 => by
            have := GenerateBranches.Increasing.le_of_le ranges s e j e hinc hj1 (by omega)
              (le_refl _)
            omega), habove]
        by_cases hp : e % 2 ≠ s % 2
        · rw [if_pos hp, if_neg (by omega : ¬ (e - s + 1) % 2 = 1)]
          exact Or.inl rfl
        · rw [if_neg hp, if_pos (by omega : (e - s + 1) % 2 = 1)]
          exact Or.inl rfl
      · rw [if_neg hc, hbelow subject position c rest hc1 (by omega)]
        exact Or.inl rfl
  · -- the boundaries above the border are handled after `handle_rest`
    rw [if_neg hb] at habove
    rw [if_pos habove]
    have hbns : border < ranges.getD ns 0 := by
      rcases q8 with h | h
      · omega
      · exact h
    have hsame : ∀ j, ne ≤ j → other1.getD j 0 = ranges.getD j 0 :=
      fun j hj => hoth1 j (Or.inr hj)
    have hlab1b : st.labels + 1 + 1 ≤ done1.labels := hlab1
    obtain ⟨other2, done2, code2, hres2, hcode2, hlab2, holen2, hoth2, hbind2, hrun2⟩ :=
      ih other1 ns e border hi (Label.stack (st.labels + 1))
        (if ns % 2 ≠ s % 2 then odd_label else even_label)
        (if ns % 2 ≠ s % 2 then even_label else odd_label)
        (done1.emit (.Bind (Label.stack st.labels))) (by omega)
        ⟨q3, by omega, fun i hi1 hi2 => by
            rw [hsame i (by omega), hsame (i + 1) (by omega)]
            exact hinc i (by omega) hi2,
          by rw [hsame ns (by omega)]; exact hbns, by rw [hsame e (by omega)]; exact hhi,
          Label.Older.ite _ _ _ _ (Label.Older.mono _ _ _ hodd (by
            show st.labels ≤ done1.labels
            omega)) (Label.Older.mono _ _ _ heven (by
            show st.labels ≤ done1.labels
            omega)),
          Label.Older.ite _ _ _ _ (Label.Older.mono _ _ _ heven (by
            show st.labels ≤ done1.labels
            omega)) (Label.Older.mono _ _ _ hodd (by
            show st.labels ≤ done1.labels
            omega))⟩
    have hlab2b : done1.labels ≤ done2.labels := hlab2
    have hbind2b : ∀ l, AssemblerOp.Bind l ∈ code2 → ∃ k, l = .stack k ∧ done1.labels ≤ k :=
      hbind2
    refine ⟨other2, done2,
      .CheckCharacterGT (border - 1) above :: (code1 ++ .Bind (Label.stack st.labels) :: code2),
      hres2, ?_, by omega, by rw [holen2, holen1], ?_, ?_, ?_⟩
    · rw [hcode2]
      simp [Emitter.emit, hcode1]
    · intro j hj
      rw [hoth2 j (by omega), hoth1 j (by omega)]
    · intro l hl
      rcases List.mem_cons.1 hl with h | h
      · exact absurd h (by simp)
      · rcases List.mem_append.1 h with h | h
        · obtain ⟨k, hk1, hk2⟩ := hbind1 l h
          exact ⟨k, hk1, by
            have : st.labels + 1 + 1 ≤ k := hk2
            omega⟩
        · rcases List.mem_cons.1 h with h | h
          · injection h with h
            exact ⟨st.labels, h, le_refl _⟩
          · obtain ⟨k, hk1, hk2⟩ := hbind2b l h
            exact ⟨k, hk1, by omega⟩
    · intro subject position c rest hc1 hc2
      rw [List.cons_append, AssemblerOp.run_CheckCharacterGT, List.append_assoc,
        List.cons_append]
      by_cases hc : c > border - 1
      · rw [if_pos hc, habove, AssemblerOp.jumpTo_append subject position _ c code1 _
          (fun l hl hmem => by
            obtain ⟨k, hk1, hk2⟩ := hbind1 l hmem
            have hk3 : st.labels + 1 + 1 ≤ k := hk2
            injection hl with hl
            rw [hk1] at hl
            injection hl with hl
            omega),
          AssemblerOp.jumpTo_bind]
        have hr := GenerateBranches.ReachesIn.jump _ _ _ _ _ _ _
          (hrun2 subject position c rest (by omega) hc2)
          (Label.Older.ite _ _ _ _
            (Label.Older.ite _ _ _ _ hodd heven) (Label.Older.ite _ _ _ _ heven hodd)
            (st.labels + 1) (by omega))
        rw [hr, GenerateBranches.boundariesUpTo_after ranges c s ns e (by omega) q3
          (fun i hi1 hi2 => by
            have := q7 i hi1 hi2
            omega),
          GenerateBranches.boundariesUpTo_congr other1 ranges c (e - ns + 1) ns
            (fun j hj1 hj2 => hsame j (by omega))]
        rcases Nat.mod_two_eq_zero_or_one
          (GenerateBranches.boundariesUpTo ranges c (e - ns + 1) ns) with hp | hp
        · rw [if_neg (by omega : ¬ GenerateBranches.boundariesUpTo ranges c (e - ns + 1) ns % 2
            = 1)]
          by_cases hf : ns % 2 ≠ s % 2
          · rw [if_pos hf, if_pos (by omega : (ns - s +
              GenerateBranches.boundariesUpTo ranges c (e - ns + 1) ns) % 2 = 1)]
            exact Or.inl rfl
          · rw [if_neg hf, if_neg (by omega : ¬ (ns - s +
              GenerateBranches.boundariesUpTo ranges c (e - ns + 1) ns) % 2 = 1)]
            exact Or.inl rfl
        · rw [if_pos hp]
          by_cases hf : ns % 2 ≠ s % 2
          · rw [if_pos hf, if_neg (by omega : ¬ (ns - s +
              GenerateBranches.boundariesUpTo ranges c (e - ns + 1) ns) % 2 = 1)]
            exact Or.inl rfl
          · rw [if_neg hf, if_pos (by omega : (ns - s +
              GenerateBranches.boundariesUpTo ranges c (e - ns + 1) ns) % 2 = 1)]
            exact Or.inl rfl
      · rw [if_neg hc, hbelow subject position c _ hc1 (by omega),
          AssemblerOp.jumpTo_cons subject position _ c _ _ (fun l hl heq => by
            injection heq with heq
            rw [← heq] at hl
            exact Label.Older.ite _ _ _ _ heven hodd st.labels (le_refl _) hl),
          AssemblerOp.jumpTo_older subject position st.labels _ c code2 rest
            (Label.Older.ite _ _ _ _ heven hodd) (fun l hl => by
              obtain ⟨k, hk1, hk2⟩ := hbind2b l hl
              exact ⟨k, hk1, by omega⟩)]
        exact Or.inl rfl

/-- With more fuel than boundaries, `GenerateBranches` returns, and what it
emits takes every character from `min_char` to `max_char` to `even_label`
when the number of boundaries up to the character is odd and to `odd_label`
when it is even. -/
theorem GenerateBranches.post :
    ∀ (fuel : Nat) (ranges : List Nat) (s e lo hi : Nat) (fall_through : Label)
      (even_label odd_label : Option Label) (st : Emitter), e - s < fuel →
      GenerateBranches.Pre ranges s e lo hi even_label odd_label st →
      GenerateBranches.Post ranges s e lo hi fall_through even_label odd_label st
        (GenerateBranches fuel ranges s e lo hi fall_through even_label odd_label st) := by
  intro fuel
  induction fuel with
  | zero =>
    intro ranges s e lo hi fall_through even_label odd_label st hfuel
    omega
  | succ fuel ih =>
    intro ranges s e lo hi fall_through even_label odd_label st hfuel hpre
    by_cases h1 : s = e
    · subst h1
      exact GenerateBranches.single_post fuel ranges s lo hi fall_through even_label odd_label
        st hpre
    · by_cases h2 : s + 1 = e
      · exact GenerateBranches.double_post fuel ranges s e lo hi fall_through even_label
          odd_label st hpre h2
      · by_cases h3 : e - s ≤ 6
        · exact GenerateBranches.cut_post fuel ranges s e lo hi fall_through even_label
            odd_label st ih hfuel hpre h1 h2 h3
        · by_cases h4 : hi >>> RegExpMacroAssembler.kTableSizeBits =
              lo >>> RegExpMacroAssembler.kTableSizeBits
          · exact GenerateBranches.table_post fuel ranges s e lo hi fall_through even_label
              odd_label st hpre h1 h2 h3 h4
          · by_cases h5 : lo >>> RegExpMacroAssembler.kTableSizeBits ≠
                ranges.getD s 0 >>> RegExpMacroAssembler.kTableSizeBits
            · exact GenerateBranches.below_post fuel ranges s e lo hi fall_through even_label
                odd_label st ih hfuel hpre h1 h2 h3 h4 h5
            · exact GenerateBranches.split_post fuel ranges s e lo hi fall_through even_label
                odd_label st ih hfuel hpre h1 h2 h3 h4 h5

/-- C36 (counterexample). For the nine increasing boundaries 10, 20, .., 80,
200 with `min_char = 0` and `max_char = 127`, the last boundary lies above
`max_char`; the code of `GenerateBranches` takes the character 100, which
lies in none of the intervals that start at an even boundary, to
`even_label`. -/
theorem GenerateBranches_transfers_counterexample :
    0 < GenerateBranches.exampleRanges.getD 0 0 ∧
    (∀ i, i < 8 → GenerateBranches.exampleRanges.getD i 0 <
      GenerateBranches.exampleRanges.getD (i + 1) 0) ∧
    GenerateBranches.inEven GenerateBranches.exampleRanges 0 8 100 = false ∧
    (GenerateBranches 9 GenerateBranches.exampleRanges 0 8 0 127 (.stack 0) (some (.node 1))
        (some (.node 2)) { Emitter.new [] with labels := 1 }).map
      (fun result => AssemblerOp.run [] 0 none 100 result.2.code) = some (.jump (.node 1)) := by
  decide

/-- C36 (amended). For strictly increasing boundaries
`ranges[start_index..end_index]` with `min_char < ranges[start_index]` and
`ranges[end_index] <= max_char`, and labels `even_label` and `odd_label`
created before the call, `GenerateBranches` returns when it has more fuel
than boundaries, and for every character `c` with
`min_char <= c <= max_char` the code it emits goes to `even_label` when `c`
lies in an interval `[ranges[start_index + 2k], ranges[start_index + 2k + 1])`
(the last one without an upper end when that boundary is absent) and to
`odd_label` otherwise, where going to a label equal to `fall_through` may
also be falling off the end of the emitted code. -/
theorem GenerateBranches_transfers (fuel : Nat) (ranges : List Nat)
    (start_index end_index min_char max_char : Nat) (fall_through : Label)
    (even_label odd_label : Option Label) (st : Emitter)
    (hfuel : end_index - start_index < fuel) (hse : start_index ≤ end_index)
    (hlen : end_index < ranges.length)
    (hinc : ∀ i, start_index ≤ i → i < end_index → ranges.getD i 0 < ranges.getD (i + 1) 0)
    (hmin : min_char < ranges.getD start_index 0) (hmax : ranges.getD end_index 0 ≤ max_char)
    (heven : ∀ n, st.labels ≤ n → even_label ≠ some (.stack n))
    (hodd : ∀ n, st.labels ≤ n → odd_label ≠ some (.stack n))
    (subject : List Nat) (position : Int) (c : Nat) (hc1 : min_char ≤ c) (hc2 : c ≤ max_char) :
    ∃ other done,
      GenerateBranches fuel ranges start_index end_index min_char max_char fall_through
        even_label odd_label st = some (other, done) ∧
      GenerateBranches.reaches
        (AssemblerOp.run subject position none c (done.code.drop st.code.length))
        (if GenerateBranches.inEven ranges start_index end_index c then even_label
          else odd_label) fall_through := by
  obtain ⟨other, done, code, hres, hcode, _, _, _, _, hrun⟩ :=
    GenerateBranches.post fuel ranges start_index end_index min_char max_char fall_through
      even_label odd_label st hfuel ⟨hse, hlen, hinc, hmin, hmax, heven, hodd⟩
  refine ⟨other, done, hres, ?_⟩
  have hr := hrun subject position c [] hc1 hc2
  rw [List.append_nil] at hr
  rw [hcode, drop_code_append]
  have hiff := GenerateBranches.inEven_iff ranges start_index end_index c hse hinc
  have hlabel : (if GenerateBranches.inEven ranges start_index end_index c then even_label
        else odd_label) =
      (if GenerateBranches.boundariesUpTo ranges c (end_index - start_index + 1) start_index % 2
        = 1 then even_label else odd_label) := by
    by_cases h : GenerateBranches.inEven ranges start_index end_index c = true
    · rw [if_pos h, if_pos (hiff.1 h)]
    · rw [if_neg h, if_neg (fun h2 => h (hiff.2 h2))]
  rw [hlabel]
  rcases hr with hr | hr
  · left
    rw [hr]
    exact AssemblerOp.jumpTo_unbound subject position _ c [] (fun l _ => List.not_mem_nil _)
  · right
    refine ⟨hr.1, ?_⟩
    rw [hr.2]
    rfl

/-- The statement of `GenerateBranches_transfers` for the eight boundaries
10, 20, .., 80 with `min_char = 0` and `max_char = 127`, at the character
100. -/
theorem GenerateBranches_transfers_witness :
    ∃ other done,
      GenerateBranches 8 [10, 20, 30, 40, 50, 60, 70, 80] 0 7 0 127 (.stack 0) (some (.node 1))
        (some (.node 2)) { Emitter.new [] with labels := 1 } = some (other, done) ∧
      GenerateBranches.reaches
        (AssemblerOp.run [] 0 none 100
          (done.code.drop ({ Emitter.new [] with labels := 1 } : Emitter).code.length))
        (if GenerateBranches.inEven [10, 20, 30, 40, 50, 60, 70, 80] 0 7 100 then
          some (.node 1) else some (.node 2)) (.stack 0) :=
  GenerateBranches_transfers 8 [10, 20, 30, 40, 50, 60, 70, 80] 0 7 0 127 (.stack 0)
    (some (.node 1)) (some (.node 2)) { Emitter.new [] with labels := 1 } (by decide) (by decide)
    (by decide)
    (fun i _ h2 => by
      have h : ∀ j, j < 7 → [10, 20, 30, 40, 50, 60, 70, 80].getD j 0 <
          [10, 20, 30, 40, 50, 60, 70, 80].getD (j + 1) 0 := by decide
      exact h i h2)
    (by decide) (by decide) (fun n _ h => by cases h) (fun n _ h => by cases h) [] 0 100
    (by decide) (by decide)

end V8
